import Mathlib

/-!
# hellepoll: the reactor core (task.cpp, out.cpp, time.cpp, callback_list.hpp, http.cpp)

A shallow embedding of the scheduler/task core of `williame/hellepoll`, of its callback
lists and of the graceful close of its HTTP connections.

* `Task*` pointers are indices (`TaskId`) into a heap `Sched.tasks`; `NULL` is `none`.
* The kernel objects the code talks to are part of the state: the interest list of the
  epoll instance (`Sched.epoll`), the bytes each descriptor has accepted (`Sched.wire`),
  the results the next `::write` calls will give (`Sched.script`) and what the next `::read`
  calls will find (`Sched.input`).
* A C++ exception is an outcome `Res.throw e s` that keeps the state reached when it was
  thrown.  `Res.diverge` is a call without final state: a loop or recursion that ran past
  its bound, a `NULL` dereference, or `std::terminate`.
* `assert(...)` lines are proof obligations of the source and are not executed here;
  `fprintf`/`dump_context` logging has no effect on the modelled state.
-/

namespace Hellepoll

/-! ## Constants -/

/-- The `EPOLLIN` bit of `<sys/epoll.h>`. -/
def EPOLLIN : Nat := 0x001
/-- The `EPOLLOUT` bit of `<sys/epoll.h>`. -/
def EPOLLOUT : Nat := 0x004
/-- The `EPOLLERR` bit of `<sys/epoll.h>`. -/
def EPOLLERR : Nat := 0x008
/-- The `EPOLLHUP` bit of `<sys/epoll.h>`. -/
def EPOLLHUP : Nat := 0x010
/-- The `EPOLLRDHUP` bit of `<sys/epoll.h>`. -/
def EPOLLRDHUP : Nat := 0x2000
/-- The `EPOLLET` bit of `<sys/epoll.h>`, `1u << 31`. -/
def EPOLLET : Nat := 0x80000000

/-- Number of values of a `uint32_t`. -/
def UINT32 : Nat := 4294967296

/-- The C expression `~x` at type `uint32_t`. -/
def not32 (x : Nat) : Nat := (UINT32 - 1) ^^^ (x % UINT32)

/-- Conversion of a `uint32_t` argument to the `int` parameter of `millisecs_to_time64`. -/
def toInt32 (x : Nat) : Int :=
  if x % UINT32 < 2147483648 then ((x % UINT32 : Nat) : Int) else ((x % UINT32 : Nat) : Int) - 4294967296

/-- time.cpp `millisecs_to_time64` (the build without `TIME_NANO`): `millisecs*1000LL`. -/
def millisecs_to_time64 (millisecs : Int) : Int := millisecs * 1000

/-! ## Data model -/

/-- A `Task*`.  -/
abbrev TaskId := Nat

/-- What the code throws.  `gracefulClose` is a subclass of `halfClose` in error.cpp. -/
inductive Exn where
  | cError
  | clientError
  | internalError
  | endOfStream
  | halfClose (msg : String)
  | gracefulClose (msg : String)
  | shutdown
  | other
  deriving DecidableEq, Repr

/-- The `msg` of an exception that a `catch(HalfClose*)` clause catches. -/
def Exn.halfCloseMsg : Exn → Option String
  | .halfClose m => some m
  | .gracefulClose m => some m
  | _ => none

/-- The memory an `Out` points at: a caller's buffer (by address) or bytes the segment owns. -/
inductive Buf where
  | borrowed (addr : Nat)
  | owned (bytes : List Nat)
  deriving DecidableEq, Repr

/-- out.hpp `struct Out`: `ptr`, `len`, `ofs`; the `next` link is the tail of the list
that holds the segment. -/
structure Out where
  ptr : Buf
  len : Nat
  ofs : Nat := 0
  deriving DecidableEq, Repr

/-- task.hpp `Task::Timeout::Data`. -/
structure TimeoutData where
  due : Int := 0
  timeout : Int := 0
  deriving DecidableEq, Repr

/-- task.hpp `Task::Timeout` (with the `prev`/`next` of its base `Link`). -/
structure Timeout where
  prev : Option TaskId := none
  next : Option TaskId := none
  due : Int := 0
  read : TimeoutData := {}
  write : TimeoutData := {}
  deriving DecidableEq, Repr

/-- The fields of task.hpp `class Task` the modelled operations use, with the values the
constructor `Task::Task` gives them.  `buf` is `buf[0 .. buflen)`, the bytes that
`async_read(ptr,bytes)` has collected so far; `read_ahead_buffer` is the array that
`read_ahead_buffer` points at (`none` for `NULL`), `read_ahead_maxlen` (not initialised by
the constructor) starts as 0. -/
structure Task where
  fd : Int := -1
  out : List Out := []
  half_close : Option String := none
  events : Nat := 0
  next_close : Option TaskId := none
  del_ok : Bool := false
  closed : Bool := false
  eoinput : Bool := false
  sated : Bool := true
  totalWritten : Nat := 0
  totalRead : Nat := 0
  tree_parent : Option TaskId := none
  tree_first_child : Option TaskId := none
  tree_next_sibling : Option TaskId := none
  timeout : Timeout := {}
  buf : List Nat := []
  read_ahead_buffer : Option (List Nat) := none
  read_ahead_ofs : Nat := 0
  read_ahead_len : Nat := 0
  read_ahead_maxlen : Nat := 0
  deriving DecidableEq, Repr

/-- One result of the `::read` system call on a non-blocking descriptor: bytes that have
arrived (a read takes a prefix of them and leaves the rest for the next read), nothing
there (`EWOULDBLOCK`), the end of the stream (return value 0), or another error. -/
inductive ReadRes where
  | data (bytes : List Nat)
  | wouldblock
  | eof
  | error
  deriving DecidableEq, Repr

/-- One result of the `::write` system call on a non-blocking descriptor. -/
inductive WriteRes where
  | accept (k : Nat)
  | wouldblock
  | eintr
  | error
  deriving DecidableEq, Repr

/-- The scheduler (task.hpp `class Scheduler`), the heap of tasks, and the kernel state
the code observes. -/
structure Sched where
  tasks : TaskId → Task := fun _ => {}
  ntasks : Nat := 0
  now : Int := 0
  close_list : Option TaskId := none
  timeouts : Option TaskId := none
  timeouts_enabled : Bool := true
  epoll : Int → Option Nat := fun _ => none
  wire : Int → List Nat := fun _ => []
  script : List WriteRes := []
  mem : Nat → List Nat := fun _ => []
  shut_rd : Int → Bool := fun _ => false
  input : List ReadRes := []

/-- Outcome of a call that can throw or run past a loop bound. -/
inductive Res (α : Type) where
  | ok (a : α) (s : Sched)
  | throw (e : Exn) (s : Sched)
  | diverge

/-- Sequencing: the continuation runs only after a normal return. -/
def Res.bind {α β : Type} (r : Res α) (k : α → Sched → Res β) : Res β :=
  match r with
  | .ok a s => k a s
  | .throw e s => .throw e s
  | .diverge => .diverge

/-- The state a call ended in, when it ended. -/
def Res.state? {α : Type} : Res α → Option Sched
  | .ok _ s => some s
  | .throw _ s => some s
  | .diverge => none

/-- Whether a call returned normally. -/
def Res.returned {α : Type} : Res α → Bool
  | .ok _ _ => true
  | _ => false

/-- Overwrite the task at `t`. -/
def Sched.upd (s : Sched) (t : TaskId) (f : Task → Task) : Sched :=
  { s with tasks := fun i => if i = t then f (s.tasks t) else s.tasks i }

/-! ## The epoll instance -/

/-- The `op` argument of `epoll_ctl`. -/
inductive EpollOp where
  | add
  | mod
  | del
  deriving DecidableEq, Repr

/-- Assign what the epoll instance holds for `fd`. -/
def Sched.setEpoll (s : Sched) (fd : Int) (v : Option Nat) : Sched :=
  { s with epoll := fun g => if g = fd then v else s.epoll g }

/-- The kernel side of `epoll_ctl(epoll_fd, op, fd, &event)` (epoll_ctl(2)): `none` is the
return value `-1` (`EBADF` for a bad descriptor, `EEXIST` for `ADD` of a registered one,
`ENOENT` for `MOD`/`DEL` of an unregistered one). -/
def epoll_ctl (s : Sched) (op : EpollOp) (fd : Int) (events : Nat) : Option Sched :=
  if fd < 0 then none
  else match op, s.epoll fd with
    | .add, none => some (s.setEpoll fd (some events))
    | .add, some _ => none
    | .mod, some _ => some (s.setEpoll fd (some events))
    | .mod, none => none
    | .del, some _ => some (s.setEpoll fd none)
    | .del, none => none

/-- task.cpp `Task::schedule`. -/
def Task.schedule (t : TaskId) (flags : Nat) (s : Sched) : Res Unit :=
  let added := (s.tasks t).events != 0
  let s1 := s.upd t (fun T => { T with events := T.events ||| flags })
  match epoll_ctl s1 (if added then .mod else .add) (s1.tasks t).fd (s1.tasks t).events with
  | none => .throw .cError s1
  | some s2 => .ok () s2

/-- task.cpp `Task::unschedule`. -/
def Task.unschedule (t : TaskId) (flags : Nat) (s : Sched) : Res Unit :=
  if (s.tasks t).events != 0 then
    let s1 := s.upd t (fun T => { T with events := T.events &&& not32 flags })
    let remove := (not32 EPOLLET &&& (s1.tasks t).events) == 0
    match epoll_ctl s1 (if remove then .del else .mod) (s1.tasks t).fd (s1.tasks t).events with
    | none => .throw .cError s1
    | some s2 => .ok () (if remove then s2.upd t (fun T => { T with events := 0 }) else s2)
  else .ok () s

/-! ## The timeout list (task.cpp, `Task::set_timeout` … `Task::sort_timeout`) -/

/-- Assign `timeout.next` of task `i`. -/
def Sched.setNext (s : Sched) (i : TaskId) (v : Option TaskId) : Sched :=
  s.upd i (fun T => { T with timeout := { T.timeout with next := v } })

/-- Assign `timeout.prev` of task `i`. -/
def Sched.setPrev (s : Sched) (i : TaskId) (v : Option TaskId) : Sched :=
  s.upd i (fun T => { T with timeout := { T.timeout with prev := v } })

/-- Assign `timeout.due` of task `i`. -/
def Sched.setDue (s : Sched) (i : TaskId) (v : Int) : Sched :=
  s.upd i (fun T => { T with timeout := { T.timeout with due := v } })

/-- Assign `Scheduler::timeouts`. -/
def Sched.setTimeouts (s : Sched) (v : Option TaskId) : Sched :=
  { s with timeouts := v }

/-- Which member of `timeout` a call of `set_timeout` receives as `to` (the other one is
`other`): `set_read_timeout` passes `timeout.read`, `set_write_timeout` `timeout.write`. -/
inductive Dir where
  | read
  | write
  deriving DecidableEq, Repr

/-- The opposite direction. -/
def Dir.other : Dir → Dir
  | .read => .write
  | .write => .read

/-- Read `timeout.read` or `timeout.write`. -/
def Timeout.get (x : Timeout) : Dir → TimeoutData
  | .read => x.read
  | .write => x.write

/-- Assign `timeout.read` or `timeout.write`. -/
def Timeout.set (x : Timeout) (d : Dir) (v : TimeoutData) : Timeout :=
  match d with
  | .read => { x with read := v }
  | .write => { x with write := v }

/-- task.cpp `Task::unlink_timeout`. -/
def Task.unlink_timeout (t : TaskId) (s : Sched) : Sched :=
  let s1 := s.setDue t 0
  let s2 := if some t = s1.timeouts then s1.setTimeouts (s1.tasks t).timeout.next else s1
  let s3 := match (s2.tasks t).timeout.prev with
    | some p => s2.setNext p (s2.tasks t).timeout.next
    | none => s2
  let s4 := match (s3.tasks t).timeout.next with
    | some n => s3.setPrev n (s3.tasks t).timeout.prev
    | none => s3
  (s4.setNext t none).setPrev t none

/-- task.cpp `Task::set_timeout`; the block that unlinks the task there is the body of
`Task::unlink_timeout`, statement for statement. -/
def Task.set_timeout (t : TaskId) (d : Dir) (millisecs : Nat) (s : Sched) : Sched :=
  if !s.timeouts_enabled then s
  else
    let was_scheduled := ((s.tasks t).timeout.get d).due != 0
    let to_timeout := millisecs_to_time64 (toInt32 millisecs)
    let to_due := s.now + to_timeout
    let s1 := s.upd t (fun T =>
      { T with timeout := T.timeout.set d { due := to_due, timeout := to_timeout } })
    let other_due := ((s1.tasks t).timeout.get d.other).due
    if to_due == 0 && was_scheduled then
      if other_due != 0 then s1.setDue t other_due
      else Task.unlink_timeout t s1
    else if to_due != 0 then
      if other_due != 0 then s1.setDue t (min other_due to_due)
      else
        let s2 := s1.setDue t to_due
        if !was_scheduled then
          let s3 := s2.setNext t s2.timeouts
          let s4 := match (s3.tasks t).timeout.next with
            | some n => s3.setPrev n (some t)
            | none => s3
          s4.setTimeouts (some t)
        else s2
    else s1

/-- task.cpp `Task::set_read_timeout`. -/
def Task.set_read_timeout (t : TaskId) (millisecs : Nat) (s : Sched) : Sched :=
  Task.set_timeout t .read millisecs s

/-- task.cpp `Task::set_write_timeout`. -/
def Task.set_write_timeout (t : TaskId) (millisecs : Nat) (s : Sched) : Sched :=
  Task.set_timeout t .write millisecs s

/-- First loop of task.cpp `Task::sort_timeout` (move towards the tail), at most `fuel`
tests of the loop condition.  `none`: the bound was passed or a `NULL` was dereferenced. -/
def Task.sort_forward : Nat → TaskId → Sched → Option Sched
  | 0, _, _ => none
  | fuel + 1, t, s =>
    match (s.tasks t).timeout.next with
    | none => some s
    | some n =>
      if (s.tasks n).timeout.due < (s.tasks t).timeout.due then do
        let s1 := if some t = s.timeouts then s.setTimeouts (s.tasks t).timeout.next else s
        let s2 := match (s1.tasks t).timeout.prev with
          | some p => s1.setNext p (s1.tasks t).timeout.next
          | none => s1
        let n2 ← (s2.tasks t).timeout.next
        let s3 := s2.setPrev n2 (s2.tasks t).timeout.prev
        let s4 := s3.setPrev t (s3.tasks t).timeout.next
        let p4 ← (s4.tasks t).timeout.prev
        let s5 := s4.setNext t (s4.tasks p4).timeout.next
        let p5 ← (s5.tasks t).timeout.prev
        let s6 := s5.setNext p5 (some t)
        let s7 := match (s6.tasks t).timeout.next with
          | some n7 => s6.setPrev n7 (some t)
          | none => s6
        Task.sort_forward fuel t s7
      else some s

/-- Second loop of task.cpp `Task::sort_timeout` (move towards the head). -/
def Task.sort_backward : Nat → TaskId → Sched → Option Sched
  | 0, _, _ => none
  | fuel + 1, t, s =>
    match (s.tasks t).timeout.prev with
    | none => some s
    | some p =>
      if (s.tasks p).timeout.due > (s.tasks t).timeout.due then do
        let s1 := if (s.tasks t).timeout.prev = s.timeouts then s.setTimeouts (some t) else s
        let s2 := match (s1.tasks t).timeout.next with
          | some n => s1.setPrev n (s1.tasks t).timeout.prev
          | none => s1
        let p2 ← (s2.tasks t).timeout.prev
        let s3 := s2.setNext p2 (s2.tasks t).timeout.next
        let s4 := s3.setNext t (s3.tasks t).timeout.prev
        let n4 ← (s4.tasks t).timeout.next
        let s5 := s4.setPrev t (s4.tasks n4).timeout.prev
        let n5 ← (s5.tasks t).timeout.next
        let s6 := s5.setPrev n5 (some t)
        let s7 := match (s6.tasks t).timeout.prev with
          | some p7 => s6.setNext p7 (some t)
          | none => s6
        Task.sort_backward fuel t s7
      else some s

/-- task.cpp `Task::sort_timeout`; each loop is given `ntasks + 1` tests of its condition,
more than a list of distinct tasks can need. -/
def Task.sort_timeout (t : TaskId) (s : Sched) : Res Unit :=
  match (Task.sort_forward (s.ntasks + 1) t s).bind (Task.sort_backward (s.ntasks + 1) t) with
  | some s1 => .ok () s1
  | none => .diverge

/-- The tasks met from `start` along `timeout.next`, at most `fuel` of them. -/
def timeoutChain : Nat → Option TaskId → Sched → List TaskId
  | 0, _, _ => []
  | _ + 1, none, _ => []
  | fuel + 1, some i, s => i :: timeoutChain fuel (s.tasks i).timeout.next s

/-- The timeout list as seen from `Scheduler::timeouts`. -/
def Sched.timeoutList (s : Sched) : List TaskId :=
  timeoutChain s.ntasks s.timeouts s

/-! ## The write path (out.cpp `Out::async_write`, task.cpp `Task::async_write` …) -/

/-- The bytes `ptr` points at. -/
def Sched.bufBytes (s : Sched) : Buf → List Nat
  | .borrowed a => s.mem a
  | .owned b => b

/-- Return value (and `errno`) of one `::write` call. -/
inductive WriteRet where
  | count (k : Nat)
  | ewouldblock
  | eintr
  | efail
  deriving DecidableEq, Repr

/-- The kernel side of `::write(fd, c, n)`, `c` pointing at `bytes`: a bad descriptor fails
(`EBADF`); otherwise the next entry of `script` decides, `accept k` taking the first
`min k n` bytes onto the wire, and an exhausted script means `EWOULDBLOCK`. -/
def sys_write (fd : Int) (bytes : List Nat) (n : Nat) (s : Sched) : WriteRet × Sched :=
  if fd < 0 then (.efail, s)
  else match s.script with
    | [] => (.ewouldblock, s)
    | .accept k :: rest =>
        (.count (min k n),
          { s with script := rest,
                   wire := fun g => if g = fd then s.wire fd ++ bytes.take (min k n) else s.wire g })
    | .wouldblock :: rest => (.ewouldblock, { s with script := rest })
    | .eintr :: rest => (.eintr, { s with script := rest })
    | .error :: rest => (.efail, { s with script := rest })

/-- The loop of task.cpp `Task::async_write(ptr,len,written)`, `c` pointing at `data`; the
result is the returned flag and the final `written`. -/
def Task.do_async_write_loop (t : TaskId) (data : List Nat) (len : Nat) :
    Nat → Nat → Sched → Res (Bool × Nat)
  | 0, _, _ => .diverge
  | fuel + 1, written, s =>
    if written < len then
      match sys_write (s.tasks t).fd (data.drop written) (len - written) s with
      | (.ewouldblock, s1) => .ok (false, written) s1
      | (.eintr, s1) => Task.do_async_write_loop t data len fuel written s1
      | (.efail, s1) => .throw .cError s1
      | (.count 0, s1) => .throw (.gracefulClose "end of output stream") s1
      | (.count (k + 1), s1) =>
          Task.do_async_write_loop t data len fuel (written + (k + 1))
            (s1.upd t (fun T => { T with totalWritten := (T.totalWritten + (k + 1)) % UINT32 }))
    else .ok (true, written) s

/-- task.cpp `Task::async_write(ptr,len,written)` (called `do_async_write` in out.cpp).
Every turn of the loop but the last consumes an entry of `script`. -/
def Task.do_async_write (t : TaskId) (data : List Nat) (len : Nat) (s : Sched) :
    Res (Bool × Nat) :=
  if (s.tasks t).closed then .throw .internalError s
  else Task.do_async_write_loop t data len (s.script.length + 1) 0 s

/-- out.cpp `Out::async_write`: the flag returned and the segment with its advanced `ofs`. -/
def Out.async_write (o : Out) (t : TaskId) (s : Sched) : Res (Bool × Out) :=
  (Task.do_async_write t ((s.bufBytes o.ptr).drop o.ofs) (o.len - o.ofs) s).bind fun r s1 =>
    .ok (r.1, { o with ofs := o.ofs + r.2 }) s1

/-- task.cpp `Task::async_write(const void* ptr,size_t len)`; `ptr` is the address of the
caller's buffer. -/
def Task.async_write (t : TaskId) (ptr : Nat) (len : Nat) (s : Sched) : Res Unit :=
  if (s.tasks t).out.isEmpty then
    (Out.async_write { ptr := .borrowed ptr, len := len } t s).bind fun r s1 =>
      if !r.1 then Task.schedule t EPOLLOUT (s1.upd t (fun T => { T with out := [r.2] }))
      else .ok () s1
  else
    .ok () (s.upd t (fun T => { T with out := T.out ++ [{ ptr := .borrowed ptr, len := len }] }))

/-- task.cpp `Task::async_write_cpy` (`malloc` and `new` succeed). -/
def Task.async_write_cpy (t : TaskId) (ptr : Nat) (len : Nat) (s : Sched) : Res Unit :=
  if (s.tasks t).out.isEmpty then
    (Out.async_write { ptr := .borrowed ptr, len := len } t s).bind fun r s1 =>
      if !r.1 then
        let remaining := len - r.2.ofs
        let buf := ((s1.mem ptr).drop r.2.ofs).take remaining
        Task.schedule t EPOLLOUT
          (s1.upd t (fun T => { T with out := [{ ptr := .owned buf, len := remaining }] }))
      else .ok () s1
  else
    let buf := (s.mem ptr).take len
    .ok () (s.upd t (fun T => { T with out := T.out ++ [{ ptr := .owned buf, len := len }] }))

/-- task.cpp `Task::async_write(Out* o)`. -/
def Task.async_write_out (t : TaskId) (o : Out) (s : Sched) : Res Unit :=
  if (s.tasks t).out.isEmpty then
    (Out.async_write o t s).bind fun r s1 =>
      if !r.1 then Task.schedule t EPOLLOUT (s1.upd t (fun T => { T with out := [r.2] }))
      else .ok () s1
  else
    .ok () (s.upd t (fun T => { T with out := T.out ++ [o] }))

/-- The loop `while(out) { if(!out->async_write(this)) break; … }` of task.cpp `Task::run`. -/
def Task.drain : Nat → TaskId → Sched → Res Unit
  | 0, _, _ => .diverge
  | fuel + 1, t, s =>
    match (s.tasks t).out with
    | [] => .ok () s
    | o :: _ =>
      (Out.async_write o t s).bind fun r s1 =>
        let s2 := s1.upd t (fun T => { T with out := r.2 :: T.out.tail })
        if !r.1 then .ok () s2
        else Task.drain fuel t (s2.upd t (fun T => { T with out := T.out.tail }))

/-! ## Closing (task.cpp `Task::close_fd`, `Task::close`) and the task tree -/

/-- The kernel side of `::close(fd)`: the descriptor leaves the epoll instance. -/
def sys_close (fd : Int) (s : Sched) : Sched :=
  s.setEpoll fd none

/-- task.cpp `Task::close_fd`; `unschedule(~0)` passes `0xFFFFFFFF`. -/
def Task.close_fd (t : TaskId) (s : Sched) : Res Unit :=
  if (s.tasks t).fd = -1 then .ok () s
  else
    (Task.unschedule t (UINT32 - 1) s).bind fun _ s1 =>
      .ok () ((sys_close (s1.tasks t).fd s1).upd t (fun T => { T with fd := -1 }))

/-- The walk `while(sibling->tree_next_sibling) …; sibling->tree_next_sibling = this;` of
the constructor `Task::Task`. -/
def Task.appendSibling : Nat → TaskId → TaskId → Sched → Sched
  | 0, _, _, s => s
  | fuel + 1, sibling, this, s =>
    match (s.tasks sibling).tree_next_sibling with
    | some nxt => Task.appendSibling fuel nxt this s
    | none => s.upd sibling (fun T => { T with tree_next_sibling := some this })

/-- The constructor task.cpp `Task::Task(Scheduler&, Task* parent)`: the new task gets the
next free index and is appended to its parent's chain of children. -/
def Task.new (parent : Option TaskId) (s : Sched) : TaskId × Sched :=
  let this := s.ntasks
  let s1 := { (s.upd this (fun _ => { tree_parent := parent })) with ntasks := s.ntasks + 1 }
  match parent with
  | none => (this, s1)
  | some p =>
    match (s1.tasks p).tree_first_child with
    | none => (this, s1.upd p (fun T => { T with tree_first_child := some this }))
    | some c => (this, Task.appendSibling s1.ntasks c this s1)

/-- The walk `while(parent->tree_parent) parent = parent->tree_parent;` of `Task::close`. -/
def Task.rootOf : Nat → TaskId → Sched → Option TaskId
  | 0, _, _ => none
  | fuel + 1, p, s =>
    match (s.tasks p).tree_parent with
    | none => some p
    | some q => Task.rootOf fuel q s

/-- What a step of the recursion of `Task::close` works on: a call `t->close()`, or the rest
of the loop over the children, standing at `child`. -/
inductive CloseCall where
  | task (t : TaskId)
  | children (child : Option TaskId)

/-- `Task::close`, lines 190-196: `closed = true`, the release of every segment of `out`
(the segments themselves are not modelled as allocations), and `close_fd()`. -/
def Task.closeStart (t : TaskId) (s : Sched) : Res Unit :=
  let s1 := s.upd t (fun T => { T with closed := true })
  let s2 := s1.upd t (fun T => { T with out := [] })
  Task.close_fd t s2

/-- Assign `Scheduler::close_list`. -/
def Sched.setCloseList (s : Sched) (v : Option TaskId) : Sched :=
  { s with close_list := v }

/-- `Task::close`, lines 209-212: push on `close_list`, `unlink_timeout()`, `fd = -1`. -/
def Task.closeFinish (t : TaskId) (s : Sched) : Sched :=
  let s1 := s.upd t (fun T => { T with next_close := s.close_list })
  let s2 := s1.setCloseList (some t)
  let s3 := Task.unlink_timeout t s2
  s3.upd t (fun T => { T with fd := -1 })

/-- task.cpp `Task::close` with recursion depth and loop turns bounded by `fuel`. -/
def Task.closeGo : Nat → CloseCall → Sched → Res Unit
  | 0, _, _ => .diverge
  | _ + 1, .children none, s => .ok () s
  | fuel + 1, .children (some child), s =>
    (Task.closeGo fuel (.task child) s).bind fun _ s1 =>
      Task.closeGo fuel (.children (s1.tasks child).tree_next_sibling) s1
  | fuel + 1, .task t, s =>
    if (s.tasks t).closed then .ok () s
    else
      (Task.closeStart t s).bind fun _ s3 =>
      (Task.closeGo fuel (.children (s3.tasks t).tree_first_child) s3).bind fun _ s4 =>
      (match (s4.tasks t).tree_parent with
        | none => Res.ok () s4
        | some parent =>
          match Task.rootOf (s4.ntasks + 1) parent s4 with
          | none => Res.diverge
          | some root => Task.closeGo fuel (.task root) s4).bind fun _ s5 =>
      .ok () (Task.closeFinish t s5)

/-- task.cpp `Task::close`.  The bound is more than a tree of `ntasks` tasks can use. -/
def Task.close (t : TaskId) (s : Sched) : Res Unit :=
  Task.closeGo ((s.ntasks + 2) * (s.ntasks + 2)) (.task t) s

/-- The tasks met from `start` along `next_close`, at most `fuel` of them. -/
def closeChain : Nat → Option TaskId → Sched → List TaskId
  | 0, _, _ => []
  | _ + 1, none, _ => []
  | fuel + 1, some i, s => i :: closeChain fuel (s.tasks i).next_close s

/-- The deferred-close list as seen from `Scheduler::close_list`. -/
def Sched.closeList (s : Sched) : List TaskId :=
  closeChain s.ntasks s.close_list s

/-! ## Dispatch (task.cpp `Task::run`, the timeout sweep of `Scheduler::run`) -/

/-- The virtual functions a subclass supplies. -/
structure Hooks where
  read : TaskId → Sched → Res Unit
  disconnected : TaskId → Sched → Res Unit
  do_construct : TaskId → Sched → Res Unit
  handle_timeout : TaskId → Int → Sched → Res Unit

/-- task.cpp `Task::disconnected`, the default: `ThrowClientError("disconnected")`. -/
def Task.disconnected (_t : TaskId) (s : Sched) : Res Unit := .throw .clientError s

/-- task.cpp `Task::handle_timeout`, the default: it only logs. -/
def Task.handle_timeout (_t : TaskId) (_now : Int) (s : Sched) : Res Unit := .ok () s

/-- The readable branch of `Task::run` (lines 295-314). -/
def Task.run_read (h : Hooks) (t : TaskId) (flags : Nat) (s : Sched) : Res Unit :=
  if (s.tasks t).half_close.isNone && (EPOLLIN &&& flags != 0) then
    let s1 := if (s.tasks t).timeout.read.due != 0 then
        s.upd t (fun T => { T with timeout := { T.timeout with
          read := { T.timeout.read with due := s.now + T.timeout.read.timeout } } })
      else s
    let s2 := s1.upd t (fun T => { T with sated := false })
    let tried := (h.read t s2).bind fun _ s3 =>
      if !(s3.tasks t).sated && (EPOLLET &&& (s3.tasks t).events != 0)
          && (EPOLLIN &&& (s3.tasks t).events != 0) then
        Res.throw .internalError s3
      else Res.ok () s3
    match tried with
    | .ok _ s3 => .ok () (s3.upd t (fun T => { T with sated := true }))
    | .diverge => .diverge
    | .throw e s3 =>
      match e.halfCloseMsg with
      | none => .throw e s3
      | some msg =>
        let s4 := s3.upd t (fun T => { T with sated := true })
        if (s4.tasks t).out.isEmpty then .throw e s4
        else
          (Task.unschedule t EPOLLIN s4).bind fun _ s5 =>
            let s6 := { s5 with shut_rd := fun g => if g = (s5.tasks t).fd then true else s5.shut_rd g }
            let s7 := s6.upd t (fun T => { T with half_close := some msg })
            .ok () (s7.upd t (fun T => { T with sated := true }))
  else .ok () s

/-- The writable branch of `Task::run` (lines 315-330). -/
def Task.run_write (t : TaskId) (flags : Nat) (s : Sched) : Res Unit :=
  if EPOLLOUT &&& flags != 0 then
    let s1 := if (s.tasks t).timeout.write.due != 0 then
        s.upd t (fun T => { T with timeout := { T.timeout with
          write := { T.timeout.write with due := s.now + T.timeout.write.timeout } } })
      else s
    (Task.drain ((s1.tasks t).out.length + 1) t s1).bind fun _ s2 =>
      if (s2.tasks t).out.isEmpty then
        (Task.unschedule t EPOLLOUT s2).bind fun _ s3 =>
          match (s3.tasks t).half_close with
          | some msg => .throw (.gracefulClose msg) s3
          | none => .ok () s3
      else .ok () s2
  else .ok () s

/-- The aggregate-timeout tail of `Task::run` (lines 336-351). -/
def Task.run_timeout (t : TaskId) (s : Sched) : Res Unit :=
  if (s.tasks t).timeout.read.due != 0 || (s.tasks t).timeout.write.due != 0 then
    let s1 :=
      if (s.tasks t).timeout.write.due != 0 && (s.tasks t).out.isEmpty then
        let s' := s.setDue t (s.tasks t).timeout.read.due
        if (s'.tasks t).timeout.due == 0 then Task.unlink_timeout t s' else s'
      else
        s.setDue t
          (if (s.tasks t).timeout.read.due != 0 then
            (if (s.tasks t).timeout.write.due != 0 then
              min (s.tasks t).timeout.read.due (s.tasks t).timeout.write.due
            else (s.tasks t).timeout.read.due)
          else (s.tasks t).timeout.write.due)
    Task.sort_timeout t s1
  else .ok () s

/-- task.cpp `Task::run`. -/
def Task.run (h : Hooks) (t : TaskId) (flags : Nat) (s : Sched) : Res Unit :=
  if (EPOLLHUP ||| EPOLLRDHUP ||| EPOLLERR) &&& flags != 0 then
    let s1 := s.upd t (fun T => { T with eoinput := true })
    (h.disconnected t s1).bind fun _ s2 => Task.close_fd t s2
  else if not32 (EPOLLIN ||| EPOLLOUT) &&& flags != 0 then .throw .internalError s
  else
    (Task.run_read h t flags s).bind fun _ s1 =>
    (Task.run_write t flags s1).bind fun _ s2 =>
    Task.run_timeout t s2

/-- The timeout sweep of `Scheduler::run` (lines 65-69), `fuel` tests of its condition. -/
def Scheduler.expire (h : TaskId → Hooks) : Nat → Sched → Res Unit
  | 0, _ => .diverge
  | fuel + 1, s =>
    match s.timeouts with
    | none => .ok () s
    | some first =>
      if s.now ≥ (s.tasks first).timeout.due then
        ((h first).handle_timeout first s.now s).bind fun _ s1 =>
        (Task.close first s1).bind fun _ s2 =>
        Scheduler.expire h fuel s2
      else .ok () s

/-- The sweep as `Scheduler::run` performs it: only `if(timeouts_enabled)`; every turn
closes, and so unlinks, the head, so `ntasks + 1` tests suffice. -/
def Scheduler.sweep (h : TaskId → Hooks) (s : Sched) : Res Unit :=
  if s.timeouts_enabled then Scheduler.expire h (s.ntasks + 1) s else .ok () s

/-! ## Construction (task.cpp `Task::construct`) -/

/-- task.cpp `Task::construct`.  The list `scheduler.tasks` it links the task into is not
modelled.  `set_nonblocking()` throws from `check(fcntl(fd,F_GETFL,0))` on a bad descriptor;
on a good one it and `set_cloexec()` only change descriptor flags.  An exception before
`self.detach()` runs `close()` from the destructor of `self` and goes on; an exception out
of that `close()` ends the process (no state). -/
def Task.construct (h : Hooks) (t : TaskId) (s : Sched) : Res Unit :=
  let guarded : Res Unit :=
    (h.do_construct t s).bind fun _ s1 =>
      if (s1.tasks t).fd < 0 then .throw .cError s1
      else .ok () s1
  match guarded with
  | .throw e s1 =>
    match Task.close t s1 with
    | .ok _ s2 => .throw e s2
    | _ => .diverge
  | .diverge => .diverge
  | .ok _ s1 =>
    if (EPOLLET &&& (s1.tasks t).events != 0) && (EPOLLIN &&& (s1.tasks t).events != 0) then
      Task.run h t EPOLLIN s1
    else .ok () s1

/-! ## Well-formedness of the linked structures -/

/-- Successor of `x` in the list `L` (`none` for the last element and for non-members). -/
def nextIn : List TaskId → TaskId → Option TaskId
  | [], _ => none
  | y :: ys, x => if y = x then ys.head? else nextIn ys x

/-- Predecessor of `x` in the list `L` (`none` for the first element and for non-members). -/
def prevIn : List TaskId → TaskId → Option TaskId
  | [], _ => none
  | y :: ys, x => if ys.head? = some x then some y else prevIn ys x

/-- The timeout list is the well-formed doubly-linked list `L`: `Scheduler::timeouts` is its
first node, `timeout.prev`/`timeout.next` of every task are its neighbours in `L` (both
`NULL` for a task that is not in it), and its nodes are distinct allocated tasks. -/
structure TimeoutWF (s : Sched) (L : List TaskId) : Prop where
  nodup : L.Nodup
  head : s.timeouts = L.head?
  next : ∀ x, (s.tasks x).timeout.next = nextIn L x
  prev : ∀ x, (s.tasks x).timeout.prev = prevIn L x
  alloc : ∀ x : Nat, x ∈ L → x < s.ntasks

/-- A task with its place and key in the timeout list forgotten (`timeout.prev`,
`timeout.next`, `timeout.due`). -/
def Task.core (T : Task) : Task :=
  { T with timeout := { T.timeout with prev := none, next := none, due := 0 } }

/-- What a call of `Task::close` (on any task) can have done to one task: the tree links
stay, `closed` is never reset, and a task whose `closed` flag did not change has only had
its neighbours in the timeout list changed. -/
structure CloseStep (T T' : Task) : Prop where
  tree_parent : T'.tree_parent = T.tree_parent
  tree_first_child : T'.tree_first_child = T.tree_first_child
  tree_next_sibling : T'.tree_next_sibling = T.tree_next_sibling
  closed_mono : T.closed = true → T'.closed = true
  same : T'.closed = T.closed → T'.core = T.core ∧ T'.timeout.due = T.timeout.due

/-- What a call of `Task::close` leaves alone in the scheduler and the kernel state. -/
structure CloseFrame (s s' : Sched) : Prop where
  ntasks : s'.ntasks = s.ntasks
  now : s'.now = s.now
  timeouts_enabled : s'.timeouts_enabled = s.timeouts_enabled
  wire : s'.wire = s.wire
  script : s'.script = s.script
  mem : s'.mem = s.mem
  shut_rd : s'.shut_rd = s.shut_rd
  step : ∀ i, CloseStep (s.tasks i) (s'.tasks i)

/-- The task `T` as lines 190-196 of `Task::close` leave it; `thrown` tells whether
`close_fd` threw (then `fd` was not yet reset). -/
def startedTask (T : Task) (thrown : Bool) : Task :=
  { T with closed := true, out := [],
           events := if T.fd = -1 then T.events else 0,
           fd := if thrown then T.fd else -1 }

/-- The children of `p`: the allocated tasks whose `tree_parent` is `p`, oldest first. -/
def kids (s : Sched) (p : TaskId) : List TaskId :=
  (List.range s.ntasks).filter fun c => (s.tasks c).tree_parent = some p

/-- The task tree as the constructor `Task::Task` builds it: a parent is allocated before
its children (so there is no cycle), `tree_first_child` is the oldest child and
`tree_next_sibling` chains the children of one parent in the order of their creation. -/
structure TreeWF (s : Sched) : Prop where
  parent_lt : ∀ i p : Nat, (s.tasks i).tree_parent = some p → p < i ∧ i < s.ntasks
  first_child : ∀ p, (s.tasks p).tree_first_child = (kids s p).head?
  next_sibling : ∀ c p, (s.tasks c).tree_parent = some p →
    (s.tasks c).tree_next_sibling = nextIn (kids s p) c

/-- The epoll instance agrees with the tasks: a task with a descriptor and a non-zero
interest mask is registered, and no two tasks share a descriptor. -/
structure EpollOk (s : Sched) : Prop where
  registered : ∀ i, (s.tasks i).events ≠ 0 → (s.tasks i).fd ≠ -1 →
    0 ≤ (s.tasks i).fd ∧ (s.epoll (s.tasks i).fd).isSome
  distinct : ∀ i j, i ≠ j → 0 ≤ (s.tasks i).fd → (s.tasks i).fd ≠ (s.tasks j).fd

/-- The deferred-close list is the well-formed singly-linked list `C` of closed tasks. -/
structure CloseWF (s : Sched) (C : List TaskId) : Prop where
  nodup : C.Nodup
  head : s.close_list = C.head?
  next : ∀ x ∈ C, (s.tasks x).next_close = nextIn C x
  closed : ∀ x ∈ C, (s.tasks x).closed = true

/-- The number of allocated tasks that are not closed. -/
def openCount (s : Sched) : Nat :=
  ((Finset.range s.ntasks).filter fun i => (s.tasks i).closed = false).card

/-- Tasks `i` and `t` hang under the same root of the task tree. -/
def sameTree (s : Sched) (i t : TaskId) : Prop :=
  Task.rootOf (s.ntasks + 1) i s = Task.rootOf (s.ntasks + 1) t s

/-- What a returned call of `Task::close` has done: the frame, the final fields of every
task it closed, and a timeout list that is still well-formed, has lost no task it kept
open and holds none of the tasks it closed. -/
structure ClosePost (s s' : Sched) : Prop where
  frame : CloseFrame s s'
  fields : ∀ x, (s.tasks x).closed = false → (s'.tasks x).closed = true →
    (s'.tasks x).out = [] ∧ (s'.tasks x).fd = -1 ∧ (s'.tasks x).timeout.due = 0 ∧
    (s'.tasks x).events = (if (s.tasks x).fd = -1 then (s.tasks x).events else 0)
  timeouts : ∀ L, TimeoutWF s L → ∃ L', TimeoutWF s' L' ∧ (∀ x ∈ L', x ∈ L) ∧
    (∀ x ∈ L, (s'.tasks x).closed = (s.tasks x).closed → x ∈ L') ∧
    (∀ x, (s.tasks x).closed = false → (s'.tasks x).closed = true → x ∉ L')

/-- Every task a call of `Task::close` closed has all its children closed, and the root
above it when it has a parent. -/
structure CloseAll (s s' : Sched) : Prop where
  kids : ∀ y, (s.tasks y).closed = false → (s'.tasks y).closed = true →
    ∀ c ∈ kids s y, (s'.tasks c).closed = true
  root : ∀ y p r, (s.tasks y).closed = false → (s'.tasks y).closed = true →
    (s.tasks y).tree_parent = some p → Task.rootOf (s.ntasks + 1) p s = some r →
    (s'.tasks r).closed = true
  alloc : ∀ y : Nat, (s.tasks y).closed = false → (s'.tasks y).closed = true → y < s.ntasks

/-- The deferred-close list after a returned call of `Task::close`: the tasks the call
closed, each once, pushed in front of what the list held. -/
structure ClosePushed (s s' : Sched) : Prop where
  mono : ∀ x, (s.tasks x).closed = true → (s'.tasks x).closed = true
  pushed : ∀ C, CloseWF s C → ∃ N, CloseWF s' (N ++ C) ∧
    ∀ x, x ∈ N ↔ ((s.tasks x).closed = false ∧ (s'.tasks x).closed = true)

/-! ## Call sequences on the timeout fields -/

/-- The `min_nonzero` of the specification: the one that is non-zero when exactly one is,
the smaller when both are non-zero (and 0 when both are 0). -/
def min_nonzero (a b : Int) : Int :=
  if a = 0 then b else if b = 0 then a else min a b

/-- A call that reaches the timeout fields; `clock` is the assignment `now = time64_now()`
of `Scheduler::run`. -/
inductive TimeoutCall where
  | set_read_timeout (t : TaskId) (millisecs : Nat)
  | set_write_timeout (t : TaskId) (millisecs : Nat)
  | run (t : TaskId) (flags : Nat)
  | clock (now : Int)
  deriving DecidableEq, Repr

/-- Perform one call; task `t` has the virtual functions `h t`. -/
def TimeoutCall.exec (h : TaskId → Hooks) : TimeoutCall → Sched → Res Unit
  | .set_read_timeout t millisecs, s => .ok () (Task.set_read_timeout t millisecs s)
  | .set_write_timeout t millisecs, s => .ok () (Task.set_write_timeout t millisecs s)
  | .run t flags, s => Task.run (h t) t flags s
  | .clock now, s => .ok () { s with now := now }

/-- Perform the calls in order, stopping at the first that throws. -/
def TimeoutCall.execAll (h : TaskId → Hooks) : List TimeoutCall → Sched → Res Unit
  | [], s => .ok () s
  | c :: cs, s => (c.exec h s).bind fun _ s1 => TimeoutCall.execAll h cs s1

/-- Arguments in range: `millisecs` fits the `int` parameter of `millisecs_to_time64`, and
the clock reads a positive time. -/
def TimeoutCall.inRange : TimeoutCall → Bool
  | .set_read_timeout _ millisecs => decide (millisecs < 2147483648)
  | .set_write_timeout _ millisecs => decide (millisecs < 2147483648)
  | .run _ _ => true
  | .clock now => decide (0 < now)

/-- The three deadlines of a task and the two configured durations. -/
def Task.timing (T : Task) : Int × TimeoutData × TimeoutData :=
  (T.timeout.due, T.timeout.read, T.timeout.write)

/-- The clock and every task's deadlines are the same in both states. -/
def SameTiming (s s' : Sched) : Prop :=
  s'.now = s.now ∧ ∀ i, (s'.tasks i).timing = (s.tasks i).timing

/-- A task with its place in the timeout list forgotten (`timeout.prev`, `timeout.next`). -/
def Task.unlinked (T : Task) : Task :=
  { T with timeout := { T.timeout with prev := none, next := none } }

/-- The clock is the same and the tasks differ at most in their place in the timeout list. -/
def SameButLinks (s s' : Sched) : Prop :=
  s'.now = s.now ∧ ∀ i, (s'.tasks i).unlinked = (s.tasks i).unlinked

/-- The overrides of `read()` and `disconnected()` leave the clock and the deadlines of
every task alone, whether they return or throw. -/
def Hooks.keepTimeouts (h : Hooks) : Prop :=
  ∀ t s s', ((h.read t s).state? = some s' ∨ (h.disconnected t s).state? = some s') →
    SameTiming s s'

/-- What `Task::run` and `Task::set_timeout` leave in `timeout.due`: `min_nonzero` of the two
deadlines, or the read deadline alone while a write deadline is armed. -/
def Task.dueOk (T : Task) : Prop :=
  T.timeout.due = min_nonzero T.timeout.read.due T.timeout.write.due ∨
    (T.timeout.write.due ≠ 0 ∧ T.timeout.due = T.timeout.read.due)

/-- The configured durations are not negative and `timeout.due` is one of the two values of
`Task.dueOk`. -/
def Task.timingOk (T : Task) : Prop :=
  0 ≤ T.timeout.read.timeout ∧ 0 ≤ T.timeout.write.timeout ∧ T.dueOk

/-- What holds of a task inside `Task::run`, between the refresh of a deadline and the
recomputation of `timeout.due`: with no deadline armed, `timeout.due` is 0. -/
def Task.timingWeak (T : Task) : Prop :=
  0 ≤ T.timeout.read.timeout ∧ 0 ≤ T.timeout.write.timeout ∧
    (T.timeout.read.due = 0 → T.timeout.write.due = 0 → T.timeout.due = 0)

/-- The clock is positive and every task satisfies `Task.timingOk`. -/
def TimeoutInv (s : Sched) : Prop :=
  0 < s.now ∧ ∀ i, (s.tasks i).timingOk

/-- The state inside `Task::run` of task `t`. -/
def TimeoutInvIn (t : TaskId) (s : Sched) : Prop :=
  0 < s.now ∧ (∀ i, i ≠ t → (s.tasks i).timingOk) ∧ (s.tasks t).timingWeak

/-- Whether a call assigns the deadlines of task `i`: `set_read_timeout` and
`set_write_timeout` on `i`, and a `run(events)` of `i` without a hang-up bit (with one,
`Task::run` returns before it reaches the deadlines). -/
def TimeoutCall.touches (i : TaskId) : TimeoutCall → Bool
  | .set_read_timeout t _ => decide (t = i)
  | .set_write_timeout t _ => decide (t = i)
  | .run t flags => decide (t = i) && ((EPOLLHUP ||| EPOLLRDHUP ||| EPOLLERR) &&& flags == 0)
  | .clock _ => false

/-- The deadlines of every task but `t` are the same in both states. -/
def SameTimingBut (t : TaskId) (s s' : Sched) : Prop :=
  ∀ i, i ≠ t → (s'.tasks i).timing = (s.tasks i).timing

/-- What the tail of `Task::run` leaves in `timeout.due`: the read deadline when the write
deadline is armed and nothing is queued for output, and `min_nonzero` of the two deadlines
otherwise. -/
def Task.dueRun (T : Task) : Prop :=
  T.timeout.due = if T.timeout.write.due ≠ 0 ∧ T.out = [] then T.timeout.read.due
    else min_nonzero T.timeout.read.due T.timeout.write.due

/-! ## Call sequences on the outbound queue -/

/-- The bytes of a segment that are still to be written: `ptr[ofs .. len)`. -/
def Out.rest (s : Sched) (o : Out) : List Nat :=
  ((s.bufBytes o.ptr).drop o.ofs).take (o.len - o.ofs)

/-- The bytes queued on task `t`, in the order of the chain `out`. -/
def Sched.pending (s : Sched) (t : TaskId) : List Nat :=
  ((s.tasks t).out.map (Out.rest s)).flatten

/-- A call on one task that enqueues bytes or drains the queue; `writable` is
`run(EPOLLOUT)`. -/
inductive WriteCall where
  | async_write (ptr len : Nat)
  | async_write_cpy (ptr len : Nat)
  | async_write_out (o : Out)
  | writable
  deriving DecidableEq, Repr

/-- Perform one call on task `t`, whose virtual functions are `h`. -/
def WriteCall.exec (h : Hooks) (t : TaskId) : WriteCall → Sched → Res Unit
  | .async_write ptr len, s => Task.async_write t ptr len s
  | .async_write_cpy ptr len, s => Task.async_write_cpy t ptr len s
  | .async_write_out o, s => Task.async_write_out t o s
  | .writable, s => Task.run h t EPOLLOUT s

/-- Perform the calls in order, stopping at the first that throws. -/
def WriteCall.execAll (h : Hooks) (t : TaskId) : List WriteCall → Sched → Res Unit
  | [], s => .ok () s
  | c :: cs, s => (c.exec h t s).bind fun _ s1 => WriteCall.execAll h t cs s1

/-- The bytes a call enqueues. -/
def WriteCall.bytes (s : Sched) : WriteCall → List Nat
  | .async_write ptr len => (s.mem ptr).take len
  | .async_write_cpy ptr len => (s.mem ptr).take len
  | .async_write_out o => Out.rest s o
  | .writable => []

/-- The concatenation of the enqueued buffers in call order. -/
def WriteCall.enqueued (s : Sched) (calls : List WriteCall) : List Nat :=
  (calls.map (WriteCall.bytes s)).flatten

/-- A result of `::write` on a non-blocking descriptor that is not an error: a positive
count, `EWOULDBLOCK` (nothing accepted) or `EINTR`. -/
def WriteRes.benign : WriteRes → Bool
  | .accept k => decide (0 < k)
  | .wouldblock => true
  | .eintr => true
  | .error => false

/-- A task with its byte counters forgotten. -/
def Task.uncounted (T : Task) : Task :=
  { T with totalWritten := 0, totalRead := 0 }

/-- What a call of `Task::async_write(ptr,len,written)` leaves alone: the buffers, the epoll
instance, every field of the task but its counters, the other tasks, the number of tasks
and the head of the timeout list; of the write results it consumes a front part. -/
structure WriteFrame (t : TaskId) (s s' : Sched) : Prop where
  mem : s'.mem = s.mem
  epoll : s'.epoll = s.epoll
  script : ∃ used, s.script = used ++ s'.script
  task : (s'.tasks t).uncounted = (s.tasks t).uncounted
  others : ∀ i, i ≠ t → s'.tasks i = s.tasks i
  ntasks : s'.ntasks = s.ntasks
  timeouts : s'.timeouts = s.timeouts


/-! ## Call sequences on tasks -/

/-- A call on a task from outside: the caller catches what it throws. -/
inductive TaskCall where
  | construct (t : TaskId)
  | async_write (t : TaskId) (ptr len : Nat)
  | async_write_cpy (t : TaskId) (ptr len : Nat)
  | async_write_out (t : TaskId) (o : Out)
  | run (t : TaskId) (flags : Nat)
  | close (t : TaskId)
  deriving DecidableEq, Repr

/-- Perform one call; task `t` has the virtual functions `h t`. -/
def TaskCall.exec (h : TaskId → Hooks) : TaskCall → Sched → Res Unit
  | .construct t, s => Task.construct (h t) t s
  | .async_write t ptr len, s => Task.async_write t ptr len s
  | .async_write_cpy t ptr len, s => Task.async_write_cpy t ptr len s
  | .async_write_out t o, s => Task.async_write_out t o s
  | .run t flags, s => Task.run (h t) t flags s
  | .close t, s => Task.close t s

/-- The state after the calls, each of which returned or threw. -/
def TaskCall.after (h : TaskId → Hooks) : List TaskCall → Sched → Option Sched
  | [], s => some s
  | c :: cs, s => ((c.exec h s).state?).bind (TaskCall.after h cs)

/-- The writable bit is set in the interest mask of the task. -/
def Task.wantsOut (T : Task) : Prop := EPOLLOUT &&& T.events ≠ 0

/-- The queue is non-empty exactly when the writable bit is set; a task without descriptor
has the bit clear. -/
def Task.queueOk (T : Task) : Prop :=
  (T.out ≠ [] ↔ T.wantsOut) ∧ (T.fd = -1 → ¬ T.wantsOut)

/-- Every task satisfies `Task.queueOk`. -/
def QueueInv (s : Sched) : Prop := ∀ i, (s.tasks i).queueOk

/-- The overrides keep `QueueInv`, whether they return or throw, and `disconnected()`
does not return (like the default, which throws). -/
structure Hooks.keepQueue (h : Hooks) : Prop where
  read : ∀ t s s', QueueInv s → (h.read t s).state? = some s' → QueueInv s'
  disconnected : ∀ t s s', QueueInv s → (h.disconnected t s).state? = some s' → QueueInv s'
  do_construct : ∀ t s s', QueueInv s → (h.do_construct t s).state? = some s' → QueueInv s'
  throws : ∀ t s, (h.disconnected t s).returned = false

/-- Between `s` and `s'` only the interest mask of task `t` changed, to `ev` (and the
kernel state). -/
structure OnlyEvents (t : TaskId) (ev : Nat) (s s' : Sched) : Prop where
  others : ∀ i, i ≠ t → s'.tasks i = s.tasks i
  out : (s'.tasks t).out = (s.tasks t).out
  fd : (s'.tasks t).fd = (s.tasks t).fd
  events : (s'.tasks t).events = ev

/-- Queue, interest mask and descriptor of a task. -/
def Task.qview (T : Task) : List Out × Nat × Int := (T.out, T.events, T.fd)

/-- Every task has the same queue, interest mask and descriptor in both states. -/
def SameQueue (s s' : Sched) : Prop := ∀ i, (s'.tasks i).qview = (s.tasks i).qview

/-! ## The two enqueueing calls side by side -/

/-- The segment that `Task::async_write` (`cpy = false`: the caller's buffer, `ofs` advanced)
or `Task::async_write_cpy` (`cpy = true`: a fresh copy of the tail, `ofs` 0) queues for the
bytes of `ptr[0 .. len)` from `w` on. -/
def residual (s : Sched) (cpy : Bool) (ptr len w : Nat) : Out :=
  if cpy then { ptr := .owned (((s.mem ptr).drop w).take (len - w)), len := len - w }
  else { ptr := .borrowed ptr, len := len, ofs := w }

/-- Either of `Task::async_write(ptr,len)` and `Task::async_write_cpy(ptr,len)`. -/
def Task.enqueue (cpy : Bool) (t : TaskId) (ptr len : Nat) (s : Sched) : Res Unit :=
  if cpy then Task.async_write_cpy t ptr len s else Task.async_write t ptr len s

/-- One open task (id 0) on descriptor 5 with the two bytes `[8, 9]` queued and `EPOLLOUT`
requested; the caller's buffer at address 0 holds 3 bytes and the kernel would accept all
that is offered. -/
def busyWriter : Sched :=
  { tasks := fun i =>
      if i = 0 then { fd := 5, events := EPOLLIN ||| EPOLLOUT,
                      out := [{ ptr := .owned [8, 9], len := 2 }] } else {},
    ntasks := 1,
    epoll := fun g => if g = 5 then some (EPOLLIN ||| EPOLLOUT) else none,
    mem := fun a => if a = 0 then [1, 2, 3] else [],
    script := [.accept 100, .accept 100] }

/-- The caller's buffers after the caller has overwritten them with zeroes. -/
def zeroed (m : Nat → List Nat) : Nat → List Nat := fun a => (m a).map (fun _ => 0)

/-! ## HTTP connections (http.cpp) -/

/-- http.cpp `HttpServerConnection::gracefulClose`; `finish()` calls it with the reason
`"finished"` when the connection is not kept alive. -/
def HttpServerConnection.gracefulClose (t : TaskId) (reason : String) (s : Sched) : Res Unit :=
  if !(s.tasks t).out.isEmpty then
    .ok () (s.upd t (fun T => { T with half_close := some reason }))
  else
    Task.close t
      { s with shut_rd := fun g => if g = (s.tasks t).fd then true else s.shut_rd g }

/-! ## Callback lists (callback_list.hpp)

`CallbackList<C>` holds pointers to callbacks of a class `C` that offers `is_closed()`,
`close()` and `dump_context()`; these are taken to return normally, `close()` making
`is_closed()` true.  The functor handed to `notify` may add to and remove from the list it is
called from, close callbacks, and throw; it does not call `notify` on that list. -/

/-- A pointer `C*`: `none` is `NULL`, `some c` the callback at address `c`. -/
abbrev CbPtr := Option Nat

/-- The `enum { UNLOCKED, LOCKED, COMPRESS }` of `CallbackList`. -/
inductive LockState where
  | UNLOCKED
  | LOCKED
  | COMPRESS
  deriving DecidableEq, Repr

/-- The members of `CallbackList<C>`. -/
structure CallbackList where
  callbacks : List CbPtr := []
  state : LockState := .UNLOCKED
  deriving DecidableEq, Repr

/-- callback_list.hpp `CallbackList::add`: a pointer that is already in the vector is not
pushed again. -/
def CallbackList.add (l : CallbackList) (p : CbPtr) : CallbackList :=
  if p ∈ l.callbacks then l else { l with callbacks := l.callbacks ++ [p] }

/-- The first index `i` with `callbacks[i] == c`, as the loops of `add` and `remove` look
for it. -/
def CallbackList.find (p : CbPtr) : List CbPtr → Option Nat
  | [] => none
  | a :: l => if a = p then some 0 else (CallbackList.find p l).map (· + 1)

/-- callback_list.hpp `CallbackList::remove`: the first entry equal to `c`, if there is one,
is overwritten with the last entry and the vector shortened by one (`UNLOCKED`), or
overwritten with `NULL` and the state set to `COMPRESS` (otherwise). -/
def CallbackList.remove (l : CallbackList) (p : CbPtr) : CallbackList :=
  let count := l.callbacks.length
  match CallbackList.find p l.callbacks with
  | some i =>
    if l.state = .UNLOCKED then
      { l with callbacks :=
          (l.callbacks.set i (l.callbacks.getD (count - 1) none)).take (count - 1) }
    else
      { callbacks := l.callbacks.set i none, state := .COMPRESS }
  | none => l

/-- callback_list.hpp `CallbackList::count`. -/
def CallbackList.count (l : CallbackList) : Nat := l.callbacks.length

/-- The rebuild at the end of `notify`: the non-`NULL` entries, in order. -/
def CallbackList.compress (l : CallbackList) : CallbackList :=
  { l with callbacks := l.callbacks.filter Option.isSome }

/-- What is recorded of a run, in order; the record is not part of the program. -/
inductive CbEvent where
  | notify
  | call (c : Nat)
  | threw (c : Nat)
  | closed (c : Nat)
  | added (p : CbPtr)
  | removed (p : CbPtr)
  deriving DecidableEq, Repr

/-- A callback list with its surroundings: which callbacks are closed, the record `trace` of
what happened (`notify`: a pass began; `call c`: the functor was entered on `c`; `threw c`:
it left by an exception; `closed c`: `c->close()`; `added p`: `p` was pushed; `removed p`:
the entry `p` was taken out), and the record `vectors` of the vector after every `add`,
`remove` and rebuild. -/
structure CbWorld where
  list : CallbackList := {}
  closed : Nat → Bool := fun _ => false
  trace : List CbEvent := []
  vectors : List (List CbPtr) := []

/-- The call `add(p)`, recorded. -/
def CbWorld.add (w : CbWorld) (p : CbPtr) : CbWorld :=
  { w with list := w.list.add p,
           trace := if p ∈ w.list.callbacks then w.trace else w.trace ++ [.added p],
           vectors := w.vectors ++ [(w.list.add p).callbacks] }

/-- The call `remove(p)`, recorded. -/
def CbWorld.remove (w : CbWorld) (p : CbPtr) : CbWorld :=
  { w with list := w.list.remove p,
           trace := if p ∈ w.list.callbacks then w.trace ++ [.removed p] else w.trace,
           vectors := w.vectors ++ [(w.list.remove p).callbacks] }

/-- The call `c->close()`, recorded. -/
def CbWorld.close (w : CbWorld) (c : Nat) : CbWorld :=
  { w with closed := fun d => if d = c then true else w.closed d,
           trace := w.trace ++ [.closed c] }

/-- A step of the functor: a call of `add` or `remove` on the list, or of `close()` on a
callback. -/
inductive CbOp where
  | add (p : CbPtr)
  | remove (p : CbPtr)
  | close (c : Nat)
  deriving DecidableEq, Repr

/-- Perform a step of the functor. -/
def CbOp.exec : CbOp → CbWorld → CbWorld
  | .add p, w => w.add p
  | .remove p, w => w.remove p
  | .close c, w => w.close c

/-- A functor `f`: called on `c` in the world `w` it performs the steps `(f w c).1` and then
returns (`(f w c).2 = false`) or throws (`true`). -/
abbrev CbFunc := CbWorld → Nat → List CbOp × Bool

/-- callback_list.hpp `CallbackList::invoke`. -/
def CallbackList.invoke (f : CbFunc) (p : CbPtr) (w : CbWorld) : CbWorld :=
  match p with
  | none => w
  | some c =>
    if w.closed c then w
    else
      let w1 := { w with trace := w.trace ++ [.call c] }
      let w2 := (f w1 c).1.foldl (fun v op => op.exec v) w1
      if (f w1 c).2 then
        (({ w2 with trace := w2.trace ++ [.threw c] } : CbWorld).close c).remove (some c)
      else w2

/-- The loop `for(size_t i=0; i<count; i++) invoke(f,callbacks[i])` of `notify`, from index
`i` with `k` turns to go. -/
def CallbackList.notifyFrom (f : CbFunc) : Nat → Nat → CbWorld → CbWorld
  | 0, _, w => w
  | k + 1, i, w =>
    CallbackList.notifyFrom f k (i + 1) (CallbackList.invoke f (w.list.callbacks.getD i none) w)

/-- callback_list.hpp `CallbackList::notify`. -/
def CallbackList.notify (f : CbFunc) (w : CbWorld) : CbWorld :=
  let count := w.list.callbacks.length
  if count ≠ 0 then
    let w1 : CbWorld :=
      { w with list := { w.list with state := .LOCKED }, trace := w.trace ++ [.notify] }
    let w2 :=
      if count = 1 then CallbackList.invoke f (w1.list.callbacks.getD 0 none) w1
      else CallbackList.notifyFrom f count 0 w1
    let w3 : CbWorld :=
      if w2.list.state = .COMPRESS then
        { w2 with list := w2.list.compress,
                  vectors := w2.vectors ++ [w2.list.compress.callbacks] }
      else w2
    { w3 with list := { w3.list with state := .UNLOCKED } }
  else w

/-- A call from outside a pass. -/
inductive CbCall where
  | add (p : CbPtr)
  | remove (p : CbPtr)
  | close (c : Nat)
  | notify (f : CbFunc)

/-- Perform a call. -/
def CbCall.exec : CbCall → CbWorld → CbWorld
  | .add p, w => w.add p
  | .remove p, w => w.remove p
  | .close c, w => w.close c
  | .notify f, w => CallbackList.notify f w

/-- Perform the calls in order. -/
def CbCall.execAll (calls : List CbCall) (w : CbWorld) : CbWorld :=
  calls.foldl (fun v c => c.exec v) w

/-- No callback is in the vector twice. -/
abbrev CallbackList.Distinct (v : List CbPtr) : Prop := (v.filter Option.isSome).Nodup

/-- The entries that pushes recorded in `tr` put behind the vector, in order: each is the
pointer pushed, or `NULL` if a later event of `tr` removed it. -/
def addedSlots : List CbEvent → List CbPtr
  | [] => []
  | .added p :: rest => (if CbEvent.removed p ∈ rest then none else p) :: addedSlots rest
  | _ :: rest => addedSlots rest

/-- The callbacks the functor was entered on, in order. -/
def callsOf : List CbEvent → List Nat
  | [] => []
  | .call c :: rest => c :: callsOf rest
  | _ :: rest => callsOf rest

/-- The list `[A, B, C]` (addresses 1, 2, 3), unlocked, nothing closed. -/
def listABC : CbWorld := { list := { callbacks := [some 1, some 2, some 3] } }

/-- The functor whose call on `B` removes `C` and that does nothing else. -/
def removeCOnB : CbFunc := fun _ c => if c = 2 then ([.remove (some 3)], false) else ([], false)

/-- A property `P` of the world that every step of a pass over the first `n` entries keeps:
the steps of the functor `f`, the entry into `f` on an open callback found among the first
`n` entries, and what `invoke` does after an exception (`close()`, then `remove`). -/
structure PassInv (f : CbFunc) (n : Nat) (P : CbWorld → Prop) : Prop where
  op : ∀ (u : CbWorld) (c : Nat) (o : CbOp) (w : CbWorld), o ∈ (f u c).1 → P w → P (o.exec w)
  call : ∀ (w : CbWorld) (c : Nat), P w → w.closed c = false →
    (∃ i, i < n ∧ w.list.callbacks.getD i none = some c) →
    P { w with trace := w.trace ++ [.call c] }
  tail : ∀ (w : CbWorld) (c : Nat), P w →
    P ((({ w with trace := w.trace ++ [.threw c] } : CbWorld).close c).remove (some c))

/-- The end of `notify`: the rebuild if the state is `COMPRESS`, then `state = UNLOCKED`. -/
def CallbackList.finish (w : CbWorld) : CbWorld :=
  let w3 : CbWorld :=
    if w.list.state = .COMPRESS then
      { w with list := w.list.compress, vectors := w.vectors ++ [w.list.compress.callbacks] }
    else w
  { w3 with list := { w3.list with state := .UNLOCKED } }

/-- The beginning of `notify`: `state = LOCKED`. -/
def CallbackList.start (w : CbWorld) : CbWorld :=
  { w with list := { w.list with state := .LOCKED }, trace := w.trace ++ [.notify] }

/-- The vector holds no callback twice, and never did since the record `vectors` began. -/
def CbWorld.NeverTwice (w : CbWorld) : Prop :=
  CallbackList.Distinct w.list.callbacks ∧ ∀ v ∈ w.vectors, CallbackList.Distinct v

/-- The functor that adds `A` (address 1) again whenever it is called, removes `B` when it is
called on `C`, and throws when it is called on `A`. -/
def busyFunc : CbFunc := fun _ c =>
  ([.add (some 1)] ++ (if c = 3 then [.remove (some 2)] else []), decide (c = 1))

/-- Calls from outside and inside passes: `add(A)` twice, `add(B)`, `add(C)`, a pass with
`busyFunc`, `remove(C)`, `add(B)`. -/
def callsTwice : List CbCall :=
  [.add (some 1), .add (some 1), .add (some 2), .add (some 3), .notify busyFunc,
    .remove (some 3), .add (some 2)]

/-- In the record `tr`, a call of the functor on `c` that follows a push of `c` belongs to a
later pass (a `notify` lies between), and one that follows a removal of `c` follows a push
of `c` in between. -/
def CbTraceOk (tr : List CbEvent) : Prop :=
  (∀ pre mid post c, tr = pre ++ .added (some c) :: (mid ++ .call c :: post) →
    CbEvent.notify ∈ mid) ∧
  (∀ pre mid post c, tr = pre ++ .removed (some c) :: (mid ++ .call c :: post) →
    CbEvent.added (some c) ∈ mid)

/-- A callback that was removed and not pushed since is not in the vector. -/
def CbWorld.RemovedGone (w : CbWorld) : Prop :=
  ∀ pre mid c, w.trace = pre ++ .removed (some c) :: mid → CbEvent.added (some c) ∉ mid →
    some c ∉ w.list.callbacks

/-- A callback that was pushed in the current pass is not among the first `n` entries. -/
def CbWorld.AddedBehind (n : Nat) (w : CbWorld) : Prop :=
  ∀ pre mid c, w.trace = pre ++ .added (some c) :: mid → CbEvent.notify ∉ mid →
    ∀ i, i < n → w.list.callbacks.getD i none ≠ some c

/-- What holds between two calls from outside. -/
structure CbWorld.Idle (w : CbWorld) : Prop where
  unlocked : w.list.state = .UNLOCKED
  distinct : CallbackList.Distinct w.list.callbacks
  ok : CbTraceOk w.trace
  gone : w.RemovedGone

/-- What holds during a pass over the first `n` entries. -/
structure CbWorld.InPass (n : Nat) (w : CbWorld) : Prop where
  locked : w.list.state ≠ .UNLOCKED
  size : n ≤ w.list.callbacks.length
  distinct : CallbackList.Distinct w.list.callbacks
  ok : CbTraceOk w.trace
  gone : w.RemovedGone
  behind : w.AddedBehind n

/-- The functor that, called on `A` (address 1), removes `B` and adds `D` (address 4), and
called on `C` removes `A`. -/
def shuffleFunc : CbFunc := fun _ c =>
  if c = 1 then ([.remove (some 2), .add (some 4)], false)
  else if c = 3 then ([.remove (some 1)], false) else ([], false)

/-- Calls: `add` of `A`, `B`, `C`, a pass with `shuffleFunc`, `add(B)`, another pass. -/
def callsShuffle : List CbCall :=
  [.add (some 1), .add (some 2), .add (some 3), .notify shuffleFunc, .add (some 2),
    .notify shuffleFunc]

/-- During a pass that began with the vector `v0` when the record had `k` events, `t0`: the
vector is `v0` with `NULL` over the entries removed since, followed by the entries pushed
since; the state is still `LOCKED` only if nothing was removed; no `NULL` was pushed. -/
structure CbWorld.Slots (v0 : List CbPtr) (t0 : List CbEvent) (k : Nat) (w : CbWorld) :
    Prop where
  locked : w.list.state ≠ .UNLOCKED
  distinct : CallbackList.Distinct w.list.callbacks
  len : k ≤ w.trace.length
  pre : w.trace.take k = t0
  vec : w.list.callbacks =
    v0.map (fun p => if CbEvent.removed p ∈ w.trace.drop k then none else p) ++
      addedSlots (w.trace.drop k)
  calm : w.list.state = .LOCKED → ∀ p, CbEvent.removed p ∉ w.trace.drop k
  nonnull : ∀ p, CbEvent.added p ∈ w.trace.drop k → p ≠ none

/-- During a pass over the first `n` entries of a vector that was `v0` when the pass began,
`closed0` telling which callbacks were closed then, and the record empty: an entry of `v0`
that was not removed is still in its place; an exception of the functor on `c` is followed
at once by `c->close()`; a callback is closed exactly if it was closed before or `close()`
was called on it. -/
structure CbWorld.Caught (n : Nat) (v0 : List CbPtr) (closed0 : Nat → Bool) (w : CbWorld) :
    Prop where
  locked : w.list.state ≠ .UNLOCKED
  size : n ≤ w.list.callbacks.length
  distinct : CallbackList.Distinct w.list.callbacks
  front : ∀ i c, i < n → v0.getD i none = some c → CbEvent.removed (some c) ∉ w.trace →
    w.list.callbacks.getD i none = some c
  threw_closed : ∀ pre post c, w.trace = pre ++ .threw c :: post →
    ∃ rest, post = .closed c :: rest
  flags : ∀ c, w.closed c = true ↔ (closed0 c = true ∨ CbEvent.closed c ∈ w.trace)

/-- A callback on which the functor threw and that was not pushed since is not in the
vector. -/
def CbWorld.ThrewGone (w : CbWorld) : Prop :=
  ∀ pre post c, w.trace = pre ++ .threw c :: post →
    CbEvent.added (some c) ∉ post → some c ∉ w.list.callbacks

/-- The first `i` entries of `v0` have had their turn: each callback among them that was open
when the pass began and has been neither removed nor closed was called. -/
def CbWorld.Visited (i : Nat) (v0 : List CbPtr) (closed0 : Nat → Bool) (w : CbWorld) : Prop :=
  ∀ j c, j < i → v0.getD j none = some c → closed0 c = false →
    CbEvent.removed (some c) ∉ w.trace → CbEvent.closed c ∉ w.trace → CbEvent.call c ∈ w.trace

/-- The list `[A, B]` (addresses 1, 2), unlocked, nothing closed. -/
def listAB : CbWorld := { list := { callbacks := [some 1, some 2] } }

/-- The functor that throws when called on `A` and adds `A` when called on `B`. -/
def throwThenReadd : CbFunc := fun _ c => if c = 1 then ([], true) else ([.add (some 1)], false)

/-- The functor that, called on `A`, removes `B` and throws. -/
def removeThenThrow : CbFunc := fun _ c => if c = 1 then ([.remove (some 2)], true) else ([], false)

/-- The functor that throws when called on `B`. -/
def throwOnB : CbFunc := fun _ c => ([], decide (c = 2))

/-! ## The read path (task.cpp `Task::async_read` …, `Task::setReadAheadBufferSize`) -/

/-- The read-ahead counters are `uint16_t`. -/
def UINT16 : Nat := 65536

/-- Return value (and `errno`) of one `::read` call: the bytes stored at the destination
(their number is the return value, none for 0), `EWOULDBLOCK`, or another error. -/
inductive ReadRet where
  | count (bytes : List Nat)
  | ewouldblock
  | efail
  deriving DecidableEq, Repr

/-- The kernel side of `::read(fd, dst, cap)`: a bad descriptor fails; otherwise the next
entry of `input` decides, `data bs` giving the first `cap` bytes of `bs` and keeping the
others for the next call, and an exhausted `input` means `EWOULDBLOCK`. -/
def sys_read (fd : Int) (cap : Nat) (s : Sched) : ReadRet × Sched :=
  if fd < 0 then (.efail, s)
  else match s.input with
    | [] => (.ewouldblock, s)
    | .data bs :: rest =>
        (.count (bs.take cap),
          { s with input := if bs.drop cap = [] then rest else .data (bs.drop cap) :: rest })
    | .wouldblock :: rest => (.ewouldblock, { s with input := rest })
    | .eof :: _ => (.count [], s)
    | .error :: rest => (.efail, { s with input := rest })

/-- The array `a` after `memcpy(a + pos, bytes, bytes.length)`. -/
def writeAt (a : List Nat) (pos : Nat) (bytes : List Nat) : List Nat :=
  a.take pos ++ bytes ++ a.drop (pos + bytes.length)

/-- Where the `ptr` of `async_read(ptr,bytes,read)` points: at the read-ahead buffer of the
task (`ptr == read_ahead_buffer`, as `async_read_buffered` calls it) or at memory of the
caller. -/
inductive ReadDst where
  | read_ahead
  | caller
  deriving DecidableEq, Repr

/-- The unread bytes of the read-ahead buffer: `read_ahead_buffer[ofs .. len)`. -/
def Task.readAhead (T : Task) : List Nat :=
  match T.read_ahead_buffer with
  | none => []
  | some a => (a.drop T.read_ahead_ofs).take (T.read_ahead_len - T.read_ahead_ofs)

/-- The first branch of the loop of `async_read(ptr,bytes,read)`, `read_ahead_ofs <
read_ahead_len`: `buffered` bytes are copied from the read-ahead buffer `a` to `c + read`
(which lies in the read-ahead buffer itself if `dst = read_ahead`), the counters advance and
are both reset when they meet.  The result is the bytes copied. -/
def Task.take_buffered (t : TaskId) (dst : ReadDst) (a : List Nat) (need read : Nat)
    (s : Sched) : List Nat × Sched :=
  let T := s.tasks t
  let buffered := min need (T.read_ahead_len - T.read_ahead_ofs)
  let chunk := (a.drop T.read_ahead_ofs).take buffered
  let ofs := (T.read_ahead_ofs + buffered) % UINT16
  (chunk, s.upd t (fun T =>
    { T with read_ahead_buffer := some (if dst = .read_ahead then writeAt a read chunk else a),
             read_ahead_ofs := if ofs = T.read_ahead_len then 0 else ofs,
             read_ahead_len := if ofs = T.read_ahead_len then 0 else T.read_ahead_len }))

/-- The bookkeeping of `async_read(ptr,bytes,read)` after `::read` has stored the bytes
`data`: into the read-ahead buffer at `read_ahead_len` (`buffer`), or at `c + read`. -/
def Task.store_read (t : TaskId) (dst : ReadDst) (buffer : Bool) (read : Nat)
    (data : List Nat) (s : Sched) : Sched :=
  let s1 := s.upd t (fun T => { T with totalRead := (T.totalRead + data.length) % UINT32 })
  if buffer then
    s1.upd t (fun T =>
      { T with read_ahead_buffer := T.read_ahead_buffer.map (fun a => writeAt a T.read_ahead_len data),
               read_ahead_len := (T.read_ahead_len + data.length) % UINT16 })
  else if dst = .read_ahead then
    s1.upd t (fun T =>
      { T with read_ahead_buffer := T.read_ahead_buffer.map (fun a => writeAt a read data) })
  else s1

/-- The loop of task.cpp `Task::async_read(ptr,bytes,read)`; `got` is what has been stored
at `ptr` (`read` is its length).  The result is the flag returned and the bytes at `ptr`. -/
def Task.async_read_loop (t : TaskId) (dst : ReadDst) (bytes : Nat) :
    Nat → List Nat → Sched → Res (Bool × List Nat)
  | 0, _, _ => .diverge
  | fuel + 1, got, s =>
    if got.length < bytes then
      if (s.tasks t).read_ahead_ofs < (s.tasks t).read_ahead_len then
        match (s.tasks t).read_ahead_buffer with
        | none => .diverge
        | some a =>
          Task.async_read_loop t dst bytes fuel
            (got ++ (Task.take_buffered t dst a (bytes - got.length) got.length s).1)
            (Task.take_buffered t dst a (bytes - got.length) got.length s).2
      else
        let buffer := (s.tasks t).read_ahead_buffer.isSome && (dst != .read_ahead) &&
          decide (bytes - got.length < (s.tasks t).read_ahead_maxlen)
        let cap := if buffer then (s.tasks t).read_ahead_maxlen - (s.tasks t).read_ahead_len
          else bytes - got.length
        match sys_read (s.tasks t).fd cap s with
        | (.ewouldblock, s1) => .ok (false, got) (s1.upd t (fun T => { T with sated := true }))
        | (.efail, s1) => .throw .cError s1
        | (.count [], s1) =>
            .throw .endOfStream (s1.upd t (fun T => { T with eoinput := true, sated := true }))
        | (.count (b :: bs), s1) =>
            Task.async_read_loop t dst bytes fuel (if buffer then got else got ++ b :: bs)
              (Task.store_read t dst buffer got.length (b :: bs) s1)
    else .ok (true, got) s

/-- task.cpp `Task::async_read(void* ptr,ssize_t bytes,ssize_t& read)`.  Two turns of the
loop make `read` grow, so `2 * bytes + 2` turns suffice. -/
def Task.async_read (t : TaskId) (dst : ReadDst) (bytes : Nat) (s : Sched) :
    Res (Bool × List Nat) :=
  if (s.tasks t).closed || (s.tasks t).half_close.isSome then .throw .internalError s
  else if (s.tasks t).sated then .throw .internalError s
  else Task.async_read_loop t dst bytes (2 * bytes + 2) [] s

/-- The second half of task.cpp `Task::async_read_buffered`: up to `max` unread bytes of the
read-ahead buffer are handed out (`ptr` points at them, the result) and skipped. -/
def Task.hand_out (t : TaskId) (max : Nat) (s : Sched) : List Nat × Sched :=
  let T := s.tasks t
  if T.read_ahead_ofs < T.read_ahead_len then
    let len := min (max % UINT16) ((T.read_ahead_len - T.read_ahead_ofs) % UINT16)
    let ofs := (T.read_ahead_ofs + len) % UINT16
    (((T.read_ahead_buffer.getD []).drop T.read_ahead_ofs).take len,
      s.upd t (fun T =>
        { T with read_ahead_ofs := if ofs = T.read_ahead_len then 0 else ofs,
                 read_ahead_len := if ofs = T.read_ahead_len then 0 else T.read_ahead_len }))
  else ([], s)

/-- task.cpp `Task::async_read_buffered`; the result is the bytes `ptr[0 .. len)` with `len`
the value returned. -/
def Task.async_read_buffered (t : TaskId) (max : Nat) (s : Sched) : Res (List Nat) :=
  match (s.tasks t).read_ahead_buffer with
  | none => .throw .internalError s
  | some _ =>
    if (s.tasks t).read_ahead_ofs = (s.tasks t).read_ahead_len then
      if (s.tasks t).sated then .ok [] s
      else
        (Task.async_read t .read_ahead (s.tasks t).read_ahead_maxlen s).bind fun r s1 =>
          let s2 := s1.upd t (fun T =>
            { T with read_ahead_len := (T.read_ahead_len + r.2.length) % UINT16 })
          .ok (Task.hand_out t max s2).1 (Task.hand_out t max s2).2
    else .ok (Task.hand_out t max s).1 (Task.hand_out t max s).2

/-- The loop of task.cpp `Task::async_read(void* ptr,ssize_t bytes)`: `some dst` for `true`
with the bytes copied to `ptr`, `none` for `false`.  With `buflen > bytes` the inner call
`async_read(buf+buflen,bytes-buflen,read)` is made with a negative count: it throws
`InternalError` when the task is closed, half-closed or sated; otherwise it sets `read = 0`,
skips its loop and returns `true`, `buflen` stays as it is and the loop `for(;;)` never
ends. -/
def Task.async_read_exact_loop (t : TaskId) (bytes : Nat) : Nat → Sched → Res (Option (List Nat))
  | 0, _ => .diverge
  | fuel + 1, s =>
    if (s.tasks t).buf.length = bytes then
      .ok (some ((s.tasks t).buf.take bytes)) (s.upd t (fun T => { T with buf := [] }))
    else if bytes < (s.tasks t).buf.length then
      if (s.tasks t).closed || (s.tasks t).half_close.isSome then .throw .internalError s
      else if (s.tasks t).sated then .throw .internalError s
      else .diverge
    else
      (Task.async_read t .caller (bytes - (s.tasks t).buf.length) s).bind fun r s1 =>
        let s2 := s1.upd t (fun T => { T with buf := T.buf ++ r.2 })
        if !r.1 then .ok none s2 else Task.async_read_exact_loop t bytes fuel s2

/-- task.cpp `Task::async_read(void* ptr,ssize_t bytes)` (the specification calls it
`async_read_exact`): after a complete inner read the next turn returns, so 2 turns
suffice. -/
def Task.async_read_exact (t : TaskId) (bytes : Nat) (s : Sched) : Res (Option (List Nat)) :=
  Task.async_read_exact_loop t bytes 3 s

/-- task.hpp `InLine<MAX>`: `bufz` is the array `char bufz[MAX+1]` and `len` the member
`len`.  `stores` is a record, not a member: the indices `i` of the assignments `bufz[i] = …`
made so far, in order; an assignment to an index outside the array is recorded there and
leaves the array as it is. -/
structure InLine where
  bufz : List Nat
  len : Nat := 0
  stores : List Nat := []
  deriving DecidableEq, Repr

/-- The template argument `MAX` (`enum { max=MAX }`) of a line buffer. -/
def InLine.MAX (l : InLine) : Nat := l.bufz.length - 1

/-- The assignment `bufz[i] = v`. -/
def InLine.store (l : InLine) (i v : Nat) : InLine :=
  { l with bufz := l.bufz.set i v, stores := l.stores ++ [i] }

/-- task.hpp `InLine::clear`: `len = bufz[0] = 0`. -/
def InLine.clear (l : InLine) : InLine :=
  { l.store 0 0 with len := 0 }

/-- The constructor `InLine<MAX>::InLine()`, which calls `clear()`; the other bytes of the
array are not initialised and are 0 here. -/
def InLine.new (MAX : Nat) : InLine :=
  InLine.clear { bufz := List.replicate (MAX + 1) 0 }

/-- The C string that task.hpp `InLine::cstr` returns a pointer to: the bytes of `bufz`
before the first 0. -/
def InLine.cstr (l : InLine) : List Nat :=
  l.bufz.takeWhile (fun c => c != 0)

/-- The loop of task.cpp `Task::async_read_str`, `s` and `len` being the array and the `len`
of `l`.  `async_read(s+len,1)` stores the byte it returns at `s[len]`.  The result is the
flag returned and the line buffer afterwards. -/
def Task.async_read_str_loop (t : TaskId) (max : Nat) : Nat → InLine → Sched →
    Res (Bool × InLine)
  | 0, _, _ => .diverge
  | fuel + 1, l, s =>
    if l.len < max then
      (Task.async_read_exact t 1 s).bind fun r s1 =>
        match r with
        | none => .ok (false, l.store l.len 0) s1
        | some d =>
          let l1 := l.store l.len (d.headD 0)
          if d.headD 0 = 0 || d.headD 0 = 10 then .ok (true, l1.store (l1.len + 1) 0) s1
          else Task.async_read_str_loop t max fuel { l1 with len := l1.len + 1 } s1
    else .ok (true, l.store (l.len + 1) 0) s

/-- task.cpp `Task::async_read_str(char* s,size_t& len,size_t max)`. -/
def Task.async_read_str (t : TaskId) (l : InLine) (max : Nat) (s : Sched) :
    Res (Bool × InLine) :=
  Task.async_read_str_loop t max (max + 1) l s

/-- task.hpp `Task::async_read_in(InLine& in,size_t max)`; `sizeof(in.bufz)` is the length
of the array, and `max` is `InLine::max` when the argument is omitted. -/
def Task.async_read_in (t : TaskId) (l : InLine) (max : Nat) (s : Sched) :
    Res (Bool × InLine) :=
  Task.async_read_str t l (min max l.bufz.length) s

/-- task.cpp `Task::setReadAheadBufferSize`; `malloc` and `realloc` succeed, new bytes of
the array are 0.  The `memmove` comes after `read_ahead_ofs = 0`, so it moves
`read_ahead_buffer[0 .. read_ahead_len)` onto itself. -/
def Task.setReadAheadBufferSize (t : TaskId) (size : Nat) (s : Sched) : Res Unit :=
  let T := s.tasks t
  let size := size % UINT16
  match T.read_ahead_buffer with
  | some a =>
    let len := (T.read_ahead_len + UINT16 - T.read_ahead_ofs) % UINT16
    let ofs := 0
    let a1 := writeAt a 0 ((a.drop ofs).take len)
    let s1 := s.upd t (fun T =>
      { T with read_ahead_len := len, read_ahead_ofs := ofs, read_ahead_buffer := some a1 })
    if len > size then .throw .internalError s1
    else if size ≠ 0 then
      .ok () (s1.upd t (fun T =>
        { T with read_ahead_buffer := some (a1.take size ++ List.replicate (size - a1.length) 0),
                 read_ahead_maxlen := size }))
    else .ok () (s1.upd t (fun T => { T with read_ahead_buffer := none }))
  | none =>
    if size ≠ 0 then
      .ok () (s.upd t (fun T =>
        { T with read_ahead_ofs := 0, read_ahead_len := 0, read_ahead_maxlen := size,
                 read_ahead_buffer := some (List.replicate size 0) }))
    else .ok () s

/-- One open task (id 0) on descriptor 5, no read-ahead buffer; the peer's bytes 1 to 6
arrive as `[1, 2, 3, 4]`, then nothing for a while, then `[5, 6]`. -/
def reader1234 : Sched :=
  { tasks := fun i => if i = 0 then { fd := 5, events := EPOLLIN, sated := false } else {},
    ntasks := 1,
    input := [.data [1, 2, 3, 4], .wouldblock, .data [5, 6]] }

/-- The read-ahead counters are within bounds: `ofs <= len`, both 0 when they meet or when
there is no buffer, and with a buffer `len <= maxlen`, the array having `maxlen` bytes. -/
abbrev Task.ReadAheadOk (T : Task) : Prop :=
  T.read_ahead_ofs ≤ T.read_ahead_len ∧
  (T.read_ahead_ofs = T.read_ahead_len → T.read_ahead_len = 0) ∧
  (T.read_ahead_buffer = none → T.read_ahead_len = 0) ∧
  (T.read_ahead_buffer ≠ none → T.read_ahead_len ≤ T.read_ahead_maxlen ∧
    (T.read_ahead_buffer.getD []).length = T.read_ahead_maxlen ∧ T.read_ahead_maxlen < UINT16)

/-- The read-ahead buffer is there and empty. -/
def Task.ReadAheadEmpty (T : Task) : Prop :=
  T.read_ahead_buffer ≠ none ∧ T.read_ahead_ofs = 0 ∧ T.read_ahead_len = 0 ∧
    (T.read_ahead_buffer.getD []).length = T.read_ahead_maxlen ∧ T.read_ahead_maxlen < UINT16

/-- A call on the read side of one task; `readable` is the `sated = false` with which
`Task::run` precedes `read()`, and `async_read` reads to memory of the caller. -/
inductive ReadCall where
  | setReadAheadBufferSize (size : Nat)
  | async_read (bytes : Nat)
  | async_read_exact (bytes : Nat)
  | async_read_buffered (max : Nat)
  | async_read_str (l : InLine) (max : Nat)
  | readable
  deriving DecidableEq, Repr

/-- The state a call on task `t` ends in, returning or throwing. -/
def ReadCall.exec (t : TaskId) : ReadCall → Sched → Option Sched
  | .setReadAheadBufferSize size, s => (Task.setReadAheadBufferSize t size s).state?
  | .async_read bytes, s => (Task.async_read t .caller bytes s).state?
  | .async_read_exact bytes, s => (Task.async_read_exact t bytes s).state?
  | .async_read_buffered max, s => (Task.async_read_buffered t max s).state?
  | .async_read_str l max, s => (Task.async_read_str t l max s).state?
  | .readable, s => some (s.upd t (fun T => { T with sated := false }))

/-- The state after the calls, performed in order whether they return or throw. -/
def ReadCall.after (t : TaskId) : List ReadCall → Sched → Option Sched
  | [], s => some s
  | c :: cs, s => (c.exec t s).bind (ReadCall.after t cs)

/-- The value a call returned. -/
def Res.value? {α : Type} : Res α → Option α
  | .ok a _ => some a
  | _ => none

/-- The read-ahead buffer of 4 bytes is set up and `async_read(ptr,1,read)` called: the
kernel delivers `[1, 2, 3, 4]` into the read-ahead buffer and the first byte is handed to
the caller. -/
def readOneOfFour : Res (Bool × List Nat) :=
  (Task.setReadAheadBufferSize 0 4 reader1234).bind fun _ s => Task.async_read 0 .caller 1 s

/-- Of task `t`: `read_ahead_ofs`, `read_ahead_len` and the unread bytes of the read-ahead
buffer. -/
def readAheadView (r : Option Sched) (t : TaskId) : Option (Nat × Nat × List Nat) :=
  r.map fun s => ((s.tasks t).read_ahead_ofs, (s.tasks t).read_ahead_len, (s.tasks t).readAhead)

/-- Calls on the read side of task 0: a read-ahead buffer of 4 bytes, a read of 1 byte, the
buffer enlarged to 8 bytes, reads through the buffer, the buffer shrunk and freed. -/
def readCalls : List ReadCall :=
  [.setReadAheadBufferSize 4, .async_read 1, .setReadAheadBufferSize 8, .async_read_buffered 2,
    .async_read_exact 3, .readable, .async_read_str (InLine.new 10) 10, .setReadAheadBufferSize 1,
    .readable, .async_read_buffered 5, .setReadAheadBufferSize 0]

/-- The state the calls `readCalls` end in. -/
def readCallsEnd : Sched := (ReadCall.after 0 readCalls reader1234).getD reader1234

/-- The bytes the kernel holds now: those of the leading `data` entries of `input`. -/
def leadingData : List ReadRes → List Nat
  | .data bs :: rest => bs ++ leadingData rest
  | _ => []

/-- What follows the leading `data` entries of `input`. -/
def afterData : List ReadRes → List ReadRes
  | .data _ :: rest => afterData rest
  | l => l

/-- All the bytes `input` will deliver. -/
def allData : List ReadRes → List Nat
  | [] => []
  | .data bs :: rest => bs ++ allData rest
  | _ :: rest => allData rest

/-- A delivery of the peer's byte stream: some bytes, or `EWOULDBLOCK`. -/
def ReadRes.benign : ReadRes → Bool
  | .data bs => !bs.isEmpty
  | .wouldblock => true
  | _ => false

/-- The bytes that have arrived for task `t` and were not returned yet: those collected in
`buf`, the unread ones of the read-ahead buffer, and those the kernel holds. -/
def Sched.arrived (s : Sched) (t : TaskId) : List Nat :=
  (s.tasks t).buf ++ ((s.tasks t).readAhead ++ leadingData s.input)

/-- The bytes of the peer's stream not returned yet, arrived or still to come. -/
def Sched.unread (s : Sched) (t : TaskId) : List Nat :=
  s.arrived t ++ allData (afterData s.input)

/-- The state of a reading task: open, with a descriptor, not half-closed, the read-ahead
counters within bounds, and `input` a stream of bytes chunked by `EWOULDBLOCK`. -/
structure ReadInv (t : TaskId) (s : Sched) : Prop where
  fd_nonneg : 0 ≤ (s.tasks t).fd
  not_closed : (s.tasks t).closed = false
  half_close : (s.tasks t).half_close = none
  ok : (s.tasks t).ReadAheadOk
  benign : s.input.all ReadRes.benign = true

/-- `k` readable events, at each of which `Task::run` clears `sated` and `read()` calls
`async_read(dst,n)` once; the results in order, `some dst` for `true`, `none` for
`false`. -/
def Task.readEdges (t : TaskId) (n : Nat) : Nat → Sched → Res (List (Option (List Nat)))
  | 0, s => .ok [] s
  | k + 1, s =>
    (Task.async_read_exact t n (s.upd t (fun T => { T with sated := false }))).bind fun r s1 =>
      (Task.readEdges t n k s1).bind fun rs s2 => .ok (r :: rs) s2

/-- What the specification promises of `k` calls of `async_read_exact(dst,n)`, one per
readable event, when the bytes `q` have arrived and were not returned yet and the kernel
will deliver `rest` (which begins with an `EWOULDBLOCK` unless it is empty): a call returns
`false` (`none`) until `n` bytes have arrived, and then `true` with the first `n` of them,
the bytes beyond staying for the next call. -/
def exactReads (n : Nat) : Nat → List Nat → List ReadRes → List (Option (List Nat))
  | 0, _, _ => []
  | k + 1, q, rest =>
    if n ≤ q.length then some (q.take n) :: exactReads n k (q.drop n) rest
    else none :: exactReads n k (q ++ leadingData rest.tail) (afterData rest.tail)

/-- The bytes the calls returned, in order. -/
def returnedBytes (rs : List (Option (List Nat))) : List Nat :=
  (rs.map fun r => r.getD []).flatten

/-- One open task (id 0) on descriptor 5 with a read-ahead buffer of 4 bytes; the peer's
bytes 1 to 9 arrive as `[1, 2]`, `[3, 4, 5, 6, 7]`, then nothing for a while, `[8]`,
nothing for a while, `[9]`. -/
def reader1to9 : Sched :=
  { tasks := fun i =>
      if i = 0 then { fd := 5, events := EPOLLIN, read_ahead_buffer := some [0, 0, 0, 0],
                      read_ahead_maxlen := 4 } else {},
    ntasks := 1,
    input := [.data [1, 2], .data [3, 4, 5, 6, 7], .wouldblock, .data [8], .wouldblock,
      .data [9]] }

/-- What the loop of `async_read(ptr,bytes,read)` achieves when it starts in `s` with `got`
stored and `need` bytes to go, and returns `b` with `got'` stored in the state `s'`, `A`
being the unread bytes of the read-ahead buffer followed by the bytes the kernel holds:
with `need <= |A|` it returns `true` with the first `need` bytes of `A` appended and the
others left; otherwise it returns `false` with all of `A` appended, the read-ahead buffer
empty and the `EWOULDBLOCK` consumed. -/
structure ReadPost (t : TaskId) (need : Nat) (got : List Nat) (s : Sched) (b : Bool)
    (got' : List Nat) (s' : Sched) : Prop where
  inv : ReadInv t s'
  buf : (s'.tasks t).buf = (s.tasks t).buf
  done : need ≤ ((s.tasks t).readAhead ++ leadingData s.input).length →
    b = true ∧ got' = got ++ ((s.tasks t).readAhead ++ leadingData s.input).take need ∧
    (s'.tasks t).readAhead ++ leadingData s'.input =
      ((s.tasks t).readAhead ++ leadingData s.input).drop need ∧
    afterData s'.input = afterData s.input
  blocked : ((s.tasks t).readAhead ++ leadingData s.input).length < need →
    b = false ∧ got' = got ++ ((s.tasks t).readAhead ++ leadingData s.input) ∧
    (s'.tasks t).readAhead = [] ∧ s'.input = (afterData s.input).tail

/-- A fresh task (id 0) on descriptor 5 to which the kernel delivers `[1, 2]` and then
nothing. -/
def reader12 : Sched :=
  { reader1234 with input := [.data [1, 2], .wouldblock] }

/-! ## Call sequences and observations used by the theorems -/

/-- The call sequence `schedule(m1); schedule(m2); unschedule(m3)` on task `t`. -/
def schedule_schedule_unschedule (t : TaskId) (m1 m2 m3 : Nat) (s : Sched) : Res Unit :=
  (Task.schedule t m1 s).bind fun _ s1 =>
  (Task.schedule t m2 s1).bind fun _ s2 =>
  Task.unschedule t m3 s2

/-- A scheduler with one freshly constructed task (id 0) that was given descriptor `fd`. -/
def oneTask (fd : Int) : Sched :=
  { tasks := fun _ => { fd := fd }, ntasks := 1 }

/-- Interest mask of task `t` after a call, whether it returned or threw. -/
def Res.events {α : Type} (r : Res α) (t : TaskId) : Option Nat :=
  match r with
  | .ok _ s => some (s.tasks t).events
  | .throw _ s => some (s.tasks t).events
  | .diverge => none

/-- What the epoll instance holds for `fd` after a call that returned normally. -/
def Res.registered {α : Type} (r : Res α) (fd : Int) : Option (Option Nat) :=
  match r with
  | .ok _ s => some (s.epoll fd)
  | _ => none

/-- A scheduler with `n` freshly constructed tasks (ids `0 … n-1`), timeouts enabled, whose
clock reads `now`. -/
def freshTasks (n : Nat) (now : Int) : Sched :=
  { ntasks := n, now := now }

/-- Three fresh tasks armed, in this order and at the same `now = 1000000`, with read
timeouts of 100, 50 and 75 milliseconds (tasks 0, 1 and 2). -/
def armed_100_50_75 : Sched :=
  Task.set_read_timeout 2 75 (Task.set_read_timeout 1 50
    (Task.set_read_timeout 0 100 (freshTasks 3 1000000)))

/-- The `timeout.due` of the tasks of the timeout list, head first. -/
def Sched.timeoutDues (s : Sched) : List Int :=
  s.timeoutList.map fun i => (s.tasks i).timeout.due

/-- The state `close()` on the single task of `oneTask 5` ends in. -/
def closedOnce : Sched := ((Task.close 0 (oneTask 5)).state?).getD (oneTask 5)

/-- A fresh task (no descriptor yet, `fd == -1`) on which `schedule(EPOLLIN)` was called:
`epoll_ctl` fails, `check` throws, and `event.events` keeps the bit. -/
def scheduledWithoutFd : Sched :=
  ((Task.schedule 0 EPOLLIN (freshTasks 1 0)).state?).getD (freshTasks 1 0)

/-- One open task with descriptor 5, registered for `EPOLLIN|EPOLLOUT`, with a queued
segment and an armed read timeout, alone in the timeout list. -/
def busyTask : Sched :=
  { tasks := fun i =>
      if i = 0 then
        { fd := 5, events := 5, out := [{ ptr := .owned [1, 2, 3], len := 3 }],
          timeout := { due := 100, read := { due := 100, timeout := 100 } } }
      else {},
    ntasks := 1,
    timeouts := some 0,
    epoll := fun g => if g = 5 then some 5 else none }

/-- Three tasks built by the constructor: task 0 without a parent, tasks 1 and 2 its
children, with descriptors 5, 6 and 7. -/
def family3 : Sched :=
  let s1 := (Task.new none {}).2
  let s2 := (Task.new (some 0) s1).2
  let s3 := (Task.new (some 0) s2).2
  ((s3.upd 0 fun T => { T with fd := 5 }).upd 1 fun T => { T with fd := 6 }).upd 2
    fun T => { T with fd := 7 }

/-- Hooks of a subclass that overrides nothing: `read` (pure virtual in `Task`) and
`do_construct` do nothing, the others are the defaults of `Task`. -/
def defaultHooks : Hooks :=
  { read := fun _ s => .ok () s,
    disconnected := Task.disconnected,
    do_construct := fun _ s => .ok () s,
    handle_timeout := Task.handle_timeout }

/-- The state of `armed_100_50_75` when the clock has advanced by 60 milliseconds. -/
def armed_100_50_75_at_60 : Sched :=
  { armed_100_50_75 with now := 1060000 }

/-- A parent (task 0) and its child (task 1), armed at `now = 1000000` with read timeouts
of 100 and 50 milliseconds in this order, so that the list is `[child, parent]`, sorted;
the clock then advanced by 60 milliseconds. -/
def parentChildArmed : Sched :=
  { Task.set_read_timeout 1 50 (Task.set_read_timeout 0 100
      { (Task.new (some 0) (Task.new none {}).2).2 with now := 1000000 }) with now := 1060000 }

/-- Three open tasks without relatives, registered for `EPOLLIN` on descriptors 5, 6, 7,
in a sorted timeout list `[1, 2, 0]` with due times 1050000, 1075000, 1100000; the clock
reads 1060000. -/
def sortedTimeouts : Sched :=
  { tasks := fun i =>
      if i = 0 then
        { fd := 5, events := 1,
          timeout := { prev := some 2, next := none, due := 1100000,
                       read := { due := 1100000, timeout := 100000 } } }
      else if i = 1 then
        { fd := 6, events := 1,
          timeout := { prev := none, next := some 2, due := 1050000,
                       read := { due := 1050000, timeout := 50000 } } }
      else if i = 2 then
        { fd := 7, events := 1,
          timeout := { prev := some 1, next := some 0, due := 1075000,
                       read := { due := 1075000, timeout := 75000 } } }
      else {},
    ntasks := 3,
    now := 1060000,
    timeouts := some 1,
    epoll := fun g => if g = 5 ∨ g = 6 ∨ g = 7 then some 1 else none }

/-- The `closed` flags of the first `n` tasks after a call that returned. -/
def Res.closedFlags {α : Type} (r : Res α) (n : Nat) : Option (List Bool) :=
  match r with
  | .ok _ s => some ((List.range n).map fun i => (s.tasks i).closed)
  | _ => none

/-- The timeout list after a call that returned. -/
def Res.timeoutList {α : Type} (r : Res α) : Option (List TaskId) :=
  match r with
  | .ok _ s => some s.timeoutList
  | _ => none


/-- The deadlines of task `t` after a call that returned: `timeout.due`, `timeout.read.due`,
`timeout.write.due`. -/
def Res.dues {α : Type} (r : Res α) (t : TaskId) : Option (Int × Int × Int) :=
  match r with
  | .ok _ s => some ((s.tasks t).timeout.due, (s.tasks t).timeout.read.due,
      (s.tasks t).timeout.write.due)
  | _ => none

/-- One fresh task at `now = 1000000`: `set_read_timeout(200)`, `set_write_timeout(100)`,
then a readable event with nothing queued for output. -/
def armedBothThenReadable : Res Unit :=
  TimeoutCall.execAll (fun _ => defaultHooks)
    [.set_read_timeout 0 200, .set_write_timeout 0 100, .run 0 EPOLLIN] (freshTasks 1 1000000)

/-- The state `armedBothThenReadable` ends in. -/
def armedBothThenReadableEnd : Sched :=
  (armedBothThenReadable.state?).getD (freshTasks 1 1000000)


/-- One open task (id 0) on descriptor 5, registered for `EPOLLIN`, nothing queued; the
caller's buffers at addresses 0 and 1 hold 3 and 7 bytes; the kernel will accept 3 bytes,
then nothing, then 5, then all that is offered. -/
def writer3_7_2 : Sched :=
  { tasks := fun i => if i = 0 then { fd := 5, events := EPOLLIN } else {},
    ntasks := 1,
    epoll := fun g => if g = 5 then some EPOLLIN else none,
    mem := fun a => if a = 0 then [1, 2, 3] else if a = 1 then [4, 5, 6, 7, 8, 9, 10] else [],
    script := [.accept 3, .wouldblock, .accept 5, .accept 100, .accept 100] }

/-- Segments of 3, 7 and 2 bytes, enqueued with the three disciplines, then a writable
event. -/
def calls3_7_2 : List WriteCall :=
  [.async_write 0 3, .async_write_cpy 1 7, .async_write_out { ptr := .owned [11, 12], len := 2 },
    .writable]

/-- The state the calls `calls3_7_2` end in. -/
def writer3_7_2_end : Sched :=
  ((WriteCall.execAll defaultHooks 0 calls3_7_2 writer3_7_2).state?).getD writer3_7_2

/-- The exception a call ended with. -/
def Res.exn? {α : Type} : Res α → Option Exn
  | .throw e _ => some e
  | _ => none


/-- A connection as the subclasses of the repository construct it: `do_construct` assigns
the descriptor `fd` and calls `schedule(EPOLLIN)`; `read` does nothing. -/
def connHooks (fd : Int) : Hooks :=
  { defaultHooks with
    do_construct := fun t s => Task.schedule t EPOLLIN (s.upd t fun T => { T with fd := fd }) }

/-- The hooks `connHooks fd` with an override of `disconnected()` that returns. -/
def quietHooks (fd : Int) : Hooks :=
  { connHooks fd with disconnected := fun _ s => .ok () s }

/-- The calls `construct()`, `async_write(ptr 0, 3)` and then an event with `flags`. -/
def constructWriteEvent (flags : Nat) : List TaskCall :=
  [.construct 0, .async_write 0 0 3, .run 0 flags]

/-- One fresh task, a buffer of 3 bytes at address 0, a kernel that accepts nothing. -/
def freshWriter : Sched :=
  { ntasks := 1, mem := fun a => if a = 0 then [1, 2, 3] else [] }

/-- Queue, interest mask and descriptor of task `t` in a state that was reached. -/
def queueView (s : Option Sched) (t : TaskId) : Option (List Out × Nat × Int) :=
  s.map fun s => ((s.tasks t).out, (s.tasks t).events, (s.tasks t).fd)

/-- The calls `construct()`, `async_write(ptr 0, 3)`, a hang-up event, and the `close()` with
which the scheduler answers the exception. -/
def constructWriteHangupClose : List TaskCall :=
  [.construct 0, .async_write 0 0 3, .run 0 EPOLLHUP, .close 0]

/-- The state the calls `constructWriteHangupClose` end in, with the default
`disconnected()`. -/
def hangupClosedEnd : Sched :=
  (TaskCall.after (fun _ => connHooks 5) constructWriteHangupClose freshWriter).getD freshWriter


/-- Hooks whose `read()` throws a `HalfClose` with the message `msg`. -/
def halfClosingHooks (msg : String) : Hooks :=
  { defaultHooks with read := fun _ s => .throw (.halfClose msg) s }

/-- Of task `t`: the half-close mark, the readable bit of the interest mask, and whether the
read direction of descriptor `fd` has been shut down. -/
def halfCloseView (r : Option Sched) (t : TaskId) (fd : Int) :
    Option (Option String × Nat × Bool) :=
  r.map fun s => ((s.tasks t).half_close, EPOLLIN &&& (s.tasks t).events, s.shut_rd fd)

/-- An HTTP connection (task 0) on descriptor 5, registered as `HttpServerConnection` does
(`EPOLLIN|EPOLLET`) and with two bytes queued, so `EPOLLOUT` is requested too. -/
def httpConn : Sched :=
  { tasks := fun i =>
      if i = 0 then { fd := 5, events := EPOLLIN ||| EPOLLET ||| EPOLLOUT,
                      out := [{ ptr := .owned [8, 9], len := 2 }] } else {},
    ntasks := 1,
    epoll := fun g => if g = 5 then some (EPOLLIN ||| EPOLLET ||| EPOLLOUT) else none }

/-! ## Comparing a line buffer with a C string (task.hpp `InLine::starts_with`, `ends_with`) -/

/-- The bytes a C string with the characters `x` occupies: the characters and the
terminating 0. -/
def cbytes (x : List Nat) : List Nat := x ++ [0]

/-- `!memcmp(a, b, n)`, for arrays that hold at least `n` bytes. -/
def memeq (a b : List Nat) (n : Nat) : Bool := a.take n == b.take n

/-- task.hpp `InLine::starts_with(prefix,prefix_len)`, `pfx` being the characters of
`prefix`; an omitted `prefix_len` is 0.  `prefix_len = prefix_len || strlen(prefix)`
assigns the value of the logical disjunction, 1 or 0. -/
def InLine.starts_with (l : InLine) (pfx : List Nat) (prefix_len : Nat) : Bool :=
  let prefix_len := if prefix_len != 0 || pfx.length != 0 then 1 else 0
  if prefix_len > l.len then false else memeq (cbytes pfx) l.bufz prefix_len

/-- task.hpp `InLine::ends_with(suffix,suffix_len)`, `sfx` being the characters of
`suffix`; an omitted `suffix_len` is 0.  `tail` is `bufz+len-suffix_len`. -/
def InLine.ends_with (l : InLine) (sfx : List Nat) (suffix_len : Nat) : Bool :=
  let suffix_len := if suffix_len != 0 || sfx.length != 0 then 1 else 0
  if suffix_len > l.len then false
  else memeq (cbytes sfx) (l.bufz.drop (l.len - suffix_len)) suffix_len

/-- A line buffer `InLine<MAX>` whose contents are the characters `x`: they are followed by
the terminating 0 and `len` is their number. -/
def InLine.holding (MAX : Nat) (x : List Nat) : InLine :=
  { bufz := (x ++ List.replicate (MAX + 1 - x.length) 0).take (MAX + 1), len := x.length }

/-- The line buffer `InLine<20>` of console.hpp holding `"ab"`. -/
def lineAB : InLine := InLine.holding 20 [97, 98]

/-- One open task (id 0) on descriptor 5 that may read; the peer's bytes `"abcde"` have
arrived. -/
def readerABCDE : Sched :=
  { tasks := fun i => if i = 0 then { fd := 5, events := EPOLLIN, sated := false } else {},
    ntasks := 1,
    input := [.data [97, 98, 99, 100, 101]] }

/-- One open task (id 0) on descriptor 5 that may read; the request line
`"GET / HTTP/1.1\r\n"` arrives as `"GET /"`, then nothing for a while, then
`" HTTP/1.1\r\n"`. -/
def readerGET : Sched :=
  { tasks := fun i => if i = 0 then { fd := 5, events := EPOLLIN, sated := false } else {},
    ntasks := 1,
    input := [.data [71, 69, 84, 32, 47], .wouldblock,
      .data [32, 72, 84, 84, 80, 47, 49, 46, 49, 13, 10]] }

/-- The two calls `async_read_in(line)` of a `read()` that is run at two readable events,
on a cleared line buffer `InLine<MAX>`: the flags returned and the C string in the buffer
after each. -/
def readLineTwice (t : TaskId) (MAX : Nat) (s : Sched) :
    Res ((Bool × List Nat) × (Bool × List Nat)) :=
  (Task.async_read_in t (InLine.new MAX) MAX s).bind fun r1 s1 =>
    (Task.async_read_in t r1.2 MAX (s1.upd t (fun T => { T with sated := false }))).bind
      fun r2 s2 => .ok ((r1.1, r1.2.cstr), (r2.1, r2.2.cstr)) s2

/-! ## The byte counters (task.hpp `Task::get_bytes_written`, `Task::get_bytes_read`) -/

/-- task.hpp `Task::get_bytes_written`. -/
def Task.get_bytes_written (T : Task) : Nat := T.totalWritten

/-- task.hpp `Task::get_bytes_read`. -/
def Task.get_bytes_read (T : Task) : Nat := T.totalRead

/-- A transfer of bytes on a task: `async_write(ptr,len,written)` of the `len` bytes `data`
at `ptr`, or `async_read(ptr,bytes,read)` into memory of the caller. -/
inductive Transfer where
  | write (data : List Nat) (len : Nat)
  | read (bytes : Nat)
  deriving DecidableEq, Repr

/-- Perform the transfers in order as long as they return.  The result is, added to `w` and
`r`, the number of bytes the kernel has accepted from the task (the values of `written`)
and the number of bytes it has delivered to it (those that left `input`). -/
def Task.transfer (t : TaskId) : List Transfer → Nat → Nat → Sched → Res (Nat × Nat)
  | [], w, r, s => .ok (w, r) s
  | .write data len :: cs, w, r, s =>
    (Task.do_async_write t data len s).bind fun x s1 => Task.transfer t cs (w + x.2) r s1
  | .read bytes :: cs, w, r, s =>
    (Task.async_read t .caller bytes s).bind fun _ s1 =>
      Task.transfer t cs w (r + ((allData s.input).length - (allData s1.input).length)) s1

/-- One open task (id 0) on descriptor 5 that may read and has written and read
`2^32 - 1` bytes so far; the kernel accepts what is offered and two bytes have arrived. -/
def nearWrap : Sched :=
  { tasks := fun i =>
      if i = 0 then { fd := 5, events := EPOLLIN, sated := false,
                      totalWritten := 4294967295, totalRead := 4294967295 } else {},
    ntasks := 1,
    script := [.accept 100],
    input := [.data [7, 8]] }

/-! ## Sequences of `schedule` and `unschedule` -/

/-- A call that changes the interest mask of a task. -/
inductive InterestCall where
  | schedule (mask : Nat)
  | unschedule (bits : Nat)
  deriving DecidableEq, Repr

/-- Perform one call on task `t`. -/
def InterestCall.exec (t : TaskId) : InterestCall → Sched → Res Unit
  | .schedule mask, s => Task.schedule t mask s
  | .unschedule bits, s => Task.unschedule t bits s

/-- Perform the calls in order, stopping at the first that throws. -/
def InterestCall.execAll (t : TaskId) : List InterestCall → Sched → Res Unit
  | [], s => .ok () s
  | c :: cs, s => (c.exec t s).bind fun _ s1 => InterestCall.execAll t cs s1

/-- The interest mask of task `t` and what the epoll instance holds for `fd`. -/
def interestView (r : Option Sched) (t : TaskId) (fd : Int) : Option (Nat × Option Nat) :=
  r.map fun s => ((s.tasks t).events, s.epoll fd)

/-! ## Formatted output (task.cpp `Task::async_vprintf`) -/

/-- task.cpp `Task::async_vprintf`.  `text` is the output the format and its arguments
produce and `buf` the address of the local array `char buf[1024]`, whose bytes are
`s.mem buf`.  `vsnprintf(buf,sizeof(buf),fmt,ap)` stores the first 1023 bytes of `text` and
a terminating 0 there and returns the length of `text`; `vasprintf` allocates a copy of
`text` with its terminating 0 (`malloc` and `new` succeed, neither call fails).  Memory
behind the array is not part of the model: a read of `buf[0 .. len)` with `len > 1024` finds
the 1024 bytes of the array only. -/
def Task.async_vprintf (t : TaskId) (buf : Nat) (text : List Nat) (s : Sched) : Res Unit :=
  let s1 := { s with mem := fun a =>
    if a = buf then writeAt (s.mem buf) 0 (text.take 1023 ++ [0]) else s.mem a }
  let len := text.length
  if len = 0 then .ok () s1
  else if len = 1024 then
    Task.async_write_out t { ptr := .owned (text ++ [0]), len := text.length } s1
  else Task.async_write_cpy t buf len s1

/-- One open task (id 0) on descriptor 5 with an empty queue; the local array of
`async_vprintf` lies at address 0 (1024 bytes, here 0) and the kernel accepts what is
offered. -/
def printer : Sched :=
  { tasks := fun i => if i = 0 then { fd := 5 } else {},
    ntasks := 1,
    mem := fun a => if a = 0 then List.replicate 1024 0 else [],
    script := [.accept 4096] }

/-- The bytes on the wire of `fd` and the queue of task `t` after a call. -/
def printView (r : Res Unit) (t : TaskId) (fd : Int) : Option (List Nat × List Out) :=
  r.state?.map fun s => (s.wire fd, (s.tasks t).out)

/-! ## Integers in buffers (out.hpp `extract_be`, `extract_le`, `ResizeableBuffer`) -/

/-- The object representation of the value `t` of an unsigned integer type of `size` bytes
on a little-endian host: the byte at offset `i` is `t / 256^i mod 256`. -/
def bytesOf : Nat → Nat → List Nat
  | 0, _ => []
  | size + 1, t => t % 256 :: bytesOf size (t / 256)

/-- The value of an unsigned integer object with the bytes `b` on a little-endian host. -/
def valueOf : List Nat → Nat
  | [] => 0
  | b :: bs => b + 256 * valueOf bs

/-- out.hpp `extract_be<T>(ptr,ofs,len)` for a type `T` of `size` bytes: `t = 0`, then the
turn `i` of the loop stores `ptr[ofs+len-1-i]` in byte `i` of `t`. -/
def extract_be (size : Nat) (ptr : List Nat) (ofs len : Nat) : Nat :=
  valueOf (writeAt (List.replicate size 0) 0
    ((List.range len).map fun i => ptr.getD (ofs + len - 1 - i) 0))

/-- out.hpp `extract_le<T>(ptr,ofs,len)` for a type `T` of `size` bytes: `t = 0`, then
`memcpy(&t,ptr+ofs,len)`. -/
def extract_le (size : Nat) (ptr : List Nat) (ofs len : Nat) : Nat :=
  valueOf (writeAt (List.replicate size 0) 0 ((ptr.drop ofs).take len))

/-- out.hpp `class ResizeableBuffer`: `ptr` is the array of `capacity` bytes that `ptr`
points at (`[]` for `NULL`), `len` the number of bytes in use. -/
structure ResizeableBuffer where
  ptr : List Nat := []
  len : Nat := 0
  capacity : Nat := 0
  deriving DecidableEq, Repr

/-- out.cpp `ResizeableBuffer::resize`; `malloc` and `realloc` succeed, new bytes are 0. -/
def ResizeableBuffer.resize (b : ResizeableBuffer) (new_capacity : Nat) : ResizeableBuffer :=
  if new_capacity = 0 then { b with ptr := [], capacity := 0 }
  else { b with ptr := b.ptr.take new_capacity ++ List.replicate (new_capacity - b.ptr.length) 0,
                capacity := new_capacity }

/-- out.cpp `ResizeableBuffer::ensure_capacity`. -/
def ResizeableBuffer.ensure_capacity (b : ResizeableBuffer) (needed : Nat) : ResizeableBuffer :=
  if b.len + needed > b.capacity then b.resize (b.len + needed) else b

/-- out.cpp `ResizeableBuffer::write_ptr`, `aptr` pointing at the bytes `a`. -/
def ResizeableBuffer.write_ptr (b : ResizeableBuffer) (a : List Nat) (alen : Nat) :
    Except Exn ResizeableBuffer :=
  if 1 > alen then .error .internalError
  else
    let b1 := b.ensure_capacity alen
    .ok { b1 with ptr := writeAt b1.ptr b1.len (a.take alen), len := b1.len + alen }

/-- out.hpp `ResizeableBuffer::write<T>(t,len)` for a type `T` of `size` bytes. -/
def ResizeableBuffer.write (b : ResizeableBuffer) (size t len : Nat) :
    Except Exn ResizeableBuffer :=
  b.write_ptr (bytesOf size t) len

/-- The last `n` turns of the loop of out.hpp `ResizeableBuffer::write_be`, `c` being the
bytes of `t`: the turn `i = len - n` performs `write<uint8_t>(c[len-i-1],1)`. -/
def ResizeableBuffer.write_be_loop (c : List Nat) : Nat → ResizeableBuffer →
    Except Exn ResizeableBuffer
  | 0, b => .ok b
  | n + 1, b => (b.write 1 (c.getD n 0) 1).bind (ResizeableBuffer.write_be_loop c n)

/-- out.hpp `ResizeableBuffer::write_be<T>(t,len)` for a type `T` of `size` bytes. -/
def ResizeableBuffer.write_be (b : ResizeableBuffer) (size t len : Nat) :
    Except Exn ResizeableBuffer :=
  ResizeableBuffer.write_be_loop (bytesOf size t) len b

/-- The bytes in use: `ptr[0 .. len)`. -/
def ResizeableBuffer.data (b : ResizeableBuffer) : List Nat := b.ptr.take b.len

/-- The array is as long as `capacity` says and holds the bytes in use. -/
def ResizeableBuffer.WF (b : ResizeableBuffer) : Prop :=
  b.ptr.length = b.capacity ∧ b.len ≤ b.capacity

/-- A buffer that holds the two bytes `[1, 2]` in an array of 3 bytes. -/
def buffer12 : ResizeableBuffer := { ptr := [1, 2, 0], len := 2, capacity := 3 }

/-! ## The dispatch loop of `Scheduler::run` (task.cpp, lines 84-110) -/

/-- One entry of `events` after `epoll_wait`: the task (`data.ptr`) and its `events`. -/
structure Ready where
  task : TaskId
  events : Nat
  deriving DecidableEq, Repr

/-- The loop `for(int i=0; i<nfds; i++)` of `Scheduler::run` over the entries `epoll_wait`
has reported; task `t` has the virtual functions `h t`.  The result is `true` when
`Scheduler::run` has returned from inside the loop (the `catch(Shutdown*)` clause) and
`false` when the loop has come to its end.  `Shutdown` is not an `Error`, so the clause
`catch(Error*)` before it does not catch it; `current_task->close()` follows the other
`catch` clauses, outside the `try`. -/
def Scheduler.dispatch (h : TaskId → Hooks) : List Ready → Sched → Res Bool
  | [], s => .ok false s
  | e :: rest, s =>
    if (s.tasks e.task).closed then Scheduler.dispatch h rest s
    else
      match Task.run (h e.task) e.task e.events s with
      | .ok _ s1 => Scheduler.dispatch h rest s1
      | .diverge => .diverge
      | .throw .shutdown s1 => .ok true s1
      | .throw _ s1 => (Task.close e.task s1).bind fun _ s2 => Scheduler.dispatch h rest s2

/-- Hooks whose `read()` throws a `Shutdown`. -/
def shutdownHooks : Hooks :=
  { defaultHooks with read := fun _ s => .throw .shutdown s }

/-- What a call of the dispatch loop returned and the `closed` flags of the first `n` tasks
afterwards. -/
def dispatchView (r : Res Bool) (n : Nat) : Option (Bool × List Bool) :=
  match r with
  | .ok b s => some (b, (List.range n).map fun i => (s.tasks i).closed)
  | _ => none

/-! ## The writable branch of `Task::run` -/

/-- A task with its queue and its byte counters forgotten. -/
def Task.unqueued (T : Task) : Task :=
  { T with out := [], totalWritten := 0, totalRead := 0 }

/-- What the loop `while(out)` of `Task::run` leaves alone: the buffers, the epoll instance,
every field of the task but its queue and its counters, the other tasks, the number of
tasks and the head of the timeout list; of the write results it consumes a front part. -/
structure DrainFrame (t : TaskId) (s s' : Sched) : Prop where
  mem : s'.mem = s.mem
  epoll : s'.epoll = s.epoll
  script : ∃ used, s.script = used ++ s'.script
  task : (s'.tasks t).unqueued = (s.tasks t).unqueued
  others : ∀ i, i ≠ t → s'.tasks i = s.tasks i
  ntasks : s'.ntasks = s.ntasks
  timeouts : s'.timeouts = s.timeouts

/-- A half-closed task (id 0, reason `"bye"`) on descriptor 5 with one segment of 4 bytes
queued, registered for `EPOLLOUT`; the kernel accepts what is offered. -/
def halfClosedWriter : Sched :=
  { tasks := fun i =>
      if i = 0 then { fd := 5, events := EPOLLOUT, half_close := some "bye",
                      out := [{ ptr := .owned [1, 2, 3, 4], len := 4 }] } else {},
    ntasks := 1,
    epoll := fun g => if g = 5 then some EPOLLOUT else none,
    script := [.accept 100] }

/-- The task of `halfClosedWriter` with a kernel that accepts 3 bytes and then blocks. -/
def halfClosedWriter3 : Sched :=
  { halfClosedWriter with script := [.accept 3] }

/-- Of task `t` on descriptor `fd` after a call: the bytes on the wire, the queue, the
interest mask and what the epoll instance holds. -/
def writableView (r : Res Unit) (t : TaskId) (fd : Int) :
    Option (List Nat × List Out × Nat × Option Nat) :=
  r.state?.map fun s => (s.wire fd, (s.tasks t).out, (s.tasks t).events, s.epoll fd)

/-- The task of `halfClosedWriter` with a kernel whose `::write` returns 0. -/
def halfClosedWriter0 : Sched :=
  { halfClosedWriter with script := [.accept 0] }

/-- The task of `halfClosedWriter` after a `schedule(EPOLLOUT)` whose `EPOLL_CTL_ADD` failed:
`EPOLLOUT` is in the interest mask and the descriptor is not registered. -/
def halfClosedWriterStale : Sched :=
  { halfClosedWriter with epoll := fun _ => none }

/-! ## One turn of each loop of `Task::sort_timeout` -/

/-- The assignments of one turn of the first loop of `sort_timeout`, when `timeout.prev` of
`t` is `pp`, `timeout.next` of `t` is `n` and `timeout.next` of `n` is `nn`: `t` and its
successor `n` change places. -/
def swapForward (t n : TaskId) (pp nn : Option TaskId) (s : Sched) : Sched :=
  let s1 := if some t = s.timeouts then s.setTimeouts (some n) else s
  let s2 := match pp with
    | some p => s1.setNext p (some n)
    | none => s1
  let s3 := s2.setPrev n pp
  let s4 := s3.setPrev t (some n)
  let s5 := s4.setNext t nn
  let s6 := s5.setNext n (some t)
  match nn with
  | some b => s6.setPrev b (some t)
  | none => s6

/-- The assignments of one turn of the second loop of `sort_timeout`, when `timeout.prev`
of `t` is `p`, `timeout.prev` of `p` is `pp` and `timeout.next` of `t` is `nn`: `t` and its
predecessor `p` change places. -/
def swapBackward (t p : TaskId) (pp nn : Option TaskId) (s : Sched) : Sched :=
  let s1 := if some p = s.timeouts then s.setTimeouts (some t) else s
  let s2 := match nn with
    | some n => s1.setPrev n (some p)
    | none => s1
  let s3 := s2.setNext p nn
  let s4 := s3.setNext t (some p)
  let s5 := s4.setPrev t pp
  let s6 := s5.setPrev p (some t)
  match pp with
  | some q => s6.setNext q (some t)
  | none => s6


/-- The sorted list of `sortedTimeouts` after `timeout.due` of its head, task 1, was moved
to 1090000: `[1, 2, 0]` with due times 1090000, 1075000, 1100000. -/
def displacedTimeouts : Sched := sortedTimeouts.setDue 1 1090000

/-! ## The outbound FIFO in the words of the specification

Specification 4.2 and 4.3: the enqueueing calls "attempt a synchronous write first …; if it
completes fully, no segment is enqueued …  Otherwise, the residual segment … is appended to
the FIFO"; the writable branch walks the queue "calling `OutSegment.async_write(task)` for
each until one cannot complete … or the chain empties", and "partials update `offset` and
stop the drain".  The definitions of this section follow these words, not the code: they
know the queue, the bytes sent and the write results to come, and nothing else of a task.
The theorems compare the code with them. -/

/-- An attempt to write `n` bytes against the write results `r`: the number of bytes the
kernel takes and the results left for later attempts.  The attempt ends when the `n` bytes
are written (without a further `::write`) or at the first `EWOULDBLOCK` (a list that has run
out counts as one); a result `accept k` takes `min k n'` of the `n'` bytes still to write, a
result `EINTR` takes none and the write is repeated. -/
def fifoAccepted : List WriteRes → Nat → Nat × List WriteRes
  | [], _ => (0, [])
  | r :: rest, n =>
    if n = 0 then (0, r :: rest)
    else match r with
      | .accept k =>
          if n ≤ k then (n, rest)
          else (k + (fifoAccepted rest (n - k)).1, (fifoAccepted rest (n - k)).2)
      | .eintr => fifoAccepted rest n
      | .wouldblock => (0, rest)
      | .error => (0, rest)

/-- The outbound side of a task as the specification sees it: the bytes sent so far, the
queue of segments, and the write results to come. -/
structure Fifo where
  sent : List Nat
  queue : List Out
  script : List WriteRes
  deriving DecidableEq, Repr

/-- The drain of the writable branch: the segments are written from the head; a segment that
completes is released and the next one is written; the first segment that cannot complete
stays at the head with its offset advanced and ends the drain.  `sent` is what this drain
has sent. -/
def fifoDrain (s : Sched) : List Out → List WriteRes → Fifo
  | [], r => { sent := [], queue := [], script := r }
  | o :: q, r =>
    if (fifoAccepted r (o.len - o.ofs)).1 < o.len - o.ofs then
      { sent := (Out.rest s o).take (fifoAccepted r (o.len - o.ofs)).1,
        queue := { o with ofs := o.ofs + (fifoAccepted r (o.len - o.ofs)).1 } :: q,
        script := (fifoAccepted r (o.len - o.ofs)).2 }
    else
      { sent := (Out.rest s o).take (fifoAccepted r (o.len - o.ofs)).1 ++
          (fifoDrain s q (fifoAccepted r (o.len - o.ofs)).2).sent,
        queue := (fifoDrain s q (fifoAccepted r (o.len - o.ofs)).2).queue,
        script := (fifoDrain s q (fifoAccepted r (o.len - o.ofs)).2).script }

/-- An enqueueing call with the segment `o`: with an empty queue the segment is written at
once, and when it cannot complete the residual segment `residue w` for its bytes from `w` on
becomes the queue; with a non-empty queue nothing is written and the whole segment,
`residue 0`, is appended. -/
def fifoEnqueue (s : Sched) (f : Fifo) (o : Out) (residue : Nat → Out) : Fifo :=
  if f.queue.isEmpty then
    { sent := f.sent ++ (Out.rest s o).take (fifoAccepted f.script (o.len - o.ofs)).1,
      queue := if (fifoAccepted f.script (o.len - o.ofs)).1 < o.len - o.ofs
        then [residue (fifoAccepted f.script (o.len - o.ofs)).1] else [],
      script := (fifoAccepted f.script (o.len - o.ofs)).2 }
  else { f with queue := f.queue ++ [residue 0] }

/-- One call on the outbound side: `async_write` leaves a residue in the caller's buffer,
`async_write_cpy` a copy of the unsent bytes, `async_write(Out*)` the segment itself; a
writable event drains the queue. -/
def fifoCall (s : Sched) (f : Fifo) : WriteCall → Fifo
  | .async_write ptr len =>
      fifoEnqueue s f { ptr := .borrowed ptr, len := len } (residual s false ptr len)
  | .async_write_cpy ptr len =>
      fifoEnqueue s f { ptr := .borrowed ptr, len := len } (residual s true ptr len)
  | .async_write_out o => fifoEnqueue s f o (fun w => { o with ofs := o.ofs + w })
  | .writable =>
      { sent := f.sent ++ (fifoDrain s f.queue f.script).sent,
        queue := (fifoDrain s f.queue f.script).queue,
        script := (fifoDrain s f.queue f.script).script }

/-- The calls in order. -/
def fifoCalls (s : Sched) : List WriteCall → Fifo → Fifo
  | [], f => f
  | c :: cs, f => fifoCalls s cs (fifoCall s f c)

/-- The outbound side of task `t` in the state `s` is the FIFO `f` of the specification that
started in the state `s0`: the task is open and has the descriptor and the `half_close` it
had in `s0`, it is registered with the epoll instance exactly when its interest mask is not
0, the write results to come are benign, the buffers are those of `s0`, the wire holds what
it held in `s0` and then `f.sent`, the queue is `f.queue`, the write results to come are
`f.script`, the queue is empty exactly when `EPOLLOUT` is not requested (if it was not
requested in `s0`), and the timeout list is well formed. -/
structure FifoInv (t : TaskId) (s0 : Sched) (f : Fifo) (s : Sched) : Prop where
  not_closed : (s.tasks t).closed = false
  fd_eq : (s.tasks t).fd = (s0.tasks t).fd
  half_close : (s.tasks t).half_close = (s0.tasks t).half_close
  registered : (s.tasks t).events = 0 ↔ s.epoll (s0.tasks t).fd = none
  benign : s.script.all WriteRes.benign = true
  mem : s.mem = s0.mem
  wire : s.wire (s0.tasks t).fd = s0.wire (s0.tasks t).fd ++ f.sent
  out : (s.tasks t).out = f.queue
  script : s.script = f.script
  bit : EPOLLOUT &&& (s0.tasks t).events = 0 →
    ((s.tasks t).out = [] ↔ EPOLLOUT &&& (s.tasks t).events = 0)
  links : ∃ L, TimeoutWF s L

/-- What a call raises, by the specification: a writable event that leaves the queue empty
raises `GracefulClose` with the reason of the half-close when the task is half-closed
("when `out_head` becomes empty, … if `half_close_reason` is set, raise graceful close");
the other calls raise nothing. -/
def fifoThrown (half_close : Option String) (after : Fifo) : WriteCall → Option Exn
  | .writable => if after.queue = [] then half_close.map Exn.gracefulClose else none
  | _ => none

/-- Where a sequence of calls ends: the FIFO, the exception that ended it (if any), and the
calls that were performed. -/
structure FifoRun where
  fifo : Fifo
  thrown : Option Exn
  done : List WriteCall
  deriving DecidableEq, Repr

/-- The calls in order, up to the first that raises an exception. -/
def fifoRun (s : Sched) (half_close : Option String) : List WriteCall → Fifo → FifoRun
  | [], f => { fifo := f, thrown := none, done := [] }
  | c :: cs, f =>
    match fifoThrown half_close (fifoCall s f c) c with
    | some e => { fifo := fifoCall s f c, thrown := some e, done := [c] }
    | none =>
      { fifo := (fifoRun s half_close cs (fifoCall s f c)).fifo,
        thrown := (fifoRun s half_close cs (fifoCall s f c)).thrown,
        done := c :: (fifoRun s half_close cs (fifoCall s f c)).done }

/-- The calls on task `t` from the state `s`, by the specification: nothing is sent yet, the
queue and the write results to come are those of `s`, and the reason of a half-close is the
one `s` holds. -/
def fifoFrom (s : Sched) (t : TaskId) (calls : List WriteCall) : FifoRun :=
  fifoRun s (s.tasks t).half_close calls
    { sent := [], queue := (s.tasks t).out, script := s.script }


/-! ## What the operations on the timeout list leave alone -/

/-- The kernel state and the number of tasks are the same in both states. -/
structure SameKernel (s s' : Sched) : Prop where
  wire : s'.wire = s.wire
  script : s'.script = s.script
  epoll : s'.epoll = s.epoll
  mem : s'.mem = s.mem
  ntasks : s'.ntasks = s.ntasks

/-- A task with its interest mask forgotten. -/
def Task.unmasked (T : Task) : Task := { T with events := 0 }

/-- What `schedule` and `unschedule` on task `t` leave alone, however they end: the wire,
the write results, the buffers, the number of tasks, the head of the timeout list, the
other tasks, and every field of the task but its interest mask. -/
structure MaskFrame (t : TaskId) (s s' : Sched) : Prop where
  wire : s'.wire = s.wire
  script : s'.script = s.script
  mem : s'.mem = s.mem
  ntasks : s'.ntasks = s.ntasks
  timeouts : s'.timeouts = s.timeouts
  others : ∀ i, i ≠ t → s'.tasks i = s.tasks i
  task : (s'.tasks t).unmasked = (s.tasks t).unmasked


/-! ## The shape of the scheduler that the dispatch loop relies on -/

/-- The task tree is as the constructor builds it, the epoll instance agrees with the tasks,
and the timeout list is a well-formed linked list. -/
def Shaped (s : Sched) : Prop := TreeWF s ∧ EpollOk s ∧ ∃ L, TimeoutWF s L

/-- A call ended, by a return or by an exception, in a state with the property `P`. -/
def Res.endsIn {α : Type} (r : Res α) (P : Sched → Prop) : Prop :=
  ∃ s', r.state? = some s' ∧ P s'

/-- The state is well shaped and has at least `n` tasks. -/
def Kept (n : Nat) (s : Sched) : Prop := Shaped s ∧ n ≤ s.ntasks

/-- The fields of a task that the shape of the scheduler depends on: descriptor, interest
mask, `closed`, the links of the task tree and the links of the timeout list. -/
def Task.skel (T : Task) : Int × Nat × Bool × Option TaskId × Option TaskId × Option TaskId ×
    Option TaskId × Option TaskId :=
  (T.fd, T.events, T.closed, T.tree_parent, T.tree_first_child, T.tree_next_sibling,
    T.timeout.prev, T.timeout.next)

/-- Both states have the same number of tasks, the same head of the timeout list, the same
epoll instance and, task by task, the same fields `Task.skel`. -/
structure SameShape (s s' : Sched) : Prop where
  ntasks : s'.ntasks = s.ntasks
  timeouts : s'.timeouts = s.timeouts
  epoll : s'.epoll = s.epoll
  skel : ∀ i, (s'.tasks i).skel = (s.tasks i).skel

/-- The tasks of `family3` after a `schedule(EPOLLIN)` of task 1 whose `EPOLL_CTL_ADD`
failed: `Task::schedule` has set `event.events` before `check` threw, so task 1 has
`EPOLLIN` in its interest mask and its descriptor 6 is not registered. -/
def family3Stale : Sched :=
  family3.upd 1 fun T => { T with events := EPOLLIN }

/-! ## Bytes on the wire, however a call ends -/

/-- Between `s` and `s'` the bytes `x` went onto the wire of the descriptor of task `t`; the
buffers, the descriptor and the queue of the task are the same. -/
structure Sent (t : TaskId) (x : List Nat) (s s' : Sched) : Prop where
  mem : s'.mem = s.mem
  fd : (s'.tasks t).fd = (s.tasks t).fd
  out : (s'.tasks t).out = (s.tasks t).out
  wire : s'.wire (s.tasks t).fd = s.wire (s.tasks t).fd ++ x

/-- Between `s` and `s'` the bytes `E` were enqueued on task `t` and nothing was lost: the
bytes that went onto the wire of its descriptor, followed by the bytes queued in `s'`, are
the bytes queued in `s` followed by `E`; the buffers and the descriptor are the same. -/
structure FlowOk (t : TaskId) (E : List Nat) (s s' : Sched) : Prop where
  mem : s'.mem = s.mem
  fd : (s'.tasks t).fd = (s.tasks t).fd
  bytes : ∃ d, s'.wire (s.tasks t).fd = s.wire (s.tasks t).fd ++ d ∧
    d ++ s'.pending t = s.pending t ++ E

/-- The outcome `r` of calls on task `t` started in `s` that enqueue the bytes `E`: after a
return nothing was lost (`FlowOk`), after an exception the bytes that went onto the wire are
a prefix of the bytes queued in `s` followed by `E`. -/
def Res.flow {α : Type} (t : TaskId) (E : List Nat) (s : Sched) : Res α → Prop
  | .ok _ s' => FlowOk t E s s'
  | .throw _ s' => ∃ d, s'.wire (s.tasks t).fd = s.wire (s.tasks t).fd ++ d ∧
      d <+: s.pending t ++ E
  | .diverge => True

/-! # Theorems -/

/-! ## Reading the heap after an update -/

@[simp] theorem upd_tasks_same (s : Sched) (t : TaskId) (f : Task → Task) :
    (s.upd t f).tasks t = f (s.tasks t) := by simp [Sched.upd]

theorem upd_tasks (s : Sched) (t i : TaskId) (f : Task → Task) :
    (s.upd t f).tasks i = if i = t then f (s.tasks t) else s.tasks i := rfl

@[simp] theorem upd_tasks_ne (s : Sched) {t i : TaskId} (f : Task → Task) (h : i ≠ t) :
    (s.upd t f).tasks i = s.tasks i := by simp [Sched.upd, h]

@[simp] theorem upd_ntasks (s : Sched) (t : TaskId) (f : Task → Task) :
    (s.upd t f).ntasks = s.ntasks := rfl
@[simp] theorem upd_now (s : Sched) (t : TaskId) (f : Task → Task) :
    (s.upd t f).now = s.now := rfl
@[simp] theorem upd_close_list (s : Sched) (t : TaskId) (f : Task → Task) :
    (s.upd t f).close_list = s.close_list := rfl
@[simp] theorem upd_timeouts (s : Sched) (t : TaskId) (f : Task → Task) :
    (s.upd t f).timeouts = s.timeouts := rfl
@[simp] theorem upd_timeouts_enabled (s : Sched) (t : TaskId) (f : Task → Task) :
    (s.upd t f).timeouts_enabled = s.timeouts_enabled := rfl
@[simp] theorem upd_epoll (s : Sched) (t : TaskId) (f : Task → Task) :
    (s.upd t f).epoll = s.epoll := rfl
@[simp] theorem upd_wire (s : Sched) (t : TaskId) (f : Task → Task) :
    (s.upd t f).wire = s.wire := rfl
@[simp] theorem upd_script (s : Sched) (t : TaskId) (f : Task → Task) :
    (s.upd t f).script = s.script := rfl
@[simp] theorem upd_mem (s : Sched) (t : TaskId) (f : Task → Task) :
    (s.upd t f).mem = s.mem := rfl
@[simp] theorem upd_shut_rd (s : Sched) (t : TaskId) (f : Task → Task) :
    (s.upd t f).shut_rd = s.shut_rd := rfl

theorem upd_upd (s : Sched) (t : TaskId) (f g : Task → Task) :
    (s.upd t f).upd t g = s.upd t (fun T => g (f T)) := by
  unfold Sched.upd
  congr 1
  funext i
  by_cases h : i = t <;> simp [h]

theorem upd_congr (s : Sched) (t : TaskId) (f g : Task → Task)
    (h : f (s.tasks t) = g (s.tasks t)) : s.upd t f = s.upd t g := by
  unfold Sched.upd; rw [h]

@[simp] theorem setEpoll_tasks (s : Sched) (fd : Int) (v : Option Nat) :
    (s.setEpoll fd v).tasks = s.tasks := rfl
@[simp] theorem setEpoll_ntasks (s : Sched) (fd : Int) (v : Option Nat) :
    (s.setEpoll fd v).ntasks = s.ntasks := rfl
@[simp] theorem setEpoll_now (s : Sched) (fd : Int) (v : Option Nat) :
    (s.setEpoll fd v).now = s.now := rfl
@[simp] theorem setEpoll_close_list (s : Sched) (fd : Int) (v : Option Nat) :
    (s.setEpoll fd v).close_list = s.close_list := rfl
@[simp] theorem setEpoll_timeouts (s : Sched) (fd : Int) (v : Option Nat) :
    (s.setEpoll fd v).timeouts = s.timeouts := rfl
@[simp] theorem setEpoll_timeouts_enabled (s : Sched) (fd : Int) (v : Option Nat) :
    (s.setEpoll fd v).timeouts_enabled = s.timeouts_enabled := rfl
@[simp] theorem setEpoll_wire (s : Sched) (fd : Int) (v : Option Nat) :
    (s.setEpoll fd v).wire = s.wire := rfl
@[simp] theorem setEpoll_script (s : Sched) (fd : Int) (v : Option Nat) :
    (s.setEpoll fd v).script = s.script := rfl
@[simp] theorem setEpoll_mem (s : Sched) (fd : Int) (v : Option Nat) :
    (s.setEpoll fd v).mem = s.mem := rfl
@[simp] theorem setEpoll_shut_rd (s : Sched) (fd : Int) (v : Option Nat) :
    (s.setEpoll fd v).shut_rd = s.shut_rd := rfl
theorem setEpoll_epoll (s : Sched) (fd g : Int) (v : Option Nat) :
    (s.setEpoll fd v).epoll g = if g = fd then v else s.epoll g := rfl

theorem setEpoll_upd (s : Sched) (fd : Int) (v : Option Nat) (t : TaskId) (f : Task → Task) :
    (s.upd t f).setEpoll fd v = (s.setEpoll fd v).upd t f := rfl

theorem setEpoll_setEpoll (s : Sched) (fd : Int) (v w : Option Nat) :
    (s.setEpoll fd v).setEpoll fd w = s.setEpoll fd w := by
  unfold Sched.setEpoll
  congr 1
  funext g
  by_cases h : g = fd <;> simp [h]

@[simp] theorem setCloseList_tasks (s : Sched) (v : Option TaskId) :
    (s.setCloseList v).tasks = s.tasks := rfl
@[simp] theorem setCloseList_close_list (s : Sched) (v : Option TaskId) :
    (s.setCloseList v).close_list = v := rfl
@[simp] theorem setCloseList_ntasks (s : Sched) (v : Option TaskId) :
    (s.setCloseList v).ntasks = s.ntasks := rfl
@[simp] theorem setCloseList_now (s : Sched) (v : Option TaskId) :
    (s.setCloseList v).now = s.now := rfl
@[simp] theorem setCloseList_timeouts (s : Sched) (v : Option TaskId) :
    (s.setCloseList v).timeouts = s.timeouts := rfl
@[simp] theorem setCloseList_timeouts_enabled (s : Sched) (v : Option TaskId) :
    (s.setCloseList v).timeouts_enabled = s.timeouts_enabled := rfl
@[simp] theorem setCloseList_epoll (s : Sched) (v : Option TaskId) :
    (s.setCloseList v).epoll = s.epoll := rfl
@[simp] theorem setCloseList_wire (s : Sched) (v : Option TaskId) :
    (s.setCloseList v).wire = s.wire := rfl
@[simp] theorem setCloseList_script (s : Sched) (v : Option TaskId) :
    (s.setCloseList v).script = s.script := rfl
@[simp] theorem setCloseList_mem (s : Sched) (v : Option TaskId) :
    (s.setCloseList v).mem = s.mem := rfl
@[simp] theorem setCloseList_shut_rd (s : Sched) (v : Option TaskId) :
    (s.setCloseList v).shut_rd = s.shut_rd := rfl

theorem ite_tasks (c : Prop) [Decidable c] (a b : Sched) (x : TaskId) :
    (if c then a else b).tasks x = if c then a.tasks x else b.tasks x := by
  split <;> rfl

@[simp] theorem setTimeouts_tasks (s : Sched) (v : Option TaskId) :
    (s.setTimeouts v).tasks = s.tasks := rfl
@[simp] theorem setTimeouts_timeouts (s : Sched) (v : Option TaskId) :
    (s.setTimeouts v).timeouts = v := rfl
@[simp] theorem setTimeouts_ntasks (s : Sched) (v : Option TaskId) :
    (s.setTimeouts v).ntasks = s.ntasks := rfl
@[simp] theorem setTimeouts_close_list (s : Sched) (v : Option TaskId) :
    (s.setTimeouts v).close_list = s.close_list := rfl
@[simp] theorem setTimeouts_epoll (s : Sched) (v : Option TaskId) :
    (s.setTimeouts v).epoll = s.epoll := rfl
@[simp] theorem setTimeouts_now (s : Sched) (v : Option TaskId) :
    (s.setTimeouts v).now = s.now := rfl

@[simp] theorem setNext_next (s : Sched) (i x : TaskId) (v : Option TaskId) :
    ((s.setNext i v).tasks x).timeout.next = if x = i then v else (s.tasks x).timeout.next := by
  unfold Sched.setNext; rw [upd_tasks]; split
  · rename_i h; subst h; rfl
  · rfl
@[simp] theorem setNext_prev (s : Sched) (i x : TaskId) (v : Option TaskId) :
    ((s.setNext i v).tasks x).timeout.prev = (s.tasks x).timeout.prev := by
  unfold Sched.setNext; rw [upd_tasks]; split
  · rename_i h; subst h; rfl
  · rfl
@[simp] theorem setNext_due (s : Sched) (i x : TaskId) (v : Option TaskId) :
    ((s.setNext i v).tasks x).timeout.due = (s.tasks x).timeout.due := by
  unfold Sched.setNext; rw [upd_tasks]; split
  · rename_i h; subst h; rfl
  · rfl
@[simp] theorem setNext_timeouts (s : Sched) (i : TaskId) (v : Option TaskId) :
    (s.setNext i v).timeouts = s.timeouts := rfl
@[simp] theorem setNext_ntasks (s : Sched) (i : TaskId) (v : Option TaskId) :
    (s.setNext i v).ntasks = s.ntasks := rfl
@[simp] theorem setNext_close_list (s : Sched) (i : TaskId) (v : Option TaskId) :
    (s.setNext i v).close_list = s.close_list := rfl
@[simp] theorem setNext_epoll (s : Sched) (i : TaskId) (v : Option TaskId) :
    (s.setNext i v).epoll = s.epoll := rfl
@[simp] theorem setNext_now (s : Sched) (i : TaskId) (v : Option TaskId) :
    (s.setNext i v).now = s.now := rfl

@[simp] theorem setPrev_next (s : Sched) (i x : TaskId) (v : Option TaskId) :
    ((s.setPrev i v).tasks x).timeout.next = (s.tasks x).timeout.next := by
  unfold Sched.setPrev; rw [upd_tasks]; split
  · rename_i h; subst h; rfl
  · rfl
@[simp] theorem setPrev_prev (s : Sched) (i x : TaskId) (v : Option TaskId) :
    ((s.setPrev i v).tasks x).timeout.prev = if x = i then v else (s.tasks x).timeout.prev := by
  unfold Sched.setPrev; rw [upd_tasks]; split
  · rename_i h; subst h; rfl
  · rfl
@[simp] theorem setPrev_due (s : Sched) (i x : TaskId) (v : Option TaskId) :
    ((s.setPrev i v).tasks x).timeout.due = (s.tasks x).timeout.due := by
  unfold Sched.setPrev; rw [upd_tasks]; split
  · rename_i h; subst h; rfl
  · rfl
@[simp] theorem setPrev_timeouts (s : Sched) (i : TaskId) (v : Option TaskId) :
    (s.setPrev i v).timeouts = s.timeouts := rfl
@[simp] theorem setPrev_ntasks (s : Sched) (i : TaskId) (v : Option TaskId) :
    (s.setPrev i v).ntasks = s.ntasks := rfl
@[simp] theorem setPrev_close_list (s : Sched) (i : TaskId) (v : Option TaskId) :
    (s.setPrev i v).close_list = s.close_list := rfl
@[simp] theorem setPrev_epoll (s : Sched) (i : TaskId) (v : Option TaskId) :
    (s.setPrev i v).epoll = s.epoll := rfl
@[simp] theorem setPrev_now (s : Sched) (i : TaskId) (v : Option TaskId) :
    (s.setPrev i v).now = s.now := rfl

@[simp] theorem setDue_next (s : Sched) (i x : TaskId) (v : Int) :
    ((s.setDue i v).tasks x).timeout.next = (s.tasks x).timeout.next := by
  unfold Sched.setDue; rw [upd_tasks]; split
  · rename_i h; subst h; rfl
  · rfl
@[simp] theorem setDue_prev (s : Sched) (i x : TaskId) (v : Int) :
    ((s.setDue i v).tasks x).timeout.prev = (s.tasks x).timeout.prev := by
  unfold Sched.setDue; rw [upd_tasks]; split
  · rename_i h; subst h; rfl
  · rfl
@[simp] theorem setDue_due (s : Sched) (i x : TaskId) (v : Int) :
    ((s.setDue i v).tasks x).timeout.due = if x = i then v else (s.tasks x).timeout.due := by
  unfold Sched.setDue; rw [upd_tasks]; split
  · rename_i h; subst h; rfl
  · rfl
@[simp] theorem setDue_timeouts (s : Sched) (i : TaskId) (v : Int) :
    (s.setDue i v).timeouts = s.timeouts := rfl
@[simp] theorem setDue_ntasks (s : Sched) (i : TaskId) (v : Int) :
    (s.setDue i v).ntasks = s.ntasks := rfl
@[simp] theorem setDue_close_list (s : Sched) (i : TaskId) (v : Int) :
    (s.setDue i v).close_list = s.close_list := rfl
@[simp] theorem setDue_epoll (s : Sched) (i : TaskId) (v : Int) :
    (s.setDue i v).epoll = s.epoll := rfl
@[simp] theorem setDue_now (s : Sched) (i : TaskId) (v : Int) :
    (s.setDue i v).now = s.now := rfl
@[simp] theorem setTimeouts_wire (s : Sched) (v : Option TaskId) :
    (s.setTimeouts v).wire = s.wire := rfl
@[simp] theorem setNext_wire (s : Sched) (i : TaskId) (v : Option TaskId) :
    (s.setNext i v).wire = s.wire := rfl
@[simp] theorem setPrev_wire (s : Sched) (i : TaskId) (v : Option TaskId) :
    (s.setPrev i v).wire = s.wire := rfl
@[simp] theorem setDue_wire (s : Sched) (i : TaskId) (v : Int) :
    (s.setDue i v).wire = s.wire := rfl
@[simp] theorem setTimeouts_script (s : Sched) (v : Option TaskId) :
    (s.setTimeouts v).script = s.script := rfl
@[simp] theorem setNext_script (s : Sched) (i : TaskId) (v : Option TaskId) :
    (s.setNext i v).script = s.script := rfl
@[simp] theorem setPrev_script (s : Sched) (i : TaskId) (v : Option TaskId) :
    (s.setPrev i v).script = s.script := rfl
@[simp] theorem setDue_script (s : Sched) (i : TaskId) (v : Int) :
    (s.setDue i v).script = s.script := rfl
@[simp] theorem setTimeouts_mem (s : Sched) (v : Option TaskId) :
    (s.setTimeouts v).mem = s.mem := rfl
@[simp] theorem setNext_mem (s : Sched) (i : TaskId) (v : Option TaskId) :
    (s.setNext i v).mem = s.mem := rfl
@[simp] theorem setPrev_mem (s : Sched) (i : TaskId) (v : Option TaskId) :
    (s.setPrev i v).mem = s.mem := rfl
@[simp] theorem setDue_mem (s : Sched) (i : TaskId) (v : Int) :
    (s.setDue i v).mem = s.mem := rfl
@[simp] theorem setTimeouts_shut_rd (s : Sched) (v : Option TaskId) :
    (s.setTimeouts v).shut_rd = s.shut_rd := rfl
@[simp] theorem setNext_shut_rd (s : Sched) (i : TaskId) (v : Option TaskId) :
    (s.setNext i v).shut_rd = s.shut_rd := rfl
@[simp] theorem setPrev_shut_rd (s : Sched) (i : TaskId) (v : Option TaskId) :
    (s.setPrev i v).shut_rd = s.shut_rd := rfl
@[simp] theorem setDue_shut_rd (s : Sched) (i : TaskId) (v : Int) :
    (s.setDue i v).shut_rd = s.shut_rd := rfl
@[simp] theorem setTimeouts_timeouts_enabled (s : Sched) (v : Option TaskId) :
    (s.setTimeouts v).timeouts_enabled = s.timeouts_enabled := rfl
@[simp] theorem setNext_timeouts_enabled (s : Sched) (i : TaskId) (v : Option TaskId) :
    (s.setNext i v).timeouts_enabled = s.timeouts_enabled := rfl
@[simp] theorem setPrev_timeouts_enabled (s : Sched) (i : TaskId) (v : Option TaskId) :
    (s.setPrev i v).timeouts_enabled = s.timeouts_enabled := rfl
@[simp] theorem setDue_timeouts_enabled (s : Sched) (i : TaskId) (v : Int) :
    (s.setDue i v).timeouts_enabled = s.timeouts_enabled := rfl

/-! ## Neighbours in a duplicate-free list -/

theorem nextIn_not_mem {L : List TaskId} {x : TaskId} (h : x ∉ L) : nextIn L x = none := by
  induction L with
  | nil => rfl
  | cons y ys ih =>
    simp only [List.mem_cons, not_or] at h
    simp [nextIn, Ne.symm h.1, ih h.2]

theorem prevIn_not_mem {L : List TaskId} {x : TaskId} (h : x ∉ L) : prevIn L x = none := by
  induction L with
  | nil => rfl
  | cons y ys ih =>
    simp only [List.mem_cons, not_or] at h
    have : ys.head? ≠ some x := fun e => h.2 (List.mem_of_mem_head? e)
    simp [prevIn, this, ih h.2]

theorem nextIn_mem {L : List TaskId} {x y : TaskId} (h : nextIn L x = some y) :
    x ∈ L ∧ y ∈ L := by
  induction L with
  | nil => simp [nextIn] at h
  | cons z zs ih =>
    simp only [nextIn] at h
    split at h
    · rename_i hz
      exact ⟨by simp [hz], List.mem_cons_of_mem _ (List.mem_of_mem_head? h)⟩
    · exact ⟨List.mem_cons_of_mem _ (ih h).1, List.mem_cons_of_mem _ (ih h).2⟩

theorem prevIn_mem {L : List TaskId} {x y : TaskId} (h : prevIn L x = some y) :
    x ∈ L ∧ y ∈ L := by
  induction L with
  | nil => simp [prevIn] at h
  | cons z zs ih =>
    simp only [prevIn] at h
    split at h
    · rename_i hz
      simp only [Option.some.injEq] at h
      exact ⟨List.mem_cons_of_mem _ (List.mem_of_mem_head? hz), by simp [h]⟩
    · exact ⟨List.mem_cons_of_mem _ (ih h).1, List.mem_cons_of_mem _ (ih h).2⟩

theorem prevIn_head {x : TaskId} {zs : List TaskId} (h : (x :: zs).Nodup) :
    prevIn (x :: zs) x = none := by
  have hx : x ∉ zs := (List.nodup_cons.mp h).1
  have : zs.head? ≠ some x := fun e => hx (List.mem_of_mem_head? e)
  simp [prevIn, this, prevIn_not_mem hx]

theorem nextIn_ne {L : List TaskId} (hL : L.Nodup) {x y : TaskId} (h : nextIn L x = some y) :
    x ≠ y := by
  induction L with
  | nil => simp [nextIn] at h
  | cons z zs ih =>
    have hz : z ∉ zs := (List.nodup_cons.mp hL).1
    simp only [nextIn] at h
    split at h
    · rename_i e
      subst e
      intro e
      subst e
      exact hz (List.mem_of_mem_head? h)
    · exact ih (List.nodup_cons.mp hL).2 h

theorem next_iff_prev {L : List TaskId} (hL : L.Nodup) {x y : TaskId} :
    nextIn L x = some y ↔ prevIn L y = some x := by
  induction L with
  | nil => simp [nextIn, prevIn]
  | cons z zs ih =>
    have hz : z ∉ zs := (List.nodup_cons.mp hL).1
    have ih' := ih (List.nodup_cons.mp hL).2
    simp only [nextIn, prevIn]
    by_cases hzx : z = x
    · subst hzx
      simp only [if_true]
      by_cases hh : zs.head? = some y
      · simp [hh]
      · simp only [hh, if_false, false_iff]
        intro hp
        exact hz (prevIn_mem hp).2
    · simp only [hzx, if_false]
      by_cases hh : zs.head? = some y
      · simp only [hh, if_true, Option.some.injEq, hzx, iff_false]
        intro hn
        -- y is the head of zs, so it cannot be a successor inside zs
        have := ih'.mp hn
        cases zs with
        | nil => simp at hh
        | cons w ws =>
          simp only [List.head?_cons, Option.some.injEq] at hh
          subst hh
          rw [prevIn_head (List.nodup_cons.mp hL).2] at this
          exact absurd this (by simp)
      · simp only [hh, if_false]
        exact ih'

theorem head?_erase (L : List TaskId) (t : TaskId) :
    (L.erase t).head? = if L.head? = some t then nextIn L t else L.head? := by
  cases L with
  | nil => simp
  | cons y ys =>
    by_cases h : y = t
    · subst h; simp [nextIn]
    · have h' : ¬ (y == t) = true := by simpa using h
      simp [List.erase_cons, h, h']

theorem nextIn_erase {L : List TaskId} (hL : L.Nodup) (t x : TaskId) :
    nextIn (L.erase t) x =
      if x = t then none else if nextIn L x = some t then nextIn L t else nextIn L x := by
  induction L with
  | nil => simp [nextIn]
  | cons y ys ih =>
    have hy : y ∉ ys := (List.nodup_cons.mp hL).1
    have ih' := ih (List.nodup_cons.mp hL).2
    by_cases h : y = t
    · subst h
      simp only [List.erase_cons_head]
      by_cases hx : x = y
      · subst hx; simp [nextIn_not_mem hy]
      · have hne : nextIn ys x ≠ some y := fun e => hy (nextIn_mem e).2
        simp [nextIn, hx, Ne.symm hx, hne]
    · have h' : ¬ (y == t) = true := by simpa using h
      simp only [List.erase_cons, h', if_false, nextIn, h]
      by_cases hx : y = x
      · subst hx
        simp [h, head?_erase]
      · simp only [hx, if_false]
        exact ih'

theorem prevIn_erase {L : List TaskId} (hL : L.Nodup) (t x : TaskId) :
    prevIn (L.erase t) x =
      if x = t then none else if prevIn L x = some t then prevIn L t else prevIn L x := by
  induction L with
  | nil => simp [prevIn]
  | cons y ys ih =>
    have hy : y ∉ ys := (List.nodup_cons.mp hL).1
    have hys := (List.nodup_cons.mp hL).2
    have ih' := ih hys
    by_cases h : y = t
    · subst h
      simp only [List.erase_cons_head]
      by_cases hx : x = y
      · subst hx; simp [prevIn_not_mem hy]
      · simp only [hx, if_false, prevIn]
        have hh : ys.head? ≠ some y := fun e => hy (List.mem_of_mem_head? e)
        by_cases hxh : ys.head? = some x
        · simp only [hxh, if_true, hh, if_false, prevIn_not_mem hy]
          cases ys with
          | nil => simp at hxh
          | cons w ws =>
            simp only [List.head?_cons, Option.some.injEq] at hxh
            subst hxh
            have hwy : (some w : Option TaskId) ≠ some y := by simpa using hx
            simp [hwy, prevIn_head hys]
        · have hne : prevIn ys x ≠ some y := fun e => hy (prevIn_mem e).2
          simp [hxh, hne]
    · have h' : ¬ (y == t) = true := by simpa using h
      simp only [List.erase_cons, h', if_false, prevIn, head?_erase]
      by_cases hx : x = t
      · subst hx
        have : nextIn ys x ≠ some x := fun e => nextIn_ne hys e rfl
        by_cases hh : ys.head? = some x
        · simp [hh, this, ih']
        · simp [hh, ih']
      · simp only [hx, if_false]
        by_cases hh : ys.head? = some t
        · simp only [hh, if_true]
          have hxt : some t ≠ some x := by simpa using Ne.symm hx
          simp only [hxt, if_false]
          by_cases hn : nextIn ys t = some x
          · have hp := (next_iff_prev hys).mp hn
            simp [hn, hp, ih', hx, hh]
          · have hp : prevIn ys x ≠ some t := fun e => hn ((next_iff_prev hys).mpr e)
            simp only [hn, if_false, ih', hx, hp]
        · simp only [hh, if_false]
          by_cases hxh : ys.head? = some x
          · simp [hxh, h]
          · simp only [hxh, if_false, ih', hx]

/-! ## `Task::unlink_timeout` on a well-formed timeout list -/

theorem core_setNext (s : Sched) (i x : TaskId) (v : Option TaskId) :
    ((s.setNext i v).tasks x).core = (s.tasks x).core := by
  unfold Sched.setNext; rw [upd_tasks]; split
  · rename_i h; subst h; rfl
  · rfl

theorem core_setPrev (s : Sched) (i x : TaskId) (v : Option TaskId) :
    ((s.setPrev i v).tasks x).core = (s.tasks x).core := by
  unfold Sched.setPrev; rw [upd_tasks]; split
  · rename_i h; subst h; rfl
  · rfl

theorem core_setDue (s : Sched) (i x : TaskId) (v : Int) :
    ((s.setDue i v).tasks x).core = (s.tasks x).core := by
  unfold Sched.setDue; rw [upd_tasks]; split
  · rename_i h; subst h; rfl
  · rfl

theorem unlink_timeout_next (s : Sched) (t x : TaskId) :
    ((Task.unlink_timeout t s).tasks x).timeout.next =
      if x = t then none
      else if (s.tasks t).timeout.prev = some x then (s.tasks t).timeout.next
      else (s.tasks x).timeout.next := by
  unfold Task.unlink_timeout
  cases hp : (s.tasks t).timeout.prev <;> cases hn : (s.tasks t).timeout.next <;>
    simp [ite_tasks, hp, hn, eq_comm]

theorem unlink_timeout_prev (s : Sched) (t x : TaskId) :
    ((Task.unlink_timeout t s).tasks x).timeout.prev =
      if x = t then none
      else if (s.tasks t).timeout.next = some x then (s.tasks t).timeout.prev
      else (s.tasks x).timeout.prev := by
  unfold Task.unlink_timeout
  cases hp : (s.tasks t).timeout.prev <;> cases hn : (s.tasks t).timeout.next <;>
    simp [ite_tasks, hp, hn, eq_comm]

theorem unlink_timeout_due (s : Sched) (t x : TaskId) :
    ((Task.unlink_timeout t s).tasks x).timeout.due =
      if x = t then 0 else (s.tasks x).timeout.due := by
  unfold Task.unlink_timeout
  cases hp : (s.tasks t).timeout.prev <;> cases hn : (s.tasks t).timeout.next <;>
    simp [ite_tasks, hp, hn]

theorem unlink_timeout_timeouts (s : Sched) (t : TaskId) :
    (Task.unlink_timeout t s).timeouts =
      if s.timeouts = some t then (s.tasks t).timeout.next else s.timeouts := by
  unfold Task.unlink_timeout
  cases hp : (s.tasks t).timeout.prev <;> cases hn : (s.tasks t).timeout.next <;>
    by_cases hh : s.timeouts = some t <;> simp [hp, hn, hh, eq_comm]

theorem unlink_timeout_core (s : Sched) (t x : TaskId) :
    ((Task.unlink_timeout t s).tasks x).core = (s.tasks x).core := by
  unfold Task.unlink_timeout
  cases hp : (s.tasks t).timeout.prev <;> cases hn : (s.tasks t).timeout.next <;>
    simp [ite_tasks, hp, hn, core_setNext, core_setPrev, core_setDue]

theorem unlink_timeout_ntasks (s : Sched) (t : TaskId) :
    (Task.unlink_timeout t s).ntasks = s.ntasks := by
  unfold Task.unlink_timeout
  cases hp : (s.tasks t).timeout.prev <;> cases hn : (s.tasks t).timeout.next <;>
    by_cases hh : some t = s.timeouts <;> simp [hp, hn, hh]

theorem unlink_timeout_close_list (s : Sched) (t : TaskId) :
    (Task.unlink_timeout t s).close_list = s.close_list := by
  unfold Task.unlink_timeout
  cases hp : (s.tasks t).timeout.prev <;> cases hn : (s.tasks t).timeout.next <;>
    by_cases hh : some t = s.timeouts <;> simp [hp, hn, hh]

theorem unlink_timeout_epoll (s : Sched) (t : TaskId) :
    (Task.unlink_timeout t s).epoll = s.epoll := by
  unfold Task.unlink_timeout
  cases hp : (s.tasks t).timeout.prev <;> cases hn : (s.tasks t).timeout.next <;>
    by_cases hh : some t = s.timeouts <;> simp [hp, hn, hh]

theorem unlink_timeout_now (s : Sched) (t : TaskId) :
    (Task.unlink_timeout t s).now = s.now := by
  unfold Task.unlink_timeout
  cases hp : (s.tasks t).timeout.prev <;> cases hn : (s.tasks t).timeout.next <;>
    by_cases hh : some t = s.timeouts <;> simp [hp, hn, hh]

theorem unlink_timeout_timeouts_enabled (s : Sched) (t : TaskId) :
    (Task.unlink_timeout t s).timeouts_enabled = s.timeouts_enabled := by
  unfold Task.unlink_timeout
  cases hp : (s.tasks t).timeout.prev <;> cases hn : (s.tasks t).timeout.next <;>
    by_cases hh : some t = s.timeouts <;> simp [hp, hn, hh]

theorem unlink_timeout_wire (s : Sched) (t : TaskId) :
    (Task.unlink_timeout t s).wire = s.wire := by
  unfold Task.unlink_timeout
  cases hp : (s.tasks t).timeout.prev <;> cases hn : (s.tasks t).timeout.next <;>
    by_cases hh : some t = s.timeouts <;> simp [hp, hn, hh]

theorem unlink_timeout_script (s : Sched) (t : TaskId) :
    (Task.unlink_timeout t s).script = s.script := by
  unfold Task.unlink_timeout
  cases hp : (s.tasks t).timeout.prev <;> cases hn : (s.tasks t).timeout.next <;>
    by_cases hh : some t = s.timeouts <;> simp [hp, hn, hh]

theorem unlink_timeout_mem (s : Sched) (t : TaskId) :
    (Task.unlink_timeout t s).mem = s.mem := by
  unfold Task.unlink_timeout
  cases hp : (s.tasks t).timeout.prev <;> cases hn : (s.tasks t).timeout.next <;>
    by_cases hh : some t = s.timeouts <;> simp [hp, hn, hh]

theorem unlink_timeout_shut_rd (s : Sched) (t : TaskId) :
    (Task.unlink_timeout t s).shut_rd = s.shut_rd := by
  unfold Task.unlink_timeout
  cases hp : (s.tasks t).timeout.prev <;> cases hn : (s.tasks t).timeout.next <;>
    by_cases hh : some t = s.timeouts <;> simp [hp, hn, hh]

theorem TimeoutWF.unlink {s : Sched} {L : List TaskId} (h : TimeoutWF s L) (t : TaskId) :
    TimeoutWF (Task.unlink_timeout t s) (L.erase t) := by
  refine ⟨h.nodup.erase t, ?_, ?_, ?_, ?_⟩
  · rw [unlink_timeout_timeouts, head?_erase, h.head, h.next]
  · intro x
    rw [unlink_timeout_next, nextIn_erase h.nodup, h.next, h.prev, h.next]
    by_cases hx : x = t
    · simp [hx]
    · simp only [hx, if_false]
      by_cases hp : prevIn L t = some x
      · simp [hp, (next_iff_prev h.nodup).mpr hp]
      · have : nextIn L x ≠ some t := fun e => hp ((next_iff_prev h.nodup).mp e)
        simp [hp, this]
  · intro x
    rw [unlink_timeout_prev, prevIn_erase h.nodup, h.next, h.prev, h.prev]
    by_cases hx : x = t
    · simp [hx]
    · simp only [hx, if_false]
      by_cases hn : nextIn L t = some x
      · simp [hn, (next_iff_prev h.nodup).mp hn]
      · have : prevIn L x ≠ some t := fun e => hn ((next_iff_prev h.nodup).mpr e)
        simp [hn, this]
  · intro x hx
    rw [unlink_timeout_ntasks]
    exact h.alloc x (List.mem_of_mem_erase hx)

/-! ## Induction over the recursion of `Task::close` -/

theorem Res.bind_ok {α β : Type} (a : α) (s : Sched) (k : α → Sched → Res β) :
    (Res.ok a s).bind k = k a s := rfl
theorem Res.bind_throw {α β : Type} (e : Exn) (s : Sched) (k : α → Sched → Res β) :
    (Res.throw (α := α) e s).bind k = Res.throw e s := rfl
theorem Res.bind_diverge {α β : Type} (k : α → Sched → Res β) :
    (Res.diverge (α := α)).bind k = Res.diverge := rfl

/-- The parent branch of `Task::close` (lines 204-208). -/
theorem closeGo_task (fuel : Nat) (t : TaskId) (s : Sched) :
    Task.closeGo (fuel + 1) (.task t) s =
      if (s.tasks t).closed then .ok () s
      else
        (Task.closeStart t s).bind fun _ s3 =>
        (Task.closeGo fuel (.children (s3.tasks t).tree_first_child) s3).bind fun _ s4 =>
        (match (s4.tasks t).tree_parent with
          | none => Res.ok () s4
          | some parent =>
            match Task.rootOf (s4.ntasks + 1) parent s4 with
            | none => Res.diverge
            | some root => Task.closeGo fuel (.task root) s4).bind fun _ s5 =>
        .ok () (Task.closeFinish t s5) := by
  rfl

theorem closeGo_children_some (fuel : Nat) (c : TaskId) (s : Sched) :
    Task.closeGo (fuel + 1) (.children (some c)) s =
      (Task.closeGo fuel (.task c) s).bind fun _ s1 =>
        Task.closeGo fuel (.children (s1.tasks c).tree_next_sibling) s1 := by
  rfl

/-- A relation between the state before and after that holds across `closeStart` and that
`closeFinish` extends holds across every call of `Task::close`, also one that throws. -/
theorem closeGo_rel (P : Sched → Sched → Prop)
    (hrefl : ∀ s, P s s)
    (htrans : ∀ a b c, P a b → P b c → P a c)
    (hstart : ∀ t s s3, (s.tasks t).closed = false →
      (Task.closeStart t s).state? = some s3 → P s s3)
    (hfin : ∀ t s s3 s5, (s.tasks t).closed = false → Task.closeStart t s = .ok () s3 →
      P s s3 → P s3 s5 → P s (Task.closeFinish t s5)) :
    ∀ fuel c s s', (Task.closeGo fuel c s).state? = some s' → P s s' := by
  intro fuel
  induction fuel with
  | zero => intro c s s' h; simp [Task.closeGo, Res.state?] at h
  | succ n ih =>
    intro c s s' h
    cases c with
    | children c =>
      cases c with
      | none =>
        simp only [Task.closeGo, Res.state?, Option.some.injEq] at h
        subst h; exact hrefl s
      | some c =>
        rw [closeGo_children_some] at h
        cases h1 : Task.closeGo n (.task c) s with
        | diverge => simp [h1, Res.bind, Res.state?] at h
        | throw e s1 =>
          simp only [h1, Res.bind, Res.state?, Option.some.injEq] at h
          subst h
          exact ih (.task c) s s1 (by rw [h1]; rfl)
        | ok u s1 =>
          have p1 : P s s1 := ih (.task c) s s1 (by rw [h1]; rfl)
          simp only [h1, Res.bind] at h
          exact htrans _ _ _ p1 (ih _ _ _ h)
    | task t =>
      rw [closeGo_task] at h
      by_cases hc : (s.tasks t).closed = true
      · rw [if_pos hc] at h
        simp only [Res.state?, Option.some.injEq] at h
        subst h; exact hrefl s
      · have hc' : (s.tasks t).closed = false := by simpa using hc
        rw [if_neg hc] at h
        cases h0 : Task.closeStart t s with
        | diverge => simp [h0, Res.bind, Res.state?] at h
        | throw e s3 =>
          simp only [h0, Res.bind, Res.state?, Option.some.injEq] at h
          subst h
          exact hstart t s s3 hc' (by rw [h0]; rfl)
        | ok u s3 =>
          have p0 : P s s3 := hstart t s s3 hc' (by rw [h0]; rfl)
          simp only [h0, Res.bind_ok] at h
          cases h1 : Task.closeGo n (.children (s3.tasks t).tree_first_child) s3 with
          | diverge => simp [h1, Res.bind, Res.state?] at h
          | throw e s4 =>
            simp only [h1, Res.bind, Res.state?, Option.some.injEq] at h
            subst h
            exact htrans _ _ _ p0 (ih _ s3 s4 (by rw [h1]; rfl))
          | ok u s4 =>
            have p1 : P s3 s4 := ih _ s3 s4 (by rw [h1]; rfl)
            simp only [h1, Res.bind_ok] at h
            cases hp : (s4.tasks t).tree_parent with
            | none =>
              simp only [hp, Res.bind_ok, Res.state?, Option.some.injEq] at h
              subst h
              exact hfin t s s3 s4 hc' h0 p0 p1
            | some p =>
              simp only [hp] at h
              cases hr : Task.rootOf (s4.ntasks + 1) p s4 with
              | none => simp [hr, Res.bind, Res.state?] at h
              | some r =>
                simp only [hr] at h
                cases h2 : Task.closeGo n (.task r) s4 with
                | diverge => simp [h2, Res.bind, Res.state?] at h
                | throw e s5 =>
                  simp only [h2, Res.bind, Res.state?, Option.some.injEq] at h
                  subst h
                  exact htrans _ _ _ p0 (htrans _ _ _ p1 (ih _ s4 s5 (by rw [h2]; rfl)))
                | ok u s5 =>
                  have p2 : P s4 s5 := ih _ s4 s5 (by rw [h2]; rfl)
                  simp only [h2, Res.bind_ok, Res.state?, Option.some.injEq] at h
                  subst h
                  exact hfin t s s3 s5 hc' h0 p0 (htrans _ _ _ p1 p2)

/-- A reflexive, transitive relation that `closeFinish` extends from the state after
`closeStart` holds across every call of `Task::close` that returns. -/
theorem closeGo_rel_ok (P : Sched → Sched → Prop)
    (hrefl : ∀ s, P s s)
    (htrans : ∀ a b c, P a b → P b c → P a c)
    (hfin : ∀ t s s3 s5, (s.tasks t).closed = false → Task.closeStart t s = .ok () s3 →
      P s3 s5 → P s (Task.closeFinish t s5)) :
    ∀ fuel c s s', Task.closeGo fuel c s = .ok () s' → P s s' := by
  intro fuel
  induction fuel with
  | zero => intro c s s' h; simp [Task.closeGo] at h
  | succ n ih =>
    intro c s s' h
    cases c with
    | children c =>
      cases c with
      | none =>
        simp only [Task.closeGo, Res.ok.injEq, true_and] at h
        subst h; exact hrefl s
      | some c =>
        rw [closeGo_children_some] at h
        cases h1 : Task.closeGo n (.task c) s with
        | diverge => simp [h1, Res.bind] at h
        | throw e s1 => simp [h1, Res.bind] at h
        | ok u s1 =>
          simp only [h1, Res.bind] at h
          exact htrans _ _ _ (ih _ _ _ h1) (ih _ _ _ h)
    | task t =>
      rw [closeGo_task] at h
      by_cases hc : (s.tasks t).closed = true
      · rw [if_pos hc] at h
        simp only [Res.ok.injEq, true_and] at h
        subst h; exact hrefl s
      · have hc' : (s.tasks t).closed = false := by simpa using hc
        rw [if_neg hc] at h
        cases h0 : Task.closeStart t s with
        | diverge => simp [h0, Res.bind] at h
        | throw e s3 => simp [h0, Res.bind] at h
        | ok u s3 =>
          simp only [h0, Res.bind_ok] at h
          cases h1 : Task.closeGo n (.children (s3.tasks t).tree_first_child) s3 with
          | diverge => simp [h1, Res.bind] at h
          | throw e s4 => simp [h1, Res.bind] at h
          | ok u s4 =>
            have p1 : P s3 s4 := ih _ _ _ h1
            simp only [h1, Res.bind_ok] at h
            cases hp : (s4.tasks t).tree_parent with
            | none =>
              simp only [hp, Res.bind_ok, Res.ok.injEq, true_and] at h
              subst h
              exact hfin t s s3 s4 hc' h0 p1
            | some p =>
              simp only [hp] at h
              cases hr : Task.rootOf (s4.ntasks + 1) p s4 with
              | none => simp [hr, Res.bind] at h
              | some r =>
                simp only [hr] at h
                cases h2 : Task.closeGo n (.task r) s4 with
                | diverge => simp [h2, Res.bind] at h
                | throw e s5 => simp [h2, Res.bind] at h
                | ok u s5 =>
                  simp only [h2, Res.bind_ok, Res.ok.injEq, true_and] at h
                  subst h
                  exact hfin t s s3 s5 hc' h0 (htrans _ _ _ p1 (ih _ _ _ h2))

/-! ## The two ends of `Task::close` -/

theorem not32_all : not32 (UINT32 - 1) = 0 := by decide


theorem closeStart_cases (t : TaskId) (s : Sched) :
    (Task.closeStart t s = .ok ()
        ((if (s.tasks t).fd = -1 then s else s.setEpoll (s.tasks t).fd none).upd t
          (fun T => startedTask T false))) ∨
    (Task.closeStart t s = .throw .cError (s.upd t (fun T => startedTask T true)) ∧
      (s.tasks t).fd ≠ -1 ∧ (s.tasks t).events ≠ 0 ∧
      ((s.tasks t).fd < 0 ∨ s.epoll (s.tasks t).fd = none)) := by
  unfold Task.closeStart Task.close_fd Task.unschedule
  by_cases hfd : (s.tasks t).fd = -1
  · left
    simp [hfd, startedTask, upd_upd]
    apply upd_congr; simp [hfd]
  · by_cases hev : (s.tasks t).events = 0
    · left
      simp [hfd, hev, startedTask, upd_upd, Res.bind, sys_close, setEpoll_upd, setEpoll_setEpoll]
      apply upd_congr; simp [hfd, hev]
    · by_cases hneg : (s.tasks t).fd < 0
      · right
        simp [hfd, hev, hneg, startedTask, upd_upd, Res.bind, epoll_ctl, not32_all, sys_close, setEpoll_upd, setEpoll_setEpoll]
        apply upd_congr; simp [hfd, hev]
      · cases hreg : s.epoll (s.tasks t).fd with
        | none =>
          right
          simp [hfd, hev, hneg, hreg, startedTask, upd_upd, Res.bind, epoll_ctl, not32_all, sys_close, setEpoll_upd, setEpoll_setEpoll]
          try (apply upd_congr; simp [hfd, hev])
        | some m =>
          left
          simp [hfd, hev, hneg, hreg, startedTask, upd_upd, Res.bind, epoll_ctl, not32_all, sys_close, setEpoll_upd, setEpoll_setEpoll]
          try (apply upd_congr; simp [hfd, hev])

theorem closeFinish_core (t i : TaskId) (s : Sched) :
    ((Task.closeFinish t s).tasks i).core =
      if i = t then { (s.tasks t).core with next_close := s.close_list, fd := -1 }
      else (s.tasks i).core := by
  unfold Task.closeFinish
  by_cases h : i = t
  · subst h
    simp only [upd_tasks_same, if_true]
    have := unlink_timeout_core ((s.upd i fun T => { T with next_close := s.close_list }).setCloseList (some i)) i i
    simp only [setCloseList_tasks, upd_tasks_same] at this
    show ({ ((Task.unlink_timeout i _).tasks i) with fd := -1 } : Task).core = _
    have h2 : ∀ T : Task, ({ T with fd := -1 } : Task).core = { T.core with fd := -1 } := fun _ => rfl
    rw [h2, this]
    rfl
  · simp only [h, if_false, upd_tasks_ne _ _ h]
    rw [unlink_timeout_core]
    simp [h]

theorem closeFinish_due (t i : TaskId) (s : Sched) :
    ((Task.closeFinish t s).tasks i).timeout.due = if i = t then 0 else (s.tasks i).timeout.due := by
  unfold Task.closeFinish
  by_cases h : i = t
  · subst h
    simp only [upd_tasks_same, if_true]
    show ((Task.unlink_timeout i _).tasks i).timeout.due = 0
    rw [unlink_timeout_due]; simp
  · simp only [h, if_false, upd_tasks_ne _ _ h]
    rw [unlink_timeout_due]
    simp [h]

theorem core_closed (T T' : Task) (h : T'.core = T.core) : T'.closed = T.closed := by
  have := congrArg Task.closed h
  simpa [Task.core] using this

theorem closeFinish_closed (t i : TaskId) (s : Sched) :
    ((Task.closeFinish t s).tasks i).closed = (s.tasks i).closed := by
  have := congrArg Task.closed (closeFinish_core t i s)
  by_cases h : i = t
  · subst h; simpa [Task.core] using this
  · simpa [Task.core, h] using this

theorem closeFinish_tree (t i : TaskId) (s : Sched) :
    ((Task.closeFinish t s).tasks i).tree_parent = (s.tasks i).tree_parent ∧
    ((Task.closeFinish t s).tasks i).tree_first_child = (s.tasks i).tree_first_child ∧
    ((Task.closeFinish t s).tasks i).tree_next_sibling = (s.tasks i).tree_next_sibling := by
  have h1 := congrArg Task.tree_parent (closeFinish_core t i s)
  have h2 := congrArg Task.tree_first_child (closeFinish_core t i s)
  have h3 := congrArg Task.tree_next_sibling (closeFinish_core t i s)
  by_cases h : i = t
  · subst h
    simp only [Task.core, if_true] at h1 h2 h3
    exact ⟨h1, h2, h3⟩
  · simp only [Task.core, h, if_false] at h1 h2 h3
    exact ⟨h1, h2, h3⟩

theorem CloseStep.step_refl (T : Task) : CloseStep T T :=
  ⟨rfl, rfl, rfl, fun h => h, fun _ => ⟨rfl, rfl⟩⟩

theorem CloseStep.step_trans {A B C : Task} (h1 : CloseStep A B) (h2 : CloseStep B C) :
    CloseStep A C := by
  refine ⟨h2.tree_parent.trans h1.tree_parent, h2.tree_first_child.trans h1.tree_first_child,
    h2.tree_next_sibling.trans h1.tree_next_sibling, fun h => h2.closed_mono (h1.closed_mono h), ?_⟩
  intro h
  have hb : B.closed = A.closed := by
    cases ha : A.closed
    · cases hb : B.closed
      · rfl
      · have := h2.closed_mono hb; rw [h, ha] at this; exact absurd this (by simp)
    · exact h1.closed_mono ha
  have hc : C.closed = B.closed := h.trans hb.symm
  exact ⟨(h2.same hc).1.trans (h1.same hb).1, (h2.same hc).2.trans (h1.same hb).2⟩

theorem CloseFrame.frame_refl (s : Sched) : CloseFrame s s :=
  ⟨rfl, rfl, rfl, rfl, rfl, rfl, rfl, fun _ => CloseStep.step_refl _⟩

theorem CloseFrame.frame_trans {a b c : Sched} (h1 : CloseFrame a b) (h2 : CloseFrame b c) :
    CloseFrame a c :=
  ⟨h2.ntasks.trans h1.ntasks, h2.now.trans h1.now,
    h2.timeouts_enabled.trans h1.timeouts_enabled, h2.wire.trans h1.wire,
    h2.script.trans h1.script, h2.mem.trans h1.mem, h2.shut_rd.trans h1.shut_rd,
    fun i => (h1.step i).step_trans (h2.step i)⟩

theorem closeStart_frame (t : TaskId) (s s3 : Sched) (hc : (s.tasks t).closed = false)
    (h : (Task.closeStart t s).state? = some s3) : CloseFrame s s3 := by
  have key : ∀ (e : Sched) (b : Bool), e.tasks = s.tasks → e.ntasks = s.ntasks → e.now = s.now →
      e.timeouts_enabled = s.timeouts_enabled → e.wire = s.wire → e.script = s.script →
      e.mem = s.mem → e.shut_rd = s.shut_rd →
      CloseFrame s (e.upd t (fun T => startedTask T b)) := by
    intro e b h1 h2 h3 h4 h5 h6 h7 h8
    refine ⟨by simpa using h2, by simpa using h3, by simpa using h4, by simpa using h5,
      by simpa using h6, by simpa using h7, by simpa using h8, ?_⟩
    intro i
    by_cases hi : i = t
    · subst hi
      simp only [upd_tasks_same, h1]
      exact ⟨rfl, rfl, rfl, fun _ => rfl, fun hh => by simp [startedTask, hc] at hh⟩
    · simp only [upd_tasks_ne _ _ hi, h1]
      exact CloseStep.step_refl _
  rcases closeStart_cases t s with h0 | ⟨h0, -⟩
  · rw [h0] at h
    simp only [Res.state?, Option.some.injEq] at h
    subst h
    by_cases hfd : (s.tasks t).fd = -1
    · rw [if_pos hfd]; exact key s false rfl rfl rfl rfl rfl rfl rfl rfl
    · rw [if_neg hfd]; exact key _ false rfl rfl rfl rfl rfl rfl rfl rfl
  · rw [h0] at h
    simp only [Res.state?, Option.some.injEq] at h
    subst h
    exact key s true rfl rfl rfl rfl rfl rfl rfl rfl

/-! ## C1: schedule / unschedule -/

/-- C1 (as stated, refuted): starting from interest 0 on a valid descriptor,
`schedule(EPOLLIN|EPOLLET); schedule(0); unschedule(EPOLLIN)` leaves interest `0`, while
`(m1 | m2) & ~m3` is `EPOLLET`. -/
theorem C1_counterexample :
    (schedule_schedule_unschedule 0 (EPOLLIN ||| EPOLLET) 0 EPOLLIN (oneTask 5)).events 0
        = some 0 ∧
      ((EPOLLIN ||| EPOLLET) ||| 0) &&& not32 EPOLLIN = EPOLLET ∧
      (schedule_schedule_unschedule 0 (EPOLLIN ||| EPOLLET) 0 EPOLLIN (oneTask 5)).events 0
        ≠ some (((EPOLLIN ||| EPOLLET) ||| 0) &&& not32 EPOLLIN) := by
  decide

/-- C1 (amended): for a task with a valid, not yet registered descriptor and interest 0, and
masks with `m1 ≠ 0`, the calls `schedule(m1); schedule(m2); unschedule(m3)` all return; the
final interest is `(m1 | m2) & ~m3` when that value has a bit other than `EPOLLET` and `0`
otherwise; and the epoll instance holds exactly that interest for the descriptor (no
registration when it is `0`). -/
theorem C1_schedule_schedule_unschedule (s : Sched) (t : TaskId) (m1 m2 m3 : Nat)
    (hfd : 0 ≤ (s.tasks t).fd) (h0 : (s.tasks t).events = 0)
    (hreg : s.epoll (s.tasks t).fd = none) (hm1 : m1 ≠ 0) :
    ∃ s', schedule_schedule_unschedule t m1 m2 m3 s = .ok () s' ∧
      (s'.tasks t).events =
        (if not32 EPOLLET &&& ((m1 ||| m2) &&& not32 m3) = 0 then 0
         else (m1 ||| m2) &&& not32 m3) ∧
      s'.epoll (s.tasks t).fd =
        (if (s'.tasks t).events = 0 then none else some (s'.tasks t).events) := by
  have hnf : ¬ (s.tasks t).fd < 0 := not_lt.mpr hfd
  have h12 : m1 ||| m2 ≠ 0 := by
    intro h
    apply hm1
    apply Nat.eq_of_testBit_eq
    intro i
    have := congrArg (fun x => Nat.testBit x i) h
    simp [Nat.testBit_lor] at this
    simp [this.1]
  by_cases hrem : not32 EPOLLET &&& ((m1 ||| m2) &&& not32 m3) = 0
  · simp [schedule_schedule_unschedule, Task.schedule, Task.unschedule, Res.bind, Sched.upd,
      epoll_ctl, Sched.setEpoll, h0, hnf, hreg, hm1, h12, hrem]
  · have hne : (m1 ||| m2) &&& not32 m3 ≠ 0 := by
      intro h; apply hrem; rw [h]; simp
    simp [schedule_schedule_unschedule, Task.schedule, Task.unschedule, Res.bind, Sched.upd,
      epoll_ctl, Sched.setEpoll, h0, hnf, hreg, hm1, h12, hrem, hne]

/-- C1 witness: the amended statement at `m1 = EPOLLIN|EPOLLET`, `m2 = EPOLLOUT`,
`m3 = EPOLLIN` on a fresh task with descriptor 5. -/
theorem C1_schedule_schedule_unschedule_witness :
    ∃ s', schedule_schedule_unschedule 0 (EPOLLIN ||| EPOLLET) EPOLLOUT EPOLLIN (oneTask 5)
        = .ok () s' ∧
      (s'.tasks 0).events =
        (if not32 EPOLLET &&& (((EPOLLIN ||| EPOLLET) ||| EPOLLOUT) &&& not32 EPOLLIN) = 0
         then 0 else ((EPOLLIN ||| EPOLLET) ||| EPOLLOUT) &&& not32 EPOLLIN) ∧
      s'.epoll ((oneTask 5).tasks 0).fd =
        (if (s'.tasks 0).events = 0 then none else some (s'.tasks 0).events) :=
  C1_schedule_schedule_unschedule (oneTask 5) 0 (EPOLLIN ||| EPOLLET) EPOLLOUT EPOLLIN
    (by decide) (by decide) (by decide) (by decide)

/-! ## What every call of `Task::close` preserves -/

theorem closeStart_closed (t : TaskId) (s s3 : Sched)
    (h : (Task.closeStart t s).state? = some s3) : (s3.tasks t).closed = true := by
  rcases closeStart_cases t s with h0 | ⟨h0, -⟩ <;>
  · rw [h0] at h
    simp only [Res.state?, Option.some.injEq] at h
    subst h
    simp [startedTask]

theorem closeFinish_env (t : TaskId) (s : Sched) :
    (Task.closeFinish t s).ntasks = s.ntasks ∧ (Task.closeFinish t s).now = s.now ∧
    (Task.closeFinish t s).timeouts_enabled = s.timeouts_enabled ∧
    (Task.closeFinish t s).wire = s.wire ∧ (Task.closeFinish t s).script = s.script ∧
    (Task.closeFinish t s).mem = s.mem ∧ (Task.closeFinish t s).shut_rd = s.shut_rd ∧
    (Task.closeFinish t s).epoll = s.epoll ∧ (Task.closeFinish t s).close_list = some t := by
  unfold Task.closeFinish
  simp [unlink_timeout_ntasks, unlink_timeout_now, unlink_timeout_timeouts_enabled,
    unlink_timeout_wire, unlink_timeout_script, unlink_timeout_mem, unlink_timeout_shut_rd,
    unlink_timeout_epoll, unlink_timeout_close_list]

theorem closeFinish_frame (t : TaskId) (s s3 s5 : Sched) (hc : (s.tasks t).closed = false)
    (h0 : Task.closeStart t s = .ok () s3) (p0 : CloseFrame s s3) (p1 : CloseFrame s3 s5) :
    CloseFrame s (Task.closeFinish t s5) := by
  have F := p0.frame_trans p1
  have hc3 : (s3.tasks t).closed = true := closeStart_closed t s s3 (by rw [h0]; rfl)
  have hc5 : (s5.tasks t).closed = true := (p1.step t).closed_mono hc3
  obtain ⟨e1, e2, e3, e4, e5, e6, e7, -, -⟩ := closeFinish_env t s5
  refine ⟨e1.trans F.ntasks, e2.trans F.now, e3.trans F.timeouts_enabled, e4.trans F.wire,
    e5.trans F.script, e6.trans F.mem, e7.trans F.shut_rd, ?_⟩
  intro i
  obtain ⟨t1, t2, t3⟩ := closeFinish_tree t i s5
  refine ⟨t1.trans (F.step i).tree_parent, t2.trans (F.step i).tree_first_child,
    t3.trans (F.step i).tree_next_sibling, ?_, ?_⟩
  · intro h; rw [closeFinish_closed]; exact (F.step i).closed_mono h
  · intro h
    rw [closeFinish_closed] at h
    by_cases hi : i = t
    · subst hi; rw [hc5, hc] at h; exact absurd h (by simp)
    · have := (F.step i).same h
      rw [closeFinish_core, closeFinish_due]
      simpa [hi] using this

/-- Every call of `Task::close`, returning or throwing, leaves the tree links, the clock and
the untouched tasks as they were and never resets a `closed` flag. -/
theorem closeGo_frame (fuel : Nat) (c : CloseCall) (s s' : Sched)
    (h : (Task.closeGo fuel c s).state? = some s') : CloseFrame s s' :=
  closeGo_rel CloseFrame CloseFrame.frame_refl (fun _ _ _ => CloseFrame.frame_trans)
    closeStart_frame closeFinish_frame fuel c s s' h

theorem closeGo_task_closed (fuel : Nat) (t : TaskId) (s s' : Sched)
    (h : (Task.closeGo fuel (.task t) s).state? = some s') : (s'.tasks t).closed = true := by
  cases fuel with
  | zero => simp [Task.closeGo, Res.state?] at h
  | succ n =>
    by_cases hc : (s.tasks t).closed = true
    · rw [closeGo_task, if_pos hc] at h
      simp only [Res.state?, Option.some.injEq] at h
      subst h; exact hc
    · have hF := closeGo_frame (n + 1) (.task t) s s' h
      rw [closeGo_task, if_neg hc] at h
      cases h0 : Task.closeStart t s with
      | diverge => simp [h0, Res.bind, Res.state?] at h
      | throw e s3 =>
        simp only [h0, Res.bind, Res.state?, Option.some.injEq] at h
        subst h
        exact closeStart_closed t s _ (by rw [h0]; rfl)
      | ok u s3 =>
        have hc3 : (s3.tasks t).closed = true := closeStart_closed t s s3 (by rw [h0]; rfl)
        simp only [h0, Res.bind_ok] at h
        cases h1 : Task.closeGo n (.children (s3.tasks t).tree_first_child) s3 with
        | diverge => simp [h1, Res.bind, Res.state?] at h
        | throw e s4 =>
          simp only [h1, Res.bind, Res.state?, Option.some.injEq] at h
          subst h
          exact ((closeGo_frame _ _ s3 _ (by rw [h1]; rfl)).step t).closed_mono hc3
        | ok u s4 =>
          have hc4 : (s4.tasks t).closed = true :=
            ((closeGo_frame _ _ s3 s4 (by rw [h1]; rfl)).step t).closed_mono hc3
          simp only [h1, Res.bind_ok] at h
          cases hp : (s4.tasks t).tree_parent with
          | none =>
            simp only [hp, Res.bind_ok, Res.state?, Option.some.injEq] at h
            subst h
            rw [closeFinish_closed]; exact hc4
          | some p =>
            simp only [hp] at h
            cases hr : Task.rootOf (s4.ntasks + 1) p s4 with
            | none => simp [hr, Res.bind, Res.state?] at h
            | some r =>
              simp only [hr] at h
              cases h2 : Task.closeGo n (.task r) s4 with
              | diverge => simp [h2, Res.bind, Res.state?] at h
              | throw e s5 =>
                simp only [h2, Res.bind, Res.state?, Option.some.injEq] at h
                subst h
                exact ((closeGo_frame _ _ s4 _ (by rw [h2]; rfl)).step t).closed_mono hc4
              | ok u s5 =>
                simp only [h2, Res.bind_ok, Res.state?, Option.some.injEq] at h
                subst h
                rw [closeFinish_closed]
                exact ((closeGo_frame _ _ s4 s5 (by rw [h2]; rfl)).step t).closed_mono hc4

theorem close_of_closed (s : Sched) (t : TaskId) (h : (s.tasks t).closed = true) :
    Task.close t s = .ok () s := by
  unfold Task.close
  have : (s.ntasks + 2) * (s.ntasks + 2) = ((s.ntasks + 2) * (s.ntasks + 2) - 1) + 1 := by
    have : 0 < (s.ntasks + 2) * (s.ntasks + 2) := Nat.mul_pos (by omega) (by omega)
    omega
  rw [this, closeGo_task, if_pos h]

/-! ## The task tree and the count of open tasks -/

theorem kids_frame {s s' : Sched} (h : CloseFrame s s') (p : TaskId) : kids s' p = kids s p := by
  unfold kids
  rw [h.ntasks]
  apply List.filter_congr
  intro c _
  rw [(h.step c).tree_parent]

theorem TreeWF.frame {s s' : Sched} (hw : TreeWF s) (h : CloseFrame s s') : TreeWF s' := by
  refine ⟨?_, ?_, ?_⟩
  · intro i p hp
    rw [(h.step i).tree_parent] at hp
    rw [h.ntasks]; exact hw.parent_lt i p hp
  · intro p
    rw [(h.step p).tree_first_child, kids_frame h]; exact hw.first_child p
  · intro c p hp
    rw [(h.step c).tree_parent] at hp
    rw [(h.step c).tree_next_sibling, kids_frame h]; exact hw.next_sibling c p hp

theorem kids_nodup (s : Sched) (p : TaskId) : (kids s p).Nodup :=
  (List.nodup_range s.ntasks).filter _

theorem kids_length (s : Sched) (p : TaskId) : (kids s p).length ≤ s.ntasks := by
  unfold kids
  exact (List.length_filter_le _ _).trans (by simp)

theorem mem_kids {s : Sched} {p c : Nat} :
    c ∈ kids s p ↔ c < s.ntasks ∧ (s.tasks c).tree_parent = some p := by
  simp [kids]

theorem nextIn_suffix {L : List TaskId} (hL : L.Nodup) {c : TaskId} {K : List TaskId}
    (h : (c :: K) <:+ L) : nextIn L c = K.head? := by
  obtain ⟨A, rfl⟩ := h
  induction A with
  | nil => simp [nextIn]
  | cons a A ih =>
    have hn := List.nodup_cons.mp hL
    have hac : a ≠ c := by
      intro e; subst e
      exact hn.1 (by simp)
    simp only [List.cons_append, nextIn, hac, if_false]
    exact ih hn.2

theorem rootOf_frame {s s' : Sched} (h : ∀ i, (s'.tasks i).tree_parent = (s.tasks i).tree_parent)
    (fuel : Nat) (p : TaskId) : Task.rootOf fuel p s' = Task.rootOf fuel p s := by
  induction fuel generalizing p with
  | zero => rfl
  | succ n ih =>
    simp only [Task.rootOf, h p]
    cases (s.tasks p).tree_parent with
    | none => rfl
    | some q => exact ih q

theorem rootOf_total {s : Sched} (hw : TreeWF s) :
    ∀ p fuel : Nat, p < fuel → ∃ r : Nat, Task.rootOf fuel p s = some r ∧ r ≤ p ∧
      (s.tasks r).tree_parent = none := by
  intro p
  induction p using Nat.strong_induction_on with
  | _ p ih =>
    intro fuel hf
    cases fuel with
    | zero => omega
    | succ f =>
      simp only [Task.rootOf]
      cases hp : (s.tasks p).tree_parent with
      | none => exact ⟨p, rfl, le_refl _, hp⟩
      | some q =>
        have hq := (hw.parent_lt p q hp).1
        obtain ⟨r, h1, h2, h3⟩ := ih q hq f (by omega)
        exact ⟨r, h1, by omega, h3⟩

theorem rootOf_fuel {s : Sched} {p r : TaskId} :
    ∀ {fuel fuel' : Nat}, Task.rootOf fuel p s = some r → fuel ≤ fuel' →
      Task.rootOf fuel' p s = some r := by
  intro fuel
  induction fuel generalizing p with
  | zero => intro _ h; simp [Task.rootOf] at h
  | succ n ih =>
    intro fuel' h hle
    cases fuel' with
    | zero => omega
    | succ m =>
      simp only [Task.rootOf] at h ⊢
      cases hp : (s.tasks p).tree_parent with
      | none => rw [hp] at h; exact h
      | some q => rw [hp] at h; exact ih h (by omega)

theorem openCount_mono {s s' : Sched} (h : CloseFrame s s') : openCount s' ≤ openCount s := by
  unfold openCount
  rw [h.ntasks]
  apply Finset.card_le_card
  intro i hi
  simp only [Finset.mem_filter, Finset.mem_range] at hi ⊢
  refine ⟨hi.1, ?_⟩
  cases hc : (s.tasks i).closed
  · rfl
  · have := (h.step i).closed_mono hc
    rw [hi.2] at this; exact absurd this (by simp)

theorem openCount_lt {s s' : Sched} (h : CloseFrame s s') {t : TaskId} (ht : t < s.ntasks)
    (ho : (s.tasks t).closed = false) (hc : (s'.tasks t).closed = true) :
    openCount s' < openCount s := by
  unfold openCount
  rw [h.ntasks]
  apply Finset.card_lt_card
  constructor
  · intro i hi
    simp only [Finset.mem_filter, Finset.mem_range] at hi ⊢
    refine ⟨hi.1, ?_⟩
    cases hc : (s.tasks i).closed
    · rfl
    · have := (h.step i).closed_mono hc
      rw [hi.2] at this; exact absurd this (by simp)
  · intro hsub
    have : t ∈ (Finset.range s.ntasks).filter fun i => (s'.tasks i).closed = false :=
      hsub (by simp [ht, ho])
    simp [hc] at this

theorem rootOf_succ_none {s : Sched} {i : TaskId} (fuel : Nat)
    (h : (s.tasks i).tree_parent = none) : Task.rootOf (fuel + 1) i s = some i := by
  simp [Task.rootOf, h]

theorem rootOf_succ_some {s : Sched} {i p : TaskId} (fuel : Nat)
    (h : (s.tasks i).tree_parent = some p) :
    Task.rootOf (fuel + 1) i s = Task.rootOf fuel p s := by
  simp [Task.rootOf, h]

/-! ## The epoll instance stays consistent across `Task::close` -/

theorem closeFinish_fd (t i : TaskId) (s : Sched) :
    ((Task.closeFinish t s).tasks i).fd = if i = t then -1 else (s.tasks i).fd := by
  have := congrArg Task.fd (closeFinish_core t i s)
  by_cases h : i = t
  · subst h; simpa [Task.core] using this
  · simpa [Task.core, h] using this

theorem closeFinish_events (t i : TaskId) (s : Sched) :
    ((Task.closeFinish t s).tasks i).events = (s.tasks i).events := by
  have := congrArg Task.events (closeFinish_core t i s)
  by_cases h : i = t
  · subst h; simpa [Task.core] using this
  · simpa [Task.core, h] using this

theorem closeFinish_out (t i : TaskId) (s : Sched) :
    ((Task.closeFinish t s).tasks i).out = (s.tasks i).out := by
  have := congrArg Task.out (closeFinish_core t i s)
  by_cases h : i = t
  · subst h; simpa [Task.core] using this
  · simpa [Task.core, h] using this

theorem EpollOk.closeFinish_ok {s : Sched} (h : EpollOk s) (t : TaskId) :
    EpollOk (Task.closeFinish t s) := by
  have he : (Task.closeFinish t s).epoll = s.epoll := (closeFinish_env t s).2.2.2.2.2.2.2.1
  refine ⟨?_, ?_⟩
  · intro i hev hfd
    rw [closeFinish_events] at hev
    rw [closeFinish_fd] at hfd ⊢
    by_cases hi : i = t
    · simp [hi] at hfd
    · simp only [hi, if_false] at hfd ⊢
      rw [he]; exact h.registered i hev hfd
  · intro i j hij hfd
    rw [closeFinish_fd] at hfd
    rw [closeFinish_fd, closeFinish_fd]
    by_cases hi : i = t
    · simp [hi] at hfd
    · simp only [hi, if_false] at hfd ⊢
      by_cases hj : j = t
      · simp only [hj, if_true]; omega
      · simp only [hj, if_false]; exact h.distinct i j hij hfd

theorem EpollOk.closeStart_ok {s : Sched} (h : EpollOk s) (t : TaskId) :
    ∃ s3, Task.closeStart t s = .ok () s3 ∧ EpollOk s3 := by
  rcases closeStart_cases t s with h0 | ⟨-, hfd, hev, hbad⟩
  · refine ⟨_, h0, ?_⟩
    have hep : ∀ i, i ≠ t → 0 ≤ (s.tasks i).fd →
        (if (s.tasks t).fd = -1 then s else s.setEpoll (s.tasks t).fd none).epoll (s.tasks i).fd
          = s.epoll (s.tasks i).fd := by
      intro i hi hfd
      by_cases hx : (s.tasks t).fd = -1
      · rw [if_pos hx]
      · rw [if_neg hx, setEpoll_epoll, if_neg (h.distinct i t hi hfd)]
    refine ⟨?_, ?_⟩
    · intro i hev hfd
      by_cases hi : i = t
      · subst hi; simp [startedTask] at hfd
      · rw [upd_tasks_ne _ _ hi] at hev hfd ⊢
        have hx : (if (s.tasks t).fd = -1 then s else s.setEpoll (s.tasks t).fd none).tasks i
            = s.tasks i := by split <;> rfl
        rw [hx] at hev hfd ⊢
        have := h.registered i hev hfd
        rw [upd_epoll, hep i hi this.1]; exact this
    · intro i j hij hfd
      have hx : ∀ k, (if (s.tasks t).fd = -1 then s else s.setEpoll (s.tasks t).fd none).tasks k
            = s.tasks k := by intro k; split <;> rfl
      by_cases hi : i = t
      · subst hi; simp [startedTask] at hfd
      · rw [upd_tasks_ne _ _ hi, hx] at hfd ⊢
        by_cases hj : j = t
        · subst hj; simp only [upd_tasks_same, startedTask]; simp; omega
        · rw [upd_tasks_ne _ _ hj, hx]; exact h.distinct i j hij hfd
  · exfalso
    have := h.registered t hev hfd
    rcases hbad with hb | hb
    · omega
    · rw [hb] at this; simp at this

/-! ## `Task::close` returns -/

/-- On a well-formed tree with a consistent epoll instance, `Task::close` returns when it is
given fuel for the open tasks times the length of a chain of children. -/
theorem closeGo_total : ∀ fuel : Nat,
    (∀ (t : Nat) (s : Sched), TreeWF s → EpollOk s → t < s.ntasks →
        openCount s * (s.ntasks + 2) + 1 ≤ fuel →
        ∃ s', Task.closeGo fuel (.task t) s = .ok () s' ∧ EpollOk s') ∧
    (∀ (p : Nat) (K : List TaskId) (s : Sched), TreeWF s → EpollOk s → K <:+ kids s p →
        openCount s * (s.ntasks + 2) + K.length + 1 ≤ fuel →
        ∃ s', Task.closeGo fuel (.children K.head?) s = .ok () s' ∧ EpollOk s') := by
  intro fuel
  induction fuel with
  | zero =>
    constructor
    · intro t s _ _ _ h; exact absurd h (by simp)
    · intro p K s _ _ _ h; exact absurd h (by simp)
  | succ f ih =>
    constructor
    · intro t s hT hE ht hb
      rw [closeGo_task]
      by_cases hc : (s.tasks t).closed = true
      · rw [if_pos hc]; exact ⟨s, rfl, hE⟩
      · have hc' : (s.tasks t).closed = false := by simpa using hc
        rw [if_neg hc]
        obtain ⟨s3, h0, hE3⟩ := hE.closeStart_ok t
        have F03 := closeStart_frame t s s3 hc' (by rw [h0]; rfl)
        have hT3 := hT.frame F03
        have hc3 := closeStart_closed t s s3 (by rw [h0]; rfl)
        have hk3 := openCount_lt F03 ht hc' hc3
        have hn3 : s3.ntasks = s.ntasks := F03.ntasks
        have hmul : (openCount s3 + 1) * (s.ntasks + 2) ≤ openCount s * (s.ntasks + 2) :=
          Nat.mul_le_mul_right _ hk3
        rw [Nat.add_mul, Nat.one_mul] at hmul
        have hkl := kids_length s3 t
        obtain ⟨s4, h1, hE4⟩ := ih.2 t (kids s3 t) s3 hT3 hE3 (List.suffix_refl _)
          (by rw [hn3] at hkl ⊢; omega)
        rw [← hT3.first_child t] at h1
        have F34 := closeGo_frame _ _ s3 s4 (by rw [h1]; rfl)
        have hT4 := hT3.frame F34
        have hk4 := openCount_mono F34
        have hn4 : s4.ntasks = s.ntasks := F34.ntasks.trans hn3
        have hmul4 : openCount s4 * (s.ntasks + 2) ≤ openCount s3 * (s.ntasks + 2) :=
          Nat.mul_le_mul_right _ hk4
        simp only [h0, Res.bind_ok, h1]
        cases hp : (s4.tasks t).tree_parent with
        | none => exact ⟨_, rfl, hE4.closeFinish_ok t⟩
        | some p =>
          have hpl := hT4.parent_lt t p hp
          obtain ⟨r, hr, hrp, -⟩ := rootOf_total hT4 p (s4.ntasks + 1) (by omega)
          obtain ⟨s5, h2, hE5⟩ := ih.1 r s4 hT4 hE4 (by omega) (by rw [hn4]; omega)
          simp only [hr, h2, Res.bind_ok]
          exact ⟨_, rfl, hE5.closeFinish_ok t⟩
    · intro p K s hT hE hK hb
      cases K with
      | nil => exact ⟨s, rfl, hE⟩
      | cons c K' =>
        simp only [List.head?_cons]
        rw [closeGo_children_some]
        have hcm : c ∈ kids s p := hK.subset (by simp)
        have hcp := mem_kids.mp hcm
        simp only [List.length_cons] at hb
        obtain ⟨s1, h1, hE1⟩ := ih.1 c s hT hE hcp.1 (by omega)
        have F := closeGo_frame _ _ s s1 (by rw [h1]; rfl)
        have hT1 := hT.frame F
        have hk1 := openCount_mono F
        have hmul : openCount s1 * (s.ntasks + 2) ≤ openCount s * (s.ntasks + 2) :=
          Nat.mul_le_mul_right _ hk1
        have hn1 : s1.ntasks = s.ntasks := F.ntasks
        have hK' : K' <:+ kids s1 p := by
          rw [kids_frame F]; exact (List.suffix_cons c K').trans hK
        obtain ⟨s2, h2, hE2⟩ := ih.2 p K' s1 hT1 hE1 hK' (by rw [hn1]; omega)
        have hnext : (s1.tasks c).tree_next_sibling = K'.head? := by
          rw [(F.step c).tree_next_sibling, hT.next_sibling c p hcp.2]
          exact nextIn_suffix (kids_nodup s p) hK
        simp only [h1, Res.bind_ok, hnext]
        exact ⟨s2, h2, hE2⟩

/-! ## What a returned `Task::close` has done -/

theorem core_fd {T T' : Task} (h : T'.core = T.core) : T'.fd = T.fd := by
  have h1 : T'.core.fd = T.core.fd := congrArg Task.fd h
  exact h1
theorem core_out {T T' : Task} (h : T'.core = T.core) : T'.out = T.out := by
  have h1 : T'.core.out = T.core.out := congrArg Task.out h
  exact h1
theorem core_events {T T' : Task} (h : T'.core = T.core) : T'.events = T.events := by
  have h1 : T'.core.events = T.core.events := congrArg Task.events h
  exact h1
theorem core_next_close {T T' : Task} (h : T'.core = T.core) : T'.next_close = T.next_close := by
  have h1 : T'.core.next_close = T.core.next_close := congrArg Task.next_close h
  exact h1

theorem TimeoutWF.congr {s s' : Sched} {L : List TaskId} (h : TimeoutWF s L)
    (hn : ∀ x, (s'.tasks x).timeout.next = (s.tasks x).timeout.next)
    (hp : ∀ x, (s'.tasks x).timeout.prev = (s.tasks x).timeout.prev)
    (hh : s'.timeouts = s.timeouts) (ha : s'.ntasks = s.ntasks) : TimeoutWF s' L :=
  ⟨h.nodup, hh.trans h.head, fun x => (hn x).trans (h.next x), fun x => (hp x).trans (h.prev x),
    fun x hx => by rw [ha]; exact h.alloc x hx⟩

theorem TimeoutWF.closeFinish_wf {s : Sched} {L : List TaskId} (h : TimeoutWF s L) (t : TaskId) :
    TimeoutWF (Task.closeFinish t s) (L.erase t) := by
  unfold Task.closeFinish
  have h2 : TimeoutWF ((s.upd t fun T => { T with next_close := s.close_list }).setCloseList
      (some t)) L := by
    apply h.congr
    · intro x; simp only [setCloseList_tasks, upd_tasks]; split
      · rename_i e; subst e; rfl
      · rfl
    · intro x; simp only [setCloseList_tasks, upd_tasks]; split
      · rename_i e; subst e; rfl
      · rfl
    · rfl
    · rfl
  apply (h2.unlink t).congr
  · intro x; simp only [upd_tasks]; split
    · rename_i e; subst e; rfl
    · rfl
  · intro x; simp only [upd_tasks]; split
    · rename_i e; subst e; rfl
    · rfl
  · rfl
  · rfl

theorem TimeoutWF.closeStart_wf {s s3 : Sched} {L : List TaskId} (h : TimeoutWF s L) (t : TaskId)
    (h0 : (Task.closeStart t s).state? = some s3) : TimeoutWF s3 L := by
  have key : ∀ (e : Sched) (b : Bool), e.tasks = s.tasks → e.ntasks = s.ntasks →
      e.timeouts = s.timeouts → TimeoutWF (e.upd t (fun T => startedTask T b)) L := by
    intro e b h1 h2 h3
    apply h.congr
    · intro x; simp only [upd_tasks, h1]; split
      · rename_i e; subst e; rfl
      · rfl
    · intro x; simp only [upd_tasks, h1]; split
      · rename_i e; subst e; rfl
      · rfl
    · simpa using h3
    · simpa using h2
  rcases closeStart_cases t s with h1 | ⟨h1, -⟩
  · rw [h1] at h0
    simp only [Res.state?, Option.some.injEq] at h0
    subst h0
    by_cases hfd : (s.tasks t).fd = -1
    · rw [if_pos hfd]; exact key s false rfl rfl rfl
    · rw [if_neg hfd]; exact key _ false rfl rfl rfl
  · rw [h1] at h0
    simp only [Res.state?, Option.some.injEq] at h0
    subst h0
    exact key s true rfl rfl rfl

theorem closeStart_fields (t : TaskId) (s s3 : Sched) (h0 : Task.closeStart t s = .ok () s3) :
    (s3.tasks t).out = [] ∧ (s3.tasks t).fd = -1 ∧
    (s3.tasks t).events = (if (s.tasks t).fd = -1 then (s.tasks t).events else 0) ∧
    (∀ x, x ≠ t → s3.tasks x = s.tasks x) := by
  rcases closeStart_cases t s with h1 | ⟨h1, -⟩
  · rw [h1] at h0
    simp only [Res.ok.injEq, true_and] at h0
    subst h0
    refine ⟨by simp [startedTask], by simp [startedTask], ?_, ?_⟩
    · simp only [upd_tasks_same, startedTask]
      by_cases hfd : (s.tasks t).fd = -1
      · simp [hfd]
      · simp [hfd]
    · intro x hx
      rw [upd_tasks_ne _ _ hx]
      split <;> rfl
  · rw [h1] at h0; simp at h0

theorem ClosePost.post_refl (s : Sched) : ClosePost s s :=
  ⟨CloseFrame.frame_refl s, fun x h1 h2 => by rw [h1] at h2; exact absurd h2 (by simp),
    fun L h => ⟨L, h, fun _ hx => hx, fun _ hx _ => hx,
      fun x h1 h2 => by rw [h1] at h2; exact absurd h2 (by simp)⟩⟩

theorem closed_eq_of_mono {a b c : Task} (h1 : CloseStep a b) (h2 : CloseStep b c)
    (h : c.closed = a.closed) : b.closed = a.closed ∧ c.closed = b.closed := by
  have hb : b.closed = a.closed := by
    cases ha : a.closed
    · cases hb : b.closed
      · rfl
      · have := h2.closed_mono hb; rw [h, ha] at this; exact absurd this (by simp)
    · exact h1.closed_mono ha
  exact ⟨hb, h.trans hb.symm⟩

theorem ClosePost.post_trans {a b c : Sched} (h1 : ClosePost a b) (h2 : ClosePost b c) :
    ClosePost a c := by
  refine ⟨h1.frame.frame_trans h2.frame, ?_, ?_⟩
  · intro x ha hc
    cases hb : (b.tasks x).closed
    · -- closed by the second call
      obtain ⟨o, f, d, e⟩ := h2.fields x hb hc
      have hs := ((h1.frame.step x).same (hb.trans ha.symm)).1
      have hfd : (b.tasks x).fd = (a.tasks x).fd := core_fd hs
      have hev : (b.tasks x).events = (a.tasks x).events := core_events hs
      rw [hfd, hev] at e
      exact ⟨o, f, d, e⟩
    · -- closed by the first call, untouched by the second
      obtain ⟨o, f, d, e⟩ := h1.fields x ha hb
      have hs := (h2.frame.step x).same (hc.trans hb.symm)
      have ho : (c.tasks x).out = (b.tasks x).out := core_out hs.1
      have hfd : (c.tasks x).fd = (b.tasks x).fd := core_fd hs.1
      have hev : (c.tasks x).events = (b.tasks x).events := core_events hs.1
      exact ⟨ho.trans o, hfd.trans f, hs.2.trans d, hev.trans e⟩
  · intro L hL
    obtain ⟨L1, w1, s1, k1, n1⟩ := h1.timeouts L hL
    obtain ⟨L2, w2, s2, k2, n2⟩ := h2.timeouts L1 w1
    refine ⟨L2, w2, fun x hx => s1 x (s2 x hx), ?_, ?_⟩
    · intro x hx hcl
      obtain ⟨e1, e2⟩ := closed_eq_of_mono (h1.frame.step x) (h2.frame.step x) hcl
      exact k2 x (k1 x hx e1) e2
    · intro x ha hc
      cases hb : (b.tasks x).closed
      · exact n2 x hb hc
      · exact fun hx => n1 x ha hb (s2 x hx)

theorem closeFinish_post (t : TaskId) (s s3 s5 : Sched) (hc : (s.tasks t).closed = false)
    (h0 : Task.closeStart t s = .ok () s3) (P : ClosePost s3 s5) :
    ClosePost s (Task.closeFinish t s5) := by
  have F03 := closeStart_frame t s s3 hc (by rw [h0]; rfl)
  have hc3 : (s3.tasks t).closed = true := closeStart_closed t s s3 (by rw [h0]; rfl)
  have hc5 : (s5.tasks t).closed = true := (P.frame.step t).closed_mono hc3
  obtain ⟨so, sf, se, sx⟩ := closeStart_fields t s s3 h0
  have hcore := ((P.frame.step t).same (hc5.trans hc3.symm)).1
  refine ⟨closeFinish_frame t s s3 s5 hc h0 F03 P.frame, ?_, ?_⟩
  · intro x ho hcl
    rw [closeFinish_closed] at hcl
    rw [closeFinish_out, closeFinish_fd, closeFinish_due, closeFinish_events]
    by_cases hx : x = t
    · subst hx
      simp only [if_true]
      exact ⟨(core_out hcore).trans so, trivial, trivial, (core_events hcore).trans se⟩
    · simp only [hx, if_false]
      have ho3 : (s3.tasks x).closed = false := by rw [sx x hx]; exact ho
      have := P.fields x ho3 hcl
      rw [sx x hx] at this
      exact this
  · intro L hL
    have hL3 := TimeoutWF.closeStart_wf hL t (by rw [h0]; rfl)
    obtain ⟨L5, w5, sub5, k5, n5⟩ := P.timeouts L hL3
    refine ⟨L5.erase t, w5.closeFinish_wf t, fun x hx => sub5 x (List.mem_of_mem_erase hx), ?_, ?_⟩
    · intro x hx hcl
      rw [closeFinish_closed] at hcl
      have hxt : x ≠ t := by
        intro e; subst e; rw [hc5, hc] at hcl; exact absurd hcl (by simp)
      have : x ∈ L5 := k5 x hx (by rw [sx x hxt]; exact hcl)
      exact (List.mem_erase_of_ne hxt).mpr this
    · intro x ho hcl
      rw [closeFinish_closed] at hcl
      by_cases hx : x = t
      · subst hx; exact w5.nodup.not_mem_erase
      · have ho3 : (s3.tasks x).closed = false := by rw [sx x hx]; exact ho
        exact fun hm => n5 x ho3 hcl (List.mem_of_mem_erase hm)

/-- Every returned call of `Task::close` satisfies `ClosePost`. -/
theorem closeGo_post (fuel : Nat) (c : CloseCall) (s s' : Sched)
    (h : Task.closeGo fuel c s = .ok () s') : ClosePost s s' :=
  closeGo_rel_ok ClosePost ClosePost.post_refl (fun _ _ _ => ClosePost.post_trans)
    closeFinish_post fuel c s s' h

theorem openCount_le (s : Sched) : openCount s ≤ s.ntasks := by
  unfold openCount
  exact (Finset.card_filter_le _ _).trans (by simp)

theorem close_total {s : Sched} (hT : TreeWF s) (hE : EpollOk s) {t : Nat} (ht : t < s.ntasks) :
    ∃ s', Task.close t s = .ok () s' ∧ EpollOk s' := by
  unfold Task.close
  apply (closeGo_total _).1 t s hT hE ht
  have h1 : openCount s * (s.ntasks + 2) ≤ s.ntasks * (s.ntasks + 2) :=
    Nat.mul_le_mul_right _ (openCount_le s)
  have h2 : (s.ntasks + 2) * (s.ntasks + 2) = s.ntasks * (s.ntasks + 2) + 2 * (s.ntasks + 2) := by
    ring
  omega

theorem chain_walk {s : Sched} {L : List TaskId} (hL : L.Nodup)
    (hn : ∀ x ∈ L, (s.tasks x).timeout.next = nextIn L x) :
    ∀ (K : List TaskId) (fuel : Nat), K <:+ L → K.length ≤ fuel →
      timeoutChain fuel K.head? s = K := by
  intro K
  induction K with
  | nil => intro fuel _ _; cases fuel <;> rfl
  | cons x K' ih =>
    intro fuel hK hf
    cases fuel with
    | zero => simp at hf
    | succ f =>
      simp only [List.head?_cons, timeoutChain]
      rw [hn x (hK.subset (by simp)), nextIn_suffix hL hK]
      rw [ih f ((List.suffix_cons x K').trans hK) (by simpa using hf)]

theorem nodup_length_le {L : List Nat} {n : Nat} (hL : L.Nodup) (hb : ∀ x : Nat, x ∈ L → x < n) :
    L.length ≤ n := by
  have h1 : L.toFinset ⊆ Finset.range n := by
    intro x hx
    simp only [List.mem_toFinset] at hx
    simpa using hb x hx
  have := Finset.card_le_card h1
  rwa [List.toFinset_card_of_nodup hL, Finset.card_range] at this

theorem TimeoutWF.timeoutList {s : Sched} {L : List TaskId} (h : TimeoutWF s L) :
    s.timeoutList = L := by
  unfold Sched.timeoutList
  rw [h.head]
  exact chain_walk h.nodup (fun x _ => h.next x) L s.ntasks (List.suffix_refl _)
    (nodup_length_le h.nodup h.alloc)

/-! ## The cascade of `Task::close` reaches the whole tree -/

theorem CloseAll.all_refl (s : Sched) : CloseAll s s :=
  ⟨fun y h1 h2 => by rw [h1] at h2; exact absurd h2 (by simp),
   fun y _ _ h1 h2 => by rw [h1] at h2; exact absurd h2 (by simp),
   fun y h1 h2 => by rw [h1] at h2; exact absurd h2 (by simp)⟩

theorem rootOf_closeFrame {s s' : Sched} (F : CloseFrame s s') (fuel : Nat) (p : TaskId) :
    Task.rootOf fuel p s' = Task.rootOf fuel p s :=
  rootOf_frame (fun i => (F.step i).tree_parent) fuel p

theorem CloseAll.all_trans {a b c : Sched} (F1 : CloseFrame a b) (F2 : CloseFrame b c)
    (h1 : CloseAll a b) (h2 : CloseAll b c) : CloseAll a c := by
  refine ⟨?_, ?_, ?_⟩
  · intro y ha hc x hx
    cases hb : (b.tasks y).closed
    · exact h2.kids y hb hc x (by rw [kids_frame F1]; exact hx)
    · exact (F2.step x).closed_mono (h1.kids y ha hb x hx)
  · intro y p r ha hc hp hr
    cases hb : (b.tasks y).closed
    · refine h2.root y p r hb hc ((F1.step y).tree_parent.trans hp) ?_
      rw [F1.ntasks, rootOf_closeFrame F1]; exact hr
    · exact (F2.step r).closed_mono (h1.root y p r ha hb hp hr)
  · intro y ha hc
    cases hb : (b.tasks y).closed
    · rw [← F1.ntasks]; exact h2.alloc y hb hc
    · exact h1.alloc y ha hb

theorem closeGo_complete : ∀ fuel : Nat,
    (∀ (t : Nat) (s s' : Sched), TreeWF s → t < s.ntasks →
        Task.closeGo fuel (.task t) s = .ok () s' → CloseAll s s') ∧
    (∀ (p : Nat) (K : List TaskId) (s s' : Sched), TreeWF s → K <:+ kids s p →
        Task.closeGo fuel (.children K.head?) s = .ok () s' →
        CloseAll s s' ∧ ∀ x ∈ K, (s'.tasks x).closed = true) := by
  intro fuel
  induction fuel with
  | zero =>
    constructor
    · intro t s s' _ _ h; simp [Task.closeGo] at h
    · intro p K s s' _ _ h; simp [Task.closeGo] at h
  | succ f ih =>
    constructor
    · intro t s s' hT ht h
      rw [closeGo_task] at h
      by_cases hc : (s.tasks t).closed = true
      · rw [if_pos hc] at h
        simp only [Res.ok.injEq, true_and] at h
        subst h; exact CloseAll.all_refl s
      · have hc' : (s.tasks t).closed = false := by simpa using hc
        rw [if_neg hc] at h
        cases h0 : Task.closeStart t s with
        | diverge => simp [h0, Res.bind] at h
        | throw e s3 => simp [h0, Res.bind] at h
        | ok u s3 =>
          have F03 := closeStart_frame t s s3 hc' (by rw [h0]; rfl)
          have hT3 := hT.frame F03
          obtain ⟨-, -, -, sx⟩ := closeStart_fields t s s3 h0
          simp only [h0, Res.bind_ok] at h
          cases h1 : Task.closeGo f (.children (s3.tasks t).tree_first_child) s3 with
          | diverge => simp [h1, Res.bind] at h
          | throw e s4 => simp [h1, Res.bind] at h
          | ok u s4 =>
            have F34 := closeGo_frame _ _ s3 s4 (by rw [h1]; rfl)
            have hT4 := hT3.frame F34
            have h1' := h1
            rw [hT3.first_child t] at h1'
            obtain ⟨A34, hk4⟩ := ih.2 t (kids s3 t) s3 s4 hT3 (List.suffix_refl _) h1'
            simp only [h1, Res.bind_ok] at h
            -- the part common to both shapes of the parent branch
            have fin : ∀ s5, CloseFrame s4 s5 → CloseAll s4 s5 →
                (∀ p r, (s.tasks t).tree_parent = some p →
                  Task.rootOf (s.ntasks + 1) p s = some r → (s5.tasks r).closed = true) →
                CloseAll s (Task.closeFinish t s5) := by
              intro s5 F45 A45 hroot
              have A35 := A34.all_trans F34 F45 A45
              refine ⟨?_, ?_, ?_⟩
              · intro y hy hyc x hx
                rw [closeFinish_closed] at hyc ⊢
                by_cases hyt : y = t
                · subst hyt
                  exact (F45.step x).closed_mono (hk4 x (by rw [kids_frame F03]; exact hx))
                · refine A35.kids y (by rw [sx y hyt]; exact hy) hyc x ?_
                  rw [kids_frame F03]; exact hx
              · intro y p r hy hyc hp hr
                rw [closeFinish_closed] at hyc ⊢
                by_cases hyt : y = t
                · subst hyt
                  exact hroot p r hp hr
                · refine A35.root y p r (by rw [sx y hyt]; exact hy) hyc
                    (by rw [sx y hyt]; exact hp) ?_
                  rw [F03.ntasks, rootOf_closeFrame F03]; exact hr
              · intro y hy hyc
                rw [closeFinish_closed] at hyc
                by_cases hyt : y = t
                · subst hyt; exact ht
                · rw [← F03.ntasks]
                  exact A35.alloc y (by rw [sx y hyt]; exact hy) hyc
            cases hp : (s4.tasks t).tree_parent with
            | none =>
              simp only [hp, Res.bind_ok, Res.ok.injEq, true_and] at h
              subst h
              refine fin s4 (CloseFrame.frame_refl _) (CloseAll.all_refl _) ?_
              intro p r hp' _
              have := ((F03.frame_trans F34).step t).tree_parent
              rw [hp, hp'] at this
              exact absurd this (by simp)
            | some p =>
              simp only [hp] at h
              cases hr : Task.rootOf (s4.ntasks + 1) p s4 with
              | none => simp [hr, Res.bind] at h
              | some r =>
                simp only [hr] at h
                cases h2 : Task.closeGo f (.task r) s4 with
                | diverge => simp [h2, Res.bind] at h
                | throw e s5 => simp [h2, Res.bind] at h
                | ok u s5 =>
                  simp only [h2, Res.bind_ok, Res.ok.injEq, true_and] at h
                  subst h
                  have F45 := closeGo_frame _ _ s4 s5 (by rw [h2]; rfl)
                  have hpl := hT4.parent_lt t p hp
                  obtain ⟨r0, hr0, hrp, -⟩ := rootOf_total hT4 p (s4.ntasks + 1) (by omega)
                  rw [hr] at hr0
                  simp only [Option.some.injEq] at hr0
                  subst hr0
                  refine fin s5 F45 (ih.1 r s4 s5 hT4 (by omega) h2) ?_
                  intro p' r' hp' hr'
                  have e1 := ((F03.frame_trans F34).step t).tree_parent
                  rw [hp, hp'] at e1
                  simp only [Option.some.injEq] at e1
                  subst e1
                  rw [(F03.frame_trans F34).ntasks, rootOf_closeFrame (F03.frame_trans F34), hr'] at hr
                  simp only [Option.some.injEq] at hr
                  subst hr
                  exact closeGo_task_closed _ _ s4 s5 (by rw [h2]; rfl)
    · intro p K s s' hT hK h
      cases K with
      | nil =>
        simp only [List.head?_nil, Task.closeGo, Res.ok.injEq, true_and] at h
        subst h
        exact ⟨CloseAll.all_refl s, by simp⟩
      | cons c K' =>
        simp only [List.head?_cons] at h
        rw [closeGo_children_some] at h
        cases h1 : Task.closeGo f (.task c) s with
        | diverge => simp [h1, Res.bind] at h
        | throw e s1 => simp [h1, Res.bind] at h
        | ok u s1 =>
          have hcm : c ∈ kids s p := hK.subset (by simp)
          have hcp := mem_kids.mp hcm
          have F := closeGo_frame _ _ s s1 (by rw [h1]; rfl)
          have hT1 := hT.frame F
          have hK' : K' <:+ kids s1 p := by
            rw [kids_frame F]; exact (List.suffix_cons c K').trans hK
          have hnext : (s1.tasks c).tree_next_sibling = K'.head? := by
            rw [(F.step c).tree_next_sibling, hT.next_sibling c p hcp.2]
            exact nextIn_suffix (kids_nodup s p) hK
          simp only [h1, Res.bind_ok, hnext] at h
          obtain ⟨A2, hk2⟩ := ih.2 p K' s1 s' hT1 hK' h
          have F2 := closeGo_frame _ _ s1 s' (by rw [h]; rfl)
          refine ⟨(ih.1 c s s1 hT hcp.1 h1).all_trans F F2 A2, ?_⟩
          intro x hx
          simp only [List.mem_cons] at hx
          rcases hx with rfl | hx
          · exact (F2.step x).closed_mono (closeGo_task_closed _ _ s s1 (by rw [h1]; rfl))
          · exact hk2 x hx

/-! ## The deferred-close list after `Task::close` -/

theorem closeFinish_next_close (t i : TaskId) (s : Sched) :
    ((Task.closeFinish t s).tasks i).next_close =
      if i = t then s.close_list else (s.tasks i).next_close := by
  have := congrArg Task.next_close (closeFinish_core t i s)
  by_cases h : i = t
  · subst h; simpa [Task.core] using this
  · simpa [Task.core, h] using this

theorem ClosePushed.pushed_refl (s : Sched) : ClosePushed s s :=
  ⟨fun _ h => h, fun C hC => ⟨[], by simpa using hC, fun x => by
    constructor
    · intro h; simp at h
    · rintro ⟨h1, h2⟩; rw [h1] at h2; exact absurd h2 (by simp)⟩⟩

theorem ClosePushed.pushed_trans {a b c : Sched} (h1 : ClosePushed a b) (h2 : ClosePushed b c) :
    ClosePushed a c := by
  refine ⟨fun x h => h2.mono x (h1.mono x h), ?_⟩
  intro C hC
  obtain ⟨N1, w1, m1⟩ := h1.pushed C hC
  obtain ⟨N2, w2, m2⟩ := h2.pushed (N1 ++ C) w1
  refine ⟨N2 ++ N1, by simpa [List.append_assoc] using w2, ?_⟩
  intro x
  simp only [List.mem_append, m1, m2]
  constructor
  · rintro (⟨hb, hc⟩ | ⟨ha, hb⟩)
    · refine ⟨?_, hc⟩
      cases ha : (a.tasks x).closed
      · rfl
      · have := h1.mono x ha; rw [hb] at this; exact absurd this (by simp)
    · exact ⟨ha, h2.mono x hb⟩
  · rintro ⟨ha, hc⟩
    cases hb : (b.tasks x).closed
    · exact Or.inl ⟨rfl, hc⟩
    · exact Or.inr ⟨ha, rfl⟩

theorem nextIn_cons_ne {t x : TaskId} (L : List TaskId) (h : t ≠ x) :
    nextIn (t :: L) x = nextIn L x := by
  simp [nextIn, h]

theorem closeFinish_pushed (t : TaskId) (s s3 s5 : Sched) (hc : (s.tasks t).closed = false)
    (h0 : Task.closeStart t s = .ok () s3) (P : ClosePushed s3 s5) :
    ClosePushed s (Task.closeFinish t s5) := by
  have F03 := closeStart_frame t s s3 hc (by rw [h0]; rfl)
  have hc3 : (s3.tasks t).closed = true := closeStart_closed t s s3 (by rw [h0]; rfl)
  have hc5 : (s5.tasks t).closed = true := P.mono t hc3
  obtain ⟨-, -, -, sx⟩ := closeStart_fields t s s3 h0
  refine ⟨?_, ?_⟩
  · intro x hx
    rw [closeFinish_closed]
    exact P.mono x ((F03.step x).closed_mono hx)
  · intro C hC
    have hC3 : CloseWF s3 C := by
      have htC : t ∉ C := fun hm => by
        have := hC.closed t hm; rw [hc] at this; exact absurd this (by simp)
      have hcl : s3.close_list = s.close_list := by
        rcases closeStart_cases t s with h1 | ⟨h1, -⟩
        · rw [h1] at h0
          simp only [Res.ok.injEq, true_and] at h0
          subst h0
          by_cases hfd : (s.tasks t).fd = -1
          · rw [if_pos hfd]; rfl
          · rw [if_neg hfd]; rfl
        · rw [h1] at h0; simp at h0
      refine ⟨hC.nodup, hcl.trans hC.head, ?_, ?_⟩
      · intro x hx
        have hxt : x ≠ t := fun e => htC (e ▸ hx)
        rw [sx x hxt]; exact hC.next x hx
      · intro x hx
        exact (F03.step x).closed_mono (hC.closed x hx)
    obtain ⟨N, w, m⟩ := P.pushed C hC3
    have htN : t ∉ N := fun hm => by
      have := ((m t).mp hm).1; rw [hc3] at this; exact absurd this (by simp)
    have htC : t ∉ C := fun hm => by
      have := hC.closed t hm; rw [hc] at this; exact absurd this (by simp)
    have htL : t ∉ N ++ C := by simp [htN, htC]
    refine ⟨t :: N, ?_, ?_⟩
    · refine ⟨?_, ?_, ?_, ?_⟩
      · simpa using ⟨⟨htN, htC⟩, w.nodup⟩
      · simpa using (closeFinish_env t s5).2.2.2.2.2.2.2.2
      · intro x hx
        rw [closeFinish_next_close]
        by_cases hxt : x = t
        · subst hxt
          simp only [if_true, List.cons_append, nextIn]
          exact w.head
        · simp only [hxt, if_false, List.cons_append]
          rw [nextIn_cons_ne _ (Ne.symm hxt)]
          have : x ∈ N ++ C := by
            simp only [List.cons_append, List.mem_cons] at hx
            rcases hx with e | hx
            · exact absurd e hxt
            · exact hx
          exact w.next x this
      · intro x hx
        rw [closeFinish_closed]
        simp only [List.cons_append, List.mem_cons] at hx
        rcases hx with e | hx
        · rw [e]; exact hc5
        · exact w.closed x hx
    · intro x
      rw [closeFinish_closed]
      simp only [List.mem_cons, m]
      constructor
      · rintro (e | ⟨h3, h5⟩)
        · rw [e]; exact ⟨hc, hc5⟩
        · refine ⟨?_, h5⟩
          cases ha : (s.tasks x).closed
          · rfl
          · have := (F03.step x).closed_mono ha
            rw [h3] at this; exact absurd this (by simp)
      · rintro ⟨ha, h5⟩
        by_cases hxt : x = t
        · exact Or.inl hxt
        · exact Or.inr ⟨by rw [sx x hxt]; exact ha, h5⟩

/-- Every returned call of `Task::close` pushes exactly the tasks it closed. -/
theorem closeGo_pushed (fuel : Nat) (c : CloseCall) (s s' : Sched)
    (h : Task.closeGo fuel c s = .ok () s') : ClosePushed s s' :=
  closeGo_rel_ok ClosePushed ClosePushed.pushed_refl (fun _ _ _ => ClosePushed.pushed_trans)
    closeFinish_pushed fuel c s s' h

theorem close_chain_walk {s : Sched} {L : List TaskId} (hL : L.Nodup)
    (hn : ∀ x ∈ L, (s.tasks x).next_close = nextIn L x) :
    ∀ (K : List TaskId) (fuel : Nat), K <:+ L → K.length ≤ fuel →
      closeChain fuel K.head? s = K := by
  intro K
  induction K with
  | nil => intro fuel _ _; cases fuel <;> rfl
  | cons x K' ih =>
    intro fuel hK hf
    cases fuel with
    | zero => simp at hf
    | succ f =>
      simp only [List.head?_cons, closeChain]
      rw [hn x (hK.subset (by simp)), nextIn_suffix hL hK]
      rw [ih f ((List.suffix_cons x K').trans hK) (by simpa using hf)]

theorem CloseWF.closeList {s : Sched} {C : List TaskId} (h : CloseWF s C)
    (ha : ∀ x : Nat, x ∈ C → x < s.ntasks) : s.closeList = C := by
  unfold Sched.closeList
  rw [h.head]
  exact close_chain_walk h.nodup h.next C s.ntasks (List.suffix_refl _)
    (nodup_length_le h.nodup ha)

/-! ## The timeout sweep on a sorted list of tasks without relatives -/

theorem close_standalone (s s3 : Sched) (t : TaskId) (hc : (s.tasks t).closed = false)
    (hp : (s.tasks t).tree_parent = none) (hk : (s.tasks t).tree_first_child = none)
    (h0 : Task.closeStart t s = .ok () s3) :
    Task.close t s = .ok () (Task.closeFinish t s3) := by
  have F := closeStart_frame t s s3 hc (by rw [h0]; rfl)
  unfold Task.close
  have e : (s.ntasks + 2) * (s.ntasks + 2) = (s.ntasks * s.ntasks + 4 * s.ntasks + 2) + 1 + 1 := by
    ring
  rw [e, closeGo_task, if_neg (by simp [hc]), h0]
  simp only [Res.bind_ok, (F.step t).tree_first_child, hk, Task.closeGo,
    (F.step t).tree_parent, hp]


theorem expire_sorted (h : TaskId → Hooks)
    (hh : ∀ i, (h i).handle_timeout = Task.handle_timeout) :
    ∀ (L : List TaskId) (fuel : Nat) (s : Sched), L.length + 1 ≤ fuel → TimeoutWF s L →
      EpollOk s →
      (∀ x ∈ L, (s.tasks x).closed = false ∧ (s.tasks x).tree_parent = none ∧
        (s.tasks x).tree_first_child = none) →
      L.Pairwise (fun a b => (s.tasks a).timeout.due ≤ (s.tasks b).timeout.due) →
      ∃ s', Scheduler.expire h fuel s = .ok () s' ∧
        TimeoutWF s' (L.filter fun x => decide (s.now < (s.tasks x).timeout.due)) ∧
        CloseFrame s s' ∧
        (∀ x ∈ L, ((s'.tasks x).closed = true ↔ (s.tasks x).timeout.due ≤ s.now)) ∧
        (∀ x, x ∉ L → (s'.tasks x).closed = (s.tasks x).closed) := by
  intro L
  induction L with
  | nil =>
    intro fuel s hf hL _ _ _
    cases fuel with
    | zero => simp at hf
    | succ f =>
      refine ⟨s, ?_, by simpa using hL, CloseFrame.frame_refl s, by simp, fun _ _ => rfl⟩
      have : s.timeouts = none := hL.head
      simp [Scheduler.expire, this]
  | cons x L' ih =>
    intro fuel s hf hL hE hS hP
    cases fuel with
    | zero => simp at hf
    | succ f =>
      have hhead : s.timeouts = some x := hL.head
      obtain ⟨hxo, hxp, hxk⟩ := hS x (by simp)
      have hnd := List.nodup_cons.mp hL.nodup
      by_cases hdue : (s.tasks x).timeout.due ≤ s.now
      · -- the head has expired: it is closed, which unlinks it
        obtain ⟨s3, h0, hE3⟩ := hE.closeStart_ok x
        have hcl := close_standalone s s3 x hxo hxp hxk h0
        have F03 := closeStart_frame x s s3 hxo (by rw [h0]; rfl)
        have F := closeFinish_frame x s s3 s3 hxo h0 F03 (CloseFrame.frame_refl s3)
        obtain ⟨-, -, -, sx⟩ := closeStart_fields x s s3 h0
        have hL2 : TimeoutWF (Task.closeFinish x s3) L' := by
          have := (TimeoutWF.closeStart_wf hL x (by rw [h0]; rfl)).closeFinish_wf x
          simpa using this
        have hE2 := hE3.closeFinish_ok x
        have hsame : ∀ y, y ≠ x → ((Task.closeFinish x s3).tasks y).closed = (s.tasks y).closed ∧
            ((Task.closeFinish x s3).tasks y).timeout.due = (s.tasks y).timeout.due := by
          intro y hy
          rw [closeFinish_closed, closeFinish_due, sx y hy]
          simp [hy]
        have hne : ∀ y ∈ L', y ≠ x := fun y hy e => hnd.1 (e ▸ hy)
        have hS2 : ∀ y ∈ L', ((Task.closeFinish x s3).tasks y).closed = false ∧
            ((Task.closeFinish x s3).tasks y).tree_parent = none ∧
            ((Task.closeFinish x s3).tasks y).tree_first_child = none := by
          intro y hy
          obtain ⟨a, b, c⟩ := hS y (by simp [hy])
          exact ⟨(hsame y (hne y hy)).1.trans a, (F.step y).tree_parent.trans b,
            (F.step y).tree_first_child.trans c⟩
        have hP2 : L'.Pairwise (fun a b => ((Task.closeFinish x s3).tasks a).timeout.due ≤
            ((Task.closeFinish x s3).tasks b).timeout.due) := by
          have hP' := (List.pairwise_cons.mp hP).2
          refine hP'.imp_of_mem ?_
          intro a b ha hb hab
          rw [(hsame a (hne a ha)).2, (hsame b (hne b hb)).2]; exact hab
        obtain ⟨s', he, hw, F', hiff, hout⟩ :=
          ih f (Task.closeFinish x s3) (by simpa using hf) hL2 hE2 hS2 hP2
        have hnow : (Task.closeFinish x s3).now = s.now := F.now
        refine ⟨s', ?_, ?_, F.frame_trans F', ?_, ?_⟩
        · simp only [Scheduler.expire, hhead, ge_iff_le, hdue, if_true, hh, Task.handle_timeout,
            Res.bind_ok, hcl]
          exact he
        · have e1 : (x :: L').filter (fun y => decide (s.now < (s.tasks y).timeout.due)) =
              L'.filter (fun y => decide (s.now < (s.tasks y).timeout.due)) := by
            rw [List.filter_cons_of_neg]; simpa using hdue
          have e2 : L'.filter (fun y => decide (s.now < (s.tasks y).timeout.due)) =
              L'.filter (fun y => decide ((Task.closeFinish x s3).now <
                ((Task.closeFinish x s3).tasks y).timeout.due)) := by
            apply List.filter_congr
            intro y hy
            rw [hnow, (hsame y (hne y hy)).2]
          rw [e1, e2]; exact hw
        · intro y hy
          simp only [List.mem_cons] at hy
          rcases hy with e | hy
          · subst e
            have : ((Task.closeFinish y s3).tasks y).closed = true := by
              rw [closeFinish_closed]; exact closeStart_closed y s s3 (by rw [h0]; rfl)
            exact ⟨fun _ => hdue, fun _ => (F'.step y).closed_mono this⟩
          · rw [hiff y hy, hnow, (hsame y (hne y hy)).2]
        · intro y hy
          simp only [List.mem_cons, not_or] at hy
          rw [hout y hy.2, (hsame y hy.1).1]
      · -- the head is not due: the sweep stops, and nothing behind it is due either
        have hlt : s.now < (s.tasks x).timeout.due := not_le.mp hdue
        have hall : ∀ y ∈ x :: L', s.now < (s.tasks y).timeout.due := by
          intro y hy
          simp only [List.mem_cons] at hy
          rcases hy with e | hy
          · rw [e]; exact hlt
          · exact lt_of_lt_of_le hlt ((List.pairwise_cons.mp hP).1 y hy)
        refine ⟨s, ?_, ?_, CloseFrame.frame_refl s, ?_, fun _ _ => rfl⟩
        · simp [Scheduler.expire, hhead, hdue]
        · rw [List.filter_eq_self.mpr (fun y hy => by simpa using hall y hy)]; exact hL
        · intro y hy
          have := (hS y hy).1
          constructor
          · intro hc; rw [this] at hc; exact absurd hc (by simp)
          · intro hd; exact absurd (hall y hy) (not_lt.mpr hd)

/-! ## C2: arming does not keep the timeout list sorted -/

/-- C2 (code evaluated at the failing input): three fresh tasks armed at the same `now`
with read timeouts 100, 50, 75 in that order end up in the list in the order 75, 50, 100
(each `set_timeout` links at the head and never calls `sort_timeout`), which is not
ascending by `timeout.due`. -/
theorem C2_arming_100_50_75_not_sorted :
    armed_100_50_75.timeoutList = [2, 1, 0] ∧
      armed_100_50_75.timeoutDues = [1075000, 1050000, 1100000] ∧
      ¬ List.Sorted (fun a b : Int => a ≤ b) armed_100_50_75.timeoutDues := by
  decide

/-! ## C3: the timeout sweep -/

/-- C3 (as stated, refuted): a parent and its child are armed so that the list is sorted,
`[child (due 1050000), parent (due 1100000)]`; the sweep at `now = 1060000` closes the child
and, through the cascade of `close()`, the parent too, although the parent's `timeout.due`
is later than `now`; the list ends empty. -/
theorem C3_counterexample :
    parentChildArmed.timeoutList = [1, 0] ∧
      parentChildArmed.timeoutDues = [1050000, 1100000] ∧
      parentChildArmed.now = 1060000 ∧
      (Scheduler.sweep (fun _ => defaultHooks) parentChildArmed).closedFlags 2
        = some [true, true] ∧
      (Scheduler.sweep (fun _ => defaultHooks) parentChildArmed).timeoutList = some [] := by
  decide

/-- The example of C2 and C3 carried through the sweep: after arming 100, 50, 75 the head
of the list is the task with due 1075000, so the sweep at `now = 1060000` stops at once and
closes nothing, also not the task whose due time 1050000 has passed. -/
theorem sweep_after_arming_100_50_75 :
    armed_100_50_75_at_60.timeoutDues = [1075000, 1050000, 1100000] ∧
      (Scheduler.sweep (fun _ => defaultHooks) armed_100_50_75_at_60).closedFlags 3
        = some [false, false, false] ∧
      (Scheduler.sweep (fun _ => defaultHooks) armed_100_50_75_at_60).timeoutList
        = some [2, 1, 0] := by
  decide

/-- C3 (amended): for a well-formed timeout list that is sorted ascending by `timeout.due`
and whose tasks are open and have neither parent nor children, with timeouts enabled, the
default `handle_timeout` and a consistent epoll instance, the sweep at `now` returns; it has
closed exactly the listed tasks whose `timeout.due <= now`, and every listed task with
`timeout.due > now` is open and still in the list, in the same order. -/
theorem C3_sweep_sorted (h : TaskId → Hooks) (s : Sched) (L : List TaskId)
    (hh : ∀ i, (h i).handle_timeout = Task.handle_timeout)
    (hen : s.timeouts_enabled = true) (hL : TimeoutWF s L) (hE : EpollOk s)
    (hS : ∀ x ∈ L, (s.tasks x).closed = false ∧ (s.tasks x).tree_parent = none ∧
      (s.tasks x).tree_first_child = none)
    (hP : L.Pairwise (fun a b => (s.tasks a).timeout.due ≤ (s.tasks b).timeout.due)) :
    ∃ s', Scheduler.sweep h s = .ok () s' ∧
      s'.timeoutList = L.filter (fun x => decide (s.now < (s.tasks x).timeout.due)) ∧
      (∀ x ∈ L, ((s'.tasks x).closed = true ↔ (s.tasks x).timeout.due ≤ s.now)) ∧
      (∀ x ∈ L, s.now < (s.tasks x).timeout.due →
        (s'.tasks x).closed = false ∧ x ∈ s'.timeoutList) := by
  obtain ⟨s', he, hw, -, hiff, -⟩ := expire_sorted h hh L (s.ntasks + 1) s
    (by have := nodup_length_le hL.nodup hL.alloc; omega) hL hE hS hP
  refine ⟨s', by simp [Scheduler.sweep, hen, he], hw.timeoutList, hiff, ?_⟩
  intro x hx hlt
  constructor
  · cases hc : (s'.tasks x).closed
    · rfl
    · exact absurd ((hiff x hx).mp hc) (not_le.mpr hlt)
  · rw [hw.timeoutList]
    exact List.mem_filter.mpr ⟨hx, by simpa using hlt⟩

theorem sortedTimeouts_task (i : Nat) :
    sortedTimeouts.tasks i =
      if i = 0 then
        { fd := 5, events := 1,
          timeout := { prev := some 2, next := none, due := 1100000,
                       read := { due := 1100000, timeout := 100000 } } }
      else if i = 1 then
        { fd := 6, events := 1,
          timeout := { prev := none, next := some 2, due := 1050000,
                       read := { due := 1050000, timeout := 50000 } } }
      else if i = 2 then
        { fd := 7, events := 1,
          timeout := { prev := some 1, next := some 0, due := 1075000,
                       read := { due := 1075000, timeout := 75000 } } }
      else {} := rfl

theorem sortedTimeouts_timeoutWF : TimeoutWF sortedTimeouts [1, 2, 0] := by
  refine ⟨by decide, rfl, ?_, ?_, ?_⟩
  · intro x
    rw [sortedTimeouts_task]
    by_cases h0 : x = 0 <;> by_cases h1 : x = 1 <;> by_cases h2 : x = 2 <;>
      simp_all [nextIn, eq_comm]
  · intro x
    rw [sortedTimeouts_task]
    by_cases h0 : x = 0 <;> by_cases h1 : x = 1 <;> by_cases h2 : x = 2 <;>
      simp_all [prevIn, eq_comm]
  · intro x hx
    simp only [List.mem_cons, List.mem_singleton, List.not_mem_nil, or_false] at hx
    rcases hx with rfl | rfl | rfl <;> decide

theorem sortedTimeouts_epollOk : EpollOk sortedTimeouts := by
  refine ⟨?_, ?_⟩
  · intro i h _
    rw [sortedTimeouts_task] at h ⊢
    by_cases h0 : i = 0 <;> by_cases h1 : i = 1 <;> by_cases h2 : i = 2 <;>
      simp_all [sortedTimeouts]
  · intro i j hij h
    rw [sortedTimeouts_task] at h ⊢
    rw [sortedTimeouts_task]
    by_cases h0 : i = 0 <;> by_cases h1 : i = 1 <;> by_cases h2 : i = 2 <;>
      by_cases k0 : j = 0 <;> by_cases k1 : j = 1 <;> by_cases k2 : j = 2 <;>
      simp_all

/-- C3 witness: the sweep at `now = 1060000` over the sorted list with due times 1050000,
1075000, 1100000. -/
theorem C3_sweep_sorted_witness :
    ∃ s', Scheduler.sweep (fun _ => defaultHooks) sortedTimeouts = .ok () s' ∧
      s'.timeoutList = [1, 2, 0].filter
        (fun x => decide (sortedTimeouts.now < (sortedTimeouts.tasks x).timeout.due)) ∧
      (∀ x ∈ [1, 2, 0], ((s'.tasks x).closed = true ↔
        (sortedTimeouts.tasks x).timeout.due ≤ sortedTimeouts.now)) ∧
      (∀ x ∈ [1, 2, 0], sortedTimeouts.now < (sortedTimeouts.tasks x).timeout.due →
        (s'.tasks x).closed = false ∧ x ∈ s'.timeoutList) :=
  C3_sweep_sorted (fun _ => defaultHooks) sortedTimeouts [1, 2, 0] (fun _ => rfl) rfl
    sortedTimeouts_timeoutWF sortedTimeouts_epollOk
    (by
      intro x hx
      simp only [List.mem_cons, List.mem_singleton, List.not_mem_nil, or_false] at hx
      rcases hx with rfl | rfl | rfl <;> decide)
    (by decide)

/-! ## C4: a timeout of 0 does not clear the direction -/

/-- C4 (code evaluated at the failing input): with the scheduler clock at `now = 1000`,
`set_read_timeout(0)` on a fresh task stores `read.due = now + 0 = 1000`, links the task
with `timeout.due = 1000`, and a following `set_write_timeout(0)` leaves it linked with
`write.due = 1000` and `timeout.due = 1000`. -/
theorem C4_zero_timeout_is_due_now :
    ((Task.set_read_timeout 0 0 (freshTasks 1 1000)).tasks 0).timeout.read.due = 1000 ∧
      (Task.set_read_timeout 0 0 (freshTasks 1 1000)).timeoutList = [0] ∧
      ((Task.set_write_timeout 0 0
          (Task.set_read_timeout 0 0 (freshTasks 1 1000))).tasks 0).timeout.write.due = 1000 ∧
      ((Task.set_write_timeout 0 0
          (Task.set_read_timeout 0 0 (freshTasks 1 1000))).tasks 0).timeout.due = 1000 ∧
      (Task.set_write_timeout 0 0
          (Task.set_read_timeout 0 0 (freshTasks 1 1000))).timeoutList = [0] := by
  decide

/-! ## What leaves the deadlines alone -/

theorem sameTiming_refl (s : Sched) : SameTiming s s := ⟨rfl, fun _ => rfl⟩

theorem sameTiming_trans {a b c : Sched} (h1 : SameTiming a b) (h2 : SameTiming b c) :
    SameTiming a c :=
  ⟨h2.1.trans h1.1, fun i => (h2.2 i).trans (h1.2 i)⟩

theorem sameTiming_upd (s : Sched) (t : TaskId) (f : Task → Task)
    (hf : ∀ T, (f T).timing = T.timing) : SameTiming s (s.upd t f) := by
  refine ⟨rfl, fun i => ?_⟩
  rw [upd_tasks]; split
  · rename_i h; subst h; exact hf _
  · rfl

theorem sameTiming_setEpoll (s : Sched) (fd : Int) (v : Option Nat) :
    SameTiming s (s.setEpoll fd v) := ⟨rfl, fun _ => rfl⟩

theorem sameTiming_setTimeouts (s : Sched) (v : Option TaskId) :
    SameTiming s (s.setTimeouts v) := ⟨rfl, fun _ => rfl⟩

theorem sameTiming_setNext (s : Sched) (i : TaskId) (v : Option TaskId) :
    SameTiming s (s.setNext i v) := sameTiming_upd s i _ (fun _ => rfl)

theorem sameTiming_setPrev (s : Sched) (i : TaskId) (v : Option TaskId) :
    SameTiming s (s.setPrev i v) := sameTiming_upd s i _ (fun _ => rfl)

theorem epoll_ctl_timing {s s' : Sched} {op : EpollOp} {fd : Int} {ev : Nat}
    (h : epoll_ctl s op fd ev = some s') : SameTiming s s' := by
  unfold epoll_ctl at h
  split at h
  · exact absurd h (by simp)
  · split at h <;> cases h <;> exact sameTiming_setEpoll _ _ _

theorem schedule_timing {t : TaskId} {flags : Nat} {s s' : Sched}
    (h : (Task.schedule t flags s).state? = some s') : SameTiming s s' := by
  unfold Task.schedule at h
  have h1 := sameTiming_upd s t (fun T => { T with events := T.events ||| flags }) (fun _ => rfl)
  simp only at h
  split at h
  · cases h; exact h1
  · rename_i s2 h2
    cases h; exact sameTiming_trans h1 (epoll_ctl_timing h2)

theorem unschedule_timing {t : TaskId} {flags : Nat} {s s' : Sched}
    (h : (Task.unschedule t flags s).state? = some s') : SameTiming s s' := by
  unfold Task.unschedule at h
  have h1 := sameTiming_upd s t (fun T => { T with events := T.events &&& not32 flags })
    (fun _ => rfl)
  split at h
  · simp only at h
    split at h
    · cases h; exact h1
    · rename_i s2 h2
      cases h
      have h3 := sameTiming_trans h1 (epoll_ctl_timing h2)
      split
      · exact sameTiming_trans h3 (sameTiming_upd _ t _ (fun _ => rfl))
      · exact h3
  · cases h; exact sameTiming_refl s

theorem state_of_bind {α β : Type} {r : Res α} {k : α → Sched → Res β} {s' : Sched}
    (h : (r.bind k).state? = some s') :
    r.state? = some s' ∨ ∃ a s1, r = .ok a s1 ∧ (k a s1).state? = some s' := by
  cases r with
  | ok a s1 => exact Or.inr ⟨a, s1, rfl, h⟩
  | throw e s1 => exact Or.inl h
  | diverge => exact absurd h (by simp [Res.bind, Res.state?])

theorem ok_of_bind {α β : Type} {r : Res α} {k : α → Sched → Res β} {b : β} {s' : Sched}
    (h : r.bind k = .ok b s') : ∃ a s1, r = .ok a s1 ∧ k a s1 = .ok b s' := by
  cases r with
  | ok a s1 => exact ⟨a, s1, rfl, h⟩
  | throw e s1 => exact absurd h (by simp [Res.bind])
  | diverge => exact absurd h (by simp [Res.bind])

theorem state_of_ok {α : Type} {r : Res α} {a : α} {s : Sched} (h : r = .ok a s) :
    r.state? = some s := by rw [h]; rfl

theorem close_fd_timing {t : TaskId} {s s' : Sched}
    (h : (Task.close_fd t s).state? = some s') : SameTiming s s' := by
  unfold Task.close_fd at h
  split at h
  · cases h; exact sameTiming_refl s
  · rcases state_of_bind h with h1 | ⟨_, s1, h1, h2⟩
    · exact unschedule_timing h1
    · cases h2
      exact sameTiming_trans (unschedule_timing (state_of_ok h1))
        (sameTiming_trans (sameTiming_setEpoll _ _ _) (sameTiming_upd _ t _ (fun _ => rfl)))

theorem sys_write_timing (fd : Int) (bytes : List Nat) (n : Nat) (s : Sched) :
    SameTiming s (sys_write fd bytes n s).2 := by
  unfold sys_write
  split
  · exact sameTiming_refl s
  · split <;> exact ⟨rfl, fun _ => rfl⟩

theorem do_async_write_loop_timing (t : TaskId) (data : List Nat) (len : Nat) :
    ∀ (fuel written : Nat) (s s' : Sched),
      (Task.do_async_write_loop t data len fuel written s).state? = some s' →
        SameTiming s s' := by
  intro fuel
  induction fuel with
  | zero => intro written s s' h; exact absurd h (by simp [Task.do_async_write_loop, Res.state?])
  | succ n ih =>
    intro written s s' h
    unfold Task.do_async_write_loop at h
    split at h
    · have hw := sys_write_timing (s.tasks t).fd (data.drop written) (len - written) s
      split at h
      all_goals rename_i heq
      all_goals rw [heq] at hw
      · cases h; exact hw
      · exact sameTiming_trans hw (ih _ _ _ h)
      · cases h; exact hw
      · cases h; exact hw
      · have h2 := ih _ _ _ h
        refine sameTiming_trans hw (sameTiming_trans ?_ h2)
        exact sameTiming_upd _ t _ (fun _ => rfl)
    · cases h; exact sameTiming_refl s

theorem do_async_write_timing {t : TaskId} {data : List Nat} {len : Nat} {s s' : Sched}
    (h : (Task.do_async_write t data len s).state? = some s') : SameTiming s s' := by
  unfold Task.do_async_write at h
  split at h
  · cases h; exact sameTiming_refl s
  · exact do_async_write_loop_timing t data len _ _ _ _ h

theorem out_async_write_timing {o : Out} {t : TaskId} {s s' : Sched}
    (h : (Out.async_write o t s).state? = some s') : SameTiming s s' := by
  unfold Out.async_write at h
  rcases state_of_bind h with h1 | ⟨_, s1, h1, h2⟩
  · exact do_async_write_timing h1
  · cases h2; exact do_async_write_timing (state_of_ok h1)

theorem drain_timing (t : TaskId) : ∀ (fuel : Nat) (s s' : Sched),
    (Task.drain fuel t s).state? = some s' → SameTiming s s' := by
  intro fuel
  induction fuel with
  | zero => intro s s' h; exact absurd h (by simp [Task.drain, Res.state?])
  | succ n ih =>
    intro s s' h
    unfold Task.drain at h
    split at h
    · cases h; exact sameTiming_refl s
    · rcases state_of_bind h with h1 | ⟨r, s1, h1, h2⟩
      · exact out_async_write_timing h1
      · have h3 := out_async_write_timing (state_of_ok h1)
        simp only at h2
        split at h2
        · cases h2
          exact sameTiming_trans h3 (sameTiming_upd _ t _ (fun _ => rfl))
        · have h4 := ih _ _ h2
          have h5 := sameTiming_upd s1 t (fun T => { T with out := r.2 :: T.out.tail })
            (fun _ => rfl)
          refine sameTiming_trans h3 (sameTiming_trans (sameTiming_trans h5 ?_) h4)
          exact sameTiming_upd _ t _ (fun _ => rfl)

theorem sameTiming_then_setNext {s a : Sched} (h : SameTiming s a) (i : TaskId)
    (v : Option TaskId) : SameTiming s (a.setNext i v) :=
  sameTiming_trans h (sameTiming_setNext a i v)

theorem sameTiming_then_setPrev {s a : Sched} (h : SameTiming s a) (i : TaskId)
    (v : Option TaskId) : SameTiming s (a.setPrev i v) :=
  sameTiming_trans h (sameTiming_setPrev a i v)

theorem sameTiming_then_setTimeouts {s a : Sched} (h : SameTiming s a) (v : Option TaskId) :
    SameTiming s (a.setTimeouts v) :=
  sameTiming_trans h (sameTiming_setTimeouts a v)

theorem sameLinks_refl (s : Sched) : SameButLinks s s := ⟨rfl, fun _ => rfl⟩

theorem sameLinks_trans {a b c : Sched} (h1 : SameButLinks a b) (h2 : SameButLinks b c) :
    SameButLinks a c :=
  ⟨h2.1.trans h1.1, fun i => (h2.2 i).trans (h1.2 i)⟩

theorem sameLinks_upd (s : Sched) (t : TaskId) (f : Task → Task)
    (hf : ∀ T, (f T).unlinked = T.unlinked) : SameButLinks s (s.upd t f) := by
  refine ⟨rfl, fun i => ?_⟩
  rw [upd_tasks]; split
  · rename_i h; subst h; exact hf _
  · rfl

theorem sameLinks_setTimeouts (s : Sched) (v : Option TaskId) :
    SameButLinks s (s.setTimeouts v) := ⟨rfl, fun _ => rfl⟩

theorem sameLinks_setNext (s : Sched) (i : TaskId) (v : Option TaskId) :
    SameButLinks s (s.setNext i v) := sameLinks_upd s i _ (fun _ => rfl)

theorem sameLinks_setPrev (s : Sched) (i : TaskId) (v : Option TaskId) :
    SameButLinks s (s.setPrev i v) := sameLinks_upd s i _ (fun _ => rfl)

theorem sameLinks_then_setNext {s a : Sched} (h : SameButLinks s a) (i : TaskId)
    (v : Option TaskId) : SameButLinks s (a.setNext i v) :=
  sameLinks_trans h (sameLinks_setNext a i v)

theorem sameLinks_then_setPrev {s a : Sched} (h : SameButLinks s a) (i : TaskId)
    (v : Option TaskId) : SameButLinks s (a.setPrev i v) :=
  sameLinks_trans h (sameLinks_setPrev a i v)

theorem sameLinks_then_setTimeouts {s a : Sched} (h : SameButLinks s a) (v : Option TaskId) :
    SameButLinks s (a.setTimeouts v) :=
  sameLinks_trans h (sameLinks_setTimeouts a v)

theorem sort_forward_links (t : TaskId) : ∀ (fuel : Nat) (s s' : Sched),
    Task.sort_forward fuel t s = some s' → SameButLinks s s' := by
  intro fuel
  induction fuel with
  | zero => intro s s' h; exact absurd h (by simp [Task.sort_forward])
  | succ n ih =>
    intro s s' h
    unfold Task.sort_forward at h
    split at h
    · cases h; exact sameLinks_refl s
    · split at h
      · simp -zeta only [Option.bind_eq_bind] at h
        lift_lets at h
        extract_lets s1 s2 at h
        have e1 : SameButLinks s s1 := by
          simp only [s1]; split
          · exact sameLinks_setTimeouts _ _
          · exact sameLinks_refl _
        clear_value s1
        have e2 : SameButLinks s s2 := by
          simp only [s2]; split
          · exact sameLinks_then_setNext e1 _ _
          · exact e1
        clear_value s2
        rw [Option.bind_eq_some] at h
        obtain ⟨n2, -, h⟩ := h
        lift_lets at h
        extract_lets s3 s4 at h
        have e4 : SameButLinks s s4 :=
          sameLinks_then_setPrev (sameLinks_then_setPrev e2 _ _) _ _
        clear_value s4
        rw [Option.bind_eq_some] at h
        obtain ⟨p4, -, h⟩ := h
        lift_lets at h
        extract_lets s5 at h
        have e5 : SameButLinks s s5 := sameLinks_then_setNext e4 _ _
        clear_value s5
        rw [Option.bind_eq_some] at h
        obtain ⟨p5, -, h⟩ := h
        lift_lets at h
        extract_lets s6 s7 at h
        have e6 : SameButLinks s s6 := sameLinks_then_setNext e5 _ _
        clear_value s6
        have e7 : SameButLinks s s7 := by
          simp only [s7]; split
          · exact sameLinks_then_setPrev e6 _ _
          · exact e6
        exact sameLinks_trans e7 (ih _ _ h)
      · cases h; exact sameLinks_refl s

theorem sort_backward_links (t : TaskId) : ∀ (fuel : Nat) (s s' : Sched),
    Task.sort_backward fuel t s = some s' → SameButLinks s s' := by
  intro fuel
  induction fuel with
  | zero => intro s s' h; exact absurd h (by simp [Task.sort_backward])
  | succ n ih =>
    intro s s' h
    unfold Task.sort_backward at h
    split at h
    · cases h; exact sameLinks_refl s
    · split at h
      · simp -zeta only [Option.bind_eq_bind] at h
        lift_lets at h
        extract_lets s1 s2 at h
        have e1 : SameButLinks s s1 := by
          simp only [s1]; split
          · exact sameLinks_setTimeouts _ _
          · exact sameLinks_refl _
        clear_value s1
        have e2 : SameButLinks s s2 := by
          simp only [s2]; split
          · exact sameLinks_then_setPrev e1 _ _
          · exact e1
        clear_value s2
        rw [Option.bind_eq_some] at h
        obtain ⟨n2, -, h⟩ := h
        lift_lets at h
        extract_lets s3 s4 at h
        have e4 : SameButLinks s s4 :=
          sameLinks_then_setNext (sameLinks_then_setNext e2 _ _) _ _
        clear_value s4
        rw [Option.bind_eq_some] at h
        obtain ⟨p4, -, h⟩ := h
        lift_lets at h
        extract_lets s5 at h
        have e5 : SameButLinks s s5 := sameLinks_then_setPrev e4 _ _
        clear_value s5
        rw [Option.bind_eq_some] at h
        obtain ⟨p5, -, h⟩ := h
        lift_lets at h
        extract_lets s6 s7 at h
        have e6 : SameButLinks s s6 := sameLinks_then_setPrev e5 _ _
        clear_value s6
        have e7 : SameButLinks s s7 := by
          simp only [s7]; split
          · exact sameLinks_then_setNext e6 _ _
          · exact e6
        exact sameLinks_trans e7 (ih _ _ h)
      · cases h; exact sameLinks_refl s

theorem sort_timeout_links {t : TaskId} {s s' : Sched}
    (h : (Task.sort_timeout t s).state? = some s') : SameButLinks s s' := by
  unfold Task.sort_timeout at h
  split at h
  · rename_i s1 h1
    cases h
    simp only [Option.bind_eq_some] at h1
    obtain ⟨a, ha, hb⟩ := h1
    exact sameLinks_trans (sort_forward_links t _ _ _ ha) (sort_backward_links t _ _ _ hb)
  · exact absurd h (by simp [Res.state?])

theorem sort_timeout_timing {t : TaskId} {s s' : Sched}
    (h : (Task.sort_timeout t s).state? = some s') : SameTiming s s' := by
  obtain ⟨h1, h2⟩ := sort_timeout_links h
  refine ⟨h1, fun i => ?_⟩
  have h3 := congrArg Task.timing (h2 i)
  exact h3

/-! ## The deadlines under `set_timeout` and `Task::run` -/

theorem timingOk_congr {T T' : Task} (h : T'.timing = T.timing) :
    T'.timingOk ↔ T.timingOk := by
  unfold Task.timing at h
  simp only [Prod.mk.injEq] at h
  obtain ⟨h1, h2, h3⟩ := h
  unfold Task.timingOk Task.dueOk
  rw [h1, h2, h3]

theorem timingWeak_congr {T T' : Task} (h : T'.timing = T.timing) :
    T'.timingWeak ↔ T.timingWeak := by
  unfold Task.timing at h
  simp only [Prod.mk.injEq] at h
  obtain ⟨h1, h2, h3⟩ := h
  unfold Task.timingWeak
  rw [h1, h2, h3]

theorem timingWeak_of_ok {T : Task} (h : T.timingOk) : T.timingWeak := by
  obtain ⟨h1, h2, h3⟩ := h
  refine ⟨h1, h2, fun hr hw => ?_⟩
  rcases h3 with h3 | ⟨h3, _⟩
  · rw [h3, hr, hw]; rfl
  · exact absurd hw h3

theorem TimeoutInv.of_sameTiming {s s' : Sched} (h : TimeoutInv s) (e : SameTiming s s') :
    TimeoutInv s' :=
  ⟨by rw [e.1]; exact h.1, fun i => (timingOk_congr (e.2 i)).2 (h.2 i)⟩

theorem TimeoutInvIn.in_sameTiming {t : TaskId} {s s' : Sched} (h : TimeoutInvIn t s)
    (e : SameTiming s s') : TimeoutInvIn t s' :=
  ⟨by rw [e.1]; exact h.1, fun i hi => (timingOk_congr (e.2 i)).2 (h.2.1 i hi),
    (timingWeak_congr (e.2 t)).2 h.2.2⟩

theorem TimeoutInv.toIn {s : Sched} (h : TimeoutInv s) (t : TaskId) : TimeoutInvIn t s :=
  ⟨h.1, fun i _ => h.2 i, timingWeak_of_ok (h.2 t)⟩

theorem millisecs_nonneg {millisecs : Nat} (h : millisecs < 2147483648) :
    0 ≤ millisecs_to_time64 (toInt32 millisecs) := by
  unfold millisecs_to_time64 toInt32 UINT32
  have h1 : millisecs % 4294967296 = millisecs := Nat.mod_eq_of_lt (by omega)
  rw [h1, if_pos h]
  positivity

theorem timing_ne {s : Sched} {t i : TaskId} (f : Task → Task) (h : i ≠ t) :
    ((s.upd t f).tasks i).timing = (s.tasks i).timing := by
  rw [upd_tasks_ne s f h]

theorem inv_setDue {s s1 : Sched} {t : TaskId} {v : Int} (h : TimeoutInv s)
    (hnow : s1.now = s.now) (hne : ∀ i, i ≠ t → s1.tasks i = s.tasks i)
    (hr : 0 ≤ (s1.tasks t).timeout.read.timeout) (hw : 0 ≤ (s1.tasks t).timeout.write.timeout)
    (hv : v = min_nonzero (s1.tasks t).timeout.read.due (s1.tasks t).timeout.write.due) :
    TimeoutInv (s1.setDue t v) := by
  refine ⟨by rw [setDue_now, hnow]; exact h.1, fun i => ?_⟩
  by_cases hi : i = t
  · subst hi
    unfold Sched.setDue
    rw [upd_tasks_same]
    exact ⟨hr, hw, Or.inl hv⟩
  · unfold Sched.setDue
    rw [upd_tasks_ne _ _ hi, hne i hi]
    exact h.2 i

theorem set_timeout_inv (t : TaskId) (d : Dir) (millisecs : Nat) (s : Sched)
    (hm : millisecs < 2147483648) (h : TimeoutInv s) :
    TimeoutInv (Task.set_timeout t d millisecs s) := by
  unfold Task.set_timeout
  split
  · exact h
  · have hto := millisecs_nonneg hm
    have hnow := h.1
    generalize millisecs_to_time64 (toInt32 millisecs) = dur at hto ⊢
    have hne : s.now + dur ≠ 0 := by omega
    have hb1 : (s.now + dur == 0) = false := by simpa using hne
    have hb2 : (s.now + dur != 0) = true := by simpa using hne
    simp only [hb1, Bool.false_and, hb2, if_true, Bool.false_eq_true, if_false]
    have hs1t : ((s.upd t (fun T =>
        { T with timeout := T.timeout.set d { due := s.now + dur, timeout := dur } })).tasks t).timeout =
        (s.tasks t).timeout.set d { due := s.now + dur, timeout := dur } := by
      rw [upd_tasks_same]
    have hs1n : ∀ i, i ≠ t → (s.upd t (fun T =>
        { T with timeout := T.timeout.set d { due := s.now + dur, timeout := dur } })).tasks i = s.tasks i :=
      fun i hi => upd_tasks_ne s _ hi
    have hs1now : (s.upd t (fun T =>
        { T with timeout := T.timeout.set d { due := s.now + dur, timeout := dur } })).now = s.now := rfl
    generalize s.upd t (fun T =>
        { T with timeout := T.timeout.set d { due := s.now + dur, timeout := dur } }) = s1 at hs1t hs1n hs1now ⊢
    obtain ⟨hr0, hw0, -⟩ := h.2 t
    have key : ∀ v, v = (if ((s1.tasks t).timeout.get d.other).due = 0 then s.now + dur
        else min ((s1.tasks t).timeout.get d.other).due (s.now + dur)) →
        TimeoutInv (s1.setDue t v) := by
      intro v hv
      refine inv_setDue h hs1now hs1n ?_ ?_ ?_
      · rw [hs1t]; cases d
        · exact hto
        · exact hr0
      · rw [hs1t]; cases d
        · exact hw0
        · exact hto
      · rw [hv, hs1t]; cases d
        · simp only [Timeout.set, Timeout.get, Dir.other, min_nonzero, if_neg hne]
          split
          · rfl
          · exact min_comm _ _
        · simp only [Timeout.set, Timeout.get, Dir.other, min_nonzero, if_neg hne]
    split
    · rename_i ho
      have ho2 : ((s1.tasks t).timeout.get d.other).due ≠ 0 := by simpa using ho
      exact key _ (by rw [if_neg ho2])
    · rename_i ho
      have ho2 : ((s1.tasks t).timeout.get d.other).due = 0 := by simpa using ho
      have k := key (s.now + dur) (by rw [if_pos ho2])
      split
      · refine k.of_sameTiming ?_
        apply sameTiming_then_setTimeouts
        split
        · exact sameTiming_then_setPrev (sameTiming_setNext _ _ _) _ _
        · exact sameTiming_setNext _ _ _
      · exact k

theorem sameTiming_then_upd {s a : Sched} (h : SameTiming s a) (t : TaskId) (f : Task → Task)
    (hf : ∀ T, (f T).timing = T.timing) : SameTiming s (a.upd t f) :=
  sameTiming_trans h (sameTiming_upd a t f hf)

theorem refresh_read_inv {t : TaskId} {s : Sched} (h : TimeoutInvIn t s) :
    TimeoutInvIn t (s.upd t (fun T => { T with timeout := { T.timeout with
      read := { T.timeout.read with due := s.now + T.timeout.read.timeout } } })) := by
  obtain ⟨h1, h2, h3, h4, -⟩ := h
  refine ⟨h1, fun i hi => ?_, ?_⟩
  · rw [upd_tasks_ne _ _ hi]; exact h2 i hi
  · rw [upd_tasks_same]
    refine ⟨h3, h4, fun hr _ => ?_⟩
    simp only at hr
    omega

theorem refresh_write_inv {t : TaskId} {s : Sched} (h : TimeoutInvIn t s) :
    TimeoutInvIn t (s.upd t (fun T => { T with timeout := { T.timeout with
      write := { T.timeout.write with due := s.now + T.timeout.write.timeout } } })) := by
  obtain ⟨h1, h2, h3, h4, -⟩ := h
  refine ⟨h1, fun i hi => ?_, ?_⟩
  · rw [upd_tasks_ne _ _ hi]; exact h2 i hi
  · rw [upd_tasks_same]
    refine ⟨h3, h4, fun _ hw => ?_⟩
    simp only at hw
    omega

theorem run_read_inv {h : Hooks} {t : TaskId} {flags : Nat} {s s' : Sched}
    (hh : h.keepTimeouts) (hi : TimeoutInvIn t s)
    (hr : (Task.run_read h t flags s).state? = some s') : TimeoutInvIn t s' := by
  unfold Task.run_read at hr
  split at hr
  · lift_lets at hr
    extract_lets s1 s2 tried at hr
    have i1 : TimeoutInvIn t s1 := by
      simp only [s1]; split
      · exact refresh_read_inv hi
      · exact hi
    clear_value s1
    have i2 : TimeoutInvIn t s2 := i1.in_sameTiming (sameTiming_upd _ t _ (fun _ => rfl))
    clear_value s2
    have ht : ∀ s3, tried.state? = some s3 → TimeoutInvIn t s3 := by
      intro s3 h3
      rcases state_of_bind h3 with h4 | ⟨_, s4, h4, h5⟩
      · exact i2.in_sameTiming (hh t s2 s3 (Or.inl h4))
      · have i4 := i2.in_sameTiming (hh t s2 s4 (Or.inl (state_of_ok h4)))
        split at h5 <;> cases h5 <;> exact i4
    clear_value tried
    cases tried with
    | ok a s3 =>
      cases hr
      exact (ht s3 rfl).in_sameTiming (sameTiming_upd _ t _ (fun _ => rfl))
    | diverge => exact absurd hr (by simp [Res.state?])
    | throw e s3 =>
      have i3 := ht s3 rfl
      simp only at hr
      split at hr
      · cases hr; exact i3
      · have i4 := i3.in_sameTiming
          (sameTiming_upd s3 t (fun T => { T with sated := true }) (fun _ => rfl))
        split at hr
        · cases hr; exact i4
        · rcases state_of_bind hr with h5 | ⟨_, s5, h5, h6⟩
          · exact i4.in_sameTiming (unschedule_timing h5)
          · have i5 := i4.in_sameTiming (unschedule_timing (state_of_ok h5))
            cases h6
            refine i5.in_sameTiming ?_
            refine sameTiming_then_upd (sameTiming_then_upd ?_ _ _ ?_) _ _ ?_
            · exact ⟨rfl, fun _ => rfl⟩
            · intro _; rfl
            · intro _; rfl
  · cases hr; exact hi

theorem run_write_inv {t : TaskId} {flags : Nat} {s s' : Sched} (hi : TimeoutInvIn t s)
    (hr : (Task.run_write t flags s).state? = some s') : TimeoutInvIn t s' := by
  unfold Task.run_write at hr
  split at hr
  · lift_lets at hr
    extract_lets s1 at hr
    have i1 : TimeoutInvIn t s1 := by
      simp only [s1]; split
      · exact refresh_write_inv hi
      · exact hi
    clear_value s1
    rcases state_of_bind hr with h2 | ⟨_, s2, h2, h3⟩
    · exact i1.in_sameTiming (drain_timing t _ _ _ h2)
    · have i2 := i1.in_sameTiming (drain_timing t _ _ _ (state_of_ok h2))
      split at h3
      · rcases state_of_bind h3 with h4 | ⟨_, s3, h4, h5⟩
        · exact i2.in_sameTiming (unschedule_timing h4)
        · have i3 := i2.in_sameTiming (unschedule_timing (state_of_ok h4))
          split at h5 <;> cases h5 <;> exact i3
      · cases h3; exact i2
  · cases hr; exact hi

theorem inv_of_setDue {s : Sched} {t : TaskId} {v : Int} (h : TimeoutInvIn t s)
    (hv : v = min_nonzero (s.tasks t).timeout.read.due (s.tasks t).timeout.write.due ∨
      ((s.tasks t).timeout.write.due ≠ 0 ∧ v = (s.tasks t).timeout.read.due)) :
    TimeoutInv (s.setDue t v) := by
  refine ⟨h.1, fun i => ?_⟩
  unfold Sched.setDue
  by_cases hi : i = t
  · subst hi
    rw [upd_tasks_same]
    exact ⟨h.2.2.1, h.2.2.2.1, hv⟩
  · rw [upd_tasks_ne _ _ hi]
    exact h.2.1 i hi

theorem unlink_timeout_sameTiming {s : Sched} {t : TaskId}
    (h : (s.tasks t).timeout.due = 0) : SameTiming s (Task.unlink_timeout t s) := by
  refine ⟨unlink_timeout_now s t, fun i => ?_⟩
  have hc := unlink_timeout_core s t i
  have hr0 := congrArg (fun T : Task => T.timeout.read) hc
  have hw0 := congrArg (fun T : Task => T.timeout.write) hc
  have hr : ((Task.unlink_timeout t s).tasks i).timeout.read = (s.tasks i).timeout.read := hr0
  have hw : ((Task.unlink_timeout t s).tasks i).timeout.write = (s.tasks i).timeout.write := hw0
  have hd := unlink_timeout_due s t i
  unfold Task.timing
  rw [hr, hw, hd]
  split
  · rename_i e; subst e; rw [h]
  · rfl

theorem run_timeout_inv {t : TaskId} {s s' : Sched} (hi : TimeoutInvIn t s)
    (hr : (Task.run_timeout t s).state? = some s') : TimeoutInv s' := by
  unfold Task.run_timeout at hr
  split at hr
  · lift_lets at hr
    extract_lets sa s1 at hr
    have i1 : TimeoutInv s1 := by
      simp only [s1, sa]
      split
      · rename_i hc
        simp only [Bool.and_eq_true, bne_iff_ne, ne_eq] at hc
        have k := inv_of_setDue (v := (s.tasks t).timeout.read.due) hi (Or.inr ⟨hc.1, rfl⟩)
        split
        · rename_i hz
          exact k.of_sameTiming (unlink_timeout_sameTiming (by simpa using hz))
        · exact k
      · refine inv_of_setDue hi (Or.inl ?_)
        unfold min_nonzero
        by_cases h1 : (s.tasks t).timeout.read.due = 0 <;>
          by_cases h2 : (s.tasks t).timeout.write.due = 0 <;> simp [h1, h2]
    clear_value s1
    exact i1.of_sameTiming (sort_timeout_timing hr)
  · rename_i hc
    cases hr
    simp only [Bool.or_eq_true, bne_iff_ne, ne_eq, not_or, not_not] at hc
    obtain ⟨h1, h2, h3, h4, h5⟩ := hi
    refine ⟨h1, fun i => ?_⟩
    by_cases hit : i = t
    · subst hit
      refine ⟨h3, h4, Or.inl ?_⟩
      rw [h5 hc.1 hc.2, hc.1, hc.2]; rfl
    · exact h2 i hit

theorem run_inv {h : Hooks} {t : TaskId} {flags : Nat} {s s' : Sched}
    (hh : h.keepTimeouts) (hi : TimeoutInv s)
    (hr : Task.run h t flags s = .ok () s') : TimeoutInv s' := by
  unfold Task.run at hr
  split at hr
  · obtain ⟨_, s2, h2, h3⟩ := ok_of_bind hr
    have e1 := sameTiming_upd s t (fun T => { T with eoinput := true }) (fun _ => rfl)
    have e2 := hh t _ s2 (Or.inr (state_of_ok h2))
    have e3 := close_fd_timing (state_of_ok h3)
    exact hi.of_sameTiming (sameTiming_trans (sameTiming_trans e1 e2) e3)
  · split at hr
    · cases hr
    · obtain ⟨_, s1, h1, h2⟩ := ok_of_bind hr
      obtain ⟨_, s2, h3, h4⟩ := ok_of_bind h2
      exact run_timeout_inv (run_write_inv (run_read_inv hh (hi.toIn t) (state_of_ok h1))
        (state_of_ok h3)) (state_of_ok h4)

theorem exec_inv (h : TaskId → Hooks) (hh : ∀ i, (h i).keepTimeouts) (c : TimeoutCall)
    (s s' : Sched) (hc : c.inRange = true) (hi : TimeoutInv s)
    (hr : c.exec h s = .ok () s') : TimeoutInv s' := by
  cases c with
  | set_read_timeout t millisecs =>
    cases hr
    exact set_timeout_inv t .read millisecs s (by simpa [TimeoutCall.inRange] using hc) hi
  | set_write_timeout t millisecs =>
    cases hr
    exact set_timeout_inv t .write millisecs s (by simpa [TimeoutCall.inRange] using hc) hi
  | run t flags => exact run_inv (hh t) hi hr
  | clock now =>
    cases hr
    exact ⟨by simpa [TimeoutCall.inRange] using hc, hi.2⟩

theorem execAll_inv (h : TaskId → Hooks) (hh : ∀ i, (h i).keepTimeouts) :
    ∀ (calls : List TimeoutCall) (s s' : Sched), calls.all TimeoutCall.inRange = true →
      TimeoutInv s → TimeoutCall.execAll h calls s = .ok () s' → TimeoutInv s' := by
  intro calls
  induction calls with
  | nil => intro s s' _ hi hr; cases hr; exact hi
  | cons c cs ih =>
    intro s s' hc hi hr
    simp only [List.all_cons, Bool.and_eq_true] at hc
    obtain ⟨_, s1, h1, h2⟩ := ok_of_bind hr
    exact ih s1 s' hc.2 (exec_inv h hh c s s1 hc.1 hi h1) h2

/-! ## The exact value of `timeout.due` -/

theorem sameTimingBut_of_same {t : TaskId} {s s' : Sched} (h : SameTiming s s') :
    SameTimingBut t s s' := fun i _ => h.2 i

theorem sameTimingBut_refl (t : TaskId) (s : Sched) : SameTimingBut t s s := fun _ _ => rfl

theorem sameTimingBut_trans {t : TaskId} {a b c : Sched} (h1 : SameTimingBut t a b)
    (h2 : SameTimingBut t b c) : SameTimingBut t a c :=
  fun i hi => (h2 i hi).trans (h1 i hi)

theorem sameTimingBut_upd (t : TaskId) (s : Sched) (f : Task → Task) :
    SameTimingBut t s (s.upd t f) := fun i hi => by rw [upd_tasks_ne _ _ hi]

theorem sameTimingBut_setDue (t : TaskId) (s : Sched) (v : Int) :
    SameTimingBut t s (s.setDue t v) := sameTimingBut_upd t s _

theorem unlink_timeout_but (t : TaskId) (s : Sched) :
    SameTimingBut t s (Task.unlink_timeout t s) := by
  intro i hi
  have hc := unlink_timeout_core s t i
  have hr0 := congrArg (fun T : Task => T.timeout.read) hc
  have hw0 := congrArg (fun T : Task => T.timeout.write) hc
  have hr : ((Task.unlink_timeout t s).tasks i).timeout.read = (s.tasks i).timeout.read := hr0
  have hw : ((Task.unlink_timeout t s).tasks i).timeout.write = (s.tasks i).timeout.write := hw0
  have hd := unlink_timeout_due s t i
  rw [if_neg hi] at hd
  unfold Task.timing
  rw [hr, hw, hd]

/-- `set_timeout` on task `t` leaves the deadlines of the other tasks alone. -/
theorem set_timeout_but (t : TaskId) (d : Dir) (millisecs : Nat) (s : Sched) :
    SameTimingBut t s (Task.set_timeout t d millisecs s) := by
  unfold Task.set_timeout
  split
  · exact sameTimingBut_refl t s
  · lift_lets
    intro was to_timeout to_due s1 other_due
    have e1 : SameTimingBut t s s1 := sameTimingBut_upd t s _
    clear_value s1
    split
    · split
      · exact sameTimingBut_trans e1 (sameTimingBut_setDue t _ _)
      · exact sameTimingBut_trans e1 (unlink_timeout_but t _)
    · split
      · split
        · exact sameTimingBut_trans e1 (sameTimingBut_setDue t _ _)
        · intro s2
          have e2 : SameTimingBut t s s2 := sameTimingBut_trans e1 (sameTimingBut_setDue t _ _)
          clear_value s2
          split
          · intro s3 s4
            refine sameTimingBut_trans e2 (sameTimingBut_of_same ?_)
            apply sameTiming_then_setTimeouts
            simp only [s4, s3]
            split
            · exact sameTiming_then_setPrev (sameTiming_setNext _ _ _) _ _
            · exact sameTiming_setNext _ _ _
          · exact e2
      · exact e1

theorem unlinked_timing {T T' : Task} (h : T'.unlinked = T.unlinked) : T'.timing = T.timing := by
  have h3 := congrArg Task.timing h
  exact h3

theorem unlinked_out {T T' : Task} (h : T'.unlinked = T.unlinked) : T'.out = T.out := by
  have h3 : T'.unlinked.out = T.unlinked.out := congrArg Task.out h
  exact h3

theorem dueRun_congr {T T' : Task} (ht : T'.timing = T.timing) (ho : T'.out = T.out) :
    T'.dueRun ↔ T.dueRun := by
  unfold Task.timing at ht
  simp only [Prod.mk.injEq] at ht
  obtain ⟨h1, h2, h3⟩ := ht
  unfold Task.dueRun
  rw [h1, h2, h3, ho]

theorem unlink_timeout_fields (s : Sched) (t : TaskId) :
    ((Task.unlink_timeout t s).tasks t).timeout.read = (s.tasks t).timeout.read ∧
      ((Task.unlink_timeout t s).tasks t).timeout.write = (s.tasks t).timeout.write ∧
      ((Task.unlink_timeout t s).tasks t).out = (s.tasks t).out ∧
      ((Task.unlink_timeout t s).tasks t).timeout.due = 0 := by
  have hc := unlink_timeout_core s t t
  have hr0 := congrArg (fun T : Task => T.timeout.read) hc
  have hw0 := congrArg (fun T : Task => T.timeout.write) hc
  have hd := unlink_timeout_due s t t
  rw [if_pos rfl] at hd
  exact ⟨hr0, hw0, core_out hc, hd⟩

theorem setDue_fields (s : Sched) (t : TaskId) (v : Int) :
    ((s.setDue t v).tasks t).timeout.read = (s.tasks t).timeout.read ∧
      ((s.setDue t v).tasks t).timeout.write = (s.tasks t).timeout.write ∧
      ((s.setDue t v).tasks t).out = (s.tasks t).out := by
  unfold Sched.setDue
  rw [upd_tasks_same]
  exact ⟨rfl, rfl, rfl⟩

/-- The aggregate-timeout tail of `Task::run` leaves `Task.dueRun`, the deadlines and the
queue being those it found. -/
theorem run_timeout_due {t : TaskId} {s s' : Sched} (hw : (s.tasks t).timingWeak)
    (h : (Task.run_timeout t s).state? = some s') :
    (s'.tasks t).dueRun ∧ (s'.tasks t).timeout.read = (s.tasks t).timeout.read ∧
      (s'.tasks t).timeout.write = (s.tasks t).timeout.write ∧
      (s'.tasks t).out = (s.tasks t).out := by
  unfold Task.run_timeout at h
  split at h
  · lift_lets at h
    extract_lets sa s1 at h
    have e1 : (s1.tasks t).dueRun ∧ (s1.tasks t).timeout.read = (s.tasks t).timeout.read ∧
        (s1.tasks t).timeout.write = (s.tasks t).timeout.write ∧
        (s1.tasks t).out = (s.tasks t).out := by
      simp only [s1, sa]
      split
      · rename_i hc
        simp only [Bool.and_eq_true, bne_iff_ne, ne_eq, List.isEmpty_iff] at hc
        split
        · rename_i hz
          have hz' : (s.tasks t).timeout.read.due = 0 := by
            have := hz
            simp only [Sched.setDue, upd_tasks_same, beq_iff_eq] at this
            exact this
          obtain ⟨u1, u2, u3, u4⟩ :=
            unlink_timeout_fields (s.setDue t (s.tasks t).timeout.read.due) t
          obtain ⟨v1, v2, v3⟩ := setDue_fields s t (s.tasks t).timeout.read.due
          refine ⟨?_, u1.trans v1, u2.trans v2, u3.trans v3⟩
          unfold Task.dueRun
          rw [u4, u1, u2, u3, v1, v2, v3, if_pos ⟨hc.1, hc.2⟩, hz']
        · refine ⟨?_, ?_, ?_, ?_⟩
          · unfold Task.dueRun Sched.setDue
            rw [upd_tasks_same]
            simp only
            rw [if_pos ⟨hc.1, hc.2⟩]
          · unfold Sched.setDue; rw [upd_tasks_same]
          · unfold Sched.setDue; rw [upd_tasks_same]
          · unfold Sched.setDue; rw [upd_tasks_same]
      · rename_i hc
        simp only [Bool.and_eq_true, bne_iff_ne, ne_eq, List.isEmpty_iff, not_and] at hc
        refine ⟨?_, ?_, ?_, ?_⟩
        · unfold Task.dueRun Sched.setDue
          rw [upd_tasks_same]
          simp only
          have hn : ¬ ((s.tasks t).timeout.write.due ≠ 0 ∧ (s.tasks t).out = []) :=
            fun hx => hc hx.1 hx.2
          rw [if_neg hn]
          unfold min_nonzero
          by_cases h1 : (s.tasks t).timeout.read.due = 0 <;>
            by_cases h2 : (s.tasks t).timeout.write.due = 0 <;> simp [h1, h2]
        · unfold Sched.setDue; rw [upd_tasks_same]
        · unfold Sched.setDue; rw [upd_tasks_same]
        · unfold Sched.setDue; rw [upd_tasks_same]
    clear_value s1
    have hl := (sort_timeout_links h).2 t
    obtain ⟨a1, a2, a3, a4⟩ := e1
    have ht := unlinked_timing hl
    have ho := unlinked_out hl
    have ht' := ht
    unfold Task.timing at ht'
    simp only [Prod.mk.injEq] at ht'
    exact ⟨(dueRun_congr ht ho).2 a1, ht'.2.1.trans a2, ht'.2.2.trans a3, ho.trans a4⟩
  · rename_i hc
    cases h
    simp only [Bool.or_eq_true, bne_iff_ne, ne_eq, not_or, not_not] at hc
    refine ⟨?_, rfl, rfl, rfl⟩
    unfold Task.dueRun
    rw [if_neg (fun hx => hx.1 hc.2), hw.2.2 hc.1 hc.2, hc.1, hc.2]
    rfl

/-- A `run(events)` of task `t` without a hang-up bit that returns leaves `Task.dueRun`. -/
theorem run_due {h : Hooks} {t : TaskId} {flags : Nat} {s s' : Sched}
    (hh : h.keepTimeouts) (hi : TimeoutInv s)
    (hf : ((EPOLLHUP ||| EPOLLRDHUP ||| EPOLLERR) &&& flags == 0) = true)
    (hr : Task.run h t flags s = .ok () s') : (s'.tasks t).dueRun := by
  unfold Task.run at hr
  have hf' : ((EPOLLHUP ||| EPOLLRDHUP ||| EPOLLERR) &&& flags != 0) = false := by
    simpa using hf
  rw [hf'] at hr
  simp only [Bool.false_eq_true, if_false] at hr
  split at hr
  · cases hr
  · obtain ⟨_, s1, h1, h2⟩ := ok_of_bind hr
    obtain ⟨_, s2, h3, h4⟩ := ok_of_bind h2
    have i2 := run_write_inv (run_read_inv hh (hi.toIn t) (state_of_ok h1)) (state_of_ok h3)
    exact (run_timeout_due i2.2.2 (state_of_ok h4)).1

/-- `set_timeout` on task `t`, with timeouts enabled and a positive clock, leaves
`timeout.due` of `t` at `min_nonzero` of its two deadlines. -/
theorem set_timeout_due (t : TaskId) (d : Dir) (millisecs : Nat) (s : Sched)
    (hm : millisecs < 2147483648) (hnow : 0 < s.now) (hen : s.timeouts_enabled = true) :
    ((Task.set_timeout t d millisecs s).tasks t).timeout.due =
      min_nonzero ((Task.set_timeout t d millisecs s).tasks t).timeout.read.due
        ((Task.set_timeout t d millisecs s).tasks t).timeout.write.due := by
  unfold Task.set_timeout
  rw [hen]
  simp only [Bool.not_true, Bool.false_eq_true, if_false]
  have hto := millisecs_nonneg hm
  generalize millisecs_to_time64 (toInt32 millisecs) = dur at hto ⊢
  have hne : s.now + dur ≠ 0 := by omega
  have hb1 : (s.now + dur == 0) = false := by simpa using hne
  have hb2 : (s.now + dur != 0) = true := by simpa using hne
  simp only [hb1, Bool.false_and, hb2, if_true, Bool.false_eq_true, if_false]
  have hs1t : ((s.upd t (fun T =>
      { T with timeout := T.timeout.set d { due := s.now + dur, timeout := dur } })).tasks t).timeout =
      (s.tasks t).timeout.set d { due := s.now + dur, timeout := dur } := by
    rw [upd_tasks_same]
  generalize s.upd t (fun T =>
      { T with timeout := T.timeout.set d { due := s.now + dur, timeout := dur } }) = s1 at hs1t ⊢
  have key : ∀ v, v = (if ((s1.tasks t).timeout.get d.other).due = 0 then s.now + dur
      else min ((s1.tasks t).timeout.get d.other).due (s.now + dur)) →
      v = min_nonzero (s1.tasks t).timeout.read.due (s1.tasks t).timeout.write.due := by
    intro v hv
    rw [hv, hs1t]; cases d
    · simp only [Timeout.set, Timeout.get, Dir.other, min_nonzero, if_neg hne]
      split
      · rfl
      · exact min_comm _ _
    · simp only [Timeout.set, Timeout.get, Dir.other, min_nonzero, if_neg hne]
  have hset : ∀ v, ((s1.setDue t v).tasks t).timeout.due = v ∧
      ((s1.setDue t v).tasks t).timeout.read = (s1.tasks t).timeout.read ∧
      ((s1.setDue t v).tasks t).timeout.write = (s1.tasks t).timeout.write := by
    intro v
    unfold Sched.setDue
    rw [upd_tasks_same]
    exact ⟨rfl, rfl, rfl⟩
  split
  · rename_i ho
    have ho2 : ((s1.tasks t).timeout.get d.other).due ≠ 0 := by simpa using ho
    obtain ⟨a, b, c⟩ := hset (min ((s1.tasks t).timeout.get d.other).due (s.now + dur))
    rw [a, b, c]
    exact key _ (by rw [if_neg ho2])
  · rename_i ho
    have ho2 : ((s1.tasks t).timeout.get d.other).due = 0 := by simpa using ho
    obtain ⟨a, b, c⟩ := hset (s.now + dur)
    have k := key (s.now + dur) (by rw [if_pos ho2])
    have fin : ∀ s2, SameTiming (s1.setDue t (s.now + dur)) s2 →
        (s2.tasks t).timeout.due =
          min_nonzero (s2.tasks t).timeout.read.due (s2.tasks t).timeout.write.due := by
      intro s2 e
      have e2 := e.2 t
      unfold Task.timing at e2
      simp only [Prod.mk.injEq] at e2
      obtain ⟨e3, e4, e5⟩ := e2
      rw [e3, e4, e5, a, b, c]
      exact k
    split
    · apply fin
      apply sameTiming_then_setTimeouts
      split
      · exact sameTiming_then_setPrev (sameTiming_setNext _ _ _) _ _
      · exact sameTiming_setNext _ _ _
    · exact fin _ (sameTiming_refl _)


theorem sameTimingBut_then_upd {t : TaskId} {s a : Sched} (h : SameTimingBut t s a)
    (f : Task → Task) : SameTimingBut t s (a.upd t f) :=
  sameTimingBut_trans h (sameTimingBut_upd t a f)

theorem sameTimingBut_then_same {t : TaskId} {s a b : Sched} (h : SameTimingBut t s a)
    (e : SameTiming a b) : SameTimingBut t s b :=
  sameTimingBut_trans h (sameTimingBut_of_same e)

/-- The readable branch of `Task::run` on task `t` leaves the deadlines of the other tasks
alone. -/
theorem run_read_but {h : Hooks} {t : TaskId} {flags : Nat} {s s' : Sched}
    (hh : h.keepTimeouts) (hr : (Task.run_read h t flags s).state? = some s') :
    SameTimingBut t s s' := by
  unfold Task.run_read at hr
  split at hr
  · lift_lets at hr
    extract_lets s1 s2 tried at hr
    have i1 : SameTimingBut t s s1 := by
      simp only [s1]; split
      · exact sameTimingBut_upd t s _
      · exact sameTimingBut_refl t s
    clear_value s1
    have i2 : SameTimingBut t s s2 := sameTimingBut_then_upd i1 _
    clear_value s2
    have ht : ∀ s3, tried.state? = some s3 → SameTimingBut t s s3 := by
      intro s3 h3
      rcases state_of_bind h3 with h4 | ⟨_, s4, h4, h5⟩
      · exact sameTimingBut_then_same i2 (hh t s2 s3 (Or.inl h4))
      · have i4 := sameTimingBut_then_same i2 (hh t s2 s4 (Or.inl (state_of_ok h4)))
        split at h5 <;> cases h5 <;> exact i4
    clear_value tried
    cases tried with
    | ok a s3 =>
      cases hr
      exact sameTimingBut_then_upd (ht s3 rfl) _
    | diverge => exact absurd hr (by simp [Res.state?])
    | throw e s3 =>
      have i3 := ht s3 rfl
      simp only at hr
      split at hr
      · cases hr; exact i3
      · have i4 : SameTimingBut t s (s3.upd t (fun T => { T with sated := true })) :=
          sameTimingBut_then_upd i3 _
        split at hr
        · cases hr; exact i4
        · rcases state_of_bind hr with h5 | ⟨_, s5, h5, h6⟩
          · exact sameTimingBut_then_same i4 (unschedule_timing h5)
          · have i5 := sameTimingBut_then_same i4 (unschedule_timing (state_of_ok h5))
            cases h6
            refine sameTimingBut_then_upd (sameTimingBut_then_upd ?_ _) _
            exact sameTimingBut_then_same i5 ⟨rfl, fun _ => rfl⟩
  · cases hr; exact sameTimingBut_refl t s

/-- The writable branch of `Task::run` on task `t` leaves the deadlines of the other tasks
alone. -/
theorem run_write_but {t : TaskId} {flags : Nat} {s s' : Sched}
    (hr : (Task.run_write t flags s).state? = some s') : SameTimingBut t s s' := by
  unfold Task.run_write at hr
  split at hr
  · lift_lets at hr
    extract_lets s1 at hr
    have i1 : SameTimingBut t s s1 := by
      simp only [s1]; split
      · exact sameTimingBut_upd t s _
      · exact sameTimingBut_refl t s
    clear_value s1
    rcases state_of_bind hr with h1 | ⟨_, s2, h1, h2⟩
    · exact sameTimingBut_then_same i1 (drain_timing t _ _ _ h1)
    · have i2 := sameTimingBut_then_same i1 (drain_timing t _ _ _ (state_of_ok h1))
      split at h2
      · rcases state_of_bind h2 with h3 | ⟨_, s3, h3, h4⟩
        · exact sameTimingBut_then_same i2 (unschedule_timing h3)
        · have i3 := sameTimingBut_then_same i2 (unschedule_timing (state_of_ok h3))
          split at h4 <;> cases h4 <;> exact i3
      · cases h2; exact i2
  · cases hr; exact sameTimingBut_refl t s

/-- The tail of `Task::run` on task `t` leaves the deadlines of the other tasks alone. -/
theorem run_timeout_but {t : TaskId} {s s' : Sched}
    (h : (Task.run_timeout t s).state? = some s') : SameTimingBut t s s' := by
  unfold Task.run_timeout at h
  split at h
  · lift_lets at h
    extract_lets sa s1 at h
    have e1 : SameTimingBut t s s1 := by
      simp only [s1, sa]
      split
      · split
        · exact sameTimingBut_trans (sameTimingBut_setDue t _ _) (unlink_timeout_but t _)
        · exact sameTimingBut_setDue t _ _
      · exact sameTimingBut_setDue t _ _
    clear_value s1
    exact sameTimingBut_then_same e1 (sort_timeout_timing h)
  · cases h; exact sameTimingBut_refl t s

/-- A `run(events)` with a hang-up bit leaves the deadlines of every task alone. -/
theorem run_hup_timing {h : Hooks} {t : TaskId} {flags : Nat} {s s' : Sched}
    (hh : h.keepTimeouts)
    (hf : ((EPOLLHUP ||| EPOLLRDHUP ||| EPOLLERR) &&& flags != 0) = true)
    (hr : (Task.run h t flags s).state? = some s') : SameTiming s s' := by
  unfold Task.run at hr
  rw [hf] at hr
  simp only [if_true] at hr
  have e1 := sameTiming_upd s t (fun T => { T with eoinput := true }) (fun _ => rfl)
  rcases state_of_bind hr with h1 | ⟨_, s2, h1, h2⟩
  · exact sameTiming_trans e1 (hh t _ s' (Or.inr h1))
  · exact sameTiming_trans (sameTiming_trans e1 (hh t _ s2 (Or.inr (state_of_ok h1))))
      (close_fd_timing h2)

/-- `run(events)` of task `t` leaves the deadlines of the other tasks alone. -/
theorem run_but {h : Hooks} {t : TaskId} {flags : Nat} {s s' : Sched}
    (hh : h.keepTimeouts) (hr : (Task.run h t flags s).state? = some s') :
    SameTimingBut t s s' := by
  by_cases hf : ((EPOLLHUP ||| EPOLLRDHUP ||| EPOLLERR) &&& flags != 0) = true
  · exact sameTimingBut_of_same (run_hup_timing hh hf hr)
  · unfold Task.run at hr
    rw [if_neg hf] at hr
    split at hr
    · cases hr; exact sameTimingBut_refl t s
    · rcases state_of_bind hr with h1 | ⟨_, s1, h1, h2⟩
      · exact run_read_but hh h1
      · have i1 := run_read_but hh (state_of_ok h1)
        rcases state_of_bind h2 with h3 | ⟨_, s2, h3, h4⟩
        · exact sameTimingBut_trans i1 (run_write_but h3)
        · exact sameTimingBut_trans i1
            (sameTimingBut_trans (run_write_but (state_of_ok h3)) (run_timeout_but h4))

/-- A call that does not assign the deadlines of task `i` leaves them as they are. -/
theorem exec_untouched (h : TaskId → Hooks) (hh : ∀ j, (h j).keepTimeouts) (i : TaskId)
    (c : TimeoutCall) (s s' : Sched) (hc : c.touches i = false)
    (hr : (c.exec h s).state? = some s') : (s'.tasks i).timing = (s.tasks i).timing := by
  cases c with
  | set_read_timeout t millisecs =>
    cases hr
    have hne : i ≠ t := by
      intro e; subst e; simp [TimeoutCall.touches] at hc
    exact set_timeout_but t .read millisecs s i hne
  | set_write_timeout t millisecs =>
    cases hr
    have hne : i ≠ t := by
      intro e; subst e; simp [TimeoutCall.touches] at hc
    exact set_timeout_but t .write millisecs s i hne
  | run t flags =>
    have hr' : (Task.run (h t) t flags s).state? = some s' := hr
    by_cases hf : ((EPOLLHUP ||| EPOLLRDHUP ||| EPOLLERR) &&& flags != 0) = true
    · exact (run_hup_timing (hh t) hf hr').2 i
    · have hne : i ≠ t := by
        intro e; subst e
        simp only [TimeoutCall.touches, decide_True, Bool.true_and] at hc
        apply hf
        simpa using hc
      exact run_but (hh t) hr' i hne
  | clock now =>
    cases hr
    rfl

theorem execAll_untouched (h : TaskId → Hooks) (hh : ∀ j, (h j).keepTimeouts) (i : TaskId) :
    ∀ (calls : List TimeoutCall) (s s' : Sched), (∀ d ∈ calls, d.touches i = false) →
      TimeoutCall.execAll h calls s = .ok () s' → (s'.tasks i).timing = (s.tasks i).timing := by
  intro calls
  induction calls with
  | nil => intro s s' _ hr; cases hr; rfl
  | cons c cs ih =>
    intro s s' hc hr
    obtain ⟨_, s1, h1, h2⟩ := ok_of_bind hr
    exact (ih s1 s' (fun d hd => hc d (List.mem_cons_of_mem _ hd)) h2).trans
      (exec_untouched h hh i c s s1 (hc c (List.mem_cons_self _ _)) (state_of_ok h1))

theorem execAll_split (h : TaskId → Hooks) :
    ∀ (pre : List TimeoutCall) (c : TimeoutCall) (post : List TimeoutCall) (s s' : Sched),
      TimeoutCall.execAll h (pre ++ c :: post) s = .ok () s' →
      ∃ s1 s2, TimeoutCall.execAll h pre s = .ok () s1 ∧ c.exec h s1 = .ok () s2 ∧
        TimeoutCall.execAll h post s2 = .ok () s' := by
  intro pre
  induction pre with
  | nil =>
    intro c post s s' hr
    obtain ⟨_, s2, h1, h2⟩ := ok_of_bind hr
    exact ⟨s, s2, rfl, h1, h2⟩
  | cons a as ih =>
    intro c post s s' hr
    obtain ⟨_, sa, h1, h2⟩ := ok_of_bind hr
    obtain ⟨s1, s2, k1, k2, k3⟩ := ih c post sa s' h2
    refine ⟨s1, s2, ?_, k2, k3⟩
    show (TimeoutCall.exec h a s).bind _ = _
    rw [h1]
    exact k1

/-! ## C5: the aggregate deadline -/

/-- C5 (as stated, refuted): one fresh task at `now = 1000000` gets `set_read_timeout(200)`
and `set_write_timeout(100)`, then `run(EPOLLIN)` with nothing queued for output; the task
is linked in the timeout list and has `timeout.due = 1200000` (its read deadline), while
`min_nonzero(timeout.read.due, timeout.write.due) = min_nonzero(1200000, 1100000) = 1100000`. -/
theorem C5_counterexample :
    armedBothThenReadable.dues 0 = some (1200000, 1200000, 1100000) ∧
      armedBothThenReadable.timeoutList = some [0] ∧
      min_nonzero 1200000 1100000 = 1100000 := by decide

theorem defaultHooks_keepTimeouts : defaultHooks.keepTimeouts := by
  intro t s s' h
  rcases h with h | h <;> cases h <;> exact sameTiming_refl s

/-- C5 (amended): start with a positive clock and no timeout armed, and perform any calls of
`set_read_timeout`, `set_write_timeout` (with `millisecs < 2^31`), `Task::run` and clock
updates to positive times that all return, the overrides of `read()` and `disconnected()`
leaving the deadlines alone.  For every task `i`: if no call assigned its deadlines (no
`set_read_timeout` or `set_write_timeout` on `i`, no `run` of `i` without a hang-up bit),
the three deadlines are 0.  Otherwise let `c` be the last call that assigned them; the
calls after `c` have left the deadlines of `i` as `c` left them.  If `c` is a `run` of `i`,
`timeout.due` is `timeout.read.due` when the write deadline is armed and the outbound queue
was empty at the end of that `run`, and `min_nonzero(timeout.read.due, timeout.write.due)`
otherwise.  If `c` is `set_read_timeout` or `set_write_timeout` on `i`, made with timeouts
enabled, `timeout.due` is `min_nonzero(timeout.read.due, timeout.write.due)`; made with
timeouts disabled, the call has changed no deadline of `i`.  In every case `timeout.due` is
one of these two values. -/
theorem C5_due_after_calls (h : TaskId → Hooks) (calls : List TimeoutCall) (s s' : Sched)
    (i : TaskId)
    (hh : ∀ j, (h j).keepTimeouts) (hnow : 0 < s.now)
    (hfresh : ∀ j, (s.tasks j).timeout = {})
    (hc : calls.all TimeoutCall.inRange = true)
    (hr : TimeoutCall.execAll h calls s = .ok () s') :
    ((∀ d ∈ calls, d.touches i = false) →
      (s'.tasks i).timeout.due = 0 ∧ (s'.tasks i).timeout.read.due = 0 ∧
        (s'.tasks i).timeout.write.due = 0) ∧
    (∀ pre c post, calls = pre ++ c :: post → c.touches i = true →
      (∀ d ∈ post, d.touches i = false) →
      ∃ s1 s2, TimeoutCall.execAll h pre s = .ok () s1 ∧ c.exec h s1 = .ok () s2 ∧
        TimeoutCall.execAll h post s2 = .ok () s' ∧
        (s'.tasks i).timing = (s2.tasks i).timing ∧
        ((∃ flags, c = .run i flags) →
          (s'.tasks i).timeout.due =
            if (s'.tasks i).timeout.write.due ≠ 0 ∧ (s2.tasks i).out = [] then
              (s'.tasks i).timeout.read.due
            else min_nonzero (s'.tasks i).timeout.read.due (s'.tasks i).timeout.write.due) ∧
        ((∃ m, c = .set_read_timeout i m ∨ c = .set_write_timeout i m) →
          (s1.timeouts_enabled = true →
            (s'.tasks i).timeout.due =
              min_nonzero (s'.tasks i).timeout.read.due (s'.tasks i).timeout.write.due) ∧
          (s1.timeouts_enabled = false → (s2.tasks i).timing = (s1.tasks i).timing))) ∧
    ((s'.tasks i).timeout.due =
        min_nonzero (s'.tasks i).timeout.read.due (s'.tasks i).timeout.write.due ∨
      ((s'.tasks i).timeout.write.due ≠ 0 ∧
        (s'.tasks i).timeout.due = (s'.tasks i).timeout.read.due)) := by
  have h0 : TimeoutInv s := by
    refine ⟨hnow, fun j => ?_⟩
    unfold Task.timingOk Task.dueOk
    rw [hfresh j]
    exact ⟨le_refl _, le_refl _, Or.inl rfl⟩
  refine ⟨fun hno => ?_, fun pre c post hsplit htouch hpost => ?_,
    ((execAll_inv h hh calls s s' hc h0 hr).2 i).2.2⟩
  · have e := execAll_untouched h hh i calls s s' hno hr
    unfold Task.timing at e
    simp only [Prod.mk.injEq] at e
    obtain ⟨e1, e2, e3⟩ := e
    rw [e1, e2, e3, hfresh i]
    exact ⟨rfl, rfl, rfl⟩
  · subst hsplit
    obtain ⟨s1, s2, k1, k2, k3⟩ := execAll_split h pre c post s s' hr
    have hcs : pre.all TimeoutCall.inRange = true ∧ c.inRange = true := by
      simp only [List.all_append, List.all_cons, Bool.and_eq_true] at hc
      exact ⟨hc.1, hc.2.1⟩
    have i1 : TimeoutInv s1 := execAll_inv h hh pre s s1 hcs.1 h0 k1
    have e := execAll_untouched h hh i post s2 s' hpost k3
    have e' := e
    unfold Task.timing at e'
    simp only [Prod.mk.injEq] at e'
    obtain ⟨e1, e2, e3⟩ := e'
    refine ⟨s1, s2, k1, k2, k3, e, fun hrun => ?_, fun hset => ⟨fun hen => ?_, fun hdis => ?_⟩⟩
    · obtain ⟨flags, hcf⟩ := hrun
      subst hcf
      have hf : ((EPOLLHUP ||| EPOLLRDHUP ||| EPOLLERR) &&& flags == 0) = true := by
        simpa [TimeoutCall.touches] using htouch
      have d := run_due (hh i) i1 hf k2
      unfold Task.dueRun at d
      rw [e1, e2, e3]
      exact d
    · obtain ⟨m, hcm⟩ := hset
      rw [e1, e2, e3]
      rcases hcm with hcm | hcm
      · subst hcm
        cases k2
        exact set_timeout_due i .read m s1 (by simpa [TimeoutCall.inRange] using hcs.2) i1.1 hen
      · subst hcm
        cases k2
        exact set_timeout_due i .write m s1 (by simpa [TimeoutCall.inRange] using hcs.2) i1.1 hen
    · obtain ⟨m, hcm⟩ := hset
      rcases hcm with hcm | hcm
      · subst hcm
        cases k2
        show ((Task.set_timeout i .read m s1).tasks i).timing = _
        unfold Task.set_timeout
        rw [hdis]
        rfl
      · subst hcm
        cases k2
        show ((Task.set_timeout i .write m s1).tasks i).timing = _
        unfold Task.set_timeout
        rw [hdis]
        rfl

/-- C5 witness: one fresh task at `now = 1000000`.  After `set_read_timeout(200)` and
`set_write_timeout(100)` its `timeout.due` is 1100000, the `min_nonzero` of the deadlines
1200000 and 1100000; after the readable event that follows, with nothing queued for output,
it is 1200000, the read deadline. -/
theorem C5_due_after_calls_witness :
    ((Task.set_write_timeout 0 100 (Task.set_read_timeout 0 200
        (freshTasks 1 1000000))).tasks 0).timeout.due = 1100000 ∧
      (armedBothThenReadableEnd.tasks 0).timeout.due = 1200000 := by
  constructor
  · obtain ⟨-, hB, -⟩ := C5_due_after_calls (fun _ => defaultHooks)
      [.set_read_timeout 0 200, .set_write_timeout 0 100] (freshTasks 1 1000000)
      (Task.set_write_timeout 0 100 (Task.set_read_timeout 0 200 (freshTasks 1 1000000))) 0
      (fun _ => defaultHooks_keepTimeouts) (by decide) (fun _ => rfl) (by decide) rfl
    obtain ⟨s1, s2, e1, -, -, -, -, hset⟩ :=
      hB [.set_read_timeout 0 200] (.set_write_timeout 0 100) [] rfl (by decide)
        (fun d hd => nomatch hd)
    cases e1
    have k := (hset ⟨100, Or.inr rfl⟩).1 (by decide)
    rw [k]
    decide
  · obtain ⟨-, hB, -⟩ := C5_due_after_calls (fun _ => defaultHooks)
      [.set_read_timeout 0 200, .set_write_timeout 0 100, .run 0 EPOLLIN]
      (freshTasks 1 1000000) armedBothThenReadableEnd 0
      (fun _ => defaultHooks_keepTimeouts) (by decide) (fun _ => rfl) (by decide) rfl
    obtain ⟨s1, s2, -, -, e3, -, hrun, -⟩ :=
      hB [.set_read_timeout 0 200, .set_write_timeout 0 100] (.run 0 EPOLLIN) [] rfl
        (by decide) (fun d hd => nomatch hd)
    cases e3
    have k := hrun ⟨EPOLLIN, rfl⟩
    rw [k]
    decide

/-! ## C6: the state `close()` leaves a task in -/

/-- C6 (as stated, refuted): a task that is open, has no descriptor (`fd == -1`) and has
`EPOLLIN` in its interest mask (the state `schedule(EPOLLIN)` leaves when it is called
before a descriptor is assigned and `check` throws) still has interest `EPOLLIN` after
`close()` returned: `close_fd` returns at once when `fd == -1`. -/
theorem C6_counterexample :
    (scheduledWithoutFd.tasks 0).closed = false ∧ (scheduledWithoutFd.tasks 0).fd = -1 ∧
      (scheduledWithoutFd.tasks 0).events = EPOLLIN ∧
      (Task.close 0 scheduledWithoutFd).returned = true ∧
      (Task.close 0 scheduledWithoutFd).events 0 = some EPOLLIN ∧ EPOLLIN ≠ 0 := by
  decide

/-- C6 (amended): on a well-formed task tree and timeout list with a consistent epoll
instance, `close()` on an open task returns, and then the task is closed, `fd == -1`, `out`
is empty, `timeout.due == 0`, the task is not in the timeout list, and its interest mask is
0 if it still had a descriptor when `close()` was called and unchanged if `fd` was already
`-1`. -/
theorem C6_close_postcondition (s : Sched) (t : Nat) (L : List TaskId)
    (hT : TreeWF s) (hE : EpollOk s) (hL : TimeoutWF s L) (ht : t < s.ntasks)
    (ho : (s.tasks t).closed = false) :
    ∃ s', Task.close t s = .ok () s' ∧ (s'.tasks t).closed = true ∧ (s'.tasks t).fd = -1 ∧
      (s'.tasks t).out = [] ∧ (s'.tasks t).timeout.due = 0 ∧ t ∉ s'.timeoutList ∧
      (s'.tasks t).events = (if (s.tasks t).fd = -1 then (s.tasks t).events else 0) := by
  obtain ⟨s', h, -⟩ := close_total hT hE ht
  have P := closeGo_post _ _ s s' h
  have hc : (s'.tasks t).closed = true := closeGo_task_closed _ t s s' (by
    show (Task.close t s).state? = some s'
    rw [h]; rfl)
  obtain ⟨o, f, d, e⟩ := P.fields t ho hc
  obtain ⟨L', w, -, -, n⟩ := P.timeouts L hL
  refine ⟨s', h, hc, f, o, d, ?_, e⟩
  rw [w.timeoutList]
  exact n t ho hc

theorem busyTask_treeWF : TreeWF busyTask := by
  refine ⟨?_, ?_, ?_⟩
  · intro i p h
    by_cases hi : i = 0 <;> simp [busyTask, hi] at h
  · intro p
    by_cases hp : p = 0 <;> simp [busyTask, hp, kids, List.range_succ]
  · intro c p h
    by_cases hi : c = 0 <;> simp [busyTask, hi] at h

theorem busyTask_epollOk : EpollOk busyTask := by
  refine ⟨?_, ?_⟩
  · intro i h1 h2
    by_cases hi : i = 0
    · subst hi; simp [busyTask]
    · simp [busyTask, hi] at h1
  · intro i j hij h
    by_cases hi : i = 0
    · subst hi
      have hj : j ≠ 0 := fun e => hij e.symm
      simp [busyTask, hj]
    · simp [busyTask, hi] at h

theorem busyTask_timeoutWF : TimeoutWF busyTask [0] := by
  refine ⟨by simp, rfl, ?_, ?_, ?_⟩
  · intro x
    by_cases hx : x = 0
    · subst hx; simp [busyTask, nextIn]
    · simp [busyTask, nextIn, hx, Ne.symm hx]
  · intro x
    by_cases hx : x = 0
    · subst hx; simp [busyTask, prevIn]
    · simp [busyTask, prevIn, hx, Ne.symm hx]
  · intro x hx
    simp at hx; subst hx; simp [busyTask]

/-- C6 witness: the amended statement at the single task of `busyTask`. -/
theorem C6_close_postcondition_witness :
    ∃ s', Task.close 0 busyTask = .ok () s' ∧ (s'.tasks 0).closed = true ∧
      (s'.tasks 0).fd = -1 ∧ (s'.tasks 0).out = [] ∧ (s'.tasks 0).timeout.due = 0 ∧
      0 ∉ s'.timeoutList ∧
      (s'.tasks 0).events = (if (busyTask.tasks 0).fd = -1 then (busyTask.tasks 0).events else 0) :=
  C6_close_postcondition busyTask 0 [0] busyTask_treeWF busyTask_epollOk busyTask_timeoutWF
    (by decide) (by decide)

/-! ## C7: `close()` is idempotent -/

/-- C7: `close()` on an already closed task returns with the whole state (task, tree,
timeout list, deferred-close list) unchanged; and whatever state a call of `close()` on `t`
ends in, returning or throwing, `t` is closed there and a second `close()` returns with that
state unchanged. -/
theorem C7_close_idempotent (s : Sched) (t : TaskId) :
    ((s.tasks t).closed = true → Task.close t s = .ok () s) ∧
    (∀ s', (Task.close t s).state? = some s' →
      (s'.tasks t).closed = true ∧ Task.close t s' = .ok () s') := by
  refine ⟨close_of_closed s t, ?_⟩
  intro s' h
  have hc := closeGo_task_closed _ t s s' h
  exact ⟨hc, close_of_closed s' t hc⟩

/-- C7 witness: closing the single task of `oneTask 5` twice. -/
theorem C7_close_idempotent_witness :
    (closedOnce.tasks 0).closed = true ∧ Task.close 0 closedOnce = .ok () closedOnce :=
  (C7_close_idempotent (oneTask 5) 0).2 closedOnce (by
    have h : ((Task.close 0 (oneTask 5)).state?).isSome = true := by decide
    unfold closedOnce
    cases hx : (Task.close 0 (oneTask 5)).state? with
    | none => rw [hx] at h; exact absurd h (by simp)
    | some x => rfl)

/-! ## C8: `close()` closes the whole tree -/

/-- C8 (as stated, refuted): an acyclic tree of three open tasks as the constructor builds
it, a parent (task 0) and its children (tasks 1 and 2); task 1 has `EPOLLIN` in its interest
mask but its descriptor is not registered (what a failed `EPOLL_CTL_ADD` leaves).
`close()` on the parent does not return: the cascade reaches task 1, whose `close_fd()`
throws `CError` from `check(epoll_ctl(DEL))`; the exception leaves every `close()` on the
way, task 2 is still open, and no task is on the deferred-close list. -/
theorem C8_counterexample :
    (family3Stale.tasks 0).closed = false ∧ (family3Stale.tasks 1).closed = false ∧
      (family3Stale.tasks 2).closed = false ∧
      (Task.close 0 family3Stale).exn? = some .cError ∧
      ((Task.close 0 family3Stale).state?.map fun s' =>
        ((s'.tasks 2).closed, s'.closeList)) = some (false, []) := by
  decide

/-- C8 (amended): in a task tree as the constructor builds it (acyclic, children chained in
order of creation) in which the tasks under the root of `t` are open, with an epoll instance
that agrees with the tasks (a task with a descriptor and a non-zero interest mask is
registered, no two tasks share a descriptor) and a well-formed deferred-close list `C` of
allocated tasks, `close()` on an allocated task `t` returns, and afterwards every task under
the root of `t` is closed and occurs exactly once in the deferred-close list. -/
theorem C8_close_closes_whole_tree (s : Sched) (t : Nat) (C : List TaskId)
    (hT : TreeWF s) (hE : EpollOk s) (hC : CloseWF s C) (hCa : ∀ x : Nat, x ∈ C → x < s.ntasks)
    (ht : t < s.ntasks)
    (hopen : ∀ i : Nat, i < s.ntasks → sameTree s i t → (s.tasks i).closed = false) :
    ∃ s', Task.close t s = .ok () s' ∧
      ∀ i : Nat, i < s.ntasks → sameTree s i t →
        (s'.tasks i).closed = true ∧ s'.closeList.count i = 1 := by
  obtain ⟨s', h, -⟩ := close_total hT hE ht
  refine ⟨s', h, ?_⟩
  have A := (closeGo_complete _).1 t s s' hT ht h
  have Pu := closeGo_pushed _ _ s s' h
  have hst' : (Task.close t s).state? = some s' := by rw [h]; rfl
  have F := closeGo_frame _ _ s s' hst'
  obtain ⟨N, w, m⟩ := Pu.pushed C hC
  have hlist : s'.closeList = N ++ C := by
    apply w.closeList
    intro x hx
    rw [F.ntasks]
    rcases List.mem_append.mp hx with hx | hx
    · exact A.alloc x ((m x).mp hx).1 ((m x).mp hx).2
    · exact hCa x hx
  have hto : (s.tasks t).closed = false := hopen t ht rfl
  have htc : (s'.tasks t).closed = true := closeGo_task_closed _ t s s' hst'
  obtain ⟨r, hr, -, -⟩ := rootOf_total hT t (s.ntasks + 1) (by omega)
  have hrc : (s'.tasks r).closed = true := by
    cases hp : (s.tasks t).tree_parent with
    | none =>
      rw [rootOf_succ_none _ hp] at hr
      simp only [Option.some.injEq] at hr
      rw [← hr]; exact htc
    | some p =>
      rw [rootOf_succ_some _ hp] at hr
      exact A.root t p r hto htc hp (rootOf_fuel hr (by omega))
  have main : ∀ i : Nat, i < s.ntasks → Task.rootOf (s.ntasks + 1) i s = some r →
      (s'.tasks i).closed = true := by
    intro i
    induction i using Nat.strong_induction_on with
    | _ i ih =>
      intro hi hri
      cases hp : (s.tasks i).tree_parent with
      | none =>
        rw [rootOf_succ_none _ hp] at hri
        simp only [Option.some.injEq] at hri
        rw [hri]; exact hrc
      | some p =>
        rw [rootOf_succ_some _ hp] at hri
        have hpl := hT.parent_lt i p hp
        have hrp : Task.rootOf (s.ntasks + 1) p s = some r := rootOf_fuel hri (by omega)
        have hpc := ih p hpl.1 (by omega) hrp
        have hpo : (s.tasks p).closed = false := hopen p (by omega) (by
          unfold sameTree; rw [hrp, hr])
        exact A.kids p hpo hpc i (mem_kids.mpr ⟨hi, hp⟩)
  intro i hi hst
  have hic := main i hi (by unfold sameTree at hst; rw [hst, hr])
  refine ⟨hic, ?_⟩
  rw [hlist]
  apply List.count_eq_one_of_mem w.nodup
  exact List.mem_append_left _ ((m i).mpr ⟨hopen i hi hst, hic⟩)

theorem family3_task (i : Nat) :
    family3.tasks i =
      if i = 0 then { fd := 5, tree_first_child := some 1 }
      else if i = 1 then { fd := 6, tree_parent := some 0, tree_next_sibling := some 2 }
      else if i = 2 then { fd := 7, tree_parent := some 0 }
      else {} := by
  by_cases h0 : i = 0
  · subst h0; decide
  · by_cases h1 : i = 1
    · subst h1; decide
    · by_cases h2 : i = 2
      · subst h2; decide
      · simp [family3, Task.new, Task.appendSibling, upd_tasks, h0, h1, h2]

theorem family3_ntasks : family3.ntasks = 3 := by decide

theorem family3_kids (p : Nat) : kids family3 p = if p = 0 then [1, 2] else [] := by
  unfold kids
  rw [family3_ntasks]
  by_cases hp : p = 0
  · subst hp
    simp [List.range_succ, List.filter, family3_task]
  · have h : ¬ (0 = p) := fun e => hp e.symm
    simp [List.range_succ, List.filter, family3_task, hp, h]

theorem family3_treeWF : TreeWF family3 := by
  refine ⟨?_, ?_, ?_⟩
  · intro i p h
    rw [family3_task, family3_ntasks] at *
    by_cases h0 : i = 0
    · simp [h0] at h
    · by_cases h1 : i = 1
      · subst h1; simp at h; subst h; decide
      · by_cases h2 : i = 2
        · subst h2; simp at h; subst h; decide
        · simp [h0, h1, h2] at h
  · intro p
    rw [family3_task, family3_kids]
    by_cases h0 : p = 0
    · simp [h0]
    · by_cases h1 : p = 1
      · simp [h1]
      · by_cases h2 : p = 2
        · simp [h2]
        · simp [h0, h1, h2]
  · intro c p h
    rw [family3_task] at h ⊢
    by_cases h0 : c = 0
    · simp [h0] at h
    · by_cases h1 : c = 1
      · simp [h1] at h; subst h; simp [h1, family3_kids, nextIn, family3_task]
      · by_cases h2 : c = 2
        · simp [h2] at h; subst h; simp [h2, family3_kids, nextIn, family3_task]
        · simp [h0, h1, h2] at h

theorem family3_epollOk : EpollOk family3 := by
  refine ⟨?_, ?_⟩
  · intro i h
    rw [family3_task] at h
    by_cases h0 : i = 0
    · simp [h0] at h
    · by_cases h1 : i = 1
      · simp [h1] at h
      · by_cases h2 : i = 2
        · simp [h2] at h
        · simp [h0, h1, h2] at h
  · intro i j hij h
    rw [family3_task] at h ⊢
    rw [family3_task]
    by_cases h0 : i = 0 <;> by_cases h1 : i = 1 <;> by_cases h2 : i = 2 <;>
      by_cases k0 : j = 0 <;> by_cases k1 : j = 1 <;> by_cases k2 : j = 2 <;>
      simp_all

theorem family3_closeWF : CloseWF family3 [] :=
  ⟨by simp, by decide, by simp, by simp⟩

theorem family3_open (i : Nat) : (family3.tasks i).closed = false := by
  rw [family3_task]
  by_cases h0 : i = 0 <;> by_cases h1 : i = 1 <;> by_cases h2 : i = 2 <;> simp_all

/-- C8 witness: closing the first child in a tree of a parent with two children. -/
theorem C8_close_closes_whole_tree_witness :
    ∃ s', Task.close 1 family3 = .ok () s' ∧
      ∀ i : Nat, i < family3.ntasks → sameTree family3 i 1 →
        (s'.tasks i).closed = true ∧ s'.closeList.count i = 1 :=
  C8_close_closes_whole_tree family3 1 [] family3_treeWF family3_epollOk family3_closeWF
    (by simp) (by decide) (fun i _ _ => family3_open i)

/-! ## The queue and the writable bit -/

theorem out_bit (x : Nat) : EPOLLOUT &&& x ≠ 0 ↔ x.testBit 2 = true := by
  have h4 : EPOLLOUT = 2 ^ 2 := by decide
  constructor
  · intro h
    obtain ⟨i, hi⟩ := Nat.ne_zero_implies_bit_true h
    rw [Nat.testBit_and, h4, Nat.testBit_two_pow, Bool.and_eq_true, decide_eq_true_eq] at hi
    rw [hi.1]; exact hi.2
  · intro h h0
    have h1 := congrArg (fun y => Nat.testBit y 2) h0
    simp only [Nat.testBit_and, h4, Nat.testBit_two_pow_self, Bool.true_and,
      Nat.zero_testBit] at h1
    rw [h] at h1
    exact absurd h1 (by simp)

theorem wantsOut_iff (T : Task) : T.wantsOut ↔ T.events.testBit 2 = true := out_bit _

theorem queueOk_congr {T T' : Task} (h : T'.qview = T.qview) : T'.queueOk ↔ T.queueOk := by
  unfold Task.qview at h
  simp only [Prod.mk.injEq] at h
  obtain ⟨h1, h2, h3⟩ := h
  unfold Task.queueOk Task.wantsOut
  rw [h1, h2, h3]

theorem sameQueue_refl (s : Sched) : SameQueue s s := fun _ => rfl

theorem sameQueue_trans {a b c : Sched} (h1 : SameQueue a b) (h2 : SameQueue b c) :
    SameQueue a c := fun i => (h2 i).trans (h1 i)

theorem sameQueue_upd (s : Sched) (t : TaskId) (f : Task → Task)
    (hf : ∀ T, (f T).qview = T.qview) : SameQueue s (s.upd t f) := by
  intro i
  rw [upd_tasks]; split
  · rename_i h; subst h; exact hf _
  · rfl

theorem sameQueue_of_tasks {s s' : Sched} (h : s'.tasks = s.tasks) : SameQueue s s' :=
  fun i => by rw [h]

theorem QueueInv.sameQueue {s s' : Sched} (h : QueueInv s) (e : SameQueue s s') :
    QueueInv s' := fun i => (queueOk_congr (e i)).2 (h i)

theorem epoll_ctl_tasks {s s' : Sched} {op : EpollOp} {fd : Int} {ev : Nat}
    (h : epoll_ctl s op fd ev = some s') : s'.tasks = s.tasks := by
  unfold epoll_ctl at h
  split at h
  · exact absurd h (by simp)
  · split at h <;> cases h <;> rfl

theorem onlyEvents_upd (s : Sched) (t : TaskId) (ev : Nat) :
    OnlyEvents t ev s (s.upd t (fun T => { T with events := ev })) :=
  ⟨fun i hi => upd_tasks_ne s _ hi, by rw [upd_tasks_same], by rw [upd_tasks_same],
    by rw [upd_tasks_same]⟩

theorem onlyEvents_of_tasks {t : TaskId} {ev : Nat} {a b c : Sched} (h : OnlyEvents t ev a b)
    (e : c.tasks = b.tasks) : OnlyEvents t ev a c :=
  ⟨fun i hi => by rw [e]; exact h.others i hi, by rw [e]; exact h.out, by rw [e]; exact h.fd,
    by rw [e]; exact h.events⟩

theorem schedule_onlyEvents {t : TaskId} {flags : Nat} {s s' : Sched}
    (h : (Task.schedule t flags s).state? = some s') :
    OnlyEvents t ((s.tasks t).events ||| flags) s s' := by
  unfold Task.schedule at h
  have h1 : OnlyEvents t ((s.tasks t).events ||| flags) s
      (s.upd t (fun T => { T with events := T.events ||| flags })) :=
    ⟨fun i hi => upd_tasks_ne s _ hi, by rw [upd_tasks_same], by rw [upd_tasks_same],
      by rw [upd_tasks_same]⟩
  simp only at h
  split at h
  · cases h; exact h1
  · rename_i s2 h2
    cases h; exact onlyEvents_of_tasks h1 (epoll_ctl_tasks h2)

theorem unschedule_onlyEvents {t : TaskId} {flags : Nat} {s s' : Sched}
    (h : (Task.unschedule t flags s).state? = some s') :
    ∃ ev, OnlyEvents t ev s s' ∧ (ev = (s.tasks t).events &&& not32 flags ∨
      (ev = 0 ∧ ((s.tasks t).events = 0 ∨
        not32 EPOLLET &&& ((s.tasks t).events &&& not32 flags) = 0))) := by
  unfold Task.unschedule at h
  have h1 : OnlyEvents t ((s.tasks t).events &&& not32 flags) s
      (s.upd t (fun T => { T with events := T.events &&& not32 flags })) :=
    ⟨fun i hi => upd_tasks_ne s _ hi, by rw [upd_tasks_same], by rw [upd_tasks_same],
      by rw [upd_tasks_same]⟩
  split at h
  · simp only at h
    split at h
    · cases h; exact ⟨_, h1, Or.inl rfl⟩
    · rename_i s2 h2
      cases h
      have h3 := onlyEvents_of_tasks h1 (epoll_ctl_tasks h2)
      split
      · rename_i hr
        refine ⟨0, ⟨fun i hi => ?_, ?_, ?_, ?_⟩, Or.inr ⟨rfl, Or.inr ?_⟩⟩
        · rw [upd_tasks_ne _ _ hi]; exact h3.others i hi
        · rw [upd_tasks_same]; exact h3.out
        · rw [upd_tasks_same]; exact h3.fd
        · rw [upd_tasks_same]
        · simpa using hr
      · exact ⟨_, h3, Or.inl rfl⟩
  · rename_i he
    cases h
    have he0 : (s.tasks t).events = 0 := by simpa using he
    exact ⟨0, ⟨fun _ _ => rfl, rfl, rfl, he0⟩, Or.inr ⟨rfl, Or.inl he0⟩⟩

theorem queueInv_local {s s' : Sched} {t : TaskId} (hI : QueueInv s)
    (ho : ∀ i, i ≠ t → (s'.tasks i).qview = (s.tasks i).qview)
    (ht : (s'.tasks t).queueOk) : QueueInv s' := by
  intro i
  by_cases hi : i = t
  · subst hi; exact ht
  · exact (queueOk_congr (ho i hi)).2 (hI i)

theorem sys_write_tasks (fd : Int) (bytes : List Nat) (n : Nat) (s : Sched) :
    (sys_write fd bytes n s).2.tasks = s.tasks := by
  unfold sys_write
  split
  · rfl
  · split <;> rfl

theorem sys_write_wouldblock {fd : Int} {bytes : List Nat} {n : Nat} {s s1 : Sched}
    (h : sys_write fd bytes n s = (.ewouldblock, s1)) : 0 ≤ fd := by
  unfold sys_write at h
  split at h
  · exact absurd h (by simp)
  · rename_i hfd; exact not_lt.1 hfd

theorem do_async_write_loop_queue (t : TaskId) (data : List Nat) (len : Nat) :
    ∀ (fuel written : Nat) (s : Sched) (r : Res (Bool × Nat)),
      Task.do_async_write_loop t data len fuel written s = r →
        (∀ s', r.state? = some s' → SameQueue s s') ∧
        (∀ w s', r = .ok (false, w) s' → 0 ≤ (s.tasks t).fd) := by
  intro fuel
  induction fuel with
  | zero =>
    intro written s r h
    unfold Task.do_async_write_loop at h
    subst h
    exact ⟨fun s' h => absurd h (by simp [Res.state?]), fun w s' h => absurd h (by simp)⟩
  | succ n ih =>
    intro written s r h
    unfold Task.do_async_write_loop at h
    split at h
    · have hw := sys_write_tasks (s.tasks t).fd (data.drop written) (len - written) s
      split at h
      all_goals rename_i heq
      all_goals rw [heq] at hw
      · subst h
        refine ⟨fun s' h => ?_, fun w s' _ => sys_write_wouldblock heq⟩
        cases h; exact sameQueue_of_tasks hw
      · obtain ⟨h1, h2⟩ := ih _ _ _ h
        refine ⟨fun s' hs => sameQueue_trans (sameQueue_of_tasks hw) (h1 s' hs), fun w s' hr => ?_⟩
        have := h2 w s' hr
        simp only at hw
        rw [hw] at this; exact this
      · subst h
        refine ⟨fun s' h => ?_, fun w s' h => absurd h (by simp)⟩
        cases h; exact sameQueue_of_tasks hw
      · subst h
        refine ⟨fun s' h => ?_, fun w s' h => absurd h (by simp)⟩
        cases h; exact sameQueue_of_tasks hw
      · obtain ⟨h1, h2⟩ := ih _ _ _ h
        refine ⟨fun s' hs => ?_, fun w s' hr => ?_⟩
        · have h3 := h1 s' hs
          refine sameQueue_trans (sameQueue_of_tasks hw) (sameQueue_trans ?_ h3)
          exact sameQueue_upd _ t _ (fun _ => rfl)
        · have := h2 w s' hr
          simp only at hw
          rw [upd_tasks_same, hw] at this; exact this
    · subst h
      refine ⟨fun s' h => ?_, fun w s' h => absurd h (by simp)⟩
      cases h; exact sameQueue_refl s

theorem out_async_write_queue {o : Out} {t : TaskId} {s : Sched} :
    (∀ s', (Out.async_write o t s).state? = some s' → SameQueue s s') ∧
      (∀ o' s', Out.async_write o t s = .ok (false, o') s' → 0 ≤ (s.tasks t).fd) := by
  unfold Out.async_write Task.do_async_write
  split
  · exact ⟨fun s' h => by cases h; exact sameQueue_refl s, fun o' s' h => absurd h (by simp [Res.bind])⟩
  · obtain ⟨h1, h2⟩ := do_async_write_loop_queue t ((s.bufBytes o.ptr).drop o.ofs)
      (o.len - o.ofs) (s.script.length + 1) 0 s _ rfl
    refine ⟨fun s' h => ?_, fun o' s' h => ?_⟩
    · rcases state_of_bind h with h3 | ⟨_, s1, h3, h4⟩
      · exact h1 s' h3
      · cases h4; exact h1 _ (state_of_ok h3)
    · obtain ⟨r, s1, h3, h4⟩ := ok_of_bind h
      simp only [Res.ok.injEq, Prod.mk.injEq] at h4
      obtain ⟨⟨h5, -⟩, h6⟩ := h4
      subst h6
      obtain ⟨b, w⟩ := r
      simp only at h5
      subst h5
      exact h2 w s1 h3

theorem qview_fd {T T' : Task} (h : T'.qview = T.qview) : T'.fd = T.fd := by
  unfold Task.qview at h
  simp only [Prod.mk.injEq] at h
  exact h.2.2

theorem qview_out {T T' : Task} (h : T'.qview = T.qview) : T'.out = T.out := by
  unfold Task.qview at h
  simp only [Prod.mk.injEq] at h
  exact h.1

theorem qview_events {T T' : Task} (h : T'.qview = T.qview) : T'.events = T.events := by
  unfold Task.qview at h
  simp only [Prod.mk.injEq] at h
  exact h.2.1

theorem queue_then_schedule {t : TaskId} {s1 s' : Sched} {q : Out} (hI : QueueInv s1)
    (hfd : 0 ≤ (s1.tasks t).fd)
    (h : (Task.schedule t EPOLLOUT (s1.upd t (fun T => { T with out := [q] }))).state? =
      some s') : QueueInv s' := by
  have h1 := schedule_onlyEvents h
  refine queueInv_local (t := t) hI (fun i hi => ?_) ?_
  · rw [h1.others i hi, upd_tasks_ne _ _ hi]
  · have ho := h1.out
    have hf := h1.fd
    have he := h1.events
    rw [upd_tasks_same] at ho hf he
    have hw : (s'.tasks t).wantsOut := by
      rw [wantsOut_iff, he, Nat.testBit_or]
      have : Nat.testBit EPOLLOUT 2 = true := by decide
      rw [this, Bool.or_true]
    refine ⟨⟨fun _ => hw, fun _ => by rw [ho]; simp⟩, fun h1 => ?_⟩
    rw [hf] at h1
    simp only at h1
    rw [h1] at hfd
    exact absurd hfd (by decide)

theorem queue_append {t : TaskId} {s : Sched} {q : Out} (hI : QueueInv s)
    (hne : (s.tasks t).out ≠ []) :
    QueueInv (s.upd t (fun T => { T with out := T.out ++ [q] })) := by
  refine queueInv_local (t := t) hI (fun i hi => by rw [upd_tasks_ne _ _ hi]) ?_
  rw [upd_tasks_same]
  obtain ⟨h1, h2⟩ := hI t
  exact ⟨⟨fun _ => h1.1 hne, fun _ => by simp⟩, h2⟩

theorem async_write_queue {t : TaskId} {ptr len : Nat} {s s' : Sched} (hI : QueueInv s)
    (h : (Task.async_write t ptr len s).state? = some s') : QueueInv s' := by
  unfold Task.async_write at h
  split at h
  · obtain ⟨q1, q2⟩ := out_async_write_queue (o := { ptr := .borrowed ptr, len := len })
      (t := t) (s := s)
    rcases state_of_bind h with h1 | ⟨r, s1, h1, h2⟩
    · exact hI.sameQueue (q1 s' h1)
    · have e1 := q1 s1 (state_of_ok h1)
      obtain ⟨b, o'⟩ := r
      cases b with
      | false =>
        simp only [Bool.not_false, if_true] at h2
        have hfd := q2 o' s1 h1
        rw [← qview_fd (e1 t)] at hfd
        exact queue_then_schedule (hI.sameQueue e1) hfd h2
      | true =>
        simp only [Bool.not_true, Bool.false_eq_true, if_false] at h2
        cases h2
        exact hI.sameQueue e1
  · rename_i hemp
    cases h
    exact queue_append hI (by simpa using hemp)

theorem async_write_cpy_queue {t : TaskId} {ptr len : Nat} {s s' : Sched} (hI : QueueInv s)
    (h : (Task.async_write_cpy t ptr len s).state? = some s') : QueueInv s' := by
  unfold Task.async_write_cpy at h
  split at h
  · obtain ⟨q1, q2⟩ := out_async_write_queue (o := { ptr := .borrowed ptr, len := len })
      (t := t) (s := s)
    rcases state_of_bind h with h1 | ⟨r, s1, h1, h2⟩
    · exact hI.sameQueue (q1 s' h1)
    · have e1 := q1 s1 (state_of_ok h1)
      obtain ⟨b, o'⟩ := r
      cases b with
      | false =>
        simp only [Bool.not_false, if_true] at h2
        have hfd := q2 o' s1 h1
        rw [← qview_fd (e1 t)] at hfd
        exact queue_then_schedule (hI.sameQueue e1) hfd h2
      | true =>
        simp only [Bool.not_true, Bool.false_eq_true, if_false] at h2
        cases h2
        exact hI.sameQueue e1
  · rename_i hemp
    cases h
    exact queue_append hI (by simpa using hemp)

theorem async_write_out_queue {t : TaskId} {o : Out} {s s' : Sched} (hI : QueueInv s)
    (h : (Task.async_write_out t o s).state? = some s') : QueueInv s' := by
  unfold Task.async_write_out at h
  split at h
  · obtain ⟨q1, q2⟩ := out_async_write_queue (o := o) (t := t) (s := s)
    rcases state_of_bind h with h1 | ⟨r, s1, h1, h2⟩
    · exact hI.sameQueue (q1 s' h1)
    · have e1 := q1 s1 (state_of_ok h1)
      obtain ⟨b, o'⟩ := r
      cases b with
      | false =>
        simp only [Bool.not_false, if_true] at h2
        have hfd := q2 o' s1 h1
        rw [← qview_fd (e1 t)] at hfd
        exact queue_then_schedule (hI.sameQueue e1) hfd h2
      | true =>
        simp only [Bool.not_true, Bool.false_eq_true, if_false] at h2
        cases h2
        exact hI.sameQueue e1
  · rename_i hemp
    cases h
    exact queue_append hI (by simpa using hemp)

theorem state_of_throw {α : Type} {r : Res α} {e : Exn} {s : Sched} (h : r = .throw e s) :
    r.state? = some s := by rw [h]; rfl

theorem drain_queue (t : TaskId) : ∀ (fuel : Nat) (s : Sched) (r : Res Unit),
    Task.drain fuel t s = r → ∀ s', r.state? = some s' →
      (∀ i, i ≠ t → (s'.tasks i).qview = (s.tasks i).qview) ∧
      (s'.tasks t).events = (s.tasks t).events ∧ (s'.tasks t).fd = (s.tasks t).fd ∧
      ((s'.tasks t).out ≠ [] → (s.tasks t).out ≠ []) ∧
      (r.returned = false → (s'.tasks t).out ≠ []) := by
  intro fuel
  induction fuel with
  | zero =>
    intro s r h s' hs
    unfold Task.drain at h
    subst h
    exact absurd hs (by simp [Res.state?])
  | succ n ih =>
    intro s r h s' hs
    unfold Task.drain at h
    split at h
    · rename_i hout
      subst h
      cases hs
      exact ⟨fun _ _ => rfl, rfl, rfl, fun h => h, fun h => absurd h (by simp [Res.returned])⟩
    · rename_i o tl hout
      have hne : (s.tasks t).out ≠ [] := by rw [hout]; simp
      obtain ⟨q1, -⟩ := out_async_write_queue (o := o) (t := t) (s := s)
      cases h1 : Out.async_write o t s with
      | diverge =>
        rw [h1] at h; subst h
        exact absurd hs (by simp [Res.bind, Res.state?])
      | throw e s1 =>
        rw [h1] at h; subst h
        cases hs
        have e1 := q1 s' (state_of_throw h1)
        exact ⟨fun i _ => e1 i, qview_events (e1 t), qview_fd (e1 t), fun _ => hne,
          fun _ => by rw [qview_out (e1 t)]; exact hne⟩
      | ok r1 s1 =>
        rw [h1] at h
        have e1 := q1 s1 (state_of_ok h1)
        simp only [Res.bind] at h
        split at h
        · subst h
          cases hs
          refine ⟨fun i hi => ?_, ?_, ?_, fun _ => hne, fun _ => ?_⟩
          · rw [upd_tasks_ne _ _ hi]; exact e1 i
          · rw [upd_tasks_same]
            show (s1.tasks t).events = _
            exact qview_events (e1 t)
          · rw [upd_tasks_same]
            show (s1.tasks t).fd = _
            exact qview_fd (e1 t)
          · rw [upd_tasks_same]; simp
        · obtain ⟨a1, a2, a3, -, a5⟩ := ih _ _ h s' hs
          refine ⟨fun i hi => ?_, ?_, ?_, fun _ => hne, a5⟩
          · rw [a1 i hi, upd_tasks_ne _ _ hi, upd_tasks_ne _ _ hi]; exact e1 i
          · rw [a2, upd_tasks_same, upd_tasks_same]
            show (s1.tasks t).events = _
            exact qview_events (e1 t)
          · rw [a3, upd_tasks_same, upd_tasks_same]
            show (s1.tasks t).fd = _
            exact qview_fd (e1 t)

theorem sameQueue_then_upd {s a : Sched} (h : SameQueue s a) (t : TaskId) (f : Task → Task)
    (hf : ∀ T, (f T).qview = T.qview) : SameQueue s (a.upd t f) :=
  sameQueue_trans h (sameQueue_upd a t f hf)

theorem not_wantsOut_zero {T : Task} (h : T.events = 0) : ¬ T.wantsOut := by
  unfold Task.wantsOut
  rw [h]
  simp

theorem queue_after_drain {t : TaskId} {s1 s2 : Sched} (hI : QueueInv s1)
    (a1 : ∀ i, i ≠ t → (s2.tasks i).qview = (s1.tasks i).qview)
    (a2 : (s2.tasks t).events = (s1.tasks t).events) (a3 : (s2.tasks t).fd = (s1.tasks t).fd)
    (a4 : (s2.tasks t).out ≠ [] → (s1.tasks t).out ≠ []) (hne : (s2.tasks t).out ≠ []) :
    QueueInv s2 := by
  refine queueInv_local (t := t) hI a1 ?_
  obtain ⟨h1, h2⟩ := hI t
  unfold Task.queueOk Task.wantsOut at *
  rw [a2, a3]
  exact ⟨⟨fun _ => h1.1 (a4 hne), fun _ => hne⟩, h2⟩

theorem queue_after_unschedule_out {t : TaskId} {s2 s3 : Sched}
    (hO : ∀ i, i ≠ t → (s2.tasks i).queueOk) (hout : (s2.tasks t).out = [])
    (h : (Task.unschedule t EPOLLOUT s2).state? = some s3) : QueueInv s3 := by
  obtain ⟨ev, h1, h2⟩ := unschedule_onlyEvents h
  have hw : ¬ (s3.tasks t).wantsOut := by
    rw [wantsOut_iff, h1.events]
    rcases h2 with h2 | ⟨h2, -⟩
    · rw [h2, Nat.testBit_and]
      have : Nat.testBit (not32 EPOLLOUT) 2 = false := by decide
      rw [this]; simp
    · rw [h2]; simp
  intro i
  by_cases hi : i = t
  · subst hi
    exact ⟨⟨fun hne => absurd (h1.out.trans hout) hne, fun hx => absurd hx hw⟩, fun _ => hw⟩
  · rw [h1.others i hi]; exact hO i hi

theorem queue_after_unschedule_in {t : TaskId} {s4 s5 : Sched} (hI : QueueInv s4)
    (hne : (s4.tasks t).out ≠ [])
    (h : (Task.unschedule t EPOLLIN s4).state? = some s5) : QueueInv s5 := by
  obtain ⟨ev, h1, h2⟩ := unschedule_onlyEvents h
  obtain ⟨q1, q2⟩ := hI t
  have hw4 : (s4.tasks t).events.testBit 2 = true := (wantsOut_iff _).1 (q1.1 hne)
  have c1 : Nat.testBit (not32 EPOLLIN) 2 = true := by decide
  have c2 : Nat.testBit (not32 EPOLLET) 2 = true := by decide
  have hev : ev.testBit 2 = true := by
    rcases h2 with h2 | ⟨-, h2 | h2⟩
    · rw [h2, Nat.testBit_and, hw4, c1]; rfl
    · rw [h2] at hw4; simp at hw4
    · have h3 := congrArg (fun x => Nat.testBit x 2) h2
      simp only [Nat.testBit_and, hw4, c1, c2, Bool.and_self, Nat.zero_testBit] at h3
      exact absurd h3 (by simp)
  refine queueInv_local (t := t) hI (fun i hi => by rw [h1.others i hi]) ?_
  have hw : (s5.tasks t).wantsOut := by rw [wantsOut_iff, h1.events]; exact hev
  refine ⟨⟨fun _ => hw, fun _ => by rw [h1.out]; exact hne⟩, fun hfd => ?_⟩
  rw [h1.fd] at hfd
  exact absurd (q1.1 hne) (q2 hfd)

theorem run_write_queue {t : TaskId} {flags : Nat} {s s' : Sched} (hI : QueueInv s)
    (h : (Task.run_write t flags s).state? = some s') : QueueInv s' := by
  unfold Task.run_write at h
  split at h
  · lift_lets at h
    extract_lets s1 at h
    have e1 : SameQueue s s1 := by
      simp only [s1]; split
      · exact sameQueue_upd _ t _ (fun _ => rfl)
      · exact sameQueue_refl _
    have hI1 := hI.sameQueue e1
    clear_value s1
    cases hd : Task.drain ((s1.tasks t).out.length + 1) t s1 with
    | diverge => rw [hd] at h; exact absurd h (by simp [Res.bind, Res.state?])
    | throw e s2 =>
      rw [hd] at h
      cases h
      obtain ⟨a1, a2, a3, a4, a5⟩ := drain_queue t _ _ _ hd s' rfl
      exact queue_after_drain hI1 a1 a2 a3 a4 (a5 rfl)
    | ok u s2 =>
      rw [hd] at h
      obtain ⟨a1, a2, a3, a4, -⟩ := drain_queue t _ _ _ hd s2 rfl
      simp only [Res.bind_ok] at h
      by_cases hemp : (s2.tasks t).out.isEmpty = true
      · rw [if_pos hemp] at h
        have hO : ∀ i, i ≠ t → (s2.tasks i).queueOk :=
          fun i hi => (queueOk_congr (a1 i hi)).2 (hI1 i)
        have hout : (s2.tasks t).out = [] := by simpa using hemp
        rcases state_of_bind h with h1 | ⟨_, s3, h1, h2⟩
        · exact queue_after_unschedule_out hO hout h1
        · have h3 := queue_after_unschedule_out hO hout (state_of_ok h1)
          split at h2 <;> cases h2 <;> exact h3
      · rw [if_neg hemp] at h
        cases h
        exact queue_after_drain hI1 a1 a2 a3 a4 (by simpa using hemp)
  · cases h; exact hI

theorem run_read_queue {h : Hooks} {t : TaskId} {flags : Nat} {s s' : Sched}
    (hh : h.keepQueue) (hI : QueueInv s)
    (hr : (Task.run_read h t flags s).state? = some s') : QueueInv s' := by
  unfold Task.run_read at hr
  split at hr
  · lift_lets at hr
    extract_lets s1 s2 tried at hr
    have i1 : QueueInv s1 := by
      simp only [s1]; split
      · exact hI.sameQueue (sameQueue_upd _ t _ (fun _ => rfl))
      · exact hI
    clear_value s1
    have i2 : QueueInv s2 := i1.sameQueue (sameQueue_upd _ t _ (fun _ => rfl))
    clear_value s2
    have ht : ∀ s3, tried.state? = some s3 → QueueInv s3 := by
      intro s3 h3
      rcases state_of_bind h3 with h4 | ⟨_, s4, h4, h5⟩
      · exact hh.read t s2 s3 i2 h4
      · have i4 := hh.read t s2 s4 i2 (state_of_ok h4)
        split at h5 <;> cases h5 <;> exact i4
    clear_value tried
    cases tried with
    | ok a s3 =>
      cases hr
      exact (ht s3 rfl).sameQueue (sameQueue_upd _ t _ (fun _ => rfl))
    | diverge => exact absurd hr (by simp [Res.state?])
    | throw e s3 =>
      have i3 := ht s3 rfl
      simp only at hr
      split at hr
      · cases hr; exact i3
      · have i4 := i3.sameQueue
          (sameQueue_upd s3 t (fun T => { T with sated := true }) (fun _ => rfl))
        split at hr
        · cases hr; exact i4
        · rename_i hne
          have hne2 : ((s3.upd t (fun T => { T with sated := true })).tasks t).out ≠ [] := by
            simpa using hne
          rcases state_of_bind hr with h5 | ⟨_, s5, h5, h6⟩
          · exact queue_after_unschedule_in i4 hne2 h5
          · have i5 := queue_after_unschedule_in i4 hne2 (state_of_ok h5)
            cases h6
            refine i5.sameQueue ?_
            refine sameQueue_then_upd (sameQueue_then_upd ?_ _ _ ?_) _ _ ?_
            · exact fun _ => rfl
            · intro _; rfl
            · intro _; rfl
  · cases hr; exact hI

theorem sameQueue_of_links {s s' : Sched} (h : SameButLinks s s') : SameQueue s s' := by
  intro i
  have h1 := congrArg Task.qview (h.2 i)
  exact h1

theorem sameQueue_of_core {s s' : Sched}
    (h : ∀ i, (s'.tasks i).core = (s.tasks i).core) : SameQueue s s' := by
  intro i
  have h1 := congrArg Task.qview (h i)
  exact h1

theorem sameQueue_setDue (s : Sched) (t : TaskId) (v : Int) : SameQueue s (s.setDue t v) :=
  sameQueue_upd s t _ (fun _ => rfl)

theorem run_timeout_queue {t : TaskId} {s s' : Sched}
    (h : (Task.run_timeout t s).state? = some s') : SameQueue s s' := by
  unfold Task.run_timeout at h
  split at h
  · lift_lets at h
    extract_lets sa s1 at h
    have e1 : SameQueue s s1 := by
      simp only [s1, sa]
      split
      · split
        · exact sameQueue_trans (sameQueue_setDue _ _ _)
            (sameQueue_of_core (fun i => unlink_timeout_core _ t i))
        · exact sameQueue_setDue _ _ _
      · exact sameQueue_setDue _ _ _
    clear_value s1
    exact sameQueue_trans e1 (sameQueue_of_links (sort_timeout_links h))
  · cases h; exact sameQueue_refl s

theorem run_queue {h : Hooks} {t : TaskId} {flags : Nat} {s s' : Sched}
    (hh : h.keepQueue) (hI : QueueInv s)
    (hr : (Task.run h t flags s).state? = some s') : QueueInv s' := by
  unfold Task.run at hr
  split at hr
  · have i1 : QueueInv (s.upd t (fun T => { T with eoinput := true })) :=
      hI.sameQueue (sameQueue_upd _ t _ (fun _ => rfl))
    rcases state_of_bind hr with h1 | ⟨_, s2, h1, -⟩
    · exact hh.disconnected t _ s' i1 h1
    · have := hh.throws t (s.upd t (fun T => { T with eoinput := true }))
      rw [h1] at this
      exact absurd this (by simp [Res.returned])
  · split at hr
    · cases hr; exact hI
    · rcases state_of_bind hr with h1 | ⟨_, s1, h1, h2⟩
      · exact run_read_queue hh hI h1
      · have i1 := run_read_queue hh hI (state_of_ok h1)
        rcases state_of_bind h2 with h3 | ⟨_, s2, h3, h4⟩
        · exact run_write_queue i1 h3
        · exact (run_write_queue i1 (state_of_ok h3)).sameQueue (run_timeout_queue h4)

theorem closeStart_queue (t : TaskId) (s s3 : Sched) (hI : QueueInv s)
    (h : (Task.closeStart t s).state? = some s3) : QueueInv s3 := by
  have key : ∀ (e : Sched) (b : Bool), e.tasks = s.tasks →
      QueueInv (e.upd t (fun T => startedTask T b)) := by
    intro e b he
    refine queueInv_local (t := t) hI (fun i hi => by rw [upd_tasks_ne _ _ hi, he]) ?_
    rw [upd_tasks_same, he]
    obtain ⟨-, q2⟩ := hI t
    have hw : ¬ (startedTask (s.tasks t) b).wantsOut := by
      by_cases hfd : (s.tasks t).fd = -1
      · have := q2 hfd
        unfold Task.wantsOut startedTask at *
        simpa [hfd] using this
      · apply not_wantsOut_zero
        simp [startedTask, hfd]
    exact ⟨⟨fun hne => absurd rfl hne, fun hx => absurd hx hw⟩, fun _ => hw⟩
  rcases closeStart_cases t s with h0 | ⟨h0, -⟩
  · rw [h0] at h
    cases h
    apply key
    split <;> rfl
  · rw [h0] at h
    cases h
    exact key s true rfl

theorem closeFinish_queue (t : TaskId) (s s3 s5 : Sched)
    (h0 : Task.closeStart t s = .ok () s3) (F : CloseFrame s3 s5) (hI : QueueInv s5) :
    QueueInv (Task.closeFinish t s5) := by
  have hc3 : (s3.tasks t).closed = true := closeStart_closed t s s3 (by rw [h0]; rfl)
  have hc5 : (s5.tasks t).closed = true := (F.step t).closed_mono hc3
  have hcore := ((F.step t).same (hc5.trans hc3.symm)).1
  have hout : (s5.tasks t).out = [] := (core_out hcore).trans (closeStart_fields t s s3 h0).1
  obtain ⟨q1, -⟩ := hI t
  have hw : ¬ (s5.tasks t).wantsOut := fun hx => absurd hout (q1.2 hx)
  intro i
  unfold Task.queueOk Task.wantsOut
  rw [closeFinish_out, closeFinish_events, closeFinish_fd]
  by_cases hi : i = t
  · subst hi
    exact ⟨q1, fun _ => hw⟩
  · rw [if_neg hi]; exact hI i

theorem closeGo_queue (fuel : Nat) (c : CloseCall) (s s' : Sched)
    (h : (Task.closeGo fuel c s).state? = some s') :
    CloseFrame s s' ∧ (QueueInv s → QueueInv s') := by
  refine closeGo_rel (fun a b => CloseFrame a b ∧ (QueueInv a → QueueInv b))
    (fun a => ⟨CloseFrame.frame_refl a, fun x => x⟩)
    (fun a b c h1 h2 => ⟨h1.1.frame_trans h2.1, fun x => h2.2 (h1.2 x)⟩)
    (fun t a a3 hc h0 => ⟨closeStart_frame t a a3 hc h0, fun x => closeStart_queue t a a3 x h0⟩)
    (fun t a a3 a5 hc h0 p0 p1 => ⟨closeFinish_frame t a a3 a5 hc h0 p0.1 p1.1,
      fun x => closeFinish_queue t a a3 a5 h0 p1.1 (p1.2 (p0.2 x))⟩) fuel c s s' h

theorem close_queue {t : TaskId} {s s' : Sched} (hI : QueueInv s)
    (h : (Task.close t s).state? = some s') : QueueInv s' :=
  (closeGo_queue _ _ s s' h).2 hI

theorem construct_queue {h : Hooks} {t : TaskId} {s s' : Sched}
    (hh : h.keepQueue) (hI : QueueInv s)
    (hr : (Task.construct h t s).state? = some s') : QueueInv s' := by
  unfold Task.construct at hr
  lift_lets at hr
  extract_lets guarded at hr
  have hg : ∀ s1, guarded.state? = some s1 → QueueInv s1 := by
    intro s1 h1
    rcases state_of_bind h1 with h2 | ⟨_, s2, h2, h3⟩
    · exact hh.do_construct t s s1 hI h2
    · have i2 := hh.do_construct t s s2 hI (state_of_ok h2)
      split at h3 <;> cases h3 <;> exact i2
  clear_value guarded
  cases guarded with
  | diverge => exact absurd hr (by simp [Res.state?])
  | throw e s1 =>
    have i1 := hg s1 rfl
    simp only at hr
    cases hc : Task.close t s1 with
    | ok u s2 =>
      rw [hc] at hr
      cases hr
      exact close_queue i1 (state_of_ok hc)
    | throw e2 s2 => rw [hc] at hr; exact absurd hr (by simp [Res.state?])
    | diverge => rw [hc] at hr; exact absurd hr (by simp [Res.state?])
  | ok u s1 =>
    have i1 := hg s1 rfl
    simp only at hr
    split at hr
    · exact run_queue hh i1 hr
    · cases hr; exact i1

theorem exec_queue (h : TaskId → Hooks) (hh : ∀ i, (h i).keepQueue) (c : TaskCall)
    (s s' : Sched) (hI : QueueInv s) (hr : (c.exec h s).state? = some s') : QueueInv s' := by
  cases c with
  | construct t => exact construct_queue (hh t) hI hr
  | async_write t ptr len => exact async_write_queue hI hr
  | async_write_cpy t ptr len => exact async_write_cpy_queue hI hr
  | async_write_out t o => exact async_write_out_queue hI hr
  | run t flags => exact run_queue (hh t) hI hr
  | close t => exact close_queue hI hr

theorem after_queue (h : TaskId → Hooks) (hh : ∀ i, (h i).keepQueue) :
    ∀ (calls : List TaskCall) (s s' : Sched), QueueInv s →
      TaskCall.after h calls s = some s' → QueueInv s' := by
  intro calls
  induction calls with
  | nil => intro s s' hI hr; cases hr; exact hI
  | cons c cs ih =>
    intro s s' hI hr
    unfold TaskCall.after at hr
    rw [Option.bind_eq_some] at hr
    obtain ⟨s1, h1, h2⟩ := hr
    exact ih s1 s' (exec_queue h hh c s s1 hI h1) h2

theorem connHooks_keepQueue (fd : Int) (hfd : fd ≠ -1) : (connHooks fd).keepQueue := by
  refine ⟨?_, ?_, ?_, ?_⟩
  · intro t s s' hI h; cases h; exact hI
  · intro t s s' hI h; cases h; exact hI
  · intro t s s' hI h
    have h1 := schedule_onlyEvents h
    have ho := h1.out
    have hf := h1.fd
    have he := h1.events
    rw [upd_tasks_same] at ho hf he
    refine queueInv_local (t := t) hI (fun i hi => ?_) ?_
    · rw [h1.others i hi, upd_tasks_ne _ _ hi]
    · obtain ⟨q1, -⟩ := hI t
      have hw : (s'.tasks t).wantsOut ↔ (s.tasks t).wantsOut := by
        rw [wantsOut_iff, wantsOut_iff, he, Nat.testBit_or]
        have : Nat.testBit EPOLLIN 2 = false := by decide
        rw [this, Bool.or_false]
      unfold Task.queueOk
      rw [hw, ho, hf]
      exact ⟨q1, fun hx => absurd hx hfd⟩
  · intro t s; rfl

/-! ## C9: the queue and the writable bit -/

/-- C9 (as stated, refuted): a connection is constructed (descriptor 5, `EPOLLIN`),
`async_write` of 3 bytes blocks, so the segment is queued and `EPOLLOUT` set (mask 5); then
a hang-up event arrives and the override of `disconnected()` returns: `Task::run` calls
`close_fd()`, the interest mask becomes 0 and the descriptor -1, but the queue still holds
the segment. -/
theorem C9_counterexample :
    queueView (TaskCall.after (fun _ => quietHooks 5) [.construct 0, .async_write 0 0 3]
        freshWriter) 0 = some ([{ ptr := .borrowed 0, len := 3 }], 5, 5) ∧
      queueView (TaskCall.after (fun _ => quietHooks 5) (constructWriteEvent EPOLLHUP)
        freshWriter) 0 = some ([{ ptr := .borrowed 0, len := 3 }], 0, -1) := by
  decide

/-- C9 (amended): start with nothing queued and nothing scheduled on any task, and perform
any calls of `construct`, `async_write`, `async_write_cpy`, `async_write(Out*)`,
`Task::run` (any event mask) and `close`, each returning or throwing, where the overrides
`read()`, `disconnected()` and `do_construct()` themselves keep the property (with its
companion that a task without descriptor has `EPOLLOUT` clear) and `disconnected()` does not
return (like the default, which throws).  Then in every task the outbound queue is non-empty
exactly when `EPOLLOUT` is set in the interest mask. -/
theorem C9_queue_iff_writable (h : TaskId → Hooks) (calls : List TaskCall) (s s' : Sched)
    (hh : ∀ i, (h i).keepQueue)
    (hinit : ∀ i, (s.tasks i).out = [] ∧ (s.tasks i).events = 0)
    (hr : TaskCall.after h calls s = some s') :
    ∀ i, (s'.tasks i).out ≠ [] ↔ EPOLLOUT &&& (s'.tasks i).events ≠ 0 := by
  have h0 : QueueInv s := by
    intro i
    obtain ⟨h1, h2⟩ := hinit i
    have hw := not_wantsOut_zero h2
    exact ⟨⟨fun hne => absurd h1 hne, fun hx => absurd hx hw⟩, fun _ => hw⟩
  intro i
  exact (after_queue h hh calls s s' h0 hr i).1

/-- C9 witness: construction, a blocked `async_write`, a hang-up event with the default
`disconnected()`, and `close()`. -/
theorem C9_queue_iff_writable_witness :
    TaskCall.after (fun _ => connHooks 5) constructWriteHangupClose freshWriter =
        some hangupClosedEnd ∧
      ∀ i, (hangupClosedEnd.tasks i).out ≠ [] ↔
        EPOLLOUT &&& (hangupClosedEnd.tasks i).events ≠ 0 :=
  ⟨rfl, C9_queue_iff_writable (fun _ => connHooks 5) constructWriteHangupClose freshWriter
    hangupClosedEnd (fun _ => connHooks_keepQueue 5 (by decide)) (fun _ => ⟨rfl, rfl⟩) rfl⟩

/-- The witness of C9 in figures: after the blocked write the queue holds the segment and
the mask is `EPOLLIN|EPOLLOUT`; the hang-up event throws and leaves both; `close()` empties
the queue and clears the mask. -/
theorem hangupClosedEnd_view :
    queueView (TaskCall.after (fun _ => connHooks 5) (constructWriteEvent EPOLLHUP) freshWriter)
        0 = some ([{ ptr := .borrowed 0, len := 3 }], 5, 5) ∧
      queueView (some hangupClosedEnd) 0 = some ([], 0, -1) := by
  decide

/-! ## The write path delivers in order -/

theorem take_append_drop_take (l : List Nat) (a b : Nat) :
    l.take a ++ (l.drop a).take b = l.take (a + b) := by
  rw [List.take_add]

theorem sys_write_nil {fd : Int} {bytes : List Nat} {n : Nat} {s : Sched} (hfd : 0 ≤ fd)
    (hs : s.script = []) : sys_write fd bytes n s = (.ewouldblock, s) := by
  unfold sys_write
  rw [if_neg (not_lt.2 hfd), hs]

theorem writeFrame_refl (t : TaskId) (s : Sched) : WriteFrame t s s :=
  ⟨rfl, rfl, ⟨[], rfl⟩, rfl, fun _ _ => rfl, rfl, rfl⟩

theorem writeFrame_trans {t : TaskId} {a b c : Sched} (h1 : WriteFrame t a b)
    (h2 : WriteFrame t b c) : WriteFrame t a c := by
  obtain ⟨u1, e1⟩ := h1.script
  obtain ⟨u2, e2⟩ := h2.script
  exact ⟨h2.mem.trans h1.mem, h2.epoll.trans h1.epoll,
    ⟨u1 ++ u2, by rw [e1, e2, List.append_assoc]⟩, h2.task.trans h1.task,
    fun i hi => (h2.others i hi).trans (h1.others i hi), h2.ntasks.trans h1.ntasks,
    h2.timeouts.trans h1.timeouts⟩

theorem uncounted_fd {T T' : Task} (h : T'.uncounted = T.uncounted) : T'.fd = T.fd := by
  have h1 : T'.uncounted.fd = T.uncounted.fd := congrArg Task.fd h
  exact h1

theorem do_async_write_loop_spec (t : TaskId) (fd : Int) (data : List Nat) (len : Nat)
    (hfd : 0 ≤ fd) : ∀ (fuel written : Nat) (s : Sched), s.script.length < fuel →
      s.script.all WriteRes.benign = true → (s.tasks t).fd = fd → written ≤ len →
      ∃ b w s', Task.do_async_write_loop t data len fuel written s = .ok (b, w) s' ∧
        written ≤ w ∧ w ≤ len ∧ (b = true → w = len) ∧
        s'.wire fd = s.wire fd ++ (data.drop written).take (w - written) ∧
        WriteFrame t s s' := by
  intro fuel
  induction fuel with
  | zero => intro written s h; exact absurd h (Nat.not_lt_zero _)
  | succ n ih =>
    intro written s hlen hben hf hw
    unfold Task.do_async_write_loop
    by_cases hlt : written < len
    · rw [if_pos hlt, hf]
      cases hs : s.script with
      | nil =>
        rw [sys_write_nil hfd hs]
        exact ⟨false, written, s, rfl, le_refl _, hw, by simp, by simp, writeFrame_refl t s⟩
      | cons r rest =>
        rw [hs] at hben hlen
        simp only [List.all_cons, Bool.and_eq_true] at hben
        simp only [List.length_cons] at hlen
        cases r with
        | error => exact absurd hben.1 (by simp [WriteRes.benign])
        | wouldblock =>
          have e : sys_write fd (data.drop written) (len - written) s =
              (.ewouldblock, { s with script := rest }) := by
            unfold sys_write; rw [if_neg (not_lt.2 hfd), hs]
          rw [e]
          have f1 : WriteFrame t s { s with script := rest } :=
            ⟨rfl, rfl, ⟨[.wouldblock], hs⟩, rfl, fun _ _ => rfl, rfl, rfl⟩
          exact ⟨false, written, _, rfl, le_refl _, hw, by simp, by simp, f1⟩
        | eintr =>
          have e : sys_write fd (data.drop written) (len - written) s =
              (.eintr, { s with script := rest }) := by
            unfold sys_write; rw [if_neg (not_lt.2 hfd), hs]
          rw [e]
          obtain ⟨b, w, s', h1, h2, h3, h4, h5, h6⟩ :=
            ih written { s with script := rest } (by simpa using hlen) hben.2 hf hw
          have f1 : WriteFrame t s { s with script := rest } :=
            ⟨rfl, rfl, ⟨[.eintr], hs⟩, rfl, fun _ _ => rfl, rfl, rfl⟩
          exact ⟨b, w, s', h1, h2, h3, h4, h5, writeFrame_trans f1 h6⟩
        | accept k =>
          have hk : 0 < k := by simpa [WriteRes.benign] using hben.1
          obtain ⟨j, hj⟩ : ∃ j, min k (len - written) = j + 1 :=
            ⟨min k (len - written) - 1, by omega⟩
          generalize hs1 : ({ s with script := rest, wire := (fun g =>
              if g = fd then s.wire fd ++ (data.drop written).take (j + 1) else s.wire g) } :
              Sched) = s1
          have e : sys_write fd (data.drop written) (len - written) s = (.count (j + 1), s1) := by
            unfold sys_write; rw [if_neg (not_lt.2 hfd), hs]; simp only [hj]; rw [← hs1]
          have f1 : WriteFrame t s s1 := by
            rw [← hs1]; exact ⟨rfl, rfl, ⟨[.accept k], hs⟩, rfl, fun _ _ => rfl, rfl, rfl⟩
          have w1 : s1.wire fd = s.wire fd ++ (data.drop written).take (j + 1) := by
            rw [← hs1]; simp
          have c1 : s1.script = rest := by rw [← hs1]
          have t1 : (s1.tasks t).fd = fd := by rw [← hs1]; exact hf
          rw [e]
          simp only
          have hw2 : written + (j + 1) ≤ len := by omega
          obtain ⟨b, w, s', h1, h2, h3, h4, h5, h6⟩ :=
            ih (written + (j + 1)) (s1.upd t
                (fun T => { T with totalWritten := (T.totalWritten + (j + 1)) % UINT32 }))
              (by rw [upd_script, c1]; omega) (by rw [upd_script, c1]; exact hben.2)
              (by rw [upd_tasks_same]; exact t1) hw2
          refine ⟨b, w, s', h1, by omega, h3, h4, ?_, ?_⟩
          · rw [h5, upd_wire, w1, List.append_assoc]
            congr 1
            have e2 : (j + 1) + (w - (written + (j + 1))) = w - written := by omega
            have e3 : data.drop (written + (j + 1)) = (data.drop written).drop (j + 1) := by
              rw [List.drop_drop]
            rw [e3, take_append_drop_take, e2]
          · have f2 : WriteFrame t s1 (s1.upd t
                (fun T => { T with totalWritten := (T.totalWritten + (j + 1)) % UINT32 })) :=
              ⟨rfl, rfl, ⟨[], rfl⟩, by rw [upd_tasks_same]; rfl,
                fun i hi => upd_tasks_ne _ _ hi, rfl, rfl⟩
            exact writeFrame_trans f1 (writeFrame_trans f2 h6)
    · rw [if_neg hlt]
      have : written = len := by omega
      subst this
      exact ⟨true, written, s, rfl, le_refl _, le_refl _, fun _ => rfl, by simp,
        writeFrame_refl t s⟩

theorem do_async_write_loop_false (t : TaskId) (data : List Nat) (len : Nat) :
    ∀ (fuel written : Nat) (s : Sched) (w : Nat) (s' : Sched),
      Task.do_async_write_loop t data len fuel written s = .ok (false, w) s' → w < len := by
  intro fuel
  induction fuel with
  | zero => intro written s w s' h; simp [Task.do_async_write_loop] at h
  | succ n ih =>
    intro written s w s' h
    unfold Task.do_async_write_loop at h
    by_cases hlt : written < len
    · rw [if_pos hlt] at h
      split at h
      · cases h; exact hlt
      · exact ih _ _ _ _ h
      · cases h
      · cases h
      · exact ih _ _ _ _ h
    · rw [if_neg hlt] at h
      cases h


theorem lor_EPOLLOUT_ne_zero (e : Nat) : e ||| EPOLLOUT ≠ 0 := by
  intro h
  have h1 := congrArg (fun x => Nat.testBit x 2) h
  have h2 : Nat.testBit EPOLLOUT 2 = true := by decide
  simp only [Nat.testBit_or, h2, Bool.or_true, Nat.zero_testBit] at h1
  exact absurd h1 (by simp)

theorem rest_congr {s s' : Sched} (h : s'.mem = s.mem) (o : Out) :
    Out.rest s' o = Out.rest s o := by
  unfold Out.rest Sched.bufBytes
  cases o.ptr <;> simp only [h]

theorem pending_congr {s s' : Sched} {t : TaskId} (h : s'.mem = s.mem)
    (ho : (s'.tasks t).out = (s.tasks t).out) : s'.pending t = s.pending t := by
  unfold Sched.pending
  rw [ho]
  congr 1
  exact List.map_congr_left (fun o _ => rest_congr h o)

theorem pending_eq {s : Sched} {t : TaskId} {q : List Out} (h : (s.tasks t).out = q) :
    s.pending t = (q.map (Out.rest s)).flatten := by
  unfold Sched.pending; rw [h]

theorem uncounted_out {T T' : Task} (h : T'.uncounted = T.uncounted) : T'.out = T.out := by
  have h1 : T'.uncounted.out = T.uncounted.out := congrArg Task.out h
  exact h1

theorem uncounted_events {T T' : Task} (h : T'.uncounted = T.uncounted) :
    T'.events = T.events := by
  have h1 : T'.uncounted.events = T.uncounted.events := congrArg Task.events h
  exact h1

theorem uncounted_closed {T T' : Task} (h : T'.uncounted = T.uncounted) :
    T'.closed = T.closed := by
  have h1 : T'.uncounted.closed = T.uncounted.closed := congrArg Task.closed h
  exact h1

theorem uncounted_half_close {T T' : Task} (h : T'.uncounted = T.uncounted) :
    T'.half_close = T.half_close := by
  have h1 : T'.uncounted.half_close = T.uncounted.half_close := congrArg Task.half_close h
  exact h1

theorem uncounted_timeout {T T' : Task} (h : T'.uncounted = T.uncounted) :
    T'.timeout = T.timeout := by
  have h1 : T'.uncounted.timeout = T.uncounted.timeout := congrArg Task.timeout h
  exact h1

theorem benign_suffix {a u b : List WriteRes} (h : a = u ++ b)
    (ha : a.all WriteRes.benign = true) : b.all WriteRes.benign = true := by
  rw [h, List.all_append, Bool.and_eq_true] at ha
  exact ha.2

theorem rest_residual (s s' : Sched) (hm : s'.mem = s.mem) (cpy : Bool) (ptr len w : Nat) :
    Out.rest s' (residual s cpy ptr len w) = ((s.mem ptr).drop w).take (len - w) := by
  unfold residual Out.rest Sched.bufBytes
  cases cpy <;> simp [hm]


/-! ## The read path: the read-ahead counters stay within bounds -/

@[simp] theorem upd_input (s : Sched) (t : TaskId) (f : Task → Task) :
    (s.upd t f).input = s.input := rfl

theorem sys_read_spec {fd : Int} {cap : Nat} {s s1 : Sched} {ret : ReadRet}
    (h : sys_read fd cap s = (ret, s1)) :
    s1.tasks = s.tasks ∧ ∀ d, ret = .count d → d.length ≤ cap := by
  unfold sys_read at h
  split at h
  · cases h; exact ⟨rfl, fun d hd => by cases hd⟩
  · split at h
    · cases h; exact ⟨rfl, fun d hd => by cases hd⟩
    · cases h
      refine ⟨rfl, fun d hd => ?_⟩
      cases hd
      rw [List.length_take]; exact Nat.min_le_left _ _
    · cases h; exact ⟨rfl, fun d hd => by cases hd⟩
    · cases h; exact ⟨rfl, fun d hd => by cases hd; exact Nat.zero_le _⟩
    · cases h; exact ⟨rfl, fun d hd => by cases hd⟩

theorem writeAt_length (a : List Nat) (pos : Nat) (bytes : List Nat)
    (h : pos + bytes.length ≤ a.length) : (writeAt a pos bytes).length = a.length := by
  unfold writeAt
  simp only [List.length_append, List.length_take, List.length_drop]
  omega

/-- The bounds with the fields spelled out. -/
theorem readAheadOk_iff (T : Task) : T.ReadAheadOk ↔
    (T.read_ahead_ofs ≤ T.read_ahead_len ∧
    (T.read_ahead_ofs = T.read_ahead_len → T.read_ahead_len = 0) ∧
    (T.read_ahead_buffer = none → T.read_ahead_len = 0) ∧
    (T.read_ahead_buffer ≠ none → T.read_ahead_len ≤ T.read_ahead_maxlen ∧
      (T.read_ahead_buffer.getD []).length = T.read_ahead_maxlen ∧
      T.read_ahead_maxlen < UINT16)) := Iff.rfl

theorem readAheadOk_of {T : Task} {b : Option (List Nat)} {o l m : Nat}
    (hb : T.read_ahead_buffer = b) (ho : T.read_ahead_ofs = o) (hl : T.read_ahead_len = l)
    (hm : T.read_ahead_maxlen = m) (c1 : o ≤ l) (c2 : o = l → l = 0) (c3 : b = none → l = 0)
    (c4 : b ≠ none → l ≤ m ∧ (b.getD []).length = m ∧ m < UINT16) : T.ReadAheadOk := by
  unfold Task.ReadAheadOk
  rw [hb, ho, hl, hm]
  exact ⟨c1, c2, c3, c4⟩

/-- Fields other than the read-ahead ones do not matter for the bounds. -/
theorem readAheadOk_congr {T T' : Task} (h : T.ReadAheadOk)
    (h1 : T'.read_ahead_buffer = T.read_ahead_buffer) (h2 : T'.read_ahead_ofs = T.read_ahead_ofs)
    (h3 : T'.read_ahead_len = T.read_ahead_len)
    (h4 : T'.read_ahead_maxlen = T.read_ahead_maxlen) : T'.ReadAheadOk := by
  unfold Task.ReadAheadOk at h ⊢
  rw [h1, h2, h3, h4]; exact h

theorem take_buffered_ok {t : TaskId} {a : List Nat} {k r : Nat} {s : Sched}
    (h : (s.tasks t).ReadAheadOk) (ha : (s.tasks t).read_ahead_buffer = some a)
    (hlt : (s.tasks t).read_ahead_ofs < (s.tasks t).read_ahead_len) :
    (((Task.take_buffered t .caller a k r s).2).tasks t).ReadAheadOk := by
  obtain ⟨h1, h2, h3, h4⟩ := h
  obtain ⟨h5, h6, h7⟩ := h4 (by rw [ha]; simp)
  unfold Task.take_buffered
  simp only [upd_tasks_same]
  have hb : min k ((s.tasks t).read_ahead_len - (s.tasks t).read_ahead_ofs) ≤
      (s.tasks t).read_ahead_len - (s.tasks t).read_ahead_ofs := Nat.min_le_right _ _
  have hm : ((s.tasks t).read_ahead_ofs +
      min k ((s.tasks t).read_ahead_len - (s.tasks t).read_ahead_ofs)) % UINT16 =
      (s.tasks t).read_ahead_ofs +
        min k ((s.tasks t).read_ahead_len - (s.tasks t).read_ahead_ofs) :=
    Nat.mod_eq_of_lt (by omega)
  rw [hm]
  unfold Task.ReadAheadOk
  simp only [if_neg (show ¬ ReadDst.caller = ReadDst.read_ahead by decide)]
  split
  · refine ⟨le_refl _, fun _ => rfl, fun _ => rfl, fun _ => ⟨Nat.zero_le _, ?_, h7⟩⟩
    simpa [ha] using h6
  · rename_i hne
    refine ⟨by omega, fun e => absurd e hne, fun e => by simp at e, fun _ => ⟨h5, ?_, h7⟩⟩
    simpa [ha] using h6

theorem store_read_ok {t : TaskId} {f : Bool} {r c : Nat} {x : List Nat}
    {s : Sched} (h : (s.tasks t).ReadAheadOk)
    (hge : ¬ (s.tasks t).read_ahead_ofs < (s.tasks t).read_ahead_len)
    (hb : f = true → (s.tasks t).read_ahead_buffer ≠ none ∧
      c = (s.tasks t).read_ahead_maxlen - (s.tasks t).read_ahead_len)
    (hd : x.length ≤ c) :
    ((Task.store_read t .caller f r x s).tasks t).ReadAheadOk := by
  obtain ⟨h1, h2, h3, h4⟩ := h
  have he : (s.tasks t).read_ahead_ofs = (s.tasks t).read_ahead_len := by omega
  have h0 := h2 he
  unfold Task.store_read
  cases f with
  | false =>
    simp only [Bool.false_eq_true, if_false,
      if_neg (show ¬ ReadDst.caller = ReadDst.read_ahead by decide), upd_tasks_same]
    exact ⟨h1, h2, h3, h4⟩
  | true =>
    obtain ⟨hp, hc⟩ := hb rfl
    obtain ⟨h5, h6, h7⟩ := h4 hp
    obtain ⟨a, ha⟩ := Option.ne_none_iff_exists'.1 hp
    simp only [if_true, upd_tasks_same]
    unfold Task.ReadAheadOk
    simp only [ha, Option.map_some', Option.getD_some]
    rw [ha] at h6
    simp only [Option.getD_some] at h6
    have hm : ((s.tasks t).read_ahead_len + x.length) % UINT16 =
        (s.tasks t).read_ahead_len + x.length := Nat.mod_eq_of_lt (by omega)
    rw [hm, writeAt_length _ _ _ (by omega)]
    refine ⟨by omega, fun e => by omega, fun e => by simp at e, fun _ => ⟨by omega, h6, h7⟩⟩

/-- The loop of `async_read(ptr,bytes,read)` into memory of the caller keeps the bounds,
however it ends. -/
theorem async_read_loop_ok (t : TaskId) (bytes : Nat) :
    ∀ (fuel : Nat) (got : List Nat) (s s' : Sched),
      (Task.async_read_loop t .caller bytes fuel got s).state? = some s' →
      (s.tasks t).ReadAheadOk → (s'.tasks t).ReadAheadOk := by
  intro fuel
  induction fuel with
  | zero => intro got s s' h; cases h
  | succ n ih =>
    intro got s s' h hok
    unfold Task.async_read_loop at h
    by_cases hlt : got.length < bytes
    · rw [if_pos hlt] at h
      by_cases hra : (s.tasks t).read_ahead_ofs < (s.tasks t).read_ahead_len
      · rw [if_pos hra] at h
        cases ha : (s.tasks t).read_ahead_buffer with
        | none => rw [ha] at h; cases h
        | some a =>
          rw [ha] at h
          exact ih _ _ s' h (take_buffered_ok hok ha hra)
      · rw [if_neg hra] at h
        simp only at h
        generalize hbuf : ((s.tasks t).read_ahead_buffer.isSome && (ReadDst.caller != .read_ahead)
          && decide (bytes - got.length < (s.tasks t).read_ahead_maxlen)) = buffer at h
        generalize hcap : (if buffer = true then
          (s.tasks t).read_ahead_maxlen - (s.tasks t).read_ahead_len
          else bytes - got.length) = cap at h
        cases hr : sys_read (s.tasks t).fd cap s with
        | mk ret s1 =>
          rw [hr] at h
          obtain ⟨ht, hle⟩ := sys_read_spec hr
          have hok1 : (s1.tasks t).ReadAheadOk := by rw [ht]; exact hok
          cases ret with
          | ewouldblock =>
            cases h
            rw [upd_tasks_same]
            exact readAheadOk_congr hok1 rfl rfl rfl rfl
          | efail => cases h; exact hok1
          | count d =>
            cases d with
            | nil =>
              cases h
              rw [upd_tasks_same]
              exact readAheadOk_congr hok1 rfl rfl rfl rfl
            | cons b bs =>
              simp only at h
              refine ih _ _ s' h (store_read_ok (c := cap) hok1 (by rw [ht]; exact hra) ?_
                (hle _ rfl))
              intro hb
              rw [hb] at hbuf hcap
              simp only [Bool.and_eq_true, decide_eq_true_eq] at hbuf
              rw [ht]
              refine ⟨?_, by rw [← hcap]; simp⟩
              intro e
              rw [e] at hbuf
              simp at hbuf
    · rw [if_neg hlt] at h
      cases h; exact hok

theorem async_read_ok {t : TaskId} {bytes : Nat} {s s' : Sched}
    (h : (Task.async_read t .caller bytes s).state? = some s')
    (hok : (s.tasks t).ReadAheadOk) : (s'.tasks t).ReadAheadOk := by
  unfold Task.async_read at h
  split at h
  · cases h; exact hok
  · split at h
    · cases h; exact hok
    · exact async_read_loop_ok t bytes _ _ s s' h hok

theorem store_read_empty {t : TaskId} {r : Nat} {x : List Nat} {s : Sched}
    (h : (s.tasks t).ReadAheadEmpty) (hd : r + x.length ≤ (s.tasks t).read_ahead_maxlen) :
    ((Task.store_read t .read_ahead false r x s).tasks t).ReadAheadEmpty ∧
      ((Task.store_read t .read_ahead false r x s).tasks t).read_ahead_maxlen =
        (s.tasks t).read_ahead_maxlen := by
  obtain ⟨h1, h2, h3, h4, h5⟩ := h
  obtain ⟨a, ha⟩ := Option.ne_none_iff_exists'.1 h1
  unfold Task.store_read Task.ReadAheadEmpty
  rw [ha] at h4
  simp only [Option.getD_some] at h4
  simp only [Bool.false_eq_true, if_false, if_true, upd_tasks_same, ha, Option.map_some',
    Option.getD_some]
  rw [writeAt_length _ _ _ (by omega)]
  exact ⟨⟨by simp, h2, h3, h4, h5⟩, trivial⟩

/-- The loop of `async_read(read_ahead_buffer,bytes,read)` on an empty read-ahead buffer of
at least `bytes` bytes: the counters stay 0, and no more than `bytes` bytes are stored. -/
theorem async_read_loop_empty (t : TaskId) (bytes : Nat) :
    ∀ (fuel : Nat) (got : List Nat) (s : Sched), got.length ≤ bytes →
      bytes ≤ (s.tasks t).read_ahead_maxlen → (s.tasks t).ReadAheadEmpty →
      (∀ s', (Task.async_read_loop t .read_ahead bytes fuel got s).state? = some s' →
        (s'.tasks t).ReadAheadEmpty ∧
          (s'.tasks t).read_ahead_maxlen = (s.tasks t).read_ahead_maxlen) ∧
      (∀ r s', Task.async_read_loop t .read_ahead bytes fuel got s = .ok r s' →
        r.2.length ≤ bytes) := by
  intro fuel
  induction fuel with
  | zero =>
    intro got s _ _ _
    exact ⟨fun s' h => (by cases h), fun r s' h => (by cases h)⟩
  | succ n ih =>
    intro got s hg hb hq
    unfold Task.async_read_loop
    by_cases hlt : got.length < bytes
    · rw [if_pos hlt]
      have hra : ¬ (s.tasks t).read_ahead_ofs < (s.tasks t).read_ahead_len := by
        rw [hq.2.1, hq.2.2.1]; exact Nat.lt_irrefl 0
      rw [if_neg hra]
      have hbuf : ((s.tasks t).read_ahead_buffer.isSome && (ReadDst.read_ahead != .read_ahead)
          && decide (bytes - got.length < (s.tasks t).read_ahead_maxlen)) = false := by
        simp
      simp only [hbuf, Bool.false_eq_true, if_false]
      cases hr : sys_read (s.tasks t).fd (bytes - got.length) s with
      | mk ret s1 =>
        obtain ⟨ht, hle⟩ := sys_read_spec hr
        have hq1 : (s1.tasks t).ReadAheadEmpty := by rw [ht]; exact hq
        cases ret with
        | ewouldblock =>
          refine ⟨fun s' h => ?_, fun r s' h => ?_⟩
          · cases h
            rw [upd_tasks_same, ht]
            exact ⟨hq, rfl⟩
          · cases h; exact hg
        | efail =>
          refine ⟨fun s' h => ?_, fun r s' h => (by cases h)⟩
          cases h; rw [ht]; exact ⟨hq, rfl⟩
        | count d =>
          cases d with
          | nil =>
            refine ⟨fun s' h => ?_, fun r s' h => (by cases h)⟩
            cases h
            rw [upd_tasks_same, ht]
            exact ⟨hq, rfl⟩
          | cons b bs =>
            simp only
            have hd := hle _ rfl
            have hs := store_read_empty (t := t) (r := got.length) (x := b :: bs) hq1
              (by rw [ht]; omega)
            have h2 := ih (got ++ b :: bs)
              (Task.store_read t .read_ahead false got.length (b :: bs) s1)
              (by rw [List.length_append]; omega) (by rw [hs.2, ht]; exact hb) hs.1
            refine ⟨fun s' h => ?_, h2.2⟩
            obtain ⟨h3, h4⟩ := h2.1 s' h
            exact ⟨h3, by rw [h4, hs.2, ht]⟩
    · rw [if_neg hlt]
      refine ⟨fun s' h => ?_, fun r s' h => ?_⟩
      · cases h; exact ⟨hq, rfl⟩
      · cases h; exact hg

theorem hand_out_ok {t : TaskId} {max : Nat} {s : Sched} (h : (s.tasks t).ReadAheadOk) :
    (((Task.hand_out t max s).2).tasks t).ReadAheadOk := by
  obtain ⟨h1, h2, h3, h4⟩ := h
  unfold Task.hand_out
  simp only
  split
  · rename_i hlt
    have hp : (s.tasks t).read_ahead_buffer ≠ none := fun e => by
      have := h3 e; omega
    obtain ⟨h5, h6, h7⟩ := h4 hp
    simp only [upd_tasks_same]
    have hb : min (max % UINT16)
        (((s.tasks t).read_ahead_len - (s.tasks t).read_ahead_ofs) % UINT16) ≤
        (s.tasks t).read_ahead_len - (s.tasks t).read_ahead_ofs :=
      le_trans (Nat.min_le_right _ _) (Nat.mod_le _ _)
    have hm : ((s.tasks t).read_ahead_ofs + min (max % UINT16)
        (((s.tasks t).read_ahead_len - (s.tasks t).read_ahead_ofs) % UINT16)) % UINT16 =
        (s.tasks t).read_ahead_ofs + min (max % UINT16)
        (((s.tasks t).read_ahead_len - (s.tasks t).read_ahead_ofs) % UINT16) :=
      Nat.mod_eq_of_lt (by omega)
    rw [hm]
    generalize min (max % UINT16)
      (((s.tasks t).read_ahead_len - (s.tasks t).read_ahead_ofs) % UINT16) = L at hb ⊢
    by_cases hne : (s.tasks t).read_ahead_ofs + L = (s.tasks t).read_ahead_len
    · exact readAheadOk_of (b := (s.tasks t).read_ahead_buffer)
        (m := (s.tasks t).read_ahead_maxlen) rfl (if_pos hne) (if_pos hne) rfl (le_refl _)
        (fun _ => rfl) (fun _ => rfl) (fun _ => ⟨Nat.zero_le _, h6, h7⟩)
    · exact readAheadOk_of (b := (s.tasks t).read_ahead_buffer)
        (m := (s.tasks t).read_ahead_maxlen) rfl (if_neg hne) (if_neg hne) rfl (by omega)
        (fun e => absurd e hne) (fun e => absurd e hp) (fun _ => ⟨h5, h6, h7⟩)
  · exact ⟨h1, h2, h3, h4⟩

theorem readAheadOk_of_empty {T : Task} (h : T.ReadAheadEmpty) : T.ReadAheadOk := by
  obtain ⟨h1, h2, h3, h4, h5⟩ := h
  exact ⟨by omega, fun _ => h3, fun _ => h3, fun _ => ⟨by omega, h4, h5⟩⟩

theorem async_read_buffered_ok {t : TaskId} {max : Nat} {s s' : Sched}
    (h : (Task.async_read_buffered t max s).state? = some s')
    (hok : (s.tasks t).ReadAheadOk) : (s'.tasks t).ReadAheadOk := by
  unfold Task.async_read_buffered at h
  cases ha : (s.tasks t).read_ahead_buffer with
  | none => rw [ha] at h; cases h; exact hok
  | some a =>
    rw [ha] at h
    simp only at h
    by_cases he : (s.tasks t).read_ahead_ofs = (s.tasks t).read_ahead_len
    · rw [if_pos he] at h
      by_cases hs : (s.tasks t).sated = true
      · rw [if_pos hs] at h; cases h; exact hok
      · rw [if_neg hs] at h
        obtain ⟨h1, h2, h3, h4⟩ := hok
        have hp : (s.tasks t).read_ahead_buffer ≠ none := by rw [ha]; simp
        obtain ⟨h5, h6, h7⟩ := h4 hp
        have h0 := h2 he
        have hq : (s.tasks t).ReadAheadEmpty := ⟨hp, by omega, h0, h6, h7⟩
        unfold Task.async_read at h
        by_cases hc : ((s.tasks t).closed || (s.tasks t).half_close.isSome) = true
        · rw [if_pos hc] at h; cases h; exact readAheadOk_of_empty hq
        · rw [if_neg hc, if_neg hs] at h
          · obtain ⟨k1, k2⟩ := async_read_loop_empty t (s.tasks t).read_ahead_maxlen
              (2 * (s.tasks t).read_ahead_maxlen + 2) [] s (Nat.zero_le _) (le_refl _) hq
            cases hr : Task.async_read_loop t .read_ahead (s.tasks t).read_ahead_maxlen
                (2 * (s.tasks t).read_ahead_maxlen + 2) [] s with
            | diverge => rw [hr] at h; cases h
            | throw e s1 =>
              rw [hr] at h
              cases h
              exact readAheadOk_of_empty (k1 _ (by rw [hr]; rfl)).1
            | ok r s1 =>
              rw [hr] at h
              simp only [Res.bind] at h
              cases h
              obtain ⟨⟨q1, q2, q3, q4, q5⟩, qm⟩ := k1 s1 (by rw [hr]; rfl)
              have hl := k2 r s1 hr
              apply hand_out_ok
              rw [upd_tasks_same]
              have hm : ((s1.tasks t).read_ahead_len + r.2.length) % UINT16 = r.2.length := by
                rw [q3, Nat.zero_add, Nat.mod_eq_of_lt (by omega)]
              exact readAheadOk_of (b := (s1.tasks t).read_ahead_buffer)
                (m := (s1.tasks t).read_ahead_maxlen) rfl q2 hm rfl (Nat.zero_le _)
                (fun e => e.symm) (fun e => absurd e q1) (fun _ => ⟨by omega, q4, q5⟩)
    · rw [if_neg he] at h
      cases h
      exact hand_out_ok hok

theorem async_read_exact_loop_ok (t : TaskId) (bytes : Nat) :
    ∀ (fuel : Nat) (s s' : Sched),
      (Task.async_read_exact_loop t bytes fuel s).state? = some s' →
      (s.tasks t).ReadAheadOk → (s'.tasks t).ReadAheadOk := by
  intro fuel
  induction fuel with
  | zero => intro s s' h; cases h
  | succ n ih =>
    intro s s' h hok
    unfold Task.async_read_exact_loop at h
    split at h
    · cases h
      rw [upd_tasks_same]
      exact readAheadOk_congr hok rfl rfl rfl rfl
    · split at h
      · split at h
        · cases h; exact hok
        · split at h
          · cases h; exact hok
          · cases h
      · cases hr : Task.async_read t .caller (bytes - (s.tasks t).buf.length) s with
        | diverge => rw [hr] at h; cases h
        | throw e s1 =>
          rw [hr] at h; cases h
          exact async_read_ok (by rw [hr]; rfl) hok
        | ok r s1 =>
          rw [hr] at h
          simp only [Res.bind] at h
          have hok1 : (s1.tasks t).ReadAheadOk := async_read_ok (by rw [hr]; rfl) hok
          have hok2 : ((s1.upd t (fun T => { T with buf := T.buf ++ r.2 })).tasks
              t).ReadAheadOk := by
            rw [upd_tasks_same]
            exact readAheadOk_congr hok1 rfl rfl rfl rfl
          split at h
          · cases h; exact hok2
          · exact ih _ s' h hok2

theorem async_read_str_loop_ok (t : TaskId) (max : Nat) :
    ∀ (fuel : Nat) (l : InLine) (s s' : Sched),
      (Task.async_read_str_loop t max fuel l s).state? = some s' →
      (s.tasks t).ReadAheadOk → (s'.tasks t).ReadAheadOk := by
  intro fuel
  induction fuel with
  | zero => intro l s s' h; cases h
  | succ n ih =>
    intro l s s' h hok
    unfold Task.async_read_str_loop at h
    split at h
    · cases hr : Task.async_read_exact t 1 s with
      | diverge => rw [hr] at h; cases h
      | throw e s1 =>
        rw [hr] at h; cases h
        exact async_read_exact_loop_ok t 1 3 s _ (by
          have : Task.async_read_exact t 1 s = Task.async_read_exact_loop t 1 3 s := rfl
          rw [← this, hr]; rfl) hok
      | ok r s1 =>
        rw [hr] at h
        simp only [Res.bind] at h
        have hok1 : (s1.tasks t).ReadAheadOk :=
          async_read_exact_loop_ok t 1 3 s s1 (by
            have : Task.async_read_exact t 1 s = Task.async_read_exact_loop t 1 3 s := rfl
            rw [← this, hr]; rfl) hok
        cases r with
        | none => cases h; exact hok1
        | some d =>
          simp only at h
          split at h
          · cases h; exact hok1
          · exact ih _ _ s' h hok1
    · cases h; exact hok

theorem setReadAheadBufferSize_ok {t : TaskId} {size : Nat} {s s' : Sched}
    (h : (Task.setReadAheadBufferSize t size s).state? = some s')
    (hok : (s.tasks t).ReadAheadOk) : (s'.tasks t).ReadAheadOk := by
  obtain ⟨h1, h2, h3, h4⟩ := hok
  have hsz : size % UINT16 < UINT16 := Nat.mod_lt _ (by decide)
  unfold Task.setReadAheadBufferSize at h
  simp only at h
  cases ha : (s.tasks t).read_ahead_buffer with
  | none =>
    rw [ha] at h
    simp only at h
    split at h
    · cases h
      rw [upd_tasks_same]
      exact readAheadOk_of (o := 0) (l := 0) (m := size % UINT16) rfl rfl rfl rfl (le_refl _)
        (fun _ => rfl) (fun _ => rfl) (fun _ => ⟨Nat.zero_le _, by simp, hsz⟩)
    · cases h; exact ⟨h1, h2, h3, h4⟩
  | some a =>
    rw [ha] at h
    simp only at h
    obtain ⟨h5, h6, h7⟩ := h4 (by rw [ha]; simp)
    rw [ha] at h6
    simp only [Option.getD_some] at h6
    have hm : ((s.tasks t).read_ahead_len + UINT16 - (s.tasks t).read_ahead_ofs) % UINT16 =
        (s.tasks t).read_ahead_len - (s.tasks t).read_ahead_ofs := by
      have e : (s.tasks t).read_ahead_len + UINT16 - (s.tasks t).read_ahead_ofs =
          ((s.tasks t).read_ahead_len - (s.tasks t).read_ahead_ofs) + UINT16 := by omega
      rw [e, Nat.add_mod_right, Nat.mod_eq_of_lt (by omega)]
    rw [hm] at h
    have hl : (writeAt a 0 ((a.drop 0).take
        ((s.tasks t).read_ahead_len - (s.tasks t).read_ahead_ofs))).length = a.length := by
      apply writeAt_length
      simp only [List.drop_zero, List.length_take]
      omega
    split at h
    · cases h
      rw [upd_tasks_same]
      exact readAheadOk_of (o := 0)
        (l := (s.tasks t).read_ahead_len - (s.tasks t).read_ahead_ofs)
        (m := (s.tasks t).read_ahead_maxlen) rfl rfl rfl rfl (Nat.zero_le _) (fun e => e.symm)
        (fun e => by simp at e) (fun _ => ⟨by omega, by rw [Option.getD_some, hl]; exact h6, h7⟩)
    · rename_i hle
      split at h
      · cases h
        rw [upd_tasks_same, upd_tasks_same]
        refine readAheadOk_of (o := 0)
          (l := (s.tasks t).read_ahead_len - (s.tasks t).read_ahead_ofs)
          (m := size % UINT16) rfl rfl rfl rfl (Nat.zero_le _) (fun e => e.symm)
          (fun e => by simp at e) (fun _ => ⟨by omega, ?_, hsz⟩)
        simp only [Option.getD_some, List.length_append, List.length_take,
          List.length_replicate, hl]
        omega
      · rename_i hz
        cases h
        rw [upd_tasks_same, upd_tasks_same]
        have hz2 : size % UINT16 = 0 := by simpa using hz
        have hz3 : (s.tasks t).read_ahead_len - (s.tasks t).read_ahead_ofs = 0 := by omega
        exact readAheadOk_of (b := none) (o := 0) (l := 0)
          (m := (s.tasks t).read_ahead_maxlen) rfl rfl hz3 rfl (le_refl _) (fun _ => rfl)
          (fun _ => rfl) (fun e => absurd rfl e)

theorem readCall_exec_ok {t : TaskId} (c : ReadCall) {s s' : Sched}
    (h : c.exec t s = some s') (hok : (s.tasks t).ReadAheadOk) : (s'.tasks t).ReadAheadOk := by
  cases c with
  | setReadAheadBufferSize size => exact setReadAheadBufferSize_ok h hok
  | async_read bytes => exact async_read_ok h hok
  | async_read_exact bytes => exact async_read_exact_loop_ok t bytes 3 s s' h hok
  | async_read_buffered max => exact async_read_buffered_ok h hok
  | async_read_str l max => exact async_read_str_loop_ok t max _ l s s' h hok
  | readable =>
    cases h
    rw [upd_tasks_same]
    exact readAheadOk_congr hok rfl rfl rfl rfl

theorem readCall_after_ok {t : TaskId} : ∀ (calls : List ReadCall) (s s' : Sched),
    ReadCall.after t calls s = some s' → (s.tasks t).ReadAheadOk →
    (s'.tasks t).ReadAheadOk := by
  intro calls
  induction calls with
  | nil => intro s s' h hok; cases h; exact hok
  | cons c cs ih =>
    intro s s' h hok
    unfold ReadCall.after at h
    rw [Option.bind_eq_some] at h
    obtain ⟨s1, h1, h2⟩ := h
    exact ih s1 s' h2 (readCall_exec_ok c h1 hok)

/-! ## The read path: reading exactly `n` bytes -/

theorem readAhead_length {T : Task} (h : T.ReadAheadOk) :
    T.readAhead.length = T.read_ahead_len - T.read_ahead_ofs := by
  obtain ⟨h1, h2, h3, h4⟩ := h
  unfold Task.readAhead
  cases ha : T.read_ahead_buffer with
  | none =>
    have := h3 ha
    simp only [List.length_nil]
    omega
  | some a =>
    obtain ⟨h5, h6, h7⟩ := h4 (by rw [ha]; simp)
    rw [ha] at h6
    simp only [Option.getD_some] at h6
    simp only [List.length_take, List.length_drop]
    omega

theorem readAhead_nil {T : Task} (h : T.ReadAheadOk)
    (hge : ¬ T.read_ahead_ofs < T.read_ahead_len) : T.readAhead = [] := by
  apply List.eq_nil_of_length_eq_zero
  rw [readAhead_length h]
  omega

/-- The first branch of the loop with the caller's memory as destination: the bytes copied
are the first `need` unread bytes of the read-ahead buffer, the others stay unread. -/
theorem take_buffered_spec {t : TaskId} {a : List Nat} {k r : Nat} {s : Sched}
    (h : (s.tasks t).ReadAheadOk) (ha : (s.tasks t).read_ahead_buffer = some a)
    (hlt : (s.tasks t).read_ahead_ofs < (s.tasks t).read_ahead_len) :
    (Task.take_buffered t .caller a k r s).1 = (s.tasks t).readAhead.take k ∧
      (((Task.take_buffered t .caller a k r s).2).tasks t).readAhead =
        (s.tasks t).readAhead.drop k := by
  obtain ⟨h1, h2, h3, h4⟩ := h
  obtain ⟨h5, h6, h7⟩ := h4 (by rw [ha]; simp)
  rw [ha] at h6
  simp only [Option.getD_some] at h6
  have hb : min k ((s.tasks t).read_ahead_len - (s.tasks t).read_ahead_ofs) ≤
      (s.tasks t).read_ahead_len - (s.tasks t).read_ahead_ofs := Nat.min_le_right _ _
  have hm : ((s.tasks t).read_ahead_ofs +
      min k ((s.tasks t).read_ahead_len - (s.tasks t).read_ahead_ofs)) % UINT16 =
      (s.tasks t).read_ahead_ofs +
        min k ((s.tasks t).read_ahead_len - (s.tasks t).read_ahead_ofs) :=
    Nat.mod_eq_of_lt (by omega)
  have hra : (s.tasks t).readAhead = (a.drop (s.tasks t).read_ahead_ofs).take
      ((s.tasks t).read_ahead_len - (s.tasks t).read_ahead_ofs) := by
    unfold Task.readAhead; rw [ha]
  unfold Task.take_buffered
  simp only [upd_tasks_same, if_neg (show ¬ ReadDst.caller = ReadDst.read_ahead by decide)]
  rw [hm, hra]
  refine ⟨by rw [List.take_take], ?_⟩
  unfold Task.readAhead
  simp only
  by_cases he : (s.tasks t).read_ahead_ofs +
      min k ((s.tasks t).read_ahead_len - (s.tasks t).read_ahead_ofs) =
      (s.tasks t).read_ahead_len
  · simp only [if_pos he, Nat.sub_zero, List.take_zero]
    symm
    apply List.drop_eq_nil_of_le
    simp only [List.length_take, List.length_drop]
    omega
  · simp only [if_neg he]
    have hn : min k ((s.tasks t).read_ahead_len - (s.tasks t).read_ahead_ofs) = k := by
      omega
    rw [hn, List.drop_take, List.drop_drop]
    congr 1
    omega

theorem take_buffered_frame {t : TaskId} {d : ReadDst} {a : List Nat} {k r : Nat}
    {s : Sched} :
    ((Task.take_buffered t d a k r s).2).input = s.input ∧
      (((Task.take_buffered t d a k r s).2).tasks t).buf = (s.tasks t).buf ∧
      (((Task.take_buffered t d a k r s).2).tasks t).fd = (s.tasks t).fd ∧
      (((Task.take_buffered t d a k r s).2).tasks t).closed = (s.tasks t).closed ∧
      (((Task.take_buffered t d a k r s).2).tasks t).half_close =
        (s.tasks t).half_close ∧
      (((Task.take_buffered t d a k r s).2).tasks t).sated = (s.tasks t).sated := by
  unfold Task.take_buffered
  simp only [upd_tasks_same, upd_input]
  exact ⟨trivial, trivial, trivial, trivial, trivial, trivial⟩

theorem store_read_frame {t : TaskId} {d : ReadDst} {f : Bool} {r : Nat}
    {x : List Nat} {s : Sched} :
    (Task.store_read t d f r x s).input = s.input ∧
      ((Task.store_read t d f r x s).tasks t).buf = (s.tasks t).buf ∧
      ((Task.store_read t d f r x s).tasks t).fd = (s.tasks t).fd ∧
      ((Task.store_read t d f r x s).tasks t).closed = (s.tasks t).closed ∧
      ((Task.store_read t d f r x s).tasks t).half_close =
        (s.tasks t).half_close ∧
      ((Task.store_read t d f r x s).tasks t).sated = (s.tasks t).sated := by
  unfold Task.store_read
  cases f <;> cases d <;> simp

/-- After a read into the empty read-ahead buffer its unread bytes are the bytes read. -/
theorem store_read_buffered {t : TaskId} {r : Nat} {x : List Nat} {s : Sched}
    (h : (s.tasks t).ReadAheadOk)
    (hge : ¬ (s.tasks t).read_ahead_ofs < (s.tasks t).read_ahead_len)
    (hp : (s.tasks t).read_ahead_buffer ≠ none)
    (hd : x.length ≤ (s.tasks t).read_ahead_maxlen - (s.tasks t).read_ahead_len) :
    ((Task.store_read t .caller true r x s).tasks t).readAhead = x := by
  obtain ⟨h1, h2, h3, h4⟩ := h
  have he : (s.tasks t).read_ahead_ofs = (s.tasks t).read_ahead_len := by omega
  have h0 := h2 he
  obtain ⟨h5, h6, h7⟩ := h4 hp
  obtain ⟨a, ha⟩ := Option.ne_none_iff_exists'.1 hp
  rw [ha] at h6
  simp only [Option.getD_some] at h6
  have ho : (s.tasks t).read_ahead_ofs = 0 := by omega
  unfold Task.store_read Task.readAhead
  simp only [if_true, upd_tasks_same, ha, Option.map_some', h0, ho, Nat.zero_add,
    List.drop_zero, Nat.sub_zero]
  rw [Nat.mod_eq_of_lt (by omega)]
  unfold writeAt
  simp

theorem store_read_direct {t : TaskId} {r : Nat} {x : List Nat} {s : Sched} :
    ((Task.store_read t .caller false r x s).tasks t).readAhead =
      (s.tasks t).readAhead := by
  unfold Task.store_read Task.readAhead
  simp

theorem leadingData_benign_nil : ∀ l : List ReadRes, l.all ReadRes.benign = true →
    leadingData l = [] → afterData l = l ∧ (l = [] ∨ ∃ rest, l = .wouldblock :: rest) := by
  intro l hb he
  cases l with
  | nil => exact ⟨rfl, Or.inl rfl⟩
  | cons r rest =>
    simp only [List.all_cons, Bool.and_eq_true] at hb
    cases r with
    | data bs =>
      have h1 : bs ++ leadingData rest = [] := he
      have h2 : bs = [] := (List.append_eq_nil.1 h1).1
      rw [h2] at hb
      exact absurd hb.1 (by simp [ReadRes.benign])
    | wouldblock => exact ⟨rfl, Or.inr ⟨rest, rfl⟩⟩
    | eof => exact absurd hb.1 (by simp [ReadRes.benign])
    | error => exact absurd hb.1 (by simp [ReadRes.benign])

/-- With nothing held by the kernel, `::read` says `EWOULDBLOCK`. -/
theorem sys_read_blocked {fd : Int} {c : Nat} {s : Sched} (hfd : 0 ≤ fd)
    (hb : s.input.all ReadRes.benign = true) (he : leadingData s.input = []) :
    ∃ s1, sys_read fd c s = (.ewouldblock, s1) ∧ s1.tasks = s.tasks ∧
      s1.input = (afterData s.input).tail ∧ s1.input.all ReadRes.benign = true := by
  obtain ⟨h1, h2⟩ := leadingData_benign_nil _ hb he
  unfold sys_read
  rw [if_neg (not_lt.2 hfd), h1]
  rcases h2 with h2 | ⟨rest, h2⟩
  · rw [h2]
    exact ⟨s, rfl, rfl, by rw [h2]; rfl, by rw [h2]; rfl⟩
  · rw [h2] at hb ⊢
    simp only [List.all_cons, Bool.and_eq_true] at hb
    exact ⟨{ s with input := rest }, rfl, rfl, rfl, hb.2⟩

/-- With bytes held by the kernel, `::read` takes some of the first of them. -/
theorem sys_read_data {fd : Int} {k : Nat} {s : Sched} (hfd : 0 ≤ fd) (hcap : 0 < k)
    (hb : s.input.all ReadRes.benign = true) (he : leadingData s.input ≠ []) :
    ∃ b bs s1, sys_read fd k s = (.count (b :: bs), s1) ∧ s1.tasks = s.tasks ∧
      (b :: bs).length ≤ k ∧
      b :: bs = (leadingData s.input).take (b :: bs).length ∧
      leadingData s1.input = (leadingData s.input).drop (b :: bs).length ∧
      afterData s1.input = afterData s.input ∧ s1.input.all ReadRes.benign = true := by
  unfold sys_read
  rw [if_neg (not_lt.2 hfd)]
  cases hi : s.input with
  | nil => rw [hi] at he; exact absurd rfl he
  | cons r rest =>
    rw [hi] at hb he
    simp only [List.all_cons, Bool.and_eq_true] at hb
    cases r with
    | wouldblock => exact absurd rfl he
    | eof => exact absurd rfl he
    | error => exact absurd rfl he
    | data d =>
      have hd : d ≠ [] := by
        intro e; rw [e] at hb; exact absurd hb.1 (by simp [ReadRes.benign])
      obtain ⟨x, xs, hx⟩ := List.exists_cons_of_ne_nil hd
      obtain ⟨c, hc⟩ : ∃ c, k = c + 1 := ⟨k - 1, by omega⟩
      have ht : d.take k = x :: xs.take c := by rw [hx, hc]; rfl
      have hl : (x :: xs.take c).length ≤ k := by
        rw [← ht, List.length_take]; exact Nat.min_le_left _ _
      have hl2 : (x :: xs.take c).length ≤ d.length := by
        rw [← ht, List.length_take]; exact Nat.min_le_right _ _
      have hl3 : (d.take k).length = min k d.length := List.length_take _ _
      refine ⟨x, xs.take c,
        { s with input := if d.drop k = [] then rest else .data (d.drop k) :: rest },
        by simp only [ht], rfl, hl, ?_, ?_, ?_, ?_⟩
      · show _ = (d ++ leadingData rest).take _
        rw [List.take_append_of_le_length hl2, ← ht, hl3]
        rcases le_total k d.length with h | h
        · rw [min_eq_left h]
        · rw [min_eq_right h, List.take_length, List.take_of_length_le h]
      · show leadingData (if d.drop k = [] then rest else .data (d.drop k) :: rest) =
          (d ++ leadingData rest).drop _
        rw [← ht, hl3]
        by_cases hdr : d.drop k = []
        · rw [if_pos hdr]
          have hle : d.length ≤ k := List.drop_eq_nil_iff.1 hdr
          rw [min_eq_right hle, List.drop_append_of_le_length (le_refl _), List.drop_length,
            List.nil_append]
        · rw [if_neg hdr]
          have hlt : k < d.length := by
            by_contra hn
            exact hdr (List.drop_eq_nil_iff.2 (by omega))
          rw [min_eq_left (le_of_lt hlt), List.drop_append_of_le_length (le_of_lt hlt)]
          rfl
      · show afterData (if d.drop k = [] then rest else .data (d.drop k) :: rest) =
          afterData rest
        by_cases hdr : d.drop k = []
        · rw [if_pos hdr]
        · rw [if_neg hdr]; rfl
      · show (if d.drop k = [] then rest else .data (d.drop k) :: rest).all
          ReadRes.benign = true
        by_cases hdr : d.drop k = []
        · rw [if_pos hdr]; exact hb.2
        · rw [if_neg hdr]
          simp only [List.all_cons, Bool.and_eq_true]
          refine ⟨?_, hb.2⟩
          cases hdd : d.drop k with
          | nil => exact absurd hdd hdr
          | cons y ys => rfl

theorem take_append_of_length_le {c x : List Nat} {n : Nat} (h : c.length ≤ n) :
    (c ++ x).take n = c ++ x.take (n - c.length) := by
  rw [List.take_append_eq_append_take, List.take_of_length_le h]

theorem drop_append_of_length_le {c x : List Nat} {n : Nat} (h : c.length ≤ n) :
    (c ++ x).drop n = x.drop (n - c.length) := by
  rw [List.drop_append_eq_append_drop, List.drop_eq_nil_of_le h, List.nil_append]

theorem readPost_step {t : TaskId} {need : Nat} {got : List Nat} {s s1 : Sched} {b : Bool}
    {got' : List Nat} {s' : Sched} {c : List Nat}
    (hA : (s.tasks t).readAhead ++ leadingData s.input =
      c ++ ((s1.tasks t).readAhead ++ leadingData s1.input))
    (hc : c.length ≤ need) (hbuf : (s1.tasks t).buf = (s.tasks t).buf)
    (hafter : afterData s1.input = afterData s.input)
    (h : ReadPost t (need - c.length) (got ++ c) s1 b got' s') :
    ReadPost t need got s b got' s' := by
  refine ⟨h.inv, h.buf.trans hbuf, fun hn => ?_, fun hn => ?_⟩
  · rw [hA] at hn ⊢
    rw [List.length_append] at hn
    obtain ⟨h1, h2, h3, h4⟩ := h.done (by omega)
    refine ⟨h1, ?_, ?_, h4.trans hafter⟩
    · rw [h2, take_append_of_length_le hc, List.append_assoc]
    · rw [h3, drop_append_of_length_le hc]
  · rw [hA] at hn ⊢
    rw [List.length_append] at hn
    obtain ⟨h1, h2, h3, h4⟩ := h.blocked (by omega)
    exact ⟨h1, by rw [h2, List.append_assoc], h3, by rw [h4, hafter]⟩

theorem readInv_of {t : TaskId} {s s' : Sched} (h : ReadInv t s)
    (h1 : (s'.tasks t).fd = (s.tasks t).fd) (h2 : (s'.tasks t).closed = (s.tasks t).closed)
    (h3 : (s'.tasks t).half_close = (s.tasks t).half_close) (h4 : (s'.tasks t).ReadAheadOk)
    (h5 : s'.input.all ReadRes.benign = true) : ReadInv t s' :=
  ⟨by rw [h1]; exact h.fd_nonneg, by rw [h2]; exact h.not_closed,
    by rw [h3]; exact h.half_close, h4, h5⟩

/-- The loop of `async_read(ptr,bytes,read)` into memory of the caller, on a stream of bytes
chunked by `EWOULDBLOCK`: it returns, and `ReadPost` holds. -/
theorem async_read_loop_spec (t : TaskId) (bytes : Nat) :
    ∀ (fuel : Nat) (got : List Nat) (s : Sched), got.length ≤ bytes →
      2 * (bytes - got.length) +
        (if (s.tasks t).read_ahead_ofs < (s.tasks t).read_ahead_len then 0 else 1) < fuel →
      ReadInv t s →
      ∃ b got' s', Task.async_read_loop t .caller bytes fuel got s = .ok (b, got') s' ∧
        ReadPost t (bytes - got.length) got s b got' s' := by
  intro fuel
  induction fuel with
  | zero => intro got s _ h; exact absurd h (Nat.not_lt_zero _)
  | succ n ih =>
    intro got s hg hfuel hI
    unfold Task.async_read_loop
    by_cases hlt : got.length < bytes
    · rw [if_pos hlt]
      by_cases hra : (s.tasks t).read_ahead_ofs < (s.tasks t).read_ahead_len
      · -- bytes are waiting in the read-ahead buffer
        rw [if_pos hra] at hfuel ⊢
        obtain ⟨k1, k2, k3, k4⟩ := hI.ok
        have hp : (s.tasks t).read_ahead_buffer ≠ none := fun e => by
          have := k3 e; omega
        obtain ⟨a, ha⟩ := Option.ne_none_iff_exists'.1 hp
        rw [ha]
        simp only
        obtain ⟨c1, c2⟩ := take_buffered_spec (k := bytes - got.length) (r := got.length)
          hI.ok ha hra
        obtain ⟨f1, f2, f3, f4, f5, -⟩ := take_buffered_frame (t := t) (d := .caller) (a := a)
          (k := bytes - got.length) (r := got.length) (s := s)
        have hok1 := take_buffered_ok (k := bytes - got.length) (r := got.length)
          hI.ok ha hra
        have hI1 : ReadInv t (Task.take_buffered t .caller a (bytes - got.length)
            got.length s).2 := readInv_of hI f3 f4 f5 hok1 (by rw [f1]; exact hI.benign)
        have hlen := readAhead_length hI.ok
        have hcl : ((s.tasks t).readAhead.take (bytes - got.length)).length =
            min (bytes - got.length) ((s.tasks t).read_ahead_len - (s.tasks t).read_ahead_ofs) := by
          rw [List.length_take, hlen]
        rw [c1]
        obtain ⟨b, got', s', h1, h2⟩ := ih (got ++ (s.tasks t).readAhead.take (bytes - got.length))
          (Task.take_buffered t .caller a (bytes - got.length) got.length s).2
          (by rw [List.length_append, hcl]; omega)
          (by rw [List.length_append, hcl]; split <;> omega) hI1
        refine ⟨b, got', s', h1, readPost_step (c := (s.tasks t).readAhead.take
          (bytes - got.length)) ?_ (by rw [hcl]; omega) f2 (by rw [f1]) ?_⟩
        · rw [c2, f1, ← List.append_assoc, List.take_append_drop]
        · have e : bytes - (got ++ (s.tasks t).readAhead.take (bytes - got.length)).length =
              bytes - got.length - ((s.tasks t).readAhead.take (bytes - got.length)).length := by
            rw [List.length_append]; omega
          rw [← e]; exact h2
      · -- the read-ahead buffer is empty: `::read`
        rw [if_neg hra] at hfuel ⊢
        have hnil := readAhead_nil hI.ok hra
        obtain ⟨k1, k2, k3, k4⟩ := hI.ok
        have hz : (s.tasks t).read_ahead_len = 0 := k2 (by omega)
        simp only
        by_cases hld : leadingData s.input = []
        · obtain ⟨s1, e1, e2, e3, e4⟩ := sys_read_blocked (c := if
            ((s.tasks t).read_ahead_buffer.isSome && (ReadDst.caller != .read_ahead) &&
              decide (bytes - got.length < (s.tasks t).read_ahead_maxlen)) = true
            then (s.tasks t).read_ahead_maxlen - (s.tasks t).read_ahead_len
            else bytes - got.length) hI.fd_nonneg hI.benign hld
          rw [e1]
          refine ⟨false, got, _, rfl, ?_, ?_, fun hn => ?_, fun _ => ?_⟩
          · refine readInv_of hI ?_ ?_ ?_ ?_ (by rw [upd_input]; exact e4)
            · rw [upd_tasks_same, e2]
            · rw [upd_tasks_same, e2]
            · rw [upd_tasks_same, e2]
            · rw [upd_tasks_same, e2]; exact readAheadOk_congr hI.ok rfl rfl rfl rfl
          · rw [upd_tasks_same, e2]
          · rw [hnil, hld] at hn
            simp only [List.append_nil, List.length_nil] at hn
            omega
          · rw [hnil, hld]
            refine ⟨rfl, by simp, ?_, by rw [upd_input]; exact e3⟩
            rw [upd_tasks_same, e2]
            exact hnil
        · by_cases hbuf : ((s.tasks t).read_ahead_buffer.isSome &&
              (ReadDst.caller != .read_ahead) &&
              decide (bytes - got.length < (s.tasks t).read_ahead_maxlen)) = true
          · -- into the read-ahead buffer
            simp only [hbuf, if_true]
            simp only [Bool.and_eq_true, decide_eq_true_eq] at hbuf
            have hp : (s.tasks t).read_ahead_buffer ≠ none := by
              intro e; rw [e] at hbuf; simp at hbuf
            obtain ⟨d0, ds, s1, e1, e2, e3, e4, e5, e6, e7⟩ :=
              sys_read_data (k := (s.tasks t).read_ahead_maxlen - (s.tasks t).read_ahead_len)
                hI.fd_nonneg (by omega) hI.benign hld
            rw [e1]
            simp only
            obtain ⟨f1, f2, f3, f4, f5, -⟩ := store_read_frame (t := t) (d := .caller)
              (f := true) (r := got.length) (x := d0 :: ds) (s := s1)
            have hok0 : (s1.tasks t).ReadAheadOk := by rw [e2]; exact hI.ok
            have hok1 := store_read_ok (t := t) (f := true) (r := got.length)
              (c := (s.tasks t).read_ahead_maxlen - (s.tasks t).read_ahead_len)
              (x := d0 :: ds) hok0 (by rw [e2]; exact hra)
              (fun _ => ⟨by rw [e2]; exact hp, by rw [e2]⟩) e3
            have hI1 : ReadInv t (Task.store_read t .caller true got.length (d0 :: ds) s1) :=
              readInv_of hI (by rw [f3, e2]) (by rw [f4, e2]) (by rw [f5, e2]) hok1
                (by rw [f1]; exact e7)
            have hra1 := store_read_buffered (t := t) (r := got.length) (x := d0 :: ds)
              hok0 (by rw [e2]; exact hra) (by rw [e2]; exact hp) (by rw [e2]; exact e3)
            have hlen1 := readAhead_length hok1
            rw [hra1] at hlen1
            have hpos : ((Task.store_read t .caller true got.length (d0 :: ds) s1).tasks
                t).read_ahead_ofs < ((Task.store_read t .caller true got.length (d0 :: ds)
                s1).tasks t).read_ahead_len := by
              simp only [List.length_cons] at hlen1
              omega
            obtain ⟨b, got', s', h1, h2⟩ := ih got
              (Task.store_read t .caller true got.length (d0 :: ds) s1) hg
              (by rw [if_pos hpos]; omega) hI1
            refine ⟨b, got', s', h1, readPost_step (c := []) ?_ (Nat.zero_le _)
              (by rw [f2, e2]) (by rw [f1, e6]) ?_⟩
            · rw [hra1, f1, e5, hnil, List.nil_append, List.nil_append]
              conv_lhs => rw [← List.take_append_drop (d0 :: ds).length (leadingData s.input)]
              rw [← e4]
            · rw [List.append_nil]; exact h2
          · -- to the caller
            simp only [hbuf, Bool.false_eq_true, if_false]
            obtain ⟨d0, ds, s1, e1, e2, e3, e4, e5, e6, e7⟩ :=
              sys_read_data (k := bytes - got.length) hI.fd_nonneg (by omega) hI.benign hld
            rw [e1]
            simp only
            obtain ⟨f1, f2, f3, f4, f5, -⟩ := store_read_frame (t := t) (d := .caller)
              (f := false) (r := got.length) (x := d0 :: ds) (s := s1)
            have hok0 : (s1.tasks t).ReadAheadOk := by rw [e2]; exact hI.ok
            have hok1 := store_read_ok (t := t) (f := false) (r := got.length)
              (c := bytes - got.length) (x := d0 :: ds) hok0 (by rw [e2]; exact hra)
              (fun hx => by cases hx) e3
            have hI1 : ReadInv t (Task.store_read t .caller false got.length (d0 :: ds) s1) :=
              readInv_of hI (by rw [f3, e2]) (by rw [f4, e2]) (by rw [f5, e2]) hok1
                (by rw [f1]; exact e7)
            have hra1 : ((Task.store_read t .caller false got.length (d0 :: ds) s1).tasks
                t).readAhead = [] := by
              rw [store_read_direct, e2]; exact hnil
            obtain ⟨b, got', s', h1, h2⟩ := ih (got ++ d0 :: ds)
              (Task.store_read t .caller false got.length (d0 :: ds) s1)
              (by rw [List.length_append]; omega)
              (by rw [List.length_append]; simp only [List.length_cons] at e3 ⊢
                  split <;> omega) hI1
            refine ⟨b, got', s', h1, readPost_step (c := d0 :: ds) ?_ e3
              (by rw [f2, e2]) (by rw [f1, e6]) ?_⟩
            · rw [hra1, f1, e5, hnil, List.nil_append, List.nil_append]
              conv_lhs => rw [← List.take_append_drop (d0 :: ds).length (leadingData s.input)]
              rw [← e4]
            · have e : bytes - (got ++ d0 :: ds).length =
                  bytes - got.length - (d0 :: ds).length := by
                rw [List.length_append]; omega
              rw [← e]; exact h2
    · rw [if_neg hlt]
      have e : bytes - got.length = 0 := by omega
      refine ⟨true, got, s, rfl, hI, rfl, fun _ => ?_, fun hn => ?_⟩
      · rw [e]; simp
      · rw [e] at hn; exact absurd hn (Nat.not_lt_zero _)

theorem readAhead_upd_buf (T : Task) (b : List Nat) :
    Task.readAhead { T with buf := b } = T.readAhead := rfl

/-- `async_read(ptr,bytes)` on a stream of bytes chunked by `EWOULDBLOCK`: it returns `true`
with the first `n` bytes that have arrived, or `false` with all of them kept in `buf`. -/
theorem async_read_exact_spec {t : TaskId} {n : Nat} {s : Sched} (hI : ReadInv t s)
    (hs : (s.tasks t).sated = false) (hbuf : (s.tasks t).buf.length < n) :
    ∃ r s', Task.async_read_exact t n s = .ok r s' ∧ ReadInv t s' ∧
      (s'.tasks t).buf.length < n ∧
      (n ≤ (s.arrived t).length → r = some ((s.arrived t).take n) ∧
        s'.arrived t = (s.arrived t).drop n ∧ afterData s'.input = afterData s.input) ∧
      ((s.arrived t).length < n → r = none ∧
        s'.arrived t = s.arrived t ++ leadingData (afterData s.input).tail ∧
        afterData s'.input = afterData (afterData s.input).tail) := by
  obtain ⟨b, got, s1, h1, hP⟩ := async_read_loop_spec t (n - (s.tasks t).buf.length)
    (2 * (n - (s.tasks t).buf.length) + 2) [] s (Nat.zero_le _)
    (by simp only [List.length_nil, Nat.sub_zero]; split <;> omega) hI
  simp only [List.length_nil, Nat.sub_zero, List.nil_append] at hP
  have hcall : Task.async_read t .caller (n - (s.tasks t).buf.length) s = .ok (b, got) s1 := by
    unfold Task.async_read
    rw [hI.not_closed, hI.half_close, hs]
    simpa using h1
  have hlen : (s.arrived t).length = (s.tasks t).buf.length +
      ((s.tasks t).readAhead ++ leadingData s.input).length := by
    unfold Sched.arrived; rw [List.length_append]
  have hI2 : ∀ x : List Nat, ReadInv t (s1.upd t (fun T => { T with buf := x })) := by
    intro x
    refine readInv_of hP.inv ?_ ?_ ?_ ?_ ?_
    · rw [upd_tasks_same]
    · rw [upd_tasks_same]
    · rw [upd_tasks_same]
    · rw [upd_tasks_same]; exact readAheadOk_congr hP.inv.ok rfl rfl rfl rfl
    · rw [upd_input]; exact hP.inv.benign
  unfold Task.async_read_exact Task.async_read_exact_loop
  rw [if_neg (Nat.ne_of_lt hbuf), if_neg (Nat.lt_asymm hbuf), hcall]
  simp only [Res.bind]
  by_cases hn : n - (s.tasks t).buf.length ≤
      ((s.tasks t).readAhead ++ leadingData s.input).length
  · obtain ⟨e1, e2, e3, e4⟩ := hP.done hn
    rw [List.nil_append] at e2
    rw [e1]
    simp only [Bool.not_true, Bool.false_eq_true, if_false]
    unfold Task.async_read_exact_loop
    have hl2 : ((s1.tasks t).buf ++ got).length = n := by
      rw [List.length_append, hP.buf, e2, List.length_take]; omega
    simp only [upd_tasks_same]
    rw [if_pos hl2]
    refine ⟨_, _, rfl, ?_, ?_, fun _ => ⟨?_, ?_, ?_⟩, fun hx => ?_⟩
    · have := hI2 []
      rw [upd_upd]
      exact this
    · rw [upd_tasks_same]; exact Nat.lt_of_le_of_lt (Nat.zero_le _) hbuf
    · congr 1
      rw [List.take_of_length_le (le_of_eq hl2), hP.buf, e2]
      unfold Sched.arrived
      rw [take_append_of_length_le (le_of_lt hbuf)]
    · unfold Sched.arrived
      simp only [upd_tasks_same, upd_input, List.nil_append]
      rw [readAhead_upd_buf, readAhead_upd_buf, e3, drop_append_of_length_le (le_of_lt hbuf)]
    · simp only [upd_input]; exact e4
    · omega
  · obtain ⟨e1, e2, e3, e4⟩ := hP.blocked (by omega)
    rw [List.nil_append] at e2
    rw [e1]
    simp only [Bool.not_false, if_true]
    refine ⟨_, _, rfl, hI2 _, ?_, fun hx => ?_, fun _ => ⟨rfl, ?_, ?_⟩⟩
    · rw [upd_tasks_same]
      show ((s1.tasks t).buf ++ got).length < n
      rw [List.length_append, hP.buf, e2]; omega
    · omega
    · unfold Sched.arrived
      simp only [upd_tasks_same, upd_input]
      rw [readAhead_upd_buf, e3, e4, hP.buf, e2]
      simp
    · simp only [upd_input]; rw [e4]

theorem allData_split : ∀ l : List ReadRes, allData l = leadingData l ++ allData (afterData l) := by
  intro l
  induction l with
  | nil => rfl
  | cons r rest ih =>
    cases r with
    | data bs =>
      show bs ++ allData rest = (bs ++ leadingData rest) ++ allData (afterData rest)
      rw [ih, List.append_assoc]
    | wouldblock => rfl
    | eof => rfl
    | error => rfl

theorem allData_afterData_tail : ∀ l : List ReadRes, l.all ReadRes.benign = true →
    allData (afterData l) = allData (afterData l).tail := by
  intro l
  induction l with
  | nil => intro _; rfl
  | cons r rest ih =>
    intro hb
    simp only [List.all_cons, Bool.and_eq_true] at hb
    cases r with
    | data bs => exact ih hb.2
    | wouldblock => rfl
    | eof => exact absurd hb.1 (by simp [ReadRes.benign])
    | error => exact absurd hb.1 (by simp [ReadRes.benign])

theorem returnedBytes_cons (r : Option (List Nat)) (rs : List (Option (List Nat))) :
    returnedBytes (r :: rs) = r.getD [] ++ returnedBytes rs := rfl

/-- Reads at `k` readable events do what the specification promises, and return the bytes
of the stream in order. -/
theorem readEdges_spec (t : TaskId) (n : Nat) : ∀ (k : Nat) (s : Sched), ReadInv t s →
    (s.tasks t).buf.length < n →
    ∃ s', Task.readEdges t n k s = .ok (exactReads n k (s.arrived t) (afterData s.input)) s' ∧
      returnedBytes (exactReads n k (s.arrived t) (afterData s.input)) ++ s'.unread t =
        s.unread t := by
  intro k
  induction k with
  | zero => intro s _ _; exact ⟨s, rfl, rfl⟩
  | succ k ih =>
    intro s hI hbuf
    have hI0 : ReadInv t (s.upd t (fun T => { T with sated := false })) := by
      refine readInv_of hI ?_ ?_ ?_ ?_ ?_
      · rw [upd_tasks_same]
      · rw [upd_tasks_same]
      · rw [upd_tasks_same]
      · rw [upd_tasks_same]; exact readAheadOk_congr hI.ok rfl rfl rfl rfl
      · rw [upd_input]; exact hI.benign
    have ha0 : (s.upd t (fun T => { T with sated := false })).arrived t = s.arrived t := by
      unfold Sched.arrived
      simp only [upd_tasks_same, upd_input]
      rfl
    obtain ⟨r, s1, h1, hI1, hb1, hdone, hblocked⟩ := async_read_exact_spec (n := n) hI0
      (by rw [upd_tasks_same]) (by rw [upd_tasks_same]; exact hbuf)
    rw [ha0, upd_input] at hdone hblocked
    obtain ⟨s2, h2, h3⟩ := ih s1 hI1 hb1
    unfold Task.readEdges exactReads
    rw [h1]
    simp only [Res.bind]
    rw [h2]
    by_cases hn : n ≤ (s.arrived t).length
    · obtain ⟨e1, e2, e3⟩ := hdone hn
      rw [if_pos hn, e1, ← e2, ← e3]
      refine ⟨s2, rfl, ?_⟩
      rw [returnedBytes_cons, List.append_assoc, h3]
      unfold Sched.unread
      rw [e2, e3, ← List.append_assoc]
      simp
    · obtain ⟨e1, e2, e3⟩ := hblocked (by omega)
      rw [if_neg hn, e1, ← e2, ← e3]
      refine ⟨s2, rfl, ?_⟩
      rw [returnedBytes_cons, List.append_assoc, h3]
      unfold Sched.unread
      rw [e2, e3, Option.getD_none, List.nil_append, List.append_assoc,
        ← allData_split, ← allData_afterData_tail _ hI.benign]

/-! ## C13: `async_read(dst, n)` across any chunking -/

/-- C13: take `0 < n <= 16`, an open task with a descriptor and nothing collected in `buf`,
any read-ahead configuration (no buffer, or one of any capacity, counters within bounds),
and any chunking of the peer's bytes into deliveries separated by `EWOULDBLOCK`.  Then `k`
calls of `async_read(dst,n)`, one per readable event, all return, and their results are what
the specification promises (`exactReads`): `false` until `n` bytes have arrived that were
not returned yet, then `true` with `dst` the first `n` of them, the bytes beyond staying for
the next calls.  The bytes returned, in order, followed by the bytes not returned yet are
the peer's stream: nothing is lost, duplicated or reordered. -/
theorem C13_async_read_exact (t : TaskId) (n k : Nat) (s : Sched) (hn : 0 < n) (h16 : n ≤ 16)
    (hopen : (s.tasks t).closed = false) (hfd : 0 ≤ (s.tasks t).fd)
    (hhc : (s.tasks t).half_close = none) (hbuf : (s.tasks t).buf = [])
    (hra : (s.tasks t).ReadAheadOk) (hin : s.input.all ReadRes.benign = true) :
    ∃ s', Task.readEdges t n k s =
        .ok (exactReads n k (s.arrived t) (afterData s.input)) s' ∧
      returnedBytes (exactReads n k (s.arrived t) (afterData s.input)) ++ s'.unread t =
        s.unread t := by
  have _ := h16
  exact readEdges_spec t n k s ⟨hfd, hopen, hhc, hra, hin⟩ (by rw [hbuf]; exact hn)

/-- C13 witness: reads of 3 bytes at 5 readable events, with a read-ahead buffer of 4 bytes,
the bytes 1 to 9 arriving as `[1, 2]`, `[3, 4, 5, 6, 7]`, a pause, `[8]`, a pause, `[9]`. -/
theorem C13_async_read_exact_witness :
    ∃ s', Task.readEdges 0 3 5 reader1to9 =
        .ok (exactReads 3 5 (reader1to9.arrived 0) (afterData reader1to9.input)) s' ∧
      returnedBytes (exactReads 3 5 (reader1to9.arrived 0) (afterData reader1to9.input)) ++
        s'.unread 0 = reader1to9.unread 0 :=
  C13_async_read_exact 0 3 5 reader1to9 (by decide) (by decide) (by decide) (by decide)
    (by decide) (by decide) (by decide) (by decide)

/-- The witness of C13 in figures, with the read-ahead buffer and without one: the results
of the five calls. -/
theorem readEdges_examples :
    (Task.readEdges 0 3 5 reader1to9).value? =
        some [some [1, 2, 3], some [4, 5, 6], none, none, some [7, 8, 9]] ∧
      exactReads 3 5 (reader1to9.arrived 0) (afterData reader1to9.input) =
        [some [1, 2, 3], some [4, 5, 6], none, none, some [7, 8, 9]] ∧
      (Task.readEdges 0 3 5 reader1234).value? =
        some [some [1, 2, 3], none, some [4, 5, 6], none, none] := by
  decide

/-! ## C14: resizing the read-ahead buffer -/

/-- C14 (the code diverges): with a read-ahead buffer of 4 bytes, `[1, 2, 3, 4]` delivered
and the first byte read, the unread bytes are `B = [2, 3, 4]` at `read_ahead_ofs = 1`.
`setReadAheadBufferSize(8)` returns, and afterwards the unread bytes are `[1, 2, 3]`: the
byte already read comes again and the last byte is lost, as the next read of 3 bytes
shows. -/
theorem C14_resize_shifts_unread_bytes :
    readAheadView readOneOfFour.state? 0 = some (1, 4, [2, 3, 4]) ∧
    readAheadView
      (readOneOfFour.bind fun _ s => Task.setReadAheadBufferSize 0 8 s).state? 0 =
        some (0, 3, [1, 2, 3]) ∧
    ((readOneOfFour.bind fun _ s => Task.setReadAheadBufferSize 0 8 s).bind fun _ s =>
      Task.async_read 0 .caller 3 s).value? = some (true, [1, 2, 3]) := by
  decide

/-- The other half of C14 holds: with the counters within bounds, a new size smaller than
the number of unread bytes makes `setReadAheadBufferSize` throw an internal error. -/
theorem setReadAheadBufferSize_too_small (t : TaskId) (size : Nat) (s : Sched)
    (hok : (s.tasks t).ReadAheadOk) (hp : (s.tasks t).read_ahead_buffer ≠ none)
    (hs : size < (s.tasks t).read_ahead_len - (s.tasks t).read_ahead_ofs) :
    (Task.setReadAheadBufferSize t size s).exn? = some .internalError := by
  obtain ⟨h1, h2, h3, h4⟩ := hok
  obtain ⟨h5, h6, h7⟩ := h4 hp
  obtain ⟨a, ha⟩ := Option.ne_none_iff_exists'.1 hp
  have hm : ((s.tasks t).read_ahead_len + UINT16 - (s.tasks t).read_ahead_ofs) % UINT16 =
      (s.tasks t).read_ahead_len - (s.tasks t).read_ahead_ofs := by
    have e : (s.tasks t).read_ahead_len + UINT16 - (s.tasks t).read_ahead_ofs =
        ((s.tasks t).read_ahead_len - (s.tasks t).read_ahead_ofs) + UINT16 := by omega
    rw [e, Nat.add_mod_right, Nat.mod_eq_of_lt (by omega)]
  have hz : size % UINT16 = size := Nat.mod_eq_of_lt (by omega)
  unfold Task.setReadAheadBufferSize
  simp only [ha, hm, hz]
  rw [if_pos hs]
  rfl

/-! ## C15: the read-ahead counters -/

/-- C15: take a task whose read-ahead fields are as the constructor leaves them (no buffer,
`read_ahead_ofs = read_ahead_len = 0`) and perform any calls of `setReadAheadBufferSize`,
`async_read(ptr,bytes,read)` (into memory of the caller), `async_read(ptr,bytes)`,
`async_read_buffered` and `async_read_str`, with `sated` reset in between as `Task::run`
does, whatever the kernel delivers (bytes, `EWOULDBLOCK`, end of stream, errors) and whether
the calls return or throw.  Whenever a read-ahead buffer is present afterwards,
`read_ahead_ofs <= read_ahead_len <= read_ahead_maxlen` and the buffer has
`read_ahead_maxlen` bytes. -/
theorem C15_read_ahead_bounds (t : TaskId) (calls : List ReadCall) (s s' : Sched)
    (hfresh : (s.tasks t).read_ahead_buffer = none ∧ (s.tasks t).read_ahead_ofs = 0 ∧
      (s.tasks t).read_ahead_len = 0)
    (hr : ReadCall.after t calls s = some s') :
    ∀ a, (s'.tasks t).read_ahead_buffer = some a →
      (s'.tasks t).read_ahead_ofs ≤ (s'.tasks t).read_ahead_len ∧
      (s'.tasks t).read_ahead_len ≤ (s'.tasks t).read_ahead_maxlen ∧
      a.length = (s'.tasks t).read_ahead_maxlen := by
  obtain ⟨f1, f2, f3⟩ := hfresh
  have h0 : (s.tasks t).ReadAheadOk :=
    ⟨by omega, fun _ => f3, fun _ => f3, fun e => absurd f1 e⟩
  obtain ⟨h1, -, -, h4⟩ := readCall_after_ok calls s s' hr h0
  intro a ha
  obtain ⟨h5, h6, -⟩ := h4 (by rw [ha]; simp)
  rw [ha] at h6
  exact ⟨h1, h5, h6⟩

/-- C15 witness: the calls `readCalls` on a fresh task to which the kernel delivers
`[1, 2, 3, 4]`, nothing, `[5, 6]`. -/
theorem C15_read_ahead_bounds_witness :
    ReadCall.after 0 readCalls reader1234 = some readCallsEnd ∧
    ∀ a, (readCallsEnd.tasks 0).read_ahead_buffer = some a →
      (readCallsEnd.tasks 0).read_ahead_ofs ≤ (readCallsEnd.tasks 0).read_ahead_len ∧
      (readCallsEnd.tasks 0).read_ahead_len ≤ (readCallsEnd.tasks 0).read_ahead_maxlen ∧
      a.length = (readCallsEnd.tasks 0).read_ahead_maxlen :=
  ⟨rfl, C15_read_ahead_bounds 0 readCalls reader1234 readCallsEnd ⟨rfl, rfl, rfl⟩ rfl⟩

/-- The witness of C15 in figures: the read-ahead fields after each of the first calls. -/
theorem readCalls_view :
    (readCalls.inits.map fun cs => (ReadCall.after 0 cs reader1234).map fun s =>
      ((s.tasks 0).read_ahead_buffer, (s.tasks 0).read_ahead_ofs, (s.tasks 0).read_ahead_len,
        (s.tasks 0).read_ahead_maxlen)).take 6 =
      [some (none, 0, 0, 0), some (some [0, 0, 0, 0], 0, 0, 4), some (some [1, 2, 3, 4], 1, 4, 4),
        some (some [1, 2, 3, 4, 0, 0, 0, 0], 0, 3, 8),
        some (some [1, 2, 3, 4, 0, 0, 0, 0], 2, 3, 8),
        some (some [1, 2, 3, 4, 0, 0, 0, 0], 0, 0, 8)] := by
  decide

/-- A sequence of calls through the exception of the inner `async_read`: after a readable
event `async_read(ptr,3)` collects the 2 bytes there are and returns `false` with the task
sated; `async_read(ptr,1)` then finds `buflen = 2 > 1` and throws `InternalError` from the
inner call, the state unchanged; the calls that follow are performed as well, and the
read-ahead fields are within their bounds throughout. -/
theorem readExact_shorter_throws :
    ((ReadCall.after 0 [.readable, .async_read_exact 3] reader12).map fun s =>
        ((s.tasks 0).buf, (s.tasks 0).sated)) = some ([1, 2], true) ∧
      ((ReadCall.after 0 [.readable, .async_read_exact 3] reader12).map fun s =>
        (Task.async_read_exact 0 1 s).exn?) = some (some .internalError) ∧
      ((ReadCall.after 0 [.readable, .async_read_exact 3, .async_read_exact 1,
          .setReadAheadBufferSize 4, .async_read_str (InLine.new 10) 10] reader12).map fun s =>
        ((s.tasks 0).buf, (s.tasks 0).read_ahead_ofs, (s.tasks 0).read_ahead_len,
          (s.tasks 0).read_ahead_maxlen)) = some ([1, 2], 0, 0, 4) := by
  decide

/-! ## Callback lists: the vector under `add` and `remove` -/

theorem kill_eq_some {p q : CbPtr} {c : Nat} (h : (if q = p then none else q) = some c) :
    q = some c ∧ q ≠ p := by
  by_cases e : q = p
  · rw [if_pos e] at h; cases h
  · rw [if_neg e] at h; exact ⟨h, e⟩

theorem distinct_cons_some {c : Nat} {l : List CbPtr}
    (h : CallbackList.Distinct (some c :: l)) : some c ∉ l ∧ CallbackList.Distinct l := by
  unfold CallbackList.Distinct at h ⊢
  rw [List.filter_cons_of_pos (by rfl), List.nodup_cons] at h
  exact ⟨fun hm => h.1 (List.mem_filter.2 ⟨hm, rfl⟩), h.2⟩

theorem distinct_cons_tail {a : CbPtr} {l : List CbPtr}
    (h : CallbackList.Distinct (a :: l)) : CallbackList.Distinct l := by
  cases a with
  | none => exact h
  | some c => exact (distinct_cons_some h).2

theorem find_none_iff (p : CbPtr) : ∀ v : List CbPtr, CallbackList.find p v = none ↔ p ∉ v := by
  intro v
  induction v with
  | nil => simp [CallbackList.find]
  | cons a l ih =>
    unfold CallbackList.find
    by_cases e : a = p
    · rw [if_pos e]; simp [e]
    · rw [if_neg e, Option.map_eq_none', ih]
      have e2 : ¬ p = a := fun h => e h.symm
      simp [e2]

theorem map_kill_of_not_mem (p : CbPtr) :
    ∀ v : List CbPtr, (p = none ∨ p ∉ v) → v.map (fun q => if q = p then none else q) = v := by
  intro v h
  conv_rhs => rw [← List.map_id v]
  apply List.map_congr_left
  intro q hq
  by_cases e : q = p
  · rw [if_pos e]
    rcases h with h | h
    · rw [e, h]; rfl
    · exact absurd (e ▸ hq) h
  · rw [if_neg e]; rfl

/-- With no callback twice in the vector, `NULL` over the first entry equal to `p` is `NULL`
over every entry equal to `p`. -/
theorem set_find_none (p : CbPtr) : ∀ (v : List CbPtr) (i : Nat), CallbackList.Distinct v →
    CallbackList.find p v = some i →
    v.set i none = v.map (fun q => if q = p then none else q) := by
  intro v
  induction v with
  | nil => intro i _ h; cases h
  | cons a l ih =>
    intro i hd h
    unfold CallbackList.find at h
    by_cases e : a = p
    · rw [if_pos e] at h
      cases h
      rw [List.set_cons_zero, List.map_cons, if_pos e]
      congr 1
      symm
      apply map_kill_of_not_mem p
      cases p with
      | none => left; rfl
      | some c => right; rw [e] at hd; exact (distinct_cons_some hd).1
    · rw [if_neg e] at h
      cases hf : CallbackList.find p l with
      | none => rw [hf] at h; cases h
      | some j =>
        rw [hf] at h
        cases h
        rw [List.set_cons_succ, List.map_cons, if_neg e, ih j (distinct_cons_tail hd) hf]

theorem find_split (p : CbPtr) : ∀ (v : List CbPtr) (i : Nat), CallbackList.find p v = some i →
    ∃ l1 l2, v = l1 ++ p :: l2 ∧ p ∉ l1 ∧ i = l1.length := by
  intro v
  induction v with
  | nil => intro i h; cases h
  | cons a l ih =>
    intro i h
    unfold CallbackList.find at h
    by_cases e : a = p
    · rw [if_pos e] at h
      cases h
      exact ⟨[], l, by rw [e]; rfl, by simp, rfl⟩
    · rw [if_neg e] at h
      cases hf : CallbackList.find p l with
      | none => rw [hf] at h; cases h
      | some j =>
        rw [hf] at h
        cases h
        obtain ⟨l1, l2, h1, h2, h3⟩ := ih j hf
        refine ⟨a :: l1, l2, by rw [h1]; rfl, ?_, by rw [h3]; rfl⟩
        simp only [List.mem_cons, not_or]
        exact ⟨fun h => e h.symm, h2⟩

/-- The vector after `remove` in state `UNLOCKED`: the entry is gone, the last one has taken
its place. -/
theorem swap_remove_perm (p : CbPtr) (v : List CbPtr) (i : Nat)
    (h : CallbackList.find p v = some i) :
    ((v.set i (v.getD (v.length - 1) none)).take (v.length - 1)).Perm (v.erase p) := by
  obtain ⟨l1, l2, rfl, hp, rfl⟩ := find_split p v i h
  rw [List.erase_append_right _ hp, List.erase_cons_head]
  rcases List.eq_nil_or_concat l2 with rfl | ⟨l3, z, rfl⟩
  · simp
  · rw [List.concat_eq_append]
    have e0 : l1 ++ p :: (l3 ++ [z]) = (l1 ++ p :: l3) ++ [z] := by simp
    have e1 : (l1 ++ p :: (l3 ++ [z])).length - 1 = l1.length + (l3.length + 1) := by
      simp
    have e2 : (l1 ++ p :: (l3 ++ [z])).getD (l1.length + (l3.length + 1)) none = z := by
      rw [e0, List.getD_eq_getElem?_getD, List.getElem?_append_right (by simp)]
      simp
    rw [e1, e2, List.set_append_right _ _ (le_refl _), Nat.sub_self, List.set_cons_zero,
      List.take_append]
    apply List.Perm.append_left
    rw [List.take_succ_cons]
    have e3 : (l3 ++ [z]).take l3.length = l3 := by simp
    rw [e3]
    exact (List.perm_append_singleton z l3).symm

/-! ## Callback lists: a pass, step by step -/

theorem remove_absent {l : CallbackList} {p : CbPtr} (h : p ∉ l.callbacks) :
    l.remove p = l := by
  unfold CallbackList.remove
  rw [(find_none_iff p _).2 h]

theorem remove_locked {l : CallbackList} {p : CbPtr} (h : p ∈ l.callbacks)
    (hs : l.state ≠ .UNLOCKED) (hd : CallbackList.Distinct l.callbacks) :
    l.remove p =
      { callbacks := l.callbacks.map (fun q => if q = p then none else q), state := .COMPRESS } := by
  unfold CallbackList.remove
  cases hf : CallbackList.find p l.callbacks with
  | none => exact absurd h ((find_none_iff p _).1 hf)
  | some i =>
    simp only [if_neg hs]
    rw [set_find_none p _ i hd hf]

theorem remove_unlocked {l : CallbackList} {p : CbPtr} (h : p ∈ l.callbacks)
    (hs : l.state = .UNLOCKED) :
    (l.remove p).state = .UNLOCKED ∧ (l.remove p).callbacks.Perm (l.callbacks.erase p) := by
  unfold CallbackList.remove
  cases hf : CallbackList.find p l.callbacks with
  | none => exact absurd h ((find_none_iff p _).1 hf)
  | some i =>
    simp only [if_pos hs]
    exact ⟨hs, swap_remove_perm p _ i hf⟩

theorem add_present {l : CallbackList} {p : CbPtr} (h : p ∈ l.callbacks) : l.add p = l := by
  unfold CallbackList.add
  rw [if_pos h]

theorem add_absent {l : CallbackList} {p : CbPtr} (h : p ∉ l.callbacks) :
    l.add p = { l with callbacks := l.callbacks ++ [p] } := by
  unfold CallbackList.add
  rw [if_neg h]

theorem ops_inv {f : CbFunc} {n : Nat} {P : CbWorld → Prop} (hP : PassInv f n P)
    (u : CbWorld) (c : Nat) : ∀ (ops : List CbOp) (w : CbWorld),
    (∀ o ∈ ops, o ∈ (f u c).1) → P w → P (ops.foldl (fun v o => o.exec v) w) := by
  intro ops
  induction ops with
  | nil => intro w _ h; exact h
  | cons o os ih =>
    intro w hm h
    rw [List.foldl_cons]
    exact ih _ (fun x hx => hm x (List.mem_cons_of_mem _ hx))
      (hP.op u c o w (hm o (List.mem_cons_self _ _)) h)

theorem invoke_inv {f : CbFunc} {n : Nat} {P : CbWorld → Prop} (hP : PassInv f n P)
    (i : Nat) (w : CbWorld) (hi : i < n) (h : P w) :
    P (CallbackList.invoke f (w.list.callbacks.getD i none) w) := by
  unfold CallbackList.invoke
  cases hp : w.list.callbacks.getD i none with
  | none => exact h
  | some c =>
    simp only
    by_cases hc : w.closed c = true
    · rw [if_pos hc]; exact h
    · rw [if_neg hc]
      have hc2 : w.closed c = false := by simpa using hc
      have h1 := hP.call w c h hc2 ⟨i, hi, hp⟩
      have h2 := ops_inv hP { w with trace := w.trace ++ [.call c] } c _ _ (fun _ hx => hx) h1
      by_cases ht : (f { w with trace := w.trace ++ [.call c] } c).2 = true
      · rw [if_pos ht]; exact hP.tail _ c h2
      · rw [if_neg ht]; exact h2

theorem notifyFrom_inv {f : CbFunc} {n : Nat} {P : CbWorld → Prop} (hP : PassInv f n P) :
    ∀ (k i : Nat) (w : CbWorld), i + k ≤ n → P w → P (CallbackList.notifyFrom f k i w) := by
  intro k
  induction k with
  | zero => intro i w _ h; exact h
  | succ k ih =>
    intro i w hi h
    unfold CallbackList.notifyFrom
    exact ih (i + 1) _ (by omega) (invoke_inv hP i w (by omega) h)

/-- `notify` on a vector that is not empty: lock, visit the entries that are there now,
finish. -/
theorem notify_eq (f : CbFunc) (w : CbWorld) (h : w.list.callbacks ≠ []) :
    CallbackList.notify f w = CallbackList.finish
      (CallbackList.notifyFrom f w.list.callbacks.length 0 (CallbackList.start w)) := by
  have hn : w.list.callbacks.length ≠ 0 := fun e => h (List.length_eq_zero.1 e)
  unfold CallbackList.notify
  simp only [if_pos hn]
  by_cases h1 : w.list.callbacks.length = 1
  · rw [if_pos h1, h1]
    rfl
  · rw [if_neg h1]
    rfl

theorem notify_nil (f : CbFunc) (w : CbWorld) (h : w.list.callbacks = []) :
    CallbackList.notify f w = w := by
  unfold CallbackList.notify
  simp [h]

/-! ## Callback lists: no callback twice -/

theorem distinct_append_singleton {v : List CbPtr} {p : CbPtr}
    (hd : CallbackList.Distinct v) (hp : p ∉ v) : CallbackList.Distinct (v ++ [p]) := by
  unfold CallbackList.Distinct at hd ⊢
  rw [List.filter_append]
  cases p with
  | none => simpa using hd
  | some c =>
    rw [List.filter_cons_of_pos (by rfl), List.filter_nil]
    refine List.Nodup.append hd (List.nodup_singleton _) ?_
    intro x hx hx2
    rw [List.mem_singleton] at hx2
    subst hx2
    exact hp (List.mem_of_mem_filter hx)

theorem kill_filter_sublist (p : CbPtr) : ∀ v : List CbPtr,
    ((v.map (fun q => if q = p then none else q)).filter Option.isSome).Sublist
      (v.filter Option.isSome) := by
  intro v
  induction v with
  | nil => exact List.Sublist.refl _
  | cons a l ih =>
    rw [List.map_cons]
    by_cases e : a = p
    · rw [if_pos e, List.filter_cons_of_neg (by simp)]
      cases a with
      | none => rw [List.filter_cons_of_neg (by simp)]; exact ih
      | some c => rw [List.filter_cons_of_pos (by rfl)]; exact List.Sublist.cons _ ih
    · rw [if_neg e]
      cases a with
      | none =>
        rw [List.filter_cons_of_neg (by simp), List.filter_cons_of_neg (by simp)]; exact ih
      | some c =>
        rw [List.filter_cons_of_pos (by rfl), List.filter_cons_of_pos (by rfl)]
        exact List.Sublist.cons₂ _ ih

theorem distinct_add {l : CallbackList} (p : CbPtr) (hd : CallbackList.Distinct l.callbacks) :
    CallbackList.Distinct (l.add p).callbacks := by
  by_cases h : p ∈ l.callbacks
  · rw [add_present h]; exact hd
  · rw [add_absent h]; exact distinct_append_singleton hd h

theorem distinct_remove {l : CallbackList} (p : CbPtr)
    (hd : CallbackList.Distinct l.callbacks) : CallbackList.Distinct (l.remove p).callbacks := by
  by_cases h : p ∈ l.callbacks
  · by_cases hs : l.state = .UNLOCKED
    · have h1 := (remove_unlocked h hs).2
      unfold CallbackList.Distinct at hd ⊢
      refine ((h1.filter _).nodup_iff).2 ?_
      exact List.Nodup.sublist (List.Sublist.filter _ (List.erase_sublist _ _)) hd
    · rw [remove_locked h hs hd]
      exact List.Nodup.sublist (kill_filter_sublist p _) hd
  · rw [remove_absent h]; exact hd

theorem neverTwice_op (o : CbOp) (w : CbWorld) (h : w.NeverTwice) : (o.exec w).NeverTwice := by
  obtain ⟨h1, h2⟩ := h
  cases o with
  | add p =>
    refine ⟨distinct_add p h1, fun v hv => ?_⟩
    rcases List.mem_append.1 hv with hv | hv
    · exact h2 v hv
    · rw [List.mem_singleton.1 hv]; exact distinct_add p h1
  | remove p =>
    refine ⟨distinct_remove p h1, fun v hv => ?_⟩
    rcases List.mem_append.1 hv with hv | hv
    · exact h2 v hv
    · rw [List.mem_singleton.1 hv]; exact distinct_remove p h1
  | close c => exact ⟨h1, h2⟩

theorem neverTwice_pass (f : CbFunc) (n : Nat) : PassInv f n CbWorld.NeverTwice where
  op := fun _ _ o w _ h => neverTwice_op o w h
  call := fun _ _ h _ _ => h
  tail := fun w c h =>
    neverTwice_op (.remove (some c)) _ (neverTwice_op (.close c)
      { w with trace := w.trace ++ [.threw c] } h)

theorem neverTwice_finish (w : CbWorld) (h : w.NeverTwice) :
    (CallbackList.finish w).NeverTwice := by
  obtain ⟨h1, h2⟩ := h
  have hc : CallbackList.Distinct w.list.compress.callbacks := by
    unfold CallbackList.Distinct CallbackList.compress
    rw [List.filter_filter]
    simpa using h1
  unfold CallbackList.finish
  by_cases e : w.list.state = .COMPRESS
  · simp only [if_pos e]
    refine ⟨hc, fun v hv => ?_⟩
    rcases List.mem_append.1 hv with hv | hv
    · exact h2 v hv
    · rw [List.mem_singleton.1 hv]; exact hc
  · simp only [if_neg e]
    exact ⟨h1, h2⟩

theorem neverTwice_notify (f : CbFunc) (w : CbWorld) (h : w.NeverTwice) :
    (CallbackList.notify f w).NeverTwice := by
  by_cases e : w.list.callbacks = []
  · rw [notify_nil f w e]; exact h
  · rw [notify_eq f w e]
    exact neverTwice_finish _
      (notifyFrom_inv (neverTwice_pass f w.list.callbacks.length) _ 0 _ (by omega) h)

theorem neverTwice_execAll : ∀ (calls : List CbCall) (w : CbWorld), w.NeverTwice →
    (CbCall.execAll calls w).NeverTwice := by
  intro calls
  induction calls with
  | nil => intro w h; exact h
  | cons c cs ih =>
    intro w h
    unfold CbCall.execAll
    rw [List.foldl_cons]
    apply ih
    cases c with
    | add p => exact neverTwice_op (.add p) w h
    | remove p => exact neverTwice_op (.remove p) w h
    | close c => exact neverTwice_op (.close c) w h
    | notify f => exact neverTwice_notify f w h

/-! ## Callback lists: the record of calls, pushes and removals -/

theorem snoc_eq_append_cons {u pre mid : List CbEvent} {e x : CbEvent}
    (h : u ++ [e] = pre ++ x :: mid) :
    (mid = [] ∧ u = pre ∧ e = x) ∨ ∃ mid0, mid = mid0 ++ [e] ∧ u = pre ++ x :: mid0 := by
  rcases List.eq_nil_or_concat mid with rfl | ⟨m0, z, rfl⟩
  · left
    have h1 : u ++ [e] = pre ++ [x] := h
    obtain ⟨h2, h3⟩ := List.append_inj' h1 rfl
    exact ⟨rfl, h2, by simpa using h3⟩
  · right
    rw [List.concat_eq_append] at h ⊢
    have h1 : u ++ [e] = (pre ++ x :: m0) ++ [z] := by rw [h]; simp
    obtain ⟨h2, h3⟩ := List.append_inj' h1 rfl
    have h4 : e = z := by simpa using h3
    exact ⟨m0, by rw [h4], h2⟩

theorem snoc_eq_append_cons2 {tr pre mid post : List CbEvent} {e x y : CbEvent}
    (h : tr ++ [e] = pre ++ x :: (mid ++ y :: post)) :
    (post = [] ∧ tr = pre ++ x :: mid ∧ e = y) ∨
      ∃ post0, post = post0 ++ [e] ∧ tr = pre ++ x :: (mid ++ y :: post0) := by
  have h1 : tr ++ [e] = (pre ++ x :: mid) ++ y :: post := by rw [h]; simp
  rcases snoc_eq_append_cons h1 with ⟨a, b, c⟩ | ⟨p0, a, b⟩
  · exact Or.inl ⟨a, b, c⟩
  · exact Or.inr ⟨p0, a, by rw [b]; simp⟩

theorem traceOk_snoc {tr : List CbEvent} {e : CbEvent} (h : CbTraceOk tr)
    (he : ∀ c, e ≠ .call c) : CbTraceOk (tr ++ [e]) := by
  refine ⟨fun pre mid post c hs => ?_, fun pre mid post c hs => ?_⟩
  · rcases snoc_eq_append_cons2 hs with ⟨_, _, e1⟩ | ⟨p0, _, e2⟩
    · exact absurd e1 (he c)
    · exact h.1 pre mid p0 c e2
  · rcases snoc_eq_append_cons2 hs with ⟨_, _, e1⟩ | ⟨p0, _, e2⟩
    · exact absurd e1 (he c)
    · exact h.2 pre mid p0 c e2

theorem traceOk_call {tr : List CbEvent} {c : Nat} (h : CbTraceOk tr)
    (h1 : ∀ pre mid, tr = pre ++ .added (some c) :: mid → CbEvent.notify ∈ mid)
    (h2 : ∀ pre mid, tr = pre ++ .removed (some c) :: mid → CbEvent.added (some c) ∈ mid) :
    CbTraceOk (tr ++ [.call c]) := by
  refine ⟨fun pre mid post d hs => ?_, fun pre mid post d hs => ?_⟩
  · rcases snoc_eq_append_cons2 hs with ⟨_, e0, e1⟩ | ⟨p0, _, e2⟩
    · cases e1; exact h1 pre mid e0
    · exact h.1 pre mid p0 d e2
  · rcases snoc_eq_append_cons2 hs with ⟨_, e0, e1⟩ | ⟨p0, _, e2⟩
    · cases e1; exact h2 pre mid e0
    · exact h.2 pre mid p0 d e2

theorem gone_step {w v : CbWorld} {e : CbEvent} (h : w.RemovedGone)
    (ht : v.trace = w.trace ++ [e])
    (hm : ∀ c, some c ∈ v.list.callbacks → some c ∈ w.list.callbacks ∨ e = .added (some c))
    (hr : ∀ c, e = .removed (some c) → some c ∉ v.list.callbacks) : v.RemovedGone := by
  intro pre mid c hs hn
  rw [ht] at hs
  rcases snoc_eq_append_cons hs with ⟨_, _, e1⟩ | ⟨m0, e1, e2⟩
  · exact hr c e1
  · intro hc
    rw [e1] at hn
    rcases hm c hc with hc | hc
    · exact h pre m0 c e2 (fun hx => hn (List.mem_append_left _ hx)) hc
    · exact hn (List.mem_append_right _ (by rw [hc]; exact List.mem_singleton_self _))

theorem gone_same {w v : CbWorld} (h : w.RemovedGone) (ht : v.trace = w.trace)
    (hm : ∀ c, some c ∈ v.list.callbacks → some c ∈ w.list.callbacks) : v.RemovedGone := by
  intro pre mid c hs hn hc
  rw [ht] at hs
  exact h pre mid c hs hn (hm c hc)

theorem behind_step {n : Nat} {w v : CbWorld} {e : CbEvent} (h : w.AddedBehind n)
    (ht : v.trace = w.trace ++ [e])
    (hm : ∀ i c, i < n → v.list.callbacks.getD i none = some c →
      w.list.callbacks.getD i none = some c)
    (ha : ∀ c, e = .added (some c) → ∀ i, i < n → v.list.callbacks.getD i none ≠ some c) :
    v.AddedBehind n := by
  intro pre mid c hs hn i hi hc
  rw [ht] at hs
  rcases snoc_eq_append_cons hs with ⟨_, _, e1⟩ | ⟨m0, e1, e2⟩
  · exact ha c e1 i hi hc
  · rw [e1] at hn
    exact h pre m0 c e2 (fun hx => hn (List.mem_append_left _ hx)) i hi (hm i c hi hc)

theorem behind_same {n : Nat} {w v : CbWorld} (h : w.AddedBehind n) (ht : v.trace = w.trace)
    (hm : ∀ i c, i < n → v.list.callbacks.getD i none = some c →
      w.list.callbacks.getD i none = some c) : v.AddedBehind n := by
  intro pre mid c hs hn i hi hc
  rw [ht] at hs
  exact h pre mid c hs hn i hi (hm i c hi hc)

theorem getD_mem {v : List CbPtr} {i : Nat} {c : Nat} (h : v.getD i none = some c) :
    some c ∈ v := by
  rw [List.getD_eq_getElem?_getD] at h
  cases hg : v[i]? with
  | none => rw [hg] at h; cases h
  | some q =>
    rw [hg] at h
    have : q = some c := h
    rw [← this]
    exact List.getElem?_mem hg

theorem getD_map_kill (p : CbPtr) (v : List CbPtr) (i : Nat) :
    (v.map (fun q => if q = p then none else q)).getD i none =
      (if v.getD i none = p then none else v.getD i none) := by
  rw [List.getD_eq_getElem?_getD, List.getD_eq_getElem?_getD, List.getElem?_map]
  cases v[i]? with
  | none => simp
  | some q => rfl

theorem getD_append_left (v : List CbPtr) (p : CbPtr) (i : Nat) (h : i < v.length) :
    (v ++ [p]).getD i none = v.getD i none := by
  rw [List.getD_eq_getElem?_getD, List.getD_eq_getElem?_getD, List.getElem?_append_left h]

theorem inPass_event {n : Nat} {w : CbWorld} (e : CbEvent) (h : w.InPass n)
    (h1 : ∀ c, e ≠ .call c) (h2 : ∀ p, e ≠ .added p) (h3 : ∀ p, e ≠ .removed p) :
    CbWorld.InPass n { w with trace := w.trace ++ [e] } :=
  ⟨h.locked, h.size, h.distinct, traceOk_snoc h.ok h1,
    gone_step h.gone rfl (fun _ hc => Or.inl hc) (fun _ hc => absurd hc (h3 _)),
    behind_step h.behind rfl (fun _ _ _ hc => hc) (fun _ hc => absurd hc (h2 _))⟩

theorem inPass_vectors {n : Nat} {w : CbWorld} (x : List (List CbPtr)) (h : w.InPass n) :
    CbWorld.InPass n { w with vectors := x } :=
  ⟨h.locked, h.size, h.distinct, h.ok, h.gone, h.behind⟩

theorem inPass_add {n : Nat} {w : CbWorld} (p : CbPtr) (h : w.InPass n) :
    (w.add p).InPass n := by
  unfold CbWorld.add
  by_cases hp : p ∈ w.list.callbacks
  · simp only [if_pos hp, add_present hp]
    exact inPass_vectors _ h
  · simp only [if_neg hp, add_absent hp]
    refine ⟨h.locked, ?_, distinct_append_singleton h.distinct hp,
      traceOk_snoc h.ok (fun c => by simp), ?_, ?_⟩
    · show n ≤ (w.list.callbacks ++ [p]).length
      rw [List.length_append]; exact Nat.le_add_right_of_le h.size
    · refine gone_step h.gone rfl (fun c hc => ?_) (fun c hc => by cases hc)
      rcases List.mem_append.1 hc with hc | hc
      · exact Or.inl hc
      · right; rw [List.mem_singleton.1 hc]
    · refine behind_step h.behind rfl (fun i c hi hc => ?_) (fun c hc i hi hx => ?_)
      · have hc2 : (w.list.callbacks ++ [p]).getD i none = some c := hc
        rw [getD_append_left _ _ _ (lt_of_lt_of_le hi h.size)] at hc2
        exact hc2
      · have hc2 : (w.list.callbacks ++ [p]).getD i none = some c := hx
        rw [getD_append_left _ _ _ (lt_of_lt_of_le hi h.size)] at hc2
        cases hc
        exact hp (getD_mem hc2)

theorem inPass_remove {n : Nat} {w : CbWorld} (p : CbPtr) (h : w.InPass n) :
    (w.remove p).InPass n := by
  unfold CbWorld.remove
  by_cases hp : p ∈ w.list.callbacks
  · simp only [if_pos hp, remove_locked hp h.locked h.distinct]
    refine ⟨by simp, ?_, List.Nodup.sublist (kill_filter_sublist p _) h.distinct,
      traceOk_snoc h.ok (fun c => by simp), ?_, ?_⟩
    · show n ≤ (w.list.callbacks.map _).length
      rw [List.length_map]; exact h.size
    · refine gone_step h.gone rfl (fun c hc => ?_) (fun c hc hx => ?_)
      · obtain ⟨q, hq, hk⟩ := List.mem_map.1 hc
        left; rw [← (kill_eq_some hk).1]; exact hq
      · obtain ⟨q, hq, hk⟩ := List.mem_map.1 hx
        cases hc
        exact (kill_eq_some hk).2 (kill_eq_some hk).1
    · refine behind_step h.behind rfl (fun i c hi hc => ?_) (fun c hc => by cases hc)
      have hc2 : (w.list.callbacks.map (fun q => if q = p then none else q)).getD i none =
          some c := hc
      rw [getD_map_kill] at hc2
      exact (kill_eq_some hc2).1
  · simp only [if_neg hp, remove_absent hp]
    exact inPass_vectors _ h

theorem inPass_close {n : Nat} {w : CbWorld} (c : Nat) (h : w.InPass n) :
    (w.close c).InPass n := by
  have h1 := inPass_event (.closed c) h (fun _ => by simp) (fun _ => by simp)
    (fun _ => by simp)
  exact ⟨h1.locked, h1.size, h1.distinct, h1.ok, h1.gone, h1.behind⟩

theorem inPass_op {n : Nat} (o : CbOp) (w : CbWorld) (h : w.InPass n) : (o.exec w).InPass n := by
  cases o with
  | add p => exact inPass_add p h
  | remove p => exact inPass_remove p h
  | close c => exact inPass_close c h

theorem inPass_pass (f : CbFunc) (n : Nat) : PassInv f n (CbWorld.InPass n) where
  op := fun _ _ o w _ h => inPass_op o w h
  call := by
    intro w c h _ hi
    obtain ⟨i, hi, hc⟩ := hi
    refine ⟨h.locked, h.size, h.distinct, traceOk_call h.ok (fun pre mid hs => ?_)
        (fun pre mid hs => ?_),
      gone_step h.gone rfl (fun _ hc => Or.inl hc) (fun c hc => by cases hc),
      behind_step h.behind rfl (fun _ _ _ hc => hc) (fun c hc => by cases hc)⟩
    · by_contra hn
      exact h.behind pre mid c hs hn i hi hc
    · by_contra hn
      exact h.gone pre mid c hs hn (getD_mem hc)
  tail := fun w c h =>
    inPass_remove (some c) (inPass_close c
      (inPass_event (.threw c) h (fun _ => by simp) (fun _ => by simp) (fun _ => by simp)))

theorem not_mem_erase_of_distinct (c : Nat) : ∀ v : List CbPtr, CallbackList.Distinct v →
    some c ∉ v.erase (some c) := by
  intro v
  induction v with
  | nil => intro _; simp
  | cons a l ih =>
    intro hd
    by_cases e : a = some c
    · rw [e, List.erase_cons_head]
      rw [e] at hd
      exact (distinct_cons_some hd).1
    · rw [List.erase_cons_tail (by simpa using e)]
      simp only [List.mem_cons, not_or]
      exact ⟨fun h => e h.symm, ih (distinct_cons_tail hd)⟩

theorem idle_vectors {w : CbWorld} (x : List (List CbPtr)) (h : w.Idle) :
    CbWorld.Idle { w with vectors := x } :=
  ⟨h.unlocked, h.distinct, h.ok, h.gone⟩

theorem idle_add {w : CbWorld} (p : CbPtr) (h : w.Idle) : (w.add p).Idle := by
  unfold CbWorld.add
  by_cases hp : p ∈ w.list.callbacks
  · simp only [if_pos hp, add_present hp]
    exact idle_vectors _ h
  · simp only [if_neg hp, add_absent hp]
    refine ⟨h.unlocked, distinct_append_singleton h.distinct hp,
      traceOk_snoc h.ok (fun c => by simp), ?_⟩
    refine gone_step h.gone rfl (fun c hc => ?_) (fun c hc => by cases hc)
    rcases List.mem_append.1 hc with hc | hc
    · exact Or.inl hc
    · right; rw [List.mem_singleton.1 hc]

theorem idle_remove {w : CbWorld} (p : CbPtr) (h : w.Idle) : (w.remove p).Idle := by
  have hd := distinct_remove p h.distinct
  unfold CbWorld.remove
  by_cases hp : p ∈ w.list.callbacks
  · obtain ⟨h1, h2⟩ := remove_unlocked hp h.unlocked
    simp only [if_pos hp]
    refine ⟨h1, hd, traceOk_snoc h.ok (fun c => by simp), ?_⟩
    refine gone_step h.gone rfl (fun c hc => ?_) (fun c hc hx => ?_)
    · left; exact List.mem_of_mem_erase (h2.mem_iff.1 hc)
    · cases hc
      exact not_mem_erase_of_distinct c _ h.distinct (h2.mem_iff.1 hx)
  · simp only [if_neg hp, remove_absent hp]
    exact idle_vectors _ h

theorem idle_close {w : CbWorld} (c : Nat) (h : w.Idle) : (w.close c).Idle :=
  ⟨h.unlocked, h.distinct, traceOk_snoc h.ok (fun c => by simp),
    gone_step h.gone rfl (fun _ hc => Or.inl hc) (fun c hc => by cases hc)⟩

theorem inPass_start {w : CbWorld} (h : w.Idle) :
    (CallbackList.start w).InPass w.list.callbacks.length := by
  refine ⟨by simp [CallbackList.start], le_refl _, h.distinct,
    traceOk_snoc h.ok (fun c => by simp),
    gone_step h.gone rfl (fun _ hc => Or.inl hc) (fun c hc => by cases hc), ?_⟩
  intro pre mid c hs hn
  rcases snoc_eq_append_cons hs with ⟨_, _, e1⟩ | ⟨m0, e1, _⟩
  · cases e1
  · exact absurd (by rw [e1]; simp) hn

theorem idle_finish {n : Nat} {w : CbWorld} (h : w.InPass n) : (CallbackList.finish w).Idle := by
  unfold CallbackList.finish
  by_cases e : w.list.state = .COMPRESS
  · simp only [if_pos e]
    refine ⟨rfl, ?_, h.ok, gone_same h.gone rfl (fun c hc => ?_)⟩
    · show CallbackList.Distinct (w.list.callbacks.filter Option.isSome)
      unfold CallbackList.Distinct
      rw [List.filter_filter]
      simpa using h.distinct
    · exact List.mem_of_mem_filter hc
  · simp only [if_neg e]
    exact ⟨rfl, h.distinct, h.ok, h.gone⟩

theorem idle_notify (f : CbFunc) {w : CbWorld} (h : w.Idle) :
    (CallbackList.notify f w).Idle := by
  by_cases e : w.list.callbacks = []
  · rw [notify_nil f w e]; exact h
  · rw [notify_eq f w e]
    exact idle_finish
      (notifyFrom_inv (inPass_pass f w.list.callbacks.length) _ 0 _ (by omega) (inPass_start h))

theorem idle_execAll : ∀ (calls : List CbCall) (w : CbWorld), w.Idle →
    (CbCall.execAll calls w).Idle := by
  intro calls
  induction calls with
  | nil => intro w h; exact h
  | cons c cs ih =>
    intro w h
    unfold CbCall.execAll
    rw [List.foldl_cons]
    apply ih
    cases c with
    | add p => exact idle_add p h
    | remove p => exact idle_remove p h
    | close c => exact idle_close c h
    | notify f => exact idle_notify f h

/-! ## C16: callbacks added or removed during a pass -/

/-- C16: start with an unlocked list without a callback at two positions and an empty
record, and perform any calls of `add`, `remove`, `close()` on a callback and `notify`, the
functor of a pass itself adding, removing, closing and throwing as it likes.  Then in the
record of what happened: a call of the functor on `c` that comes after a push of `c` belongs
to a later pass (a callback added during a pass is not invoked by that pass), and a call of
the functor on `c` that comes after a removal of `c`, in the same pass or a later one, comes
after a push of `c` in between (a removed callback is not invoked unless added again). -/
theorem C16_added_and_removed (calls : List CbCall) (w : CbWorld)
    (hu : w.list.state = .UNLOCKED) (hd : CallbackList.Distinct w.list.callbacks)
    (ht : w.trace = []) :
    (∀ pre mid post c, (CbCall.execAll calls w).trace =
        pre ++ .added (some c) :: (mid ++ .call c :: post) → CbEvent.notify ∈ mid) ∧
    (∀ pre mid post c, (CbCall.execAll calls w).trace =
        pre ++ .removed (some c) :: (mid ++ .call c :: post) →
        CbEvent.added (some c) ∈ mid) := by
  have h0 : w.Idle := by
    refine ⟨hu, hd, ⟨fun pre mid post c hs => ?_, fun pre mid post c hs => ?_⟩,
      fun pre mid c hs => ?_⟩
    · rw [ht] at hs; simp at hs
    · rw [ht] at hs; simp at hs
    · rw [ht] at hs; simp at hs
  exact (idle_execAll calls w h0).ok

/-- C16 witness: `add` of `A`, `B`, `C`; a pass in which the call on `A` removes `B` and adds
`D` and the call on `C` removes `A`; `add(B)`; the same pass again. -/
theorem C16_added_and_removed_witness :
    (∀ pre mid post c, (CbCall.execAll callsShuffle {}).trace =
        pre ++ .added (some c) :: (mid ++ .call c :: post) → CbEvent.notify ∈ mid) ∧
    (∀ pre mid post c, (CbCall.execAll callsShuffle {}).trace =
        pre ++ .removed (some c) :: (mid ++ .call c :: post) →
        CbEvent.added (some c) ∈ mid) :=
  C16_added_and_removed callsShuffle {} rfl (by decide) rfl

/-- The witness of C16 in figures: the first pass calls the functor on `A` and `C` only (`B`
is removed before its turn, `D` is added, `A` is removed after its turn), the second on
`C`, `D` and `B`. -/
theorem callsShuffle_trace :
    (CbCall.execAll callsShuffle {}).trace =
      [.added (some 1), .added (some 2), .added (some 3),
        .notify, .call 1, .removed (some 2), .added (some 4), .call 3, .removed (some 1),
        .added (some 2),
        .notify, .call 3, .call 4, .call 2] ∧
    (CbCall.execAll callsShuffle {}).list.callbacks = [some 3, some 4, some 2] := by
  decide

/-! ## Callback lists: the vector during a pass -/

theorem killed_snoc_removed (pt : List CbEvent) (p q : CbPtr) :
    (if CbEvent.removed q ∈ pt ++ [CbEvent.removed p] then none else q) =
      (fun x : CbPtr => if x = p then none else x)
        (if CbEvent.removed q ∈ pt then none else q) := by
  by_cases h : CbEvent.removed q ∈ pt
  · rw [if_pos (List.mem_append_left _ h), if_pos h]
    show none = if none = p then none else none
    split <;> rfl
  · rw [if_neg h]
    show _ = if q = p then none else q
    by_cases e : q = p
    · rw [if_pos e, if_pos (by rw [e]; simp)]
    · rw [if_neg e, if_neg (by simp [h, e])]

theorem addedSlots_cons_added (p : CbPtr) (rest : List CbEvent) :
    addedSlots (.added p :: rest) =
      (if CbEvent.removed p ∈ rest then none else p) :: addedSlots rest := rfl

theorem killed_snoc_other (pt : List CbEvent) (e : CbEvent) (q : CbPtr)
    (he : ∀ p, e ≠ .removed p) :
    (if CbEvent.removed q ∈ pt ++ [e] then none else q) =
      (if CbEvent.removed q ∈ pt then none else q) := by
  have : CbEvent.removed q ∈ pt ++ [e] ↔ CbEvent.removed q ∈ pt := by
    rw [List.mem_append, List.mem_singleton]
    exact ⟨fun h => h.elim id (fun h2 => absurd h2.symm (he q)), Or.inl⟩
  simp only [this]

theorem addedSlots_snoc_added (p : CbPtr) : ∀ pt : List CbEvent,
    addedSlots (pt ++ [CbEvent.added p]) = addedSlots pt ++ [p] := by
  intro pt
  induction pt with
  | nil => simp [addedSlots]
  | cons e rest ih =>
    cases e with
    | added q =>
      rw [List.cons_append, addedSlots_cons_added, addedSlots_cons_added, ih,
        killed_snoc_other rest (CbEvent.added p) q (fun _ => by simp)]
      rfl
    | notify => simpa [addedSlots] using ih
    | call c => simpa [addedSlots] using ih
    | threw c => simpa [addedSlots] using ih
    | closed c => simpa [addedSlots] using ih
    | removed q => simpa [addedSlots] using ih

theorem addedSlots_snoc_removed (p : CbPtr) : ∀ pt : List CbEvent,
    addedSlots (pt ++ [CbEvent.removed p]) =
      (addedSlots pt).map (fun x => if x = p then none else x) := by
  intro pt
  induction pt with
  | nil => simp [addedSlots]
  | cons e rest ih =>
    cases e with
    | added q =>
      rw [List.cons_append, addedSlots_cons_added, addedSlots_cons_added, ih, List.map_cons,
        killed_snoc_removed rest p q]
    | notify => simpa [addedSlots] using ih
    | call c => simpa [addedSlots] using ih
    | threw c => simpa [addedSlots] using ih
    | closed c => simpa [addedSlots] using ih
    | removed q => simpa [addedSlots] using ih

theorem addedSlots_snoc_other (e : CbEvent) (h1 : ∀ p, e ≠ .added p)
    (h2 : ∀ p, e ≠ .removed p) : ∀ pt : List CbEvent,
    addedSlots (pt ++ [e]) = addedSlots pt := by
  intro pt
  induction pt with
  | nil =>
    cases e with
    | added q => exact absurd rfl (h1 q)
    | notify => rfl
    | call c => rfl
    | threw c => rfl
    | closed c => rfl
    | removed q => rfl
  | cons x rest ih =>
    cases x with
    | added q =>
      rw [List.cons_append, addedSlots_cons_added, addedSlots_cons_added, ih,
        killed_snoc_other rest e q h2]
    | notify => simpa [addedSlots] using ih
    | call c => simpa [addedSlots] using ih
    | threw c => simpa [addedSlots] using ih
    | closed c => simpa [addedSlots] using ih
    | removed q => simpa [addedSlots] using ih

theorem drop_snoc {k : Nat} {tr : List CbEvent} (e : CbEvent) (h : k ≤ tr.length) :
    (tr ++ [e]).drop k = tr.drop k ++ [e] :=
  List.drop_append_of_le_length h

theorem slots_event {v0 : List CbPtr} {t0 : List CbEvent} {k : Nat} {w : CbWorld} (e : CbEvent)
    (h : w.Slots v0 t0 k) (h1 : ∀ p, e ≠ .added p) (h2 : ∀ p, e ≠ .removed p) :
    CbWorld.Slots v0 t0 k { w with trace := w.trace ++ [e] } := by
  have hm : ∀ x : CbEvent, x ≠ e → (x ∈ w.trace.drop k ++ [e] ↔ x ∈ w.trace.drop k) := by
    intro x hx
    rw [List.mem_append, List.mem_singleton]
    exact ⟨fun h => h.elim id (fun h3 => absurd h3 hx), Or.inl⟩
  refine ⟨h.locked, h.distinct, ?_, ?_, ?_, ?_, ?_⟩
  · show k ≤ (w.trace ++ [e]).length
    rw [List.length_append]; exact Nat.le_add_right_of_le h.len
  · show (w.trace ++ [e]).take k = t0
    rw [List.take_append_of_le_length h.len]; exact h.pre
  · show w.list.callbacks = _
    simp only [drop_snoc e h.len, addedSlots_snoc_other e h1 h2, killed_snoc_other _ e _ h2]
    exact h.vec
  · intro hs p
    show CbEvent.removed p ∉ (w.trace ++ [e]).drop k
    rw [drop_snoc e h.len, hm _ (fun hx => h2 p hx.symm)]
    exact h.calm hs p
  · intro p
    show CbEvent.added p ∈ (w.trace ++ [e]).drop k → _
    rw [drop_snoc e h.len, hm _ (fun hx => h1 p hx.symm)]
    exact h.nonnull p

theorem slots_vectors {v0 : List CbPtr} {t0 : List CbEvent} {k : Nat} {w : CbWorld} (x : List (List CbPtr))
    (h : w.Slots v0 t0 k) : CbWorld.Slots v0 t0 k { w with vectors := x } :=
  ⟨h.locked, h.distinct, h.len, h.pre, h.vec, h.calm, h.nonnull⟩

theorem slots_add {v0 : List CbPtr} {t0 : List CbEvent} {k : Nat} {w : CbWorld} (p : CbPtr) (hp0 : p ≠ none)
    (h : w.Slots v0 t0 k) : (w.add p).Slots v0 t0 k := by
  unfold CbWorld.add
  by_cases hp : p ∈ w.list.callbacks
  · simp only [if_pos hp, add_present hp]
    exact slots_vectors _ h
  · simp only [if_neg hp, add_absent hp]
    have hm : ∀ x : CbEvent, x ≠ .added p →
        (x ∈ w.trace.drop k ++ [CbEvent.added p] ↔ x ∈ w.trace.drop k) := by
      intro x hx
      rw [List.mem_append, List.mem_singleton]
      exact ⟨fun h => h.elim id (fun h3 => absurd h3 hx), Or.inl⟩
    refine ⟨h.locked, distinct_append_singleton h.distinct hp, ?_, ?_, ?_, ?_, ?_⟩
    · show k ≤ (w.trace ++ [CbEvent.added p]).length
      rw [List.length_append]; exact Nat.le_add_right_of_le h.len
    · show (w.trace ++ [CbEvent.added p]).take k = t0
      rw [List.take_append_of_le_length h.len]; exact h.pre
    · show w.list.callbacks ++ [p] = _
      simp only [drop_snoc _ h.len, addedSlots_snoc_added,
        killed_snoc_other _ (CbEvent.added p) _ (fun _ => by simp)]
      rw [← List.append_assoc, ← h.vec]
    · intro hs q
      show CbEvent.removed q ∉ (w.trace ++ [CbEvent.added p]).drop k
      rw [drop_snoc _ h.len, hm _ (by simp)]
      exact h.calm hs q
    · intro q
      show CbEvent.added q ∈ (w.trace ++ [CbEvent.added p]).drop k → _
      rw [drop_snoc _ h.len, List.mem_append, List.mem_singleton]
      rintro (hq | hq)
      · exact h.nonnull q hq
      · cases hq; exact hp0

theorem slots_remove {v0 : List CbPtr} {t0 : List CbEvent} {k : Nat} {w : CbWorld} (p : CbPtr)
    (h : w.Slots v0 t0 k) : (w.remove p).Slots v0 t0 k := by
  unfold CbWorld.remove
  by_cases hp : p ∈ w.list.callbacks
  · simp only [if_pos hp, remove_locked hp h.locked h.distinct]
    refine ⟨by simp, List.Nodup.sublist (kill_filter_sublist p _) h.distinct, ?_, ?_, ?_, ?_,
      ?_⟩
    · show k ≤ (w.trace ++ [CbEvent.removed p]).length
      rw [List.length_append]; exact Nat.le_add_right_of_le h.len
    · show (w.trace ++ [CbEvent.removed p]).take k = t0
      rw [List.take_append_of_le_length h.len]; exact h.pre
    · show w.list.callbacks.map _ = _
      simp only [drop_snoc _ h.len, addedSlots_snoc_removed, killed_snoc_removed]
      conv_lhs => rw [h.vec]
      rw [List.map_append, List.map_map]
      rfl
    · intro hs; cases hs
    · intro q
      show CbEvent.added q ∈ (w.trace ++ [CbEvent.removed p]).drop k → _
      rw [drop_snoc _ h.len, List.mem_append, List.mem_singleton]
      rintro (hq | hq)
      · exact h.nonnull q hq
      · cases hq
  · simp only [if_neg hp, remove_absent hp]
    exact slots_vectors _ h

theorem slots_close {v0 : List CbPtr} {t0 : List CbEvent} {k : Nat} {w : CbWorld} (c : Nat) (h : w.Slots v0 t0 k) :
    (w.close c).Slots v0 t0 k := by
  have h1 := slots_event (.closed c) h (fun _ => by simp) (fun _ => by simp)
  exact ⟨h1.locked, h1.distinct, h1.len, h1.pre, h1.vec, h1.calm, h1.nonnull⟩

theorem slots_pass (f : CbFunc) (n : Nat) (v0 : List CbPtr) (t0 : List CbEvent) (k : Nat)
    (hf : ∀ u c, CbOp.add none ∉ (f u c).1) : PassInv f n (CbWorld.Slots v0 t0 k) where
  op := by
    intro u c o w ho h
    cases o with
    | add p =>
      refine slots_add p (fun e => ?_) h
      rw [e] at ho
      exact hf u c ho
    | remove p => exact slots_remove p h
    | close d => exact slots_close d h
  call := fun w c h _ _ => slots_event (.call c) h (fun _ => by simp) (fun _ => by simp)
  tail := fun w c h =>
    slots_remove (some c) (slots_close c
      (slots_event (.threw c) h (fun _ => by simp) (fun _ => by simp)))

theorem slots_start (w : CbWorld) (hd : CallbackList.Distinct w.list.callbacks) :
    (CallbackList.start w).Slots w.list.callbacks w.trace w.trace.length := by
  have e : (CallbackList.start w).trace.drop w.trace.length = [CbEvent.notify] := by
    show (w.trace ++ [CbEvent.notify]).drop w.trace.length = _
    simp
  refine ⟨by simp [CallbackList.start], hd, ?_, ?_, ?_, ?_, ?_⟩
  · show w.trace.length ≤ (w.trace ++ [CbEvent.notify]).length
    simp
  · show (w.trace ++ [CbEvent.notify]).take w.trace.length = w.trace
    simp
  · rw [e]
    show w.list.callbacks = _
    simp [addedSlots]
  · intro _ p; rw [e]; simp
  · intro p; rw [e]; simp

theorem filter_killed (pt : List CbEvent) : ∀ v0 : List CbPtr, none ∉ v0 →
    (v0.map (fun p => if CbEvent.removed p ∈ pt then none else p)).filter Option.isSome =
      v0.filter (fun p => decide (CbEvent.removed p ∉ pt)) := by
  intro v0
  induction v0 with
  | nil => intro _; rfl
  | cons a l ih =>
    intro hn
    simp only [List.mem_cons, not_or] at hn
    rw [List.map_cons]
    by_cases h : CbEvent.removed a ∈ pt
    · rw [if_pos h, List.filter_cons_of_neg (by simp), List.filter_cons_of_neg (by simpa using h)]
      exact ih hn.2
    · rw [if_neg h]
      cases a with
      | none => exact absurd rfl hn.1
      | some c =>
        rw [List.filter_cons_of_pos (by rfl), List.filter_cons_of_pos (by simpa using h)]
        rw [ih hn.2]

theorem addedSlots_nonnull : ∀ pt : List CbEvent, (∀ p, CbEvent.removed p ∉ pt) →
    (∀ p, CbEvent.added p ∈ pt → p ≠ none) → none ∉ addedSlots pt := by
  intro pt
  induction pt with
  | nil => intro _ _; simp [addedSlots]
  | cons e rest ih =>
    intro h1 h2
    have h1r : ∀ p, CbEvent.removed p ∉ rest := fun p hp => h1 p (List.mem_cons_of_mem _ hp)
    have h2r : ∀ p, CbEvent.added p ∈ rest → p ≠ none :=
      fun p hp => h2 p (List.mem_cons_of_mem _ hp)
    cases e with
    | added q =>
      simp only [addedSlots, if_neg (h1r q), List.mem_cons, not_or]
      exact ⟨fun e => h2 q (List.mem_cons_self _ _) e.symm, ih h1r h2r⟩
    | notify => exact ih h1r h2r
    | call c => exact ih h1r h2r
    | threw c => exact ih h1r h2r
    | closed c => exact ih h1r h2r
    | removed q => exact ih h1r h2r

theorem filter_isSome_of_nonnull : ∀ v : List CbPtr, none ∉ v → v.filter Option.isSome = v := by
  intro v hn
  rw [List.filter_eq_self]
  intro a ha
  cases a with
  | none => exact absurd ha hn
  | some c => rfl

/-- The vector when a pass is over. -/
theorem slots_finish {v0 : List CbPtr} {t0 : List CbEvent} {k : Nat} {w : CbWorld} (h : w.Slots v0 t0 k)
    (hn : none ∉ v0) :
    (CallbackList.finish w).list.callbacks =
      v0.filter (fun p => decide (CbEvent.removed p ∉ w.trace.drop k)) ++
        (addedSlots (w.trace.drop k)).filter Option.isSome := by
  have hc : w.list.callbacks.filter Option.isSome =
      v0.filter (fun p => decide (CbEvent.removed p ∉ w.trace.drop k)) ++
        (addedSlots (w.trace.drop k)).filter Option.isSome := by
    conv_lhs => rw [h.vec]
    rw [List.filter_append, filter_killed _ v0 hn]
  unfold CallbackList.finish
  by_cases e : w.list.state = .COMPRESS
  · simp only [if_pos e]
    exact hc
  · simp only [if_neg e]
    rw [← hc]
    have hl : w.list.state = .LOCKED := by
      cases hs : w.list.state with
      | UNLOCKED => exact absurd hs h.locked
      | LOCKED => rfl
      | COMPRESS => exact absurd hs e
    symm
    apply filter_isSome_of_nonnull
    rw [h.vec, List.mem_append, not_or]
    refine ⟨fun hm => ?_, addedSlots_nonnull _ (h.calm hl) h.nonnull⟩
    obtain ⟨q, hq, hk⟩ := List.mem_map.1 hm
    rw [if_neg (h.calm hl q)] at hk
    rw [hk] at hq
    exact hn hq

theorem finish_trace (w : CbWorld) : (CallbackList.finish w).trace = w.trace := by
  unfold CallbackList.finish
  by_cases e : w.list.state = .COMPRESS
  · simp only [if_pos e]
  · simp only [if_neg e]

/-! ## C17: the vector after a pass -/

/-- C17: `notify(f)` on an unlocked list without `NULL` entry and without a callback at two
positions, the functor adding (never `NULL`), removing, closing and throwing as it likes.
When it returns the state is `UNLOCKED`, the vector has no `NULL` entry, and with `pt` the
record of the pass the vector consists of the entries it had before that were not removed
during the pass, in their order, followed by the entries pushed during the pass and not
removed after, in the order of the pushes.  For the list `[A, B, C]` and the functor whose
call on `B` removes `C`, the functor is called on `A` and `B` only and the list is `[A, B]`
afterwards. -/
theorem C17_vector_after_notify (f : CbFunc) (w : CbWorld)
    (hu : w.list.state = .UNLOCKED) (hn : none ∉ w.list.callbacks)
    (hd : CallbackList.Distinct w.list.callbacks)
    (hf : ∀ u c, CbOp.add none ∉ (f u c).1) :
    (∃ pt, (CallbackList.notify f w).trace = w.trace ++ pt ∧
      (CallbackList.notify f w).list.state = .UNLOCKED ∧
      none ∉ (CallbackList.notify f w).list.callbacks ∧
      (CallbackList.notify f w).list.callbacks =
        w.list.callbacks.filter (fun p => decide (CbEvent.removed p ∉ pt)) ++
          (addedSlots pt).filter Option.isSome) ∧
    callsOf (CallbackList.notify removeCOnB listABC).trace = [1, 2] ∧
    (CallbackList.notify removeCOnB listABC).list.callbacks = [some 1, some 2] := by
  refine ⟨?_, by decide, by decide⟩
  by_cases e : w.list.callbacks = []
  · rw [notify_nil f w e]
    exact ⟨[], by simp, hu, hn, by rw [e]; rfl⟩
  · rw [notify_eq f w e]
    have h := notifyFrom_inv (slots_pass f w.list.callbacks.length w.list.callbacks
      w.trace w.trace.length hf) w.list.callbacks.length 0 _ (by omega) (slots_start w hd)
    have h2 := slots_finish h hn
    refine ⟨(CallbackList.notifyFrom f w.list.callbacks.length 0
      (CallbackList.start w)).trace.drop w.trace.length, ?_, rfl, ?_, h2⟩
    · rw [finish_trace]
      conv_lhs => rw [← List.take_append_drop w.trace.length (CallbackList.notifyFrom f
        w.list.callbacks.length 0 (CallbackList.start w)).trace]
      rw [h.pre]
    · rw [h2, List.mem_append, not_or]
      exact ⟨fun hm => hn (List.mem_of_mem_filter hm),
        fun hm => by simpa using (List.mem_filter.1 hm).2⟩

/-- C17 witness: the list `[A, B, C]` and the functor whose call on `B` removes `C`. -/
theorem C17_vector_after_notify_witness :
    (∃ pt, (CallbackList.notify removeCOnB listABC).trace = listABC.trace ++ pt ∧
      (CallbackList.notify removeCOnB listABC).list.state = .UNLOCKED ∧
      none ∉ (CallbackList.notify removeCOnB listABC).list.callbacks ∧
      (CallbackList.notify removeCOnB listABC).list.callbacks =
        listABC.list.callbacks.filter (fun p => decide (CbEvent.removed p ∉ pt)) ++
          (addedSlots pt).filter Option.isSome) ∧
    callsOf (CallbackList.notify removeCOnB listABC).trace = [1, 2] ∧
    (CallbackList.notify removeCOnB listABC).list.callbacks = [some 1, some 2] :=
  C17_vector_after_notify removeCOnB listABC rfl (by decide) (by decide)
    (fun _ c => by unfold removeCOnB; split <;> simp)

/-! ## C18: no callback twice -/

/-- C18: start from a vector without a callback at two positions and perform any calls of
`add`, `remove`, `close()` on a callback and `notify`, the functor of a pass itself adding,
removing, closing and throwing as it likes.  Then no vector that an `add`, a `remove` or the
rebuild at the end of a pass produced holds the same callback at two positions, nor does the
vector at the end; and `add(c)` of a callback that is in a list leaves that list as it is. -/
theorem C18_never_twice (calls : List CbCall) (w : CbWorld)
    (hd : CallbackList.Distinct w.list.callbacks) (hv : w.vectors = []) :
    (∀ v ∈ (CbCall.execAll calls w).vectors, CallbackList.Distinct v) ∧
      CallbackList.Distinct (CbCall.execAll calls w).list.callbacks ∧
      ∀ (l : CallbackList) (c : Nat), some c ∈ l.callbacks → l.add (some c) = l := by
  have h0 : w.NeverTwice := ⟨hd, by rw [hv]; intro v hv2; cases hv2⟩
  have h1 := neverTwice_execAll calls w h0
  exact ⟨h1.2, h1.1, fun l c hc => add_present hc⟩

/-- C18 witness: from the empty list, `add(A)` twice, `add(B)`, `add(C)`, a pass whose
functor adds `A` again at every call, throws on `A` and removes `B` on `C`, then
`remove(C)` and `add(B)`. -/
theorem C18_never_twice_witness :
    (∀ v ∈ (CbCall.execAll callsTwice {}).vectors, CallbackList.Distinct v) ∧
      CallbackList.Distinct (CbCall.execAll callsTwice {}).list.callbacks ∧
      ∀ (l : CallbackList) (c : Nat), some c ∈ l.callbacks → l.add (some c) = l :=
  C18_never_twice callsTwice {} (by decide) rfl

/-- The witness of C18 in figures: the vectors after each `add`, `remove` and rebuild. -/
theorem callsTwice_vectors :
    (CbCall.execAll callsTwice {}).vectors =
      [[some 1], [some 1], [some 1, some 2], [some 1, some 2, some 3],
        [some 1, some 2, some 3], [none, some 2, some 3], [none, some 2, some 3, some 1],
        [none, some 2, some 3, some 1], [none, none, some 3, some 1], [some 3, some 1],
        [some 1], [some 1, some 2]] := by
  decide

/-! ## Callback lists: exceptions of the functor -/

theorem not_mem_snoc {tr : List CbEvent} {x e : CbEvent} (h : x ∉ tr ++ [e]) : x ∉ tr :=
  fun hx => h (List.mem_append_left _ hx)

theorem threwClosed_snoc {tr : List CbEvent} {e : CbEvent}
    (h : ∀ pre post c, tr = pre ++ .threw c :: post → ∃ rest, post = .closed c :: rest)
    (he : ∀ c, e ≠ .threw c) :
    ∀ pre post c, tr ++ [e] = pre ++ .threw c :: post → ∃ rest, post = .closed c :: rest := by
  intro pre post c hs
  rcases snoc_eq_append_cons hs with ⟨_, _, e1⟩ | ⟨m0, e1, e2⟩
  · exact absurd e1 (he c)
  · obtain ⟨rest, hr⟩ := h pre m0 c e2
    exact ⟨rest ++ [e], by rw [e1, hr]; rfl⟩

theorem threwClosed_tail {tr : List CbEvent} {d : Nat}
    (h : ∀ pre post c, tr = pre ++ .threw c :: post → ∃ rest, post = .closed c :: rest) :
    ∀ pre post c, (tr ++ [.threw d]) ++ [.closed d] = pre ++ .threw c :: post →
      ∃ rest, post = .closed c :: rest := by
  intro pre post c hs
  rcases snoc_eq_append_cons hs with ⟨_, _, e1⟩ | ⟨m0, e1, e2⟩
  · cases e1
  · rcases snoc_eq_append_cons e2 with ⟨e3, _, e5⟩ | ⟨m1, e3, e4⟩
    · cases e5
      exact ⟨[], by rw [e1, e3]; rfl⟩
    · obtain ⟨rest, hr⟩ := h pre m1 c e4
      exact ⟨rest ++ [.threw d] ++ [.closed d], by rw [e1, e3, hr]; simp⟩

theorem threwGone_step {w v : CbWorld} {e : CbEvent} (h : w.ThrewGone)
    (ht : v.trace = w.trace ++ [e])
    (hm : ∀ c, some c ∈ v.list.callbacks → some c ∈ w.list.callbacks ∨ e = .added (some c))
    (hr : ∀ c, e = .threw c → some c ∉ v.list.callbacks) : v.ThrewGone := by
  intro pre mid c hs hn
  rw [ht] at hs
  rcases snoc_eq_append_cons hs with ⟨_, _, e1⟩ | ⟨m0, e1, e2⟩
  · exact hr c e1
  · intro hc
    rw [e1] at hn
    rcases hm c hc with hc | hc
    · exact h pre m0 c e2 (fun hx => hn (List.mem_append_left _ hx)) hc
    · exact hn (List.mem_append_right _ (by rw [hc]; exact List.mem_singleton_self _))

theorem caught_vectors {n : Nat} {v0 : List CbPtr} {closed0 : Nat → Bool} {w : CbWorld}
    (x : List (List CbPtr)) (h : w.Caught n v0 closed0) :
    CbWorld.Caught n v0 closed0 { w with vectors := x } :=
  ⟨h.locked, h.size, h.distinct, h.front, h.threw_closed, h.flags⟩

theorem caught_event {n : Nat} {v0 : List CbPtr} {closed0 : Nat → Bool} {w : CbWorld}
    (e : CbEvent) (h : w.Caught n v0 closed0) (h1 : ∀ c, e ≠ .threw c)
    (h2 : ∀ c, e ≠ .closed c) :
    CbWorld.Caught n v0 closed0 { w with trace := w.trace ++ [e] } := by
  refine ⟨h.locked, h.size, h.distinct, fun i c hi hv hr => h.front i c hi hv (not_mem_snoc hr),
    threwClosed_snoc h.threw_closed h1, fun c => ?_⟩
  show w.closed c = true ↔ (closed0 c = true ∨ CbEvent.closed c ∈ w.trace ++ [e])
  rw [h.flags c, List.mem_append, List.mem_singleton]
  exact ⟨fun hx => hx.elim Or.inl (fun h3 => Or.inr (Or.inl h3)),
    fun hx => hx.elim Or.inl (fun h3 => h3.elim Or.inr (fun h4 => absurd h4.symm (h2 c)))⟩

theorem caught_add {n : Nat} {v0 : List CbPtr} {closed0 : Nat → Bool} {w : CbWorld}
    (p : CbPtr) (h : w.Caught n v0 closed0) : (w.add p).Caught n v0 closed0 := by
  unfold CbWorld.add
  by_cases hp : p ∈ w.list.callbacks
  · simp only [if_pos hp, add_present hp]
    exact caught_vectors _ h
  · simp only [if_neg hp, add_absent hp]
    refine ⟨h.locked, ?_, distinct_append_singleton h.distinct hp, fun i c hi hv hr => ?_,
      threwClosed_snoc h.threw_closed (fun c => by simp), fun c => ?_⟩
    · show n ≤ (w.list.callbacks ++ [p]).length
      rw [List.length_append]; exact Nat.le_add_right_of_le h.size
    · show (w.list.callbacks ++ [p]).getD i none = some c
      rw [getD_append_left _ _ _ (lt_of_lt_of_le hi h.size)]
      exact h.front i c hi hv (not_mem_snoc hr)
    · show w.closed c = true ↔ (closed0 c = true ∨ CbEvent.closed c ∈ w.trace ++ [CbEvent.added p])
      rw [h.flags c, List.mem_append, List.mem_singleton]
      simp

theorem caught_remove {n : Nat} {v0 : List CbPtr} {closed0 : Nat → Bool} {w : CbWorld}
    (p : CbPtr) (h : w.Caught n v0 closed0) : (w.remove p).Caught n v0 closed0 := by
  unfold CbWorld.remove
  by_cases hp : p ∈ w.list.callbacks
  · simp only [if_pos hp, remove_locked hp h.locked h.distinct]
    refine ⟨by simp, ?_, List.Nodup.sublist (kill_filter_sublist p _) h.distinct,
      fun i c hi hv hr => ?_, threwClosed_snoc h.threw_closed (fun c => by simp), fun c => ?_⟩
    · show n ≤ (w.list.callbacks.map _).length
      rw [List.length_map]; exact h.size
    · show (w.list.callbacks.map (fun q => if q = p then none else q)).getD i none = some c
      have hr2 : CbEvent.removed (some c) ∉ w.trace ++ [CbEvent.removed p] := hr
      rw [getD_map_kill, h.front i c hi hv (not_mem_snoc hr2), if_neg]
      intro e
      exact hr2 (List.mem_append_right _ (by rw [e]; exact List.mem_singleton_self _))
    · show w.closed c = true ↔
        (closed0 c = true ∨ CbEvent.closed c ∈ w.trace ++ [CbEvent.removed p])
      rw [h.flags c, List.mem_append, List.mem_singleton]
      simp
  · simp only [if_neg hp, remove_absent hp]
    exact caught_vectors _ h

theorem caught_close {n : Nat} {v0 : List CbPtr} {closed0 : Nat → Bool} {w : CbWorld}
    (d : Nat) (h : w.Caught n v0 closed0) : (w.close d).Caught n v0 closed0 := by
  refine ⟨h.locked, h.size, h.distinct, fun i c hi hv hr => h.front i c hi hv (not_mem_snoc hr),
    threwClosed_snoc h.threw_closed (fun c => by simp), fun c => ?_⟩
  show (if c = d then true else w.closed c) = true ↔
    (closed0 c = true ∨ CbEvent.closed c ∈ w.trace ++ [CbEvent.closed d])
  rw [List.mem_append, List.mem_singleton]
  by_cases e : c = d
  · rw [if_pos e, e]; simp
  · rw [if_neg e, h.flags c]
    simp [e]

theorem remove_some_not_mem {l : CallbackList} (c : Nat) (hs : l.state ≠ .UNLOCKED)
    (hd : CallbackList.Distinct l.callbacks) : some c ∉ (l.remove (some c)).callbacks := by
  by_cases hp : some c ∈ l.callbacks
  · rw [remove_locked hp hs hd]
    intro hx
    obtain ⟨q, _, hk⟩ := List.mem_map.1 hx
    exact (kill_eq_some hk).2 (kill_eq_some hk).1
  · rw [remove_absent hp]; exact hp

theorem caught_tail {n : Nat} {v0 : List CbPtr} {closed0 : Nat → Bool} {w : CbWorld}
    (d : Nat) (h : w.Caught n v0 closed0) :
    ((({ w with trace := w.trace ++ [.threw d] } : CbWorld).close d).remove
      (some d)).Caught n v0 closed0 := by
  have h1 : ((({ w with trace := w.trace ++ [.threw d] } : CbWorld).close d)).Caught n v0
      closed0 := by
    refine ⟨h.locked, h.size, h.distinct,
      fun i c hi hv hr => h.front i c hi hv (not_mem_snoc (not_mem_snoc hr)),
      threwClosed_tail h.threw_closed, fun c => ?_⟩
    show (if c = d then true else w.closed c) = true ↔
      (closed0 c = true ∨ CbEvent.closed c ∈ (w.trace ++ [CbEvent.threw d]) ++
        [CbEvent.closed d])
    rw [List.mem_append, List.mem_singleton, List.mem_append, List.mem_singleton]
    by_cases e : c = d
    · rw [if_pos e, e]; simp
    · rw [if_neg e, h.flags c]
      simp [e]
  exact caught_remove (some d) h1

theorem append_eq_append_cons {tr ext pre post : List CbEvent} {x : CbEvent}
    (h : tr ++ ext = pre ++ x :: post) :
    (∃ post0, tr = pre ++ x :: post0 ∧ post = post0 ++ ext) ∨ x ∈ ext := by
  rcases List.append_eq_append_iff.1 h with ⟨a, _, h2⟩ | ⟨b, h1, h2⟩
  · right; rw [h2]; simp
  · cases b with
    | nil =>
      right
      have h3 : x :: post = ext := h2
      rw [← h3]; simp
    | cons y b2 =>
      left
      have h3 : x :: post = y :: (b2 ++ ext) := h2
      cases h3
      exact ⟨b2, h1, rfl⟩

theorem remove_mem_subset {l : CallbackList} {p : CbPtr} {c : Nat}
    (hs : l.state ≠ .UNLOCKED) (hd : CallbackList.Distinct l.callbacks)
    (h : some c ∈ (l.remove p).callbacks) : some c ∈ l.callbacks := by
  by_cases hp : p ∈ l.callbacks
  · rw [remove_locked hp hs hd] at h
    obtain ⟨q, hq, hk⟩ := List.mem_map.1 h
    rw [← (kill_eq_some hk).1]; exact hq
  · rw [remove_absent hp] at h; exact h

theorem threwGone_tail {n : Nat} {v0 : List CbPtr} {closed0 : Nat → Bool} {w : CbWorld}
    (d : Nat) (h : w.Caught n v0 closed0) (hg : w.ThrewGone) :
    ((({ w with trace := w.trace ++ [.threw d] } : CbWorld).close d).remove
      (some d)).ThrewGone := by
  intro pre post c hs hn hc
  have hex : ∃ ext, ((({ w with trace := w.trace ++ [.threw d] } : CbWorld).close d).remove
      (some d)).trace = w.trace ++ ext ∧ CbEvent.added (some c) ∉ ext ∧
      ∀ x, CbEvent.threw x ∈ ext → x = d := by
    unfold CbWorld.remove CbWorld.close
    by_cases hp : some d ∈ w.list.callbacks
    · exact ⟨[.threw d, .closed d, .removed (some d)], by simp [hp], by simp, by simp⟩
    · exact ⟨[.threw d, .closed d], by simp [hp], by simp, by simp⟩
  obtain ⟨ext, he, hne, hth⟩ := hex
  have hc2 : some c ∈ (w.list.remove (some d)).callbacks := hc
  rw [he] at hs
  rcases append_eq_append_cons hs with ⟨post0, e1, e2⟩ | hx
  · refine hg pre post0 c e1 (fun hx => hn ?_) (remove_mem_subset h.locked h.distinct hc2)
    rw [e2]; exact List.mem_append_left _ hx
  · rw [hth c hx] at hc2
    exact remove_some_not_mem d h.locked h.distinct hc2

theorem caught_pass (f : CbFunc) (n : Nat) (v0 : List CbPtr) (closed0 : Nat → Bool) :
    PassInv f n (fun w => w.Caught n v0 closed0 ∧ w.ThrewGone) where
  op := by
    intro u c o w _ h
    cases o with
    | add p =>
      refine ⟨caught_add p h.1, ?_⟩
      show (w.add p).ThrewGone
      unfold CbWorld.add
      by_cases hp : p ∈ w.list.callbacks
      · simp only [if_pos hp, add_present hp]; exact h.2
      · simp only [if_neg hp, add_absent hp]
        refine threwGone_step h.2 rfl (fun c hc => ?_) (fun c hc => by cases hc)
        rcases List.mem_append.1 hc with hc | hc
        · exact Or.inl hc
        · right; rw [List.mem_singleton.1 hc]
    | remove p =>
      refine ⟨caught_remove p h.1, ?_⟩
      show (w.remove p).ThrewGone
      unfold CbWorld.remove
      by_cases hp : p ∈ w.list.callbacks
      · simp only [if_pos hp]
        exact threwGone_step h.2 rfl
          (fun c hc => Or.inl (remove_mem_subset h.1.locked h.1.distinct hc))
          (fun c hc => by cases hc)
      · simp only [if_neg hp, remove_absent hp]; exact h.2
    | close d =>
      exact ⟨caught_close d h.1,
        threwGone_step h.2 rfl (fun _ hc => Or.inl hc) (fun c hc => by cases hc)⟩
  call := fun w c h _ _ =>
    ⟨caught_event (.call c) h.1 (fun _ => by simp) (fun _ => by simp),
      threwGone_step h.2 rfl (fun _ hc => Or.inl hc) (fun c hc => by cases hc)⟩
  tail := fun w c h => ⟨caught_tail c h.1, threwGone_tail c h.1 h.2⟩

theorem op_trace (o : CbOp) (w : CbWorld) : ∃ ext, (o.exec w).trace = w.trace ++ ext := by
  cases o with
  | add p =>
    show ∃ ext, (w.add p).trace = _
    unfold CbWorld.add
    by_cases hp : p ∈ w.list.callbacks
    · exact ⟨[], by simp [hp]⟩
    · exact ⟨[.added p], by simp [hp]⟩
  | remove p =>
    show ∃ ext, (w.remove p).trace = _
    unfold CbWorld.remove
    by_cases hp : p ∈ w.list.callbacks
    · exact ⟨[.removed p], by simp [hp]⟩
    · exact ⟨[], by simp [hp]⟩
  | close c => exact ⟨[.closed c], rfl⟩

theorem ops_trace : ∀ (ops : List CbOp) (w : CbWorld),
    ∃ ext, (ops.foldl (fun v o => o.exec v) w).trace = w.trace ++ ext := by
  intro ops
  induction ops with
  | nil => intro w; exact ⟨[], by simp⟩
  | cons o os ih =>
    intro w
    obtain ⟨e1, h1⟩ := op_trace o w
    obtain ⟨e2, h2⟩ := ih (o.exec w)
    exact ⟨e1 ++ e2, by rw [List.foldl_cons, h2, h1, List.append_assoc]⟩

/-- `invoke` only adds to the record, and on an open callback it records the call. -/
theorem invoke_trace (f : CbFunc) (p : CbPtr) (w : CbWorld) :
    ∃ ext, (CallbackList.invoke f p w).trace = w.trace ++ ext ∧
      ∀ c, p = some c → w.closed c = false → CbEvent.call c ∈ ext := by
  unfold CallbackList.invoke
  cases p with
  | none => exact ⟨[], by simp, fun c hc => by cases hc⟩
  | some d =>
    simp only
    by_cases hc : w.closed d = true
    · rw [if_pos hc]
      exact ⟨[], by simp, fun c e h2 => by cases e; rw [hc] at h2; cases h2⟩
    · rw [if_neg hc]
      have ht1 : ({ w with trace := w.trace ++ [CbEvent.call d] } : CbWorld).trace =
          w.trace ++ [CbEvent.call d] := rfl
      generalize ({ w with trace := w.trace ++ [CbEvent.call d] } : CbWorld) = w1 at ht1 ⊢
      obtain ⟨e2, h2⟩ := ops_trace (f w1 d).1 w1
      generalize List.foldl (fun v o => CbOp.exec o v) w1 (f w1 d).1 = w2 at h2 ⊢
      by_cases ht : (f w1 d).2 = true
      · rw [if_pos ht]
        obtain ⟨e3, h3⟩ := op_trace (CbOp.remove (some d))
          (({ w2 with trace := w2.trace ++ [CbEvent.threw d] } : CbWorld).close d)
        refine ⟨CbEvent.call d :: e2 ++ [CbEvent.threw d] ++ [CbEvent.closed d] ++ e3, ?_, ?_⟩
        · have h4 : (({ w2 with trace := w2.trace ++ [CbEvent.threw d] } : CbWorld).close
              d).remove (some d) = (CbOp.remove (some d)).exec
              (({ w2 with trace := w2.trace ++ [CbEvent.threw d] } : CbWorld).close d) := rfl
          rw [h4, h3]
          show ((w2.trace ++ [CbEvent.threw d]) ++ [CbEvent.closed d]) ++ e3 = _
          rw [h2, ht1]
          simp
        · intro c e _; cases e; simp
      · rw [if_neg ht]
        refine ⟨CbEvent.call d :: e2, ?_, fun c e _ => by cases e; simp⟩
        rw [h2, ht1]; simp

theorem visited_mono {i : Nat} {v0 : List CbPtr} {closed0 : Nat → Bool} {w v : CbWorld}
    {ext : List CbEvent} (h : w.Visited i v0 closed0) (ht : v.trace = w.trace ++ ext) :
    v.Visited i v0 closed0 := by
  intro j c hj hv hc hr hcl
  rw [ht] at hr hcl ⊢
  exact List.mem_append_left _
    (h j c hj hv hc (fun hx => hr (List.mem_append_left _ hx))
      (fun hx => hcl (List.mem_append_left _ hx)))

theorem notifyFrom_visited (f : CbFunc) (n : Nat) (v0 : List CbPtr) (closed0 : Nat → Bool) :
    ∀ (k i : Nat) (w : CbWorld), i + k ≤ n → (w.Caught n v0 closed0 ∧ w.ThrewGone) →
      w.Visited i v0 closed0 → (CallbackList.notifyFrom f k i w).Visited (i + k) v0 closed0 := by
  intro k
  induction k with
  | zero => intro i w _ _ h; exact h
  | succ k ih =>
    intro i w hi hP hV
    unfold CallbackList.notifyFrom
    have hP1 := invoke_inv (caught_pass f n v0 closed0) i w (by omega) hP
    obtain ⟨ext, he, hcall⟩ := invoke_trace f (w.list.callbacks.getD i none) w
    have hV1 : (CallbackList.invoke f (w.list.callbacks.getD i none) w).Visited (i + 1) v0
        closed0 := by
      intro j c hj hv hc hr hcl
      by_cases e : j = i
      · subst e
        rw [he] at hr hcl ⊢
        have h1 := hP.1.front j c (by omega) hv (fun hx => hr (List.mem_append_left _ hx))
        have h2 : w.closed c = false := by
          cases hw : w.closed c with
          | false => rfl
          | true =>
            rcases (hP.1.flags c).1 hw with h3 | h3
            · rw [hc] at h3; cases h3
            · exact absurd (List.mem_append_left _ h3) hcl
        exact List.mem_append_right _ (hcall c h1 h2)
      · exact visited_mono hV he j c (by omega) hv hc hr hcl
    have := ih (i + 1) _ (by omega) hP1 hV1
    rw [show i + (k + 1) = i + 1 + k by omega]
    exact this

theorem finish_closed (w : CbWorld) : (CallbackList.finish w).closed = w.closed := by
  unfold CallbackList.finish
  by_cases e : w.list.state = .COMPRESS
  · simp only [if_pos e]
  · simp only [if_neg e]

theorem finish_mem {w : CbWorld} {p : CbPtr} (h : p ∈ (CallbackList.finish w).list.callbacks) :
    p ∈ w.list.callbacks := by
  unfold CallbackList.finish at h
  by_cases e : w.list.state = .COMPRESS
  · simp only [if_pos e] at h
    exact List.mem_of_mem_filter h
  · simp only [if_neg e] at h
    exact h

theorem finish_state (w : CbWorld) : (CallbackList.finish w).list.state = .UNLOCKED := rfl

theorem mem_getD {v : List CbPtr} {c : Nat} (h : some c ∈ v) :
    ∃ i, i < v.length ∧ v.getD i none = some c := by
  obtain ⟨i, hi, he⟩ := List.mem_iff_getElem.1 h
  exact ⟨i, hi, by rw [List.getD_eq_getElem _ _ hi, he]⟩

/-! ## C19: an exception of the functor -/

/-- C19 (as stated, refuted): on the list `[A, B]`, with the functor that throws on `A` and
adds `A` when called on `B`, `A` is closed and removed after the exception but is in the list
again when `notify` returns; with the functor that on `A` removes `B` and throws, `B`, which
is in the snapshot, not `NULL` and not closed, is never called. -/
theorem C19_counterexample :
    (CallbackList.notify throwThenReadd listAB).trace =
        [.notify, .call 1, .threw 1, .closed 1, .removed (some 1), .call 2,
          .added (some 1)] ∧
      (CallbackList.notify throwThenReadd listAB).list.callbacks = [some 2, some 1] ∧
      (CallbackList.notify removeThenThrow listAB).trace =
        [.notify, .call 1, .removed (some 2), .threw 1, .closed 1, .removed (some 1)] ∧
      (CallbackList.notify removeThenThrow listAB).list.callbacks = [] := by
  decide

/-- C19 (amended): `notify(f)` on an unlocked list without a callback at two positions, the
record empty, `C::close()` returning normally, the functor adding, removing, closing and
throwing as it likes.  `notify` returns with the state `UNLOCKED`.  Whenever the functor
threw on a callback `c`, `c->close()` was called at once, `c` is closed when `notify`
returns, and `c` is not in the list then unless it was pushed again after the exception.
Every callback of the list that was open when the pass began and was neither removed nor
closed during the pass was called. -/
theorem C19_exception_caught (f : CbFunc) (w : CbWorld)
    (hu : w.list.state = .UNLOCKED) (hd : CallbackList.Distinct w.list.callbacks)
    (ht : w.trace = []) :
    (CallbackList.notify f w).list.state = .UNLOCKED ∧
    (∀ pre post c, (CallbackList.notify f w).trace = pre ++ .threw c :: post →
      (∃ rest, post = .closed c :: rest) ∧ (CallbackList.notify f w).closed c = true ∧
      (some c ∈ (CallbackList.notify f w).list.callbacks → CbEvent.added (some c) ∈ post)) ∧
    (∀ c, some c ∈ w.list.callbacks → w.closed c = false →
      CbEvent.removed (some c) ∉ (CallbackList.notify f w).trace →
      CbEvent.closed c ∉ (CallbackList.notify f w).trace →
      CbEvent.call c ∈ (CallbackList.notify f w).trace) := by
  by_cases e : w.list.callbacks = []
  · rw [notify_nil f w e]
    refine ⟨hu, fun pre post c hs => ?_, fun c hc => ?_⟩
    · rw [ht] at hs; simp at hs
    · rw [e] at hc; cases hc
  · rw [notify_eq f w e]
    have hst : (CallbackList.start w).trace = [.notify] := by
      show w.trace ++ [CbEvent.notify] = _
      rw [ht]; rfl
    have h0 : (CallbackList.start w).Caught w.list.callbacks.length w.list.callbacks
        w.closed ∧ (CallbackList.start w).ThrewGone := by
      refine ⟨⟨by simp [CallbackList.start], le_refl _, hd, fun i c _ hv _ => hv,
        fun pre post c hs => ?_, fun c => ?_⟩, fun pre post c hs => ?_⟩
      · rw [hst] at hs
        rcases snoc_eq_append_cons (u := []) hs with ⟨_, _, e1⟩ | ⟨m0, _, e2⟩
        · cases e1
        · simp at e2
      · rw [hst]
        show w.closed c = true ↔ _
        simp
      · rw [hst] at hs
        rcases snoc_eq_append_cons (u := []) hs with ⟨_, _, e1⟩ | ⟨m0, _, e2⟩
        · cases e1
        · simp at e2
    have hV0 : (CallbackList.start w).Visited 0 w.list.callbacks w.closed :=
      fun j c hj => absurd hj (Nat.not_lt_zero _)
    have hP := notifyFrom_inv (caught_pass f w.list.callbacks.length w.list.callbacks w.closed)
      w.list.callbacks.length 0 _ (by omega) h0
    have hV := notifyFrom_visited f w.list.callbacks.length w.list.callbacks w.closed
      w.list.callbacks.length 0 _ (by omega) h0 hV0
    rw [Nat.zero_add] at hV
    refine ⟨finish_state _, fun pre post c hs => ?_, fun c hc hcl hr hx => ?_⟩
    · rw [finish_trace] at hs
      obtain ⟨rest, hr⟩ := hP.1.threw_closed pre post c hs
      refine ⟨⟨rest, hr⟩, ?_, fun hm => ?_⟩
      · rw [finish_closed]
        refine (hP.1.flags c).2 (Or.inr ?_)
        rw [hs, hr]; simp
      · by_contra hn
        exact hP.2 pre post c hs hn (finish_mem hm)
    · rw [finish_trace] at hr hx ⊢
      obtain ⟨j, hj, hv⟩ := mem_getD hc
      exact hV j c hj hv hcl hr hx

/-- C19 witness: the list `[A, B, C]` with the functor that throws when called on `B`. -/
theorem C19_exception_caught_witness :
    (CallbackList.notify throwOnB listABC).list.state = .UNLOCKED ∧
    (∀ pre post c, (CallbackList.notify throwOnB listABC).trace = pre ++ .threw c :: post →
      (∃ rest, post = .closed c :: rest) ∧
      (CallbackList.notify throwOnB listABC).closed c = true ∧
      (some c ∈ (CallbackList.notify throwOnB listABC).list.callbacks →
        CbEvent.added (some c) ∈ post)) ∧
    (∀ c, some c ∈ listABC.list.callbacks → listABC.closed c = false →
      CbEvent.removed (some c) ∉ (CallbackList.notify throwOnB listABC).trace →
      CbEvent.closed c ∉ (CallbackList.notify throwOnB listABC).trace →
      CbEvent.call c ∈ (CallbackList.notify throwOnB listABC).trace) :=
  C19_exception_caught throwOnB listABC rfl (by decide) rfl

/-- The witness of C19 in figures: the functor is called on `A`, `B` and `C`; the exception
on `B` is followed by `B->close()` and the removal of `B`; the list is `[A, C]` afterwards
and `B` is closed. -/
theorem throwOnB_trace :
    (CallbackList.notify throwOnB listABC).trace =
        [.notify, .call 1, .call 2, .threw 2, .closed 2, .removed (some 2), .call 3] ∧
      (CallbackList.notify throwOnB listABC).list =
        { callbacks := [some 1, some 3], state := .UNLOCKED } ∧
      (CallbackList.notify throwOnB listABC).closed 2 = true := by
  decide

/-! ## Reading a line (task.cpp `Task::async_read_str`, task.hpp `Task::async_read_in`) -/

/-- The loop of `async_read(ptr,bytes,read)` leaves `sated` alone when it returns `true`. -/
theorem async_read_loop_sated (t : TaskId) (bytes : Nat) :
    ∀ (fuel : Nat) (got got' : List Nat) (s s' : Sched),
      Task.async_read_loop t .caller bytes fuel got s = .ok (true, got') s' →
      (s'.tasks t).sated = (s.tasks t).sated := by
  intro fuel
  induction fuel with
  | zero => intro got got' s s' h; cases h
  | succ n ih =>
    intro got got' s s' h
    unfold Task.async_read_loop at h
    by_cases hlt : got.length < bytes
    · rw [if_pos hlt] at h
      by_cases hra : (s.tasks t).read_ahead_ofs < (s.tasks t).read_ahead_len
      · rw [if_pos hra] at h
        cases ha : (s.tasks t).read_ahead_buffer with
        | none => rw [ha] at h; cases h
        | some a =>
          rw [ha] at h
          exact (ih _ _ _ s' h).trans take_buffered_frame.2.2.2.2.2
      · rw [if_neg hra] at h
        simp only at h
        generalize hbuf : ((s.tasks t).read_ahead_buffer.isSome && (ReadDst.caller != .read_ahead)
          && decide (bytes - got.length < (s.tasks t).read_ahead_maxlen)) = buffer at h
        generalize hcap : (if buffer = true then
          (s.tasks t).read_ahead_maxlen - (s.tasks t).read_ahead_len
          else bytes - got.length) = cap at h
        cases hr : sys_read (s.tasks t).fd cap s with
        | mk ret s1 =>
          rw [hr] at h
          obtain ⟨ht, -⟩ := sys_read_spec hr
          cases ret with
          | ewouldblock => cases h
          | efail => cases h
          | count d =>
            cases d with
            | nil => cases h
            | cons b bs =>
              simp only at h
              rw [ih _ _ _ s' h, store_read_frame.2.2.2.2.2, ht]
    · rw [if_neg hlt] at h
      cases h; rfl

/-- `async_read(ptr,bytes)` leaves `sated` alone when it returns `true`. -/
theorem async_read_exact_loop_sated (t : TaskId) (bytes : Nat) :
    ∀ (fuel : Nat) (d : List Nat) (s s' : Sched),
      Task.async_read_exact_loop t bytes fuel s = .ok (some d) s' →
      (s'.tasks t).sated = (s.tasks t).sated := by
  intro fuel
  induction fuel with
  | zero => intro d s s' h; cases h
  | succ n ih =>
    intro d s s' h
    unfold Task.async_read_exact_loop at h
    split at h
    · cases h
      rw [upd_tasks_same]
    · split at h
      · split at h
        · cases h
        · split at h <;> cases h
      · cases hr : Task.async_read t .caller (bytes - (s.tasks t).buf.length) s with
        | diverge => rw [hr] at h; cases h
        | throw e s1 => rw [hr] at h; cases h
        | ok r s1 =>
          rw [hr] at h
          simp only [Res.bind] at h
          obtain ⟨b, got⟩ := r
          cases b with
          | false => simp at h
          | true =>
            simp only [Bool.not_true, Bool.false_eq_true, if_false] at h
            rw [ih _ _ s' h, upd_tasks_same]
            unfold Task.async_read at hr
            split at hr
            · cases hr
            · split at hr
              · cases hr
              · exact async_read_loop_sated t _ _ _ _ s s1 hr

theorem take_set_same (a : List Nat) (n v : Nat) : (a.set n v).take n = a.take n := by
  rw [List.set_eq_take_append_cons_drop]
  split
  · rw [List.take_append_of_le_length (by rw [List.length_take]; omega)]
    rw [List.take_take, Nat.min_self]
  · rfl

/-- The array after `bufz[n] = v`, up to and with index `n`. -/
theorem take_succ_set (a : List Nat) (n v : Nat) (h : n < a.length) :
    (a.set n v).take (n + 1) = a.take n ++ [v] := by
  rw [List.take_succ, take_set_same, List.getElem?_set_self h]
  rfl

/-- The C string in an array whose first `n` bytes are `x`, without a 0, and whose next
byte is 0. -/
theorem takeWhile_of_take (a x : List Nat) (n : Nat) (h1 : a.take n = x)
    (h2 : a[n]? = some 0) (h3 : ∀ c ∈ x, c ≠ 0) :
    a.takeWhile (fun c => c != 0) = x := by
  have hn : n < a.length := by
    by_contra hc
    rw [List.getElem?_eq_none (by omega)] at h2
    cases h2
  have e : a = x ++ 0 :: a.drop (n + 1) := by
    conv_lhs => rw [← List.take_append_drop n a, h1]
    congr 1
    rw [List.drop_eq_getElem_cons hn]
    congr 1
    rw [List.getElem?_eq_getElem hn] at h2
    exact Option.some.inj h2
  rw [e, List.takeWhile_append_of_pos (by intro c hc; simpa using h3 c hc)]
  simp

/-- One byte read by `async_read(s+len,1)` when a byte has arrived. -/
theorem read_byte {t : TaskId} {s : Sched} {c : Nat} {r : List Nat} (hI : ReadInv t s)
    (hs : (s.tasks t).sated = false) (hbuf : (s.tasks t).buf.length < 1)
    (ha : s.arrived t = c :: r) :
    ∃ s', Task.async_read_exact t 1 s = .ok (some [c]) s' ∧ ReadInv t s' ∧
      (s'.tasks t).sated = false ∧ (s'.tasks t).buf.length < 1 ∧ s'.arrived t = r ∧
      afterData s'.input = afterData s.input := by
  obtain ⟨x, s', h1, h2, h3, h4, -⟩ := async_read_exact_spec hI hs hbuf
  obtain ⟨e1, e2, e3⟩ := h4 (by rw [ha]; simp)
  rw [ha] at e1 e2
  simp only [List.take_succ_cons, List.take_zero, List.drop_succ_cons, List.drop_zero] at e1 e2
  subst e1
  exact ⟨s', h1, h2, (async_read_exact_loop_sated t 1 3 _ s s' h1).trans hs, h3, e2, e3⟩

/-- The call `async_read(s+len,1)` when no byte has arrived. -/
theorem read_byte_blocked {t : TaskId} {s : Sched} (hI : ReadInv t s)
    (hs : (s.tasks t).sated = false) (hbuf : (s.tasks t).buf.length < 1)
    (ha : s.arrived t = []) :
    ∃ s', Task.async_read_exact t 1 s = .ok none s' ∧ ReadInv t s' ∧
      (s'.tasks t).buf.length < 1 ∧
      s'.arrived t = leadingData (afterData s.input).tail ∧
      afterData s'.input = afterData (afterData s.input).tail := by
  obtain ⟨x, s', h1, h2, h3, -, h5⟩ := async_read_exact_spec hI hs hbuf
  obtain ⟨e1, e2, e3⟩ := h5 (by rw [ha]; simp)
  rw [ha, List.nil_append] at e2
  subst e1
  exact ⟨s', h1, h2, h3, e2, e3⟩

/-- The loop of `async_read_str` over bytes `q` that have arrived and hold no terminator:
each is stored at `s[len]` and `len` advances. -/
theorem async_read_str_loop_run (t : TaskId) (max : Nat) :
    ∀ (q : List Nat) (fuel : Nat) (l : InLine) (s : Sched) (r : List Nat),
      (∀ x ∈ q, x ≠ 0 ∧ x ≠ 10) → ReadInv t s → (s.tasks t).sated = false →
      (s.tasks t).buf.length < 1 → s.arrived t = q ++ r → l.len + q.length ≤ max →
      l.len + q.length ≤ l.bufz.length →
      ∃ l' s', Task.async_read_str_loop t max (fuel + q.length) l s =
          Task.async_read_str_loop t max fuel l' s' ∧
        ReadInv t s' ∧ (s'.tasks t).sated = false ∧ (s'.tasks t).buf.length < 1 ∧
        s'.arrived t = r ∧ afterData s'.input = afterData s.input ∧
        l'.len = l.len + q.length ∧ l'.bufz.length = l.bufz.length ∧
        l'.bufz.take l'.len = l.bufz.take l.len ++ q := by
  intro q
  induction q with
  | nil =>
    intro fuel l s r _ hI hs hbuf ha _ _
    exact ⟨l, s, rfl, hI, hs, hbuf, by simpa using ha, rfl, rfl, rfl, by simp⟩
  | cons c q ih =>
    intro fuel l s r hq hI hs hbuf ha hmax hlen
    simp only [List.length_cons] at hmax hlen
    obtain ⟨s1, h1, hI1, hs1, hb1, ha1, hd1⟩ := read_byte hI hs hbuf ha
    have hc := hq c (List.mem_cons_self _ _)
    obtain ⟨l', s', e, k1, k2, k3, k4, k5, k6, k7, k8⟩ :=
      ih fuel { l.store l.len c with len := (l.store l.len c).len + 1 } s1 r
        (fun x hx => hq x (List.mem_cons_of_mem _ hx)) hI1 hs1 hb1 ha1
        (by show l.len + 1 + q.length ≤ max; omega)
        (by show l.len + 1 + q.length ≤ (l.bufz.set l.len c).length
            rw [List.length_set]; omega)
    refine ⟨l', s', ?_, k1, k2, k3, k4, k5.trans hd1, ?_, ?_, ?_⟩
    · show Task.async_read_str_loop t max ((fuel + q.length) + 1) l s = _
      rw [Task.async_read_str_loop, if_pos (by omega), h1]
      simp only [Res.bind, List.headD_cons]
      rw [if_neg (by simp [hc.1, hc.2])]
      exact e
    · rw [k6]; show l.len + 1 + q.length = l.len + (q.length + 1); omega
    · rw [k7]; show (l.bufz.set l.len c).length = l.bufz.length; rw [List.length_set]
    · rw [k8]
      show (l.bufz.set l.len c).take (l.len + 1) ++ q = l.bufz.take l.len ++ c :: q
      rw [take_succ_set _ _ _ (by omega)]
      simp

/-- The call `async_read_str` when no byte has arrived: it stores the terminator at
`s[len]` and returns `false`. -/
theorem async_read_str_loop_blocked {t : TaskId} {max : Nat} (fuel : Nat) (l : InLine)
    {s : Sched}
    (hI : ReadInv t s) (hs : (s.tasks t).sated = false) (hbuf : (s.tasks t).buf.length < 1)
    (ha : s.arrived t = []) (hmax : l.len < max) :
    ∃ s', Task.async_read_str_loop t max (fuel + 1) l s = .ok (false, l.store l.len 0) s' ∧
      ReadInv t s' ∧ (s'.tasks t).buf.length < 1 ∧
      s'.arrived t = leadingData (afterData s.input).tail := by
  obtain ⟨s', h1, h2, h3, h4, -⟩ := read_byte_blocked hI hs hbuf ha
  refine ⟨s', ?_, h2, h3, h4⟩
  rw [Task.async_read_str_loop, if_pos hmax, h1]
  rfl

/-- The call `async_read_str` when the next byte is a terminator `c`: it is stored at
`s[len]`, a 0 behind it, and the call returns `true`. -/
theorem async_read_str_loop_end {t : TaskId} {max : Nat} (fuel : Nat) (l : InLine)
    {s : Sched} {c : Nat} {r : List Nat} (hI : ReadInv t s) (hs : (s.tasks t).sated = false)
    (hbuf : (s.tasks t).buf.length < 1) (ha : s.arrived t = c :: r) (hmax : l.len < max)
    (hc : c = 0 ∨ c = 10) :
    ∃ s', Task.async_read_str_loop t max (fuel + 1) l s =
      .ok (true, (l.store l.len c).store (l.len + 1) 0) s' := by
  obtain ⟨s', h1, -⟩ := read_byte hI hs hbuf ha
  refine ⟨s', ?_⟩
  rw [Task.async_read_str_loop, if_pos hmax, h1]
  simp only [Res.bind, List.headD_cons]
  rw [if_pos (by rcases hc with h | h <;> simp [h])]
  rfl

theorem arrived_upd_sated (s : Sched) (t : TaskId) (b : Bool) :
    (s.upd t (fun T => { T with sated := b })).arrived t = s.arrived t := by
  unfold Sched.arrived
  rw [upd_tasks_same, upd_input]
  rfl

/-! ## C22: a line that arrives in two deliveries -/

/-- C22: a line `a ++ b ++ "\n"` without an earlier terminator, shorter than the line buffer
(`MAX+1` bytes), reaches an open task with nothing buffered in two deliveries, `a` and
`b ++ "\n"` with an `EWOULDBLOCK` between them.  `async_read_in(line)` on a line buffer with
`len = 0` returns `false` and leaves the C string `a` in the buffer; called again at the
next readable event (`sated = false`, as `Task::run` sets it) it returns `true` and the C
string in the buffer is the whole line with its `'\n'`. -/
theorem C22_line_in_two_deliveries (t : TaskId) (MAX : Nat) (a b : List Nat)
    (rest : List ReadRes) (l : InLine) (s : Sched)
    (hI : ReadInv t s) (hs : (s.tasks t).sated = false) (hbuf : (s.tasks t).buf = [])
    (hra : (s.tasks t).readAhead = [])
    (hin : s.input = .data a :: .wouldblock :: .data (b ++ [10]) :: rest)
    (hline : ∀ x ∈ a ++ b, x ≠ 0 ∧ x ≠ 10)
    (hlen : (a ++ b ++ [10]).length ≤ MAX)
    (hl : l.bufz.length = MAX + 1) (hl0 : l.len = 0) :
    ∃ l1 s1 l2 s2, Task.async_read_in t l MAX s = .ok (false, l1) s1 ∧ l1.cstr = a ∧
      Task.async_read_in t l1 MAX (s1.upd t (fun T => { T with sated := false })) =
        .ok (true, l2) s2 ∧
      l2.cstr = a ++ b ++ [10] := by
  simp only [List.length_append, List.length_singleton] at hlen
  have harr : s.arrived t = a ++ [] := by
    unfold Sched.arrived
    rw [hbuf, hra, hin]
    simp [leadingData]
  have hafter : afterData s.input = .wouldblock :: .data (b ++ [10]) :: rest := by
    rw [hin]; rfl
  have hb0 : (s.tasks t).buf.length < 1 := by rw [hbuf]; exact Nat.zero_lt_one
  -- the first call
  obtain ⟨f, hf⟩ : ∃ f, MAX + 1 = f + 1 + a.length := ⟨MAX - a.length, by omega⟩
  obtain ⟨g, hg⟩ : ∃ g, MAX + 1 = g + 1 + b.length := ⟨MAX - b.length, by omega⟩
  obtain ⟨l', s', e1, k1, k2, k3, k4, k5, k6, k7, k8⟩ :=
    async_read_str_loop_run t MAX a (f + 1) l s []
      (fun x hx => hline x (List.mem_append_left _ hx)) hI hs hb0 harr (by omega) (by omega)
  obtain ⟨s1, e2, j1, j2, j3⟩ :=
    async_read_str_loop_blocked f l' k1 k2 k3 k4
      (show l'.len < MAX by omega)
  have c1 : Task.async_read_in t l MAX s = .ok (false, l'.store l'.len 0) s1 := by
    unfold Task.async_read_in Task.async_read_str
    rw [hl, Nat.min_eq_left (Nat.le_succ _), hf, e1]
    exact e2
  have hlen1 : (l'.store l'.len 0).len = a.length := by
    show l'.len = a.length
    omega
  have htake1 : (l'.store l'.len 0).bufz.take a.length = a := by
    show (l'.bufz.set l'.len 0).take a.length = a
    have e : l'.len = a.length := by omega
    rw [e, take_set_same, ← e, k8, hl0]
    simp
  have hsz1 : (l'.store l'.len 0).bufz.length = MAX + 1 := by
    show (l'.bufz.set l'.len 0).length = MAX + 1
    rw [List.length_set, k7, hl]
  -- the second call
  have h2I : ReadInv t (s1.upd t (fun T => { T with sated := false })) := by
    refine readInv_of j1 ?_ ?_ ?_ ?_ ?_
    · rw [upd_tasks_same]
    · rw [upd_tasks_same]
    · rw [upd_tasks_same]
    · rw [upd_tasks_same]; exact readAheadOk_congr j1.ok rfl rfl rfl rfl
    · rw [upd_input]; exact j1.benign
  have h2a : (s1.upd t (fun T => { T with sated := false })).arrived t =
      b ++ 10 :: leadingData rest := by
    rw [arrived_upd_sated, j3, k5, hafter]
    simp [leadingData]
  obtain ⟨l2', s2', e3, m1, m2, m3, m4, -, m6, m7, m8⟩ :=
    async_read_str_loop_run t MAX b (g + 1) (l'.store l'.len 0) _ _
      (fun x hx => hline x (List.mem_append_right _ hx)) h2I (by rw [upd_tasks_same])
      (by rw [upd_tasks_same]; exact j2) h2a (by rw [hlen1]; omega) (by rw [hlen1, hsz1]; omega)
  obtain ⟨s2, e4⟩ :=
    async_read_str_loop_end g l2' m1 m2 m3 m4
      (show l2'.len < MAX by rw [m6, hlen1]; omega) (Or.inr rfl)
  refine ⟨_, s1, (l2'.store l2'.len 10).store (l2'.len + 1) 0, s2, c1, ?_, ?_, ?_⟩
  · refine takeWhile_of_take _ a a.length htake1 ?_
      (fun c hc => (hline c (List.mem_append_left _ hc)).1)
    show (l'.bufz.set l'.len 0)[a.length]? = some 0
    have e : l'.len = a.length := by omega
    rw [e, List.getElem?_set_self (by rw [k7, hl]; omega)]
  · unfold Task.async_read_in Task.async_read_str
    rw [hsz1, Nat.min_eq_left (Nat.le_succ _), hg, e3]
    exact e4
  · have hl2 : l2'.len = a.length + b.length := by rw [m6, hlen1]
    have hs2 : l2'.bufz.length = MAX + 1 := by rw [m7, hsz1]
    refine takeWhile_of_take _ _ (l2'.len + 1) ?_ ?_ ?_
    · show (((l2'.bufz.set l2'.len 10).set (l2'.len + 1) 0)).take (l2'.len + 1) = _
      rw [take_set_same, take_succ_set _ _ _ (by omega), m8, hlen1, htake1]
    · show (((l2'.bufz.set l2'.len 10).set (l2'.len + 1) 0))[l2'.len + 1]? = some 0
      rw [List.getElem?_set_self (by rw [List.length_set]; omega)]
    · intro c hc
      simp only [List.mem_append, List.mem_singleton] at hc
      rcases hc with (h | h) | h
      · exact (hline c (List.mem_append_left _ h)).1
      · exact (hline c (List.mem_append_right _ h)).1
      · rw [h]; decide

/-- C22 witness: `"GET /"` then `" HTTP/1.1\r\n"` into an `InLine<20>`. -/
theorem C22_line_in_two_deliveries_witness :
    ∃ l1 s1 l2 s2, Task.async_read_in 0 (InLine.new 20) 20 readerGET = .ok (false, l1) s1 ∧
      l1.cstr = [71, 69, 84, 32, 47] ∧
      Task.async_read_in 0 l1 20 (s1.upd 0 (fun T => { T with sated := false })) =
        .ok (true, l2) s2 ∧
      l2.cstr = [71, 69, 84, 32, 47] ++ [32, 72, 84, 84, 80, 47, 49, 46, 49, 13] ++ [10] :=
  C22_line_in_two_deliveries 0 20 [71, 69, 84, 32, 47] [32, 72, 84, 84, 80, 47, 49, 46, 49, 13]
    [] (InLine.new 20) readerGET
    ⟨by decide, by decide, by decide, by decide, by decide⟩ (by decide) (by decide) (by decide)
    (by decide) (by decide) (by decide) (by decide) (by decide)

/-- The example of the specification evaluated: `false` with `"GET /"`, then `true` with
`"GET / HTTP/1.1\r\n"`. -/
theorem readLineTwice_GET :
    (readLineTwice 0 20 readerGET).value? =
      some ((false, [71, 69, 84, 32, 47]),
        (true, [71, 69, 84, 32, 47, 32, 72, 84, 84, 80, 47, 49, 46, 49, 13, 10])) := by
  decide

/-! ## C28: the terminator of a full line buffer -/

/-- C28 (code evaluated at the failing input): an `InLine<3>` has the array `bufz[0..3]`.
With `"abcde"` arrived, `async_read_in(line)` (`max` omitted, so 3) stores `'a'`, `'b'`, `'c'`
at the indices 0, 1, 2, leaves the loop with `len = 3` and performs `s[len+1] = 0` at index
4, behind the array; called with `max = 100` it stores four bytes at 0 to 3 and the
terminator at index 5.  Both calls return `true`. -/
theorem C28_terminator_behind_the_array :
    (InLine.new 3).bufz.length = 4 ∧ (InLine.new 3).stores = [0] ∧
      (Task.async_read_in 0 (InLine.new 3) 3 readerABCDE).value? =
        some (true, { bufz := [97, 98, 99, 0], len := 3, stores := [0, 0, 1, 2, 4] }) ∧
      (Task.async_read_in 0 (InLine.new 3) 100 readerABCDE).value? =
        some (true, { bufz := [97, 98, 99, 100], len := 4, stores := [0, 0, 1, 2, 3, 5] }) := by
  decide

/-! ## C29: `InLine::starts_with` and `InLine::ends_with` -/

/-- C29 (code evaluated at the failing input): the line buffer holds `"ab"` (`len = 2`).
`ends_with("ab")` and `ends_with("ab",2)` compare the one byte `'a'` with the last byte
`'b'` and return `false`; `starts_with("ac")` compares one byte and returns `true`; and
`starts_with("abc")`, with `strlen` 3 greater than `len`, returns `true`. -/
theorem C29_compares_one_byte :
    lineAB.bufz.take 3 = [97, 98, 0] ∧ lineAB.len = 2 ∧
      lineAB.ends_with [97, 98] 0 = false ∧ lineAB.ends_with [97, 98] 2 = false ∧
      lineAB.starts_with [97, 99] 0 = true ∧ lineAB.starts_with [97, 98, 99] 0 = true := by
  decide

/-! ## The byte counters -/

theorem sys_write_counters (fd : Int) (bytes : List Nat) (n : Nat) (s : Sched) :
    (sys_write fd bytes n s).2.tasks = s.tasks ∧ (sys_write fd bytes n s).2.input = s.input := by
  unfold sys_write
  split
  · exact ⟨rfl, rfl⟩
  · split <;> exact ⟨rfl, rfl⟩

/-- The loop of `async_write(ptr,len,written)` adds what it wrote to `totalWritten`, modulo
`2^32`, and leaves `totalRead` and `input` alone. -/
theorem do_async_write_loop_counts (t : TaskId) (data : List Nat) (len : Nat) :
    ∀ (fuel written : Nat) (s : Sched) (b : Bool) (w : Nat) (s' : Sched),
      Task.do_async_write_loop t data len fuel written s = .ok (b, w) s' →
      (s.tasks t).totalWritten < UINT32 →
      written ≤ w ∧ (s'.tasks t).totalWritten < UINT32 ∧
        (s'.tasks t).totalWritten = ((s.tasks t).totalWritten + (w - written)) % UINT32 ∧
        (s'.tasks t).totalRead = (s.tasks t).totalRead ∧ s'.input = s.input := by
  intro fuel
  induction fuel with
  | zero => intro written s b w s' h; cases h
  | succ n ih =>
    intro written s b w s' h hlt
    unfold Task.do_async_write_loop at h
    split at h
    · obtain ⟨e1, e2⟩ := sys_write_counters (s.tasks t).fd (data.drop written) (len - written) s
      split at h
      · next s1 hs =>
        cases h
        rw [hs] at e1 e2
        simp only at e1 e2
        rw [e1, e2]
        exact ⟨le_refl _, hlt, by rw [Nat.sub_self, Nat.add_zero, Nat.mod_eq_of_lt hlt], rfl, rfl⟩
      · next s1 hs =>
        rw [hs] at e1 e2
        simp only at e1 e2
        have := ih written s1 b w s' h (by rw [e1]; exact hlt)
        rw [e1, e2] at this
        exact this
      · cases h
      · cases h
      · next k s1 hs =>
        rw [hs] at e1 e2
        simp only at e1 e2
        obtain ⟨h1, h2, h3, h4, h5⟩ := ih _ _ b w s' h (by
          rw [upd_tasks_same]; exact Nat.mod_lt _ (by decide))
        rw [upd_tasks_same] at h3 h4
        simp only [upd_input] at h5
        rw [e1] at h3 h4
        refine ⟨by omega, h2, ?_, h4, h5.trans e2⟩
        rw [h3]
        show (((s.tasks t).totalWritten + (k + 1)) % UINT32 + (w - (written + (k + 1)))) % UINT32 = _
        rw [Nat.mod_add_mod]
        congr 1
        omega
    · cases h
      exact ⟨le_refl _, hlt, by rw [Nat.sub_self, Nat.add_zero, Nat.mod_eq_of_lt hlt], rfl, rfl⟩

theorem sys_read_allData {fd : Int} {cap : Nat} {s s1 : Sched} {ret : ReadRet}
    (h : sys_read fd cap s = (ret, s1)) :
    allData s.input = (match ret with | .count d => d | _ => []) ++ allData s1.input := by
  unfold sys_read at h
  split at h
  · cases h; rfl
  · split at h
    · cases h; simp
    · next bs rest hi =>
      cases h
      rw [hi]
      simp only [allData]
      by_cases hd : bs.drop cap = []
      · rw [if_pos hd]
        conv_lhs => rw [← List.take_append_drop cap bs, hd, List.append_nil]
      · rw [if_neg hd]
        simp only [allData]
        rw [← List.append_assoc, List.take_append_drop]
    · next rest hi => cases h; rw [hi]; rfl
    · next rest hi => cases h; rw [hi]; rfl
    · next rest hi => cases h; rw [hi]; rfl

theorem take_buffered_counts {t : TaskId} {d : ReadDst} {a : List Nat} {k r : Nat}
    {s : Sched} :
    (((Task.take_buffered t d a k r s).2).tasks t).totalRead = (s.tasks t).totalRead ∧
      (((Task.take_buffered t d a k r s).2).tasks t).totalWritten = (s.tasks t).totalWritten := by
  unfold Task.take_buffered
  simp only [upd_tasks_same]
  exact ⟨trivial, trivial⟩

theorem store_read_counts {t : TaskId} {d : ReadDst} {f : Bool} {r : Nat}
    {x : List Nat} {s : Sched} :
    ((Task.store_read t d f r x s).tasks t).totalRead =
        ((s.tasks t).totalRead + x.length) % UINT32 ∧
      ((Task.store_read t d f r x s).tasks t).totalWritten = (s.tasks t).totalWritten := by
  unfold Task.store_read
  cases f <;> cases d <;> simp

/-- The loop of `async_read(ptr,bytes,read)` adds what the kernel delivered to `totalRead`,
modulo `2^32`, and leaves `totalWritten` alone. -/
theorem async_read_loop_counts (t : TaskId) (bytes : Nat) :
    ∀ (fuel : Nat) (got : List Nat) (s : Sched) (b : Bool) (got' : List Nat) (s' : Sched),
      Task.async_read_loop t .caller bytes fuel got s = .ok (b, got') s' →
      (s.tasks t).totalRead < UINT32 →
      (allData s'.input).length ≤ (allData s.input).length ∧
        (s'.tasks t).totalRead < UINT32 ∧
        (s'.tasks t).totalRead = ((s.tasks t).totalRead +
          ((allData s.input).length - (allData s'.input).length)) % UINT32 ∧
        (s'.tasks t).totalWritten = (s.tasks t).totalWritten := by
  intro fuel
  induction fuel with
  | zero => intro got s b got' s' h; cases h
  | succ n ih =>
    intro got s b got' s' h hlt
    have base : ∀ x : Sched, x.input = s.input → (x.tasks t).totalRead = (s.tasks t).totalRead →
        (x.tasks t).totalWritten = (s.tasks t).totalWritten →
        (allData x.input).length ≤ (allData s.input).length ∧
        (x.tasks t).totalRead < UINT32 ∧
        (x.tasks t).totalRead = ((s.tasks t).totalRead +
          ((allData s.input).length - (allData x.input).length)) % UINT32 ∧
        (x.tasks t).totalWritten = (s.tasks t).totalWritten := by
      intro x h1 h2 h3
      rw [h1, h2]
      exact ⟨le_refl _, hlt, by rw [Nat.sub_self, Nat.add_zero, Nat.mod_eq_of_lt hlt], h3⟩
    unfold Task.async_read_loop at h
    by_cases hl : got.length < bytes
    · rw [if_pos hl] at h
      by_cases hra : (s.tasks t).read_ahead_ofs < (s.tasks t).read_ahead_len
      · rw [if_pos hra] at h
        cases ha : (s.tasks t).read_ahead_buffer with
        | none => rw [ha] at h; cases h
        | some a =>
          rw [ha] at h
          have := ih _ _ b got' s' h (by rw [take_buffered_counts.1]; exact hlt)
          rw [take_buffered_counts.1, take_buffered_counts.2, take_buffered_frame.1] at this
          exact this
      · rw [if_neg hra] at h
        simp only at h
        generalize hbuf : ((s.tasks t).read_ahead_buffer.isSome && (ReadDst.caller != .read_ahead)
          && decide (bytes - got.length < (s.tasks t).read_ahead_maxlen)) = buffer at h
        generalize hcap : (if buffer = true then
          (s.tasks t).read_ahead_maxlen - (s.tasks t).read_ahead_len
          else bytes - got.length) = cap at h
        cases hr : sys_read (s.tasks t).fd cap s with
        | mk ret s1 =>
          rw [hr] at h
          obtain ⟨ht, -⟩ := sys_read_spec hr
          have hd := sys_read_allData hr
          cases ret with
          | ewouldblock =>
            cases h
            simp only [List.nil_append] at hd
            simp only [upd_input, upd_tasks_same]
            rw [← hd]
            exact ⟨le_refl _, by rw [ht]; exact hlt,
              by rw [ht, Nat.sub_self, Nat.add_zero, Nat.mod_eq_of_lt hlt], by rw [ht]⟩
          | efail => cases h
          | count d =>
            cases d with
            | nil => cases h
            | cons c cs =>
              simp only at h hd
              obtain ⟨h1, h2, h3, h4⟩ := ih _ _ b got' s' h (by
                rw [store_read_counts.1]; exact Nat.mod_lt _ (by decide))
              rw [store_read_frame.1] at h1 h3
              rw [store_read_counts.1] at h3
              rw [store_read_counts.2] at h4
              rw [ht] at h3 h4
              have hlen : (allData s.input).length = (c :: cs).length + (allData s1.input).length := by
                rw [hd, List.length_append]
              refine ⟨by omega, h2, ?_, h4⟩
              rw [h3, Nat.mod_add_mod]
              congr 1
              omega
    · rw [if_neg hl] at h
      cases h
      exact base _ rfl rfl rfl

/-! ## C23: the byte counters wrap around -/

/-- C23 (amended): for every sequence of transfers on a task that all return, `w` bytes
accepted and `r` bytes delivered by the kernel in total, the counters (32 bits wide at the
start) afterwards are the old values plus `w` and plus `r` modulo `2^32`; counters that
start at 0 are `w mod 2^32` and `r mod 2^32`. -/
theorem C23_counters_wrap (t : TaskId) (calls : List Transfer) (s s' : Sched) (w r : Nat)
    (hw : (s.tasks t).totalWritten < UINT32) (hr : (s.tasks t).totalRead < UINT32)
    (h : Task.transfer t calls 0 0 s = .ok (w, r) s') :
    (s'.tasks t).get_bytes_written = ((s.tasks t).get_bytes_written + w) % 2 ^ 32 ∧
      (s'.tasks t).get_bytes_read = ((s.tasks t).get_bytes_read + r) % 2 ^ 32 := by
  have key : ∀ (calls : List Transfer) (w0 r0 : Nat) (s : Sched),
      (s.tasks t).totalWritten < UINT32 → (s.tasks t).totalRead < UINT32 →
      Task.transfer t calls w0 r0 s = .ok (w, r) s' →
      w0 ≤ w ∧ r0 ≤ r ∧
      (s'.tasks t).totalWritten = ((s.tasks t).totalWritten + (w - w0)) % UINT32 ∧
      (s'.tasks t).totalRead = ((s.tasks t).totalRead + (r - r0)) % UINT32 := by
    intro calls
    induction calls with
    | nil =>
      intro w0 r0 s hw hr h
      cases h
      simp only [Nat.sub_self, Nat.add_zero]
      exact ⟨le_refl _, le_refl _, (Nat.mod_eq_of_lt hw).symm, (Nat.mod_eq_of_lt hr).symm⟩
    | cons c cs ih =>
      intro w0 r0 s hw hr h
      cases c with
      | write data len =>
        unfold Task.transfer at h
        cases hc : Task.do_async_write t data len s with
        | diverge => rw [hc] at h; cases h
        | throw e s1 => rw [hc] at h; cases h
        | ok x s1 =>
          rw [hc] at h
          simp only [Res.bind] at h
          unfold Task.do_async_write at hc
          split at hc
          · cases hc
          · obtain ⟨-, k2, k3, k4, -⟩ := do_async_write_loop_counts t data len _ 0 s x.1 x.2 s1 hc hw
            obtain ⟨j1, j2, j3, j4⟩ := ih _ _ s1 k2 (by rw [k4]; exact hr) h
            refine ⟨by omega, j2, ?_, by rw [j4, k4]⟩
            rw [j3, k3, Nat.mod_add_mod]
            congr 1
            omega
      | read bytes =>
        unfold Task.transfer at h
        cases hc : Task.async_read t .caller bytes s with
        | diverge => rw [hc] at h; cases h
        | throw e s1 => rw [hc] at h; cases h
        | ok x s1 =>
          rw [hc] at h
          simp only [Res.bind] at h
          unfold Task.async_read at hc
          split at hc
          · cases hc
          · split at hc
            · cases hc
            · obtain ⟨k1, k2, k3, k4⟩ := async_read_loop_counts t bytes _ [] s x.1 x.2 s1 hc hr
              obtain ⟨j1, j2, j3, j4⟩ := ih _ _ s1 (by rw [k4]; exact hw) k2 h
              refine ⟨j1, by omega, by rw [j3, k4], ?_⟩
              rw [j4, k3, Nat.mod_add_mod]
              congr 1
              omega
  obtain ⟨-, -, h3, h4⟩ := key calls 0 0 s hw hr h
  exact ⟨h3, h4⟩

/-- C23 witness: two bytes written and two bytes read by a task whose counters stand at
`2^32 - 1`. -/
theorem C23_counters_wrap_witness :
    ((Task.transfer 0 [.write [1, 2] 2, .read 2] 0 0 nearWrap).state?.getD nearWrap |>.tasks
        0).get_bytes_written = ((nearWrap.tasks 0).get_bytes_written + 2) % 2 ^ 32 ∧
      ((Task.transfer 0 [.write [1, 2] 2, .read 2] 0 0 nearWrap).state?.getD nearWrap |>.tasks
        0).get_bytes_read = ((nearWrap.tasks 0).get_bytes_read + 2) % 2 ^ 32 :=
  C23_counters_wrap 0 [.write [1, 2] 2, .read 2] nearWrap _ 2 2 (by decide) (by decide) rfl

/-- C23 (as stated, refuted): a task that has written and read `2^32 - 1` bytes writes two
more bytes and reads two more.  The totals are `2^32 + 1`, the counters are 1: less than
before, and not `min(total, 2^32 - 1)`. -/
theorem C23_counterexample :
    (nearWrap.tasks 0).get_bytes_written = 4294967295 ∧
      (nearWrap.tasks 0).get_bytes_read = 4294967295 ∧
      (Task.transfer 0 [.write [1, 2] 2, .read 2] 0 0 nearWrap).value? = some (2, 2) ∧
      ((Task.transfer 0 [.write [1, 2] 2, .read 2] 0 0 nearWrap).state?.map fun s =>
        ((s.tasks 0).get_bytes_written, (s.tasks 0).get_bytes_read)) = some (1, 1) := by
  decide

/-! ## C25: the interest mask and the registration -/

theorem lor_ne_zero_right {a b : Nat} (h : b ≠ 0) : a ||| b ≠ 0 := by
  intro e
  apply h
  apply Nat.eq_of_testBit_eq
  intro i
  have := congrArg (fun x => Nat.testBit x i) e
  simp [Nat.testBit_lor] at this
  simp [this.2]

theorem lor_ne_zero_left {a b : Nat} (h : a ≠ 0) : a ||| b ≠ 0 := by
  intro e
  apply h
  apply Nat.eq_of_testBit_eq
  intro i
  have := congrArg (fun x => Nat.testBit x i) e
  simp [Nat.testBit_lor] at this
  simp [this.1]

/-- `schedule(mask)` on a task whose descriptor is registered exactly when its interest is
not 0, with `mask` or the interest not 0: the interest becomes `interest | mask` and is what
the epoll instance holds. -/
theorem schedule_registered {t : TaskId} {m : Nat} {s : Sched}
    (hfd : 0 ≤ (s.tasks t).fd)
    (hreg : (s.tasks t).events = 0 ↔ s.epoll (s.tasks t).fd = none)
    (hm : m ≠ 0 ∨ (s.tasks t).events ≠ 0) :
    ∃ s', Task.schedule t m s = .ok () s' ∧ (s'.tasks t).fd = (s.tasks t).fd ∧
      (s'.tasks t).events = (s.tasks t).events ||| m ∧ (s'.tasks t).events ≠ 0 ∧
      s'.epoll (s.tasks t).fd = some (s'.tasks t).events := by
  have hnf : ¬ (s.tasks t).fd < 0 := not_lt.mpr hfd
  have hne : (s.tasks t).events ||| m ≠ 0 := by
    rcases hm with h | h
    · exact lor_ne_zero_right h
    · exact lor_ne_zero_left h
  by_cases h0 : (s.tasks t).events = 0
  · have hr := hreg.1 h0
    simp [Task.schedule, Sched.upd, epoll_ctl, Sched.setEpoll, h0, hnf, hr]
    simpa [h0] using hne
  · have hr : ∃ v, s.epoll (s.tasks t).fd = some v := by
      cases hv : s.epoll (s.tasks t).fd with
      | none => exact absurd (hreg.2 hv) h0
      | some v => exact ⟨v, rfl⟩
    obtain ⟨v, hv⟩ := hr
    simp [Task.schedule, Sched.upd, epoll_ctl, Sched.setEpoll, h0, hnf, hv]
    exact hne

/-- `unschedule(bits)` on a task whose descriptor is registered exactly when its interest is
not 0: nothing happens when the interest is 0; otherwise the registration is removed and the
interest set to 0 when `interest & ~bits` has no bit other than `EPOLLET`, and is modified
to `interest & ~bits` when it has one. -/
theorem unschedule_registered {t : TaskId} {b : Nat} {s : Sched}
    (hfd : 0 ≤ (s.tasks t).fd)
    (hreg : (s.tasks t).events = 0 ↔ s.epoll (s.tasks t).fd = none) :
    ∃ s', Task.unschedule t b s = .ok () s' ∧ (s'.tasks t).fd = (s.tasks t).fd ∧
      ((s.tasks t).events = 0 → s' = s) ∧
      ((s.tasks t).events ≠ 0 →
        not32 EPOLLET &&& ((s.tasks t).events &&& not32 b) = 0 →
        (s'.tasks t).events = 0 ∧ s'.epoll (s.tasks t).fd = none) ∧
      ((s.tasks t).events ≠ 0 →
        not32 EPOLLET &&& ((s.tasks t).events &&& not32 b) ≠ 0 →
        (s'.tasks t).events = (s.tasks t).events &&& not32 b ∧
        s'.epoll (s.tasks t).fd = some ((s.tasks t).events &&& not32 b)) := by
  have hnf : ¬ (s.tasks t).fd < 0 := not_lt.mpr hfd
  by_cases h0 : (s.tasks t).events = 0
  · refine ⟨s, ?_, rfl, fun _ => rfl, fun h => absurd h0 h, fun h => absurd h0 h⟩
    simp [Task.unschedule, h0]
  · have hr : ∃ v, s.epoll (s.tasks t).fd = some v := by
      cases hv : s.epoll (s.tasks t).fd with
      | none => exact absurd (hreg.2 hv) h0
      | some v => exact ⟨v, rfl⟩
    obtain ⟨v, hv⟩ := hr
    by_cases hrem : not32 EPOLLET &&& ((s.tasks t).events &&& not32 b) = 0
    · simp [Task.unschedule, Sched.upd, epoll_ctl, Sched.setEpoll, h0, hnf, hv, hrem]
    · simp [Task.unschedule, Sched.upd, epoll_ctl, Sched.setEpoll, h0, hnf, hv, hrem]

/-- A sequence of `schedule` (never with mask 0) and `unschedule` calls returns and keeps
the descriptor registered exactly when the interest is not 0. -/
theorem interest_execAll (t : TaskId) : ∀ (calls : List InterestCall) (s : Sched),
    0 ≤ (s.tasks t).fd → ((s.tasks t).events = 0 ↔ s.epoll (s.tasks t).fd = none) →
    InterestCall.schedule 0 ∉ calls →
    ∃ s', InterestCall.execAll t calls s = .ok () s' ∧ (s'.tasks t).fd = (s.tasks t).fd ∧
      ((s'.tasks t).events = 0 ↔ s'.epoll (s.tasks t).fd = none) := by
  intro calls
  induction calls with
  | nil => intro s _ hreg _; exact ⟨s, rfl, rfl, hreg⟩
  | cons c cs ih =>
    intro s hfd hreg hc
    have hstep : ∃ s1, c.exec t s = .ok () s1 ∧ (s1.tasks t).fd = (s.tasks t).fd ∧
        ((s1.tasks t).events = 0 ↔ s1.epoll (s.tasks t).fd = none) := by
      cases c with
      | schedule mask =>
        obtain ⟨s1, h1, h2, -, h4, h5⟩ :=
          schedule_registered (m := mask) hfd hreg
            (Or.inl (fun e => hc (e ▸ List.mem_cons_self _ _)))
        exact ⟨s1, h1, h2, ⟨fun e => absurd e h4, fun e => by rw [h5] at e; cases e⟩⟩
      | unschedule bits =>
        obtain ⟨s1, h1, h2, h3, h4, h5⟩ := unschedule_registered (b := bits) hfd hreg
        refine ⟨s1, h1, h2, ?_⟩
        by_cases h0 : (s.tasks t).events = 0
        · rw [h3 h0]; exact hreg
        · by_cases hrem : not32 EPOLLET &&& ((s.tasks t).events &&& not32 bits) = 0
          · obtain ⟨e1, e2⟩ := h4 h0 hrem
            exact ⟨fun _ => e2, fun _ => e1⟩
          · obtain ⟨e1, e2⟩ := h5 h0 hrem
            have hne : (s.tasks t).events &&& not32 bits ≠ 0 := by
              intro h; apply hrem; rw [h]; simp
            exact ⟨fun e => absurd (e1 ▸ e) hne, fun e => by rw [e2] at e; cases e⟩
    obtain ⟨s1, h1, h2, h3⟩ := hstep
    obtain ⟨s', k1, k2, k3⟩ := ih s1 (by rw [h2]; exact hfd) (by rw [h2]; exact h3)
      (fun hm => hc (List.mem_cons_of_mem _ hm))
    refine ⟨s', ?_, k2.trans h2, by rw [h2] at k3; exact k3⟩
    show (c.exec t s).bind _ = _
    rw [h1]
    exact k1

/-- C25 (amended): take a task with a valid descriptor that is registered with the epoll
instance exactly when its interest mask is not 0, and any sequence of `schedule(mask)` with
`mask != 0` (a mask of `EPOLLET` alone included) and `unschedule(bits)`.  All calls return,
and afterwards the interest mask is 0 exactly when the descriptor is not registered.  A
following `unschedule(bits)` returns; it does nothing when the interest is 0, and otherwise
removes the registration and sets the interest to 0 when `interest & ~bits` has no bit other
than `EPOLLET`, and modifies the registration to `interest & ~bits` when it has one. -/
theorem C25_interest_iff_registered (t : TaskId) (calls : List InterestCall) (bits : Nat)
    (s : Sched) (hfd : 0 ≤ (s.tasks t).fd)
    (hreg : (s.tasks t).events = 0 ↔ s.epoll (s.tasks t).fd = none)
    (hcalls : InterestCall.schedule 0 ∉ calls) :
    ∃ s', InterestCall.execAll t calls s = .ok () s' ∧
      ((s'.tasks t).events = 0 ↔ s'.epoll (s'.tasks t).fd = none) ∧
      ∃ s'', Task.unschedule t bits s' = .ok () s'' ∧
        ((s'.tasks t).events = 0 → s'' = s') ∧
        ((s'.tasks t).events ≠ 0 →
          not32 EPOLLET &&& ((s'.tasks t).events &&& not32 bits) = 0 →
          (s''.tasks t).events = 0 ∧ s''.epoll (s'.tasks t).fd = none) ∧
        ((s'.tasks t).events ≠ 0 →
          not32 EPOLLET &&& ((s'.tasks t).events &&& not32 bits) ≠ 0 →
          (s''.tasks t).events = (s'.tasks t).events &&& not32 bits ∧
          s''.epoll (s'.tasks t).fd = some ((s'.tasks t).events &&& not32 bits)) := by
  obtain ⟨s', h1, h2, h3⟩ := interest_execAll t calls s hfd hreg hcalls
  rw [← h2] at h3
  obtain ⟨s'', k1, -, k3, k4, k5⟩ :=
    unschedule_registered (b := bits) (by rw [h2]; exact hfd) h3
  exact ⟨s', h1, h3, s'', k1, k3, k4, k5⟩

/-- C25 witness: `schedule(EPOLLET); schedule(EPOLLIN); schedule(EPOLLOUT);
unschedule(EPOLLIN)` on a fresh task with descriptor 5, then `unschedule(EPOLLOUT)`. -/
theorem C25_interest_iff_registered_witness :
    ∃ s', InterestCall.execAll 0 [.schedule EPOLLET, .schedule EPOLLIN, .schedule EPOLLOUT,
        .unschedule EPOLLIN] (oneTask 5) = .ok () s' ∧
      ((s'.tasks 0).events = 0 ↔ s'.epoll (s'.tasks 0).fd = none) ∧
      ∃ s'', Task.unschedule 0 EPOLLOUT s' = .ok () s'' ∧
        ((s'.tasks 0).events = 0 → s'' = s') ∧
        ((s'.tasks 0).events ≠ 0 →
          not32 EPOLLET &&& ((s'.tasks 0).events &&& not32 EPOLLOUT) = 0 →
          (s''.tasks 0).events = 0 ∧ s''.epoll (s'.tasks 0).fd = none) ∧
        ((s'.tasks 0).events ≠ 0 →
          not32 EPOLLET &&& ((s'.tasks 0).events &&& not32 EPOLLOUT) ≠ 0 →
          (s''.tasks 0).events = (s'.tasks 0).events &&& not32 EPOLLOUT ∧
          s''.epoll (s'.tasks 0).fd = some ((s'.tasks 0).events &&& not32 EPOLLOUT)) :=
  C25_interest_iff_registered 0 [.schedule EPOLLET, .schedule EPOLLIN, .schedule EPOLLOUT,
    .unschedule EPOLLIN] EPOLLOUT (oneTask 5) (by decide) (by decide) (by decide)

/-- The witness of C25 in figures: interest mask and registration after each call; the last
`unschedule` leaves only `EPOLLET` and so removes the registration. -/
theorem interest_calls_view :
    ([InterestCall.schedule EPOLLET, .schedule EPOLLIN, .schedule EPOLLOUT,
        .unschedule EPOLLIN, .unschedule EPOLLOUT].inits.map fun cs =>
      interestView (InterestCall.execAll 0 cs (oneTask 5)).state? 0 5) =
      [some (0, none), some (2147483648, some 2147483648), some (2147483649, some 2147483649),
        some (2147483653, some 2147483653), some (2147483652, some 2147483652),
        some (0, none)] := by
  decide

/-- C25 (as stated, refuted): `schedule(0)` on a fresh task with descriptor 5 registers the
descriptor (`EPOLL_CTL_ADD` with the mask 0) and leaves the interest mask 0, so the mask is
0 although the descriptor is registered; the next `schedule(EPOLLIN)` issues a second
`EPOLL_CTL_ADD` and throws. -/
theorem C25_counterexample :
    interestView (some (oneTask 5)) 0 5 = some (0, none) ∧
      interestView (InterestCall.execAll 0 [.schedule 0] (oneTask 5)).state? 0 5
        = some (0, some 0) ∧
      (InterestCall.execAll 0 [.schedule 0] (oneTask 5)).returned = true ∧
      (InterestCall.execAll 0 [.schedule 0, .schedule EPOLLIN] (oneTask 5)).exn?
        = some .cError := by
  decide

/-! ## C26: formatted output longer than the local array -/

/-- A `::write` that accepts all `len` bytes ends the loop of `async_write(ptr,len,written)`
at its next turn. -/
theorem do_async_write_loop_all (t : TaskId) (data : List Nat) (len k : Nat)
    (rest : List WriteRes) (fuel : Nat) (s : Sched) (hfd : 0 ≤ (s.tasks t).fd)
    (hs : s.script = .accept k :: rest) (hk : len ≤ k) (hlen : 0 < len) :
    ∃ s', Task.do_async_write_loop t data len (fuel + 2) 0 s = .ok (true, len) s' ∧
      s'.wire (s.tasks t).fd = s.wire (s.tasks t).fd ++ data.take len ∧
      (s'.tasks t).out = (s.tasks t).out ∧ s'.mem = s.mem := by
  obtain ⟨n, hn⟩ : ∃ n, len = n + 1 := ⟨len - 1, by omega⟩
  have hsys : ∃ s1, sys_write (s.tasks t).fd (data.drop 0) (len - 0) s = (.count (n + 1), s1) ∧
      s1.wire (s.tasks t).fd = s.wire (s.tasks t).fd ++ data.take len ∧
      s1.tasks = s.tasks ∧ s1.mem = s.mem := by
    unfold sys_write
    rw [if_neg (not_lt.mpr hfd), hs]
    simp only [Nat.sub_zero]
    rw [Nat.min_eq_right hk, hn]
    exact ⟨_, rfl, by simp, rfl, rfl⟩
  obtain ⟨s1, e1, e2, e3, e4⟩ := hsys
  rw [Task.do_async_write_loop, if_pos hlen, e1]
  simp only
  rw [Task.do_async_write_loop, if_neg (by omega)]
  refine ⟨_, by rw [Nat.zero_add, hn], ?_, ?_, ?_⟩
  · rw [upd_wire, e2]
  · rw [upd_tasks_same, e3]
  · rw [upd_mem, e4]

/-- `async_write_cpy(ptr,len)` on a task with an empty queue when the kernel accepts all
`len` bytes: what the model finds at `ptr[0 .. len)` goes onto the wire and nothing is
queued. -/
theorem async_write_cpy_all (t : TaskId) (ptr len k : Nat) (rest : List WriteRes) (s : Sched)
    (hfd : 0 ≤ (s.tasks t).fd) (hc : (s.tasks t).closed = false) (ho : (s.tasks t).out = [])
    (hs : s.script = .accept k :: rest) (hk : len ≤ k) (hlen : 0 < len) :
    ∃ s', Task.async_write_cpy t ptr len s = .ok () s' ∧
      s'.wire (s.tasks t).fd = s.wire (s.tasks t).fd ++ (s.mem ptr).take len ∧
      (s'.tasks t).out = [] := by
  unfold Task.async_write_cpy
  simp only [ho, List.isEmpty_nil, if_true]
  unfold Out.async_write Task.do_async_write
  simp only [hc, Bool.false_eq_true, if_false, hs, List.length_cons, Nat.sub_zero]
  obtain ⟨s', e1, e2, e3, -⟩ := do_async_write_loop_all t ((s.bufBytes (.borrowed ptr)).drop 0)
    len k rest rest.length s hfd hs hk hlen
  rw [show rest.length + 1 + 1 = rest.length + 2 from rfl, e1]
  simp only [Res.bind, Bool.not_true, Bool.false_eq_true, if_false]
  refine ⟨s', rfl, ?_, e3.trans ho⟩
  rw [e2]
  simp [Sched.bufBytes]

/-- `async_vprintf` of a text of neither 0 nor 1024 bytes, on a task with an empty queue and
a kernel that accepts everything: what the model finds at `buf[0 .. len)` goes onto the
wire. -/
theorem async_vprintf_from_array (t : TaskId) (buf : Nat) (text : List Nat) (k : Nat)
    (rest : List WriteRes) (s : Sched) (hfd : 0 ≤ (s.tasks t).fd)
    (hc : (s.tasks t).closed = false) (ho : (s.tasks t).out = [])
    (hs : s.script = .accept k :: rest) (hk : text.length ≤ k)
    (h0 : text.length ≠ 0) (h1 : text.length ≠ 1024) :
    ∃ s', Task.async_vprintf t buf text s = .ok () s' ∧
      s'.wire (s.tasks t).fd = s.wire (s.tasks t).fd ++
        (writeAt (s.mem buf) 0 (text.take 1023 ++ [0])).take text.length ∧
      (s'.tasks t).out = [] := by
  unfold Task.async_vprintf
  simp only [if_neg h0, if_neg h1]
  obtain ⟨s', e1, e2, e3⟩ := async_write_cpy_all t buf text.length k rest
    { s with mem := fun a =>
      if a = buf then writeAt (s.mem buf) 0 (text.take 1023 ++ [0]) else s.mem a }
    hfd hc ho hs hk (Nat.pos_of_ne_zero h0)
  refine ⟨s', e1, ?_, e3⟩
  rw [e2]
  simp

/-- C26 (code evaluated at the failing input): the format produces 1025 bytes `'a'`, the
queue of the task is empty and the kernel accepts what is offered.  `vsnprintf` returns
1025, which is not `sizeof(buf)`, so `async_write_cpy(buf,1025)` sends from the local array
of 1024 bytes: the wire receives its 1023 bytes `'a'` and the terminating 0 (and one byte
from behind the array, which the model does not hold), not the 1025 formatted bytes. -/
theorem C26_long_output_sent_from_stack_buffer :
    ∃ s', Task.async_vprintf 0 0 (List.replicate 1025 97) printer = .ok () s' ∧
      s'.wire 5 = List.replicate 1023 97 ++ [0] ∧ (s'.tasks 0).out = [] := by
  have hlen : (List.replicate 1025 97).length = 1025 := List.length_replicate _ _
  obtain ⟨s', e1, e2, e3⟩ := async_vprintf_from_array 0 0 (List.replicate 1025 97) 4096 []
    printer (by decide) (by decide) (by decide) rfl (by rw [hlen]; decide)
    (by rw [hlen]; decide) (by rw [hlen]; decide)
  refine ⟨s', e1, ?_, e3⟩
  have e4 : s'.wire 5 = [] ++ (writeAt (List.replicate 1024 0) 0
      ((List.replicate 1025 97).take 1023 ++ [0])).take (List.replicate 1025 97).length := e2
  rw [e4, hlen, List.nil_append, List.take_replicate]
  unfold writeAt
  rw [List.take_zero, List.nil_append, List.drop_replicate, List.length_append,
    List.length_replicate, List.length_singleton]
  rw [show min 1023 1025 = 1023 from rfl, show 1024 - (0 + (1023 + 1)) = 0 from rfl,
    List.replicate_zero, List.append_nil]
  exact List.take_of_length_le (by
    rw [List.length_append, List.length_replicate, List.length_singleton]; decide)

/-! ## Integers written to and read from a buffer -/

theorem bytesOf_length : ∀ (n t : Nat), (bytesOf n t).length = n
  | 0, _ => rfl
  | n + 1, t => by rw [bytesOf, List.length_cons, bytesOf_length n]

theorem bytesOf_lt : ∀ (n t : Nat), ∀ x ∈ bytesOf n t, x < 256
  | 0, _ => by intro x hx; cases hx
  | n + 1, t => by
    intro x hx
    rw [bytesOf, List.mem_cons] at hx
    rcases hx with h | h
    · rw [h]; exact Nat.mod_lt _ (by decide)
    · exact bytesOf_lt n _ x h

/-- The low `k` bytes of an object of `n` bytes are the object of `k` bytes with the same
value. -/
theorem bytesOf_take : ∀ (n k t : Nat), k ≤ n → (bytesOf n t).take k = bytesOf k t
  | _, 0, _, _ => by rw [List.take_zero]; rfl
  | 0, k + 1, _, h => by omega
  | n + 1, k + 1, t, h => by
    rw [bytesOf, bytesOf, List.take_succ_cons, bytesOf_take n k _ (by omega)]

theorem valueOf_zeros : ∀ k : Nat, valueOf (List.replicate k 0) = 0
  | 0 => rfl
  | k + 1 => by rw [List.replicate_succ, valueOf, valueOf_zeros k]

/-- The value of the `n` low bytes of `t`, zero-extended, is `t mod 256^n`. -/
theorem valueOf_bytesOf : ∀ (n k t : Nat),
    valueOf (bytesOf n t ++ List.replicate k 0) = t % 256 ^ n
  | 0, k, t => by
    rw [bytesOf, List.nil_append, valueOf_zeros, pow_zero, Nat.mod_one]
  | n + 1, k, t => by
    rw [bytesOf, List.cons_append, valueOf, valueOf_bytesOf n k, pow_succ', Nat.mod_mul]

/-- The image `t = 0; memcpy(&t, x, |x|)` of an object of `size` bytes. -/
theorem writeAt_zeros (size : Nat) (x : List Nat) :
    writeAt (List.replicate size 0) 0 x = x ++ List.replicate (size - x.length) 0 := by
  unfold writeAt
  rw [List.take_zero, List.nil_append, List.drop_replicate, Nat.zero_add]

theorem ensure_capacity_spec (b : ResizeableBuffer) (needed : Nat) (hb : b.WF) :
    (b.ensure_capacity needed).WF ∧ (b.ensure_capacity needed).len = b.len ∧
      b.len + needed ≤ (b.ensure_capacity needed).capacity ∧
      (b.ensure_capacity needed).ptr.take b.len = b.ptr.take b.len := by
  obtain ⟨h1, h2⟩ := hb
  unfold ResizeableBuffer.ensure_capacity
  split
  · next hgt =>
    unfold ResizeableBuffer.resize
    rw [if_neg (by omega)]
    refine ⟨⟨?_, ?_⟩, rfl, le_refl _, ?_⟩
    · simp only [List.length_append, List.length_take, List.length_replicate]
      omega
    · show b.len ≤ b.len + needed
      omega
    · show (b.ptr.take (b.len + needed) ++ _).take b.len = _
      rw [List.take_append_of_le_length (by rw [List.length_take]; omega), List.take_take]
      congr 1
      omega
  · next hle => exact ⟨⟨h1, h2⟩, rfl, by omega, rfl⟩

/-- `write_ptr` of `alen >= 1` bytes appends them to the bytes in use. -/
theorem write_ptr_spec (b : ResizeableBuffer) (a : List Nat) (alen : Nat) (hb : b.WF)
    (h1 : 1 ≤ alen) (h2 : alen ≤ a.length) :
    ∃ b', b.write_ptr a alen = .ok b' ∧ b'.WF ∧ b'.len = b.len + alen ∧
      b'.data = b.data ++ a.take alen := by
  obtain ⟨⟨k1, k2⟩, k3, k4, k5⟩ := ensure_capacity_spec b alen hb
  have hl : (a.take alen).length = alen := by rw [List.length_take]; omega
  unfold ResizeableBuffer.write_ptr
  rw [if_neg (by omega)]
  refine ⟨_, rfl, ⟨?_, ?_⟩, ?_, ?_⟩
  · show (writeAt _ _ _).length = (b.ensure_capacity alen).capacity
    rw [writeAt_length _ _ _ (by rw [hl, k1, k3]; exact k4), k1]
  · show (b.ensure_capacity alen).len + alen ≤ (b.ensure_capacity alen).capacity
    rw [k3]; exact k4
  · show (b.ensure_capacity alen).len + alen = b.len + alen
    rw [k3]
  · show (writeAt (b.ensure_capacity alen).ptr (b.ensure_capacity alen).len
      (a.take alen)).take ((b.ensure_capacity alen).len + alen) = b.ptr.take b.len ++ a.take alen
    rw [k3]
    unfold writeAt
    have hp : ((b.ensure_capacity alen).ptr.take b.len).length = b.len := by
      rw [List.length_take, k1]; omega
    rw [List.take_left' (by rw [List.length_append, hp, hl]), k5]

/-- The loop of `write_be` appends the `n` low bytes of the object, the highest first. -/
theorem write_be_loop_spec (y : List Nat) (hc : ∀ x ∈ y, x < 256) :
    ∀ (n : Nat) (b : ResizeableBuffer), b.WF → n ≤ y.length →
      ∃ b', ResizeableBuffer.write_be_loop y n b = .ok b' ∧ b'.WF ∧ b'.len = b.len + n ∧
        b'.data = b.data ++ (y.take n).reverse := by
  intro n
  induction n with
  | zero => intro b hb _; exact ⟨b, rfl, hb, rfl, by simp⟩
  | succ n ih =>
    intro b hb hn
    have hlt : n < y.length := hn
    have hq : y[n]? = some (y.getD n 0) := by
      rw [List.getD_eq_getElem?_getD, List.getElem?_eq_getElem hlt]
      rfl
    have hmem : y.getD n 0 ∈ y := by
      rw [List.getD_eq_getElem _ _ hlt]
      exact List.getElem_mem _
    have hbyte : bytesOf 1 (y.getD n 0) = [y.getD n 0] := by
      show [y.getD n 0 % 256] = [y.getD n 0]
      rw [Nat.mod_eq_of_lt (hc _ hmem)]
    obtain ⟨b1, e1, w1, l1, d1⟩ := write_ptr_spec b (bytesOf 1 (y.getD n 0)) 1 hb (le_refl _)
      (by rw [bytesOf_length])
    obtain ⟨b', e2, w2, l2, d2⟩ := ih b1 w1 (by omega)
    refine ⟨b', ?_, w2, by rw [l2, l1]; omega, ?_⟩
    · unfold ResizeableBuffer.write_be_loop ResizeableBuffer.write
      rw [e1]
      exact e2
    · have ht : y.take (n + 1) = y.take n ++ [y.getD n 0] := by
        rw [List.take_succ, hq]; rfl
      rw [d2, d1, hbyte, ht]
      simp

/-- The bytes at `ptr[ofs .. ofs+len)` read from the last to the first. -/
theorem backwards_eq_reverse (ptr : List Nat) (ofs len : Nat) (h : ofs + len ≤ ptr.length) :
    ((List.range len).map fun i => ptr.getD (ofs + len - 1 - i) 0) =
      ((ptr.drop ofs).take len).reverse := by
  apply List.ext_getElem
  · simp only [List.length_map, List.length_range, List.length_reverse, List.length_take,
      List.length_drop]
    omega
  · intro i h1 h2
    simp only [List.length_map, List.length_range] at h1
    simp only [List.getElem_map, List.getElem_range, List.getElem_reverse, List.getElem_take,
      List.getElem_drop]
    rw [List.getD_eq_getElem _ _ (by omega)]
    congr 1
    simp only [List.length_take, List.length_drop]
    omega

/-- The bytes appended behind `len0` bytes in use, read back from the array. -/
theorem appended_of_data {p q x : List Nat} {n : Nat} (h : p.take (n + x.length) = q.take n ++ x)
    (hq : n ≤ q.length) : (p.drop n).take x.length = x := by
  have e : (p.take (n + x.length)).drop n = (p.drop n).take x.length := by
    rw [List.drop_take, Nat.add_sub_cancel_left]
  rw [← e, h, List.drop_left' (by rw [List.length_take]; omega)]

theorem pow_two_eight (len : Nat) : 2 ^ (8 * len) = 256 ^ len := by
  rw [pow_mul]; rfl

/-! ## C30: `write_be` / `extract_be` and `write` / `extract_le` -/

/-- C30: for an unsigned integer type of `size` bytes on a little-endian host, a value `t`
and `1 <= len <= size`, on a buffer whose array has `capacity` bytes of which `len` are in
use (allocations succeed): `write_be(t,len)` returns and appends exactly `len` bytes, the
low `len` bytes of `t` with the most significant first, and `extract_be` over them gives
`t mod 2^(8*len)`; `write(t,len)` returns and appends the low `len` bytes with the least
significant first, and `extract_le` over them gives `t mod 2^(8*len)`. -/
theorem C30_write_extract_round_trip (b : ResizeableBuffer) (size t len : Nat)
    (hb : b.ptr.length = b.capacity ∧ b.len ≤ b.capacity) (h1 : 1 ≤ len) (h2 : len ≤ size) :
    (∃ b', b.write_be size t len = .ok b' ∧ b'.len = b.len + len ∧
        b'.data = b.data ++ (bytesOf len t).reverse ∧
        extract_be size b'.ptr b.len len = t % 2 ^ (8 * len)) ∧
      (∃ b', b.write size t len = .ok b' ∧ b'.len = b.len + len ∧
        b'.data = b.data ++ bytesOf len t ∧
        extract_le size b'.ptr b.len len = t % 2 ^ (8 * len)) := by
  have hdata : b.data = b.ptr.take b.len := rfl
  have hq : b.len ≤ b.ptr.length := by rw [hb.1]; exact hb.2
  constructor
  · obtain ⟨b', e1, w1, l1, d1⟩ := write_be_loop_spec (bytesOf size t) (bytesOf_lt size t) len b
      hb (by rw [bytesOf_length]; exact h2)
    rw [bytesOf_take size len t h2] at d1
    refine ⟨b', e1, l1, d1, ?_⟩
    have hl : (bytesOf len t).reverse.length = len := by
      rw [List.length_reverse, bytesOf_length]
    have e : (b'.ptr.drop b.len).take len = (bytesOf len t).reverse := by
      have := appended_of_data (p := b'.ptr) (q := b.ptr) (x := (bytesOf len t).reverse)
        (n := b.len) (by rw [hl, ← l1]; exact d1) hq
      rw [hl] at this
      exact this
    unfold extract_be
    rw [backwards_eq_reverse _ _ _ (by rw [w1.1, ← l1]; exact w1.2), e, List.reverse_reverse,
      writeAt_zeros, valueOf_bytesOf, pow_two_eight]
  · obtain ⟨b', e1, w1, l1, d1⟩ := write_ptr_spec b (bytesOf size t) len hb h1
      (by rw [bytesOf_length]; exact h2)
    rw [bytesOf_take size len t h2] at d1
    refine ⟨b', e1, l1, d1, ?_⟩
    have hl : (bytesOf len t).length = len := bytesOf_length _ _
    have e : (b'.ptr.drop b.len).take len = bytesOf len t := by
      have := appended_of_data (p := b'.ptr) (q := b.ptr) (x := bytesOf len t)
        (n := b.len) (by rw [hl, ← l1]; exact d1) hq
      rw [hl] at this
      exact this
    unfold extract_le
    rw [e, writeAt_zeros, valueOf_bytesOf, pow_two_eight]

/-- C30 witness: the low 3 bytes of the 4-byte value `0x11223344` appended to a buffer that
holds 2 bytes. -/
theorem C30_write_extract_round_trip_witness :
    (∃ b', buffer12.write_be 4 0x11223344 3 = .ok b' ∧ b'.len = buffer12.len + 3 ∧
        b'.data = buffer12.data ++ (bytesOf 3 0x11223344).reverse ∧
        extract_be 4 b'.ptr buffer12.len 3 = 0x11223344 % 2 ^ (8 * 3)) ∧
      (∃ b', buffer12.write 4 0x11223344 3 = .ok b' ∧ b'.len = buffer12.len + 3 ∧
        b'.data = buffer12.data ++ bytesOf 3 0x11223344 ∧
        extract_le 4 b'.ptr buffer12.len 3 = 0x11223344 % 2 ^ (8 * 3)) :=
  C30_write_extract_round_trip buffer12 4 0x11223344 3 (by decide) (by decide) (by decide)

/-- The witness of C30 in figures: `write_be` appends `22 33 44`, `write` appends
`44 33 22` (hexadecimal), and both are read back as `0x223344`. -/
theorem write_be_0x11223344 :
    ((buffer12.write_be 4 0x11223344 3).toOption.map fun b =>
        (b.data, extract_be 4 b.ptr 2 3)) = some ([1, 2, 0x22, 0x33, 0x44], 0x223344) ∧
      ((buffer12.write 4 0x11223344 3).toOption.map fun b =>
        (b.data, extract_le 4 b.ptr 2 3)) = some ([1, 2, 0x44, 0x33, 0x22], 0x223344) ∧
      (buffer12.write 4 0x11223344 0).toOption = none := by
  decide

/-! ## The writable branch of `Task::run` -/

theorem unqueued_fd {T T' : Task} (h : T'.unqueued = T.unqueued) : T'.fd = T.fd := by
  have h1 : T'.unqueued.fd = T.unqueued.fd := congrArg Task.fd h
  exact h1

theorem unqueued_closed {T T' : Task} (h : T'.unqueued = T.unqueued) : T'.closed = T.closed := by
  have h1 : T'.unqueued.closed = T.unqueued.closed := congrArg Task.closed h
  exact h1

theorem unqueued_half_close {T T' : Task} (h : T'.unqueued = T.unqueued) :
    T'.half_close = T.half_close := by
  have h1 : T'.unqueued.half_close = T.unqueued.half_close := congrArg Task.half_close h
  exact h1

theorem unqueued_events {T T' : Task} (h : T'.unqueued = T.unqueued) : T'.events = T.events := by
  have h1 : T'.unqueued.events = T.unqueued.events := congrArg Task.events h
  exact h1

theorem unqueued_of_uncounted {T T' : Task} (h : T'.uncounted = T.uncounted) :
    T'.unqueued = T.unqueued := by
  have := congrArg (fun X : Task => { X with out := [] }) h
  exact this

theorem drainFrame_refl (t : TaskId) (s : Sched) : DrainFrame t s s :=
  ⟨rfl, rfl, ⟨[], rfl⟩, rfl, fun _ _ => rfl, rfl, rfl⟩

theorem drainFrame_trans {t : TaskId} {a b c : Sched} (h1 : DrainFrame t a b)
    (h2 : DrainFrame t b c) : DrainFrame t a c := by
  obtain ⟨u1, e1⟩ := h1.script
  obtain ⟨u2, e2⟩ := h2.script
  exact ⟨h2.mem.trans h1.mem, h2.epoll.trans h1.epoll,
    ⟨u1 ++ u2, by rw [e1, e2, List.append_assoc]⟩, h2.task.trans h1.task,
    fun i hi => (h2.others i hi).trans (h1.others i hi), h2.ntasks.trans h1.ntasks,
    h2.timeouts.trans h1.timeouts⟩

theorem drainFrame_of_write {t : TaskId} {s s' : Sched} (h : WriteFrame t s s') :
    DrainFrame t s s' :=
  ⟨h.mem, h.epoll, h.script, unqueued_of_uncounted h.task, h.others, h.ntasks, h.timeouts⟩

theorem drainFrame_setOut (t : TaskId) (s : Sched) (f : List Out → List Out) :
    DrainFrame t s (s.upd t (fun T => { T with out := f T.out })) :=
  ⟨rfl, rfl, ⟨[], rfl⟩, by rw [upd_tasks_same]; rfl, fun i hi => upd_tasks_ne _ _ hi, rfl,
    rfl⟩

/-- One call of `Out::async_write` on an open task with a descriptor, the write results
being benign: the segment advances by the `w` bytes that went onto the wire; the flag is
`true` exactly when it is complete then. -/
theorem out_async_write_core {t : TaskId} {fd : Int} {s : Sched} (o : Out)
    (hc : (s.tasks t).closed = false) (hf : (s.tasks t).fd = fd) (hfd : 0 ≤ fd)
    (hb : s.script.all WriteRes.benign = true) :
    ∃ b w s', Out.async_write o t s = .ok (b, { o with ofs := o.ofs + w }) s' ∧
      WriteFrame t s s' ∧ (b = true → w = o.len - o.ofs) ∧ (b = false → w < o.len - o.ofs) ∧
      s'.wire fd = s.wire fd ++ ((s.bufBytes o.ptr).drop o.ofs).take w ∧
      ((s.bufBytes o.ptr).drop o.ofs).take w ++ Out.rest s { o with ofs := o.ofs + w } =
        Out.rest s o := by
  unfold Out.async_write Task.do_async_write
  rw [hc]
  simp only [Bool.false_eq_true, if_false]
  obtain ⟨b, w, s', h1, -, h3, h4, h5, h6⟩ :=
    do_async_write_loop_spec t fd ((s.bufBytes o.ptr).drop o.ofs) (o.len - o.ofs) hfd
      (s.script.length + 1) 0 s (Nat.lt_succ_self _) hb hf (Nat.zero_le _)
  have h7 : b = false → w < o.len - o.ofs := by
    intro e
    rw [e] at h1
    exact do_async_write_loop_false t _ _ _ _ _ _ _ h1
  rw [h1]
  refine ⟨b, w, s', rfl, h6, h4, h7, by simpa using h5, ?_⟩
  unfold Out.rest
  simp only
  have e1 : (s.bufBytes o.ptr).drop (o.ofs + w) = ((s.bufBytes o.ptr).drop o.ofs).drop w := by
    rw [List.drop_drop]
  have e2 : w + (o.len - (o.ofs + w)) = o.len - o.ofs := by omega
  rw [e1, take_append_drop_take, e2]

theorem epoll_ctl_frame {s s' : Sched} {op : EpollOp} {fd : Int} {ev : Nat}
    (h : epoll_ctl s op fd ev = some s') :
    s'.tasks = s.tasks ∧ s'.wire = s.wire ∧ s'.mem = s.mem := by
  unfold epoll_ctl at h
  split at h
  · exact absurd h (by simp)
  · split at h <;> cases h <;> exact ⟨rfl, rfl, rfl⟩

/-- What `unschedule` leaves alone, however it ends. -/
theorem unschedule_frame {t : TaskId} {b : Nat} {s s' : Sched}
    (h : (Task.unschedule t b s).state? = some s') :
    s'.wire = s.wire ∧ s'.mem = s.mem ∧ (s'.tasks t).out = (s.tasks t).out ∧
      (s'.tasks t).half_close = (s.tasks t).half_close := by
  unfold Task.unschedule at h
  split at h
  · simp only [upd_tasks_same] at h
    generalize hs1 : s.upd t (fun T => { T with events := T.events &&& not32 b }) = s1 at h
    have k1 : s1.wire = s.wire ∧ s1.mem = s.mem ∧ (s1.tasks t).out = (s.tasks t).out ∧
        (s1.tasks t).half_close = (s.tasks t).half_close := by
      rw [← hs1]
      simp
    split at h
    · cases h
      exact k1
    · next s2 he =>
      obtain ⟨ht, hw, hm⟩ := epoll_ctl_frame he
      split at h
      · cases h
        simp only [upd_wire, upd_mem, upd_tasks_same]
        rw [ht, hw, hm]
        exact k1
      · cases h
        rw [ht, hw, hm]
        exact k1
  · cases h
    exact ⟨rfl, rfl, rfl, rfl⟩

theorem out_bit_cleared (x : Nat) : EPOLLOUT &&& (x &&& not32 EPOLLOUT) = 0 := by
  by_contra h
  have h1 := (out_bit _).1 h
  have h2 : (not32 EPOLLOUT).testBit 2 = false := by decide
  rw [Nat.testBit_and, h2, Bool.and_false] at h1
  cases h1


/-! ## `Task::sort_timeout`: lists with two neighbours exchanged -/

theorem nextIn_cons (y x : TaskId) (ys : List TaskId) :
    nextIn (y :: ys) x = if y = x then ys.head? else nextIn ys x := rfl

theorem prevIn_cons (y x : TaskId) (ys : List TaskId) :
    prevIn (y :: ys) x = if ys.head? = some x then some y else prevIn ys x := rfl

/-- Successors after two neighbours of a duplicate-free list have changed places. -/
theorem nextIn_swap (t n : TaskId) (B : List TaskId) : ∀ (A : List TaskId) (x : TaskId),
    (A ++ t :: n :: B).Nodup →
    nextIn (A ++ n :: t :: B) x =
      if x = n then some t else if x = t then B.head?
      else if A.getLast? = some x then some n else nextIn (A ++ t :: n :: B) x := by
  intro A
  induction A with
  | nil =>
    intro x h
    have htn : t ≠ n := by
      intro e; subst e
      simp at h
    by_cases h1 : x = n
    · subst h1; simp [nextIn]
    · by_cases h2 : x = t
      · subst h2; simp [nextIn, h1, Ne.symm h1]
      · simp [nextIn, h1, h2, Ne.symm h1, Ne.symm h2]
  | cons a A ih =>
    intro x h
    have h' : (A ++ t :: n :: B).Nodup := (List.nodup_cons.mp h).2
    have ha : a ∉ A ++ t :: n :: B := (List.nodup_cons.mp h).1
    have hat : a ≠ t := fun e => ha (by simp [e])
    have han : a ≠ n := fun e => ha (by simp [e])
    have haA : a ∉ A := fun e => ha (List.mem_append_left _ e)
    rw [List.cons_append, List.cons_append, nextIn_cons, nextIn_cons]
    by_cases hx : a = x
    · subst hx
      rw [if_pos rfl, if_pos rfl, if_neg han, if_neg hat]
      cases A with
      | nil => simp
      | cons b A' =>
        have : (a :: b :: A').getLast? ≠ some a := by
          rw [List.getLast?_cons_cons]
          intro e
          exact haA (List.mem_of_getLast?_eq_some e)
        rw [if_neg this]
        rfl
    · rw [if_neg hx, if_neg hx, ih x h']
      by_cases h1 : x = n
      · simp [h1]
      · by_cases h2 : x = t
        · simp [h1, h2]
        · simp only [if_neg h1, if_neg h2]
          cases A with
          | nil => simp [hx]
          | cons b A' => rw [List.getLast?_cons_cons]

/-- Predecessors after two neighbours of a duplicate-free list have changed places. -/
theorem prevIn_swap (t n : TaskId) (B : List TaskId) : ∀ (A : List TaskId) (x : TaskId),
    (A ++ t :: n :: B).Nodup →
    prevIn (A ++ n :: t :: B) x =
      if x = t then some n else if x = n then A.getLast?
      else if B.head? = some x then some t else prevIn (A ++ t :: n :: B) x := by
  intro A
  induction A with
  | nil =>
    intro x h
    have htn : t ≠ n := by
      intro e; subst e
      simp at h
    have hnB : n ∉ B := by
      simp only [List.nil_append, List.nodup_cons, List.mem_cons, not_or] at h
      exact h.2.1
    have htB : t ∉ B := by
      simp only [List.nil_append, List.nodup_cons, List.mem_cons, not_or] at h
      exact h.1.2
    have hBn : B.head? ≠ some n := fun e => hnB (List.mem_of_mem_head? e)
    have hBt : B.head? ≠ some t := fun e => htB (List.mem_of_mem_head? e)
    by_cases h1 : x = t
    · subst h1; simp [prevIn]
    · by_cases h2 : x = n
      · subst h2
        simp [prevIn, h1, Ne.symm h1, hBn, prevIn_not_mem hnB]
      · by_cases h3 : B.head? = some x
        · simp [prevIn, h1, h2, Ne.symm h1, Ne.symm h2, h3]
        · simp [prevIn, h1, h2, Ne.symm h1, Ne.symm h2, h3]
  | cons a A ih =>
    intro x h
    have h' : (A ++ t :: n :: B).Nodup := (List.nodup_cons.mp h).2
    have ha : a ∉ A ++ t :: n :: B := (List.nodup_cons.mp h).1
    have hat : a ≠ t := fun e => ha (by simp [e])
    have han : a ≠ n := fun e => ha (by simp [e])
    have haB : a ∉ B := fun e => ha (by simp [e])
    have hBa : B.head? ≠ some a := fun e => haB (List.mem_of_mem_head? e)
    have htn : t ≠ n := by
      intro e; subst e
      have := List.nodup_append.mp h'
      simp at this
    rw [List.cons_append, List.cons_append, prevIn_cons, prevIn_cons, ih x h']
    cases A with
    | nil =>
      simp only [List.nil_append, List.head?_cons, List.getLast?_nil, List.getLast?_singleton,
        Option.some.injEq]
      by_cases h1 : x = t
      · subst h1; simp [Ne.symm htn]
      · by_cases h2 : x = n
        · subst h2; simp [h1, htn]
        · simp [h1, h2, Ne.symm h1, Ne.symm h2]
    | cons b A' =>
      simp only [List.cons_append, List.head?_cons, Option.some.injEq, List.getLast?_cons_cons]
      have hbt : b ≠ t := by
        intro e; subst e
        have := List.nodup_append.mp h'
        simp at this
      have hbn : b ≠ n := by
        intro e; subst e
        have := List.nodup_append.mp h'
        simp at this
      have hbB : b ∉ B := by
        intro e
        have := List.nodup_append.mp h'
        exact this.2.2 (List.mem_cons_self _ _) (by simp [e])
      by_cases hx : b = x
      · subst hx
        have : B.head? ≠ some b := fun e => hbB (List.mem_of_mem_head? e)
        simp [hbt, hbn, this]
      · simp [hx]

theorem nextIn_mid (t : TaskId) (B : List TaskId) : ∀ A : List TaskId, (A ++ t :: B).Nodup →
    nextIn (A ++ t :: B) t = B.head? := by
  intro A
  induction A with
  | nil => intro _; simp [nextIn]
  | cons a A ih =>
    intro h
    have ha : a ∉ A ++ t :: B := (List.nodup_cons.mp h).1
    have hat : a ≠ t := fun e => ha (by simp [e])
    rw [List.cons_append, nextIn_cons, if_neg hat, ih (List.nodup_cons.mp h).2]

theorem prevIn_mid (t : TaskId) (B : List TaskId) : ∀ A : List TaskId, (A ++ t :: B).Nodup →
    prevIn (A ++ t :: B) t = A.getLast? := by
  intro A
  induction A with
  | nil => intro h; exact prevIn_head h
  | cons a A ih =>
    intro h
    rw [List.cons_append, prevIn_cons, ih (List.nodup_cons.mp h).2]
    cases A with
    | nil => simp
    | cons b A' =>
      have hb : b ≠ t := by
        intro e; subst e
        have := List.nodup_append.mp (List.nodup_cons.mp h).2
        exact this.2.2 (List.mem_cons_self _ _) (List.mem_cons_self _ _)
      simp [hb, List.getLast?_cons_cons]

/-- The timeout list after two neighbours `u`, `v` have changed places. -/
theorem TimeoutWF.swap_adjacent {s s' : Sched} {A B : List TaskId} {u v : TaskId}
    (h : TimeoutWF s (A ++ u :: v :: B))
    (hto : s'.timeouts = if s.timeouts = some u then some v else s.timeouts)
    (hnext : ∀ x, (s'.tasks x).timeout.next =
      if x = v then some u else if x = u then B.head?
      else if A.getLast? = some x then some v else (s.tasks x).timeout.next)
    (hprev : ∀ x, (s'.tasks x).timeout.prev =
      if x = u then some v else if x = v then A.getLast?
      else if B.head? = some x then some u else (s.tasks x).timeout.prev)
    (hnt : s'.ntasks = s.ntasks) : TimeoutWF s' (A ++ v :: u :: B) := by
  have hperm : (A ++ v :: u :: B).Perm (A ++ u :: v :: B) :=
    List.Perm.append_left A (List.Perm.swap u v B)
  refine ⟨hperm.nodup_iff.mpr h.nodup, ?_, ?_, ?_, ?_⟩
  · rw [hto, h.head]
    cases A with
    | nil => simp
    | cons a A' =>
      have ha : a ≠ u := by
        intro e
        have := (List.nodup_cons.mp h.nodup).1
        exact this (by simp [e])
      simp [ha]
  · intro x
    rw [hnext, nextIn_swap u v B A x h.nodup, h.next]
  · intro x
    rw [hprev, prevIn_swap u v B A x h.nodup, h.prev]
  · intro x hx
    rw [hnt]
    exact h.alloc x (hperm.mem_iff.mp hx)

/-- One turn of the first loop of `sort_timeout`. -/
theorem sort_forward_step (fuel : Nat) (t n : TaskId) (pp nn : Option TaskId) (s : Sched)
    (hp : (s.tasks t).timeout.prev = pp) (hn : (s.tasks t).timeout.next = some n)
    (hnn : (s.tasks n).timeout.next = nn)
    (hlt : (s.tasks n).timeout.due < (s.tasks t).timeout.due)
    (d1 : t ≠ n) (d2 : pp ≠ some t) (d3 : pp ≠ some n) :
    Task.sort_forward (fuel + 1) t s = Task.sort_forward fuel t (swapForward t n pp nn s) := by
  have d1' : n ≠ t := Ne.symm d1
  rw [Task.sort_forward]
  unfold swapForward
  simp only [hn, hlt, if_true]
  cases pp with
  | none =>
    cases nn with
    | none =>
      by_cases hh : s.timeouts = some t <;>
        simp [hh, eq_comm (a := some t), hp, hn, hnn, d1, d1', ite_tasks]
    | some b =>
      by_cases hh : s.timeouts = some t <;>
        simp [hh, eq_comm (a := some t), hp, hn, hnn, d1, d1', ite_tasks]
  | some p =>
    have e1 : t ≠ p := fun e => d2 (by rw [e])
    have e2 : n ≠ p := fun e => d3 (by rw [e])
    cases nn with
    | none =>
      by_cases hh : s.timeouts = some t <;>
        simp [hh, eq_comm (a := some t), hp, hn, hnn, d1, d1', e1, e2, Ne.symm e1, Ne.symm e2,
          ite_tasks]
    | some b =>
      by_cases hh : s.timeouts = some t <;>
        simp [hh, eq_comm (a := some t), hp, hn, hnn, d1, d1', e1, e2, Ne.symm e1, Ne.symm e2,
          ite_tasks]

/-- One turn of the second loop of `sort_timeout`. -/
theorem sort_backward_step (fuel : Nat) (t p : TaskId) (pp nn : Option TaskId) (s : Sched)
    (hp : (s.tasks t).timeout.prev = some p) (hn : (s.tasks t).timeout.next = nn)
    (hpp : (s.tasks p).timeout.prev = pp)
    (hgt : (s.tasks p).timeout.due > (s.tasks t).timeout.due)
    (d1 : t ≠ p) (d2 : nn ≠ some t) (d3 : nn ≠ some p) :
    Task.sort_backward (fuel + 1) t s = Task.sort_backward fuel t (swapBackward t p pp nn s) := by
  have d1' : p ≠ t := Ne.symm d1
  rw [Task.sort_backward]
  unfold swapBackward
  simp only [hp, hgt, if_true]
  cases nn with
  | none =>
    cases pp with
    | none =>
      by_cases hh : s.timeouts = some p <;>
        simp [hh, eq_comm (a := some p), hp, hn, hpp, d1, d1', ite_tasks]
    | some b =>
      by_cases hh : s.timeouts = some p <;>
        simp [hh, eq_comm (a := some p), hp, hn, hpp, d1, d1', ite_tasks]
  | some n =>
    have e1 : t ≠ n := fun e => d2 (by rw [e])
    have e2 : p ≠ n := fun e => d3 (by rw [e])
    cases pp with
    | none =>
      by_cases hh : s.timeouts = some p <;>
        simp [hh, eq_comm (a := some p), hp, hn, hpp, d1, d1', e1, e2, Ne.symm e1, Ne.symm e2,
          ite_tasks]
    | some b =>
      by_cases hh : s.timeouts = some p <;>
        simp [hh, eq_comm (a := some p), hp, hn, hpp, d1, d1', e1, e2, Ne.symm e1, Ne.symm e2,
          ite_tasks]

/-- The links after `t` and its successor `n` have changed places. -/
theorem swapForward_fields (t n : TaskId) (pp nn : Option TaskId) (s : Sched)
    (d1 : t ≠ n) (d2 : pp ≠ some t) (d3 : pp ≠ some n) (d4 : nn ≠ some t) (d5 : nn ≠ some n) :
    (swapForward t n pp nn s).timeouts = (if s.timeouts = some t then some n else s.timeouts) ∧
      (∀ x, ((swapForward t n pp nn s).tasks x).timeout.next =
        if x = n then some t else if x = t then nn else if pp = some x then some n
        else (s.tasks x).timeout.next) ∧
      (∀ x, ((swapForward t n pp nn s).tasks x).timeout.prev =
        if x = t then some n else if x = n then pp else if nn = some x then some t
        else (s.tasks x).timeout.prev) ∧
      (∀ x, ((swapForward t n pp nn s).tasks x).timeout.due = (s.tasks x).timeout.due) ∧
      (swapForward t n pp nn s).ntasks = s.ntasks := by
  have d1' : n ≠ t := Ne.symm d1
  have c2 : ∀ y, pp = some y → y ≠ t ∧ t ≠ y ∧ y ≠ n ∧ n ≠ y := fun y e =>
    ⟨fun k => d2 (by rw [e, k]), fun k => d2 (by rw [e, k]), fun k => d3 (by rw [e, k]),
      fun k => d3 (by rw [e, k])⟩
  have c4 : ∀ y, nn = some y → y ≠ t ∧ t ≠ y ∧ y ≠ n ∧ n ≠ y := fun y e =>
    ⟨fun k => d4 (by rw [e, k]), fun k => d4 (by rw [e, k]), fun k => d5 (by rw [e, k]),
      fun k => d5 (by rw [e, k])⟩
  unfold swapForward
  refine ⟨?_, ?_, ?_, ?_, ?_⟩
  · cases pp <;> cases nn <;> by_cases hh : s.timeouts = some t <;>
      simp [hh, eq_comm (a := some t)]
  · intro x
    rcases pp with _ | p <;> rcases nn with _ | b
    · by_cases hh : s.timeouts = some t <;> by_cases h1 : x = n <;> by_cases h2 : x = t <;>
        simp [hh, h1, h2, d1, d1', eq_comm (a := some t), ite_tasks]
    · obtain ⟨a1, a2, a3, a4⟩ := c4 b rfl
      by_cases hh : s.timeouts = some t <;> by_cases h1 : x = n <;> by_cases h2 : x = t <;>
        simp [hh, h1, h2, d1, d1', a1, a2, a3, a4, eq_comm (a := some t), ite_tasks]
    · obtain ⟨b1, b2, b3, b4⟩ := c2 p rfl
      by_cases hh : s.timeouts = some t <;> by_cases h1 : x = n <;> by_cases h2 : x = t <;>
        by_cases h3 : x = p <;>
        simp [hh, h1, h2, h3, d1, d1', b1, b2, b3, b4, eq_comm (a := some t),
          ite_tasks, eq_comm (a := p)]
    · obtain ⟨a1, a2, a3, a4⟩ := c4 b rfl
      obtain ⟨b1, b2, b3, b4⟩ := c2 p rfl
      by_cases hh : s.timeouts = some t <;> by_cases h1 : x = n <;> by_cases h2 : x = t <;>
        by_cases h3 : x = p <;>
        simp [hh, h1, h2, h3, d1, d1', a1, a2, a3, a4, b1, b2, b3, b4, eq_comm (a := some t),
          ite_tasks, eq_comm (a := p)]
  · intro x
    rcases pp with _ | p <;> rcases nn with _ | b
    · by_cases hh : s.timeouts = some t <;> by_cases h1 : x = n <;> by_cases h2 : x = t <;>
        simp [hh, h1, h2, d1, d1', eq_comm (a := some t), ite_tasks]
    · obtain ⟨a1, a2, a3, a4⟩ := c4 b rfl
      by_cases hh : s.timeouts = some t <;> by_cases h1 : x = n <;> by_cases h2 : x = t <;>
        by_cases h3 : x = b <;>
        simp [hh, h1, h2, h3, d1, d1', a1, a2, a3, a4, eq_comm (a := some t), ite_tasks,
          eq_comm (a := b)]
    · obtain ⟨b1, b2, b3, b4⟩ := c2 p rfl
      by_cases hh : s.timeouts = some t <;> by_cases h1 : x = n <;> by_cases h2 : x = t <;>
        simp [hh, h1, h2, d1, d1', b1, b2, b3, b4, eq_comm (a := some t), ite_tasks]
    · obtain ⟨a1, a2, a3, a4⟩ := c4 b rfl
      obtain ⟨b1, b2, b3, b4⟩ := c2 p rfl
      by_cases hh : s.timeouts = some t <;> by_cases h1 : x = n <;> by_cases h2 : x = t <;>
        by_cases h3 : x = b <;>
        simp [hh, h1, h2, h3, d1, d1', a1, a2, a3, a4, b1, b2, b3, b4, eq_comm (a := some t),
          ite_tasks, eq_comm (a := b)]
  · intro x
    cases pp <;> cases nn <;> by_cases hh : s.timeouts = some t <;>
      simp [hh, eq_comm (a := some t), ite_tasks]
  · cases pp <;> cases nn <;> by_cases hh : s.timeouts = some t <;>
      simp [hh, eq_comm (a := some t)]

/-- The links after `t` and its predecessor `p` have changed places. -/
theorem swapBackward_fields (t p : TaskId) (pp nn : Option TaskId) (s : Sched)
    (d1 : t ≠ p) (d2 : pp ≠ some t) (d3 : pp ≠ some p) (d4 : nn ≠ some t) (d5 : nn ≠ some p) :
    (swapBackward t p pp nn s).timeouts =
        (if s.timeouts = some p then some t else s.timeouts) ∧
      (∀ x, ((swapBackward t p pp nn s).tasks x).timeout.next =
        if x = t then some p else if x = p then nn else if pp = some x then some t
        else (s.tasks x).timeout.next) ∧
      (∀ x, ((swapBackward t p pp nn s).tasks x).timeout.prev =
        if x = p then some t else if x = t then pp else if nn = some x then some p
        else (s.tasks x).timeout.prev) ∧
      (∀ x, ((swapBackward t p pp nn s).tasks x).timeout.due = (s.tasks x).timeout.due) ∧
      (swapBackward t p pp nn s).ntasks = s.ntasks := by
  have d1' : p ≠ t := Ne.symm d1
  have c2 : ∀ y, pp = some y → y ≠ t ∧ t ≠ y ∧ y ≠ p ∧ p ≠ y := fun y e =>
    ⟨fun k => d2 (by rw [e, k]), fun k => d2 (by rw [e, k]), fun k => d3 (by rw [e, k]),
      fun k => d3 (by rw [e, k])⟩
  have c4 : ∀ y, nn = some y → y ≠ t ∧ t ≠ y ∧ y ≠ p ∧ p ≠ y := fun y e =>
    ⟨fun k => d4 (by rw [e, k]), fun k => d4 (by rw [e, k]), fun k => d5 (by rw [e, k]),
      fun k => d5 (by rw [e, k])⟩
  unfold swapBackward
  refine ⟨?_, ?_, ?_, ?_, ?_⟩
  · cases pp <;> cases nn <;> by_cases hh : s.timeouts = some p <;>
      simp [hh, eq_comm (a := some p)]
  · intro x
    rcases pp with _ | q <;> rcases nn with _ | b
    · by_cases hh : s.timeouts = some p <;> by_cases h1 : x = t <;> by_cases h2 : x = p <;>
        simp [hh, h1, h2, d1, d1', eq_comm (a := some p), ite_tasks]
    · obtain ⟨a1, a2, a3, a4⟩ := c4 b rfl
      by_cases hh : s.timeouts = some p <;> by_cases h1 : x = t <;> by_cases h2 : x = p <;>
        simp [hh, h1, h2, d1, d1', a1, a2, a3, a4, eq_comm (a := some p), ite_tasks]
    · obtain ⟨b1, b2, b3, b4⟩ := c2 q rfl
      by_cases hh : s.timeouts = some p <;> by_cases h1 : x = t <;> by_cases h2 : x = p <;>
        by_cases h3 : x = q <;>
        simp [hh, h1, h2, h3, d1, d1', b1, b2, b3, b4, eq_comm (a := some p),
          ite_tasks, eq_comm (a := q)]
    · obtain ⟨a1, a2, a3, a4⟩ := c4 b rfl
      obtain ⟨b1, b2, b3, b4⟩ := c2 q rfl
      by_cases hh : s.timeouts = some p <;> by_cases h1 : x = t <;> by_cases h2 : x = p <;>
        by_cases h3 : x = q <;>
        simp [hh, h1, h2, h3, d1, d1', a1, a2, a3, a4, b1, b2, b3, b4, eq_comm (a := some p),
          ite_tasks, eq_comm (a := q)]
  · intro x
    rcases pp with _ | q <;> rcases nn with _ | b
    · by_cases hh : s.timeouts = some p <;> by_cases h1 : x = t <;> by_cases h2 : x = p <;>
        simp [hh, h1, h2, d1, d1', eq_comm (a := some p), ite_tasks]
    · obtain ⟨a1, a2, a3, a4⟩ := c4 b rfl
      by_cases hh : s.timeouts = some p <;> by_cases h1 : x = t <;> by_cases h2 : x = p <;>
        by_cases h3 : x = b <;>
        simp [hh, h1, h2, h3, d1, d1', a1, a2, a3, a4, eq_comm (a := some p), ite_tasks,
          eq_comm (a := b)]
    · obtain ⟨b1, b2, b3, b4⟩ := c2 q rfl
      by_cases hh : s.timeouts = some p <;> by_cases h1 : x = t <;> by_cases h2 : x = p <;>
        simp [hh, h1, h2, d1, d1', b1, b2, b3, b4, eq_comm (a := some p), ite_tasks]
    · obtain ⟨a1, a2, a3, a4⟩ := c4 b rfl
      obtain ⟨b1, b2, b3, b4⟩ := c2 q rfl
      by_cases hh : s.timeouts = some p <;> by_cases h1 : x = t <;> by_cases h2 : x = p <;>
        by_cases h3 : x = b <;>
        simp [hh, h1, h2, h3, d1, d1', a1, a2, a3, a4, b1, b2, b3, b4, eq_comm (a := some p),
          ite_tasks, eq_comm (a := b)]
  · intro x
    cases pp <;> cases nn <;> by_cases hh : s.timeouts = some p <;>
      simp [hh, eq_comm (a := some p), ite_tasks]
  · cases pp <;> cases nn <;> by_cases hh : s.timeouts = some p <;>
      simp [hh, eq_comm (a := some p)]


/-! ## `Task::sort_timeout`: the two loops -/

/-- A turn of the first loop of `sort_timeout` on a well-formed list: `t` and its successor
`n` change places. -/
theorem sort_forward_turn (fuel : Nat) {s : Sched} {A B : List TaskId} {t n : TaskId}
    (h : TimeoutWF s (A ++ t :: n :: B))
    (hlt : (s.tasks n).timeout.due < (s.tasks t).timeout.due) :
    ∃ s7, Task.sort_forward (fuel + 1) t s = Task.sort_forward fuel t s7 ∧
      TimeoutWF s7 (A ++ n :: t :: B) ∧
      (∀ x, (s7.tasks x).timeout.due = (s.tasks x).timeout.due) ∧ s7.ntasks = s.ntasks := by
  have hnd := h.nodup
  have hA : (A ++ t :: n :: B) = (A ++ [t]) ++ n :: B := by simp
  have hp : (s.tasks t).timeout.prev = A.getLast? := by
    rw [h.prev, prevIn_mid t (n :: B) A hnd]
  have hn : (s.tasks t).timeout.next = some n := by
    rw [h.next, nextIn_mid t (n :: B) A hnd]; rfl
  have hnn : (s.tasks n).timeout.next = B.head? := by
    rw [h.next, hA, nextIn_mid n B (A ++ [t]) (by rw [← hA]; exact hnd)]
  have hd := List.nodup_append.mp hnd
  have htA : t ∉ A := fun e => hd.2.2 e (List.mem_cons_self _ _)
  have hnA : n ∉ A := fun e => hd.2.2 e (List.mem_cons_of_mem _ (List.mem_cons_self _ _))
  have h2 := List.nodup_cons.mp hd.2.1
  have htn : t ≠ n := fun e => h2.1 (by rw [e]; exact List.mem_cons_self _ _)
  have htB : t ∉ B := fun e => h2.1 (List.mem_cons_of_mem _ e)
  have hnB : n ∉ B := (List.nodup_cons.mp h2.2).1
  have d2 : A.getLast? ≠ some t := fun e => htA (List.mem_of_getLast?_eq_some e)
  have d3 : A.getLast? ≠ some n := fun e => hnA (List.mem_of_getLast?_eq_some e)
  have d4 : B.head? ≠ some t := fun e => htB (List.mem_of_mem_head? e)
  have d5 : B.head? ≠ some n := fun e => hnB (List.mem_of_mem_head? e)
  obtain ⟨f1, f2, f3, f4, f5⟩ := swapForward_fields t n A.getLast? B.head? s htn d2 d3 d4 d5
  exact ⟨_, sort_forward_step fuel t n _ _ s hp hn hnn hlt htn d2 d3,
    h.swap_adjacent f1 f2 f3 f5, f4, f5⟩

/-- A turn of the second loop of `sort_timeout` on a well-formed list: `t` and its
predecessor `p` change places. -/
theorem sort_backward_turn (fuel : Nat) {s : Sched} {A B : List TaskId} {t p : TaskId}
    (h : TimeoutWF s (A ++ p :: t :: B))
    (hgt : (s.tasks p).timeout.due > (s.tasks t).timeout.due) :
    ∃ s7, Task.sort_backward (fuel + 1) t s = Task.sort_backward fuel t s7 ∧
      TimeoutWF s7 (A ++ t :: p :: B) ∧
      (∀ x, (s7.tasks x).timeout.due = (s.tasks x).timeout.due) ∧ s7.ntasks = s.ntasks := by
  have hnd := h.nodup
  have hA : (A ++ p :: t :: B) = (A ++ [p]) ++ t :: B := by simp
  have hp : (s.tasks t).timeout.prev = some p := by
    rw [h.prev, hA, prevIn_mid t B (A ++ [p]) (by rw [← hA]; exact hnd)]
    simp
  have hn : (s.tasks t).timeout.next = B.head? := by
    rw [h.next, hA, nextIn_mid t B (A ++ [p]) (by rw [← hA]; exact hnd)]
  have hpp : (s.tasks p).timeout.prev = A.getLast? := by
    rw [h.prev, prevIn_mid p (t :: B) A hnd]
  have hd := List.nodup_append.mp hnd
  have hpA : p ∉ A := fun e => hd.2.2 e (List.mem_cons_self _ _)
  have htA : t ∉ A := fun e => hd.2.2 e (List.mem_cons_of_mem _ (List.mem_cons_self _ _))
  have h2 := List.nodup_cons.mp hd.2.1
  have hpt : p ≠ t := fun e => h2.1 (by rw [e]; exact List.mem_cons_self _ _)
  have hpB : p ∉ B := fun e => h2.1 (List.mem_cons_of_mem _ e)
  have htB : t ∉ B := (List.nodup_cons.mp h2.2).1
  have d2 : A.getLast? ≠ some t := fun e => htA (List.mem_of_getLast?_eq_some e)
  have d3 : A.getLast? ≠ some p := fun e => hpA (List.mem_of_getLast?_eq_some e)
  have d4 : B.head? ≠ some t := fun e => htB (List.mem_of_mem_head? e)
  have d5 : B.head? ≠ some p := fun e => hpB (List.mem_of_mem_head? e)
  obtain ⟨f1, f2, f3, f4, f5⟩ :=
    swapBackward_fields t p A.getLast? B.head? s (Ne.symm hpt) d2 d3 d4 d5
  exact ⟨_, sort_backward_step fuel t p _ _ s hp hn hpp hgt (Ne.symm hpt) d4 d5,
    h.swap_adjacent f1 f2 f3 f5, f4, f5⟩

/-- The first loop of `sort_timeout` on a well-formed list `A ++ t :: B`: it ends; `t` has
moved behind the tasks `M` at the front of `B`, whose `timeout.due` are all earlier, and
stands in front of a task that is not earlier, or at the end. -/
theorem sort_forward_spec (t : TaskId) : ∀ (B A : List TaskId) (fuel : Nat) (s : Sched),
    TimeoutWF s (A ++ t :: B) → B.length < fuel →
    ∃ s' M B', Task.sort_forward fuel t s = some s' ∧ B = M ++ B' ∧
      TimeoutWF s' (A ++ M ++ t :: B') ∧
      (∀ b, B'.head? = some b → (s.tasks t).timeout.due ≤ (s.tasks b).timeout.due) ∧
      (∀ x, (s'.tasks x).timeout.due = (s.tasks x).timeout.due) ∧ s'.ntasks = s.ntasks := by
  intro B
  induction B with
  | nil =>
    intro A fuel s h hf
    obtain ⟨f, rfl⟩ : ∃ f, fuel = f + 1 := ⟨fuel - 1, by omega⟩
    have hn : (s.tasks t).timeout.next = none := by
      rw [h.next, nextIn_mid t [] A h.nodup]; rfl
    refine ⟨s, [], [], ?_, rfl, by simpa using h, (fun b hb => by cases hb), fun _ => rfl, rfl⟩
    rw [Task.sort_forward, hn]
  | cons n B ih =>
    intro A fuel s h hf
    obtain ⟨f, rfl⟩ : ∃ f, fuel = f + 1 := ⟨fuel - 1, by omega⟩
    by_cases hlt : (s.tasks n).timeout.due < (s.tasks t).timeout.due
    · obtain ⟨s7, e, w, hd, hn⟩ := sort_forward_turn f h hlt
      have w' : TimeoutWF s7 ((A ++ [n]) ++ t :: B) := by simpa using w
      obtain ⟨s', M, B', e1, e2, e3, e4, e5, e6⟩ := ih (A ++ [n]) f s7 w'
        (by simp only [List.length_cons] at hf; omega)
      refine ⟨s', n :: M, B', e.trans e1, by rw [e2]; rfl, by simpa using e3, ?_,
        fun x => (e5 x).trans (hd x), e6.trans hn⟩
      intro b hb
      have := e4 b hb
      rw [hd, hd] at this
      exact this
    · have hn : (s.tasks t).timeout.next = some n := by
        rw [h.next, nextIn_mid t (n :: B) A h.nodup]; rfl
      refine ⟨s, [], n :: B, ?_, rfl, by simpa using h, ?_, fun _ => rfl, rfl⟩
      · rw [Task.sort_forward, hn]
        simp only [if_neg hlt]
      · intro b hb
        simp only [List.head?_cons, Option.some.injEq] at hb
        rw [← hb]
        exact not_lt.mp hlt

/-- The second loop of `sort_timeout` on a well-formed list `R.reverse ++ t :: B`: it ends;
`t` has moved in front of the tasks `M` at the end of `R.reverse`, whose `timeout.due` are
all later, and stands behind a task that is not later, or at the head. -/
theorem sort_backward_spec (t : TaskId) : ∀ (R B : List TaskId) (fuel : Nat) (s : Sched),
    TimeoutWF s (R.reverse ++ t :: B) → R.length < fuel →
    ∃ s' M R', Task.sort_backward fuel t s = some s' ∧ R = M ++ R' ∧
      TimeoutWF s' (R'.reverse ++ t :: (M.reverse ++ B)) ∧
      (∀ m ∈ M, (s.tasks t).timeout.due < (s.tasks m).timeout.due) ∧
      (∀ a, R'.head? = some a → (s.tasks a).timeout.due ≤ (s.tasks t).timeout.due) ∧
      (∀ x, (s'.tasks x).timeout.due = (s.tasks x).timeout.due) ∧ s'.ntasks = s.ntasks := by
  intro R
  induction R with
  | nil =>
    intro B fuel s h hf
    obtain ⟨f, rfl⟩ : ∃ f, fuel = f + 1 := ⟨fuel - 1, by omega⟩
    have hp : (s.tasks t).timeout.prev = none := by
      rw [h.prev, prevIn_mid t B [].reverse h.nodup]; rfl
    refine ⟨s, [], [], ?_, rfl, by simpa using h, (fun m hm => by cases hm),
      (fun a ha => by cases ha), fun _ => rfl, rfl⟩
    rw [Task.sort_backward, hp]
  | cons p R ih =>
    intro B fuel s h hf
    obtain ⟨f, rfl⟩ : ∃ f, fuel = f + 1 := ⟨fuel - 1, by omega⟩
    have hL : (p :: R).reverse ++ t :: B = R.reverse ++ p :: t :: B := by simp
    rw [hL] at h
    by_cases hgt : (s.tasks p).timeout.due > (s.tasks t).timeout.due
    · obtain ⟨s7, e, w, hd, hn⟩ := sort_backward_turn f h hgt
      obtain ⟨s', M, R', e1, e2, e3, e4, e5, e6, e7⟩ := ih (p :: B) f s7 w
        (by simp only [List.length_cons] at hf; omega)
      refine ⟨s', p :: M, R', e.trans e1, by rw [e2]; rfl, by simpa using e3, ?_, ?_,
        fun x => (e6 x).trans (hd x), e7.trans hn⟩
      · intro m hm
        rcases List.mem_cons.mp hm with rfl | hm
        · exact hgt
        · have := e4 m hm
          rw [hd, hd] at this
          exact this
      · intro a ha
        have := e5 a ha
        rw [hd, hd] at this
        exact this
    · have hA : R.reverse ++ p :: t :: B = (R.reverse ++ [p]) ++ t :: B := by simp
      have hp : (s.tasks t).timeout.prev = some p := by
        rw [h.prev, hA, prevIn_mid t B (R.reverse ++ [p]) (by rw [← hA]; exact h.nodup)]
        simp
      refine ⟨s, [], p :: R, ?_, rfl, by simpa using h, (fun m hm => by cases hm), ?_,
        fun _ => rfl, rfl⟩
      · rw [Task.sort_backward, hp]
        simp only [if_neg hgt]
      · intro a ha
        simp only [List.head?_cons, Option.some.injEq] at ha
        rw [← ha]
        exact not_lt.mp hgt

/-- In a list sorted by `timeout.due`, no task is later than the last one. -/
theorem sorted_le_last (s : Sched) : ∀ (X : List TaskId) (a : TaskId),
    X.Pairwise (fun a b => (s.tasks a).timeout.due ≤ (s.tasks b).timeout.due) →
    X.getLast? = some a → ∀ x ∈ X, (s.tasks x).timeout.due ≤ (s.tasks a).timeout.due := by
  intro X a hX ha x hx
  obtain ⟨Y, rfl⟩ : ∃ Y, X = Y ++ [a] := by
    rcases List.eq_nil_or_concat X with rfl | ⟨Y, b, rfl⟩
    · cases hx
    · have hb : (Y.concat b).getLast? = some b := by simp
      rw [hb] at ha
      exact ⟨Y, by rw [← Option.some.inj ha]; simp⟩
  rcases List.mem_append.mp hx with h | h
  · exact (List.pairwise_append.mp hX).2.2 x h a (List.mem_singleton.mpr rfl)
  · rw [List.mem_singleton.mp h]

/-- In a list sorted by `timeout.due`, no task is earlier than the first one. -/
theorem sorted_head_le (s : Sched) (X : List TaskId) (a : TaskId)
    (hX : X.Pairwise (fun a b => (s.tasks a).timeout.due ≤ (s.tasks b).timeout.due))
    (ha : X.head? = some a) : ∀ x ∈ X, (s.tasks a).timeout.due ≤ (s.tasks x).timeout.due := by
  intro x hx
  cases X with
  | nil => cases hx
  | cons b Y =>
    simp only [List.head?_cons, Option.some.injEq] at ha
    subst ha
    rcases List.mem_cons.mp hx with rfl | h
    · exact le_refl _
    · exact (List.pairwise_cons.mp hX).1 x h

/-- A task put between the two halves of a sorted list, not earlier than the last task of
the first half and not later than any task of the second, leaves the list sorted. -/
theorem sorted_insert (s : Sched) (X Y : List TaskId) (t : TaskId)
    (h : (X ++ Y).Pairwise (fun a b => (s.tasks a).timeout.due ≤ (s.tasks b).timeout.due))
    (hX : ∀ a, X.getLast? = some a → (s.tasks a).timeout.due ≤ (s.tasks t).timeout.due)
    (hY : ∀ y ∈ Y, (s.tasks t).timeout.due ≤ (s.tasks y).timeout.due) :
    (X ++ t :: Y).Pairwise (fun a b => (s.tasks a).timeout.due ≤ (s.tasks b).timeout.due) := by
  obtain ⟨h1, h2, h3⟩ := List.pairwise_append.mp h
  have hXt : ∀ x ∈ X, (s.tasks x).timeout.due ≤ (s.tasks t).timeout.due := by
    intro x hx
    rcases hl : X.getLast? with _ | a
    · rw [List.getLast?_eq_none_iff] at hl
      rw [hl] at hx
      cases hx
    · exact le_trans (sorted_le_last s X a h1 hl x hx) (hX a hl)
  refine List.pairwise_append.mpr ⟨h1, List.pairwise_cons.mpr ⟨hY, h2⟩, ?_⟩
  intro x hx y hy
  rcases List.mem_cons.mp hy with rfl | hy
  · exact hXt x hx
  · exact h3 x hx y hy

/-- In a list without repetition, a task is the predecessor of its successor. -/
theorem prevIn_of_nextIn {L : List TaskId} (hL : L.Nodup) {a b : TaskId}
    (h : nextIn L a = some b) : prevIn L b = some a := by
  by_cases ha : a ∈ L
  · obtain ⟨A, B, rfl⟩ := List.append_of_mem ha
    rw [nextIn_mid a B A hL] at h
    cases B with
    | nil => cases h
    | cons c B =>
      simp only [List.head?_cons, Option.some.injEq] at h
      subst h
      have hA : A ++ a :: c :: B = (A ++ [a]) ++ c :: B := by simp
      rw [hA, prevIn_mid c B (A ++ [a]) (by rw [← hA]; exact hL)]
      simp
  · rw [nextIn_not_mem ha] at h
    cases h

/-- In a list without repetition, a task is the successor of its predecessor. -/
theorem nextIn_of_prevIn {L : List TaskId} (hL : L.Nodup) {a b : TaskId}
    (h : prevIn L b = some a) : nextIn L a = some b := by
  by_cases hb : b ∈ L
  · obtain ⟨A, B, rfl⟩ := List.append_of_mem hb
    rw [prevIn_mid b B A hL] at h
    rcases List.eq_nil_or_concat A with rfl | ⟨Y, c, rfl⟩
    · cases h
    · have hc : (Y.concat c).getLast? = some c := by simp
      rw [hc] at h
      have hca := Option.some.inj h
      subst hca
      have hA : Y.concat c ++ b :: B = Y ++ c :: b :: B := by simp
      rw [hA] at hL ⊢
      rw [nextIn_mid c (b :: B) Y hL]
      rfl
  · rw [prevIn_not_mem hb] at h
    cases h

/-- The two loops of `sort_timeout` on a well-formed list whose other tasks are sorted:
both end within `ntasks + 1` tests, and the list that is left is well formed, holds the
same tasks and is sorted. -/
theorem sort_loops_spec (s : Sched) (L : List TaskId) (t : TaskId) (hL : TimeoutWF s L)
    (hS : (L.erase t).Pairwise
      (fun a b => (s.tasks a).timeout.due ≤ (s.tasks b).timeout.due)) :
    ∃ s' L', (Task.sort_forward (s.ntasks + 1) t s).bind (Task.sort_backward (s.ntasks + 1) t)
        = some s' ∧
      TimeoutWF s' L' ∧ L'.Perm L ∧
      L'.Pairwise (fun a b => (s.tasks a).timeout.due ≤ (s.tasks b).timeout.due) ∧
      (∀ x, (s'.tasks x).timeout.due = (s.tasks x).timeout.due) := by
  by_cases ht : t ∈ L
  · obtain ⟨A, B, rfl⟩ := List.append_of_mem ht
    have hnd := hL.nodup
    have htA : t ∉ A := fun e => (List.nodup_append.mp hnd).2.2 e (List.mem_cons_self _ _)
    have hlen := nodup_length_le hL.nodup hL.alloc
    simp only [List.length_append, List.length_cons] at hlen
    have he : (A ++ t :: B).erase t = A ++ B := by
      rw [List.erase_append_right _ htA, List.erase_cons_head]
    rw [he] at hS
    obtain ⟨s1, M, B', e1, rfl, w1, b1, d1, n1⟩ :=
      sort_forward_spec t B A (s.ntasks + 1) s hL (by omega)
    have w1' : TimeoutWF s1 ((A ++ M).reverse.reverse ++ t :: B') := by
      rw [List.reverse_reverse]; exact w1
    obtain ⟨s2, M2, R', e2, hR, w2, m2, a2, d2, _⟩ :=
      sort_backward_spec t (A ++ M).reverse B' (s.ntasks + 1) s1 w1' (by
        simp only [List.length_reverse, List.length_append] at hlen ⊢; omega)
    have hAM : A ++ M = R'.reverse ++ M2.reverse := by
      have := congrArg List.reverse hR
      rw [List.reverse_reverse, List.reverse_append] at this
      exact this
    have hS2 : (R'.reverse ++ (M2.reverse ++ B')).Pairwise
        (fun a b => (s.tasks a).timeout.due ≤ (s.tasks b).timeout.due) := by
      rw [← List.append_assoc, ← hAM, List.append_assoc]; exact hS
    refine ⟨s2, R'.reverse ++ t :: (M2.reverse ++ B'), ?_, w2, ?_, ?_,
      fun x => (d2 x).trans (d1 x)⟩
    · rw [e1]
      exact e2
    · have p1 : (R'.reverse ++ t :: (M2.reverse ++ B')).Perm
          (t :: (R'.reverse ++ (M2.reverse ++ B'))) := List.perm_middle
      have p2 : (A ++ t :: (M ++ B')).Perm (t :: (A ++ (M ++ B'))) := List.perm_middle
      refine p1.trans (List.Perm.trans ?_ p2.symm)
      rw [← List.append_assoc, ← hAM, List.append_assoc]
    · refine sorted_insert s _ _ t hS2 ?_ ?_
      · intro a ha
        rw [List.getLast?_reverse] at ha
        have := a2 a ha
        rw [d1, d1] at this
        exact this
      · intro y hy
        rcases List.mem_append.mp hy with h | h
        · have := m2 y (List.mem_reverse.mp h)
          rw [d1, d1] at this
          exact le_of_lt this
        · rcases hb : B'.head? with _ | b
          · rw [List.head?_eq_none_iff] at hb
            rw [hb] at h
            cases h
          · have hB' : B'.Pairwise
                (fun a b => (s.tasks a).timeout.due ≤ (s.tasks b).timeout.due) :=
              (List.pairwise_append.mp (List.pairwise_append.mp hS2).2.1).2.1
            exact le_trans (b1 b hb) (sorted_head_le s B' b hB' hb y h)
  · have hn : (s.tasks t).timeout.next = none := by rw [hL.next, nextIn_not_mem ht]
    have hp : (s.tasks t).timeout.prev = none := by rw [hL.prev, prevIn_not_mem ht]
    rw [List.erase_of_not_mem ht] at hS
    refine ⟨s, L, ?_, hL, List.Perm.refl _, hS, fun _ => rfl⟩
    rw [Task.sort_forward, hn]
    show Task.sort_backward (s.ntasks + 1) t s = some s
    rw [Task.sort_backward, hp]

theorem displacedTimeouts_timeoutWF : TimeoutWF displacedTimeouts [1, 2, 0] :=
  sortedTimeouts_timeoutWF.congr (fun x => setDue_next _ _ x _) (fun x => setDue_prev _ _ x _)
    (setDue_timeouts _ _ _) (setDue_ntasks _ _ _)


/-! ## C27 -/

/-- C27: for a well-formed doubly-linked timeout list `L` (`TimeoutWF`) that is sorted
ascending by `timeout.due` once `t` is left out, `Task::sort_timeout` on `t` returns, and
leaves a well-formed doubly-linked list `L2` (`timeout.prev` and `timeout.next` are those
of the list, and `timeout.prev` of its head is null) with the same tasks as `L`, sorted
ascending by `timeout.due`, with no `timeout.due` changed, and `Scheduler::timeouts` is
its first node. -/
theorem C27_sort_timeout_sorts (s : Sched) (L : List TaskId) (t : TaskId)
    (hL : TimeoutWF s L)
    (hS : (L.erase t).Pairwise
      (fun a b => (s.tasks a).timeout.due ≤ (s.tasks b).timeout.due)) :
    ∃ s2 L2, Task.sort_timeout t s = .ok () s2 ∧
      TimeoutWF s2 L2 ∧ L2.Perm L ∧
      L2.Pairwise (fun a b => (s2.tasks a).timeout.due ≤ (s2.tasks b).timeout.due) ∧
      (∀ x, (s2.tasks x).timeout.due = (s.tasks x).timeout.due) ∧
      s2.timeouts = L2.head? ∧ s2.timeoutList = L2 ∧
      (∀ a, s2.timeouts = some a → (s2.tasks a).timeout.prev = none) ∧
      (∀ a b, (s2.tasks a).timeout.next = some b → (s2.tasks b).timeout.prev = some a) ∧
      (∀ a b, (s2.tasks b).timeout.prev = some a → (s2.tasks a).timeout.next = some b) := by
  obtain ⟨s2, L2, e, w, p, hs, hd⟩ := sort_loops_spec s L t hL hS
  refine ⟨s2, L2, ?_, w, p, ?_, hd, w.head, w.timeoutList, ?_, ?_, ?_⟩
  · unfold Task.sort_timeout
    rw [e]
  · refine hs.imp ?_
    intro a b hab
    rw [hd, hd]
    exact hab
  · intro a ha
    rw [w.head] at ha
    cases L2 with
    | nil => cases ha
    | cons b K =>
      simp only [List.head?_cons, Option.some.injEq] at ha
      subst ha
      rw [w.prev, prevIn_head w.nodup]
  · intro a b hab
    rw [w.next] at hab
    rw [w.prev]
    exact prevIn_of_nextIn w.nodup hab
  · intro a b hab
    rw [w.prev] at hab
    rw [w.next]
    exact nextIn_of_prevIn w.nodup hab

theorem C27_sort_timeout_sorts_witness :
    TimeoutWF displacedTimeouts [1, 2, 0] ∧
    ([1, 2, 0].erase 1).Pairwise (fun a b =>
      (displacedTimeouts.tasks a).timeout.due ≤ (displacedTimeouts.tasks b).timeout.due) ∧
    ∃ s2 L2, Task.sort_timeout 1 displacedTimeouts = .ok () s2 ∧
      TimeoutWF s2 L2 ∧ L2.Perm [1, 2, 0] ∧
      L2.Pairwise (fun a b => (s2.tasks a).timeout.due ≤ (s2.tasks b).timeout.due) ∧
      (∀ x, (s2.tasks x).timeout.due = (displacedTimeouts.tasks x).timeout.due) ∧
      s2.timeouts = L2.head? ∧ s2.timeoutList = L2 ∧
      (∀ a, s2.timeouts = some a → (s2.tasks a).timeout.prev = none) ∧
      (∀ a b, (s2.tasks a).timeout.next = some b → (s2.tasks b).timeout.prev = some a) ∧
      (∀ a b, (s2.tasks b).timeout.prev = some a → (s2.tasks a).timeout.next = some b) :=
  ⟨displacedTimeouts_timeoutWF, by decide,
    C27_sort_timeout_sorts displacedTimeouts [1, 2, 0] 1 displacedTimeouts_timeoutWF
      (by decide)⟩

/-- The run of the witness of C27 in figures: task 1, due 1090000 at the head of
`[1, 2, 0]`, is moved behind task 2 (due 1075000) and stays in front of task 0 (due
1100000); in the sorted list of `sortedTimeouts` nothing moves. -/
theorem sort_timeout_displaced :
    (Task.sort_timeout 1 displacedTimeouts).timeoutList = some [2, 1, 0] ∧
    (Task.sort_timeout 1 sortedTimeouts).timeoutList = some [1, 2, 0] ∧
    (Task.sort_timeout 0 (sortedTimeouts.setDue 0 1000000)).timeoutList = some [0, 1, 2] := by
  decide

/-! ## C20: half-close and the read side -/

/-- C20 (the code diverges): an HTTP connection on descriptor 5 reads (`EPOLLIN|EPOLLET`
set) and has two bytes queued; `HttpServerConnection::gracefulClose("finished")` sets
`half_close`, but the readable bit stays in the interest mask and the read direction of the
descriptor is not shut down. -/
theorem C20_gracefulClose_keeps_reading :
    halfCloseView (some httpConn) 0 5 = some (none, EPOLLIN, false) ∧
      halfCloseView (HttpServerConnection.gracefulClose 0 "finished" httpConn).state? 0 5 =
        some (some "finished", EPOLLIN, false) := by
  decide

/-- The sibling path: on the same connection a `HalfClose` thrown by `read()` makes
`Task::run` clear the readable bit and shut the read direction down before it sets
`half_close`. -/
theorem run_halfClose_stops_reading :
    halfCloseView (Task.run (halfClosingHooks "bye") 0 EPOLLIN httpConn).state? 0 5 =
      some (some "bye", 0, true) := by
  decide


/-! ## The write path against the FIFO of the specification -/

theorem fifoAccepted_zero (r : List WriteRes) : fifoAccepted r 0 = (0, r) := by
  cases r with
  | nil => rfl
  | cons x rest => simp [fifoAccepted]

theorem fifoAccepted_le : ∀ (r : List WriteRes) (n : Nat), (fifoAccepted r n).1 ≤ n := by
  intro r
  induction r with
  | nil => intro n; simp [fifoAccepted]
  | cons x rest ih =>
    intro n
    unfold fifoAccepted
    by_cases h0 : n = 0
    · simp [h0]
    · rw [if_neg h0]
      cases x with
      | accept k =>
        simp only
        split
        · exact le_refl _
        · have := ih (n - k)
          simp only
          omega
      | eintr => exact ih n
      | wouldblock => simp
      | error => simp

/-- What the loop of `async_write(ptr,len,written)` returns is what the specification's
attempt gives: the bytes written, the write results left, and the flag `true` exactly when
all `len` bytes are written. -/
theorem do_async_write_loop_accepted (t : TaskId) (data : List Nat) (len : Nat) :
    ∀ (fuel written : Nat) (s : Sched) (b : Bool) (w : Nat) (s' : Sched),
      Task.do_async_write_loop t data len fuel written s = .ok (b, w) s' → written ≤ len →
      w = written + (fifoAccepted s.script (len - written)).1 ∧
        s'.script = (fifoAccepted s.script (len - written)).2 ∧ (b = true ↔ w = len) := by
  intro fuel
  induction fuel with
  | zero => intro written s b w s' h; cases h
  | succ n ih =>
    intro written s b w s' h hle
    unfold Task.do_async_write_loop at h
    by_cases hlt : written < len
    · rw [if_pos hlt] at h
      have hn0 : len - written ≠ 0 := by omega
      by_cases hfd : (s.tasks t).fd < 0
      · have e : sys_write (s.tasks t).fd (data.drop written) (len - written) s = (.efail, s) := by
          unfold sys_write; rw [if_pos hfd]
        rw [e] at h
        cases h
      · cases hs : s.script with
        | nil =>
          have e : sys_write (s.tasks t).fd (data.drop written) (len - written) s =
              (.ewouldblock, s) := by
            unfold sys_write; rw [if_neg hfd, hs]
          rw [e] at h
          cases h
          rw [hs]
          refine ⟨by simp [fifoAccepted], by simp [fifoAccepted], ?_⟩
          constructor
          · intro hb; cases hb
          · intro hw; omega
        | cons r rest =>
          cases r with
          | error =>
            have e : sys_write (s.tasks t).fd (data.drop written) (len - written) s =
                (.efail, { s with script := rest }) := by
              unfold sys_write; rw [if_neg hfd, hs]
            rw [e] at h
            cases h
          | wouldblock =>
            have e : sys_write (s.tasks t).fd (data.drop written) (len - written) s =
                (.ewouldblock, { s with script := rest }) := by
              unfold sys_write; rw [if_neg hfd, hs]
            rw [e] at h
            cases h
            refine ⟨by simp [fifoAccepted, hn0], by simp [fifoAccepted, hn0], ?_⟩
            constructor
            · intro hb; cases hb
            · intro hw; omega
          | eintr =>
            have e : sys_write (s.tasks t).fd (data.drop written) (len - written) s =
                (.eintr, { s with script := rest }) := by
              unfold sys_write; rw [if_neg hfd, hs]
            rw [e] at h
            obtain ⟨h1, h2, h3⟩ := ih written { s with script := rest } b w s' h hle
            refine ⟨?_, ?_, h3⟩
            · rw [h1]; simp [fifoAccepted, hn0]
            · rw [h2]; simp [fifoAccepted, hn0]
          | accept k =>
            generalize hs1 : ({ s with script := rest, wire := (fun g =>
                if g = (s.tasks t).fd then s.wire (s.tasks t).fd ++
                  (data.drop written).take (min k (len - written)) else s.wire g) } : Sched)
                = s1
            have e : sys_write (s.tasks t).fd (data.drop written) (len - written) s =
                (.count (min k (len - written)), s1) := by
              unfold sys_write; rw [if_neg hfd, hs]; simp only; rw [← hs1]
            have c1 : s1.script = rest := by rw [← hs1]
            rw [e] at h
            cases hj : min k (len - written) with
            | zero =>
              rw [hj] at h
              cases h
            | succ j =>
              rw [hj] at h
              simp only at h
              obtain ⟨h1, h2, h3⟩ := ih (written + (j + 1)) _ b w s' h (by omega)
              rw [upd_script, c1] at h1 h2
              by_cases hk : len - written ≤ k
              · have e1 : len - (written + (j + 1)) = 0 := by omega
                rw [e1, fifoAccepted_zero] at h1 h2
                refine ⟨?_, ?_, h3⟩
                · rw [h1]; simp only [fifoAccepted, hn0, if_false, if_pos hk]; omega
                · rw [h2]; simp only [fifoAccepted, hn0, if_false, if_pos hk]
              · have e1 : len - (written + (j + 1)) = len - written - k := by omega
                rw [e1] at h1 h2
                refine ⟨?_, ?_, h3⟩
                · rw [h1]; simp only [fifoAccepted, hn0, if_false, if_neg hk]; omega
                · rw [h2]; simp only [fifoAccepted, hn0, if_false, if_neg hk]
    · rw [if_neg hlt] at h
      cases h
      have e1 : len - written = 0 := by omega
      rw [e1, fifoAccepted_zero]
      refine ⟨by simp, rfl, ?_⟩
      constructor
      · intro _; omega
      · intro _; rfl

/-- What `Out::async_write` returns is what the specification's attempt on the unsent bytes
of the segment gives. -/
theorem out_async_write_accepted {o o' : Out} {t : TaskId} {s s' : Sched} {b : Bool}
    (h : Out.async_write o t s = .ok (b, o') s') :
    o' = { o with ofs := o.ofs + (fifoAccepted s.script (o.len - o.ofs)).1 } ∧
      s'.script = (fifoAccepted s.script (o.len - o.ofs)).2 ∧
      (b = true ↔ (fifoAccepted s.script (o.len - o.ofs)).1 = o.len - o.ofs) := by
  unfold Out.async_write Task.do_async_write at h
  split at h
  · cases h
  · cases hr : Task.do_async_write_loop t ((s.bufBytes o.ptr).drop o.ofs) (o.len - o.ofs)
        (s.script.length + 1) 0 s with
    | diverge => rw [hr] at h; cases h
    | throw e s1 => rw [hr] at h; cases h
    | ok r s1 =>
      obtain ⟨b0, w0⟩ := r
      rw [hr] at h
      simp only [Res.bind] at h
      cases h
      obtain ⟨h1, h2, h3⟩ := do_async_write_loop_accepted t _ _ _ _ _ _ _ _ hr (Nat.zero_le _)
      simp only [Nat.zero_add, Nat.sub_zero] at h1 h2 h3
      rw [← h1]
      exact ⟨rfl, h2, h3⟩

/-- One call of `Out::async_write` on an open task with a descriptor, the write results
being benign: it returns; the segment advances by the `w` bytes the specification's attempt
gives, those bytes of it went onto the wire, and the flag is `false` exactly when the
segment is not complete. -/
theorem out_async_write_exact {t : TaskId} {fd : Int} {s : Sched} (o : Out)
    (hc : (s.tasks t).closed = false) (hf : (s.tasks t).fd = fd) (hfd : 0 ≤ fd)
    (hb : s.script.all WriteRes.benign = true) :
    ∃ b s', Out.async_write o t s =
        .ok (b, { o with ofs := o.ofs + (fifoAccepted s.script (o.len - o.ofs)).1 }) s' ∧
      WriteFrame t s s' ∧
      (b = false ↔ (fifoAccepted s.script (o.len - o.ofs)).1 < o.len - o.ofs) ∧
      s'.script = (fifoAccepted s.script (o.len - o.ofs)).2 ∧
      s'.wire fd = s.wire fd ++ (Out.rest s o).take (fifoAccepted s.script (o.len - o.ofs)).1 ∧
      (Out.rest s o).take (fifoAccepted s.script (o.len - o.ofs)).1 ++
          Out.rest s { o with ofs := o.ofs + (fifoAccepted s.script (o.len - o.ofs)).1 } =
        Out.rest s o := by
  obtain ⟨b, w, s', h1, hfr, -, -, hx1, hx2⟩ := out_async_write_core o hc hf hfd hb
  obtain ⟨e1, e2, e3⟩ := out_async_write_accepted h1
  have hw : w = (fifoAccepted s.script (o.len - o.ofs)).1 := by
    have := congrArg Out.ofs e1
    simp only at this
    omega
  have hle := fifoAccepted_le s.script (o.len - o.ofs)
  have ht : (Out.rest s o).take w = ((s.bufBytes o.ptr).drop o.ofs).take w := by
    unfold Out.rest
    rw [List.take_take, Nat.min_eq_left (by omega)]
  rw [← ht] at hx1 hx2
  rw [← hw]
  refine ⟨b, s', h1, hfr, ?_, e2, hx1, hx2⟩
  rw [← hw] at e3
  constructor
  · intro hb0
    rcases Nat.lt_or_ge w (o.len - o.ofs) with h | h
    · exact h
    · have : b = true := e3.2 (by omega)
      rw [hb0] at this
      cases this
  · intro hlt
    cases b with
    | false => rfl
    | true => have := e3.1 rfl; omega

theorem fifoDrain_congr {s s' : Sched} (h : s'.mem = s.mem) :
    ∀ (q : List Out) (r : List WriteRes), fifoDrain s' q r = fifoDrain s q r := by
  intro q
  induction q with
  | nil => intro r; rfl
  | cons o q ih =>
    intro r
    unfold fifoDrain
    rw [rest_congr h, ih]

/-- The drain of the specification stops at the first segment that cannot complete: the
queue it leaves is empty, or it is the old queue from some segment on, that segment advanced
and not complete. -/
theorem fifoDrain_queue (s : Sched) : ∀ (q : List Out) (r : List WriteRes),
    (fifoDrain s q r).queue = [] ∨
      ∃ k o w, (q.drop k).head? = some o ∧
        (fifoDrain s q r).queue = { o with ofs := o.ofs + w } :: q.drop (k + 1) ∧
        o.ofs + w < o.len := by
  intro q
  induction q with
  | nil => intro r; exact Or.inl rfl
  | cons o q ih =>
    intro r
    unfold fifoDrain
    split
    · next hlt =>
      exact Or.inr ⟨0, o, _, rfl, rfl, by omega⟩
    · rcases ih (fifoAccepted r (o.len - o.ofs)).2 with h | ⟨k, o2, w, h1, h2, h3⟩
      · exact Or.inl h
      · exact Or.inr ⟨k + 1, o2, w, by simpa using h1, by simpa using h2, h3⟩

/-- What the drain of the specification has sent and what it leaves queued are together
what was queued. -/
theorem fifoDrain_sent (s : Sched) : ∀ (q : List Out) (r : List WriteRes),
    (fifoDrain s q r).sent ++ (((fifoDrain s q r).queue.map (Out.rest s)).flatten) =
      (q.map (Out.rest s)).flatten := by
  intro q
  induction q with
  | nil => intro r; rfl
  | cons o q ih =>
    intro r
    have hle := fifoAccepted_le r (o.len - o.ofs)
    have hsplit : (Out.rest s o).take (fifoAccepted r (o.len - o.ofs)).1 ++
        Out.rest s { o with ofs := o.ofs + (fifoAccepted r (o.len - o.ofs)).1 } =
        Out.rest s o := by
      unfold Out.rest
      simp only
      rw [List.take_take, Nat.min_eq_left hle]
      have e1 : (s.bufBytes o.ptr).drop (o.ofs + (fifoAccepted r (o.len - o.ofs)).1) =
          ((s.bufBytes o.ptr).drop o.ofs).drop (fifoAccepted r (o.len - o.ofs)).1 := by
        rw [List.drop_drop]
      have e2 : (fifoAccepted r (o.len - o.ofs)).1 +
          (o.len - (o.ofs + (fifoAccepted r (o.len - o.ofs)).1)) = o.len - o.ofs := by omega
      rw [e1, take_append_drop_take, e2]
    unfold fifoDrain
    split
    · simp only [List.map_cons, List.flatten_cons]
      rw [← List.append_assoc, hsplit]
    · next hge =>
      simp only [List.map_cons, List.flatten_cons]
      rw [List.append_assoc, ih]
      have e0 : Out.rest s { o with ofs := o.ofs + (fifoAccepted r (o.len - o.ofs)).1 } = [] := by
        unfold Out.rest
        simp only
        rw [show o.len - (o.ofs + (fifoAccepted r (o.len - o.ofs)).1) = 0 by omega,
          List.take_zero]
      rw [e0, List.append_nil] at hsplit
      rw [hsplit]

/-- The loop `while(out)` of `Task::run` on an open task with a descriptor, the write
results being benign, does what the drain of the specification does: it returns, what the
specification's drain sends went onto the wire, and the queue and the write results left are
those of the specification. -/
theorem drain_exact (t : TaskId) (fd : Int) (hfd : 0 ≤ fd) :
    ∀ (fuel : Nat) (s : Sched), (s.tasks t).out.length < fuel →
      (s.tasks t).closed = false → (s.tasks t).fd = fd → s.script.all WriteRes.benign = true →
      ∃ s', Task.drain fuel t s = .ok () s' ∧ DrainFrame t s s' ∧
        s'.wire fd = s.wire fd ++ (fifoDrain s (s.tasks t).out s.script).sent ∧
        (s'.tasks t).out = (fifoDrain s (s.tasks t).out s.script).queue ∧
        s'.script = (fifoDrain s (s.tasks t).out s.script).script := by
  intro fuel
  induction fuel with
  | zero => intro s h; exact absurd h (Nat.not_lt_zero _)
  | succ n ih =>
    intro s hlen hc hf hb
    unfold Task.drain
    cases hout : (s.tasks t).out with
    | nil =>
      exact ⟨s, rfl, drainFrame_refl t s, by simp [fifoDrain], by simp [fifoDrain, hout],
        by simp [fifoDrain]⟩
    | cons o tl =>
      simp only
      obtain ⟨b, s1, h1, hfr, hb1, hs1, hx1, -⟩ := out_async_write_exact o hc hf hfd hb
      rw [h1]
      have ho1 : (s1.tasks t).out = o :: tl := (uncounted_out hfr.task).trans hout
      simp only [Res.bind]
      generalize hw : (fifoAccepted s.script (o.len - o.ofs)).1 = w at *
      have hF2 : DrainFrame t s (s1.upd t (fun T => { T with out :=
          { o with ofs := o.ofs + w } :: T.out.tail })) :=
        drainFrame_trans (drainFrame_of_write hfr)
          (drainFrame_setOut t s1 (fun l => { o with ofs := o.ofs + w } :: l.tail))
      cases b with
      | false =>
        have hlt : w < o.len - o.ofs := hb1.1 rfl
        simp only [Bool.not_false, if_true]
        refine ⟨_, rfl, hF2, ?_, ?_, ?_⟩
        · rw [upd_wire, hx1]; unfold fifoDrain; rw [hw, if_pos hlt]
        · rw [upd_tasks_same, ho1]; unfold fifoDrain; rw [hw, if_pos hlt]; rfl
        · rw [upd_script, hs1]; unfold fifoDrain; rw [hw, if_pos hlt]
      | true =>
        have hge : ¬ w < o.len - o.ofs := fun h => by have := hb1.2 h; cases this
        simp only [Bool.not_true, Bool.false_eq_true, if_false]
        have ho3 : (((s1.upd t (fun T => { T with out :=
            { o with ofs := o.ofs + w } :: T.out.tail })).upd t
            (fun T => { T with out := T.out.tail })).tasks t).out = tl := by
          simp only [upd_tasks_same, ho1, List.tail_cons]
        have hF3 := drainFrame_trans hF2 (drainFrame_setOut t _ (fun l => l.tail))
        obtain ⟨u, hu⟩ := hF3.script
        obtain ⟨s', e1, e2, e3, e4, e5⟩ := ih _
          (by rw [ho3]; rw [hout] at hlen; simpa using hlen)
          (by rw [unqueued_closed hF3.task]; exact hc)
          (by rw [unqueued_fd hF3.task]; exact hf)
          (benign_suffix hu hb)
        rw [ho3, fifoDrain_congr hF3.mem] at e3 e4 e5
        simp only [upd_script, upd_wire] at e3 e4 e5
        rw [hs1] at e3 e4 e5
        refine ⟨s', e1, drainFrame_trans hF3 e2, ?_, ?_, ?_⟩
        · rw [e3, hx1, List.append_assoc]
          conv_rhs => unfold fifoDrain
          rw [hw, if_neg hge]
        · rw [e4]
          conv_rhs => unfold fifoDrain
          rw [hw, if_neg hge]
        · rw [e5]
          conv_rhs => unfold fifoDrain
          rw [hw, if_neg hge]

/-- `schedule(mask)` on a task whose descriptor is registered exactly when its interest is
not 0: the state it returns. -/
theorem schedule_eq {t : TaskId} {m : Nat} {s : Sched}
    (hfd : 0 ≤ (s.tasks t).fd)
    (hreg : (s.tasks t).events = 0 ↔ s.epoll (s.tasks t).fd = none) :
    Task.schedule t m s = .ok ()
      ((s.upd t (fun T => { T with events := T.events ||| m })).setEpoll (s.tasks t).fd
        (some ((s.tasks t).events ||| m))) := by
  have hnf : ¬ (s.tasks t).fd < 0 := not_lt.mpr hfd
  unfold Task.schedule
  simp only [upd_tasks_same]
  by_cases h0 : (s.tasks t).events = 0
  · have hr := hreg.1 h0
    have hb : ((s.tasks t).events != 0) = false := by simp [h0]
    simp only [hb, Bool.false_eq_true, if_false]
    unfold epoll_ctl
    rw [if_neg hnf, upd_epoll, hr]
  · obtain ⟨v, hv⟩ : ∃ v, s.epoll (s.tasks t).fd = some v := by
      cases hv : s.epoll (s.tasks t).fd with
      | none => exact absurd (hreg.2 hv) h0
      | some v => exact ⟨v, rfl⟩
    have hb : ((s.tasks t).events != 0) = true := by simp [h0]
    simp only [hb, if_true]
    unfold epoll_ctl
    rw [if_neg hnf, upd_epoll, hv]

/-- The body shared by `async_write`, `async_write_cpy` and `async_write(Out*)` when the
queue is empty: the segment `o` is written at once; when it cannot complete, the segment
`Q` computes is queued and `EPOLLOUT` requested.  `Q` gives `residue w` for a segment that
was advanced by `w` bytes. -/
theorem enqueue_body_exact {t : TaskId} {s : Sched} (o : Out)
    (Q : Bool × Out → Sched → Out) (residue : Nat → Out)
    (hQ : ∀ (b : Bool) (w : Nat) (s1 : Sched), s1.mem = s.mem →
      Q (b, { o with ofs := o.ofs + w }) s1 = residue w)
    (hc : (s.tasks t).closed = false) (hfd : 0 ≤ (s.tasks t).fd)
    (hreg : (s.tasks t).events = 0 ↔ s.epoll (s.tasks t).fd = none)
    (hb : s.script.all WriteRes.benign = true) :
    ∃ s1 s', (∃ b, Out.async_write o t s = .ok (b, { o with ofs := o.ofs +
          (fifoAccepted s.script (o.len - o.ofs)).1 }) s1) ∧ WriteFrame t s s1 ∧
      ((Out.async_write o t s).bind fun r s1 =>
        if !r.1 then Task.schedule t EPOLLOUT (s1.upd t (fun T => { T with out := [Q r s1] }))
        else .ok () s1) = .ok () s' ∧
      s'.wire (s.tasks t).fd = s.wire (s.tasks t).fd ++
        (Out.rest s o).take (fifoAccepted s.script (o.len - o.ofs)).1 ∧
      s'.script = (fifoAccepted s.script (o.len - o.ofs)).2 ∧
      s'.mem = s.mem ∧
      ((fifoAccepted s.script (o.len - o.ofs)).1 < o.len - o.ofs →
        s' = ((s1.upd t (fun T => { T with out := [residue (fifoAccepted s.script
            (o.len - o.ofs)).1] })).upd t (fun T => { T with events := T.events ||| EPOLLOUT
            })).setEpoll (s.tasks t).fd (some ((s.tasks t).events ||| EPOLLOUT))) ∧
      (¬ (fifoAccepted s.script (o.len - o.ofs)).1 < o.len - o.ofs → s' = s1) := by
  obtain ⟨b, s1, h1, hfr, hb1, hs1, hx1, -⟩ := out_async_write_exact o hc rfl hfd hb
  rw [h1]
  simp only [Res.bind]
  have f1 : (s1.tasks t).fd = (s.tasks t).fd := uncounted_fd hfr.task
  have ev1 : (s1.tasks t).events = (s.tasks t).events := uncounted_events hfr.task
  cases b with
  | false =>
    have hlt := hb1.1 rfl
    simp only [Bool.not_false, if_true]
    rw [hQ false _ s1 hfr.mem]
    have hsch := schedule_eq (t := t) (m := EPOLLOUT)
      (s := s1.upd t (fun T => { T with out := [residue (fifoAccepted s.script
        (o.len - o.ofs)).1] }))
      (by rw [upd_tasks_same]; simp only; rw [f1]; exact hfd)
      (by rw [upd_tasks_same, upd_epoll]; simp only; rw [f1, ev1, hfr.epoll]; exact hreg)
    rw [upd_tasks_same] at hsch
    simp only at hsch
    rw [f1, ev1] at hsch
    rw [hsch]
    refine ⟨s1, _, ⟨false, rfl⟩, hfr, rfl, ?_, ?_, ?_, fun _ => ?_, fun h => absurd hlt h⟩
    · simp only [setEpoll_wire, upd_wire]; exact hx1
    · simp only [setEpoll_script, upd_script]; exact hs1
    · simp only [setEpoll_mem, upd_mem]; exact hfr.mem
    · rfl
  | true =>
    have hge : ¬ (fifoAccepted s.script (o.len - o.ofs)).1 < o.len - o.ofs :=
      fun h => by have := hb1.2 h; cases this
    simp only [Bool.not_true, Bool.false_eq_true, if_false]
    exact ⟨s1, s1, ⟨true, rfl⟩, hfr, rfl, hx1, hs1, hfr.mem, fun h => absurd h hge, fun _ => rfl⟩

/-! ## The writable branch against the drain of the specification -/

/-- The writable branch of `Task::run` after the refresh of the write deadline, on a state
`s1` that differs from `s` in deadlines only. -/
theorem run_write_exact (t : TaskId) (s s1 : Sched)
    (hfd : 0 ≤ (s.tasks t).fd)
    (hreg : (s.tasks t).events = 0 ↔ s.epoll (s.tasks t).fd = none)
    (hscript : s.script.all WriteRes.benign = true)
    (c1 : (s1.tasks t).closed = false) (c2 : (s1.tasks t).fd = (s.tasks t).fd)
    (c3 : (s1.tasks t).events = (s.tasks t).events) (c4 : (s1.tasks t).out = (s.tasks t).out)
    (c5 : (s1.tasks t).half_close = (s.tasks t).half_close) (c6 : s1.epoll = s.epoll)
    (c7 : s1.script = s.script) (c8 : s1.mem = s.mem) (c9 : s1.wire = s.wire) :
    ∃ s2 s', Task.drain ((s1.tasks t).out.length + 1) t s1 = .ok () s2 ∧
      DrainFrame t s1 s2 ∧
      ((Task.drain ((s1.tasks t).out.length + 1) t s1).bind fun _ s2 =>
        if (s2.tasks t).out.isEmpty then
          (Task.unschedule t EPOLLOUT s2).bind fun _ s3 =>
            match (s3.tasks t).half_close with
            | some msg => .throw (.gracefulClose msg) s3
            | none => .ok () s3
        else .ok () s2) =
        (if (fifoDrain s (s.tasks t).out s.script).queue = [] then
          (match (s.tasks t).half_close with
            | some msg => .throw (.gracefulClose msg) s'
            | none => .ok () s')
        else .ok () s') ∧
      s'.wire (s.tasks t).fd =
        s.wire (s.tasks t).fd ++ (fifoDrain s (s.tasks t).out s.script).sent ∧
      (s'.tasks t).out = (fifoDrain s (s.tasks t).out s.script).queue ∧
      s'.script = (fifoDrain s (s.tasks t).out s.script).script ∧
      s'.mem = s.mem ∧
      (s'.tasks t).fd = (s.tasks t).fd ∧
      ((s'.tasks t).events = 0 ↔ s'.epoll (s.tasks t).fd = none) ∧
      ((s'.tasks t).out = [] → EPOLLOUT &&& (s'.tasks t).events = 0 ∧
        (Task.unschedule t EPOLLOUT s2).state? = some s') ∧
      ((s'.tasks t).out ≠ [] → (s'.tasks t).events = (s.tasks t).events ∧ s' = s2) := by
  obtain ⟨s2, e1, F, e3, e4, e5⟩ := drain_exact t (s.tasks t).fd hfd _ s1
    (Nat.lt_succ_self _) c1 c2 (by rw [c7]; exact hscript)
  rw [c9, c4, c7, fifoDrain_congr c8] at e3
  rw [c4, c7, fifoDrain_congr c8] at e4 e5
  rw [e1]
  simp only [Res.bind]
  have f2 : (s2.tasks t).fd = (s.tasks t).fd := (unqueued_fd F.task).trans c2
  have ev2 : (s2.tasks t).events = (s.tasks t).events := (unqueued_events F.task).trans c3
  have hc2 : (s2.tasks t).half_close = (s.tasks t).half_close :=
    (unqueued_half_close F.task).trans c5
  have hreg2 : (s2.tasks t).events = 0 ↔ s2.epoll (s.tasks t).fd = none := by
    rw [ev2, F.epoll, c6]; exact hreg
  by_cases hemp : (s2.tasks t).out.isEmpty = true
  · rw [if_pos hemp]
    have ho2 : (s2.tasks t).out = [] := List.isEmpty_iff.mp hemp
    have hq : (fifoDrain s (s.tasks t).out s.script).queue = [] := by rw [← e4]; exact ho2
    obtain ⟨s3, u1, u2, u3, u4, u5⟩ := unschedule_registered (t := t) (b := EPOLLOUT) (s := s2)
      (by rw [f2]; exact hfd) (by rw [f2]; exact hreg2)
    have hst : (Task.unschedule t EPOLLOUT s2).state? = some s3 := by rw [u1]; rfl
    obtain ⟨v1, v2, v3, v4⟩ := unschedule_frame hst
    have vs : s3.script = s2.script := by
      by_cases h0 : (s2.tasks t).events = 0
      · rw [u3 h0]
      · have := (unschedule_timing hst)
        unfold Task.unschedule at u1
        simp only [h0, bne_iff_ne, ne_eq, not_false_eq_true, if_true] at u1
        split at u1
        · cases u1
        · next sx hx =>
          have hsx : sx.script = s2.script := by
            unfold epoll_ctl at hx
            split at hx
            · cases hx
            · split at hx <;> cases hx <;> rfl
          cases u1
          split <;> simp [hsx]
    have ho3 : (s3.tasks t).out = [] := v3.trans ho2
    have hbit : EPOLLOUT &&& (s3.tasks t).events = 0 := by
      by_cases h0 : (s2.tasks t).events = 0
      · rw [u3 h0, h0]; rfl
      · by_cases hrem : not32 EPOLLET &&& ((s2.tasks t).events &&& not32 EPOLLOUT) = 0
        · rw [(u4 h0 hrem).1]; rfl
        · rw [(u5 h0 hrem).1]; exact out_bit_cleared _
    have hreg3 : (s3.tasks t).events = 0 ↔ s3.epoll (s.tasks t).fd = none := by
      by_cases h0 : (s2.tasks t).events = 0
      · rw [u3 h0]; exact hreg2
      · rw [f2] at u4 u5
        by_cases hrem : not32 EPOLLET &&& ((s2.tasks t).events &&& not32 EPOLLOUT) = 0
        · obtain ⟨a1, a2⟩ := u4 h0 hrem
          exact ⟨fun _ => a2, fun _ => a1⟩
        · obtain ⟨a1, a2⟩ := u5 h0 hrem
          have hne : (s2.tasks t).events &&& not32 EPOLLOUT ≠ 0 := by
            intro h; apply hrem; rw [h]; simp
          exact ⟨fun e => absurd (a1 ▸ e) hne, fun e => by rw [a2] at e; cases e⟩
    rw [u1]
    simp only [Res.bind]
    rw [v4, hc2]
    simp only [hq, if_true]
    refine ⟨s2, s3, rfl, F, rfl, by rw [v1, e3], ho3, by rw [vs, e5],
      by rw [v2, F.mem, c8], u2.trans f2, hreg3, fun _ => ⟨hbit, hst⟩,
      fun hne => absurd ho3 hne⟩
  · rw [if_neg hemp]
    have ho2 : (s2.tasks t).out ≠ [] := fun e => hemp (List.isEmpty_iff.mpr e)
    have hq : (fifoDrain s (s.tasks t).out s.script).queue ≠ [] := by rw [← e4]; exact ho2
    simp only [hq, if_false]
    exact ⟨s2, s2, rfl, F, rfl, e3, e4, e5, by rw [F.mem, c8], f2, hreg2,
      fun e => absurd e ho2, fun _ => ⟨ev2, rfl⟩⟩



/-! ## Call sequences against the FIFO of the specification -/

theorem lor_out_bit (e : Nat) : EPOLLOUT &&& (e ||| EPOLLOUT) ≠ 0 := by
  rw [out_bit, Nat.testBit_or]
  have : EPOLLOUT.testBit 2 = true := by decide
  rw [this, Bool.or_true]

theorem WriteFrame.keeps_list {t : TaskId} {s s' : Sched} {L : List TaskId}
    (f : WriteFrame t s s') (h : TimeoutWF s L) : TimeoutWF s' L := by
  have ht : ∀ i, (s'.tasks i).timeout = (s.tasks i).timeout := by
    intro i
    by_cases hi : i = t
    · subst hi; exact uncounted_timeout f.task
    · rw [f.others i hi]
  exact h.congr (fun x => by rw [ht]) (fun x => by rw [ht]) f.timeouts f.ntasks

theorem unqueued_timeout {T T' : Task} (h : T'.unqueued = T.unqueued) :
    T'.timeout = T.timeout := by
  have h1 : T'.unqueued.timeout = T.unqueued.timeout := congrArg Task.timeout h
  exact h1

theorem DrainFrame.keeps_links {t : TaskId} {s s' : Sched} {L : List TaskId}
    (f : DrainFrame t s s') (h : TimeoutWF s L) : TimeoutWF s' L := by
  have ht : ∀ i, (s'.tasks i).timeout = (s.tasks i).timeout := by
    intro i
    by_cases hi : i = t
    · subst hi; exact unqueued_timeout f.task
    · rw [f.others i hi]
  exact h.congr (fun x => by rw [ht]) (fun x => by rw [ht]) f.timeouts f.ntasks

/-- An enqueueing call on a non-empty queue: the segment is appended. -/
theorem FifoInv.append {t : TaskId} {s0 s : Sched} {f : Fifo} (hI : FifoInv t s0 f s)
    (q : Out) (hne : (s.tasks t).out.isEmpty = false) :
    FifoInv t s0 { f with queue := f.queue ++ [q] }
      (s.upd t (fun T => { T with out := T.out ++ [q] })) := by
  have hq : (s.tasks t).out ≠ [] := fun e => by rw [e] at hne; cases hne
  refine ⟨?_, ?_, ?_, ?_, hI.benign, hI.mem, hI.wire, ?_, hI.script, fun h0 => ?_, ?_⟩
  · rw [upd_tasks_same]; exact hI.not_closed
  · rw [upd_tasks_same]; exact hI.fd_eq
  · rw [upd_tasks_same]; exact hI.half_close
  · rw [upd_tasks_same, upd_epoll]; exact hI.registered
  · rw [upd_tasks_same]; simp only; rw [hI.out]
  · rw [upd_tasks_same]
    simp only
    have hb := (hI.bit h0)
    constructor
    · intro e; simp at e
    · intro e; exact absurd (hb.2 e) hq
  · obtain ⟨L, hL⟩ := hI.links
    refine ⟨L, hL.congr (fun x => ?_) (fun x => ?_) rfl rfl⟩
    · rw [upd_tasks]; split
      · next h => subst h; rfl
      · rfl
    · rw [upd_tasks]; split
      · next h => subst h; rfl
      · rfl

/-- The body shared by the enqueueing calls, on an empty queue, does what `fifoEnqueue`
does. -/
theorem FifoInv.enqueue_empty {t : TaskId} {s0 s : Sched} {f : Fifo} (hI : FifoInv t s0 f s)
    (hfd : 0 ≤ (s0.tasks t).fd) (o : Out) (Q : Bool × Out → Sched → Out) (residue : Nat → Out)
    (hQ : ∀ (b : Bool) (w : Nat) (s1 : Sched), s1.mem = s.mem →
      Q (b, { o with ofs := o.ofs + w }) s1 = residue w)
    (he : (s.tasks t).out.isEmpty = true) :
    ∃ s', ((Out.async_write o t s).bind fun r s1 =>
        if !r.1 then Task.schedule t EPOLLOUT (s1.upd t (fun T => { T with out := [Q r s1] }))
        else .ok () s1) = .ok () s' ∧
      FifoInv t s0 (fifoEnqueue s0 f o residue) s' := by
  have hfd' : 0 ≤ (s.tasks t).fd := by rw [hI.fd_eq]; exact hfd
  have hreg : (s.tasks t).events = 0 ↔ s.epoll (s.tasks t).fd = none := by
    rw [hI.fd_eq]; exact hI.registered
  obtain ⟨s1, s', -, hfr, h1, hw, hs, hm, hblk, hdone⟩ :=
    enqueue_body_exact o Q residue hQ hI.not_closed hfd' hreg hI.benign
  have hout : (s.tasks t).out = [] := List.isEmpty_iff.mp he
  have hfq : f.queue.isEmpty = true := by rw [← hI.out]; exact he
  have f1 : (s1.tasks t).fd = (s.tasks t).fd := uncounted_fd hfr.task
  have ev1 : (s1.tasks t).events = (s.tasks t).events := uncounted_events hfr.task
  have o1 : (s1.tasks t).out = [] := (uncounted_out hfr.task).trans hout
  have hben1 : s1.script.all WriteRes.benign = true := by
    obtain ⟨u, hu⟩ := hfr.script
    exact benign_suffix hu hI.benign
  obtain ⟨L, hL⟩ := hI.links
  have hL1 := hfr.keeps_list hL
  refine ⟨s', h1, ?_⟩
  unfold fifoEnqueue
  rw [if_pos hfq, ← hI.script, rest_congr hI.mem.symm]
  by_cases hlt : (fifoAccepted s.script (o.len - o.ofs)).1 < o.len - o.ofs
  · rw [if_pos hlt]
    have hs' := hblk hlt
    have hscr : s'.script = s1.script := by rw [hs']; rfl
    refine ⟨?_, ?_, ?_, ?_, by rw [hscr]; exact hben1, hm.trans hI.mem, ?_, ?_, hs,
      fun _ => ?_, ⟨L, ?_⟩⟩
    · rw [hs']; simp only [setEpoll_tasks, upd_tasks_same]
      rw [uncounted_closed hfr.task]; exact hI.not_closed
    · rw [hs']; simp only [setEpoll_tasks, upd_tasks_same]
      rw [f1]; exact hI.fd_eq
    · rw [hs']; simp only [setEpoll_tasks, upd_tasks_same]
      rw [uncounted_half_close hfr.task]; exact hI.half_close
    · rw [hs']; simp only [setEpoll_tasks, upd_tasks_same, setEpoll_epoll]
      rw [← hI.fd_eq, if_pos rfl, ev1]
      constructor
      · intro e; exact absurd e (lor_EPOLLOUT_ne_zero _)
      · intro e; cases e
    · rw [← hI.fd_eq, hw, hI.fd_eq, hI.wire, List.append_assoc]
    · rw [hs']; simp only [setEpoll_tasks, upd_tasks_same]
    · rw [hs']; simp only [setEpoll_tasks, upd_tasks_same]
      rw [ev1]
      constructor
      · intro e; cases e
      · intro e; exact absurd e (lor_out_bit _)
    · rw [hs']
      refine hL1.congr (fun x => ?_) (fun x => ?_) rfl rfl
      · simp only [setEpoll_tasks]
        rw [upd_tasks]; split
        · next h => subst h; rw [upd_tasks_same]
        · next h => rw [upd_tasks_ne _ _ h]
      · simp only [setEpoll_tasks]
        rw [upd_tasks]; split
        · next h => subst h; rw [upd_tasks_same]
        · next h => rw [upd_tasks_ne _ _ h]
  · rw [if_neg hlt]
    have hs' := hdone hlt
    subst hs'
    refine ⟨?_, f1.trans hI.fd_eq, ?_, ?_, hben1, hm.trans hI.mem, ?_, o1, hs,
      fun h0 => ?_, ⟨L, hL1⟩⟩
    · rw [uncounted_closed hfr.task]; exact hI.not_closed
    · rw [uncounted_half_close hfr.task]; exact hI.half_close
    · rw [ev1, hfr.epoll]; exact hI.registered
    · rw [← hI.fd_eq, hw, hI.fd_eq, hI.wire, List.append_assoc]
    · rw [o1, ev1]
      have := hI.bit h0
      rw [hout] at this
      exact this


/-! ## The tail of `Task::run` on a well-formed timeout list -/

theorem sameKernel_refl (s : Sched) : SameKernel s s := ⟨rfl, rfl, rfl, rfl, rfl⟩

theorem sameKernel_trans {a b c : Sched} (h1 : SameKernel a b) (h2 : SameKernel b c) :
    SameKernel a c :=
  ⟨h2.wire.trans h1.wire, h2.script.trans h1.script, h2.epoll.trans h1.epoll,
    h2.mem.trans h1.mem, h2.ntasks.trans h1.ntasks⟩

theorem sameKernel_upd (s : Sched) (t : TaskId) (f : Task → Task) : SameKernel s (s.upd t f) :=
  ⟨rfl, rfl, rfl, rfl, rfl⟩

theorem sameKernel_setTimeouts (s : Sched) (v : Option TaskId) :
    SameKernel s (s.setTimeouts v) := ⟨rfl, rfl, rfl, rfl, rfl⟩

theorem sameKernel_setNext (s : Sched) (i : TaskId) (v : Option TaskId) :
    SameKernel s (s.setNext i v) := ⟨rfl, rfl, rfl, rfl, rfl⟩

theorem sameKernel_setPrev (s : Sched) (i : TaskId) (v : Option TaskId) :
    SameKernel s (s.setPrev i v) := ⟨rfl, rfl, rfl, rfl, rfl⟩

theorem sameKernel_then_setNext {s a : Sched} (h : SameKernel s a) (i : TaskId)
    (v : Option TaskId) : SameKernel s (a.setNext i v) :=
  sameKernel_trans h (sameKernel_setNext a i v)

theorem sameKernel_then_setPrev {s a : Sched} (h : SameKernel s a) (i : TaskId)
    (v : Option TaskId) : SameKernel s (a.setPrev i v) :=
  sameKernel_trans h (sameKernel_setPrev a i v)

theorem sameKernel_then_setTimeouts {s a : Sched} (h : SameKernel s a) (v : Option TaskId) :
    SameKernel s (a.setTimeouts v) :=
  sameKernel_trans h (sameKernel_setTimeouts a v)

theorem sort_forward_kernel (t : TaskId) : ∀ (fuel : Nat) (s s' : Sched),
    Task.sort_forward fuel t s = some s' → SameKernel s s' := by
  intro fuel
  induction fuel with
  | zero => intro s s' h; exact absurd h (by simp [Task.sort_forward])
  | succ n ih =>
    intro s s' h
    unfold Task.sort_forward at h
    split at h
    · cases h; exact sameKernel_refl s
    · split at h
      · simp -zeta only [Option.bind_eq_bind] at h
        lift_lets at h
        extract_lets s1 s2 at h
        have e1 : SameKernel s s1 := by
          simp only [s1]; split
          · exact sameKernel_setTimeouts _ _
          · exact sameKernel_refl _
        clear_value s1
        have e2 : SameKernel s s2 := by
          simp only [s2]; split
          · exact sameKernel_then_setNext e1 _ _
          · exact e1
        clear_value s2
        rw [Option.bind_eq_some] at h
        obtain ⟨n2, -, h⟩ := h
        lift_lets at h
        extract_lets s3 s4 at h
        have e4 : SameKernel s s4 :=
          sameKernel_then_setPrev (sameKernel_then_setPrev e2 _ _) _ _
        clear_value s4
        rw [Option.bind_eq_some] at h
        obtain ⟨p4, -, h⟩ := h
        lift_lets at h
        extract_lets s5 at h
        have e5 : SameKernel s s5 := sameKernel_then_setNext e4 _ _
        clear_value s5
        rw [Option.bind_eq_some] at h
        obtain ⟨p5, -, h⟩ := h
        lift_lets at h
        extract_lets s6 s7 at h
        have e6 : SameKernel s s6 := sameKernel_then_setNext e5 _ _
        clear_value s6
        have e7 : SameKernel s s7 := by
          simp only [s7]; split
          · exact sameKernel_then_setPrev e6 _ _
          · exact e6
        exact sameKernel_trans e7 (ih _ _ h)
      · cases h; exact sameKernel_refl s

theorem sort_backward_kernel (t : TaskId) : ∀ (fuel : Nat) (s s' : Sched),
    Task.sort_backward fuel t s = some s' → SameKernel s s' := by
  intro fuel
  induction fuel with
  | zero => intro s s' h; exact absurd h (by simp [Task.sort_backward])
  | succ n ih =>
    intro s s' h
    unfold Task.sort_backward at h
    split at h
    · cases h; exact sameKernel_refl s
    · split at h
      · simp -zeta only [Option.bind_eq_bind] at h
        lift_lets at h
        extract_lets s1 s2 at h
        have e1 : SameKernel s s1 := by
          simp only [s1]; split
          · exact sameKernel_setTimeouts _ _
          · exact sameKernel_refl _
        clear_value s1
        have e2 : SameKernel s s2 := by
          simp only [s2]; split
          · exact sameKernel_then_setPrev e1 _ _
          · exact e1
        clear_value s2
        rw [Option.bind_eq_some] at h
        obtain ⟨n2, -, h⟩ := h
        lift_lets at h
        extract_lets s3 s4 at h
        have e4 : SameKernel s s4 :=
          sameKernel_then_setNext (sameKernel_then_setNext e2 _ _) _ _
        clear_value s4
        rw [Option.bind_eq_some] at h
        obtain ⟨p4, -, h⟩ := h
        lift_lets at h
        extract_lets s5 at h
        have e5 : SameKernel s s5 := sameKernel_then_setPrev e4 _ _
        clear_value s5
        rw [Option.bind_eq_some] at h
        obtain ⟨p5, -, h⟩ := h
        lift_lets at h
        extract_lets s6 s7 at h
        have e6 : SameKernel s s6 := sameKernel_then_setPrev e5 _ _
        clear_value s6
        have e7 : SameKernel s s7 := by
          simp only [s7]; split
          · exact sameKernel_then_setNext e6 _ _
          · exact e6
        exact sameKernel_trans e7 (ih _ _ h)
      · cases h; exact sameKernel_refl s

theorem sort_timeout_kernel {t : TaskId} {s s' : Sched}
    (h : (Task.sort_timeout t s).state? = some s') : SameKernel s s' := by
  unfold Task.sort_timeout at h
  split at h
  · rename_i s1 h1
    cases h
    simp only [Option.bind_eq_some] at h1
    obtain ⟨a, ha, hb⟩ := h1
    exact sameKernel_trans (sort_forward_kernel t _ _ _ ha) (sort_backward_kernel t _ _ _ hb)
  · exact absurd h (by simp [Res.state?])

theorem unlink_timeout_kernel (s : Sched) (t : TaskId) :
    SameKernel s (Task.unlink_timeout t s) :=
  ⟨unlink_timeout_wire s t, unlink_timeout_script s t, unlink_timeout_epoll s t,
    unlink_timeout_mem s t, unlink_timeout_ntasks s t⟩

theorem core_of_unlinked {T T' : Task} (h : T'.unlinked = T.unlinked) : T'.core = T.core := by
  have h1 := congrArg Task.core h
  exact h1

/-- The tail of `Task::run` leaves the kernel state alone, and of the tasks it changes only
`timeout.due` and the places in the timeout list. -/
theorem run_timeout_frame {t : TaskId} {s s' : Sched}
    (h : (Task.run_timeout t s).state? = some s') :
    SameKernel s s' ∧ ∀ i, (s'.tasks i).core = (s.tasks i).core := by
  unfold Task.run_timeout at h
  split at h
  · lift_lets at h
    extract_lets sa s1 at h
    have e1 : SameKernel s s1 ∧ ∀ i, (s1.tasks i).core = (s.tasks i).core := by
      simp only [s1, sa]
      split
      · split
        · refine ⟨sameKernel_trans (sameKernel_upd _ _ _) (unlink_timeout_kernel _ _),
            fun i => ?_⟩
          rw [unlink_timeout_core, core_setDue]
        · exact ⟨sameKernel_upd _ _ _, fun i => core_setDue _ _ _ _⟩
      · exact ⟨sameKernel_upd _ _ _, fun i => core_setDue _ _ _ _⟩
    clear_value s1
    have e2 := sort_timeout_kernel h
    have e3 := sort_timeout_links h
    exact ⟨sameKernel_trans e1.1 e2, fun i => (core_of_unlinked (e3.2 i)).trans (e1.2 i)⟩
  · cases h
    exact ⟨sameKernel_refl s, fun _ => rfl⟩

/-- The two loops of `sort_timeout` on a well-formed timeout list end within `ntasks + 1`
tests each, whatever the deadlines are, and leave a well-formed list of the same tasks. -/
theorem sort_loops_total (s : Sched) (L : List TaskId) (t : TaskId) (hL : TimeoutWF s L) :
    ∃ s' L', (Task.sort_forward (s.ntasks + 1) t s).bind (Task.sort_backward (s.ntasks + 1) t)
        = some s' ∧ TimeoutWF s' L' ∧ L'.Perm L := by
  by_cases ht : t ∈ L
  · obtain ⟨A, B, rfl⟩ := List.append_of_mem ht
    have hlen := nodup_length_le hL.nodup hL.alloc
    simp only [List.length_append, List.length_cons] at hlen
    obtain ⟨s1, M, B', e1, rfl, w1, -, -, n1⟩ :=
      sort_forward_spec t B A (s.ntasks + 1) s hL (by omega)
    have w1' : TimeoutWF s1 ((A ++ M).reverse.reverse ++ t :: B') := by
      rw [List.reverse_reverse]; exact w1
    obtain ⟨s2, M2, R', e2, hR, w2, -, -, -, -⟩ :=
      sort_backward_spec t (A ++ M).reverse B' (s.ntasks + 1) s1 w1' (by
        simp only [List.length_reverse, List.length_append] at hlen ⊢; omega)
    have hAM : A ++ M = R'.reverse ++ M2.reverse := by
      have := congrArg List.reverse hR
      rw [List.reverse_reverse, List.reverse_append] at this
      exact this
    refine ⟨s2, R'.reverse ++ t :: (M2.reverse ++ B'), ?_, w2, ?_⟩
    · rw [e1]
      exact e2
    · have p1 : (R'.reverse ++ t :: (M2.reverse ++ B')).Perm
          (t :: (R'.reverse ++ (M2.reverse ++ B'))) := List.perm_middle
      have p2 : (A ++ t :: (M ++ B')).Perm (t :: (A ++ (M ++ B'))) := List.perm_middle
      refine p1.trans (List.Perm.trans ?_ p2.symm)
      rw [← List.append_assoc, ← hAM, List.append_assoc]
  · have hn : (s.tasks t).timeout.next = none := by rw [hL.next, nextIn_not_mem ht]
    have hp : (s.tasks t).timeout.prev = none := by rw [hL.prev, prevIn_not_mem ht]
    refine ⟨s, L, ?_, hL, List.Perm.refl _⟩
    rw [Task.sort_forward, hn]
    show Task.sort_backward (s.ntasks + 1) t s = some s
    rw [Task.sort_backward, hp]

/-- The tail of `Task::run` on a well-formed timeout list returns and leaves the list well
formed. -/
theorem run_timeout_total {t : TaskId} {s : Sched} {L : List TaskId} (hL : TimeoutWF s L) :
    ∃ s' L', Task.run_timeout t s = .ok () s' ∧ TimeoutWF s' L' := by
  unfold Task.run_timeout
  split
  · lift_lets
    extract_lets sa s1
    have e1 : ∃ L1, TimeoutWF s1 L1 := by
      have hd : ∀ v, TimeoutWF (s.setDue t v) L := fun v =>
        hL.congr (fun x => setDue_next _ _ x _) (fun x => setDue_prev _ _ x _)
          (setDue_timeouts _ _ _) (setDue_ntasks _ _ _)
      simp only [s1, sa]
      split
      · split
        · exact ⟨_, (hd _).unlink t⟩
        · exact ⟨_, hd _⟩
      · exact ⟨_, hd _⟩
    clear_value s1
    obtain ⟨L1, hL1⟩ := e1
    obtain ⟨s', L', h1, h2, -⟩ := sort_loops_total s1 L1 t hL1
    refine ⟨s', L', ?_, h2⟩
    unfold Task.sort_timeout
    rw [h1]
  · exact ⟨s, L, rfl, hL⟩


theorem maskFrame_refl (t : TaskId) (s : Sched) : MaskFrame t s s :=
  ⟨rfl, rfl, rfl, rfl, rfl, fun _ _ => rfl, rfl⟩

theorem maskFrame_trans {t : TaskId} {a b c : Sched} (h1 : MaskFrame t a b)
    (h2 : MaskFrame t b c) : MaskFrame t a c :=
  ⟨h2.wire.trans h1.wire, h2.script.trans h1.script, h2.mem.trans h1.mem,
    h2.ntasks.trans h1.ntasks, h2.timeouts.trans h1.timeouts,
    fun i hi => (h2.others i hi).trans (h1.others i hi), h2.task.trans h1.task⟩

theorem maskFrame_upd (t : TaskId) (s : Sched) (e : Nat → Nat) :
    MaskFrame t s (s.upd t (fun T => { T with events := e T.events })) :=
  ⟨rfl, rfl, rfl, rfl, rfl, fun i hi => upd_tasks_ne _ _ hi, by rw [upd_tasks_same]; rfl⟩

theorem epoll_ctl_maskFrame {t : TaskId} {s s' : Sched} {op : EpollOp} {fd : Int} {ev : Nat}
    (h : epoll_ctl s op fd ev = some s') : MaskFrame t s s' := by
  unfold epoll_ctl at h
  split at h
  · exact absurd h (by simp)
  · split at h <;> cases h <;> exact ⟨rfl, rfl, rfl, rfl, rfl, fun _ _ => rfl, rfl⟩

theorem schedule_maskFrame {t : TaskId} {flags : Nat} {s s' : Sched}
    (h : (Task.schedule t flags s).state? = some s') : MaskFrame t s s' := by
  unfold Task.schedule at h
  have h1 := maskFrame_upd t s (fun e => e ||| flags)
  simp only at h
  split at h
  · cases h; exact h1
  · rename_i s2 h2
    cases h; exact maskFrame_trans h1 (epoll_ctl_maskFrame h2)

theorem unschedule_maskFrame {t : TaskId} {flags : Nat} {s s' : Sched}
    (h : (Task.unschedule t flags s).state? = some s') : MaskFrame t s s' := by
  unfold Task.unschedule at h
  have h1 := maskFrame_upd t s (fun e => e &&& not32 flags)
  split at h
  · simp only at h
    split at h
    · cases h; exact h1
    · rename_i s2 h2
      cases h
      have h3 := maskFrame_trans h1 (epoll_ctl_maskFrame (t := t) h2)
      split
      · exact maskFrame_trans h3 (maskFrame_upd t _ (fun _ => 0))
      · exact h3
  · cases h; exact maskFrame_refl t s

theorem unmasked_closed {T T' : Task} (h : T'.unmasked = T.unmasked) : T'.closed = T.closed := by
  have h1 : T'.unmasked.closed = T.unmasked.closed := congrArg Task.closed h
  exact h1

theorem unmasked_half_close {T T' : Task} (h : T'.unmasked = T.unmasked) :
    T'.half_close = T.half_close := by
  have h1 : T'.unmasked.half_close = T.unmasked.half_close := congrArg Task.half_close h
  exact h1

theorem unmasked_timeout {T T' : Task} (h : T'.unmasked = T.unmasked) :
    T'.timeout = T.timeout := by
  have h1 : T'.unmasked.timeout = T.unmasked.timeout := congrArg Task.timeout h
  exact h1

theorem core_half_close {T T' : Task} (h : T'.core = T.core) : T'.half_close = T.half_close := by
  have h1 : T'.core.half_close = T.core.half_close := congrArg Task.half_close h
  exact h1

theorem MaskFrame.keeps_timeouts {t : TaskId} {s s' : Sched} {L : List TaskId}
    (f : MaskFrame t s s') (h : TimeoutWF s L) : TimeoutWF s' L := by
  have ht : ∀ i, (s'.tasks i).timeout = (s.tasks i).timeout := by
    intro i
    by_cases hi : i = t
    · subst hi; exact unmasked_timeout f.task
    · rw [f.others i hi]
  exact h.congr (fun x => by rw [ht]) (fun x => by rw [ht]) f.timeouts f.ntasks

theorem fifoDrain_nil_of_nil (s : Sched) (r : List WriteRes) :
    (fifoDrain s [] r).queue = [] := rfl

/-- A writable event `run(EPOLLOUT)` does what the drain of the specification does; it
throws `GracefulClose(half_close)` when the queue is empty afterwards and `half_close` is
set, and returns otherwise. -/
theorem FifoInv.writable {t : TaskId} {s0 s : Sched} {f : Fifo} (h : Hooks)
    (hI : FifoInv t s0 f s) (hfd : 0 ≤ (s0.tasks t).fd) :
    ∃ s', FifoInv t s0 (fifoCall s0 f .writable) s' ∧
      Task.run h t EPOLLOUT s =
        (if (fifoCall s0 f .writable).queue = [] then
          (match (s0.tasks t).half_close with
            | some msg => .throw (.gracefulClose msg) s'
            | none => .ok () s')
        else .ok () s') := by
  have c1 : ((EPOLLHUP ||| EPOLLRDHUP ||| EPOLLERR) &&& EPOLLOUT != 0) = false := by decide
  have c2 : (not32 (EPOLLIN ||| EPOLLOUT) &&& EPOLLOUT != 0) = false := by decide
  have c3 : (EPOLLIN &&& EPOLLOUT != 0) = false := by decide
  have c4 : (EPOLLOUT &&& EPOLLOUT != 0) = true := by decide
  have hr : Task.run_read h t EPOLLOUT s = .ok () s := by
    unfold Task.run_read
    simp only [c3, Bool.and_false, Bool.false_eq_true, if_false]
  have hfd' : 0 ≤ (s.tasks t).fd := by rw [hI.fd_eq]; exact hfd
  have hreg : (s.tasks t).events = 0 ↔ s.epoll (s.tasks t).fd = none := by
    rw [hI.fd_eq]; exact hI.registered
  obtain ⟨L, hL⟩ := hI.links
  -- the state after the refresh of the write deadline
  have key : ∀ s1 : Sched, (s1.tasks t).closed = false → (s1.tasks t).fd = (s.tasks t).fd →
      (s1.tasks t).events = (s.tasks t).events → (s1.tasks t).out = (s.tasks t).out →
      (s1.tasks t).half_close = (s.tasks t).half_close → s1.epoll = s.epoll →
      s1.script = s.script → s1.mem = s.mem → s1.wire = s.wire → TimeoutWF s1 L →
      ∃ s', FifoInv t s0 (fifoCall s0 f .writable) s' ∧
        (((Task.drain ((s1.tasks t).out.length + 1) t s1).bind fun _ s2 =>
          if (s2.tasks t).out.isEmpty then
            (Task.unschedule t EPOLLOUT s2).bind fun _ s3 =>
              match (s3.tasks t).half_close with
              | some msg => .throw (.gracefulClose msg) s3
              | none => .ok () s3
          else .ok () s2).bind fun _ s2 => Task.run_timeout t s2) =
        (if (fifoCall s0 f .writable).queue = [] then
          (match (s0.tasks t).half_close with
            | some msg => .throw (.gracefulClose msg) s'
            | none => .ok () s')
        else .ok () s') := by
    intro s1 d1 d2 d3 d4 d5 d6 d7 d8 d9 hL1
    obtain ⟨s2, sA, hdr, hF, h1, h2, h3, h4, h5, h6, h7, h8, h9⟩ :=
      run_write_exact t s s1 hfd' hreg hI.benign d1 d2 d3 d4 d5 d6 d7 d8 d9
    have hFq : fifoDrain s0 f.queue f.script = fifoDrain s (s.tasks t).out s.script := by
      rw [hI.out, hI.script, fifoDrain_congr hI.mem]
    have hcall : fifoCall s0 f .writable =
        { sent := f.sent ++ (fifoDrain s (s.tasks t).out s.script).sent,
          queue := (fifoDrain s (s.tasks t).out s.script).queue,
          script := (fifoDrain s (s.tasks t).out s.script).script } := by
      unfold fifoCall
      rw [hFq]
    have hL2 : TimeoutWF s2 L := hF.keeps_links hL1
    have hbs2 : s2.script.all WriteRes.benign = true := by
      obtain ⟨u, hu⟩ := hF.script
      exact benign_suffix hu (by rw [d7]; exact hI.benign)
    -- the invariant in the state the writable branch ends in
    have hIA : FifoInv t s0 (fifoCall s0 f .writable) sA := by
      rw [hcall]
      by_cases ho : (sA.tasks t).out = []
      · obtain ⟨hbit, hun⟩ := h8 ho
        have mf := unschedule_maskFrame hun
        refine ⟨?_, by rw [h6]; exact hI.fd_eq, ?_, by rw [← hI.fd_eq]; exact h7, ?_,
          h5.trans hI.mem, ?_, h3, h4, fun _ => ⟨fun _ => hbit, fun _ => ho⟩,
          ⟨L, mf.keeps_timeouts hL2⟩⟩
        · rw [unmasked_closed mf.task, unqueued_closed hF.task]; exact d1
        · rw [unmasked_half_close mf.task, unqueued_half_close hF.task, d5]
          exact hI.half_close
        · rw [mf.script]; exact hbs2
        · rw [← hI.fd_eq, h2, hI.fd_eq, hI.wire, List.append_assoc]
      · obtain ⟨hev, hsA⟩ := h9 ho
        subst hsA
        have hne : (s.tasks t).out ≠ [] := by
          intro e
          apply ho
          rw [h3, e]
          rfl
        refine ⟨?_, by rw [h6]; exact hI.fd_eq, ?_, by rw [← hI.fd_eq]; exact h7, hbs2,
          h5.trans hI.mem, ?_, h3, h4, fun h0 => ?_, ⟨L, hL2⟩⟩
        · rw [unqueued_closed hF.task]; exact d1
        · rw [unqueued_half_close hF.task, d5]; exact hI.half_close
        · rw [← hI.fd_eq, h2, hI.fd_eq, hI.wire, List.append_assoc]
        · rw [hev]
          have hb := hI.bit h0
          constructor
          · intro e; exact absurd e ho
          · intro e; exact absurd (hb.2 e) hne
    rw [h1]
    have hq : (fifoCall s0 f .writable).queue = (fifoDrain s (s.tasks t).out s.script).queue := by
      rw [hcall]
    rw [hq]
    -- the tail of `run`, when the branch returned
    have tail : ∃ s', FifoInv t s0 (fifoCall s0 f .writable) s' ∧
        Task.run_timeout t sA = .ok () s' := by
      obtain ⟨LA, hLA⟩ := hIA.links
      obtain ⟨s', L', e1, e2⟩ := run_timeout_total (t := t) hLA
      obtain ⟨k, hc⟩ := run_timeout_frame (by rw [e1]; rfl : (Task.run_timeout t sA).state? = some s')
      refine ⟨s', ⟨?_, ?_, ?_, ?_, ?_, k.mem.trans hIA.mem, ?_, ?_, k.script.trans hIA.script,
        fun h0 => ?_, ⟨L', e2⟩⟩, e1⟩
      · rw [core_closed _ _ (hc t)]; exact hIA.not_closed
      · rw [core_fd (hc t)]; exact hIA.fd_eq
      · rw [core_half_close (hc t)]; exact hIA.half_close
      · rw [core_events (hc t), k.epoll]; exact hIA.registered
      · rw [k.script]; exact hIA.benign
      · rw [k.wire]; exact hIA.wire
      · rw [core_out (hc t)]; exact hIA.out
      · rw [core_out (hc t), core_events (hc t)]; exact hIA.bit h0
    by_cases hqe : (fifoDrain s (s.tasks t).out s.script).queue = []
    · simp only [hqe, if_true]
      cases hhc : (s.tasks t).half_close with
      | some msg =>
        refine ⟨sA, hIA, ?_⟩
        rw [← hI.half_close, hhc]
        rfl
      | none =>
        obtain ⟨s', i1, e1⟩ := tail
        refine ⟨s', i1, ?_⟩
        rw [← hI.half_close, hhc]
        simp only [Res.bind]
        exact e1
    · simp only [hqe, if_false]
      obtain ⟨s', i1, e1⟩ := tail
      exact ⟨s', i1, by simp only [Res.bind]; exact e1⟩
  unfold Task.run
  simp only [c1, c2, Bool.false_eq_true, if_false, hr, Res.bind_ok]
  unfold Task.run_write
  simp only [c4, if_true]
  split
  · exact key _ (by rw [upd_tasks_same]; exact hI.not_closed) (by rw [upd_tasks_same])
      (by rw [upd_tasks_same]) (by rw [upd_tasks_same]) (by rw [upd_tasks_same]) rfl rfl rfl rfl
      (hL.congr (fun x => by
          rw [upd_tasks]; split
          · next e => subst e; rfl
          · rfl) (fun x => by
          rw [upd_tasks]; split
          · next e => subst e; rfl
          · rfl) rfl rfl)
  · exact key s hI.not_closed rfl rfl rfl rfl rfl rfl rfl rfl hL


theorem fifoEnqueue_append (s : Sched) (f : Fifo) (o : Out) (residue : Nat → Out)
    (hne : f.queue.isEmpty = false) :
    fifoEnqueue s f o residue = { f with queue := f.queue ++ [residue 0] } := by
  unfold fifoEnqueue
  rw [hne]
  rfl

/-- An enqueueing call does what `fifoEnqueue` does, and returns. -/
theorem FifoInv.async_write {t : TaskId} {s0 s : Sched} {f : Fifo} (hI : FifoInv t s0 f s)
    (hfd : 0 ≤ (s0.tasks t).fd) (ptr len : Nat) :
    ∃ s', Task.async_write t ptr len s = .ok () s' ∧
      FifoInv t s0 (fifoCall s0 f (.async_write ptr len)) s' := by
  unfold Task.async_write
  by_cases he : (s.tasks t).out.isEmpty = true
  · rw [if_pos he]
    exact hI.enqueue_empty hfd { ptr := .borrowed ptr, len := len } (fun r _ => r.2)
      (residual s0 false ptr len) (fun b w s1 _ => by simp [residual]) he
  · rw [if_neg he]
    have he' : (s.tasks t).out.isEmpty = false := by simpa using he
    refine ⟨_, rfl, ?_⟩
    show FifoInv t s0 (fifoEnqueue s0 f _ _) _
    rw [fifoEnqueue_append _ _ _ _ (by rw [← hI.out]; exact he')]
    exact hI.append { ptr := .borrowed ptr, len := len } he'

theorem FifoInv.async_write_cpy {t : TaskId} {s0 s : Sched} {f : Fifo}
    (hI : FifoInv t s0 f s) (hfd : 0 ≤ (s0.tasks t).fd) (ptr len : Nat) :
    ∃ s', Task.async_write_cpy t ptr len s = .ok () s' ∧
      FifoInv t s0 (fifoCall s0 f (.async_write_cpy ptr len)) s' := by
  unfold Task.async_write_cpy
  by_cases he : (s.tasks t).out.isEmpty = true
  · rw [if_pos he]
    exact hI.enqueue_empty hfd { ptr := .borrowed ptr, len := len }
      (fun r s1 => { ptr := .owned (((s1.mem ptr).drop r.2.ofs).take (len - r.2.ofs)),
                     len := len - r.2.ofs })
      (residual s0 true ptr len)
      (fun b w s1 hm => by simp [residual, hm, hI.mem]) he
  · rw [if_neg he]
    have he' : (s.tasks t).out.isEmpty = false := by simpa using he
    refine ⟨_, rfl, ?_⟩
    show FifoInv t s0 (fifoEnqueue s0 f _ _) _
    rw [fifoEnqueue_append _ _ _ _ (by rw [← hI.out]; exact he')]
    have e : residual s0 true ptr len 0 = { ptr := .owned ((s.mem ptr).take len), len := len } := by
      simp [residual, hI.mem]
    rw [e]
    exact hI.append { ptr := .owned ((s.mem ptr).take len), len := len } he'

theorem FifoInv.async_write_out {t : TaskId} {s0 s : Sched} {f : Fifo}
    (hI : FifoInv t s0 f s) (hfd : 0 ≤ (s0.tasks t).fd) (o : Out) :
    ∃ s', Task.async_write_out t o s = .ok () s' ∧
      FifoInv t s0 (fifoCall s0 f (.async_write_out o)) s' := by
  unfold Task.async_write_out
  by_cases he : (s.tasks t).out.isEmpty = true
  · rw [if_pos he]
    exact hI.enqueue_empty hfd o (fun r _ => r.2) (fun w => { o with ofs := o.ofs + w })
      (fun b w s1 _ => rfl) he
  · rw [if_neg he]
    have he' : (s.tasks t).out.isEmpty = false := by simpa using he
    refine ⟨_, rfl, ?_⟩
    show FifoInv t s0 (fifoEnqueue s0 f o (fun w => { o with ofs := o.ofs + w })) _
    rw [fifoEnqueue_append _ _ _ _ (by rw [← hI.out]; exact he')]
    exact hI.append o he'

/-- A call does what the specification's FIFO does, and raises what the specification says
it raises. -/
theorem FifoInv.exec {t : TaskId} {s0 s : Sched} {f : Fifo} (h : Hooks)
    (hI : FifoInv t s0 f s) (hfd : 0 ≤ (s0.tasks t).fd) (c : WriteCall) :
    ∃ s', FifoInv t s0 (fifoCall s0 f c) s' ∧
      c.exec h t s =
        (match fifoThrown (s0.tasks t).half_close (fifoCall s0 f c) c with
          | some e => .throw e s'
          | none => .ok () s') := by
  cases c with
  | async_write ptr len =>
    obtain ⟨s', h1, h2⟩ := hI.async_write hfd ptr len
    exact ⟨s', h2, h1⟩
  | async_write_cpy ptr len =>
    obtain ⟨s', h1, h2⟩ := hI.async_write_cpy hfd ptr len
    exact ⟨s', h2, h1⟩
  | async_write_out o =>
    obtain ⟨s', h1, h2⟩ := hI.async_write_out hfd o
    exact ⟨s', h2, h1⟩
  | writable =>
    obtain ⟨s', h1, h2⟩ := hI.writable h hfd
    refine ⟨s', h1, ?_⟩
    show Task.run h t EPOLLOUT s = _
    rw [h2]
    unfold fifoThrown
    by_cases hq : (fifoCall s0 f .writable).queue = []
    · simp only [hq, if_true]
      cases (s0.tasks t).half_close <;> rfl
    · simp only [hq, if_false]

/-- A sequence of calls does what the specification's FIFO does, up to the first call that
raises an exception. -/
theorem FifoInv.execAll {t : TaskId} {s0 : Sched} (h : Hooks) (hfd : 0 ≤ (s0.tasks t).fd) :
    ∀ (calls : List WriteCall) (f : Fifo) (s : Sched), FifoInv t s0 f s →
      ∃ s', FifoInv t s0 (fifoRun s0 (s0.tasks t).half_close calls f).fifo s' ∧
        WriteCall.execAll h t calls s =
          (match (fifoRun s0 (s0.tasks t).half_close calls f).thrown with
            | some e => .throw e s'
            | none => .ok () s') := by
  intro calls
  induction calls with
  | nil => intro f s hI; exact ⟨s, hI, rfl⟩
  | cons c cs ih =>
    intro f s hI
    obtain ⟨s1, i1, e1⟩ := hI.exec h hfd c
    unfold WriteCall.execAll fifoRun
    rw [e1]
    cases hth : fifoThrown (s0.tasks t).half_close (fifoCall s0 f c) c with
    | some e => exact ⟨s1, i1, rfl⟩
    | none =>
      obtain ⟨s', i2, e2⟩ := ih _ s1 i1
      exact ⟨s', i2, e2⟩


/-! ## The FIFO of the specification loses and invents no byte -/

theorem rest_split (s : Sched) (o : Out) (w : Nat) (hle : w ≤ o.len - o.ofs) :
    (Out.rest s o).take w ++ Out.rest s { o with ofs := o.ofs + w } = Out.rest s o := by
  unfold Out.rest
  simp only
  rw [List.take_take, Nat.min_eq_left hle]
  have e1 : (s.bufBytes o.ptr).drop (o.ofs + w) = ((s.bufBytes o.ptr).drop o.ofs).drop w := by
    rw [List.drop_drop]
  have e2 : w + (o.len - (o.ofs + w)) = o.len - o.ofs := by omega
  rw [e1, take_append_drop_take, e2]

theorem rest_length_le (s : Sched) (o : Out) : (Out.rest s o).length ≤ o.len - o.ofs := by
  unfold Out.rest
  rw [List.length_take]
  exact Nat.min_le_left _ _

/-- What `fifoEnqueue` has sent and holds queued afterwards is what was sent and queued
before, and then the bytes of the segment, when the residue for `w` bytes written holds the
bytes of the segment from `w` on. -/
theorem fifoEnqueue_bytes (s : Sched) (f : Fifo) (o : Out) (residue : Nat → Out)
    (hres : ∀ w, Out.rest s (residue w) = Out.rest s { o with ofs := o.ofs + w }) :
    (fifoEnqueue s f o residue).sent ++
        ((fifoEnqueue s f o residue).queue.map (Out.rest s)).flatten =
      f.sent ++ (f.queue.map (Out.rest s)).flatten ++ Out.rest s o := by
  have hle := fifoAccepted_le f.script (o.len - o.ofs)
  unfold fifoEnqueue
  by_cases he : f.queue.isEmpty = true
  · rw [if_pos he]
    have hq : f.queue = [] := List.isEmpty_iff.mp he
    simp only [hq, List.map_nil, List.flatten_nil, List.append_nil]
    rw [List.append_assoc]
    congr 1
    by_cases hlt : (fifoAccepted f.script (o.len - o.ofs)).1 < o.len - o.ofs
    · rw [if_pos hlt]
      simp only [List.map_cons, List.map_nil, List.flatten_cons, List.flatten_nil,
        List.append_nil]
      rw [hres, rest_split s o _ hle]
    · rw [if_neg hlt]
      simp only [List.map_nil, List.flatten_nil, List.append_nil]
      exact List.take_of_length_le (le_trans (rest_length_le s o) (by omega))
  · rw [if_neg he]
    simp only [List.map_append, List.flatten_append, List.map_cons, List.map_nil,
      List.flatten_cons, List.flatten_nil, List.append_nil]
    rw [hres, List.append_assoc]
    rfl

/-- What a call has sent and holds queued afterwards is what was sent and queued before, and
then the bytes of the call. -/
theorem fifoCall_bytes (s : Sched) (f : Fifo) (c : WriteCall) :
    (fifoCall s f c).sent ++ ((fifoCall s f c).queue.map (Out.rest s)).flatten =
      f.sent ++ (f.queue.map (Out.rest s)).flatten ++ c.bytes s := by
  cases c with
  | async_write ptr len =>
    have hb : (s.mem ptr).take len = Out.rest s { ptr := .borrowed ptr, len := len } := by
      simp [Out.rest, Sched.bufBytes]
    show (fifoEnqueue s f _ _).sent ++ _ = _ ++ (s.mem ptr).take len
    rw [hb]
    exact fifoEnqueue_bytes s f _ _ (fun w => by
      rw [rest_residual s s rfl]; simp [Out.rest, Sched.bufBytes])
  | async_write_cpy ptr len =>
    have hb : (s.mem ptr).take len = Out.rest s { ptr := .borrowed ptr, len := len } := by
      simp [Out.rest, Sched.bufBytes]
    show (fifoEnqueue s f _ _).sent ++ _ = _ ++ (s.mem ptr).take len
    rw [hb]
    exact fifoEnqueue_bytes s f _ _ (fun w => by
      rw [rest_residual s s rfl]; simp [Out.rest, Sched.bufBytes])
  | async_write_out o =>
    exact fifoEnqueue_bytes s f o (fun w => { o with ofs := o.ofs + w }) (fun w => rfl)
  | writable =>
    show (f.sent ++ (fifoDrain s f.queue f.script).sent) ++
      ((fifoDrain s f.queue f.script).queue.map (Out.rest s)).flatten = _ ++ []
    rw [List.append_nil, List.append_assoc, fifoDrain_sent]

theorem enqueued_cons (s : Sched) (c : WriteCall) (cs : List WriteCall) :
    WriteCall.enqueued s (c :: cs) = c.bytes s ++ WriteCall.enqueued s cs := by
  simp [WriteCall.enqueued]

theorem enqueued_append (s : Sched) (a b : List WriteCall) :
    WriteCall.enqueued s (a ++ b) = WriteCall.enqueued s a ++ WriteCall.enqueued s b := by
  simp [WriteCall.enqueued]

/-- Where a sequence of calls ends, by the specification: the bytes sent and the bytes
queued are the bytes sent and queued before and then the bytes of the calls performed; the
calls performed are a front part of the calls; without an exception all were performed, and
an exception is the `GracefulClose` of a writable event that left the queue empty. -/
theorem fifoRun_spec (s : Sched) (hc : Option String) :
    ∀ (calls : List WriteCall) (f : Fifo),
      (fifoRun s hc calls f).fifo.sent ++
          ((fifoRun s hc calls f).fifo.queue.map (Out.rest s)).flatten =
        f.sent ++ (f.queue.map (Out.rest s)).flatten ++
          WriteCall.enqueued s (fifoRun s hc calls f).done ∧
      (∃ post, calls = (fifoRun s hc calls f).done ++ post) ∧
      ((fifoRun s hc calls f).thrown = none → (fifoRun s hc calls f).done = calls ∧
        (fifoRun s hc calls f).fifo = fifoCalls s calls f) ∧
      (∀ e, (fifoRun s hc calls f).thrown = some e →
        ∃ pre msg, (fifoRun s hc calls f).done = pre ++ [.writable] ∧ hc = some msg ∧
          e = .gracefulClose msg ∧ (fifoRun s hc calls f).fifo.queue = []) ∧
      (hc = none → (fifoRun s hc calls f).thrown = none) := by
  intro calls
  induction calls with
  | nil =>
    intro f
    refine ⟨by simp [fifoRun, WriteCall.enqueued], ⟨[], rfl⟩, fun _ => ⟨rfl, rfl⟩,
      (fun e he => by cases he), fun _ => rfl⟩
  | cons c cs ih =>
    intro f
    unfold fifoRun
    cases hth : fifoThrown hc (fifoCall s f c) c with
    | some e =>
      simp only
      refine ⟨?_, ⟨cs, rfl⟩, (fun h => by cases h), ?_, ?_⟩
      · rw [fifoCall_bytes, enqueued_cons]
        simp [WriteCall.enqueued]
      · intro e' he'
        cases he'
        cases c with
        | writable =>
          unfold fifoThrown at hth
          simp only at hth
          split at hth
          · next hq =>
            cases hhc : hc with
            | none => rw [hhc] at hth; cases hth
            | some msg =>
              rw [hhc] at hth
              simp only [Option.map_some', Option.some.injEq] at hth
              exact ⟨[], msg, rfl, rfl, hth.symm, hq⟩
          · cases hth
        | async_write ptr len => cases hth
        | async_write_cpy ptr len => cases hth
        | async_write_out o => cases hth
      · intro h0
        subst h0
        cases c with
        | writable =>
          unfold fifoThrown at hth
          simp only at hth
          split at hth <;> cases hth
        | async_write ptr len => cases hth
        | async_write_cpy ptr len => cases hth
        | async_write_out o => cases hth
    | none =>
      simp only
      obtain ⟨h1, ⟨post, h2⟩, h3, h4, h5⟩ := ih (fifoCall s f c)
      refine ⟨?_, ⟨post, by rw [List.cons_append, ← h2]⟩, fun h => ?_, fun e he => ?_, h5⟩
      · rw [h1, fifoCall_bytes, enqueued_cons]
        simp only [List.append_assoc]
      · obtain ⟨a, b⟩ := h3 h
        exact ⟨by rw [a], by rw [b]; rfl⟩
      · obtain ⟨pre, msg, a, b, c1, d⟩ := h4 e he
        exact ⟨c :: pre, msg, by rw [a]; rfl, b, c1, d⟩

/-! ## C12: the synchronous attempt -/

/-- Either enqueueing call on an empty queue: the synchronous attempt writes the bytes that
`fifoAccepted` counts, and what it could not write is queued with `EPOLLOUT` requested. -/
theorem enqueue_exact (cpy : Bool) (t : TaskId) (ptr len : Nat) (s : Sched)
    (hopen : (s.tasks t).closed = false) (hfd : 0 ≤ (s.tasks t).fd)
    (hreg : (s.tasks t).events = 0 ↔ s.epoll (s.tasks t).fd = none)
    (hscript : s.script.all WriteRes.benign = true)
    (hout : (s.tasks t).out = []) :
    ∃ s1 s', WriteFrame t s s1 ∧ Task.enqueue cpy t ptr len s = .ok () s' ∧
      s'.wire (s.tasks t).fd =
        s.wire (s.tasks t).fd ++ (s.mem ptr).take (fifoAccepted s.script len).1 ∧
      s'.script = (fifoAccepted s.script len).2 ∧
      s'.mem = s.mem ∧
      ((fifoAccepted s.script len).1 < len →
        s' = ((s1.upd t (fun T => { T with out := [residual s cpy ptr len
            (fifoAccepted s.script len).1] })).upd t (fun T =>
              { T with events := T.events ||| EPOLLOUT
            })).setEpoll (s.tasks t).fd (some ((s.tasks t).events ||| EPOLLOUT))) ∧
      (¬ (fifoAccepted s.script len).1 < len → s' = s1) := by
  have he : (s.tasks t).out.isEmpty = true := by rw [hout]; rfl
  have hrest : (Out.rest s { ptr := .borrowed ptr, len := len }).take
      (fifoAccepted s.script len).1 = (s.mem ptr).take (fifoAccepted s.script len).1 := by
    show ((((s.mem ptr).drop 0).take (len - 0))).take _ = _
    rw [List.drop_zero, Nat.sub_zero, List.take_take, min_eq_left (fifoAccepted_le _ _)]
  cases cpy with
  | false =>
    obtain ⟨s1, s', -, hfr, h1, hw, hs, hm, hblk, hdone⟩ :=
      enqueue_body_exact (t := t) (s := s) { ptr := .borrowed ptr, len := len }
        (fun r _ => r.2) (residual s false ptr len) (fun b w s1 _ => by simp [residual])
        hopen hfd hreg hscript
    refine ⟨s1, s', hfr, ?_, ?_, hs, hm, hblk, hdone⟩
    · unfold Task.enqueue Task.async_write
      simp only [Bool.false_eq_true, if_false, he, if_true]
      exact h1
    · rw [hw]; exact congrArg _ hrest
  | true =>
    obtain ⟨s1, s', -, hfr, h1, hw, hs, hm, hblk, hdone⟩ :=
      enqueue_body_exact (t := t) (s := s) { ptr := .borrowed ptr, len := len }
        (fun r s1 => { ptr := .owned (((s1.mem ptr).drop r.2.ofs).take (len - r.2.ofs)),
                       len := len - r.2.ofs })
        (residual s true ptr len) (fun b w s1 hm => by simp [residual, hm])
        hopen hfd hreg hscript
    refine ⟨s1, s', hfr, ?_, ?_, hs, hm, hblk, hdone⟩
    · unfold Task.enqueue Task.async_write_cpy
      simp only [if_true, he]
      exact h1
    · rw [hw]; exact congrArg _ hrest

/-- C12 (as stated, refuted): two bytes are queued on the task and the kernel would accept
all that is offered; `async_write` and `async_write_cpy` of 3 bytes attempt no write (nothing
goes onto the wire, no write result is consumed) and append a segment for all 3 bytes. -/
theorem C12_counterexample :
    ((Task.async_write 0 0 3 busyWriter).state?.map fun s' =>
        (s'.wire 5, s'.script, (s'.tasks 0).out)) =
      some ([], [.accept 100, .accept 100],
        [{ ptr := .owned [8, 9], len := 2 }, { ptr := .borrowed 0, len := 3 }]) ∧
    ((Task.async_write_cpy 0 0 3 busyWriter).state?.map fun s' =>
        (s'.wire 5, s'.script, (s'.tasks 0).out)) =
      some ([], [.accept 100, .accept 100],
        [{ ptr := .owned [8, 9], len := 2 }, { ptr := .owned [1, 2, 3], len := 3 }]) := by
  decide

/-- C12 (amended): take an open task with a valid descriptor that is registered with the
epoll instance exactly when its interest mask is not 0, and write results that are positive
counts, `EWOULDBLOCK` or `EINTR`.  `async_write(ptr,len)` (`cpy = false`) and
`async_write_cpy(ptr,len)` (`cpy = true`) return.  With an empty queue a synchronous write
is attempted: the bytes on the wire grow by the first `w` bytes of the buffer, where `w` is
what the kernel accepts of `len` bytes by the write results (`fifoAccepted`), and the write
results left are those behind the ones used.  If `w = len` the queue stays empty and the
interest mask is unchanged; if `w < len` the queue holds the one segment `residual`, whose
unsent part is the bytes `[w, len)`, and the mask has gained `EPOLLOUT`.  With a non-empty
queue no write is attempted (wire and write results unchanged): the segment for all `len`
bytes is appended behind the queued ones and the mask is unchanged. -/
theorem C12_enqueue_effect (cpy : Bool) (t : TaskId) (ptr len : Nat) (s : Sched)
    (hopen : (s.tasks t).closed = false) (hfd : 0 ≤ (s.tasks t).fd)
    (hreg : (s.tasks t).events = 0 ↔ s.epoll (s.tasks t).fd = none)
    (hscript : s.script.all WriteRes.benign = true) :
    ∃ s', Task.enqueue cpy t ptr len s = .ok () s' ∧
      ((s.tasks t).out = [] →
        s'.wire (s.tasks t).fd =
          s.wire (s.tasks t).fd ++ (s.mem ptr).take (fifoAccepted s.script len).1 ∧
        s'.script = (fifoAccepted s.script len).2 ∧
        ((fifoAccepted s.script len).1 = len →
          (s'.tasks t).out = [] ∧ (s'.tasks t).events = (s.tasks t).events) ∧
        ((fifoAccepted s.script len).1 < len →
          (s'.tasks t).out = [residual s cpy ptr len (fifoAccepted s.script len).1] ∧
          Out.rest s' (residual s cpy ptr len (fifoAccepted s.script len).1) =
            ((s.mem ptr).drop (fifoAccepted s.script len).1).take
              (len - (fifoAccepted s.script len).1) ∧
          (s'.tasks t).events = (s.tasks t).events ||| EPOLLOUT)) ∧
      ((s.tasks t).out ≠ [] → s'.wire = s.wire ∧ s'.script = s.script ∧
        (s'.tasks t).out = (s.tasks t).out ++ [residual s cpy ptr len 0] ∧
        Out.rest s' (residual s cpy ptr len 0) = (s.mem ptr).take len ∧
        (s'.tasks t).events = (s.tasks t).events) := by
  by_cases hemp : (s.tasks t).out = []
  · obtain ⟨s1, s', hfr, h1, hw, hs, hm, hblk, hdone⟩ :=
      enqueue_exact cpy t ptr len s hopen hfd hreg hscript hemp
    refine ⟨s', h1, fun _ => ⟨hw, hs, fun e => ?_, fun hlt => ?_⟩, fun hne => absurd hemp hne⟩
    · have e1 := hdone (by rw [e]; exact Nat.lt_irrefl _)
      rw [e1]
      exact ⟨(uncounted_out hfr.task).trans hemp, uncounted_events hfr.task⟩
    · have e1 := hblk hlt
      refine ⟨?_, rest_residual s s' hm cpy ptr len _, ?_⟩
      · rw [e1]; simp only [setEpoll_tasks, upd_tasks_same]
      · rw [e1]; simp only [setEpoll_tasks, upd_tasks_same]
        rw [uncounted_events hfr.task]
  · have hE : (s.tasks t).out.isEmpty = false := by
      cases ho : (s.tasks t).out with
      | nil => exact absurd ho hemp
      | cons a l => rfl
    have hcall : Task.enqueue cpy t ptr len s = .ok ()
        (s.upd t (fun T => { T with out := (fun l => l ++ [residual s cpy ptr len 0]) T.out })) := by
      unfold Task.enqueue Task.async_write Task.async_write_cpy residual
      cases cpy <;> simp [hE]
    rw [hcall]
    refine ⟨_, rfl, fun h => absurd h hemp, fun _ => ⟨rfl, rfl, ?_, ?_, ?_⟩⟩
    · rw [upd_tasks_same]
    · rw [rest_residual s (s.upd t _) rfl]; simp
    · rw [upd_tasks_same]

/-- C12 witness: `async_write_cpy` of the 7 bytes `[4 .. 10]` on a task with an empty queue,
the kernel taking 3: `[4, 5, 6]` are on the wire and an owned copy of `[7, 8, 9, 10]` is
queued with `EPOLLOUT` requested. -/
theorem C12_enqueue_effect_witness :
    ∃ s', Task.enqueue true 0 1 7 writer3_7_2 = .ok () s' ∧ s'.wire 5 = [4, 5, 6] ∧
      (s'.tasks 0).out = [{ ptr := .owned [7, 8, 9, 10], len := 4 }] ∧
      (s'.tasks 0).events = EPOLLIN ||| EPOLLOUT := by
  obtain ⟨s', h1, h2, -⟩ := C12_enqueue_effect true 0 1 7 writer3_7_2 (by decide) (by decide)
    (by decide) (by decide)
  obtain ⟨hw, -, -, hlt⟩ := h2 (by decide)
  have hF : fifoAccepted writer3_7_2.script 7 =
      (3, [.accept 5, .accept 100, .accept 100]) := by decide
  rw [hF] at hw hlt
  obtain ⟨ho, -, hev⟩ := hlt (by decide)
  exact ⟨s', h1, hw, ho, hev⟩

/-! ## `Task::run` keeps the shape of the scheduler -/

theorem endsIn_ok {α : Type} (a : α) {s : Sched} {P : Sched → Prop} (h : P s) :
    (Res.ok a s).endsIn P := ⟨s, rfl, h⟩

theorem endsIn_throw {α : Type} (e : Exn) {s : Sched} {P : Sched → Prop} (h : P s) :
    (Res.throw (α := α) e s).endsIn P := ⟨s, rfl, h⟩

theorem endsIn_mono {α : Type} {r : Res α} {P Q : Sched → Prop} (h : r.endsIn P)
    (hPQ : ∀ s, P s → Q s) : r.endsIn Q := by
  obtain ⟨s', e, p⟩ := h
  exact ⟨s', e, hPQ s' p⟩

theorem endsIn_bind {α β : Type} {r : Res α} {k : α → Sched → Res β} {P Q : Sched → Prop}
    (hr : r.endsIn P) (hPQ : ∀ s, P s → Q s)
    (hk : ∀ a s1, r = .ok a s1 → P s1 → (k a s1).endsIn Q) : (r.bind k).endsIn Q := by
  obtain ⟨s', e, p⟩ := hr
  cases r with
  | ok a s1 =>
    cases e
    exact hk a s' rfl p
  | throw x s1 =>
    cases e
    exact ⟨s', rfl, hPQ s' p⟩
  | diverge => cases e

theorem skel_fd {T T' : Task} (h : T'.skel = T.skel) : T'.fd = T.fd :=
  congrArg (fun x => x.1) h
theorem skel_events {T T' : Task} (h : T'.skel = T.skel) : T'.events = T.events :=
  congrArg (fun x => x.2.1) h
theorem skel_closed {T T' : Task} (h : T'.skel = T.skel) : T'.closed = T.closed :=
  congrArg (fun x => x.2.2.1) h
theorem skel_tree_parent {T T' : Task} (h : T'.skel = T.skel) :
    T'.tree_parent = T.tree_parent := congrArg (fun x => x.2.2.2.1) h
theorem skel_tree_first_child {T T' : Task} (h : T'.skel = T.skel) :
    T'.tree_first_child = T.tree_first_child := congrArg (fun x => x.2.2.2.2.1) h
theorem skel_tree_next_sibling {T T' : Task} (h : T'.skel = T.skel) :
    T'.tree_next_sibling = T.tree_next_sibling := congrArg (fun x => x.2.2.2.2.2.1) h
theorem skel_prev {T T' : Task} (h : T'.skel = T.skel) : T'.timeout.prev = T.timeout.prev :=
  congrArg (fun x => x.2.2.2.2.2.2.1) h
theorem skel_next {T T' : Task} (h : T'.skel = T.skel) : T'.timeout.next = T.timeout.next :=
  congrArg (fun x => x.2.2.2.2.2.2.2) h

theorem sameShape_refl (s : Sched) : SameShape s s := ⟨rfl, rfl, rfl, fun _ => rfl⟩

theorem sameShape_trans {a b c : Sched} (h1 : SameShape a b) (h2 : SameShape b c) :
    SameShape a c :=
  ⟨h2.ntasks.trans h1.ntasks, h2.timeouts.trans h1.timeouts, h2.epoll.trans h1.epoll,
    fun i => (h2.skel i).trans (h1.skel i)⟩

theorem sameShape_upd (s : Sched) (t : TaskId) (f : Task → Task)
    (hf : (f (s.tasks t)).skel = (s.tasks t).skel) : SameShape s (s.upd t f) := by
  refine ⟨rfl, rfl, rfl, fun i => ?_⟩
  rw [upd_tasks]
  split
  · next h => subst h; exact hf
  · rfl

theorem kids_congr {s s' : Sched} (hn : s'.ntasks = s.ntasks)
    (hp : ∀ i, (s'.tasks i).tree_parent = (s.tasks i).tree_parent) (p : TaskId) :
    kids s' p = kids s p := by
  unfold kids
  rw [hn]
  apply List.filter_congr
  intro c _
  rw [hp c]

theorem TreeWF.of_links {s s' : Sched} (hw : TreeWF s) (hn : s'.ntasks = s.ntasks)
    (hp : ∀ i, (s'.tasks i).tree_parent = (s.tasks i).tree_parent)
    (hf : ∀ i, (s'.tasks i).tree_first_child = (s.tasks i).tree_first_child)
    (hs : ∀ i, (s'.tasks i).tree_next_sibling = (s.tasks i).tree_next_sibling) :
    TreeWF s' := by
  refine ⟨?_, ?_, ?_⟩
  · intro i p h
    rw [hp i] at h
    rw [hn]; exact hw.parent_lt i p h
  · intro p
    rw [hf p, kids_congr hn hp]; exact hw.first_child p
  · intro c p h
    rw [hp c] at h
    rw [hs c, kids_congr hn hp]; exact hw.next_sibling c p h

theorem EpollOk.of_fields {s s' : Sched} (h : EpollOk s) (he : s'.epoll = s.epoll)
    (hfd : ∀ i, (s'.tasks i).fd = (s.tasks i).fd)
    (hev : ∀ i, (s'.tasks i).events = (s.tasks i).events) : EpollOk s' := by
  refine ⟨?_, ?_⟩
  · intro i h1 h2
    rw [hev i] at h1
    rw [hfd i] at h2 ⊢
    rw [he]; exact h.registered i h1 h2
  · intro i j hij h1
    rw [hfd i] at h1 ⊢
    rw [hfd j]; exact h.distinct i j hij h1

theorem Shaped.of_sameShape {s s' : Sched} (h : Shaped s) (f : SameShape s s') : Shaped s' := by
  obtain ⟨hT, hE, L, hL⟩ := h
  exact ⟨hT.of_links f.ntasks (fun i => skel_tree_parent (f.skel i))
      (fun i => skel_tree_first_child (f.skel i)) (fun i => skel_tree_next_sibling (f.skel i)),
    hE.of_fields f.epoll (fun i => skel_fd (f.skel i)) (fun i => skel_events (f.skel i)),
    L, hL.congr (fun i => skel_next (f.skel i)) (fun i => skel_prev (f.skel i)) f.timeouts
      f.ntasks⟩

theorem Kept.of_same {n : Nat} {s s' : Sched} (h : Kept n s) (f : SameShape s s') : Kept n s' :=
  ⟨h.1.of_sameShape f, by rw [f.ntasks]; exact h.2⟩

theorem sys_write_shape (fd : Int) (bytes : List Nat) (n : Nat) (s : Sched) :
    SameShape s (sys_write fd bytes n s).2 := by
  unfold sys_write
  split
  · exact sameShape_refl s
  · split <;> exact ⟨rfl, rfl, rfl, fun _ => rfl⟩

theorem sys_write_script (fd : Int) (bytes : List Nat) (n : Nat) (s : Sched) :
    (sys_write fd bytes n s).1 = .ewouldblock ∨ (sys_write fd bytes n s).1 = .efail ∨
      (sys_write fd bytes n s).2.script.length < s.script.length := by
  unfold sys_write
  split
  · exact Or.inr (Or.inl rfl)
  · split
    · exact Or.inl rfl
    · rename_i h; right; right; simp [h]
    · exact Or.inl rfl
    · rename_i h; right; right; simp [h]
    · exact Or.inr (Or.inl rfl)

/-- The loop of `Task::async_write(ptr,len,written)` ends, whatever the write results are,
and keeps the shape. -/
theorem do_async_write_loop_shape (t : TaskId) (data : List Nat) (len : Nat) :
    ∀ (fuel written : Nat) (s : Sched), s.script.length < fuel →
      (Task.do_async_write_loop t data len fuel written s).endsIn (SameShape s) := by
  intro fuel
  induction fuel with
  | zero => intro written s h; exact absurd h (Nat.not_lt_zero _)
  | succ n ih =>
    intro written s hlen
    unfold Task.do_async_write_loop
    split
    · have hw := sys_write_shape (s.tasks t).fd (data.drop written) (len - written) s
      have hs := sys_write_script (s.tasks t).fd (data.drop written) (len - written) s
      split
      all_goals rename_i heq
      all_goals rw [heq] at hw hs
      all_goals simp only at hw hs
      · exact endsIn_ok _ hw
      · have hl := (hs.resolve_left (by simp)).resolve_left (by simp)
        exact endsIn_mono (ih _ _ (Nat.lt_of_lt_of_le hl (Nat.le_of_lt_succ hlen)))
          (fun _ h => sameShape_trans hw h)
      · exact endsIn_throw _ hw
      · exact endsIn_throw _ hw
      · have hl := (hs.resolve_left (by simp)).resolve_left (by simp)
        refine endsIn_mono (ih _ _ (by
          rw [upd_script]; exact Nat.lt_of_lt_of_le hl (Nat.le_of_lt_succ hlen)))
          (fun _ h => ?_)
        exact sameShape_trans hw (sameShape_trans (sameShape_upd _ t _ rfl) h)
    · exact endsIn_ok _ (sameShape_refl s)

theorem out_async_write_shape (o : Out) (t : TaskId) (s : Sched) :
    (Out.async_write o t s).endsIn (SameShape s) := by
  unfold Out.async_write Task.do_async_write
  split
  · exact endsIn_throw _ (sameShape_refl s)
  · exact endsIn_bind (do_async_write_loop_shape t _ _ _ 0 s (Nat.lt_succ_self _))
      (fun _ h => h) (fun r s1 _ h => endsIn_ok _ h)

/-- The loop `while(out)` of `Task::run` ends, whatever the write results are, and keeps
the shape. -/
theorem drain_shape (t : TaskId) : ∀ (fuel : Nat) (s : Sched), (s.tasks t).out.length < fuel →
    (Task.drain fuel t s).endsIn (SameShape s) := by
  intro fuel
  induction fuel with
  | zero => intro s h; exact absurd h (Nat.not_lt_zero _)
  | succ n ih =>
    intro s hlen
    unfold Task.drain
    split
    · exact endsIn_ok _ (sameShape_refl s)
    · rename_i o tl hout
      refine endsIn_bind (out_async_write_shape o t s) (fun _ h => h) (fun r s1 h1 f1 => ?_)
      have ho1 : (s1.tasks t).out = (s.tasks t).out :=
        qview_out ((out_async_write_queue (o := o) (t := t) (s := s)).1 s1 (state_of_ok h1) t)
      simp only
      split
      · exact endsIn_ok _ (sameShape_trans f1 (sameShape_upd _ t _ rfl))
      · refine endsIn_mono (ih _ ?_) (fun _ h => sameShape_trans f1
          (sameShape_trans (sameShape_upd _ t _ rfl) (sameShape_trans (sameShape_upd _ t _ rfl) h)))
        rw [upd_tasks_same, upd_tasks_same]
        simp only [List.tail_cons]
        rw [ho1, hout]
        simp only [List.tail_cons]
        rw [hout] at hlen
        simpa using hlen


theorem epoll_ctl_eq {s s' : Sched} {op : EpollOp} {fd : Int} {ev : Nat}
    (h : epoll_ctl s op fd ev = some s') :
    0 ≤ fd ∧ s'.tasks = s.tasks ∧ s'.ntasks = s.ntasks ∧ s'.timeouts = s.timeouts ∧
      (∀ g, g ≠ fd → s'.epoll g = s.epoll g) ∧
      (op ≠ .del → (s'.epoll fd).isSome = true) := by
  unfold epoll_ctl at h
  split at h
  · cases h
  · rename_i hfd
    have hfd' : 0 ≤ fd := not_lt.1 hfd
    split at h <;> first
      | (cases h
         refine ⟨hfd', rfl, rfl, rfl, fun g hg => ?_, fun hne => ?_⟩
         · rw [setEpoll_epoll, if_neg hg]
         · first
           | (rw [setEpoll_epoll, if_pos rfl]; rfl)
           | exact absurd rfl hne)
      | cases h

theorem unschedule_ends (t : TaskId) (flags : Nat) (s : Sched) :
    ∃ s', (Task.unschedule t flags s).state? = some s' := by
  unfold Task.unschedule
  split
  · simp only
    split
    · exact ⟨_, rfl⟩
    · exact ⟨_, rfl⟩
  · exact ⟨_, rfl⟩

theorem unmasked_fd {T T' : Task} (h : T'.unmasked = T.unmasked) : T'.fd = T.fd := by
  have h1 : T'.unmasked.fd = T.unmasked.fd := congrArg Task.fd h
  exact h1

theorem Kept.upd {n : Nat} {s : Sched} (h : Kept n s) (t : TaskId) (f : Task → Task)
    (hf : (f (s.tasks t)).skel = (s.tasks t).skel) : Kept n (s.upd t f) :=
  h.of_same (sameShape_upd s t f hf)

theorem Kept.mono {n m : Nat} {s : Sched} (h : Kept m s) (hnm : n ≤ m) : Kept n s :=
  ⟨h.1, Nat.le_trans hnm h.2⟩

/-- `run(events)` with a bit other than the five it knows throws at once. -/
theorem run_unexpected_event (h : Hooks) (t : TaskId) (s : Sched) :
    Task.run h t 32 s = .throw .internalError s := by
  have c1 : ((EPOLLHUP ||| EPOLLRDHUP ||| EPOLLERR) &&& 32 != 0) = false := by decide
  have c2 : (not32 (EPOLLIN ||| EPOLLOUT) &&& 32 != 0) = true := by decide
  unfold Task.run
  simp only [c1, c2, Bool.false_eq_true, if_false, if_true]

/-- The dispatch loop evaluated.  An unexpected bit for task 1 closes it and, through the
cascade of `close()`, tasks 0 and 2, whose later events are skipped; the loop comes to its
end.  A `read()` of task 1 that throws `Shutdown` ends `Scheduler::run` before the event of
task 2 is looked at, and no task is closed. -/
theorem dispatch_examples :
    dispatchView (Scheduler.dispatch (fun _ => defaultHooks) [⟨1, 32⟩, ⟨0, 32⟩, ⟨2, 1⟩]
        family3) 3 = some (false, [true, true, true]) ∧
      dispatchView (Scheduler.dispatch (fun i => if i = 1 then shutdownHooks else defaultHooks)
        [⟨0, 1⟩, ⟨1, 1⟩, ⟨2, 32⟩] family3) 3 = some (true, [false, false, false]) := by
  decide

/-! ## The bytes on the wire, however the calls end -/

theorem sent_refl (t : TaskId) (s : Sched) : Sent t [] s s :=
  ⟨rfl, rfl, rfl, (List.append_nil _).symm⟩

theorem sent_trans {t : TaskId} {x y : List Nat} {a b c : Sched} (h1 : Sent t x a b)
    (h2 : Sent t y b c) : Sent t (x ++ y) a c :=
  ⟨h2.mem.trans h1.mem, h2.fd.trans h1.fd, h2.out.trans h1.out, by
    have := h2.wire
    rw [h1.fd] at this
    rw [this, h1.wire, List.append_assoc]⟩

theorem sent_of_eq {t : TaskId} {x y : List Nat} {a b : Sched} (h : Sent t x a b) (e : x = y) :
    Sent t y a b := e ▸ h

/-- A step that leaves the wire, the buffers, and descriptor and queue of `t` alone. -/
theorem sent_nil {t : TaskId} {a b : Sched} (hm : b.mem = a.mem) (hw : b.wire = a.wire)
    (hf : (b.tasks t).fd = (a.tasks t).fd) (ho : (b.tasks t).out = (a.tasks t).out) :
    Sent t [] a b :=
  ⟨hm, hf, ho, by rw [hw, List.append_nil]⟩

theorem sys_write_sent (t : TaskId) (bytes : List Nat) (n : Nat) (s : Sched) :
    match (sys_write (s.tasks t).fd bytes n s).1 with
    | .count k => k ≤ n ∧ Sent t (bytes.take k) s (sys_write (s.tasks t).fd bytes n s).2
    | _ => Sent t [] s (sys_write (s.tasks t).fd bytes n s).2 := by
  by_cases hfd : (s.tasks t).fd < 0
  · have e : sys_write (s.tasks t).fd bytes n s = (.efail, s) := by
      unfold sys_write; rw [if_pos hfd]
    rw [e]
    exact sent_refl t s
  · cases hs : s.script with
    | nil =>
      have e : sys_write (s.tasks t).fd bytes n s = (.ewouldblock, s) := by
        unfold sys_write; rw [if_neg hfd, hs]
      rw [e]
      exact sent_refl t s
    | cons x rest =>
      cases x with
      | accept k =>
        have e : sys_write (s.tasks t).fd bytes n s = (.count (min k n),
            { s with script := rest,
                     wire := fun g => if g = (s.tasks t).fd then
                       s.wire (s.tasks t).fd ++ bytes.take (min k n) else s.wire g }) := by
          unfold sys_write; rw [if_neg hfd, hs]
        rw [e]
        exact ⟨Nat.min_le_right _ _, rfl, rfl, rfl, by simp⟩
      | wouldblock =>
        have e : sys_write (s.tasks t).fd bytes n s = (.ewouldblock, { s with script := rest }) := by
          unfold sys_write; rw [if_neg hfd, hs]
        rw [e]
        exact sent_nil rfl rfl rfl rfl
      | eintr =>
        have e : sys_write (s.tasks t).fd bytes n s = (.eintr, { s with script := rest }) := by
          unfold sys_write; rw [if_neg hfd, hs]
        rw [e]
        exact sent_nil rfl rfl rfl rfl
      | error =>
        have e : sys_write (s.tasks t).fd bytes n s = (.efail, { s with script := rest }) := by
          unfold sys_write; rw [if_neg hfd, hs]
        rw [e]
        exact sent_nil rfl rfl rfl rfl

theorem sent_counted {t : TaskId} {x : List Nat} {a b : Sched} (h : Sent t x a b)
    (f : Nat → Nat) :
    Sent t x a (b.upd t (fun T => { T with totalWritten := f T.totalWritten })) := by
  refine ⟨h.mem, ?_, ?_, h.wire⟩
  · rw [upd_tasks_same]; exact h.fd
  · rw [upd_tasks_same]; exact h.out

/-- The loop of `Task::async_write(ptr,len,written)`, however it ends: the bytes
`data[written .. w)` went onto the wire, and `w` is the count it returns when it returns. -/
theorem do_async_write_loop_sent (t : TaskId) (data : List Nat) (len : Nat) :
    ∀ (fuel written : Nat) (s : Sched) (r : Res (Bool × Nat)),
      Task.do_async_write_loop t data len fuel written s = r → written ≤ len →
      ∀ s', r.state? = some s' →
        ∃ w, written ≤ w ∧ w ≤ len ∧ Sent t ((data.drop written).take (w - written)) s s' ∧
          (∀ b w2, r = .ok (b, w2) s' → w2 = w ∧ (b = true → w = len)) := by
  intro fuel
  induction fuel with
  | zero =>
    intro written s r h _ s' hs
    unfold Task.do_async_write_loop at h
    subst h
    exact absurd hs (by simp [Res.state?])
  | succ n ih =>
    intro written s r h hw s' hs
    have z : (data.drop written).take (written - written) = [] := by
      rw [Nat.sub_self, List.take_zero]
    unfold Task.do_async_write_loop at h
    split at h
    · rename_i hlt
      have b1 := sys_write_sent t (data.drop written) (len - written) s
      split at h
      all_goals rename_i heq
      all_goals rw [heq] at b1
      all_goals simp only at b1
      · subst h
        cases hs
        refine ⟨written, le_refl _, hw, ?_, fun b w2 hr => ?_⟩
        · rw [z]
          exact b1
        · cases hr; exact ⟨rfl, fun hb => by cases hb⟩
      · obtain ⟨w, h1, h2, h3, h4⟩ := ih written _ r h hw s' hs
        refine ⟨w, h1, h2, ?_, h4⟩
        exact sent_of_eq (sent_trans b1 h3) (List.nil_append _)
      · subst h
        cases hs
        refine ⟨written, le_refl _, hw, ?_, fun b w2 hr => ?_⟩
        · rw [z]
          exact b1
        · cases hr
      · subst h
        cases hs
        refine ⟨written, le_refl _, hw, ?_, fun b w2 hr => ?_⟩
        · rw [z]
          exact b1.2
        · cases hr
      · rename_i k s1
        obtain ⟨hk, b2⟩ := b1
        obtain ⟨w, h1, h2, h3, h4⟩ := ih (written + (k + 1)) _ r h (by omega) s' hs
        refine ⟨w, by omega, h2, ?_, h4⟩
        refine sent_of_eq (sent_trans (sent_counted b2 (fun x => (x + (k + 1)) % UINT32)) h3) ?_
        have e : w - written = (k + 1) + (w - (written + (k + 1))) := by omega
        rw [e, ← take_append_drop_take, List.drop_drop]
    · subst h
      cases hs
      have : written = len := by omega
      subst this
      refine ⟨written, le_refl _, le_refl _, ?_, fun b w2 hr => ?_⟩
      · rw [z]
        exact sent_refl t s
      · cases hr; exact ⟨rfl, fun _ => rfl⟩

/-- The call `Task::async_write(ptr,len,written)`, however it ends: the first `w` bytes of
`data` went onto the wire, and `w` is the count it returns when it returns. -/
theorem do_async_write_sent (t : TaskId) (data : List Nat) (len : Nat) (s s' : Sched)
    (hs : (Task.do_async_write t data len s).state? = some s') :
    ∃ w, w ≤ len ∧ Sent t (data.take w) s s' ∧
      (∀ b w2, Task.do_async_write t data len s = .ok (b, w2) s' →
        w2 = w ∧ (b = true → w = len)) := by
  unfold Task.do_async_write at hs ⊢
  split at hs
  · cases hs
    refine ⟨0, Nat.zero_le _, sent_refl t s, fun b w2 hr => ?_⟩
    rename_i hc
    rw [if_pos hc] at hr
    cases hr
  · rename_i hc
    rw [if_neg hc]
    obtain ⟨w, -, h2, h3, h4⟩ :=
      do_async_write_loop_sent t data len _ 0 s _ rfl (Nat.zero_le _) s' hs
    exact ⟨w, h2, h3, h4⟩

/-- The call `Out::async_write`, however it ends: the first `w` of the bytes still to be
written went onto the wire, and the segment returned is advanced by `w`. -/
theorem out_async_write_sent (o : Out) (t : TaskId) (s s' : Sched)
    (hs : (Out.async_write o t s).state? = some s') :
    ∃ w, w ≤ o.len - o.ofs ∧ Sent t ((Out.rest s o).take w) s s' ∧
      (∀ b o', Out.async_write o t s = .ok (b, o') s' →
        o' = { o with ofs := o.ofs + w } ∧ (b = true → w = o.len - o.ofs)) := by
  unfold Out.async_write at hs ⊢
  cases hr : Task.do_async_write t ((s.bufBytes o.ptr).drop o.ofs) (o.len - o.ofs) s with
  | diverge => rw [hr] at hs; cases hs
  | throw e s1 =>
    rw [hr] at hs
    cases hs
    obtain ⟨w, h1, h2, -⟩ := do_async_write_sent t _ _ s s' (by rw [hr]; rfl)
    refine ⟨w, h1, sent_of_eq h2 ?_, fun b o' hx => by cases hx⟩
    unfold Out.rest
    rw [List.take_take, Nat.min_eq_left h1]
  | ok a s1 =>
    rw [hr] at hs
    cases hs
    obtain ⟨w, h1, h2, h3⟩ := do_async_write_sent t _ _ s s' (by rw [hr]; rfl)
    obtain ⟨h4, h5⟩ := h3 a.1 a.2 hr
    refine ⟨w, h1, sent_of_eq h2 ?_, fun b o' hx => ?_⟩
    · unfold Out.rest
      rw [List.take_take, Nat.min_eq_left h1]
    · cases hx
      exact ⟨by rw [h4], h5⟩

theorem unmasked_out {T T' : Task} (h : T'.unmasked = T.unmasked) : T'.out = T.out := by
  have := congrArg Task.out h
  exact this

theorem sent_of_maskFrame {t : TaskId} {a b : Sched} (f : MaskFrame t a b) : Sent t [] a b :=
  sent_nil f.mem f.wire (unmasked_fd f.task) (unmasked_out f.task)

theorem sent_pending {t : TaskId} {x : List Nat} {a b : Sched} (h : Sent t x a b) :
    b.pending t = a.pending t :=
  pending_congr h.mem h.out

theorem flowOk_of_sent {t : TaskId} {x : List Nat} {a b : Sched} (h : Sent t x a b)
    {E : List Nat} (e : x ++ a.pending t = a.pending t ++ E) : FlowOk t E a b :=
  ⟨h.mem, h.fd, x, h.wire, by rw [sent_pending h]; exact e⟩

theorem flowOk_neutral {t : TaskId} {a b : Sched} (h : Sent t [] a b) : FlowOk t [] a b :=
  flowOk_of_sent h (by simp)

theorem flowOk_trans {t : TaskId} {E1 E2 : List Nat} {a b c : Sched} (h1 : FlowOk t E1 a b)
    (h2 : FlowOk t E2 b c) : FlowOk t (E1 ++ E2) a c := by
  obtain ⟨d1, w1, c1⟩ := h1.bytes
  obtain ⟨d2, w2, c2⟩ := h2.bytes
  rw [h1.fd] at w2
  refine ⟨h2.mem.trans h1.mem, h2.fd.trans h1.fd, d1 ++ d2, ?_, ?_⟩
  · rw [w2, w1, List.append_assoc]
  · rw [List.append_assoc, c2, ← List.append_assoc, c1, List.append_assoc]

/-- What happens after a step that lost nothing is counted from the start of the step. -/
theorem flow_after {α : Type} {t : TaskId} {E1 E2 : List Nat} {a b : Sched} {r : Res α}
    (h1 : FlowOk t E1 a b) (h2 : r.flow t E2 b) : r.flow t (E1 ++ E2) a := by
  cases r with
  | ok x c => exact flowOk_trans h1 h2
  | diverge => trivial
  | throw e c =>
    obtain ⟨d1, w1, c1⟩ := h1.bytes
    obtain ⟨d2, w2, p2⟩ := h2
    rw [h1.fd] at w2
    refine ⟨d1 ++ d2, ?_, ?_⟩
    · rw [w2, w1, List.append_assoc]
    · rw [← List.append_assoc, ← c1, List.append_assoc]
      exact (List.prefix_append_right_inj d1).mpr p2

theorem flow_bind {α β : Type} {t : TaskId} {E1 E2 : List Nat} {s : Sched} {r : Res α}
    {k : α → Sched → Res β} (hr : r.flow t E1 s)
    (hk : ∀ a s1, r = .ok a s1 → (k a s1).flow t E2 s1) : (r.bind k).flow t (E1 ++ E2) s := by
  cases r with
  | ok a s1 => exact flow_after hr (hk a s1 rfl)
  | diverge => trivial
  | throw e s1 =>
    obtain ⟨d, w, p⟩ := hr
    refine ⟨d, w, ?_⟩
    rw [← List.append_assoc]
    exact p.trans (List.prefix_append _ _)

/-- A step that only ends in states with the wire, the buffers, and descriptor and queue of
`t` as before neither sends nor loses a byte. -/
theorem flow_neutral {α : Type} {t : TaskId} {s : Sched} {r : Res α}
    (h : ∀ s', r.state? = some s' → Sent t [] s s') : r.flow t [] s := by
  cases r with
  | ok a s1 => exact flowOk_neutral (h s1 rfl)
  | diverge => trivial
  | throw e s1 =>
    refine ⟨[], ?_, List.nil_prefix⟩
    exact (h s1 rfl).wire

theorem flow_of_eq {α : Type} {t : TaskId} {E E' : List Nat} {s : Sched} {r : Res α}
    (h : r.flow t E s) (e : E = E') : r.flow t E' s := e ▸ h

theorem schedule_flow (t : TaskId) (m : Nat) (s : Sched) :
    (Task.schedule t m s).flow t [] s :=
  flow_neutral fun _ hs => sent_of_maskFrame (schedule_maskFrame hs)

theorem unschedule_flow (t : TaskId) (m : Nat) (s : Sched) :
    (Task.unschedule t m s).flow t [] s :=
  flow_neutral fun _ hs => sent_of_maskFrame (unschedule_maskFrame hs)

theorem rest_take_all (s : Sched) (o : Out) : (Out.rest s o).take (o.len - o.ofs) = Out.rest s o :=
  List.take_of_length_le (rest_length_le s o)

/-- The body of the three enqueuing calls on an empty queue, however it ends: the bytes of
the segment went onto the wire or are queued, or, after an exception, a prefix of them went
onto the wire. -/
theorem enqueue_body_flow {t : TaskId} {s : Sched} (o : Out) (Q : Bool × Out → Sched → Out)
    (hQ : ∀ (b : Bool) (w : Nat) (s1 : Sched), s1.mem = s.mem →
      Out.rest s (Q (b, { o with ofs := o.ofs + w }) s1) = Out.rest s { o with ofs := o.ofs + w })
    (he : (s.tasks t).out = []) :
    ((Out.async_write o t s).bind fun r s1 =>
      if !r.1 then Task.schedule t EPOLLOUT (s1.upd t (fun T => { T with out := [Q r s1] }))
      else .ok () s1).flow t (Out.rest s o) s := by
  have hp : s.pending t = [] := by rw [pending_eq he]; rfl
  cases hr : Out.async_write o t s with
  | diverge => trivial
  | throw e s1 =>
    obtain ⟨w, -, h2, -⟩ := out_async_write_sent o t s s1 (by rw [hr]; rfl)
    refine ⟨_, h2.wire, ?_⟩
    rw [hp, List.nil_append]
    exact List.take_prefix _ _
  | ok a s1 =>
    obtain ⟨w, h1, h2, h3⟩ := out_async_write_sent o t s s1 (by rw [hr]; rfl)
    obtain ⟨h4, h5⟩ := h3 a.1 a.2 hr
    show (if !a.1 then Task.schedule t EPOLLOUT (s1.upd t (fun T => { T with out := [Q a s1] }))
      else .ok () s1).flow t (Out.rest s o) s
    cases hb : a.1 with
    | true =>
      simp only [Bool.not_true, Bool.false_eq_true, if_false]
      refine flowOk_of_sent h2 ?_
      rw [hp, h5 hb, rest_take_all]
      simp
    | false =>
      simp only [Bool.not_false, if_true]
      have step : FlowOk t (Out.rest s o) s (s1.upd t (fun T => { T with out := [Q a s1] })) := by
        refine ⟨h2.mem, ?_, _, h2.wire, ?_⟩
        · rw [upd_tasks_same]; exact h2.fd
        · rw [hp, List.nil_append]
          have e : (s1.upd t (fun T => { T with out := [Q a s1] })).pending t =
              Out.rest s (Q a s1) := by
            rw [pending_eq (q := [Q a s1]) (by rw [upd_tasks_same])]
            simp only [List.map_cons, List.map_nil, List.flatten_cons, List.flatten_nil,
              List.append_nil]
            exact rest_congr h2.mem _
          have ea : a = (a.1, a.2) := rfl
          rw [e, ea, h4, hQ _ _ _ h2.mem]
          exact rest_split s o w h1
      exact flow_of_eq (flow_after step (schedule_flow t EPOLLOUT _)) (List.append_nil _)

theorem flowOk_append {t : TaskId} {s : Sched} (q : Out) :
    FlowOk t (Out.rest s q) s (s.upd t (fun T => { T with out := T.out ++ [q] })) := by
  refine ⟨rfl, by rw [upd_tasks_same], [], by simp, ?_⟩
  rw [List.nil_append]
  unfold Sched.pending
  rw [upd_tasks_same]
  simp only [List.map_append, List.flatten_append, List.map_cons, List.map_nil,
    List.flatten_cons, List.flatten_nil, List.append_nil]
  rfl

theorem pending_of {s s' : Sched} {t : TaskId} {q : List Out} (hm : s'.mem = s.mem)
    (ho : (s'.tasks t).out = q) : s'.pending t = (q.map (Out.rest s)).flatten := by
  rw [pending_eq ho]
  congr 1
  exact List.map_congr_left fun x _ => rest_congr hm x

theorem isEmpty_eq_nil {α : Type} {l : List α} (h : l.isEmpty = true) : l = [] := by
  cases l with
  | nil => rfl
  | cons a b => cases h

theorem async_write_flow (t : TaskId) (ptr len : Nat) (s : Sched) :
    (Task.async_write t ptr len s).flow t ((s.mem ptr).take len) s := by
  have e : Out.rest s { ptr := .borrowed ptr, len := len } = (s.mem ptr).take len := by
    simp [Out.rest, Sched.bufBytes]
  unfold Task.async_write
  by_cases he : (s.tasks t).out.isEmpty = true
  · rw [if_pos he, ← e]
    exact enqueue_body_flow { ptr := .borrowed ptr, len := len } (fun r _ => r.2)
      (fun _ _ _ _ => rfl) (isEmpty_eq_nil he)
  · rw [if_neg he, ← e]
    exact flowOk_append _

theorem async_write_cpy_flow (t : TaskId) (ptr len : Nat) (s : Sched) :
    (Task.async_write_cpy t ptr len s).flow t ((s.mem ptr).take len) s := by
  have e : Out.rest s { ptr := .borrowed ptr, len := len } = (s.mem ptr).take len := by
    simp [Out.rest, Sched.bufBytes]
  unfold Task.async_write_cpy
  by_cases he : (s.tasks t).out.isEmpty = true
  · rw [if_pos he, ← e]
    exact enqueue_body_flow { ptr := .borrowed ptr, len := len }
      (fun r s1 => { ptr := .owned (((s1.mem ptr).drop r.2.ofs).take (len - r.2.ofs)),
                     len := len - r.2.ofs })
      (fun b w s1 hm => by simp [Out.rest, Sched.bufBytes, hm, List.take_take])
      (isEmpty_eq_nil he)
  · rw [if_neg he]
    have e2 : Out.rest s { ptr := .owned ((s.mem ptr).take len), len := len } =
        (s.mem ptr).take len := by
      simp [Out.rest, Sched.bufBytes, List.take_take]
    have := flowOk_append (t := t) (s := s) { ptr := .owned ((s.mem ptr).take len), len := len }
    rw [e2] at this
    exact this

theorem async_write_out_flow (t : TaskId) (o : Out) (s : Sched) :
    (Task.async_write_out t o s).flow t (Out.rest s o) s := by
  unfold Task.async_write_out
  by_cases he : (s.tasks t).out.isEmpty = true
  · rw [if_pos he]
    exact enqueue_body_flow o (fun r _ => r.2) (fun _ _ _ _ => rfl) (isEmpty_eq_nil he)
  · rw [if_neg he]
    exact flowOk_append _

/-- The loop of the writable branch, however it ends: a return has lost none of the queued
bytes, after an exception a prefix of them went onto the wire. -/
theorem drain_flow (t : TaskId) : ∀ (fuel : Nat) (s : Sched),
    (Task.drain fuel t s).flow t [] s := by
  intro fuel
  induction fuel with
  | zero => intro s; trivial
  | succ n ih =>
    intro s
    unfold Task.drain
    cases ho : (s.tasks t).out with
    | nil => exact flowOk_neutral (sent_refl t s)
    | cons o rest =>
      simp only
      have hp : s.pending t = Out.rest s o ++ (rest.map (Out.rest s)).flatten := by
        rw [pending_eq ho]; rfl
      cases hr : Out.async_write o t s with
      | diverge => trivial
      | throw e s1 =>
        obtain ⟨w, -, h2, -⟩ := out_async_write_sent o t s s1 (by rw [hr]; rfl)
        refine ⟨_, h2.wire, ?_⟩
        rw [List.append_nil, hp]
        exact (List.take_prefix _ _).trans (List.prefix_append _ _)
      | ok a s1 =>
        obtain ⟨w, h1, h2, h3⟩ := out_async_write_sent o t s s1 (by rw [hr]; rfl)
        obtain ⟨h4, h5⟩ := h3 a.1 a.2 hr
        have hout1 : (s1.tasks t).out = o :: rest := h2.out.trans ho
        simp only [Res.bind]
        have step : FlowOk t [] s (s1.upd t (fun T => { T with out := a.2 :: T.out.tail })) := by
          refine ⟨h2.mem, ?_, _, h2.wire, ?_⟩
          · rw [upd_tasks_same]; exact h2.fd
          · rw [List.append_nil, hp]
            have e : (s1.upd t (fun T => { T with out := a.2 :: T.out.tail })).pending t =
                Out.rest s a.2 ++ (rest.map (Out.rest s)).flatten :=
              pending_of (q := a.2 :: rest) h2.mem (by rw [upd_tasks_same, hout1]; rfl)
            rw [e, h4, ← List.append_assoc, rest_split s o w h1]
        cases hb : a.1 with
        | true =>
          simp only [Bool.not_true, Bool.false_eq_true, if_false]
          have step2 : FlowOk t [] s ((s1.upd t (fun T => { T with out := a.2 :: T.out.tail })).upd
              t (fun T => { T with out := T.out.tail })) := by
            refine ⟨h2.mem, ?_, _, h2.wire, ?_⟩
            · rw [upd_tasks_same, upd_tasks_same]; exact h2.fd
            · rw [List.append_nil, hp]
              have e : ((s1.upd t (fun T => { T with out := a.2 :: T.out.tail })).upd
                  t (fun T => { T with out := T.out.tail })).pending t =
                  (rest.map (Out.rest s)).flatten :=
                pending_of (q := rest) h2.mem
                  (by rw [upd_tasks_same, upd_tasks_same, hout1]; rfl)
              rw [e, h5 hb, rest_take_all]
          exact flow_of_eq (flow_after step2 (ih _)) (List.append_nil _)
        | false =>
          simp only [Bool.not_false, if_true]
          exact step

theorem sent_upd_timeout {t : TaskId} (s : Sched) (f : Task → Timeout) :
    Sent t [] s (s.upd t (fun T => { T with timeout := f T })) :=
  sent_nil rfl rfl (by rw [upd_tasks_same]) (by rw [upd_tasks_same])

/-- The writable branch of `Task::run`, however it ends. -/
theorem run_write_flow (t : TaskId) (flags : Nat) (s : Sched) :
    (Task.run_write t flags s).flow t [] s := by
  unfold Task.run_write
  split
  · simp only
    have pre : FlowOk t [] s (if (s.tasks t).timeout.write.due != 0 then
        s.upd t (fun T => { T with timeout := { T.timeout with
          write := { T.timeout.write with due := s.now + T.timeout.write.timeout } } })
      else s) := by
      split
      · exact flowOk_neutral (sent_upd_timeout s _)
      · exact flowOk_neutral (sent_refl t s)
    refine flow_of_eq (flow_after pre ?_) (List.append_nil _)
    refine flow_of_eq (flow_bind (drain_flow t _ _) fun _ s2 _ => ?_) (List.append_nil [])
    split
    · refine flow_of_eq (flow_bind (unschedule_flow t EPOLLOUT s2) fun _ s3 _ => ?_)
        (List.append_nil [])
      split
      · exact ⟨[], by simp, List.nil_prefix⟩
      · exact flowOk_neutral (sent_refl t s3)
    · exact flowOk_neutral (sent_refl t s2)
  · exact flowOk_neutral (sent_refl t s)

theorem run_timeout_flow (t : TaskId) (s : Sched) : (Task.run_timeout t s).flow t [] s :=
  flow_neutral fun _ hs =>
    sent_nil (run_timeout_frame hs).1.mem (run_timeout_frame hs).1.wire
      (core_fd ((run_timeout_frame hs).2 t)) (core_out ((run_timeout_frame hs).2 t))

theorem run_read_writable (h : Hooks) (t : TaskId) (s : Sched) :
    Task.run_read h t EPOLLOUT s = .ok () s := by
  unfold Task.run_read
  rw [if_neg]
  simp only [Bool.and_eq_true, not_and]
  intro _
  decide

/-- A writable event `run(EPOLLOUT)`, however it ends. -/
theorem run_writable_flow (h : Hooks) (t : TaskId) (s : Sched) :
    (Task.run h t EPOLLOUT s).flow t [] s := by
  unfold Task.run
  rw [if_neg (by decide), if_neg (by decide), run_read_writable]
  show ((Task.run_write t EPOLLOUT s).bind fun _ s2 => Task.run_timeout t s2).flow t [] s
  exact flow_of_eq (flow_bind (run_write_flow t EPOLLOUT s) fun _ s2 _ => run_timeout_flow t s2)
    (List.append_nil [])

theorem bytes_congr {s s' : Sched} (hm : s'.mem = s.mem) (c : WriteCall) :
    c.bytes s' = c.bytes s := by
  cases c with
  | async_write ptr len => simp [WriteCall.bytes, hm]
  | async_write_cpy ptr len => simp [WriteCall.bytes, hm]
  | async_write_out o => exact rest_congr hm o
  | writable => rfl

theorem enqueued_mem {s s' : Sched} (hm : s'.mem = s.mem) (cs : List WriteCall) :
    WriteCall.enqueued s' cs = WriteCall.enqueued s cs := by
  unfold WriteCall.enqueued
  congr 1
  exact List.map_congr_left fun c _ => bytes_congr hm c

/-- One call, however it ends. -/
theorem exec_flow (h : Hooks) (t : TaskId) (c : WriteCall) (s : Sched) :
    (c.exec h t s).flow t (c.bytes s) s := by
  cases c with
  | async_write ptr len => exact async_write_flow t ptr len s
  | async_write_cpy ptr len => exact async_write_cpy_flow t ptr len s
  | async_write_out o => exact async_write_out_flow t o s
  | writable => exact run_writable_flow h t s

/-- A sequence of calls, however it ends: after a return the bytes that went onto the wire
followed by the bytes queued are the bytes queued before followed by the buffers enqueued;
after an exception the bytes that went onto the wire are a prefix of these. -/
theorem execAll_flow (h : Hooks) (t : TaskId) : ∀ (calls : List WriteCall) (s : Sched),
    (WriteCall.execAll h t calls s).flow t (WriteCall.enqueued s calls) s := by
  intro calls
  induction calls with
  | nil => intro s; exact flowOk_neutral (sent_refl t s)
  | cons c cs ih =>
    intro s
    unfold WriteCall.execAll
    rw [enqueued_cons]
    refine flow_bind (exec_flow h t c s) fun _ s1 hr => ?_
    have hm : s1.mem = s.mem := by
      have := exec_flow h t c s
      rw [hr] at this
      exact this.mem
    rw [← enqueued_mem hm]
    exact ih s1

/-! ## How the writable branch ends, whatever the kernel answers -/

/-- The loop of `Task::async_write(ptr,len,written)`, however it ends, changes only the
counter of the task, and it throws only `CError` (a failed `::write`) or
`GracefulClose("end of output stream")` (a `::write` that returned 0). -/
theorem do_async_write_loop_outcome (t : TaskId) (data : List Nat) (len : Nat) :
    ∀ (fuel written : Nat) (s : Sched) (r : Res (Bool × Nat)),
      Task.do_async_write_loop t data len fuel written s = r →
      ∀ s', r.state? = some s' →
        (s'.tasks t).uncounted = (s.tasks t).uncounted ∧
          (∀ e, r = .throw e s' → e = .cError ∨ e = .gracefulClose "end of output stream") := by
  intro fuel
  induction fuel with
  | zero =>
    intro written s r h s' hs
    unfold Task.do_async_write_loop at h
    subst h
    exact absurd hs (by simp [Res.state?])
  | succ n ih =>
    intro written s r h s' hs
    unfold Task.do_async_write_loop at h
    split at h
    · have b1 := sys_write_tasks (s.tasks t).fd (data.drop written) (len - written) s
      split at h
      all_goals rename_i heq
      all_goals rw [heq] at b1
      all_goals simp only at b1
      · subst h
        cases hs
        exact ⟨by rw [b1], fun e hr => by cases hr⟩
      · obtain ⟨h1, h2⟩ := ih written _ r h s' hs
        exact ⟨by rw [h1, b1], h2⟩
      · subst h
        cases hs
        exact ⟨by rw [b1], fun e hr => by cases hr; exact Or.inl rfl⟩
      · subst h
        cases hs
        exact ⟨by rw [b1], fun e hr => by cases hr; exact Or.inr rfl⟩
      · obtain ⟨h1, h2⟩ := ih _ _ r h s' hs
        refine ⟨?_, h2⟩
        rw [h1, upd_tasks_same, b1]
        rfl
    · subst h
      cases hs
      exact ⟨rfl, fun e hr => by cases hr⟩

/-- The call `Out::async_write`, however it ends: only the counter of the task has changed;
an exception is `InternalError` (the task is closed), `CError` or
`GracefulClose("end of output stream")`; and a segment that did not complete has bytes
left. -/
theorem out_async_write_outcome (o : Out) (t : TaskId) (s s' : Sched)
    (hs : (Out.async_write o t s).state? = some s') :
    (s'.tasks t).uncounted = (s.tasks t).uncounted ∧
      (∀ e, Out.async_write o t s = .throw e s' →
        e = .cError ∨ e = .gracefulClose "end of output stream" ∨ e = .internalError) ∧
      (∀ o', Out.async_write o t s = .ok (false, o') s' → o'.ofs < o'.len) := by
  refine ⟨?_, ?_, ?_⟩
  · unfold Out.async_write Task.do_async_write at hs
    split at hs
    · cases hs; rfl
    · cases hr : Task.do_async_write_loop t ((s.bufBytes o.ptr).drop o.ofs) (o.len - o.ofs)
          (s.script.length + 1) 0 s with
      | diverge => rw [hr] at hs; cases hs
      | throw e s1 =>
        rw [hr] at hs; cases hs
        exact (do_async_write_loop_outcome t _ _ _ _ s _ hr s' rfl).1
      | ok a s1 =>
        rw [hr] at hs; cases hs
        exact (do_async_write_loop_outcome t _ _ _ _ s _ hr s' rfl).1
  · intro e he
    unfold Out.async_write Task.do_async_write at he
    split at he
    · cases he; exact Or.inr (Or.inr rfl)
    · cases hr : Task.do_async_write_loop t ((s.bufBytes o.ptr).drop o.ofs) (o.len - o.ofs)
          (s.script.length + 1) 0 s with
      | diverge => rw [hr] at he; cases he
      | ok a s1 => rw [hr] at he; cases he
      | throw e1 s1 =>
        rw [hr] at he; cases he
        rcases (do_async_write_loop_outcome t _ _ _ _ s _ hr s' rfl).2 e rfl with h | h
        · exact Or.inl h
        · exact Or.inr (Or.inl h)
  · intro o' he
    obtain ⟨h1, -, h3⟩ := out_async_write_accepted he
    have hle := fifoAccepted_le s.script (o.len - o.ofs)
    have hne : (fifoAccepted s.script (o.len - o.ofs)).1 ≠ o.len - o.ofs := fun e => by
      have := h3.mpr e
      cases this
    rw [h1]
    show o.ofs + (fifoAccepted s.script (o.len - o.ofs)).1 < o.len
    omega

/-- The loop `while(out)` of `Task::run`, however it ends: of the task only the queue and
the counter have changed; after a return the queue is empty or its head is a segment that
did not complete; an exception comes from a `::write` on the head of a queue that is not
empty. -/
theorem drain_outcome (t : TaskId) : ∀ (fuel : Nat) (s : Sched) (r : Res Unit),
    Task.drain fuel t s = r → ∀ s', r.state? = some s' →
      (s'.tasks t).unqueued = (s.tasks t).unqueued ∧
        (r = .ok () s' → (s'.tasks t).out = [] ∨
          ∃ o q, (s'.tasks t).out = o :: q ∧ o.ofs < o.len) ∧
        (∀ e, r = .throw e s' → (s'.tasks t).out ≠ [] ∧
          (e = .cError ∨ e = .gracefulClose "end of output stream" ∨ e = .internalError)) := by
  intro fuel
  induction fuel with
  | zero =>
    intro s r h s' hs
    unfold Task.drain at h
    subst h
    exact absurd hs (by simp [Res.state?])
  | succ n ih =>
    intro s r h s' hs
    unfold Task.drain at h
    split at h
    · rename_i ho
      subst h
      cases hs
      exact ⟨rfl, fun _ => Or.inl ho, fun e he => by cases he⟩
    · rename_i o tl ho
      cases hr : Out.async_write o t s with
      | diverge => rw [hr] at h; simp only [Res.bind] at h; subst h; cases hs
      | throw e s1 =>
        rw [hr] at h; simp only [Res.bind] at h; subst h; cases hs
        obtain ⟨h1, h2, -⟩ := out_async_write_outcome o t s s' (by rw [hr]; rfl)
        refine ⟨unqueued_of_uncounted h1, ?_, fun e' he => ?_⟩
        · intro he; cases he
        cases he
        refine ⟨?_, h2 e hr⟩
        rw [uncounted_out h1, ho]
        exact List.cons_ne_nil _ _
      | ok a s1 =>
        obtain ⟨h1, -, h3⟩ := out_async_write_outcome o t s s1 (by rw [hr]; rfl)
        rw [hr] at h
        simp only [Res.bind] at h
        have u0 : (s1.tasks t).unqueued = (s.tasks t).unqueued := unqueued_of_uncounted h1
        cases hb : a.1 with
        | false =>
          rw [hb] at h
          simp only [Bool.not_false, if_true] at h
          subst h
          cases hs
          refine ⟨?_, fun _ => Or.inr ⟨a.2, _, by rw [upd_tasks_same], ?_⟩,
            fun e he => by cases he⟩
          · rw [upd_tasks_same]; exact u0
          · have ea : a = (false, a.2) := by rw [← hb]
            rw [ea] at hr
            exact h3 a.2 hr
        | true =>
          rw [hb] at h
          simp only [Bool.not_true, Bool.false_eq_true, if_false] at h
          obtain ⟨k1, k2, k3⟩ := ih _ r h s' hs
          refine ⟨k1.trans ?_, k2, k3⟩
          rw [upd_tasks_same, upd_tasks_same]
          exact u0

/-- However `unschedule(EPOLLOUT)` ends, `EPOLLOUT` is not in the interest mask afterwards. -/
theorem unschedule_out_cleared {t : TaskId} {s s' : Sched}
    (h : (Task.unschedule t EPOLLOUT s).state? = some s') :
    EPOLLOUT &&& (s'.tasks t).events = 0 := by
  unfold Task.unschedule at h
  split at h
  · simp only at h
    split at h
    · cases h
      rw [upd_tasks_same]
      exact out_bit_cleared _
    · rename_i s2 hx
      have ht := (epoll_ctl_eq hx).2.1
      cases h
      split
      · rw [upd_tasks_same]; exact Nat.and_zero _
      · rw [ht, upd_tasks_same]
        exact out_bit_cleared _
  · rename_i h0
    cases h
    have : (s.tasks t).events = 0 := by simpa using h0
    rw [this]
    exact Nat.and_zero _

/-- The only exception of `unschedule` is the `CError` of a failed `epoll_ctl`. -/
theorem unschedule_throws {t : TaskId} {m : Nat} {s s' : Sched} {e : Exn}
    (h : Task.unschedule t m s = .throw e s') : e = .cError := by
  unfold Task.unschedule at h
  split at h
  · simp only at h
    split at h
    · cases h; rfl
    · cases h
  · cases h

/-- The writable branch of `Task::run` in every state and for every pattern of write results:
it ends.  If the queue is empty afterwards, `EPOLLOUT` is not in the interest mask.  After a
return, an empty queue means the task is not half-closed, and a queue that is not empty has a
segment that did not complete at its head and the interest mask is unchanged.  An exception
with the queue empty is `GracefulClose` with the reason of the half-close, or the `CError` of
the `epoll_ctl` of `unschedule`; an exception with the queue not empty comes from the
`::write` on its head (`CError`, `GracefulClose("end of output stream")` for a return value
0, `InternalError` on a closed task) and leaves the interest mask unchanged. -/
theorem run_write_outcome (t : TaskId) (flags : Nat) (s : Sched)
    (hflag : EPOLLOUT &&& flags ≠ 0) :
    ∃ s', (Task.run_write t flags s).state? = some s' ∧
      ((s'.tasks t).out = [] → EPOLLOUT &&& (s'.tasks t).events = 0) ∧
      (Task.run_write t flags s = .ok () s' →
        ((s'.tasks t).out = [] → (s.tasks t).half_close = none) ∧
        ((s'.tasks t).out ≠ [] → (s'.tasks t).events = (s.tasks t).events ∧
          ∃ o q, (s'.tasks t).out = o :: q ∧ o.ofs < o.len)) ∧
      (∀ e, Task.run_write t flags s = .throw e s' →
        ((s'.tasks t).out = [] ∧
          (e = .cError ∨ ∃ msg, (s.tasks t).half_close = some msg ∧ e = .gracefulClose msg)) ∨
        ((s'.tasks t).out ≠ [] ∧ (s'.tasks t).events = (s.tasks t).events ∧
          (e = .cError ∨ e = .gracefulClose "end of output stream" ∨ e = .internalError))) := by
  have key : ∀ s1 : Sched, (s1.tasks t).events = (s.tasks t).events →
      (s1.tasks t).half_close = (s.tasks t).half_close →
      ∃ s', ((Task.drain ((s1.tasks t).out.length + 1) t s1).bind fun _ s2 =>
          if (s2.tasks t).out.isEmpty then
            (Task.unschedule t EPOLLOUT s2).bind fun _ s3 =>
              match (s3.tasks t).half_close with
              | some msg => .throw (.gracefulClose msg) s3
              | none => .ok () s3
          else .ok () s2).state? = some s' ∧
        ((s'.tasks t).out = [] → EPOLLOUT &&& (s'.tasks t).events = 0) ∧
        (((Task.drain ((s1.tasks t).out.length + 1) t s1).bind fun _ s2 =>
          if (s2.tasks t).out.isEmpty then
            (Task.unschedule t EPOLLOUT s2).bind fun _ s3 =>
              match (s3.tasks t).half_close with
              | some msg => .throw (.gracefulClose msg) s3
              | none => .ok () s3
          else .ok () s2) = .ok () s' →
          ((s'.tasks t).out = [] → (s.tasks t).half_close = none) ∧
          ((s'.tasks t).out ≠ [] → (s'.tasks t).events = (s.tasks t).events ∧
            ∃ o q, (s'.tasks t).out = o :: q ∧ o.ofs < o.len)) ∧
        (∀ e, ((Task.drain ((s1.tasks t).out.length + 1) t s1).bind fun _ s2 =>
          if (s2.tasks t).out.isEmpty then
            (Task.unschedule t EPOLLOUT s2).bind fun _ s3 =>
              match (s3.tasks t).half_close with
              | some msg => .throw (.gracefulClose msg) s3
              | none => .ok () s3
          else .ok () s2) = .throw e s' →
          ((s'.tasks t).out = [] ∧
            (e = .cError ∨ ∃ msg, (s.tasks t).half_close = some msg ∧ e = .gracefulClose msg)) ∨
          ((s'.tasks t).out ≠ [] ∧ (s'.tasks t).events = (s.tasks t).events ∧
            (e = .cError ∨ e = .gracefulClose "end of output stream" ∨
              e = .internalError))) := by
    intro s1 hev hhc
    obtain ⟨s2, hd2, -⟩ := drain_shape t ((s1.tasks t).out.length + 1) s1 (Nat.lt_succ_self _)
    obtain ⟨k1, k2, k3⟩ := drain_outcome t _ s1 _ rfl s2 hd2
    have ev2 : (s2.tasks t).events = (s.tasks t).events := (unqueued_events k1).trans hev
    have hc2 : (s2.tasks t).half_close = (s.tasks t).half_close :=
      (unqueued_half_close k1).trans hhc
    cases hd : Task.drain ((s1.tasks t).out.length + 1) t s1 with
    | diverge => rw [hd] at hd2; cases hd2
    | throw e sx =>
      rw [hd] at hd2 k3
      cases hd2
      obtain ⟨a1, a2⟩ := k3 e rfl
      simp only [Res.bind]
      refine ⟨s2, rfl, fun h0 => absurd h0 a1, ?_, fun e' he => ?_⟩
      · intro he; cases he
      cases he
      exact Or.inr ⟨a1, ev2, a2⟩
    | ok u sx =>
      rw [hd] at hd2 k2
      cases hd2
      simp only [Res.bind]
      by_cases hemp : (s2.tasks t).out.isEmpty = true
      · rw [if_pos hemp]
        have ho2 : (s2.tasks t).out = [] := List.isEmpty_iff.mp hemp
        obtain ⟨s3, hu⟩ := unschedule_ends t EPOLLOUT s2
        have hbit := unschedule_out_cleared hu
        obtain ⟨-, -, v3, v4⟩ := unschedule_frame hu
        have ho3 : (s3.tasks t).out = [] := v3.trans ho2
        cases hun : Task.unschedule t EPOLLOUT s2 with
        | diverge => rw [hun] at hu; cases hu
        | throw e sy =>
          rw [hun] at hu
          cases hu
          simp only [Res.bind]
          refine ⟨s3, rfl, fun _ => hbit, ?_, fun e' he => ?_⟩
          · intro he; cases he
          cases he
          exact Or.inl ⟨ho3, Or.inl (unschedule_throws hun)⟩
        | ok u2 sy =>
          rw [hun] at hu
          cases hu
          simp only [Res.bind]
          cases hh : (s3.tasks t).half_close with
          | none =>
            simp only
            refine ⟨s3, rfl, fun _ => hbit, fun _ => ⟨fun _ => ?_, fun hne => absurd ho3 hne⟩,
              ?_⟩
            · rw [← hc2, ← v4, hh]
            · intro e he; cases he
          | some msg =>
            simp only
            refine ⟨s3, rfl, fun _ => hbit, ?_, fun e he => ?_⟩
            · intro he; cases he
            cases he
            exact Or.inl ⟨ho3, Or.inr ⟨msg, by rw [← hc2, ← v4, hh], rfl⟩⟩
      · rw [if_neg hemp]
        have ho2 : (s2.tasks t).out ≠ [] := fun e => hemp (List.isEmpty_iff.mpr e)
        refine ⟨s2, rfl, fun h0 => absurd h0 ho2, fun _ => ⟨fun h0 => absurd h0 ho2, fun _ => ?_⟩,
          ?_⟩
        · exact ⟨ev2, (k2 rfl).resolve_left ho2⟩
        · intro e he; cases he
  unfold Task.run_write
  rw [if_pos (by simpa using hflag)]
  simp only
  split
  · exact key _ (by rw [upd_tasks_same]) (by rw [upd_tasks_same])
  · exact key s rfl rfl

/-! ## C10: outbound bytes are delivered in FIFO order -/

/-- A state is the FIFO of the specification that starts in it. -/
theorem FifoInv.start {t : TaskId} {s : Sched} {L : List TaskId}
    (hopen : (s.tasks t).closed = false)
    (hreg : (s.tasks t).events = 0 ↔ s.epoll (s.tasks t).fd = none)
    (hscript : s.script.all WriteRes.benign = true)
    (hbit : EPOLLOUT &&& (s.tasks t).events = 0 → (s.tasks t).out = [])
    (hlist : TimeoutWF s L) :
    FifoInv t s { sent := [], queue := (s.tasks t).out, script := s.script } s :=
  ⟨hopen, rfl, rfl, hreg, hscript, rfl, (List.append_nil _).symm, rfl, rfl,
    fun h0 => ⟨fun _ => h0, fun _ => hbit h0⟩, ⟨L, hlist⟩⟩

/-- The calls on a task do what the FIFO of the specification does from the state they
start in. -/
theorem execAll_fifoFrom (h : Hooks) (t : TaskId) (calls : List WriteCall) (s : Sched)
    (L : List TaskId)
    (hopen : (s.tasks t).closed = false) (hfd : 0 ≤ (s.tasks t).fd)
    (hreg : (s.tasks t).events = 0 ↔ s.epoll (s.tasks t).fd = none)
    (hscript : s.script.all WriteRes.benign = true)
    (hbit : EPOLLOUT &&& (s.tasks t).events = 0 → (s.tasks t).out = [])
    (hlist : TimeoutWF s L) :
    ∃ s', WriteCall.execAll h t calls s =
        (match (fifoFrom s t calls).thrown with
          | some e => .throw e s'
          | none => .ok () s') ∧
      s'.wire (s.tasks t).fd = s.wire (s.tasks t).fd ++ (fifoFrom s t calls).fifo.sent ∧
      (s'.tasks t).out = (fifoFrom s t calls).fifo.queue ∧
      s'.script = (fifoFrom s t calls).fifo.script ∧
      (fifoFrom s t calls).fifo.sent ++ s'.pending t =
        s.pending t ++ WriteCall.enqueued s (fifoFrom s t calls).done ∧
      s'.mem = s.mem ∧
      (EPOLLOUT &&& (s.tasks t).events = 0 →
        ((s'.tasks t).out = [] ↔ EPOLLOUT &&& (s'.tasks t).events = 0)) := by
  obtain ⟨s', hI, he⟩ := FifoInv.execAll h hfd calls _ s
    (FifoInv.start hopen hreg hscript hbit hlist)
  have hcons := (fifoRun_spec s (s.tasks t).half_close calls
    { sent := [], queue := (s.tasks t).out, script := s.script }).1
  refine ⟨s', he, hI.wire, hI.out, hI.script, ?_, hI.mem, hI.bit⟩
  have hp : s'.pending t = (((fifoFrom s t calls).fifo.queue).map (Out.rest s)).flatten := by
    rw [pending_eq hI.out]
    congr 1
    exact List.map_congr_left (fun o _ => rest_congr hI.mem o)
  rw [hp]
  exact hcons

/-- The example of C10: segments of 3, 7 and 2 bytes, enqueued with `async_write`,
`async_write_cpy` and `async_write(Out*)`, the kernel accepting 3 bytes, then nothing
(`EWOULDBLOCK`), then 5, then the rest; after the writable event the 12 bytes are on the
wire in order, `out` is empty and `EPOLLOUT` is cleared from the interest mask. -/
theorem writer3_7_2_delivers :
    (WriteCall.execAll defaultHooks 0 calls3_7_2 writer3_7_2).returned = true ∧
      writer3_7_2_end.wire 5 = [1, 2, 3, 4, 5, 6, 7, 8, 9, 10, 11, 12] ∧
      (writer3_7_2_end.tasks 0).out = [] ∧
      (writer3_7_2_end.tasks 0).events = EPOLLIN ∧
      WriteCall.enqueued writer3_7_2 calls3_7_2 = [1, 2, 3, 4, 5, 6, 7, 8, 9, 10, 11, 12] := by
  decide

/-- A return value 0 of `::write` is not a result "accepting nothing": `async_write` then
throws `GracefulClose("end of output stream")`; nothing is queued and nothing was sent. -/
theorem write_returning_zero_throws :
    (Task.async_write 0 0 3 { writer3_7_2 with script := [.accept 0] }).exn? =
        some (.gracefulClose "end of output stream") ∧
      ((Task.async_write 0 0 3 { writer3_7_2 with script := [.accept 0] }).state?.map
        fun s => ((s.tasks 0).out, s.wire 5)) = some ([], []) := by
  decide

/-- The timeout list of the scenario `writer3_7_2` is empty. -/
theorem writer3_7_2_timeoutWF : TimeoutWF writer3_7_2 [] :=
  ⟨List.nodup_nil, rfl,
    (fun x => by unfold writer3_7_2; simp only; split <;> rfl),
    (fun x => by unfold writer3_7_2; simp only; split <;> rfl),
    (fun x hx => nomatch hx)⟩

/-- C10: for every sequence of `async_write`, `async_write_cpy`, `async_write(Out*)` and
writable events `run(EPOLLOUT)` on a task `t`, in every state and for every pattern of write
results.  However the calls end, the bytes that went onto the wire of the descriptor are a
prefix of the bytes queued at the start followed by the concatenation of the enqueued buffers
in call order; when the calls have returned, these bytes followed by the bytes still queued
are that concatenation, so with the queue empty the wire holds exactly that concatenation.
And the bytes do get there: take an open task with a valid descriptor that is registered
with the epoll instance exactly when its interest mask is not 0, with an empty outbound queue,
in a scheduler whose timeout list is a well-formed linked list, and write results that are
positive counts, `EWOULDBLOCK` or `EINTR`.  Then the code does what the FIFO of the
specification does (`fifoFrom`, which writes each segment against the write results in
order): the calls return, or, on a half-closed task, end with the `GracefulClose` of the
writable event that emptied the queue; the bytes that went onto the wire are exactly the
bytes the FIFO sent, and the queue and the write results left are those of the FIFO; and if
`EPOLLOUT` was not requested at the start, it is requested afterwards exactly when the queue
is not empty. -/
theorem C10_fifo_delivery (h : Hooks) (t : TaskId) (calls : List WriteCall) (s : Sched) :
    (∀ s', WriteCall.execAll h t calls s = .ok () s' →
      ∃ d, s'.wire (s.tasks t).fd = s.wire (s.tasks t).fd ++ d ∧
        d <+: s.pending t ++ WriteCall.enqueued s calls ∧
        d ++ s'.pending t = s.pending t ++ WriteCall.enqueued s calls ∧
        ((s'.tasks t).out = [] → d = s.pending t ++ WriteCall.enqueued s calls)) ∧
    (∀ e s', WriteCall.execAll h t calls s = .throw e s' →
      ∃ d, s'.wire (s.tasks t).fd = s.wire (s.tasks t).fd ++ d ∧
        d <+: s.pending t ++ WriteCall.enqueued s calls) ∧
    (∀ L : List TaskId, (s.tasks t).closed = false → 0 ≤ (s.tasks t).fd →
      ((s.tasks t).events = 0 ↔ s.epoll (s.tasks t).fd = none) →
      (s.tasks t).out = [] → s.script.all WriteRes.benign = true → TimeoutWF s L →
      ∃ s', WriteCall.execAll h t calls s =
          (match (fifoFrom s t calls).thrown with
            | some e => .throw e s'
            | none => .ok () s') ∧
        s'.wire (s.tasks t).fd = s.wire (s.tasks t).fd ++ (fifoFrom s t calls).fifo.sent ∧
        (s'.tasks t).out = (fifoFrom s t calls).fifo.queue ∧
        s'.script = (fifoFrom s t calls).fifo.script ∧
        (fifoFrom s t calls).fifo.sent <+: WriteCall.enqueued s calls ∧
        (fifoFrom s t calls).fifo.sent ++ s'.pending t =
          WriteCall.enqueued s (fifoFrom s t calls).done ∧
        ((s'.tasks t).out = [] →
          s'.wire (s.tasks t).fd =
            s.wire (s.tasks t).fd ++ WriteCall.enqueued s (fifoFrom s t calls).done) ∧
        (fifoFrom s t calls).done <+: calls ∧
        ((fifoFrom s t calls).thrown = none → (fifoFrom s t calls).done = calls ∧
          (fifoFrom s t calls).fifo =
            fifoCalls s calls { sent := [], queue := [], script := s.script }) ∧
        (∀ e, (fifoFrom s t calls).thrown = some e →
          ∃ pre msg, (fifoFrom s t calls).done = pre ++ [.writable] ∧
            (s.tasks t).half_close = some msg ∧ e = .gracefulClose msg ∧
            (s'.tasks t).out = []) ∧
        ((s.tasks t).half_close = none → (fifoFrom s t calls).thrown = none) ∧
        (EPOLLOUT &&& (s.tasks t).events = 0 →
          ((s'.tasks t).out = [] ↔ EPOLLOUT &&& (s'.tasks t).events = 0))) := by
  have hflow := execAll_flow h t calls s
  refine ⟨fun s' he => ?_, fun e s' he => ?_, fun L hopen hfd hreg hout hscript hlist => ?_⟩
  · rw [he] at hflow
    obtain ⟨d, hw, hc⟩ := hflow.bytes
    refine ⟨d, hw, ?_, hc, fun ho => ?_⟩
    · rw [← hc]; exact List.prefix_append _ _
    · rw [← hc, pending_eq ho]; simp
  · rw [he] at hflow
    exact hflow
  obtain ⟨s', he, hw, ho, hs, hcons, -, hbit⟩ :=
    execAll_fifoFrom h t calls s L hopen hfd hreg hscript (fun _ => hout) hlist
  obtain ⟨-, ⟨post, hpost⟩, hnone, hsome, hhc⟩ :=
    fifoRun_spec s (s.tasks t).half_close calls
      { sent := [], queue := (s.tasks t).out, script := s.script }
  have hp0 : s.pending t = [] := by rw [pending_eq hout]; rfl
  rw [hp0, List.nil_append] at hcons
  refine ⟨s', he, hw, ho, hs, ?_, hcons, fun he0 => ?_, ⟨post, hpost.symm⟩, fun hn => ?_,
    fun e hth => ?_, hhc, hbit⟩
  · have e1 : WriteCall.enqueued s calls =
        WriteCall.enqueued s (fifoFrom s t calls).done ++ WriteCall.enqueued s post := by
      rw [← enqueued_append]
      exact congrArg _ hpost
    rw [e1, ← hcons, List.append_assoc]
    exact List.prefix_append _ _
  · rw [hw, ← hcons, pending_eq he0]
    simp
  · obtain ⟨h1, h2⟩ := hnone hn
    refine ⟨h1, ?_⟩
    rw [← hout]
    exact h2
  · obtain ⟨pre, msg, h1, h2, h3, h4⟩ := hsome e hth
    exact ⟨pre, msg, h1, h2, h3, ho.trans h4⟩

/-- C10 witness: the segments of 3, 7 and 2 bytes with the kernel accepting 3, nothing, 5,
then the rest: the four calls return, the 12 bytes are on the wire in order, the queue is
empty, the write results are used up and `EPOLLOUT` is not requested; the wire holds the
concatenation of the three buffers. -/
theorem C10_fifo_delivery_witness :
    ∃ s', WriteCall.execAll defaultHooks 0 calls3_7_2 writer3_7_2 = .ok () s' ∧
      s'.wire 5 = [1, 2, 3, 4, 5, 6, 7, 8, 9, 10, 11, 12] ∧
      (s'.tasks 0).out = [] ∧ s'.script = [] ∧
      EPOLLOUT &&& (s'.tasks 0).events = 0 ∧
      s'.wire 5 = WriteCall.enqueued writer3_7_2 calls3_7_2 := by
  obtain ⟨hall, -, hex⟩ := C10_fifo_delivery defaultHooks 0 calls3_7_2 writer3_7_2
  obtain ⟨s', h1, h2, h3, h4, -, -, -, -, -, -, -, h12⟩ :=
    hex [] (by decide) (by decide) (by decide) (by decide) (by decide) writer3_7_2_timeoutWF
  have hF : fifoFrom writer3_7_2 0 calls3_7_2 =
      { fifo := { sent := [1, 2, 3, 4, 5, 6, 7, 8, 9, 10, 11, 12], queue := [], script := [] },
        thrown := none, done := calls3_7_2 } := by decide
  rw [hF] at h1 h2 h3 h4
  obtain ⟨d, a1, -, -, a4⟩ := hall s' h1
  exact ⟨s', h1, h2, h3, h4, (h12 (by decide)).mp h3, a1.trans (a4 h3)⟩

/-! ## C11: `async_write_cpy` owns what it queues -/

theorem enqueued_writable (s : Sched) (k : Nat) :
    WriteCall.enqueued s (List.replicate k .writable) = [] := by
  unfold WriteCall.enqueued
  induction k with
  | zero => rfl
  | succ n ih => rw [List.replicate_succ, List.map_cons, List.flatten_cons, ih]; rfl

/-- The bytes of an owned segment are the same whatever the caller's buffers hold. -/
theorem rest_owned (s : Sched) (b : List Nat) (n : Nat) :
    Out.rest s { ptr := .owned b, len := n } = b.take n := by
  unfold Out.rest Sched.bufBytes
  simp

/-- After `async_write_cpy` on an empty queue has returned, every queued segment is an owned
copy. -/
theorem async_write_cpy_owned {t : TaskId} {ptr len : Nat} {s s1 : Sched}
    (hout : (s.tasks t).out = []) (h1 : Task.async_write_cpy t ptr len s = .ok () s1) :
    ∀ o ∈ (s1.tasks t).out, ∃ l, o.ptr = .owned l := by
  unfold Task.async_write_cpy at h1
  rw [if_pos (by rw [hout]; rfl)] at h1
  cases hr : Out.async_write { ptr := .borrowed ptr, len := len } t s with
  | diverge => rw [hr] at h1; cases h1
  | throw e s0 => rw [hr] at h1; cases h1
  | ok a s0 =>
    obtain ⟨w, -, h2, -⟩ := out_async_write_sent _ t s s0 (by rw [hr]; rfl)
    rw [hr] at h1
    simp only [Res.bind] at h1
    cases hb : a.1 with
    | true =>
      rw [hb] at h1
      simp only [Bool.not_true, Bool.false_eq_true, if_false] at h1
      cases h1
      intro o ho
      rw [h2.out, hout] at ho
      cases ho
    | false =>
      rw [hb] at h1
      simp only [Bool.not_false, if_true] at h1
      have hst : (Task.schedule t EPOLLOUT (s0.upd t (fun T => { T with out :=
          [{ ptr := .owned (((s0.mem ptr).drop a.2.ofs).take (len - a.2.ofs)),
             len := len - a.2.ofs }] }))).state? = some s1 := by
        rw [h1]; rfl
      have f := schedule_maskFrame hst
      intro o ho
      rw [unmasked_out f.task, upd_tasks_same] at ho
      simp only [List.mem_singleton] at ho
      exact ⟨_, by rw [ho]⟩

/-- The bytes queued in owned segments are the same whatever the caller's buffers hold. -/
theorem pending_owned {s : Sched} {t : TaskId} (h : ∀ o ∈ (s.tasks t).out, ∃ l, o.ptr = .owned l)
    (m : Nat → List Nat) : Sched.pending { s with mem := m } t = s.pending t := by
  unfold Sched.pending
  show (((s.tasks t).out.map (Out.rest { s with mem := m })).flatten) = _
  congr 1
  refine List.map_congr_left fun o ho => ?_
  obtain ⟨l, hl⟩ := h o ho
  unfold Out.rest Sched.bufBytes
  rw [hl]

/-- When `async_write_cpy` on an empty queue returns, whatever the state and the write
results: the first `w` bytes of `ptr[0 .. len)` are on the wire, `w` being what the kernel
accepted of the `len` bytes, and the queue is empty (`w = len`) or holds one owned segment
with the bytes from `w` on. -/
theorem async_write_cpy_returned {t : TaskId} {ptr len : Nat} {s s1 : Sched}
    (hout : (s.tasks t).out = []) (h1 : Task.async_write_cpy t ptr len s = .ok () s1) :
    s1.wire (s.tasks t).fd =
        s.wire (s.tasks t).fd ++ (s.mem ptr).take (fifoAccepted s.script len).1 ∧
      (s1.tasks t).out = (if (fifoAccepted s.script len).1 < len then
          [{ ptr := .owned (((s.mem ptr).take len).drop (fifoAccepted s.script len).1),
             len := len - (fifoAccepted s.script len).1 }]
        else []) := by
  have hle := fifoAccepted_le s.script len
  unfold Task.async_write_cpy at h1
  rw [if_pos (by rw [hout]; rfl)] at h1
  cases hr : Out.async_write { ptr := .borrowed ptr, len := len } t s with
  | diverge => rw [hr] at h1; cases h1
  | throw e s0 => rw [hr] at h1; cases h1
  | ok a s0 =>
    obtain ⟨w, -, h2, h3⟩ := out_async_write_sent _ t s s0 (by rw [hr]; rfl)
    obtain ⟨h4, -⟩ := h3 a.1 a.2 hr
    have ea : a = (a.1, a.2) := rfl
    rw [ea] at hr
    obtain ⟨k1, -, k3⟩ := out_async_write_accepted hr
    have hw : w = (fifoAccepted s.script len).1 := by
      have := congrArg Out.ofs (h4.symm.trans k1)
      simpa using this
    have hofs : a.2.ofs = (fifoAccepted s.script len).1 := by
      rw [k1]
      simp
    have hwire : s0.wire (s.tasks t).fd =
        s.wire (s.tasks t).fd ++ (s.mem ptr).take (fifoAccepted s.script len).1 := by
      rw [h2.wire, hw]
      congr 1
      simp only [Out.rest, Sched.bufBytes, List.drop_zero, Nat.sub_zero, List.take_take]
      rw [Nat.min_eq_left hle]
    rw [← ea] at hr
    rw [hr] at h1
    simp only [Res.bind] at h1
    cases hb : a.1 with
    | true =>
      rw [hb] at h1
      simp only [Bool.not_true, Bool.false_eq_true, if_false] at h1
      cases h1
      have hfull : (fifoAccepted s.script len).1 = len := by
        have := k3.mp hb
        simpa using this
      refine ⟨hwire, ?_⟩
      rw [if_neg (by omega), h2.out, hout]
    | false =>
      rw [hb] at h1
      simp only [Bool.not_false, if_true] at h1
      have hst : (Task.schedule t EPOLLOUT (s0.upd t (fun T => { T with out :=
          [{ ptr := .owned (((s0.mem ptr).drop a.2.ofs).take (len - a.2.ofs)),
             len := len - a.2.ofs }] }))).state? = some s1 := by
        rw [h1]; rfl
      have f := schedule_maskFrame hst
      have hne : (fifoAccepted s.script len).1 ≠ len := fun e => by
        have := k3.mpr (by simpa using e)
        rw [hb] at this
        cases this
      refine ⟨by rw [f.wire]; exact hwire, ?_⟩
      rw [if_pos (by omega), unmasked_out f.task, upd_tasks_same, hofs, h2.mem, List.drop_take]

/-- C11: take a task `t` with an empty outbound queue, in any state and with any pattern
of write results, and let `b = ptr[0 .. len)`.  When `async_write_cpy(ptr,len)` returns, its
synchronous attempt has put the first `w` bytes of `b` on the wire, where `w` is what the
kernel accepted of the `len` bytes (`fifoAccepted`), and the queue is empty (`w = len`) or
holds one owned segment with exactly `b[w .. len)`.  Let the caller then overwrite its
buffers (`mem2` is any new content) and let `k` writable events be dispatched: however
they end, what went onto the wire is a prefix of `b`; when they have returned, it is `b`
without the bytes still queued, so once the queue is empty the wire holds exactly `b`.  And
the bytes do get there: for an open task with a valid descriptor that is registered with the
epoll instance exactly when its interest mask is not 0, in a scheduler whose timeout list is
a well-formed linked list, and write results that are positive counts, `EWOULDBLOCK` or
`EINTR`, `async_write_cpy` does return, with `w` and the queue as said; the `k` writable
events do what the FIFO of the specification does with the owned segment and the write
results left (`fifoFrom`), returning, or ending with the `GracefulClose` of a half-closed
task when the queue is empty; the wire holds the `w` bytes and then what the FIFO sent, and
this followed by what is still queued is `b`. -/
theorem C11_async_write_cpy_owns_tail (h : Hooks) (t : TaskId) (ptr len : Nat) (s : Sched)
    (mem2 : Nat → List Nat) (k : Nat) (hout : (s.tasks t).out = []) :
    (∀ s1, Task.async_write_cpy t ptr len s = .ok () s1 →
      s1.wire (s.tasks t).fd =
        s.wire (s.tasks t).fd ++ (s.mem ptr).take (fifoAccepted s.script len).1 ∧
      (s1.tasks t).out = (if (fifoAccepted s.script len).1 < len then
          [{ ptr := .owned (((s.mem ptr).take len).drop (fifoAccepted s.script len).1),
             len := len - (fifoAccepted s.script len).1 }]
        else []) ∧
      (s.mem ptr).take (fifoAccepted s.script len).1 ++ s1.pending t = (s.mem ptr).take len ∧
      (∀ s', WriteCall.execAll h t (List.replicate k .writable) { s1 with mem := mem2 } =
          .ok () s' →
        ∃ d, s'.wire (s.tasks t).fd = s.wire (s.tasks t).fd ++ d ∧
          d <+: (s.mem ptr).take len ∧ d ++ s'.pending t = (s.mem ptr).take len ∧
          ((s'.tasks t).out = [] → d = (s.mem ptr).take len)) ∧
      (∀ e s', WriteCall.execAll h t (List.replicate k .writable) { s1 with mem := mem2 } =
          .throw e s' →
        ∃ d, s'.wire (s.tasks t).fd = s.wire (s.tasks t).fd ++ d ∧
          d <+: (s.mem ptr).take len)) ∧
    (∀ L : List TaskId, (s.tasks t).closed = false → 0 ≤ (s.tasks t).fd →
      ((s.tasks t).events = 0 ↔ s.epoll (s.tasks t).fd = none) →
      s.script.all WriteRes.benign = true → TimeoutWF s L →
      ∃ s1 s', Task.async_write_cpy t ptr len s = .ok () s1 ∧
        s1.wire (s.tasks t).fd =
          s.wire (s.tasks t).fd ++ (s.mem ptr).take (fifoAccepted s.script len).1 ∧
        s1.script = (fifoAccepted s.script len).2 ∧
        (s1.tasks t).out = (if (fifoAccepted s.script len).1 < len then
            [{ ptr := .owned (((s.mem ptr).take len).drop (fifoAccepted s.script len).1),
               len := len - (fifoAccepted s.script len).1 }]
          else []) ∧
        (s1.tasks t).half_close = (s.tasks t).half_close ∧
        WriteCall.execAll h t (List.replicate k .writable) { s1 with mem := mem2 } =
          (match (fifoFrom { s1 with mem := mem2 } t (List.replicate k .writable)).thrown with
            | some e => .throw e s'
            | none => .ok () s') ∧
        s'.wire (s.tasks t).fd =
          s.wire (s.tasks t).fd ++ (s.mem ptr).take (fifoAccepted s.script len).1 ++
            (fifoFrom { s1 with mem := mem2 } t (List.replicate k .writable)).fifo.sent ∧
        (s'.tasks t).out =
          (fifoFrom { s1 with mem := mem2 } t (List.replicate k .writable)).fifo.queue ∧
        s'.script =
          (fifoFrom { s1 with mem := mem2 } t (List.replicate k .writable)).fifo.script ∧
        (s.mem ptr).take (fifoAccepted s.script len).1 ++
            (fifoFrom { s1 with mem := mem2 } t (List.replicate k .writable)).fifo.sent ++
            s'.pending t = (s.mem ptr).take len ∧
        ((s'.tasks t).out = [] →
          s'.wire (s.tasks t).fd = s.wire (s.tasks t).fd ++ (s.mem ptr).take len)) := by
  refine ⟨fun s1 h1 => ?_, fun L hopen hfd hreg hscript hlist => ?_⟩
  · have f1 := async_write_cpy_flow t ptr len s
    rw [h1] at f1
    have hp0 : s.pending t = [] := by rw [pending_eq hout]; rfl
    obtain ⟨d1, w1, c1⟩ := f1.bytes
    rw [hp0, List.nil_append] at c1
    have hown := async_write_cpy_owned hout h1
    have f2 := execAll_flow h t (List.replicate k .writable) { s1 with mem := mem2 }
    rw [enqueued_writable] at f2
    have hfd1 : (Sched.tasks { s1 with mem := mem2 } t).fd = (s.tasks t).fd := f1.fd
    have hw1 : Sched.wire { s1 with mem := mem2 } (s.tasks t).fd =
        s.wire (s.tasks t).fd ++ d1 := w1
    obtain ⟨r1, r2⟩ := async_write_cpy_returned hout h1
    have hd1 : d1 = (s.mem ptr).take (fifoAccepted s.script len).1 :=
      List.append_cancel_left (w1.symm.trans r1)
    refine ⟨r1, r2, by rw [← hd1]; exact c1, fun s' he => ?_, fun e s' he => ?_⟩
    · rw [he] at f2
      obtain ⟨d2, w2, c2⟩ := f2.bytes
      rw [List.append_nil, pending_owned hown] at c2
      rw [hfd1, hw1] at w2
      have hc : (d1 ++ d2) ++ s'.pending t = (s.mem ptr).take len := by
        rw [List.append_assoc, c2, c1]
      refine ⟨d1 ++ d2, by rw [w2, List.append_assoc], ?_, hc, fun ho => ?_⟩
      · rw [← hc]; exact List.prefix_append _ _
      · rw [← hc, pending_eq ho]; simp
    · rw [he] at f2
      obtain ⟨d2, w2, p2⟩ := f2
      rw [List.append_nil, pending_owned hown] at p2
      rw [hfd1, hw1] at w2
      refine ⟨d1 ++ d2, by rw [w2, List.append_assoc], ?_⟩
      rw [← c1]
      exact (List.prefix_append_right_inj d1).mpr p2
  obtain ⟨s0, s1, hfr, h1, hw, hs, hm, hblk, hdone⟩ :=
    enqueue_exact true t ptr len s hopen hfd hreg hscript hout
  have h1' : Task.async_write_cpy t ptr len s = .ok () s1 := h1
  generalize hW : (fifoAccepted s.script len).1 = w at *
  have hwle : w ≤ len := by rw [← hW]; exact fifoAccepted_le _ _
  have f0 : (s0.tasks t).fd = (s.tasks t).fd := uncounted_fd hfr.task
  have hL0 := hfr.keeps_list hlist
  have hben0 : s0.script.all WriteRes.benign = true := by
    obtain ⟨u, hu⟩ := hfr.script
    exact benign_suffix hu hscript
  -- the state after the call
  have hfacts : (s1.tasks t).closed = false ∧ (s1.tasks t).fd = (s.tasks t).fd ∧
      (s1.tasks t).half_close = (s.tasks t).half_close ∧
      ((s1.tasks t).events = 0 ↔ s1.epoll (s.tasks t).fd = none) ∧
      s1.script.all WriteRes.benign = true ∧
      (s1.tasks t).out = (if w < len then
          [{ ptr := .owned (((s.mem ptr).take len).drop w), len := len - w }] else []) ∧
      (EPOLLOUT &&& (s1.tasks t).events = 0 → (s1.tasks t).out = []) ∧
      TimeoutWF s1 L := by
    by_cases hlt : w < len
    · have e := hblk hlt
      rw [if_pos hlt]
      refine ⟨?_, ?_, ?_, ?_, ?_, ?_, ?_, ?_⟩
      · rw [e]; simp only [setEpoll_tasks, upd_tasks_same]
        rw [uncounted_closed hfr.task]; exact hopen
      · rw [e]; simp only [setEpoll_tasks, upd_tasks_same]; exact f0
      · rw [e]; simp only [setEpoll_tasks, upd_tasks_same]
        exact uncounted_half_close hfr.task
      · rw [e]; simp only [setEpoll_tasks, upd_tasks_same, setEpoll_epoll, if_pos rfl]
        constructor
        · intro e0; exact absurd e0 (lor_EPOLLOUT_ne_zero _)
        · intro e0; cases e0
      · rw [hs]; rw [← hs, e]; exact hben0
      · rw [e]; simp only [setEpoll_tasks, upd_tasks_same, residual, if_true]
        rw [List.drop_take]
      · intro h0
        rw [e] at h0
        simp only [setEpoll_tasks, upd_tasks_same] at h0
        exact absurd h0 (lor_out_bit _)
      · rw [e]
        refine hL0.congr (fun x => ?_) (fun x => ?_) rfl rfl
        · simp only [setEpoll_tasks]
          rw [upd_tasks]; split
          · next h => subst h; rw [upd_tasks_same]
          · next h => rw [upd_tasks_ne _ _ h]
        · simp only [setEpoll_tasks]
          rw [upd_tasks]; split
          · next h => subst h; rw [upd_tasks_same]
          · next h => rw [upd_tasks_ne _ _ h]
    · have e := hdone hlt
      rw [if_neg hlt, e]
      refine ⟨?_, f0, uncounted_half_close hfr.task, ?_, hben0,
        (uncounted_out hfr.task).trans hout, fun _ => (uncounted_out hfr.task).trans hout, hL0⟩
      · rw [uncounted_closed hfr.task]; exact hopen
      · rw [uncounted_events hfr.task, hfr.epoll]; exact hreg
  obtain ⟨c1, c2, c3, c4, c5, c6, c7, c8⟩ := hfacts
  -- the writable events on the state with the caller's buffers overwritten
  obtain ⟨s', he, hw', ho', hs', hcons, -, -⟩ :=
    execAll_fifoFrom h t (List.replicate k .writable) { s1 with mem := mem2 } L
      c1 (by show 0 ≤ (s1.tasks t).fd; rw [c2]; exact hfd)
      (by show (s1.tasks t).events = 0 ↔ s1.epoll (s1.tasks t).fd = none; rw [c2]; exact c4)
      c5 c7 (c8.congr (fun _ => rfl) (fun _ => rfl) rfl rfl)
  have hfd1 : (Sched.tasks { s1 with mem := mem2 } t).fd = (s.tasks t).fd := c2
  rw [hfd1] at hw'
  have hw1 : Sched.wire { s1 with mem := mem2 } (s.tasks t).fd = s1.wire (s.tasks t).fd := rfl
  rw [hw1, hw] at hw'
  -- the bytes the calls performed enqueue: none
  have hnone : WriteCall.enqueued { s1 with mem := mem2 }
      (fifoFrom { s1 with mem := mem2 } t (List.replicate k .writable)).done = [] := by
    obtain ⟨post, hpost⟩ := (fifoRun_spec { s1 with mem := mem2 }
      (Sched.tasks { s1 with mem := mem2 } t).half_close (List.replicate k .writable)
      { sent := [], queue := (Sched.tasks { s1 with mem := mem2 } t).out,
        script := Sched.script { s1 with mem := mem2 } }).2.1
    have e := enqueued_writable { s1 with mem := mem2 } k
    rw [hpost, enqueued_append] at e
    exact (List.append_eq_nil.mp e).1
  have hpend : Sched.pending { s1 with mem := mem2 } t = ((s.mem ptr).take len).drop w := by
    have ho1 : (Sched.tasks { s1 with mem := mem2 } t).out = (s1.tasks t).out := rfl
    rw [pending_eq ho1, c6]
    by_cases hlt : w < len
    · rw [if_pos hlt]
      simp only [List.map_cons, List.map_nil, List.flatten_cons, List.flatten_nil,
        List.append_nil]
      rw [rest_owned]
      apply List.take_of_length_le
      simp only [List.length_drop, List.length_take]
      omega
    · rw [if_neg hlt]
      have : len ≤ w := Nat.le_of_not_lt hlt
      simp only [List.map_nil, List.flatten_nil]
      symm
      apply List.drop_eq_nil_of_le
      simp only [List.length_take]
      omega
  rw [hnone, List.append_nil, hpend] at hcons
  have hall : (s.mem ptr).take w ++
      (fifoFrom { s1 with mem := mem2 } t (List.replicate k .writable)).fifo.sent ++
      s'.pending t = (s.mem ptr).take len := by
    rw [List.append_assoc, hcons]
    have e : (s.mem ptr).take w = ((s.mem ptr).take len).take w := by
      rw [List.take_take, min_eq_left hwle]
    rw [e, List.take_append_drop]
  refine ⟨s1, s', h1', hw, hs, c6, c3, he, hw', ho', hs', hall, fun he0 => ?_⟩
  rw [hw', List.append_assoc]
  rw [pending_eq he0] at hall
  simp only [List.map_nil, List.flatten_nil, List.append_nil] at hall
  rw [hall]

/-- C11 witness: 7 bytes, of which the kernel takes 3 at once and then blocks; the caller
zeroes its buffer; at the writable event that follows the kernel takes the other 4: the
wire holds the 7 original bytes and the queue is empty. -/
theorem C11_async_write_cpy_owns_tail_witness :
    ∃ s1 s', Task.async_write_cpy 0 1 7 writer3_7_2 = .ok () s1 ∧
      s1.wire 5 = [4, 5, 6] ∧
      (s1.tasks 0).out = [{ ptr := .owned [7, 8, 9, 10], len := 4 }] ∧
      WriteCall.execAll defaultHooks 0 (List.replicate 1 .writable)
        { s1 with mem := zeroed writer3_7_2.mem } = .ok () s' ∧
      s'.wire 5 = [4, 5, 6, 7, 8, 9, 10] ∧ (s'.tasks 0).out = [] ∧
      s'.wire 5 = (writer3_7_2.mem 1).take 7 := by
  obtain ⟨hall, hex⟩ := C11_async_write_cpy_owns_tail defaultHooks 0 1 7 writer3_7_2
      (zeroed writer3_7_2.mem) 1 (by decide)
  obtain ⟨s1, s', h1, h2, h3, h4, h5, h6, h7, h8, -, -, -⟩ :=
    hex [] (by decide) (by decide) (by decide) (by decide) writer3_7_2_timeoutWF
  have hA : fifoAccepted writer3_7_2.script 7 = (3, [.accept 5, .accept 100, .accept 100]) := by
    decide
  rw [hA] at h2 h3 h4 h7
  have h4' : (s1.tasks 0).out = [{ ptr := .owned [7, 8, 9, 10], len := 4 }] := h4
  have h5' : (s1.tasks 0).half_close = none := h5
  have hF : fifoFrom { s1 with mem := zeroed writer3_7_2.mem } 0 (List.replicate 1 .writable) =
      { fifo := { sent := [7, 8, 9, 10], queue := [], script := [.accept 100, .accept 100] },
        thrown := none, done := [.writable] } := by
    unfold fifoFrom
    show fifoRun _ (s1.tasks 0).half_close _
      { sent := [], queue := (s1.tasks 0).out, script := s1.script } = _
    rw [h4', h5', h3]
    rfl
  rw [hF] at h6 h7 h8
  obtain ⟨-, -, -, hok, -⟩ := hall s1 h1
  obtain ⟨d, a1, -, -, a4⟩ := hok s' h6
  exact ⟨s1, s', h1, h2, h4', h6, h7, h8, a1.trans (a4 h8)⟩

/-- The witness of C11 in figures: the synchronous attempt writes 3 bytes and queues an owned
copy of the other 4; with the caller's buffer zeroed, two writable events put all 7 original
bytes on the wire and empty the queue. -/
theorem writer_cpy_zeroed_delivers :
    ((Task.async_write_cpy 0 1 7 writer3_7_2).state?.map fun s1 =>
        (s1.wire 5, (s1.tasks 0).out)) =
      some ([4, 5, 6], [{ ptr := .owned [7, 8, 9, 10], len := 4 }]) ∧
    (((Task.async_write_cpy 0 1 7 writer3_7_2).bind fun _ s1 =>
        WriteCall.execAll defaultHooks 0 [.writable, .writable]
          { s1 with mem := zeroed s1.mem }).state?.map fun s' =>
        (s'.wire 5, (s'.tasks 0).out, s'.mem 1)) =
      some ([4, 5, 6, 7, 8, 9, 10], [], [0, 0, 0, 0, 0, 0, 0]) := by
  decide

/-! ## C21: what a writable event does -/

/-- C21 counterexample: three dispatches with the writable bit of a half-closed task (reason
`"bye"`) that has one segment of 4 bytes queued.  With the hang-up bit set as well,
`Task::run` calls `disconnected()`, which throws `ClientError`: no segment is written although
the kernel would accept it.  When `::write` returns 0, `Task::run` throws
`GracefulClose("end of output stream")` out of the drain: a `GracefulClose` is raised
although the queue is not empty (nothing was sent, `EPOLLOUT` is still set).  When the
descriptor is not registered with the epoll instance, the 4 bytes are delivered, the queue is
empty and `EPOLLOUT` is removed from the interest mask, but `unschedule` throws `CError` from
its `epoll_ctl` before `half_close` is looked at: no `GracefulClose("bye")` is raised. -/
theorem C21_counterexample :
    EPOLLOUT &&& (EPOLLOUT ||| EPOLLHUP) ≠ 0 ∧
    (Task.run defaultHooks 0 (EPOLLOUT ||| EPOLLHUP) halfClosedWriter).exn? =
      some .clientError ∧
    writableView (Task.run defaultHooks 0 (EPOLLOUT ||| EPOLLHUP) halfClosedWriter) 0 5 =
      some ([], [{ ptr := .owned [1, 2, 3, 4], len := 4 }], EPOLLOUT, some EPOLLOUT) ∧
    EPOLLOUT &&& EPOLLOUT ≠ 0 ∧
    (halfClosedWriter0.tasks 0).half_close = some "bye" ∧
    (Task.run defaultHooks 0 EPOLLOUT halfClosedWriter0).exn? =
      some (.gracefulClose "end of output stream") ∧
    writableView (Task.run defaultHooks 0 EPOLLOUT halfClosedWriter0) 0 5 =
      some ([], [{ ptr := .owned [1, 2, 3, 4], len := 4 }], EPOLLOUT, some EPOLLOUT) ∧
    (Task.run_write 0 EPOLLOUT halfClosedWriter0).exn? =
      some (.gracefulClose "end of output stream") ∧
    (halfClosedWriterStale.tasks 0).half_close = some "bye" ∧
    (Task.run defaultHooks 0 EPOLLOUT halfClosedWriterStale).exn? = some .cError ∧
    writableView (Task.run defaultHooks 0 EPOLLOUT halfClosedWriterStale) 0 5 =
      some ([1, 2, 3, 4], [], 0, none) ∧
    (Task.run_write 0 EPOLLOUT halfClosedWriterStale).exn? = some .cError :=
  ⟨by decide, by decide, by decide, by decide, by decide, by decide, by decide, by decide,
    by decide, by decide, by decide, by decide⟩

/-- C21 (amended): take a task `t` dispatched with the writable bit, in any state and with
any pattern of write results, and the writable branch of `Task::run` (`Task.run_write`, which
`Task::run` comes to when no hang-up or error bit is set and the readable branch has
returned).  The branch ends.  The bytes that went onto the wire are a prefix of the bytes
that were queued, and after a return they are followed by the bytes still queued.  If the
queue is empty afterwards, `EPOLLOUT` is not in the interest mask.  After a return, an empty
queue means the task is not half-closed, and a queue that is not empty has at its head a
segment that did not complete and the interest mask is unchanged.  An exception with the
queue empty is `GracefulClose` with the reason of the half-close, or the `CError` of the
`epoll_ctl` of `unschedule`; an exception with the queue not empty comes from the `::write`
on its head (`CError`, `GracefulClose("end of output stream")` for a return value 0,
`InternalError` on a closed task) and leaves the interest mask unchanged.
For an open task with a valid descriptor `fd` that is registered with the epoll instance
exactly when the interest mask is not 0, and write results that are positive counts,
`EWOULDBLOCK` or `EINTR`, the branch does what the drain of the specification (`fifoDrain`)
does with the queue and the write results: it ends in a state `s'` in which the bytes that
drain sends have gone onto the wire, the queue and the write results left are those of that
drain, and the bytes sent followed by the bytes still queued are the bytes that were queued.
The queue left is empty, or it is the old queue from its segment `k` on, that segment
advanced by `w` bytes and not complete.  If the queue is empty, `EPOLLOUT` is not in the
interest mask any more, and the branch throws `GracefulClose(half_close)` when `half_close`
is set and returns when it is not; if the queue is not empty, the branch returns and the
interest mask is unchanged. -/
theorem C21_writable_branch (t : TaskId) (flags : Nat) (s : Sched)
    (hflag : EPOLLOUT &&& flags ≠ 0) :
    (∃ s', (Task.run_write t flags s).state? = some s' ∧
      (∃ d, s'.wire (s.tasks t).fd = s.wire (s.tasks t).fd ++ d ∧ d <+: s.pending t ∧
        (Task.run_write t flags s = .ok () s' → d ++ s'.pending t = s.pending t)) ∧
      ((s'.tasks t).out = [] → EPOLLOUT &&& (s'.tasks t).events = 0) ∧
      (Task.run_write t flags s = .ok () s' →
        ((s'.tasks t).out = [] → (s.tasks t).half_close = none) ∧
        ((s'.tasks t).out ≠ [] → (s'.tasks t).events = (s.tasks t).events ∧
          ∃ o q, (s'.tasks t).out = o :: q ∧ o.ofs < o.len)) ∧
      (∀ e, Task.run_write t flags s = .throw e s' →
        ((s'.tasks t).out = [] ∧
          (e = .cError ∨ ∃ msg, (s.tasks t).half_close = some msg ∧ e = .gracefulClose msg)) ∨
        ((s'.tasks t).out ≠ [] ∧ (s'.tasks t).events = (s.tasks t).events ∧
          (e = .cError ∨ e = .gracefulClose "end of output stream" ∨
            e = .internalError)))) ∧
    ((s.tasks t).closed = false → 0 ≤ (s.tasks t).fd →
      ((s.tasks t).events = 0 ↔ s.epoll (s.tasks t).fd = none) →
      s.script.all WriteRes.benign = true →
      ∃ s', Task.run_write t flags s =
          (if (fifoDrain s (s.tasks t).out s.script).queue = [] then
            (match (s.tasks t).half_close with
              | some msg => .throw (.gracefulClose msg) s'
              | none => .ok () s')
          else .ok () s') ∧
        s'.wire (s.tasks t).fd =
          s.wire (s.tasks t).fd ++ (fifoDrain s (s.tasks t).out s.script).sent ∧
        (s'.tasks t).out = (fifoDrain s (s.tasks t).out s.script).queue ∧
        s'.script = (fifoDrain s (s.tasks t).out s.script).script ∧
        (fifoDrain s (s.tasks t).out s.script).sent ++ s'.pending t = s.pending t ∧
        ((s'.tasks t).out = [] ∨
          ∃ k o w, ((s.tasks t).out.drop k).head? = some o ∧
            (s'.tasks t).out = { o with ofs := o.ofs + w } :: (s.tasks t).out.drop (k + 1) ∧
            o.ofs + w < o.len) ∧
        ((s'.tasks t).out = [] → EPOLLOUT &&& (s'.tasks t).events = 0) ∧
        ((s'.tasks t).out ≠ [] → (s'.tasks t).events = (s.tasks t).events)) := by
  refine ⟨?_, fun hopen hfd hreg hscript => ?_⟩
  · obtain ⟨s', h1, h2, h3, h4⟩ := run_write_outcome t flags s hflag
    refine ⟨s', h1, ?_, h2, h3, h4⟩
    have hflow := run_write_flow t flags s
    cases hr : Task.run_write t flags s with
    | diverge => rw [hr] at h1; cases h1
    | ok u sx =>
      rw [hr] at h1 hflow
      cases h1
      obtain ⟨d, hw, hc⟩ := hflow.bytes
      rw [List.append_nil] at hc
      exact ⟨d, hw, by rw [← hc]; exact List.prefix_append _ _, fun _ => hc⟩
    | throw e sx =>
      rw [hr] at h1 hflow
      cases h1
      obtain ⟨d, hw, hp⟩ := hflow
      rw [List.append_nil] at hp
      refine ⟨d, hw, hp, ?_⟩
      intro he; cases he
  have key : ∀ s1 : Sched, (s1.tasks t).closed = false → (s1.tasks t).fd = (s.tasks t).fd →
      (s1.tasks t).events = (s.tasks t).events → (s1.tasks t).out = (s.tasks t).out →
      (s1.tasks t).half_close = (s.tasks t).half_close → s1.epoll = s.epoll →
      s1.script = s.script → s1.mem = s.mem → s1.wire = s.wire →
      ∃ s',
        ((Task.drain ((s1.tasks t).out.length + 1) t s1).bind fun _ s2 =>
          if (s2.tasks t).out.isEmpty then
            (Task.unschedule t EPOLLOUT s2).bind fun _ s3 =>
              match (s3.tasks t).half_close with
              | some msg => .throw (.gracefulClose msg) s3
              | none => .ok () s3
          else .ok () s2) =
          (if (fifoDrain s (s.tasks t).out s.script).queue = [] then
            (match (s.tasks t).half_close with
              | some msg => .throw (.gracefulClose msg) s'
              | none => .ok () s')
          else .ok () s') ∧
        s'.wire (s.tasks t).fd =
          s.wire (s.tasks t).fd ++ (fifoDrain s (s.tasks t).out s.script).sent ∧
        (s'.tasks t).out = (fifoDrain s (s.tasks t).out s.script).queue ∧
        s'.script = (fifoDrain s (s.tasks t).out s.script).script ∧
        (fifoDrain s (s.tasks t).out s.script).sent ++ s'.pending t = s.pending t ∧
        ((s'.tasks t).out = [] ∨
          ∃ k o w, ((s.tasks t).out.drop k).head? = some o ∧
            (s'.tasks t).out = { o with ofs := o.ofs + w } :: (s.tasks t).out.drop (k + 1) ∧
            o.ofs + w < o.len) ∧
        ((s'.tasks t).out = [] → EPOLLOUT &&& (s'.tasks t).events = 0) ∧
        ((s'.tasks t).out ≠ [] → (s'.tasks t).events = (s.tasks t).events) := by
    intro s1 c1 c2 c3 c4 c5 c6 c7 c8 c9
    obtain ⟨s2, s', -, -, h1, h2, h3, h4, h5, -, -, h8, h9⟩ :=
      run_write_exact t s s1 hfd hreg hscript c1 c2 c3 c4 c5 c6 c7 c8 c9
    refine ⟨s', h1, h2, h3, h4, ?_, ?_, fun e => (h8 e).1, fun e => (h9 e).1⟩
    · have hp : s'.pending t =
          ((fifoDrain s (s.tasks t).out s.script).queue.map (Out.rest s)).flatten := by
        rw [pending_eq h3]
        congr 1
        exact List.map_congr_left (fun o _ => rest_congr h5 o)
      rw [hp, fifoDrain_sent]
      rfl
    · rw [h3]
      exact fifoDrain_queue s _ _
  have hf : (EPOLLOUT &&& flags != 0) = true := by simpa using hflag
  unfold Task.run_write
  rw [if_pos hf]
  simp only []
  split
  · exact key _ (by rw [upd_tasks_same]; exact hopen) (by rw [upd_tasks_same])
      (by rw [upd_tasks_same]) (by rw [upd_tasks_same]) (by rw [upd_tasks_same]) rfl rfl rfl rfl
  · exact key s hopen rfl rfl rfl rfl rfl rfl rfl rfl

/-- C21 witness: the half-closed task (reason `"bye"`) with one segment of 4 bytes queued and
a kernel that accepts what is offered, dispatched with the writable bit: the 4 bytes are
delivered, the queue is empty, `EPOLLOUT` is cleared and `GracefulClose("bye")` is thrown. -/
theorem C21_writable_branch_witness :
    EPOLLOUT &&& EPOLLOUT ≠ 0 ∧
    ∃ s', Task.run_write 0 EPOLLOUT halfClosedWriter = .throw (.gracefulClose "bye") s' ∧
      s'.wire 5 = [1, 2, 3, 4] ∧ (s'.tasks 0).out = [] ∧ s'.script = [] ∧
      EPOLLOUT &&& (s'.tasks 0).events = 0 := by
  refine ⟨by decide, ?_⟩
  obtain ⟨s', h1, h2, h3, h4, -, -, h7, -⟩ :=
    (C21_writable_branch 0 EPOLLOUT halfClosedWriter (by decide)).2 (by decide) (by decide)
      (by decide) (by decide)
  have hF : fifoDrain halfClosedWriter (halfClosedWriter.tasks 0).out halfClosedWriter.script =
      { sent := [1, 2, 3, 4], queue := [], script := [] } := by decide
  rw [hF] at h1 h2 h3 h4
  exact ⟨s', h1, h2, h3, h4, h7 h3⟩

/-- The example of the specification evaluated with `Task::run`: the half-closed task with
one segment of 4 bytes queued delivers the 4 bytes, is removed from the epoll instance
(interest 0) and throws `GracefulClose` with the reason; when the kernel accepts only 3
bytes, nothing is thrown, the segment stays queued with `ofs = 3` and `EPOLLOUT` stays
set. -/
theorem halfClosedWriter_run :
    (Task.run defaultHooks 0 EPOLLOUT halfClosedWriter).exn? = some (.gracefulClose "bye") ∧
      writableView (Task.run defaultHooks 0 EPOLLOUT halfClosedWriter) 0 5 =
        some ([1, 2, 3, 4], [], 0, none) ∧
      (Task.run defaultHooks 0 EPOLLOUT halfClosedWriter3).returned = true ∧
      writableView (Task.run defaultHooks 0 EPOLLOUT halfClosedWriter3) 0 5 =
        some ([1, 2, 3], [{ ptr := .owned [1, 2, 3, 4], len := 4, ofs := 3 }],
          EPOLLOUT, some EPOLLOUT) := by
  decide


end Hellepoll
